import Mathlib

/-!
# Dense linear-algebra kernels of `mat.c` (mgcv): embedding and verification

Buffers of doubles are modelled as functions `Nat → α` from the offset relative to the
base pointer to the stored value; `α` is an exact number type (a commutative ring, or a
linearly ordered field where the code divides and compares).  C `int` quantities that are
sizes, counters and offsets are natural numbers.  A pointer of the source is an explicit
offset: a pointer that a loop header advances by a constant stride is written as its start
plus the loop counter times the stride, and a pointer that lives across loops is a variable
of the state.  Parallel sections are run as the sequential program that the source is
without its pragmas.
-/

set_option autoImplicit false

namespace Mgcv


/-! ## Loop combinator -/

/-- Counted loop `for (i = 0; i < n; i++) s = body i s`. -/
def forLoop {σ : Type} : Nat → (Nat → σ → σ) → σ → σ
  | 0, _, s => s
  | k + 1, body, s => body k (forLoop k body s)

/-- Store `v` at offset `p` of buffer `buf` (the assignment `*p = v`). -/
def store {α : Type} (buf : Nat → α) (p : Nat) (v : α) : Nat → α :=
  fun q => if q = p then v else buf q

/-! ## `mgcv_tensor_mm` (mat.c lines 76-111) -/

/-- Registers of `mgcv_tensor_mm` that are live across the inner loops: the target buffer
`T`, the write pointer `p`, the read pointer `p1` into the filled block of `T`, and the
pointer `Xj` to the current column of the current matrix of `X`. -/
structure TmmState (α : Type) where
  T : Nat → α
  p : Nat
  p1 : Nat
  Xj : Nat

/-- Innermost loop `for (p2 = Xj; p2 < Xj1; p2++, p1++, p++) *p = *p1 * *p2;` with
`Xj1 = Xj + n`. -/
def tmmRow {α : Type} [Mul α] (X : Nat → α) (n : Nat) (s : TmmState α) : TmmState α :=
  forLoop n (fun t s => { s with T := store s.T s.p (s.T s.p1 * X (s.Xj + t)),
                                 p := s.p + 1, p1 := s.p1 + 1 }) s

/-- Body of `for (j = 0; j < d[i]; j++)`: `p1 = Tk`, then `pd` sweeps of the innermost
loop, then `Xj += n`. -/
def tmmCol {α : Type} [Mul α] (X : Nat → α) (n pd Tk : Nat) (s : TmmState α) : TmmState α :=
  let s1 := forLoop pd (fun _ s => tmmRow X n s) { s with p1 := Tk }
  { s1 with Xj := s1.Xj + n }

/-- Registers live across the loop over the matrices: the target `T`, the pointer `Xk` to the
start of the current matrix, the pointer `Tk` to the filled block and its column count
`pd`. -/
structure TmmOuter (α : Type) where
  T : Nat → α
  Xk : Nat
  Tk : Nat
  pd : Nat

/-- Body of `for (i = m - 2; i >= 0; i--)`. -/
def tmmStep {α : Type} [Mul α] (X : Nat → α) (d : Nat → Nat) (n tp i : Nat)
    (s : TmmOuter α) : TmmOuter α :=
  let Xk := s.Xk - n * d i
  let start := tp - s.pd * d i
  let s1 := forLoop (d i) (fun _ st => tmmCol X n s.pd s.Tk st)
    { T := s.T, p := start * n, p1 := s.Tk, Xj := Xk }
  let pd := s.pd * d i
  { T := s1.T, Xk := Xk, Tk := (tp - pd) * n, pd := pd }

/-- The function `mgcv_tensor_mm(X, T, d, m, n)`; the result is the final content of `T`
(`X` is only read). -/
def mgcv_tensor_mm {α : Type} [Mul α] (X T : Nat → α) (d : Nat → Nat) (m n : Nat) : Nat → α :=
  let xt := forLoop m (fun i (q : Nat × Nat) => (q.1 + d i, q.2 * d i)) (0, 1)
  let xp := xt.1
  let tp := xt.2
  let Xk := (xp - d (m - 1)) * n
  let Tk := (tp - d (m - 1)) * n
  -- p = Xk; p1 = Xk + n * d[m-1]; p2 = Tk; for (; p < p1; p++, p2++) *p2 = *p;
  let T0 := forLoop (n * d (m - 1)) (fun t T => store T (Tk + t) (X (Xk + t))) T
  let s := forLoop (m - 1) (fun t s => tmmStep X d n tp (m - 2 - t) s)
    { T := T0, Xk := Xk, Tk := Tk, pd := d (m - 1) }
  s.T

/-! ### Index arithmetic of the row tensor product -/

/-- Product of the column counts of the matrices `i, ..., m-1`. -/
def sufProd (d : Nat → Nat) (m i : Nat) : Nat := ∏ l in Finset.Ico i m, d l

/-- Number of columns of `X` in front of matrix `i`. -/
def colOff (d : Nat → Nat) (i : Nat) : Nat := ∑ l in Finset.range i, d l

/-- Column of the block built from matrices `i, ..., m-1` that belongs to the index tuple
`c` (matrix `i` varies slowest). -/
def tIdx (d c : Nat → Nat) (m i : Nat) : Nat :=
  ∑ l in Finset.Ico i m, c l * sufProd d m (l + 1)


/-! ## `mgcv_mmult0` (mat.c lines 124-203)

The C `int` flags `bt`, `ct` are natural numbers that are tested for being nonzero. `A`, `B`
and `C` are three distinct buffers. -/

/-- Number of iterations of `for (p = lo; p < hi; p += step)`. -/
def strideCount (lo hi step : Nat) : Nat := (hi - lo + step - 1) / step

/-- Case `bt && ct`, first inner loop
`for (ap = A, cp = C; cp < cp1; cp++, ap += *r) { *ap = *cp; *cp *= xx; }`, where `Aoff` is
the current value of the pointer `A`. The state is the pair of buffers `(A, C)`. -/
def mm0ttBackup {α : Type} [Mul α] (xx : α) (r c Aoff : Nat)
    (s : (Nat → α) × (Nat → α)) : (Nat → α) × (Nat → α) :=
  forLoop c (fun q s => (store s.1 (Aoff + q * r) (s.2 q), store s.2 q (s.2 q * xx))) s

/-- Registers of the accumulation loop of case `bt && ct`: buffer `C` and pointers `B`,
`cp2`. -/
structure Mm0Acc (α : Type) where
  C : Nat → α
  Boff : Nat
  cp2 : Nat

/-- Case `bt && ct`, loop
`for (j = 1; j < *n; j++, B++) for (xx = *B, cp = C; cp < cp1; cp++, cp2++) *cp += xx * *cp2;`. -/
def mm0ttAccum {α : Type} [Add α] [Mul α] (B : Nat → α) (c n : Nat) (s : Mm0Acc α) : Mm0Acc α :=
  forLoop (n - 1) (fun _ s =>
    let xx := B s.Boff
    let t := forLoop c (fun q (t : (Nat → α) × Nat) =>
      (store t.1 q (t.1 q + xx * t.1 t.2), t.2 + 1)) (s.C, s.cp2)
    { C := t.1, Boff := s.Boff + 1, cp2 := t.2 }) s

/-- Case `bt && ct`, last inner loop
`for (ap = A, cp = C; cp < cp1; cp++, ap += *r) { xx = *ap; *ap = *cp; *cp = xx; }`. -/
def mm0ttSwap {α : Type} (r c Aoff : Nat)
    (s : (Nat → α) × (Nat → α)) : (Nat → α) × (Nat → α) :=
  forLoop c (fun q s => (store s.1 (Aoff + q * r) (s.2 q), store s.2 q (s.1 (Aoff + q * r)))) s

/-- Registers of the row loop of case `bt && ct`. -/
structure Mm0TT (α : Type) where
  A : Nat → α
  C : Nat → α
  Aoff : Nat
  Boff : Nat

/-- Body of `for (i = 0; i < *r; i++)` in case `bt && ct`. -/
def mm0ttRow {α : Type} [Add α] [Mul α] (B : Nat → α) (r c n : Nat) (s : Mm0TT α) : Mm0TT α :=
  let xx := B s.Boff
  let s1 := mm0ttBackup xx r c s.Aoff (s.A, s.C)
  let s2 := mm0ttAccum B c n { C := s1.2, Boff := s.Boff + 1, cp2 := c }
  let s3 := mm0ttSwap r c s.Aoff (s1.1, s2.C)
  { A := s3.1, C := s3.2, Aoff := s.Aoff + 1, Boff := s2.Boff }

/-- Case `bt && !ct`: dot product
`for (xx = 0.0, cp = cp1, cp3 = cp1 + *n; cp < cp3; cp++, bp++) xx += *cp * *bp;`; the state
is `(xx, bp)`. -/
def mm0tnDot {α : Type} [Add α] [Mul α] [Zero α] (B C : Nat → α) (n cp1 bp : Nat) : α × Nat :=
  forLoop n (fun k (t : α × Nat) => (t.1 + C (cp1 + k) * B t.2, t.2 + 1)) (0, bp)

/-- Case `bt && !ct`: body of `for (ap = A, cp1 = C; cp1 < cp2; cp1 += cr)`, that is
`for (bp = B, i = 0; i < *r; i++, ap++) { ...; *ap = xx; }`; the state is `(A, ap)` and
`jj` counts the iterations, so `cp1 = C + jj * cr` with `cr = *n`. -/
def mm0tnCol {α : Type} [Add α] [Mul α] [Zero α] (B C : Nat → α) (r n jj : Nat)
    (s : (Nat → α) × Nat) : (Nat → α) × Nat :=
  let t := forLoop r (fun _ (t : (Nat → α) × Nat × Nat) =>
    let d := mm0tnDot B C n (jj * n) t.2.2
    (store t.1 t.2.1 d.1, t.2.1 + 1, d.2)) (s.1, s.2, 0)
  (t.1, t.2.1)

/-- Registers of an output column in the cases `!bt`: the buffer `A`, the pointer into `C`
and the pointer `bp` into `B`. -/
structure Mm0Col (α : Type) where
  A : Nat → α
  Cp : Nat
  bp : Nat

/-- Cases `!bt`: one output column starting at `A + Aoff`. First
`xx = *C; bp = B; for (ap = A; ap < ap1; ap++, bp++) *ap = xx * *bp;`, then `C += cs`, then
`for (i = 1; i < *n; i++, C += cs) for (xx = *C, ap = A; ap < ap1; ap++, bp++) *ap += xx * *bp;`
where the stride `cs` is `*c` when `ct` is set and `1` otherwise. -/
def mm0nCol {α : Type} [Add α] [Mul α] (B C : Nat → α) (r n cs Aoff Cp : Nat)
    (A : Nat → α) : Mm0Col α :=
  let xx := C Cp
  let t := forLoop r (fun q (t : (Nat → α) × Nat) =>
    (store t.1 (Aoff + q) (xx * B t.2), t.2 + 1)) (A, 0)
  forLoop (n - 1) (fun _ s =>
    let xx := C s.Cp
    let t := forLoop r (fun q (t : (Nat → α) × Nat) =>
      (store t.1 (Aoff + q) (t.1 (Aoff + q) + xx * B t.2), t.2 + 1)) (s.A, s.bp)
    { A := t.1, Cp := s.Cp + cs, bp := t.2 }) { A := t.1, Cp := Cp + cs, bp := t.2 }

/-- Registers of the column loop of the cases `!bt`: the buffer `A`, the pointer `A`, and the
pointer that selects the column of `op(C)` (`cp` when `ct` is set, `C` otherwise). -/
structure Mm0N (α : Type) where
  A : Nat → α
  Aoff : Nat
  Cp : Nat

/-- The function `mgcv_mmult0(A, B, C, bt, ct, r, c, n)`; the result is the pair of the final
contents of `A` and of `C` (`B` is only read). -/
def mgcv_mmult0 {α : Type} [Add α] [Mul α] [Zero α] (A B C : Nat → α)
    (bt ct r c n : Nat) : (Nat → α) × (Nat → α) :=
  if bt ≠ 0 then
    if ct ≠ 0 then
      let s := forLoop r (fun _ s => mm0ttRow B r c n s) { A := A, C := C, Aoff := 0, Boff := 0 }
      (s.A, s.C)
    else
      -- cr = *n; cp2 = C + *c * cr;
      let s := forLoop (strideCount 0 (c * n) n) (fun jj s => mm0tnCol B C r n jj s) (A, 0)
      (s.1, C)
  else
    if ct ≠ 0 then
      -- cp = C; per column: C = cp; ...; A = ap1; cp++
      let s := forLoop c (fun _ (s : Mm0N α) =>
        let t := mm0nCol B C r n c s.Aoff s.Cp s.A
        { A := t.A, Aoff := s.Aoff + r, Cp := s.Cp + 1 }) { A := A, Aoff := 0, Cp := 0 }
      (s.A, C)
    else
      -- per column: ...; C++ (once after the first sweep, once per further sweep); A = ap1
      let s := forLoop c (fun _ (s : Mm0N α) =>
        let t := mm0nCol B C r n 1 s.Aoff s.Cp s.A
        { A := t.A, Aoff := s.Aoff + r, Cp := t.Cp }) { A := A, Aoff := 0, Cp := 0 }
      (s.A, C)

/-! ## BLAS primitives used by `mgcv_mmult`, `getXtX`, `getXXt`

`dgemm` and `dsyrk` are vendor routines; they are modelled by the reference BLAS
definition of their result (column-major storage, leading dimensions `lda`, `ldb`, `ldc`),
in exact arithmetic. A pointer argument `P + off` is the buffer `P` with the offset `off`. -/

/-- Reference BLAS `dgemm(transa, transb, M, N, K, alpha, A, lda, B, ldb, beta, C, ldc)`:
for `i < M`, `j < N`, `C[i + ldc*j] = alpha * Σ_{l<K} op(A)[i,l] * op(B)[l,j] + beta * C[i + ldc*j]`
with `op(A)[i,l] = A[l + lda*i]` if `transa` and `A[i + lda*l]` otherwise, and
`op(B)[l,j] = B[j + ldb*l]` if `transb` and `B[l + ldb*j]` otherwise. -/
def dgemm {α : Type} [Semiring α] (transa transb : Bool) (M N K : Nat) (alpha : α)
    (A : Nat → α) (aoff lda : Nat) (B : Nat → α) (boff ldb : Nat) (beta : α)
    (C : Nat → α) (coff ldc : Nat) : Nat → α :=
  forLoop N (fun j C => forLoop M (fun i C =>
    store C (coff + (i + ldc * j))
      (alpha * (∑ l in Finset.range K,
          (if transa then A (aoff + (l + lda * i)) else A (aoff + (i + lda * l))) *
          (if transb then B (boff + (j + ldb * l)) else B (boff + (l + ldb * j))))
        + beta * C (coff + (i + ldc * j)))) C) C

/-- Reference BLAS `dsyrk(uplo = 'L', trans, N, K, alpha, A, lda, beta, C, ldc)`: for
`j ≤ i < N`, `C[i + ldc*j] = alpha * Σ_{l<K} a(i,l) * a(j,l) + beta * C[i + ldc*j]` with
`a(i,l) = A[l + lda*i]` if `trans = 'T'` and `A[i + lda*l]` if `trans = 'N'`; only the lower
triangle of `C` is written. -/
def dsyrkLower {α : Type} [Semiring α] (trans : Bool) (N K : Nat) (alpha : α)
    (A : Nat → α) (lda : Nat) (beta : α) (C : Nat → α) (ldc : Nat) : Nat → α :=
  forLoop N (fun j C => forLoop (N - j) (fun t C =>
    store C ((j + t) + ldc * j)
      (alpha * (∑ l in Finset.range K,
          (if trans then A (l + lda * (j + t)) else A ((j + t) + lda * l)) *
          (if trans then A (l + lda * j) else A (j + lda * l)))
        + beta * C ((j + t) + ldc * j))) C) C

/-! ## `getXtX`, `getXXt` (mat.c lines 1021-1043) -/

/-- Loop `for (i = 0; i < N; i++) for (j = 0; j < i; j++) M[j + i * N] = M[i + j * N];`
shared by `getXtX` (with `N = *c`) and `getXXt` (with `N = *r`). -/
def fillUpper {α : Type} (N : Nat) (M : Nat → α) : Nat → α :=
  forLoop N (fun i M => forLoop i (fun j M => store M (j + i * N) (M (i + j * N))) M) M

/-- The function `getXtX(XtX, X, r, c)`: `dsyrk("L", "T", c, r, 1.0, X, r, 0.0, XtX, c)` and
the copy of the lower triangle to the upper one. -/
def getXtX {α : Type} [Semiring α] (XtX X : Nat → α) (r c : Nat) : Nat → α :=
  fillUpper c (dsyrkLower true c r 1 X r 0 XtX c)

/-- The function `getXXt(XXt, X, r, c)`: `dsyrk("L", "N", r, c, 1.0, X, r, 0.0, XXt, r)` and
the copy of the lower triangle to the upper one. -/
def getXXt {α : Type} [Semiring α] (XXt X : Nat → α) (r c : Nat) : Nat → α :=
  fillUpper r (dsyrkLower false r c 1 X r 0 XXt r)

/-! ## `mgcv_mmult` (mat.c lines 205-233) -/

/-- The general path of `mgcv_mmult`: `lda = bt ? n : r`, `ldb = ct ? c : n`, `ldc = r` and
`dgemm(transa, transb, r, c, n, 1.0, B, lda, C, ldb, 0.0, A, ldc)`. -/
def mmultGemm {α : Type} [Semiring α] (A B C : Nat → α) (bt ct r c n : Nat) : Nat → α :=
  let lda := if bt ≠ 0 then n else r
  let ldb := if ct ≠ 0 then c else n
  let ldc := r
  dgemm (decide (bt ≠ 0)) (decide (ct ≠ 0)) r c n 1 B 0 lda C 0 ldb 0 A 0 ldc

/-- The function `mgcv_mmult(A, B, C, bt, ct, r, c, n)`; the result is the final content of
`A`. The argument `C` is `none` when the pointer `C` equals the pointer `B` (the test
`B == C`), and `some C` when it points to a buffer of its own. -/
def mgcv_mmult {α : Type} [Semiring α] (A B : Nat → α) (C : Option (Nat → α))
    (bt ct r c n : Nat) : Nat → α :=
  if r = 0 ∨ c = 0 ∨ n = 0 then A
  else match C with
    | none =>
      if bt ≠ 0 ∧ ct = 0 ∧ r = c then getXtX A B n r
      else if ct ≠ 0 ∧ bt = 0 ∧ r = c then getXXt A B c n
      else mmultGemm A B B bt ct r c n
    | some C => mmultGemm A B C bt ct r c n

/-! ## `row_block_reorder` (mat.c lines 1559-1674)

The pointers `x0`, `x1` point into `x` or into the scratch array `extra`; a pointer is the
pair of the buffer it points into and a signed offset (the copy-down loops leave a pointer one
position before the start of its buffer, where it is never dereferenced). -/

/-- The two buffers accessed through `x0`, `x1`: the matrix `x` and the scratch `extra`. -/
structure RbrMem (α : Type) where
  x : Nat → α
  extra : Nat → α

/-- A pointer into `x` (`ext = false`) or into `extra` (`ext = true`). -/
structure Ptr where
  ext : Bool
  off : Int

/-- Pointer arithmetic `p + d`. -/
def Ptr.add (p : Ptr) (d : Int) : Ptr := { p with off := p.off + d }

/-- The value `*p`. -/
def RbrMem.rd {α : Type} (m : RbrMem α) (p : Ptr) : α :=
  if p.ext then m.extra p.off.toNat else m.x p.off.toNat

/-- The assignment `*p = v`. -/
def RbrMem.wr {α : Type} (m : RbrMem α) (p : Ptr) (v : α) : RbrMem α :=
  if p.ext then { m with extra := store m.extra p.off.toNat v }
  else { m with x := store m.x p.off.toNat v }

/-- Registers of the copy loops: memory and the pointers `x0` (target), `x1` (source). -/
structure RbrCopy (α : Type) where
  mem : RbrMem α
  x0 : Ptr
  x1 : Ptr

/-- Loop `for (j = 0; j < cnt; j++, x0--, x1--) *x0 = *x1;`. -/
def copyDown {α : Type} (cnt : Nat) (s : RbrCopy α) : RbrCopy α :=
  forLoop cnt (fun _ s =>
    { mem := s.mem.wr s.x0 (s.mem.rd s.x1), x0 := s.x0.add (-1), x1 := s.x1.add (-1) }) s

/-- Loop `for (j = 0; j < cnt; j++, x0++, x1++) *x0 = *x1;`. -/
def copyUp {α : Type} (cnt : Nat) (s : RbrCopy α) : RbrCopy α :=
  forLoop cnt (fun _ s =>
    { mem := s.mem.wr s.x0 (s.mem.rd s.x1), x0 := s.x0.add 1, x1 := s.x1.add 1 }) s

/-- Body of the reverse-mode padding loops:
`x0 -= *nb - nbf; for (j = 0; j < nbf; j++, x0--, x1--) *x0 = *x1;`. -/
def padRevBody {α : Type} (nb nbf : Nat) (s : RbrCopy α) : RbrCopy α :=
  copyDown nbf { s with x0 := s.x0.add (-((nb : Int) - (nbf : Int))) }

/-- Body of the forward-mode padding loops for segment `i`: a full segment if `(i+1) % k` is
nonzero, and otherwise a short one with the padding skipped in the target. -/
def padFwdBody {α : Type} (nb nbf k i : Nat) (s : RbrCopy α) : RbrCopy α :=
  if (i + 1) % k ≠ 0 then copyDown nb s
  else copyDown nbf { s with x0 := s.x0.add (-((nb : Int) - (nbf : Int))) }

/-- The padding phase (`if (nbf) { ... }` before the re-arrangement). The first loop runs
`i = ns-1, ..., ns_main` with targets in `extra`; then `x0 = x + ns_main * nb - 1` and the
second loop continues downwards, to `ns - c` in reverse mode and to `0` in forward mode. -/
def rbrPad {α : Type} (r c nb nbf k ns ns_main ns_extra reverse : Nat) (m : RbrMem α) :
    RbrMem α :=
  let x0 : Ptr := { ext := true, off := (nb : Int) * ns_extra - 1 }
  let x1 : Ptr := { ext := false, off := (r : Int) * c - 1 }
  if reverse ≠ 0 then
    let s1 := forLoop (ns - ns_main) (fun _ s => padRevBody nb nbf s)
      { mem := m, x0 := x0, x1 := x1 }
    let s2 := forLoop (ns_main - (ns - c)) (fun _ s => padRevBody nb nbf s)
      { s1 with x0 := { ext := false, off := (ns_main : Int) * nb - 1 } }
    s2.mem
  else
    let s1 := forLoop (ns - ns_main) (fun t s => padFwdBody nb nbf k (ns - 1 - t) s)
      { mem := m, x0 := x0, x1 := x1 }
    let s2 := forLoop ns_main (fun t s => padFwdBody nb nbf k (ns_main - 1 - t) s)
      { s1 with x0 := { ext := false, off := (ns_main : Int) * nb - 1 } }
    s2.mem

/-- Start of segment slot `i`: `x + i * nb` if `i < ns_main`, else
`extra + (i - ns_main) * nb`. -/
def segPtr (nb ns_main i : Nat) : Ptr :=
  if i < ns_main then { ext := false, off := (i : Int) * nb }
  else { ext := true, off := ((i : Int) - ns_main) * nb }

/-- Loop `for (q = 0; q < *nb; q++, x0++, x1++) { tmp = *x0; *x0 = *x1; *x1 = tmp; }`. -/
def swapSeg {α : Type} (nb : Nat) (s : RbrCopy α) : RbrCopy α :=
  forLoop nb (fun _ s =>
    let tmp := s.mem.rd s.x0
    let m1 := s.mem.wr s.x0 (s.mem.rd s.x1)
    { mem := m1.wr s.x1 tmp, x0 := s.x0.add 1, x1 := s.x1.add 1 }) s

/-- Registers of the re-arrangement loop: memory, the index arrays `a` (original segment now
in slot `i`) and `s` (slot now holding original segment `i`), and the target slot `ti`. -/
structure RbrPerm (α : Type) where
  mem : RbrMem α
  a : Nat → Nat
  s : Nat → Nat
  ti : Nat

/-- Body of `for (i = 0; i < k; i++) for (j = 0; j < *c; j++, ti++)`. -/
def rbrPermBody {α : Type} (c nb k ns_main reverse i j : Nat) (st : RbrPerm α) : RbrPerm α :=
  let ti := st.ti
  let si := if reverse ≠ 0 then st.s ((ti % k) * c + ti / k) else st.s (i + j * k)
  let sw := swapSeg nb { mem := st.mem, x0 := segPtr nb ns_main ti, x1 := segPtr nb ns_main si }
  -- q = a[si]; a[si] = a[ti]; a[ti] = q;
  let q := st.a si
  let a1 := fun p => if p = si then st.a ti else st.a p
  let a2 := fun p => if p = ti then q else a1 p
  -- s[a[si]] = si; s[a[ti]] = ti;
  let s1 := fun p => if p = a2 si then si else st.s p
  let s2 := fun p => if p = a2 ti then ti else s1 p
  { mem := sw.mem, a := a2, s := s2, ti := ti + 1 }

/-- The re-arrangement phase, starting from `s[i] = a[i] = i`, `ti = 0`. -/
def rbrPerm {α : Type} (c nb k ns_main reverse : Nat) (m : RbrMem α) : RbrMem α :=
  (forLoop k (fun i st => forLoop c (fun j st => rbrPermBody c nb k ns_main reverse i j st) st)
    { mem := m, a := fun i => i, s := fun i => i, ti := 0 }).mem

/-- Body of the reverse-mode loop that deletes the padding, for segment `si`. -/
def unpadRevBody {α : Type} (nb nbf k ns_main si : Nat) (s : RbrCopy α) : RbrCopy α :=
  let s0 := if si = ns_main then { s with x1 := { ext := true, off := 0 } } else s
  if (si + 1) % k ≠ 0 then copyUp nb s0
  else
    let s1 := copyUp nbf s0
    { s1 with x1 := s1.x1.add ((nb : Int) - (nbf : Int)) }

/-- Body of the forward-mode loop that deletes the padding, for segment `si`:
`if (si == ns_main) x1 = extra; for (j...) *x0 = *x1;` and the increment
`x1 += (*nb - nbf)`. -/
def unpadFwdBody {α : Type} (nb nbf ns_main si : Nat) (s : RbrCopy α) : RbrCopy α :=
  let s0 := if si = ns_main then { s with x1 := { ext := true, off := 0 } } else s
  let s1 := copyUp nbf s0
  { s1 with x1 := s1.x1.add ((nb : Int) - (nbf : Int)) }

/-- The phase that deletes the padding of the end block (`if (nbf) { ... }` at the end). -/
def rbrUnpad {α : Type} (r c nb nbf k ns ns_main reverse : Nat) (m : RbrMem α) : RbrMem α :=
  if reverse ≠ 0 then
    -- si = k; x0 = x + *r; x1 = x + k * *nb; for (; si < ns; si++)
    (forLoop (ns - k) (fun t s => unpadRevBody nb nbf k ns_main (k + t) s)
      { mem := m, x0 := { ext := false, off := r }, x1 := { ext := false, off := (k : Int) * nb } }).mem
  else
    -- x1 = x0 = x + (k-1) * *c * *nb; si = *c * (k-1); for (i = 0; i < *c; i++, si++, ...)
    (forLoop c (fun i s => unpadFwdBody nb nbf ns_main (c * (k - 1) + i) s)
      { mem := m, x0 := { ext := false, off := ((k : Int) - 1) * c * nb },
        x1 := { ext := false, off := ((k : Int) - 1) * c * nb } }).mem

/-- The function `row_block_reorder(x, r, c, nb, reverse)`; the result is the final content
of `x`. The scratch array `extra` is allocated by `calloc`, so it starts as zeros. -/
def row_block_reorder {α : Type} [Zero α] (x : Nat → α) (r c nb reverse : Nat) : Nat → α :=
  let k0 := r / nb
  let nbf := if r > nb * k0 then r - nb * k0 else 0
  let k := if r > nb * k0 then k0 + 1 else k0
  let ns := k * c
  if nbf ≠ 0 then
    let ns_main := (r * c) / nb
    let ns_extra := ns - ns_main
    let m1 := rbrPad r c nb nbf k ns ns_main ns_extra reverse { x := x, extra := fun _ => 0 }
    let m2 := rbrPerm c nb k ns_main reverse m1
    (rbrUnpad r c nb nbf k ns ns_main reverse m2).x
  else
    -- ns_main = ns; ns_extra = 0
    (rbrPerm c nb k ns reverse { x := x, extra := fun _ => 0 }).x

/-! ### Specification vocabulary for `row_block_reorder` -/

/-- Element `l` of segment slot `i` in the padded layout (slots below `ns_main` live in `x`,
the others in `extra`). -/
def slotVal {α : Type} (m : RbrMem α) (nb ns_main i l : Nat) : α :=
  if i < ns_main then m.x (i * nb + l) else m.extra ((i - ns_main) * nb + l)

/-- Buffer holding slot `i`: `extra` exactly when `ns_main ≤ i`. -/
def slotExt (ns_main i : Nat) : Bool := decide (ns_main ≤ i)

/-- Offset of slot `i` inside its buffer. -/
def slotOff (nb ns_main i : Nat) : Nat :=
  if i < ns_main then i * nb else (i - ns_main) * nb

/-- Source segment of target slot `ti` in the re-arrangement: `(ti % k) * c + ti / k` in
reverse mode, and `i + j * k` for `ti = i * c + j` in forward mode. -/
def rbrSigma (c k reverse ti : Nat) : Nat :=
  if reverse ≠ 0 then (ti % k) * c + ti / k else ti / c + (ti % c) * k

/-- Invariant of the re-arrangement loop before target slot `ti` is treated: `a` and `s` are
inverse bijections of the `ns` slots, slot `t` holds the original segment `a t`, the slots
below `ti` hold their final segment, and `x` is untouched beyond the slots. -/
def PermInv {α : Type} (c nb k ns_main reverse : Nat) (m0 : RbrMem α) (st : RbrPerm α)
    (ti : Nat) : Prop :=
  st.ti = ti ∧
  (∀ t, t < k * c → st.a t < k * c ∧ st.s (st.a t) = t) ∧
  (∀ u, u < k * c → st.s u < k * c ∧ st.a (st.s u) = u) ∧
  (∀ t l, t < k * c → l < nb →
    slotVal st.mem nb ns_main t l = slotVal m0 nb ns_main (st.a t) l) ∧
  (∀ t, t < ti → st.a t = rbrSigma c k reverse t) ∧
  (∀ p, ns_main * nb ≤ p → st.mem.x p = m0.x p)

/-- Length of segment `i` in column-major segment order: the last segment of every column
(`(i+1) % k = 0`) has `nbf` elements, the others `nb`. -/
def segLen (nb nbf k i : Nat) : Nat := if (i + 1) % k ≠ 0 then nb else nbf

/-- Offset in the `r` by `c` matrix of the first element of segment `i` (column `i / k`,
row block `i % k`). -/
def srcF (r nb k i : Nat) : Nat := (i / k) * r + (i % k) * nb

/-- Offset in the block-wise layout of the first element of segment `i` of the last block
(`i ≥ (k-1) * c`). -/
def srcR (c nb nbf k i : Nat) : Nat := (k - 1) * c * nb + (i - (k - 1) * c) * nbf

/-! ## `mgcv_pmmult` (mat.c lines 890-1006)

The work-sharing loops are run in index order: the iterations write disjoint parts of `A`.
The flag `openmp` records whether the code is compiled with `SUPPORT_OPENMP`. -/

/-- The split `cpt = q / nt; if (cpt * nt < q) cpt++; nth = q / cpt;
if (nth * cpt < q) nth++; cpf = q - cpt * (nth - 1);`, returned as `(cpt, nth, cpf)`. -/
def pmmSplit (q nt : Nat) : Nat × Nat × Nat :=
  let cpt0 := q / nt
  let cpt := if cpt0 * nt < q then cpt0 + 1 else cpt0
  let nth0 := q / cpt
  let nth := if nth0 * cpt < q then nth0 + 1 else nth0
  (cpt, nth, q - cpt * (nth - 1))

/-- The loop `c1 = cpt; for (i = 0; i < nth; i++) { if (i == nth-1) c1 = cpf;
if (c1 > 0) G(i, c1); }` where `G i c1` is the `dgemm` call of block `i`; the state is the
buffer `A` and the private variable `c1`. -/
def pmmBlocks {α : Type} (nth cpt cpf : Nat) (G : Nat → Nat → (Nat → α) → (Nat → α))
    (A : Nat → α) : Nat → α :=
  (forLoop nth (fun i (s : (Nat → α) × Nat) =>
    let c1 := if i = nth - 1 then cpf else s.2
    (if c1 > 0 then G i c1 s.1 else s.1, c1)) (A, cpt)).1

/-- The function `mgcv_pmmult(A, B, C, bt, ct, r, c, n, nt)`; the result is the pair of the
final contents of `A` and of `B` (`B` is re-ordered in place and restored in the case
`ct && !bt`). As for `mgcv_mmult`, `C = none` means that the pointer `C` equals `B`. -/
def mgcv_pmmult {α : Type} [Semiring α] (A B : Nat → α) (C : Option (Nat → α))
    (bt ct r c n nt : Nat) (openmp : Bool) : (Nat → α) × (Nat → α) :=
  if r = 0 ∨ c = 0 ∨ n = 0 then (A, B)
  else if C.isNone ∧ bt ≠ 0 ∧ ct = 0 ∧ r = c then (getXtX A B n r, B)
  else if C.isNone ∧ ct ≠ 0 ∧ bt = 0 ∧ r = c then (getXXt A B c n, B)
  else
    let nt := if openmp then nt else 1
    if nt = 1 then (mgcv_mmult A B C bt ct r c n, B)
    else
      let lda := if bt ≠ 0 then n else r
      if ct ≠ 0 then
        if bt ≠ 0 then
          let sp := pmmSplit r nt
          let cpt := sp.1
          let A1 := pmmBlocks sp.2.1 cpt sp.2.2 (fun i c1 A =>
            dgemm true true c1 c n 1 B (i * cpt * n) n (C.getD B) 0 c 0 A (i * cpt * c) c1) A
          (row_block_reorder A1 r c cpt bt, B)
        else
          let sp := pmmSplit r nt
          let cpt := sp.1
          let B1 := row_block_reorder B r n cpt bt
          let Cc := match C with
            | none => B1
            | some Cb => Cb
          let A1 := pmmBlocks sp.2.1 cpt sp.2.2 (fun i c1 A =>
            dgemm false true c1 c n 1 B1 (i * cpt * n) c1 Cc 0 c 0 A (i * cpt * c) c1) A
          let B2 := row_block_reorder B1 r n cpt ct
          (row_block_reorder A1 r c cpt ct, B2)
      else
        let sp := pmmSplit c nt
        let cpt := sp.1
        (pmmBlocks sp.2.1 cpt sp.2.2 (fun i c1 A =>
          dgemm (decide (bt ≠ 0)) false r c1 n 1 B 0 lda (C.getD B) (i * n * cpt) n 0
            A (i * r * cpt) r) A, B)

/-! ## `mgcv_bchol` (mat.c lines 278-385)

Block pivoted Cholesky factorisation of the `n` by `n` matrix in `A` (column-major: the
entry in row `i` and column `j` is `A[i + n*j]`). The arithmetic is exact, over a linearly
ordered field; the library function `sqrt`, the constant `DOUBLE_EPS` and the rounded
cut point `round(N - sqrt(x*(m-i)))` of the thread partition are parameters (`sqrt`, `eps`,
`cut`). Pointers into `A` are offsets; the pointer `Ajn` is a variable of the state, advanced
only by the increment of the `j` loop, as in the source (a `break` leaves it where it is).
The block size `nb` is at least 1 in every call (for `nb = 0` the source does not end). -/

/-- Variables of `mgcv_bchol` that live across loop iterations: the buffers `A`, `piv`,
`dots`, `a`, and the scalars `r`, `tol`, `jb`, `m`, `Ajn` (an offset into `A`) and `j`.
`brk` records that the `j` loop was left by `break`, `stop` that the `k` loop was. -/
structure BcholState (α : Type) where
  A : Nat → α
  piv : Nat → Nat
  dots : Nat → α
  a : Nat → Nat
  r : Int
  tol : α
  jb : Nat
  m : Nat
  Ajn : Nat
  j : Nat
  brk : Bool
  stop : Bool

/-- Exchange of two cells of a buffer: `x = *p; *p = *q; *q = x;`. -/
def swapCells {β : Type} (buf : Nat → β) (p q : Nat) : Nat → β :=
  store (store buf p (buf q)) q (buf p)

/-- Dot product update `if (j>k) for (;pd<p1;pd++,Aj1 += *n) *pd += *Aj1 * *Aj1;` with
`pd = dots + j`, `p1 = dots + n` and `Aj1 = Ajn + j - 1`. -/
def bcholDots {α : Type} [LinearOrderedField α] (A : Nat → α) (n k j Ajn : Nat)
    (dots : Nat → α) : Nat → α :=
  if j > k then
    forLoop (n - j) (fun t d =>
      store d (j + t) (d (j + t) + A (Ajn + j - 1 + t * n) * A (Ajn + j - 1 + t * n))) dots
  else dots

/-- Pivot search `for (l=j,pd = dots + j;pd<p1;pd++,Aj += n1,l++) { x = *Aj - *pd;
if (x>xmax) { xmax = x;q=l;} }` from `xmax = -1.0`, `q = j`, `Aj = Ajn + j`; the result is
the pair `(xmax, q)`. -/
def bcholPivot {α : Type} [LinearOrderedField α] (A dots : Nat → α) (n j Ajn : Nat) :
    α × Nat :=
  forLoop (n - j) (fun t (xq : α × Nat) =>
    let x := A (Ajn + j + t * (n + 1)) - dots (j + t)
    if x > xq.1 then (x, j + t) else xq) (-1, j)

/-- Row swap `for (;Aj<Aend;Aj += *n,Aq += *n) { x = *Aj;*Aj = *Aq;*Aq = x; }` from
`Aj = Ajn + j`, `Aq = Ajn + q`, `Aend = A + n*n`. -/
def bcholSwapRows {α : Type} (A : Nat → α) (n j q Ajn : Nat) : Nat → α :=
  forLoop (strideCount (Ajn + j) (n * n) n) (fun t A =>
    swapCells A (Ajn + j + t * n) (Ajn + q + t * n)) A

/-- Column swap `for (;Aj < Aend;Aj++,Aq++) { x = *Aj;*Aj = *Aq;*Aq = x; }` from
`Aj = Ajn`, `Aq = A + n*q`, `Aend = Aj + n`. -/
def bcholSwapCols {α : Type} (A : Nat → α) (n q Ajn : Nat) : Nat → α :=
  forLoop n (fun t A => swapCells A (Ajn + t) (n * q + t)) A

/-- Row update `if (j > k&&j < *n) { ... for (;Aj<Aend;Aj += *n,Aq += *n)
for (pd = Aj1,p1=Aq;pd < Ajj;pd++,p1++) *Aj -= *pd * *p1; }` from `Aj = Ajn + n + j`,
`Aq = Ajn + n + k`, `Aj1 = Ajn + k`, `Ajj = Ajn + j`. -/
def bcholRowUpdate {α : Type} [LinearOrderedField α] (A : Nat → α) (n k j Ajn : Nat) :
    Nat → α :=
  if j > k ∧ j < n then
    forLoop (strideCount (Ajn + n + j) (n * n) n) (fun t A =>
      forLoop (j - k) (fun u A =>
        store A (Ajn + n + j + t * n)
          (A (Ajn + n + j + t * n) - A (Ajn + k + u) * A (Ajn + n + k + t * n + u))) A) A
  else A

/-- Row scaling `if (j < *n) { Aj = Ajj; x = *Aj;Aj += *n; for (;Aj<Aend;Aj += *n)
*Aj /= x; }`. -/
def bcholRowScale {α : Type} [LinearOrderedField α] (A : Nat → α) (n j Ajn : Nat) :
    Nat → α :=
  if j < n then
    forLoop (strideCount (Ajn + j + n) (n * n) n) (fun t B =>
      store B (Ajn + j + n + t * n) (B (Ajn + j + n + t * n) / A (Ajn + j))) A
  else A

/-- One pass of the body of the `j` loop, with its increment `j++, Ajn += *n` when the
body is not left by `break`. -/
def bcholCol {α : Type} [LinearOrderedField α] (sqrt : α → α) (eps : α) (n k j : Nat)
    (s : BcholState α) : BcholState α :=
  let dots1 := bcholDots s.A n k j s.Ajn s.dots
  let xq := bcholPivot s.A dots1 n j s.Ajn
  let q := xq.2
  let tol := if j = 0 then (n : α) * xq.1 * eps else s.tol
  if s.A (n * q + q) - dots1 q < tol then
    { s with dots := dots1, tol := tol, r := (j : Int), j := j, brk := true }
  else
    let dots2 := swapCells dots1 j q
    let piv2 := swapCells s.piv j q
    let A1 := bcholSwapRows s.A n j q s.Ajn
    let A2 := bcholSwapCols A1 n q s.Ajn
    let A3 := store A2 (s.Ajn + j) (sqrt (A2 (s.Ajn + j) - dots2 j))
    let A4 := bcholRowUpdate A3 n k j s.Ajn
    let A5 := bcholRowScale A4 n j s.Ajn
    { s with A := A5, piv := piv2, dots := dots2, tol := tol, Ajn := s.Ajn + n, j := j + 1 }

/-- Thread cut points: `if (m > N) { m = N;a[m] = *n; } *a = j;`, then
`for (i=1;i < m;i++) a[i] = round(N - sqrt(x*(m-i)))+j;` and
`for (i=1;i <= m;i++) if (a[i]<=a[i-1]) a[i] = a[i-1]+1;`. The result is `(m, a)`. -/
def bcholCuts (cut : Nat → Nat → Nat → Nat) (n j m : Nat) (a : Nat → Nat) :
    Nat × (Nat → Nat) :=
  let N := n - j
  let ma := if m > N then (N, store a N n) else (m, a)
  let m1 := ma.1
  let a1 := store ma.2 0 j
  let a2 := forLoop (m1 - 1) (fun t a => store a (t + 1) (cut N m1 (t + 1) + j)) a1
  let a3 := forLoop m1 (fun t a =>
    if a (t + 1) ≤ a t then store a (t + 1) (a t + 1) else a) a2
  (m1, a3)

/-- Work of the trailing update for one pair `(i, l)`:
`for (;Aj < Aend;Aj++,Aq++) *Aj1 -= *Aq * *Aj; A[i + *n * l ] = *Aj1;` with
`Aj = A + i*n + k`, `Aend = A + i*n + j`, `Aj1 = A + i*n + l`, `Aq = A + l*n + k`. -/
def bcholTrailCell {α : Type} [LinearOrderedField α] (n k j i l : Nat) (A : Nat → α) :
    Nat → α :=
  let A1 := forLoop (j - k) (fun t A =>
    store A (i * n + l) (A (i * n + l) - A (l * n + k + t) * A (i * n + k + t))) A
  store A1 (i + n * l) (A1 (i * n + l))

/-- Loops `for (b=0;b<m;b++) for (i=a[b];i<a[b+1];i++) for (l=i;l<*n;l++)` of the trailing
update (the blocks `b` are run one after another). -/
def bcholTrail {α : Type} [LinearOrderedField α] (n k j m : Nat) (a : Nat → Nat)
    (A : Nat → α) : Nat → α :=
  forLoop m (fun b A =>
    forLoop (a (b + 1) - a b) (fun ii A =>
      forLoop (n - (a b + ii)) (fun ll A =>
        bcholTrailCell n k j (a b + ii) (a b + ii + ll) A) A) A) A

/-- One pass of the body of the `k` loop, for `k = kk * nb`. -/
def bcholBlock {α : Type} [LinearOrderedField α] (sqrt : α → α) (eps : α)
    (cut : Nat → Nat → Nat → Nat) (n nb kk : Nat) (s : BcholState α) : BcholState α :=
  if s.stop then s
  else
    let k := kk * nb
    let jb := if n - k < s.jb then n - k else s.jb
    let dots0 := forLoop (n - k) (fun t d => store d (k + t) 0) s.dots
    let s1 : BcholState α := forLoop jb
      (fun t (s : BcholState α) => if s.brk then s else bcholCol sqrt eps n k (k + t) s)
      { s with jb := jb, dots := dots0, j := k, brk := false }
    if s1.r > 0 then { s1 with stop := true }
    else if k + jb < n then
      let ma := bcholCuts cut n s1.j s1.m s1.a
      { s1 with m := ma.1, a := ma.2, A := bcholTrail n k s1.j ma.1 ma.2 s1.A }
    else s1

/-- Final loop `for (Ajn=A,j=0;j<*n;j++,Ajn += *n) { Aj = Ajn;Aend = Aj + *n;
if (j<r) Aj += j+1; else Aj += r; for (;Aj<Aend;Aj++) *Aj = 0.0; }`. -/
def bcholZero {α : Type} [LinearOrderedField α] (n : Nat) (r : Int) (A : Nat → α) :
    Nat → α :=
  forLoop n (fun j A =>
    let start := j * n + (if (j : Int) < r then j + 1 else r.toNat)
    forLoop (j * n + n - start) (fun t A => store A (start + t) 0) A) A

/-- The function `mgcv_bchol(A, piv, n, nt, nb)`: the result is the final content of `A`,
of `piv`, and the returned rank. `dots` and `a` are the zeroed work arrays of `calloc`. -/
def mgcv_bchol {α : Type} [LinearOrderedField α] (sqrt : α → α) (eps : α)
    (cut : Nat → Nat → Nat → Nat) (A : Nat → α) (piv : Nat → Nat) (n nt nb : Nat) :
    (Nat → α) × (Nat → Nat) × Int :=
  let piv0 := forLoop n (fun i p => store p i i) piv
  let m0 := if nt < 1 then 1 else nt
  let m := if m0 > n then n else m0
  let s0 : BcholState α :=
    { A := A, piv := piv0, dots := fun _ => 0, a := store (fun _ => 0) m n, r := -1,
      tol := 0, jb := nb, m := m, Ajn := 0, j := 0, brk := false, stop := false }
  let s := forLoop (strideCount 0 n nb) (bcholBlock sqrt eps cut n nb) s0
  let r := if s.r < 0 then (n : Int) else s.r
  (bcholZero n r s.A, s.piv, r)

/-! ## `getXtX0`, `getXtWX0`, `getXtWX`, `getXtMX` (mat.c lines 1008-1115) -/

/-- Accumulation loop `for (x=0.0, ...; p2<p4; p2++,p3++) x += *p2 * *p3;` over `r` cells:
`f k` is the product added at step `k`. -/
def dotLoop {α : Type} [Semiring α] (r : Nat) (f : Nat → α) : α :=
  forLoop r (fun k x => x + f k) 0

/-- The function `getXtX0(XtX, X, r, c)`; `p0 = X + i*r`, `p1 = X + j*r`. The double
assignment `XtX[i + j * *c] = XtX[j + i * *c] = x;` stores right to left. -/
def getXtX0 {α : Type} [Semiring α] (XtX X : Nat → α) (r c : Nat) : Nat → α :=
  forLoop c (fun i XtX => forLoop (i + 1) (fun j XtX =>
    let x := dotLoop r (fun k => X (i * r + k) * X (j * r + k))
    store (store XtX (j + i * c) x) (i + j * c) x) XtX) XtX

/-- State of `getXtWX0`, `getXtWX` and `getXtMX`: the output buffer, the buffer `work` and
the pointer `pX0` (an offset into `X`), which is never reset. -/
structure XtWXState (α : Type) where
  out : Nat → α
  work : Nat → α
  pX0 : Nat

/-- Loop `for (p=w,p1=work;p1<p2;p++,p1++,pX0++) *p1 = *pX0 * *p;` with `p2 = work + r`. -/
def weightCol {α : Type} [Semiring α] (X w : Nat → α) (r : Nat) (s : XtWXState α) :
    XtWXState α :=
  forLoop r (fun k s =>
    { s with work := store s.work k (X s.pX0 * w k), pX0 := s.pX0 + 1 }) s

/-- Loop `for (pX1=X,j=0;j<=i;j++) { for (xx=0.0,p=work;p<p2;p++,pX1++) xx += *p * *pX1;
XtWX[i * *c + j] = XtWX[j * *c + i] = xx; }` of `getXtWX0` and `getXtMX`: `pX1` restarts at
`X` for each `i` and advances by one in the innermost loop, so it is `X + j*r + k` there. -/
def symRow {α : Type} [Semiring α] (X : Nat → α) (r c i : Nat) (s : XtWXState α) :
    XtWXState α :=
  { s with out := forLoop (i + 1) (fun j out =>
      let xx := dotLoop r (fun k => s.work k * X (j * r + k))
      store (store out (j * c + i) xx) (i * c + j) xx) s.out }

/-- The function `getXtWX0(XtWX, X, w, r, c, work)`. -/
def getXtWX0 {α : Type} [Semiring α] (XtWX X w work : Nat → α) (r c : Nat) : XtWXState α :=
  forLoop c (fun i s => symRow X r c i (weightCol X w r s))
    { out := XtWX, work := work, pX0 := 0 }

/-- Reference BLAS `dgemv("T", M, N, alpha, A, lda, x, 1, beta, y, 1)`:
`y[j] = alpha * Σ_{l<M} A[l + lda*j] * x[l] + beta * y[j]` for `j < N`. -/
def dgemvT {α : Type} [Semiring α] (M N : Nat) (alpha : α) (A : Nat → α) (lda : Nat)
    (x : Nat → α) (beta : α) (y : Nat → α) : Nat → α :=
  forLoop N (fun j y1 =>
    store y1 j (alpha * (∑ l in Finset.range M, A (l + lda * j) * x l) + beta * y j)) y

/-- The function `getXtWX(XtWX, X, w, r, c, work)` (BLAS version): the first column of
`XtWX` is the work space `w2` of `dgemv`; the result is the final `XtWX`, `work` and `pX0`
together with the saved value `xx`. -/
def getXtWX {α : Type} [Semiring α] (XtWX X w work : Nat → α) (r c : Nat) : XtWXState α :=
  let sx := forLoop c (fun i (sx : XtWXState α × α) =>
    let s1 := weightCol X w r sx.1
    let out1 := dgemvT r (i + 1) 1 X r s1.work 0 s1.out
    if i = 0 then ({ s1 with out := out1 }, out1 0)
    else ({ s1 with out := forLoop (i + 1) (fun j out => store out (i * c + j) (out j)) out1 },
      sx.2)) ({ out := XtWX, work := work, pX0 := 0 }, 0)
  let out2 := if r * c > 0 then store sx.1.out 0 sx.2 else sx.1.out
  { sx.1 with out := forLoop c (fun i out =>
      forLoop i (fun j out => store out (j * c + i) (out (i * c + j))) out) out2 }

/-- Pass `j = jj + 1 ≥ 1` of the loop `for (j=1;j< *r;j++,pX0++)
for (p1=work;p1<p2;pM++,p1++) *p1 += *pX0 * *pM;` of `getXtMX`: `pM` restarts at `M` for
each `i` and advances by one per cell, so it is `M + j*r + a` in pass `j`. -/
def mxPass {α : Type} [Semiring α] (X M : Nat → α) (r jj : Nat) (s : XtWXState α) :
    XtWXState α :=
  { s with work := forLoop r (fun a w =>
      store w a (w a + X s.pX0 * M ((jj + 1) * r + a))) s.work, pX0 := s.pX0 + 1 }

/-- First part of the body of `getXtMX` ("first form MX[:,i]"):
`for (p1=work;p1<p2;pM++,p1++) *p1 = *pX0 * *pM;pX0++;` and the passes `j = 1 .. r-1`. -/
def mxCol {α : Type} [Semiring α] (X M : Nat → α) (r : Nat) (s : XtWXState α) :
    XtWXState α :=
  forLoop (r - 1) (fun jj s => mxPass X M r jj s)
    { s with work := forLoop r (fun a w => store w a (X s.pX0 * M a)) s.work,
             pX0 := s.pX0 + 1 }

/-- The function `getXtMX(XtMX, X, M, r, c, work)`. -/
def getXtMX {α : Type} [Semiring α] (XtMX X M work : Nat → α) (r c : Nat) : XtWXState α :=
  forLoop c (fun i s => symRow X r c i (mxCol X M r s))
    { out := XtMX, work := work, pX0 := 0 }

/-! ## `get_qpr_k` (mat.c lines 1677-1695) -/

/-- The function `get_qpr_k(r, c, nt)`. `openmp` tells whether `SUPPORT_OPENMP` is defined;
the library function `sqrt` is a parameter, `floor` and `ceil` are those of the exact number
type, and the casts `(int)ckd`, `(int)fkd` give the integers themselves. -/
def get_qpr_k {α : Type} [LinearOrderedField α] [FloorRing α] (sqrt : α → α) (openmp : Bool)
    (r c nt : Nat) : Int :=
  if openmp then
    let kd := sqrt ((r : α) / (c : α))
    if kd ≤ 1 then 1
    else if kd > (nt : α) then (nt : Int)
    else
      let fkd : α := ((⌊kd⌋ : Int) : α)
      let ckd : α := ((⌈kd⌉ : Int) : α)
      let x := if fkd > 1 then (r : α) / fkd + fkd * (c : α) else (r : α)
      if (r : α) / ckd + ckd * (c : α) < x then ⌈kd⌉ else ⌊kd⌋
  else 1

/-! ## `Rlanczos`: check interval and largest-magnitude convergence test
(mat.c lines 2328-2332 and 2466-2484) -/

/-- Lines 2328-2332 of `Rlanczos`: `if (*lm<0) { biggest=1;*lm=0;}`,
`f_check = (*m + *lm)/2; if (f_check<10) f_check =10;`,
`kk = (int) floor(*n/10); if (kk<1) kk=1; if (kk<f_check) f_check = kk;`.
The result is the final `f_check`. -/
def lanczosFCheck (n m lm : Int) : Int :=
  let lm1 : Int := if lm < 0 then 0 else lm
  let f0 : Int := Int.tdiv (m + lm1) 2
  let f1 : Int := if f0 < 10 then 10 else f0
  let kk0 : Int := Int.tdiv n 10
  let kk : Int := if kk0 < 1 then 1 else kk0
  if kk < f1 then kk else f1

/-- State of the loop `while (pi+ni < *m)` of the largest-magnitude test: `pi`, `ni`,
`converged`, and `brk` once the loop has been left by `break`. -/
structure LzSel where
  pi : Nat
  ni : Nat
  converged : Bool
  brk : Bool


/-- One pass of the body of `while (pi+ni < *m) if (fabs(d[pi])>= fabs(d[j-ni])) {
if (err[pi]>max_err) {converged=0;break;} else pi++; } else {
if (err[ni]>max_err) {converged=0;break;} else ni++; }`. -/
def lanczosSelStep {α : Type} [LinearOrderedRing α] (d err : Nat → α) (j m : Nat)
    (maxErr : α) (s : LzSel) : LzSel :=
  if s.brk then s
  else if s.pi + s.ni < m then
    if |d s.pi| ≥ |d (j - s.ni)| then
      if err s.pi > maxErr then { s with converged := false, brk := true }
      else { s with pi := s.pi + 1 }
    else
      if err s.ni > maxErr then { s with converged := false, brk := true }
      else { s with ni := s.ni + 1 }
  else s

/-- The largest-magnitude convergence test `pi=ni=0;converged=1; while (pi+ni < *m) ...`:
every pass that does not leave the loop adds one to `pi + ni`, so `m` passes end it. -/
def lanczosSelect {α : Type} [LinearOrderedRing α] (d err : Nat → α) (j m : Nat)
    (maxErr : α) : LzSel :=
  forLoop m (fun _ s => lanczosSelStep d err j m maxErr s)
    { pi := 0, ni := 0, converged := true, brk := false }

/-! ## Triangular solves `mgcv_backsolve0`, `mgcv_forwardsolve0` (mat.c lines 1284-1304,
1525-1543)

`R` is an `r` by `c` buffer whose leading `c` by `c` upper triangle is used, `B` and `C` are
`c` by `bc`. The arithmetic is exact, over a field. -/

/-- The function `mgcv_backsolve0(R, r, c, B, C, bc)`: the result is the final content of
`C`. Row `i` runs down from `c - 1`, so pass `ii` of the loop handles `i = c - 1 - ii`; in
the inner loop `pR = R + i + (i+1)*r + t*r` and `pC = C + j*c + i + 1 + t`. -/
def mgcv_backsolve0 {α : Type} [Field α] (R : Nat → α) (r c : Nat) (B C : Nat → α)
    (bc : Nat) : Nat → α :=
  forLoop bc (fun j C => forLoop c (fun ii C =>
    let i := c - 1 - ii
    let x := dotLoop (c - (i + 1)) (fun t =>
      R (i + (i + 1) * r + t * r) * C (j * c + i + 1 + t))
    store C (i + j * c) ((B (i + j * c) - x) / R (i + r * i))) C) C

/-- The function `mgcv_forwardsolve0(R, r, c, B, C, bc)`: the result is the final content
of `C`. -/
def mgcv_forwardsolve0 {α : Type} [Field α] (R : Nat → α) (r c : Nat) (B C : Nat → α)
    (bc : Nat) : Nat → α :=
  forLoop bc (fun j C => forLoop c (fun i C =>
    let x := dotLoop i (fun k => C (k + j * c) * R (k + i * r))
    store C (i + j * c) ((B (i + j * c) - x) / R (i + i * r))) C) C

/-! ## `mgcv_PPt` (mat.c lines 1426-1512)

`A = U·U'` for the upper triangle `U` of the `r` by `r` buffer `R` (column-major). The work
is split into `nt` blocks of rows `a[b] ≤ i < a[b+1]`; the blocks are run one after another.
The rounded cut points `round(*r - sqrt(x*(*nt-i)))` and `round(*r - pow(x*(*nt-i),1/3.0))`
are parameters (`cut2`, `cut3`, functions of `r`, `nt` and `i`; their values are not
negative, since `x*(*nt-i)` is at most `r^2`, resp. `r^3`). -/

/-- Block loops `for (b=0;b<m;b++) for (i=a[b];i<a[b+1];i++) body(i)`. -/
def blockLoop {σ : Type} (m : Nat) (a : Nat → Nat) (body : Nat → σ → σ) (s : σ) : σ :=
  forLoop m (fun b s => forLoop (a (b + 1) - a b) (fun t s => body (a b + t) s) s) s

/-- Cut points: `for (i=1;i < *nt;i++) a[i] = round(...);` followed by
`for (i=1;i <= *nt;i++) if (a[i]<=a[i-1]) a[i] = a[i-1]+1;`. -/
def pptCuts (cut : Nat → Nat → Nat → Nat) (r nt : Nat) (a : Nat → Nat) : Nat → Nat :=
  let a1 := forLoop (nt - 1) (fun t a => store a (t + 1) (cut r nt (t + 1))) a
  forLoop nt (fun t a => if a (t + 1) ≤ a t then store a (t + 1) (a t + 1) else a) a1

/-- Copy of row `i` of the upper triangle to column `i` of the lower triangle:
`ru = rl = R + i * *r + i; ru += *r; for (r1=rl + *r - i,rl++;rl<r1;rl++,ru += *r)
*rl = *ru;`. -/
def pptCopy {α : Type} (r i : Nat) (R : Nat → α) : Nat → α :=
  forLoop (r - i - 1) (fun t R => store R (i * r + i + 1 + t) (R (i * r + i + r + t * r))) R

/-- Row `i` of the product: `for (j=i;j < *r;j++,Aij += *r,Aji++,ru++,rl+= *r + 1) {
for (x=0.0,rj=rl,ri=ru;ri < r1;rj++,ri++) x += *rj * *ri; *Aij = *Aji = x; }` with
`Aij = Aji = A + i * *r + i`, `rl = ru = R + i * *r + i`, `r1 = R + (i+1) * *r`. -/
def pptProd {α : Type} [Semiring α] (R : Nat → α) (r i : Nat) (A : Nat → α) : Nat → α :=
  forLoop (r - i) (fun jj A =>
    let x := dotLoop ((i + 1) * r - (i * r + i + jj))
      (fun t => R (i * r + i + jj * (r + 1) + t) * R (i * r + i + jj + t))
    store (store A (i * r + i + jj) x) (i * r + i + jj * r) x) A

/-- Wipe of column `i` below the diagonal: `rl = R + i * *r + i;
for (r1=rl + *r - i,rl++;rl<r1;rl++) *rl = 0.0;`. -/
def pptWipe {α : Type} [Semiring α] (r i : Nat) (R : Nat → α) : Nat → α :=
  forLoop (r - i - 1) (fun t R => store R (i * r + i + 1 + t) 0) R

/-- The function `mgcv_PPt(A, R, r, nt)`; the result is the final content of `A` and of
`R`. The array `a` comes zeroed from `calloc`. -/
def mgcv_PPt {α : Type} [Semiring α] (cut2 cut3 : Nat → Nat → Nat → Nat) (A R : Nat → α)
    (r : Nat) (nt : Int) : (Nat → α) × (Nat → α) :=
  let nt1 := if nt < 1 then 1 else nt.toNat
  let nt2 := if nt1 > r then r else nt1
  let a0 := store (store (fun _ => 0) 0 0) nt2 r
  let a1 := pptCuts cut2 r nt2 a0
  let R1 := blockLoop nt2 a1 (pptCopy r) R
  let a2 := pptCuts cut3 r nt2 a1
  let A1 := blockLoop nt2 a2 (pptProd R1 r) A
  let a3 := pptCuts cut2 r nt2 a2
  let R2 := blockLoop nt2 a3 (pptWipe r) R1
  (A1, R2)

/-! ## `mgcv_pbsi` (mat.c lines 1320-1409)

Inversion of the upper triangle of the `r` by `r` buffer `R` by back substitution, column
by column. The column `i` of the inverse is built in the `i` cells below the diagonal of
column `k = r - i - 1` and in `d[k]`, and copied to column `i` by a second pass. The rounded
cut points `round(pow(x*i,1/3.0))` and `round(sqrt(x*i))` are parameters (`cut3`, `cut2`,
functions of `r`, `nt` and `i`; they are roundings of non-negative numbers). The array `a`
holds integers, since `a[i+1]-1` is formed; a row index `i = a[b] + t` is used as an offset,
so it is meaningful only if it is not negative. -/

/-- Block loops `for (b=0;b<m;b++) for (i=a[b];i<a[b+1];i++) body(i)` for an integer array
`a`. -/
def blockLoopInt {σ : Type} (m : Nat) (a : Nat → Int) (body : Nat → σ → σ) (s : σ) : σ :=
  forLoop m (fun b s =>
    forLoop (a (b + 1) - a b).toNat (fun t s => body (a b + (t : Int)).toNat s) s) s

/-- Cut points: `for (i=1;i < *nt;i++) a[i] = round(...);` followed by
`for (i=*nt-1;i>0;i--) { if (a[i]>=a[i+1]) a[i] = a[i+1]-1; }`. -/
def pbsiCuts (cut : Nat → Nat → Nat → Nat) (r nt : Nat) (a : Nat → Int) : Nat → Int :=
  let a1 := forLoop (nt - 1) (fun t a => store a (t + 1) (cut r nt (t + 1) : Int)) a
  forLoop (nt - 1) (fun t a =>
    let i := nt - 1 - t
    if a i ≥ a (i + 1) then store a i (a (i + 1) - 1) else a) a1

/-- Loop `for (zz=z,z1 = z+i;zz<z1;zz++,rr++) *zz = *rr * *dk;` with `rr` at the start of
column `i` of `R` and `dk = d + k`, whose content is `dk` here. -/
def pbsiInit {α : Type} [Field α] (r i z : Nat) (dk : α) (R : Nat → α) : Nat → α :=
  forLoop i (fun t R => store R (z + t) (R (r * i + t) * dk)) R

/-- Loop `for (j=i-1;j>=0;j--) { Rjj -= r1; dk = z + j; *dk /= - *Rjj;
for (zz=z,z1=z+j,rr=Rjj-j;zz<z1;zz++,rr++) *zz += *rr * *dk; }` with `Rjj` starting at
`R + *r * i + i` and `r1 = *r + 1`. -/
def pbsiElim {α : Type} [Field α] (r i z : Nat) (R : Nat → α) : Nat → α :=
  forLoop i (fun jj R =>
    let j := i - 1 - jj
    let Rjj := r * i + i - (jj + 1) * (r + 1)
    let R1 := store R (z + j) (R (z + j) / (- R Rjj))
    forLoop j (fun t R => store R (z + t) (R (z + t) + R (Rjj - j + t) * R (z + j))) R1) R

/-- Body of the first pass for column `i`, on the pair `(R, d)`. -/
def pbsiCol {α : Type} [Field α] (r i : Nat) (s : (Nat → α) × (Nat → α)) :
    (Nat → α) × (Nat → α) :=
  let k := r - i - 1
  let d1 := store s.2 k (1 / s.1 (r * i + i))
  let z := r * k + k + 1
  (pbsiElim r i z (pbsiInit r i z (d1 k) s.1), d1)

/-- Body of the second pass for column `i`: `k = *r - i - 1; zz = R + i * *r + i;
*zz = d[k]; zz -= i; for (rr = R + k * *r + k + 1, r2 = rr + i;rr<r2;rr++,zz++)
{*zz = *rr;*rr = 0.0;}`. -/
def pbsiBack {α : Type} [Field α] (r : Nat) (d : Nat → α) (i : Nat) (R : Nat → α) :
    Nat → α :=
  let k := r - i - 1
  let R1 := store R (i * r + i) (d k)
  forLoop i (fun t R =>
    store (store R (i * r + t) (R (k * r + k + 1 + t))) (k * r + k + 1 + t) 0) R1

/-- The function `mgcv_pbsi(R, r, nt)`; the result is the final content of `R`. The arrays
`d` and `a` come zeroed from `calloc`. -/
def mgcv_pbsi {α : Type} [Field α] (cut3 cut2 : Nat → Nat → Nat → Nat) (R : Nat → α)
    (r : Nat) (nt : Int) : Nat → α :=
  let nt1 := if nt < 1 then 1 else nt.toNat
  let nt2 := if nt1 > r then r else nt1
  let a0 := store (store (fun _ => (0 : Int)) 0 0) nt2 (r : Int)
  let a1 := pbsiCuts cut3 r nt2 a0
  let s1 := blockLoopInt nt2 a1 (pbsiCol r) (R, fun _ => 0)
  let a2 := pbsiCuts cut2 r nt2 a1
  blockLoopInt nt2 a2 (pbsiBack r s1.2) s1.1

/-! ## `mgcv_piqr` (mat.c lines 755-858)

Pivoted Householder QR of the `n` by `p` matrix in `x` (column-major). The LAPACK routine
`dlarfg(N, ALPHA, X, INCX, TAU)` is a parameter: `dlarfg N alpha v` is the triple of the new
`ALPHA`, the new vector `X` (of `N - 1` entries) and `TAU`. The flag `openmp` stands for
`SUPPORT_OPENMP`. The threads are run one after another. The source divides by `nt`, so it
is defined for `nt ≥ 1` only. -/

/-- Loop `while (cond) body`, with a bound on the number of passes: `none` is returned
when the bound is reached with the condition still true. -/
def whileLoop {σ : Type} (cond : σ → Bool) (body : σ → σ) : Nat → σ → Option σ
  | 0, s => if cond s then none else some s
  | fuel + 1, s => if cond s then whileLoop cond body fuel (body s) else some s

/-- Variables of `mgcv_piqr` that live across the passes of `while (tau > 0)`. -/
structure PiqrState (α : Type) where
  x : Nat → α
  beta : Nat → α
  piv : Nat → Nat
  c : Nat → α
  k : Nat
  r : Int
  nh : Nat
  tau : α

/-- Column norms: `for (p0=x,i=0;i<p;i++) { piv[i] = i;
for (xx=0.0,p1=p0 + n;p0<p1;p0++) xx += *p0 * *p0; c[i] = xx;
if (xx>tau) {tau=xx;k=i;} }` from `k=0;tau=0.0;`, then `r = -1; nh = n;`. The array `c`
comes zeroed from `calloc`. -/
def piqrInit {α : Type} [LinearOrderedField α] (x beta : Nat → α) (piv : Nat → Nat)
    (n p : Nat) : PiqrState α :=
  forLoop p (fun i (s : PiqrState α) =>
    let xx := dotLoop n (fun t => x (i * n + t) * x (i * n + t))
    let s1 : PiqrState α := { s with piv := store s.piv i i, c := store s.c i xx }
    if xx > s.tau then { s1 with tau := xx, k := i } else s1)
    { x := x, beta := beta, piv := piv, c := fun _ => 0, k := 0, r := -1, nh := n, tau := 0 }

/-- Application of the reflector to the remaining columns: `j = cpt; if (j)
for (i=0;i<nth;i++) { if (i == nth-1) j = cpf; p1 = p0 + n + n * cpt *i; z1=p1+nh;
for (ii =0;ii<j;ii++,p1+=n,z1+=n) { for (zz=0.0,v=p0,z=p1;z<z1;z++,v++)
zz += *z * *v * br; for (z=p1,v=p0;z<z1;z++,v++) *z -= zz * *v; } }`. -/
def piqrReflect {α : Type} [LinearOrderedField α] (n nh cpt nth cpf p0 : Nat) (br : α)
    (x : Nat → α) : Nat → α :=
  if cpt ≠ 0 then
    forLoop nth (fun i x =>
      let j := if i = nth - 1 then cpf else cpt
      forLoop j (fun ii x =>
        let p1 := p0 + n + n * cpt * i + ii * n
        let zz := dotLoop nh (fun t => x (p1 + t) * x (p0 + t) * br)
        forLoop nh (fun t x => store x (p1 + t) (x (p1 + t) - zz * x (p0 + t))) x) x) x
  else x

/-- Downdate of the column norms and choice of the next pivot: `k = r + 1;
for (tau=0.0,p0+=n,i=r+1;i<p;i++,p0+=n) { c[i] -= *p0 * *p0;
if (c[i]>tau) { tau = c[i]; k=i; } }`; the result is `(c, tau, k)`. -/
def piqrDowndate {α : Type} [LinearOrderedField α] (x c : Nat → α) (n p r p0 : Nat) :
    (Nat → α) × α × Nat :=
  forLoop (p - (r + 1)) (fun t (s : (Nat → α) × α × Nat) =>
    let i := r + 1 + t
    let ci := s.1 i - x (p0 + n + t * n) * x (p0 + n + t * n)
    if ci > s.2.1 then (store s.1 i ci, ci, i) else (store s.1 i ci, s.2.1, s.2.2))
    (c, 0, r + 1)

/-- One pass of the body of `while (tau > 0)`. -/
def piqrStep {α : Type} [LinearOrderedField α]
    (dlarfg : Nat → α → (Nat → α) → α × (Nat → α) × α) (n p nt : Nat) (s : PiqrState α) :
    PiqrState α :=
  let r := (s.r + 1).toNat
  let piv1 := swapCells s.piv r s.k
  let c1 := swapCells s.c r s.k
  let x1 := forLoop n (fun t x => swapCells x (n * r + t) (n * s.k + t)) s.x
  let p0 := r * n + r
  let g := dlarfg s.nh (x1 p0) (fun t => x1 (p0 + 1 + t))
  let x2 := forLoop (s.nh - 1) (fun t x => store x (p0 + 1 + t) (g.2.1 t)) x1
  let beta1 := store s.beta r g.2.2
  let x3 := store x2 p0 1
  let j := p - r - 1
  let cpt0 := if j ≠ 0 then j / nt else 0
  let cpt := if j ≠ 0 ∧ cpt0 * nt < j then cpt0 + 1 else cpt0
  let nth0 := if j ≠ 0 then j / cpt else 0
  let nth := if j ≠ 0 ∧ nth0 * cpt < j then nth0 + 1 else nth0
  let cpf := if j ≠ 0 then j - cpt * (nth - 1) else 0
  let x4 := piqrReflect n s.nh cpt nth cpf p0 (beta1 r) x3
  let x5 := store x4 p0 g.1
  let d := piqrDowndate x5 c1 n p r p0
  let tau := if (r : Int) = (n : Int) - 1 then 0 else d.2.1
  { x := x5, beta := beta1, piv := piv1, c := d.1, k := d.2.2, r := (r : Int),
    nh := s.nh - 1, tau := tau }

/-- The function `mgcv_piqr(x, n, p, beta, piv, nt)`: the final content of `x`, `beta` and
`piv` and the returned value `r + 1`, when the loop ends within `fuel` passes. -/
def mgcv_piqr {α : Type} [LinearOrderedField α]
    (dlarfg : Nat → α → (Nat → α) → α × (Nat → α) × α) (openmp : Bool)
    (x : Nat → α) (n p : Nat) (beta : Nat → α) (piv : Nat → Nat) (nt fuel : Nat) :
    Option ((Nat → α) × (Nat → α) × (Nat → Nat) × Int) :=
  let nt1 := if openmp then nt else 1
  (whileLoop (fun s => decide (s.tau > 0)) (piqrStep dlarfg n p nt1) fuel
    (piqrInit x beta piv n p)).map (fun s => (s.x, s.beta, s.piv, s.r + 1))

/-! ## `bpqr` (mat.c lines 537-753)

Block pivoted Householder QR of the `n` by `p` matrix in `A` (column-major). The LAPACK
routine `dlarfg` is the parameter of `mgcv_piqr`, the constant `pow(DOUBLE_EPS,.8)` is the
parameter `tol`, and `dgemv`, `dgemm` are the reference BLAS definitions. The thread blocks
are run one after another, so the pointer `Aq` that the block update leaves behind is the
one that the recomputation of the column norms starts from. The source is defined for
`nb ≥ 1` (for `nb = 0` the variable `k` is read before it is assigned), `nt ≥ 1` (it divides
by `nt`) and `p ≤ n` (the row counts `n - k` are dimensions of BLAS calls). -/

/-- Reference BLAS `dgemv("N", M, N, alpha, A, lda, x, incx, beta, y, incy)` on buffers
with offsets: `y[i*incy] = alpha * Σ_{l<N} A[i + lda*l] * x[l*incx] + beta * y[i*incy]` for
`i < M`. -/
def dgemv_n {α : Type} [Semiring α] (M N : Nat) (alpha : α) (A : Nat → α) (aoff lda : Nat)
    (X : Nat → α) (xoff incx : Nat) (beta : α) (Y : Nat → α) (yoff incy : Nat) : Nat → α :=
  forLoop M (fun i Y1 =>
    store Y1 (yoff + i * incy)
      (alpha * (∑ l in Finset.range N, A (aoff + (i + lda * l)) * X (xoff + l * incx))
        + beta * Y (yoff + i * incy))) Y

/-- Reference BLAS `dgemv("T", M, N, alpha, A, lda, x, incx, beta, y, incy)` on buffers
with offsets: `y[j*incy] = alpha * Σ_{l<M} A[l + lda*j] * x[l*incx] + beta * y[j*incy]` for
`j < N`. -/
def dgemv_t {α : Type} [Semiring α] (M N : Nat) (alpha : α) (A : Nat → α) (aoff lda : Nat)
    (X : Nat → α) (xoff incx : Nat) (beta : α) (Y : Nat → α) (yoff incy : Nat) : Nat → α :=
  forLoop N (fun j Y1 =>
    store Y1 (yoff + j * incy)
      (alpha * (∑ l in Finset.range M, A (aoff + (l + lda * j)) * X (xoff + l * incx))
        + beta * Y (yoff + j * incy))) Y

/-- Variables of `bpqr` that live across the passes of its loops. `brk` records that the
`j` loop was left by `break`. -/
structure BpqrState (α : Type) where
  A : Nat → α
  tau : Nat → α
  piv : Nat → Nat
  cn : Nat → α
  icn : Nat → α
  F : Nat → α
  work : Nat → α
  mb : Nat → Nat
  kb : Nat → Nat
  jb : Nat
  pb : Nat
  nb : Nat
  k : Nat
  j : Nat
  okNorm : Bool
  brk : Bool

/-- Split of `q` rows between threads: `rt = q/nt;if (rt*nt < q) rt++; nth = nt;
while (nth>1&&(nth-1)*rt>q) nth--; kb[0] = start;
for (i=0;i<nth-1;i++) { mb[i] = rt;kb[i+1]=kb[i]+rt;} mb[nth-1]=q-(nth-1)*rt;`. The
result is `(nth, mb, kb)`; the `while` loop takes `nth` down by one at most `nt` times. -/
def bpqrSplit (q nt start : Nat) (mb kb : Nat → Nat) : Nat × (Nat → Nat) × (Nat → Nat) :=
  let rt0 := q / nt
  let rt := if rt0 * nt < q then rt0 + 1 else rt0
  let nth := forLoop nt (fun _ nth => if nth > 1 ∧ (nth - 1) * rt > q then nth - 1 else nth) nt
  let s := forLoop (nth - 1) (fun i (s : (Nat → Nat) × (Nat → Nat)) =>
    (store s.1 i rt, store s.2 (i + 1) (s.2 i + rt))) (mb, store kb 0 start)
  (nth, store s.1 (nth - 1) (q - (nth - 1) * rt), s.2)

/-- Pivot search `a0 = cn + k;x=*a0;q=k;a0++;
for (i=k+1;i<p;i++,a0++) if (*a0>x) { x = *a0;q=i; }`; the result is `(x, q)`. -/
def bpqrPivot {α : Type} [LinearOrderedField α] (cn : Nat → α) (p k : Nat) : α × Nat :=
  forLoop (p - (k + 1)) (fun t (xq : α × Nat) =>
    if cn (k + 1 + t) > xq.1 then (cn (k + 1 + t), k + 1 + t) else xq) (cn k, k)

/-- Exchange of the columns `q` and `k`: of `piv`, `cn`, `icn`, of the columns of `A`
(`for (;Aq<a1;Aq++,Ak++)` with `Aq = A + q * n`, `Ak = A + k * n`, `a1 = Aq + n`) and of the
rows `q - jb` and `j` of `F` (`for (;Aq<a1;Aq+=pb,Ak+=pb)` with `Aq = F + q - jb`,
`Ak = F + j`, `a1 = F + nb*pb`). -/
def bpqrSwap {α : Type} (n q j : Nat) (s : BpqrState α) : BpqrState α :=
  let k := s.jb + j
  { s with
    piv := swapCells s.piv q k
    cn := swapCells s.cn q k
    icn := swapCells s.icn q k
    A := forLoop n (fun t A => swapCells A (q * n + t) (k * n + t)) s.A
    F := forLoop (strideCount (q - s.jb) (s.nb * s.pb) s.pb) (fun t F =>
      swapCells F (q - s.jb + t * s.pb) (j + t * s.pb)) s.F }

/-- Update of the pivot column, `if (j) { ... }`: the split of `m` rows from row `k` and
the calls `dgemv("N", mb+i, &j, &dmone, A+jb*n+kb[i], &n, F+j, &pb, &done,
A + n*k + kb[i], &one)`. -/
def bpqrColUpdate {α : Type} [LinearOrderedField α] (n nt m j : Nat) (s : BpqrState α) :
    BpqrState α :=
  if j ≠ 0 then
    let k := s.jb + j
    let sp := bpqrSplit m nt k s.mb s.kb
    { s with
      mb := sp.2.1
      kb := sp.2.2
      A := forLoop sp.1 (fun i A =>
        dgemv_n (sp.2.1 i) j (-1) A (s.jb * n + sp.2.2 i) n s.F j s.pb 1 A
          (n * k + sp.2.2 i) 1) s.A }
  else s

/-- Column `j` of `F`, `if (k<p-1) { ... }`: the split of `p - k - 1` rows from row `j + 1`
and the calls `dgemv("T", &m, mb+i, tau+k, A+(kb[i]+jb)*n+k, &n, Ak, &one, &dzero,
F+kb[i]+j*pb, &one)` with `Ak = A + n*k + k`. -/
def bpqrFcol {α : Type} [LinearOrderedField α] (n p nt m j : Nat) (s : BpqrState α) :
    BpqrState α :=
  let k := s.jb + j
  if k + 1 < p then
    let sp := bpqrSplit (p - k - 1) nt (j + 1) s.mb s.kb
    { s with
      mb := sp.2.1
      kb := sp.2.2
      F := forLoop sp.1 (fun i F =>
        dgemv_t m (sp.2.1 i) (s.tau k) s.A ((sp.2.2 i + s.jb) * n + k) n s.A (n * k + k) 1 0 F
          (sp.2.2 i + j * s.pb) 1) s.F }
  else s

/-- Correction of column `j` of `F`, `if (j>0) { ... }`: the split of `j` rows from `jb`
and the calls `dgemv("T", &m, mb+i, &dmone, A+kb[i]*n+k, &n, Ak, &one, &dzero,
work+kb[i]-jb, &one)`, then the split of `pb` rows from 0 and the calls
`dgemv("N", mb+i, &j, tau+k, F+kb[i], &pb, work, &one, &done, F+j*pb+kb[i], &one)`. -/
def bpqrFfix {α : Type} [LinearOrderedField α] (n nt m j : Nat) (s : BpqrState α) :
    BpqrState α :=
  if j > 0 then
    let k := s.jb + j
    let sp := bpqrSplit j nt s.jb s.mb s.kb
    let work1 := forLoop sp.1 (fun i w =>
      dgemv_t m (sp.2.1 i) (-1) s.A (sp.2.2 i * n + k) n s.A (n * k + k) 1 0 w
        (sp.2.2 i - s.jb) 1) s.work
    let sq := bpqrSplit s.pb nt 0 sp.2.1 sp.2.2
    { s with
      mb := sq.2.1
      kb := sq.2.2
      work := work1
      F := forLoop sq.1 (fun i F =>
        dgemv_n (sq.2.1 i) j (s.tau k) F (sq.2.2 i) s.pb work1 0 1 1 F
          (j * s.pb + sq.2.2 i) 1) s.F }
  else s

/-- Update of the pivot row, `if (k<p-1) { ... }`: the split of `pb - j - 1` columns from
`j + 1` and the calls `dgemv("N", mb+i, &q, &dmone, F+kb[i], &pb, A+jb*n+k, &n, &done,
A+(kb[i]+jb)*n+k, &n)` with `q = j + 1`. -/
def bpqrRowUpdate {α : Type} [LinearOrderedField α] (n p nt j : Nat) (s : BpqrState α) :
    BpqrState α :=
  let k := s.jb + j
  if k + 1 < p then
    let sp := bpqrSplit (s.pb - j - 1) nt (j + 1) s.mb s.kb
    { s with
      mb := sp.2.1
      kb := sp.2.2
      A := forLoop sp.1 (fun i A =>
        dgemv_n (sp.2.1 i) (j + 1) (-1) s.F (sp.2.2 i) s.pb A (s.jb * n + k) n 1 A
          ((sp.2.2 i + s.jb) * n + k) n) s.A }
  else s

/-- Downdate of the column norms: `ok_norm = 1; if (k < p-1) { Ak += n;
a0 = cn + k + 1;a1=cn + p;Aq = icn + k + 1; for (;a0<a1;a0++,Aq++,Ak+=n) {
*a0 -= *Ak * *Ak; if (*a0<*Aq*tol) ok_norm = 0; } }` with `Ak = A + n*k + k`; the result is
`(cn, ok_norm)`. -/
def bpqrDowndate {α : Type} [LinearOrderedField α] (tol : α) (A cn icn : Nat → α)
    (n p k : Nat) : (Nat → α) × Bool :=
  if k + 1 < p then
    forLoop (p - (k + 1)) (fun t (s : (Nat → α) × Bool) =>
      let i := k + 1 + t
      let ci := s.1 i - A (n * k + k + n + t * n) * A (n * k + k + n + t * n)
      (store s.1 i ci, if ci < icn i * tol then false else s.2)) (cn, true)
  else (cn, true)

/-- One pass of the body of `for (j=0;j<nb;j++)`; on `break` the state has `j` raised by
one and `nb = j`. -/
def bpqrCol {α : Type} [LinearOrderedField α]
    (dlarfg : Nat → α → (Nat → α) → α × (Nat → α) × α) (tol : α) (n p nt j : Nat)
    (s : BpqrState α) : BpqrState α :=
  let k := s.jb + j
  let xq := bpqrPivot s.cn p k
  let s1 := if xq.2 ≠ k then bpqrSwap n xq.2 j s else s
  let m := n - k
  let Ak := n * k + k
  let s2 := bpqrColUpdate n nt m j s1
  let g := dlarfg m (s2.A Ak) (fun t => s2.A (Ak + 1 + t))
  let A1 := forLoop (m - 1) (fun t A => store A (Ak + 1 + t) (g.2.1 t)) s2.A
  let s3 : BpqrState α := { s2 with A := store A1 Ak 1, tau := store s2.tau k g.2.2 }
  let s4 := bpqrFcol n p nt m j s3
  let s5 := bpqrFfix n nt m j s4
  let s6 := bpqrRowUpdate n p nt j s5
  let A2 := store s6.A Ak g.1
  let d := bpqrDowndate tol A2 s6.cn s6.icn n p k
  if d.2 then { s6 with A := A2, cn := d.1, k := k, j := j + 1, okNorm := true }
  else { s6 with A := A2, cn := d.1, k := k, j := j + 1, nb := j + 1, okNorm := false,
                 brk := true }

/-- Block update, `if (k<p-1) { ... }` after the `j` loop: the split of `m = n - k - 1`
rows from row `k + 1` and the calls `dgemm("N", "T", mb+i, &rt, &nb, &dmone, Aq, &n, F+j+1,
&pb, &done, Ak, &n)` with `Ak = A + (k+1)*n + kb[i]`, `Aq = A + jb * n + kb[i]` and
`rt = p - k - 1`. The result is the state and the last value of `Aq`. -/
def bpqrBlockUpdate {α : Type} [LinearOrderedField α] (n p nt : Nat) (s : BpqrState α) :
    BpqrState α × Nat :=
  let sp := bpqrSplit (n - s.k - 1) nt (s.k + 1) s.mb s.kb
  ({ s with
     mb := sp.2.1
     kb := sp.2.2
     A := forLoop sp.1 (fun i A =>
       dgemm false true (sp.2.1 i) (p - s.k - 1) s.nb (-1) A (s.jb * n + sp.2.2 i) n s.F
         (s.j + 1) s.pb 1 A ((s.k + 1) * n + sp.2.2 i) n) s.A },
   s.jb * n + sp.2.2 (sp.1 - 1))

/-- Recomputation of the column norms: `for (i = k+1;i<p; i++) { if (cn[i]<icn[i]*tol) {
x=0.0; Ak = A + i * n; Aq += n; Ak += k+1; for (;Ak<Aq;Ak++) x += *Ak * *Ak;
cn[i] = icn[i] = x; } }`, from the offset `Aq` in `A`; the result is `(cn, icn, Aq)`. -/
def bpqrRecompute {α : Type} [LinearOrderedField α] (tol : α) (A cn icn : Nat → α)
    (n p k Aq : Nat) : (Nat → α) × (Nat → α) × Nat :=
  forLoop (p - (k + 1)) (fun t (s : (Nat → α) × (Nat → α) × Nat) =>
    let i := k + 1 + t
    if s.1 i < s.2.1 i * tol then
      let Aq1 := s.2.2 + n
      let x := dotLoop (Aq1 - (i * n + (k + 1)))
        (fun u => A (i * n + (k + 1) + u) * A (i * n + (k + 1) + u))
      (store s.1 i x, store s.2.1 i x, Aq1)
    else s) (cn, icn, Aq)

/-- One pass of the body of `while (jb < p)`, for the target block size `nb0`. -/
def bpqrBlock {α : Type} [LinearOrderedField α]
    (dlarfg : Nat → α → (Nat → α) → α × (Nat → α) × α) (tol : α) (n p nt nb0 : Nat)
    (s : BpqrState α) : BpqrState α :=
  let nb := if p - s.jb > nb0 then nb0 else p - s.jb
  let F0 := forLoop (nb * s.pb) (fun t F => store F t 0) s.F
  let s1 : BpqrState α := forLoop nb
    (fun j (s : BpqrState α) => if s.brk then s else bpqrCol dlarfg tol n p nt j s)
    { s with nb := nb, F := F0, j := 0, brk := false }
  let s2 : BpqrState α := { s1 with j := s1.j - 1 }
  let ua := if s2.k + 1 < p then bpqrBlockUpdate n p nt s2 else (s2, 0)
  let s3 := ua.1
  let s4 : BpqrState α :=
    if s3.okNorm then s3
    else
      let rc := bpqrRecompute tol s3.A s3.cn s3.icn n p s3.k ua.2
      { s3 with cn := rc.1, icn := rc.2.1 }
  { s4 with pb := s4.pb - s4.nb, jb := s4.jb + s4.nb }

/-- Start of `bpqr`: pivot index, column norms `cn[i]=icn[i] = || A[:,i] ||^2`,
`if (p<nb) nb = p;`, `jb=0`, `pb = p`. The work arrays come zeroed from `calloc`; `k` is
not initialised in the source and is assigned in the first pass of the `j` loop. -/
def bpqrInit {α : Type} [LinearOrderedField α] (A tau : Nat → α) (piv : Nat → Nat)
    (n p nb : Nat) : BpqrState α :=
  let piv0 := forLoop p (fun i piv => store piv i i) piv
  let cc := forLoop p (fun i (c : (Nat → α) × (Nat → α)) =>
    let x := dotLoop n (fun t => A (i * n + t) * A (i * n + t))
    (store c.1 i x, store c.2 i x)) (fun _ => 0, fun _ => 0)
  { A := A, tau := tau, piv := piv0, cn := cc.1, icn := cc.2, F := fun _ => 0,
    work := fun _ => 0, mb := fun _ => 0, kb := fun _ => 0, jb := 0, pb := p,
    nb := if p < nb then p else nb, k := 0, j := 0, okNorm := true, brk := false }

/-- The function `bpqr(A, n, p, tau, piv, nb, nt)`: the final content of `A`, `tau` and
`piv` and the returned value `p`, when the loop `while (jb < p)` ends within `fuel`
passes. -/
def bpqr {α : Type} [LinearOrderedField α]
    (dlarfg : Nat → α → (Nat → α) → α × (Nat → α) × α) (tol : α)
    (A : Nat → α) (n p : Nat) (tau : Nat → α) (piv : Nat → Nat) (nb nt fuel : Nat) :
    Option ((Nat → α) × (Nat → α) × (Nat → Nat) × Nat) :=
  let s0 := bpqrInit A tau piv n p nb
  (whileLoop (fun s => decide (s.jb < p)) (bpqrBlock dlarfg tol n p nt s0.nb) fuel s0).map
    (fun s => (s.A, s.tau, s.piv, p))

/-- Reference LAPACK `dlarfg(N, ALPHA, X, 1, TAU)` in exact arithmetic (without the
rescaling of tiny values): for `N ≤ 1` or `xnorm = 0`, `TAU = 0` and nothing changes;
otherwise `beta = -sign(sqrt(ALPHA² + xnorm²), ALPHA)`, `TAU = (beta - ALPHA)/beta`,
`X = X/(ALPHA - beta)` and `ALPHA = beta`, where `xnorm = sqrt(Σ X[t]²)`. This is a value
for the parameter `dlarfg` of `mgcv_piqr` and `bpqr`. -/
def dlarfg_ref {α : Type} [LinearOrderedField α] (sqrt : α → α) (N : Nat) (alpha : α)
    (v : Nat → α) : α × (Nat → α) × α :=
  if N ≤ 1 then (alpha, v, 0)
  else
    let xnorm := sqrt (dotLoop (N - 1) (fun t => v t * v t))
    if xnorm = 0 then (alpha, v, 0)
    else
      let nrm := sqrt (alpha * alpha + xnorm * xnorm)
      let beta := if alpha ≥ 0 then -nrm else nrm
      (beta, fun t => v t / (alpha - beta), (beta - alpha) / beta)

/-! ## `update_qr` (mat.c lines 2052-2125)

Update of the factors `Q` (`n` by `q`) and `R` (`q` by `q`, upper triangular), both
column-major, for a new row that is zero except for `lam` in column `k`. The library
function `sqrt` is a parameter and `fabs` is the absolute value. A division by zero has
no value in exact arithmetic (the source produces NaN or an infinity), so a pass that
divides by zero ends the function without a result. -/

/-- Variables of `update_qr` that live across the passes of its outer loop: the buffers
`Q`, `R`, `x`, `work` and the pointer `Qp` into `Q`. -/
structure UqrState (α : Type) where
  Q : Nat → α
  R : Nat → α
  x : Nat → α
  work : Nat → α
  Qp : Nat

/-- Loop `for (rijp=riip + *q,xjp=xip+1;xjp<x+ *q;xjp++,rijp+= *q) { x1= *rijp;
*rijp = c*x1 - s* *xjp; *xjp = s*x1 + c* *xjp; }` with `xip = x + i`; the state is the
pair `(R, x)`. -/
def uqrRow {α : Type} [LinearOrderedField α] (c s : α) (q i riip : Nat)
    (Rx : (Nat → α) × (Nat → α)) : (Nat → α) × (Nat → α) :=
  forLoop (q - (i + 1)) (fun u (Rx : (Nat → α) × (Nat → α)) =>
    let x1 := Rx.1 (riip + q + u * q)
    (store Rx.1 (riip + q + u * q) (c * x1 - s * Rx.2 (i + 1 + u)),
     store Rx.2 (i + 1 + u) (s * x1 + c * Rx.2 (i + 1 + u)))) Rx

/-- Loop `for (wp=work;wp<work+ *n;wp++,Qp++) { x1 = *Qp; *Qp = c*x1-s* *wp;
*wp = s*x1+c* *wp; }`; the state is the triple `(Q, work, Qp)`. -/
def uqrCol {α : Type} [LinearOrderedField α] (c s : α) (n : Nat)
    (Qw : (Nat → α) × (Nat → α) × Nat) : (Nat → α) × (Nat → α) × Nat :=
  forLoop n (fun j (Qw : (Nat → α) × (Nat → α) × Nat) =>
    let x1 := Qw.1 Qw.2.2
    (store Qw.1 Qw.2.2 (c * x1 - s * Qw.2.1 j),
     store Qw.2.1 j (s * x1 + c * Qw.2.1 j), Qw.2.2 + 1)) Qw

/-- One pass of the outer loop of `update_qr`, for `i = k + t` and `riip` at `R[i,i]`. The
source divides by `m` and by `r`: where one of them is zero the quotients are no numbers
(the source stores NaN in `R` and `Q`) and the pass has no result. -/
def uqrStep {α : Type} [LinearOrderedField α] (sqrt : α → α) (n q k t : Nat)
    (st : UqrState α) : Option (UqrState α) :=
  let i := k + t
  let riip := k * q + k + t * (q + 1)
  let x0 := st.x i
  let x1 := st.R riip
  let m0 := |x0|
  let s0 := |x1|
  let m := if s0 > m0 then s0 else m0
  if m = 0 then none else
  let x1 := x1 / m
  let x0 := x0 / m
  let r := sqrt (x0 * x0 + x1 * x1)
  if r = 0 then none else
  let c := x1 / r
  let s := x0 / r
  let Rx := uqrRow c s q i riip (store st.R riip (m * r), st.x)
  let Qw := uqrCol c s n (st.Q, st.work, st.Qp)
  some { Q := Qw.1, R := Rx.1, x := Rx.2, work := Qw.2.1, Qp := Qw.2.2 }

/-- The function `update_qr(Q, R, n, q, lam, k)`: the final content of `Q` and `R`, or
`none` when a pass divides by zero. The arrays `x` and `work` come zeroed from `calloc`. -/
def update_qr {α : Type} [LinearOrderedField α] (sqrt : α → α) (Q R : Nat → α)
    (n q : Nat) (lam : α) (k : Nat) : Option ((Nat → α) × (Nat → α)) :=
  (forLoop (q - k) (fun t (st : Option (UqrState α)) => st.bind (uqrStep sqrt n q k t))
    (some { Q := Q, R := R, x := store (fun _ => 0) k lam, work := fun _ => 0,
            Qp := k * n })).map (fun st => (st.Q, st.R))


/-! ## Invariant of `mgcv_bchol`

For the correctness proof of `mgcv_bchol`: the relation between the input matrix `A0` and
the state at the start of column `j` of the block that starts at column `k`, as long as no
rank test has failed. `A[a,b]` is `A[a + n*b]`. -/

/-- State of `mgcv_bchol` before column `j` of the block of column `k`: the rows `i < j` of
the factor are done (`star`), the trailing block holds the input, permuted, minus the
products of the rows above the block (`trail`), `dots` holds the sums of squares of the rows
`k .. j - 2` of the block, and `piv` is a permutation. -/
structure BcholInv {α : Type} [LinearOrderedField α] (A0 : Nat → α) (n k j : Nat)
    (s : BcholState α) : Prop where
  ajn : s.Ajn = j * n
  rneg : s.r = -1
  pivlt : ∀ i, i < n → s.piv i < n
  pivinj : ∀ i i', i < n → i' < n → s.piv i = s.piv i' → i = i'
  pivsurj : ∀ v, v < n → ∃ i, i < n ∧ s.piv i = v
  diag : ∀ i, i < j → s.A (i + n * i) ≠ 0
  star : ∀ i l, i < j → i ≤ l → l < n →
    ∑ t in Finset.range (i + 1), s.A (t + n * i) * s.A (t + n * l)
      = A0 (s.piv i + n * s.piv l)
  trail : ∀ a b, j ≤ a → a < n → j ≤ b → b < n →
    s.A (a + n * b) = A0 (s.piv a + n * s.piv b)
      - ∑ t in Finset.range k, s.A (t + n * a) * s.A (t + n * b)
  dots : ∀ b, j ≤ b → b < n →
    s.dots b = ∑ t in Finset.Ico k (j - 1), s.A (t + n * b) * s.A (t + n * b)
  tolpos : 1 ≤ j → 0 < s.tol

/-- What is known of the state of `mgcv_bchol` once `r` rows of the factor are final:
`piv` is a permutation of `0 .. n - 1`, the diagonal of the rows `i < r` is not zero, and
`Σ_{t ≤ i} A[t,i]·A[t,l] = A0[piv i, piv l]` for `i < r`, `i ≤ l < n`. -/
structure BcholDone {α : Type} [LinearOrderedField α] (A0 : Nat → α) (n r : Nat)
    (A : Nat → α) (piv : Nat → Nat) : Prop where
  pivlt : ∀ i, i < n → piv i < n
  pivinj : ∀ i i', i < n → i' < n → piv i = piv i' → i = i'
  pivsurj : ∀ v, v < n → ∃ i, i < n ∧ piv i = v
  diag : ∀ i, i < r → A (i + n * i) ≠ 0
  star : ∀ i l, i < r → i ≤ l → l < n →
    ∑ t in Finset.range (i + 1), A (t + n * i) * A (t + n * l) = A0 (piv i + n * piv l)

/-- State of `mgcv_bchol` before the block of index `kk` (with block size `nb`): a rank
test has failed at a column `j ≥ 1` and `j` rows of the factor are final; or the block is
still to be done and the invariant holds at its first column; or all `n` columns are done
and no rank test has failed. -/
def BcholOuter {α : Type} [LinearOrderedField α] (A0 : Nat → α) (n nb kk : Nat)
    (s : BcholState α) : Prop :=
  (s.stop = true ∧ ∃ j, 1 ≤ j ∧ j < n ∧ s.r = (j : Int) ∧ BcholDone A0 n j s.A s.piv) ∨
  (s.stop = false ∧ kk * nb < n ∧ s.jb = nb ∧ 1 ≤ s.m ∧ n ≤ s.a s.m ∧
    BcholInv A0 n (kk * nb) (kk * nb) { s with dots := fun _ => 0 }) ∨
  (s.stop = false ∧ n ≤ kk * nb ∧ s.r = -1 ∧ BcholDone A0 n n s.A s.piv)

/-! ## `mgcv_pqrqy`: split of the columns of `b` between threads (mat.c lines 1861-1880)

In the branch `else` of `if (*cb==1 || *nt==1)` the `cb` columns of `b` are split into `nth`
blocks of `k` columns, the last one taking what is left. The integers are those of C
(`int`), with the truncating division. -/

/-- Lines `nth = *nt;if (nth > *cb) nth = *cb; k = *cb/nth; if (k*nth < *cb) k++;
if (k*(nth-1) >= *cb) nth--;` of `mgcv_pqrqy`; the result is `(nth, k)`. -/
def pqrqySplit (cb nt : Int) : Int × Int :=
  let nth := if nt > cb then cb else nt
  let k := Int.tdiv cb nth
  let k := if k * nth < cb then k + 1 else k
  let nth := if k * (nth - 1) ≥ cb then nth - 1 else nth
  (nth, k)

/-- First column `j` and number of columns `ki` of the block `i` of `mgcv_pqrqy`:
`j = i * k; if (i==nth-1) ki = *cb - j; else ki = k;`. The call for the block is
`mgcv_qrqy(b + j * *r,a,tau,r,&ki,c,&left,tp)`. -/
def pqrqyBlock (cb nt i : Int) : Int × Int :=
  let nth := (pqrqySplit cb nt).1
  let k := (pqrqySplit cb nt).2
  let j := i * k
  (j, if i = nth - 1 then cb - j else k)

/-! ## Cut point arrays of `mgcv_pbsi` and `mgcv_PPt`

The thread count after `if (*nt < 1) *nt = 1; if (*nt > *r) *nt = *r;` and the successive
contents of the array `a`, as they are formed in `mgcv_pbsi` and in `mgcv_PPt`. -/

/-- Thread count and the two cut point arrays of `mgcv_pbsi` (cube root rule
`round(pow(x*i,1/3.0))` for the first pass, square root rule `round(sqrt(x*i))` for the
second one). -/
def pbsiArrays (cut3 cut2 : Nat → Nat → Nat → Nat) (r : Nat) (nt : Int) :
    Nat × (Nat → Int) × (Nat → Int) :=
  let nt1 := if nt < 1 then 1 else nt.toNat
  let nt2 := if nt1 > r then r else nt1
  let a0 := store (store (fun _ => (0 : Int)) 0 0) nt2 (r : Int)
  let a1 := pbsiCuts cut3 r nt2 a0
  let a2 := pbsiCuts cut2 r nt2 a1
  (nt2, a1, a2)

/-- Thread count and the three cut point arrays of `mgcv_PPt` (square root rule
`round(*r - sqrt(x*(*nt-i)))` for the copy, cube root rule
`round(*r - pow(x*(*nt-i),1/3.0))` for the product, square root rule again for the
wipe). -/
def pptArrays (cut2 cut3 : Nat → Nat → Nat → Nat) (r : Nat) (nt : Int) :
    Nat × (Nat → Nat) × (Nat → Nat) × (Nat → Nat) :=
  let nt1 := if nt < 1 then 1 else nt.toNat
  let nt2 := if nt1 > r then r else nt1
  let a0 := store (store (fun _ => 0) 0 0) nt2 r
  let a1 := pptCuts cut2 r nt2 a0
  let a2 := pptCuts cut3 r nt2 a1
  let a3 := pptCuts cut2 r nt2 a2
  (nt2, a1, a2, a3)

/-- An array `a` of cut points splits the columns `0 .. r - 1` into `m` blocks of width at
least 1: `a[0] = 0`, `a[m] = r` and `a[b] < a[b+1]` for `b < m`. -/
def CutsOk (m : Nat) (r : Int) (a : Nat → Int) : Prop :=
  a 0 = 0 ∧ a m = r ∧ ∀ b, b < m → a b < a (b + 1)

/-! ## `mgcv_trisymeig` and `Rlanczos` (mat.c lines 2240-2292 and 2295-2528)

Lanczos iteration on the `n` by `n` symmetric matrix `A` up to the end of the main loop and
the assignment `*n = j`; the Ritz vectors that the source then adds into `U` and `D` are
not part of the model. The arithmetic is exact, over a linearly ordered field; `fabs` is
the absolute value. The library function `sqrt`, the constant `1e300` (`big`) and the LAPACK
routine `dstedc` are parameters; `dgemv`, `dsymv`, `ddot` and `daxpy` are the reference
BLAS definitions. The `unsigned long` variable `jran` has `w` bits. The flag `openmp`
records whether the code is compiled with `SUPPORT_OPENMP`, and the thread blocks are run
one after another. -/

/-- Reference BLAS `dsymv("U", N, alpha, A, lda, x, 1, beta, y, 1)`:
`y[i] = alpha * Σ_{l<N} S[i,l] * x[l] + beta * y[i]` for `i < N`, where `S[i,l]` is read
from the upper triangle of `A`: `A[i + lda*l]` if `i ≤ l` and `A[l + lda*i]` otherwise. -/
def dsymvUpper {α : Type} [Semiring α] (N : Nat) (alpha : α) (A : Nat → α) (lda : Nat)
    (X : Nat → α) (beta : α) (Y : Nat → α) : Nat → α :=
  forLoop N (fun i Y1 =>
    store Y1 i
      (alpha * (∑ l in Finset.range N,
          (if i ≤ l then A (i + lda * l) else A (l + lda * i)) * X l)
        + beta * Y i)) Y

/-- The function `mgcv_trisymeig(d, g, v, n, getvec, descending)`: the call of `dstedc`
(with `compz = 'I'` if `getvec` is not zero and `'N'` otherwise; the parameter maps the
flag, `n`, `d`, `g` and `v` to their contents on return), then, if `descending` is not
zero, `for (i=0;i<*n/2;i++) { x = d[i]; d[i] = d[*n-i-1];d[*n-i-1] = x;
dum1 = v + *n * i;dum2 = v + *n * (*n-i-1);
for (j=0;j<*n;j++,dum1++,dum2++) { x = *dum1;*dum1 = *dum2;*dum2 = x; } }`. The result
is the final content of `d`, `g` and `v`; the status that is written to `*n` is not
modelled. -/
def mgcv_trisymeig {α : Type}
    (dstedc : Bool → Nat → (Nat → α) → (Nat → α) → (Nat → α) →
      (Nat → α) × (Nat → α) × (Nat → α))
    (d g v : Nat → α) (n getvec descending : Nat) : (Nat → α) × (Nat → α) × (Nat → α) :=
  let s := dstedc (decide (getvec ≠ 0)) n d g v
  if descending ≠ 0 then
    let t := forLoop (n / 2) (fun i (t : (Nat → α) × (Nat → α)) =>
      (swapCells t.1 i (n - i - 1),
       forLoop n (fun j v => swapCells v (n * i + j) (n * (n - i - 1) + j)) t.2))
      (s.1, s.2.2)
    (t.1, s.2.1, t.2)
  else s

/-- Start vector of `Rlanczos` before its normalisation: the loop
`for (i=0;i < *n;i++) { jran=(jran*ia+ic) % im; xx=(double) jran / (double) im -0.5;
b[i]=xx;xx=-xx;bt+=b[i]*b[i]; }` from `jran = 1`, `bt = 0.0` with `ia = 106`, `ic = 1283`,
`im = 6075`; the state is `(jran, b, bt)`. -/
def lzStart {α : Type} [Field α] (w n : Nat) : Nat × (Nat → α) × α :=
  forLoop n (fun i (s : Nat × (Nat → α) × α) =>
    let jran := (s.1 * 106 + 1283) % 2 ^ w % 6075
    let xx : α := (jran : α) / (6075 : α) - 1 / 2
    let b := store s.2.1 i xx
    (jran, b, s.2.2 + b i * b i)) (1, fun _ => 0, 0)

/-- The vector `q[0]` of `Rlanczos`: `bt=sqrt(bt); for (i=0;i < *n;i++) b[i]/=bt;`. -/
def lzQ0 {α : Type} [Field α] (sqrt : α → α) (w n : Nat) : Nat → α :=
  let s : Nat × (Nat → α) × α := lzStart w n
  let bt := sqrt s.2.2
  forLoop n (fun i b => store b i (b i / bt)) s.2.1

/-- Split of the columns of `A` between threads: `if (*nt>1) { ci = *n / *nt;
cir = *n - ci * (*nt - 1); if (cir>ci) { ci++; *nt = (int)ceil(*n/ci);
cir = *n - ci * (*nt - 1); } if (cir == 0) { (*nt)--;cir=ci; } }`; the result is
`(nt, ci, cir)`. For `nt ≤ 1` the variables `ci` and `cir` are not assigned and not used. -/
def lzSplit (n nt : Int) : Int × Int × Int :=
  if nt > 1 then
    let ci := Int.tdiv n nt
    let cir := n - ci * (nt - 1)
    let s : Int × Int × Int :=
      if cir > ci then (Int.tdiv n (ci + 1), ci + 1, n - (ci + 1) * (Int.tdiv n (ci + 1) - 1))
      else (nt, ci, cir)
    if s.2.2 = 0 then (s.1 - 1, s.2.1, s.2.1) else s
  else (nt, 0, 0)

/-- Variables of `Rlanczos` that live across the passes of its main loop: the vectors
`q[l]`, the arrays `a`, `b`, `g`, `d`, `z`, `err`, `v`, and `vlength`, `normTj`, `m`, `lm`,
`j`; `brk` records that the loop was left by `break`. -/
structure LzState (α : Type) where
  q : Nat → Nat → α
  a : Nat → α
  b : Nat → α
  g : Nat → α
  d : Nat → α
  z : Nat → α
  err : Nat → α
  v : Nat → α
  vlength : Nat
  normTj : α
  m : Int
  lm : Int
  j : Nat
  brk : Bool

/-- The product `z = A q[j]`: with more than one thread
`for (i=0;i<*nt;i++) { if (i < *nt-1) ri = ci; else ri = cir;
dgemv("T",n,&ri,&alpha,A+i * ci * *n,n,q[j],&one,&beta,z+i*ci,&one); }`, otherwise
`dsymv("U",n,&alpha,A,n,q[j],&incx,&beta,z,&incx)`. -/
def lzMatVec {α : Type} [Semiring α] (A : Nat → α) (n : Nat) (nt ci cir : Int)
    (qj z : Nat → α) : Nat → α :=
  if nt > 1 then
    forLoop nt.toNat (fun i z =>
      let ri := if (i : Int) < nt - 1 then ci else cir
      dgemv_t n ri.toNat 1 A (i * ci.toNat * n) n qj 0 1 0 z (i * ci.toNat) 1) z
  else dsymvUpper n 1 A n qj 0 z

/-- One pass `xx = -ddot(n,z,1,q[i],1); daxpy(n,&xx,q[i],1,z,1);` of the
re-orthogonalisation. -/
def lzOrthStep {α : Type} [Ring α] (n : Nat) (qi z : Nat → α) : Nat → α :=
  let xx := -(dotLoop n (fun t => z t * qi t))
  forLoop n (fun t z1 => store z1 t (xx * qi t + z1 t)) z

/-- Update of `z` in pass `j`: `z -= a[j]*q[j]` if `j` is 0, and otherwise
`z -= a[j]*q[j] + b[j-1]*q[j-1]` followed by the two loops `for (i=0;i<=j;i++)` of the
re-orthogonalisation. -/
def lzUpdate {α : Type} [Ring α] (n j : Nat) (q : Nat → Nat → α) (b : Nat → α) (xx : α)
    (z : Nat → α) : Nat → α :=
  if j = 0 then forLoop n (fun t z => store z t (z t - xx * q j t)) z
  else
    let yy := b (j - 1)
    let z1 := forLoop n (fun t z => store z t (z t - (xx * q j t + yy * q (j - 1) t))) z
    let z2 := forLoop (j + 1) (fun i z => lzOrthStep n (q i) z) z1
    forLoop (j + 1) (fun i z => lzOrthStep n (q i) z) z2

/-- The test `((j>= *m + *lm)&&(j%f_check==0))||(j == *n-1)` that guards the spectral
decomposition of `T_j`. -/
def lzCheckDue (n j : Nat) (m lm fcheck : Int) : Bool :=
  decide (((j : Int) ≥ m + lm ∧ Int.tmod j fcheck = 0) ∨ (j : Int) = (n : Int) - 1)

/-- The test of the fixed `m`, `lm` mode: `ok=1;
for (i=0;i < *m;i++) if (err[i]>max_err) ok=0;
for (i=j;i > j - *lm;i--) if (err[i]>max_err) ok=0;`. For `m ≥ 0` and `j ≥ m + lm` no
index is negative. -/
def lzFixedOk {α : Type} [LinearOrderedField α] (err : Nat → α) (j : Nat) (m lm : Int)
    (maxErr : α) : Bool :=
  let ok := forLoop m.toNat (fun i ok => if err i > maxErr then false else ok) true
  forLoop lm.toNat (fun t ok => if err (j - t) > maxErr then false else ok) ok

/-- First part of the body of the main loop of `Rlanczos` for the pass `j`: `z = A q[j]`,
`a[j] = q[j]'z`, the update of `z`, `b[j] = sqrt(z'z)` and, `if (j < *n-1)`, the new vector
`q[j+1] = z/b[j]` (in storage zeroed by `calloc`). The field `j` of the result is the value
of `j` after the `j++` of the loop header or of `j++;break;`. -/
def lzAdvance {α : Type} [LinearOrderedField α] (sqrt : α → α) (A : Nat → α) (n : Nat)
    (nt ci cir : Int) (j : Nat) (s : LzState α) : LzState α :=
  let z := lzMatVec A n nt ci cir (s.q j) s.z
  let xx := dotLoop n (fun t => s.q j t * z t)
  let a := store s.a j xx
  let z := lzUpdate n j s.q s.b xx z
  let b := store s.b j (sqrt (dotLoop n (fun t => z t * z t)))
  let q := if (j : Int) < (n : Int) - 1 then
      (fun l => if l = j + 1 then forLoop n (fun t qv => store qv t (z t / b j)) (fun _ => 0)
        else s.q l)
    else s.q
  { s with q := q, a := a, b := b, z := z, j := j + 1 }

/-- Spectral decomposition of `T_j` inside the guard of `Rlanczos`: `d[i]=a[i]` for
`i < j+1`, `g[i]=b[i]` for `i < j`, the call `mgcv_trisymeig(d,g,v,&kk,1,1)` with `v` newly
zeroed and `kk = j + 1`, `normTj=fabs(d[0]);if (fabs(d[j])>normTj) normTj=fabs(d[j]);` and
`err[k]=b[j]*v[k * vlength + j]; err[k]=fabs(err[k]);` for `k < j+1`. -/
def lzDecomp {α : Type} [LinearOrderedField α]
    (dstedc : Bool → Nat → (Nat → α) → (Nat → α) → (Nat → α) →
      (Nat → α) × (Nat → α) × (Nat → α))
    (j : Nat) (s : LzState α) : LzState α :=
  let d := forLoop (j + 1) (fun i d => store d i (s.a i)) s.d
  let g := forLoop j (fun i g => store g i (s.b i)) s.g
  let e := mgcv_trisymeig dstedc d g (fun _ => 0) (j + 1) 1 1
  let normTj := if |e.1 j| > |e.1 0| then |e.1 j| else |e.1 0|
  let err := forLoop (j + 1) (fun k err => store err k |s.b j * e.2.2 (k * (j + 1) + j)|)
    s.err
  { s with g := e.2.1, d := e.1, err := err, v := e.2.2, vlength := j + 1, normTj := normTj }

/-- The termination test `if (j >= *m + *lm) { max_err=normTj*eps_stop; if (biggest) ...
else ... }` of `Rlanczos` after the decomposition; a passed test sets `brk` (the `j++` of
`j++;break;` is that of `lzAdvance`). -/
def lzTest {α : Type} [LinearOrderedField α] (biggest : Bool) (epsStop : α) (j : Nat)
    (s : LzState α) : LzState α :=
  if (j : Int) ≥ s.m + s.lm then
    let maxErr := s.normTj * epsStop
    if biggest then
      let sel := lanczosSelect s.d s.err j s.m.toNat maxErr
      if sel.converged then { s with m := (sel.pi : Int), lm := (sel.ni : Int), brk := true }
      else s
    else if lzFixedOk s.err j s.m s.lm maxErr then { s with brk := true }
    else s
  else s

/-- Body of the main loop `for (j=0;j< *n;j++)` of `Rlanczos` for the pass `j`. -/
def lzIter {α : Type} [LinearOrderedField α] (sqrt : α → α)
    (dstedc : Bool → Nat → (Nat → α) → (Nat → α) → (Nat → α) →
      (Nat → α) × (Nat → α) × (Nat → α))
    (A : Nat → α) (n : Nat) (nt ci cir : Int) (biggest : Bool) (fcheck : Int) (epsStop : α)
    (j : Nat) (s : LzState α) : LzState α :=
  let s1 := lzAdvance sqrt A n nt ci cir j s
  if lzCheckDue n j s1.m s1.lm fcheck then lzTest biggest epsStop j (lzDecomp dstedc j s1)
  else s1

/-- The state of `Rlanczos(A, U, D, n, m, lm, tol, nt)` after `k` passes of the loop
header `for (j=0;j< *n;j++)`, a pass after a `break` leaving the state as it is. The
arrays come zeroed from `calloc`, and `err[i] = 1e300`. -/
def RlanczosRun {α : Type} [LinearOrderedField α] (sqrt : α → α) (big : α)
    (dstedc : Bool → Nat → (Nat → α) → (Nat → α) → (Nat → α) →
      (Nat → α) × (Nat → α) × (Nat → α))
    (w : Nat) (A : Nat → α) (n : Nat) (m lm : Int) (tol : α) (nt : Int) (openmp : Bool)
    (k : Nat) : LzState α :=
  let nt := if openmp then nt else 1
  let nt := if nt > (n : Int) then (n : Int) else nt
  let biggest := decide (lm < 0)
  let lm1 := if lm < 0 then 0 else lm
  let fcheck := lanczosFCheck n m lm
  let sp := lzSplit n nt
  forLoop k (fun j s =>
      if s.brk then s else lzIter sqrt dstedc A n sp.1 sp.2.1 sp.2.2 biggest fcheck tol j s)
    { q := fun l => if l = 0 then lzQ0 sqrt w n else fun _ => 0,
      a := fun _ => 0, b := fun _ => 0, g := fun _ => 0, d := fun _ => 0, z := fun _ => 0,
      err := forLoop n (fun i err => store err i big) (fun _ => 0),
      v := fun _ => 0, vlength := 0, normTj := 0, m := m, lm := lm1, j := 0, brk := false }

/-- The function `Rlanczos(A, U, D, n, m, lm, tol, nt)` up to `*n = j`: the result is the
state on leaving the main loop, whose field `j` is the value written to `*n`. -/
def Rlanczos {α : Type} [LinearOrderedField α] (sqrt : α → α) (big : α)
    (dstedc : Bool → Nat → (Nat → α) → (Nat → α) → (Nat → α) →
      (Nat → α) × (Nat → α) × (Nat → α))
    (w : Nat) (A : Nat → α) (n : Nat) (m lm : Int) (tol : α) (nt : Int) (openmp : Bool) :
    LzState α :=
  RlanczosRun sqrt big dstedc w A n m lm tol nt openmp n

/-- The congruential sequence `x_0 = 1`, `x_{t+1} = (106 * x_t + 1283) mod 6075`. -/
def lcg : Nat → Nat
  | 0 => 1
  | t + 1 => (106 * lcg t + 1283) % 6075

/-! ## Householder reflectors as the QR kernels store them

The kernels `mgcv_piqr` and `bpqr` leave reflector `k` of an `n`-row matrix as the scalar
`tau[k]` and the vector `v` with `v[i] = 0` for `i < k`, `v[k] = 1` and `v[i] = A[i + n*k]`
for `k < i < n`: the reflector is `H_k = I - tau[k] v v'`. These definitions state what the
kernels compute; they are not taken from the source. -/

/-- Vector of reflector `k` stored below the diagonal of column `k` of the buffer `A`. -/
def hv {α : Type} [Zero α] [One α] (A : Nat → α) (n k : Nat) : Nat → α :=
  fun i => if i < k then 0 else if i = k then 1 else if i < n then A (i + n * k) else 0

/-- The vector `(I - tau v v') x` for vectors of `n` entries. -/
def houseApply {α : Type} [Ring α] (tau : α) (v x : Nat → α) (n : Nat) : Nat → α :=
  fun i => x i - tau * (∑ l in Finset.range n, v l * x l) * v i

/-- The vector `H_{k-1} ... H_1 H_0 x` for the reflectors stored in `A` and `tau`. -/
def houseSeq {α : Type} [Ring α] (A tau : Nat → α) (n : Nat) : Nat → (Nat → α) → Nat → α
  | 0, x => x
  | k + 1, x => houseApply (tau k) (hv A n k) (houseSeq A tau n k x) n

/-- What the QR kernels need of LAPACK `dlarfg(N, ALPHA, X, 1, TAU)` for `N ≥ 1`: with `beta`,
`v` and `tau` the new `ALPHA`, the new `X` and `TAU`, the reflector `I - tau w w'` with
`w = (1, v)` takes the vector `(ALPHA, X)` to `(beta, 0)`, and it is its own inverse:
`tau (2 - tau w'w) = 0`. -/
def DlarfgSpec {α : Type} [Ring α] (dlarfg : Nat → α → (Nat → α) → α × (Nat → α) × α) :
    Prop :=
  ∀ (N : Nat) (alpha : α) (x : Nat → α), 1 ≤ N →
    alpha - (dlarfg N alpha x).2.2 *
        (alpha + ∑ t in Finset.range (N - 1), (dlarfg N alpha x).2.1 t * x t)
      = (dlarfg N alpha x).1 ∧
    (∀ t, t < N - 1 →
      x t - (dlarfg N alpha x).2.2 *
          (alpha + ∑ t in Finset.range (N - 1), (dlarfg N alpha x).2.1 t * x t) *
          (dlarfg N alpha x).2.1 t = 0) ∧
    (dlarfg N alpha x).2.2 *
      (2 - (dlarfg N alpha x).2.2 *
        (1 + ∑ t in Finset.range (N - 1), (dlarfg N alpha x).2.1 t * (dlarfg N alpha x).2.1 t))
      = 0

/-- The array `piv` holds every index below `p` exactly once in its first `p` cells. -/
def IsPerm (p : Nat) (piv : Nat → Nat) : Prop :=
  (∀ i, i < p → piv i < p) ∧ (∀ i i', i < p → i' < p → piv i = piv i' → i = i') ∧
  (∀ v, v < p → ∃ i, i < p ∧ piv i = v)

/-- Relation between the `n` by `p` input `X` and the state of a pivoted Householder QR
after `k` reflectors: the product of the reflectors takes column `piv[c]` of `X` to column
`c` of the buffer `A`, with zeros in place of the reflector vectors that `A` holds below
the diagonal of its first `k` columns. -/
def QRInv {α : Type} [Ring α] (X : Nat → α) (n p k : Nat) (A tau : Nat → α)
    (piv : Nat → Nat) : Prop :=
  ∀ c i, c < p → i < n →
    houseSeq A tau n k (fun l => X (l + n * piv c)) i
      = if c < k ∧ c < i then 0 else A (i + n * c)

/-- State of `mgcv_piqr` after `s` passes of its loop on the input `X`. -/
structure PiqrInv {α : Type} [LinearOrderedField α] (X : Nat → α) (n p s : Nat)
    (S : PiqrState α) : Prop where
  r : S.r = (s : Int) - 1
  nh : S.nh = n - s
  perm : IsPerm p S.piv
  qr : QRInv X n p s S.x S.beta S.piv
  ctl : 0 < S.tau → s < n ∧ s ≤ S.k ∧ S.k < p

/-- The first `k` reflectors stored in `A` and `tau` are their own inverses:
`tau (2 - tau v'v) = 0` for each of them. -/
def ReflOrth {α : Type} [Ring α] (A tau : Nat → α) (n k : Nat) : Prop :=
  ∀ t, t < k →
    tau t * (2 - tau t * ∑ l in Finset.range n, hv A n t l * hv A n t l) = 0

/-- State of `bpqr` on the input `X` before column `j` of the block that starts at column
`jb`, with `k = jb + j`: the columns before `k` and the rows before `k` are final, and the
other cells hold the values that they had at the start of the block, which differ from the
current ones by the product of the reflector vectors of the block with the rows of `F`
(`lazy`). -/
structure BpqrInv {α : Type} [LinearOrderedField α] (X : Nat → α) (n p j : Nat)
    (s : BpqrState α) : Prop where
  pb : s.jb + s.pb = p
  jle : j ≤ s.nb
  perm : IsPerm p s.piv
  done : ∀ c i, c < p → i < n → (c < s.jb + j ∨ i < s.jb + j) →
    houseSeq s.A s.tau n (s.jb + j) (fun l => X (l + n * s.piv c)) i
      = if c < s.jb + j ∧ c < i then 0 else s.A (i + n * c)
  lazy : ∀ c i, s.jb + j ≤ c → c < p → s.jb + j ≤ i → i < n →
    houseSeq s.A s.tau n (s.jb + j) (fun l => X (l + n * s.piv c)) i
      = s.A (i + n * c)
        - ∑ t in Finset.range j, s.A (i + n * (s.jb + t)) * s.F (c - s.jb + s.pb * t)
  orth : ReflOrth s.A s.tau n (s.jb + j)

/-- State of `bpqr` on the input `X` before the block that starts at column `jb`: `piv` is
a permutation and the first `jb` reflectors take the pivoted input to the buffer `A`. -/
structure BpqrOuter {α : Type} [LinearOrderedField α] (X : Nat → α) (n p : Nat)
    (s : BpqrState α) : Prop where
  pb : s.jb + s.pb = p
  perm : IsPerm p s.piv
  qr : QRInv X n p s.jb s.A s.tau s.piv
  orth : ReflOrth s.A s.tau n s.jb

/-! ## The QR wrappers `getRpqr`, `mgcv_pqrqy`, `mgcv_pqr`, `mgcv_qr`, `mgcv_qrqy`
(mat.c lines 1697-1708, 1839-1902, 1950-2050)

The LAPACK routine `dgeqp3` is a parameter. The LAPACK routine `dormqr` is taken by its
definition (the unblocked `dorm2r`, which applies the reflectors one after another with
`dlarf`). Pointers into `b` are offsets. -/

/-- Vector of reflector `k` for `dormqr`: `q` entries, `v[k] = 1`, `v[i] = 0` for `i < k`
and `v[i] = A[i + lda*k]` for `k < i < q`. -/
def reflVec {α : Type} [Zero α] [One α] (A : Nat → α) (lda q k : Nat) : Nat → α :=
  fun i => if i < k then 0 else if i = k then 1 else if i < q then A (i + lda * k) else 0

/-- Reference LAPACK `dlarf('L', M, N, v, 1, tau, C, ldc, work)` on the buffer `C` from the
offset `coff`: `C := (I - tau v v') C`. -/
def dlarfL {α : Type} [Ring α] (M N : Nat) (v : Nat → α) (tau : α) (C : Nat → α)
    (coff ldc : Nat) : Nat → α :=
  forLoop N (fun j C => forLoop M (fun i C1 =>
    store C1 (coff + (i + ldc * j))
      (C (coff + (i + ldc * j))
        - tau * (∑ l in Finset.range M, v l * C (coff + (l + ldc * j))) * v i)) C) C

/-- Reference LAPACK `dlarf('R', M, N, v, 1, tau, C, ldc, work)` on the buffer `C` from the
offset `coff`: `C := C (I - tau v v')`. -/
def dlarfR {α : Type} [Ring α] (M N : Nat) (v : Nat → α) (tau : α) (C : Nat → α)
    (coff ldc : Nat) : Nat → α :=
  forLoop M (fun i C => forLoop N (fun j C1 =>
    store C1 (coff + (i + ldc * j))
      (C (coff + (i + ldc * j))
        - tau * (∑ l in Finset.range N, C (coff + (i + ldc * l)) * v l) * v j)) C) C

/-- Reference LAPACK `dormqr(side, trans, M, N, K, A, lda, tau, C, ldc, ...)` on the buffer
`C` from the offset `coff`, with `Q = H_0 H_1 ... H_{K-1}`: `Q C` (`left`, not `trans`),
`Q' C` (`left`, `trans`), `C Q` or `C Q'`. The reflectors are applied in the order
`0, ..., K-1` if `left` and `trans` or neither, and in the order `K-1, ..., 0` otherwise. -/
def dormqr_ref {α : Type} [Ring α] (left trans : Bool) (M N K : Nat) (A : Nat → α)
    (lda : Nat) (tau : Nat → α) (C : Nat → α) (coff ldc : Nat) : Nat → α :=
  forLoop K (fun t C =>
    let i := if left = trans then t else K - 1 - t
    if left then dlarfL M N (reflVec A lda M i) (tau i) C coff ldc
    else dlarfR M N (reflVec A lda N i) (tau i) C coff ldc) C

/-- The function `mgcv_qrqy(b, a, tau, r, c, k, left, tp)` on the buffer `b` from the offset
`boff`: `if (! *left) { side='R';lda = *c;} else lda= *r; if ( *tp) trans='T';` and the call
`dormqr(&side,&trans,r,c,k,a,&lda,tau,b,r,...)`. -/
def mgcv_qrqy {α : Type} [Ring α] (b : Nat → α) (boff : Nat) (a tau : Nat → α)
    (r c k left tp : Nat) : Nat → α :=
  dormqr_ref (decide (left ≠ 0)) (decide (tp ≠ 0)) r c k a (if left = 0 then c else r) tau
    b boff r

/-- The function `mgcv_qr(x, r, c, pivot, tau)`: the call
`dgeqp3(r,c,x,r,pivot,tau,...)`, whose result is the triple of the new `x`, `pivot` and
`tau`, and `for (ip=pivot;ip < pivot + *c;ip++) (*ip)--;`. The pivots that `dgeqp3` returns
count from 1. The result is `(x, pivot, tau)`. -/
def mgcv_qr {α : Type}
    (dgeqp3 : Nat → Nat → (Nat → α) → Nat → (Nat → Nat) → (Nat → α) →
      (Nat → α) × (Nat → Nat) × (Nat → α))
    (x : Nat → α) (r c : Nat) (pivot : Nat → Nat) (tau : Nat → α) :
    (Nat → α) × (Nat → Nat) × (Nat → α) :=
  let o := dgeqp3 r c x r pivot tau
  (o.1, forLoop c (fun i piv => store piv i (piv i - 1)) o.2.1, o.2.2)

/-- The function `mgcv_pqr(x, r, c, pivot, tau, nt)`: `if (*nt==1) mgcv_qr(x,r,c,pivot,tau);
else bpqr(x,*r,*c,tau,pivot,15,*nt);`. The result is `(x, pivot, tau)`, when the loop of
`bpqr` ends within `fuel` passes. -/
def mgcv_pqr {α : Type} [LinearOrderedField α]
    (dgeqp3 : Nat → Nat → (Nat → α) → Nat → (Nat → Nat) → (Nat → α) →
      (Nat → α) × (Nat → Nat) × (Nat → α))
    (dlarfg : Nat → α → (Nat → α) → α × (Nat → α) × α) (tol : α)
    (x : Nat → α) (r c : Nat) (pivot : Nat → Nat) (tau : Nat → α) (nt fuel : Nat) :
    Option ((Nat → α) × (Nat → Nat) × (Nat → α)) :=
  if nt = 1 then some (mgcv_qr dgeqp3 x r c pivot tau)
  else (bpqr dlarfg tol x r c tau pivot 15 nt fuel).map (fun o => (o.1, o.2.2.1, o.2.1))

/-- The function `getRpqr(R, x, r, c, rr, nt)`: `for (i=0;i<*c;i++) for (j=0;j<*c;j++)
if (i>j) R[i + *rr * j] = 0; else R[i + *rr * j] = Rs[i + n * j];` with `Rs = x`,
`n = *r`. -/
def getRpqr {α : Type} [Zero α] (R x : Nat → α) (r c rr : Nat) : Nat → α :=
  forLoop c (fun i R => forLoop c (fun j R =>
    if i > j then store R (i + rr * j) 0 else store R (i + rr * j) (x (i + r * j))) R) R

/-- First part of `mgcv_pqrqy`, for `tp == 0`: `x0 = b + *r * *cb -1; x1 = b + *c * *cb -1;
for (j= *cb;j>0;j--) { x0 -= *r - *c; for (i = *c;i>0;i--,x0--,x1--) { *x0 = *x1;
if (x0!=x1) *x1 = 0.0; } }`. The state is `(b, x0, x1)`. -/
def pqrqyExpand {α : Type} [Zero α] (b : Nat → α) (r c cb : Nat) : Nat → α :=
  (forLoop cb (fun _ (s : (Nat → α) × Int × Int) =>
    forLoop c (fun _ (s : (Nat → α) × Int × Int) =>
      let b1 := store s.1 s.2.1.toNat (s.1 s.2.2.toNat)
      let b2 := if s.2.1 ≠ s.2.2 then store b1 s.2.2.toNat 0 else b1
      (b2, s.2.1 - 1, s.2.2 - 1)) (s.1, s.2.1 - ((r : Int) - (c : Int)), s.2.2))
    (b, (r : Int) * (cb : Int) - 1, (c : Int) * (cb : Int) - 1)).1

/-- Last part of `mgcv_pqrqy`, for `tp != 0`: `x1 = x0 = b; for (i=0;i < *cb;i++,x1 += *r - *c)
for (j=0;j < *c;j++,x0++,x1++) *x0 = *x1;`. The state is `(b, x0, x1)`. -/
def pqrqyStrip {α : Type} (b : Nat → α) (r c cb : Nat) : Nat → α :=
  (forLoop cb (fun _ (s : (Nat → α) × Int × Int) =>
    let s1 := forLoop c (fun _ (s : (Nat → α) × Int × Int) =>
      (store s.1 s.2.1.toNat (s.1 s.2.2.toNat), s.2.1 + 1, s.2.2 + 1)) s
    (s1.1, s1.2.1, s1.2.2 + ((r : Int) - (c : Int)))) (b, 0, 0)).1

/-- The function `mgcv_pqrqy(b, a, tau, r, c, cb, tp, nt)` with `left = 1`: the result is
the final content of `b`. The blocks of columns of the split are run one after another; a
block with `ki ≤ 0` columns leaves `b` as it is. -/
def mgcv_pqrqy {α : Type} [Ring α] (b a tau : Nat → α) (r c cb tp nt : Nat) : Nat → α :=
  let b1 := if tp = 0 then pqrqyExpand b r c cb else b
  let b2 :=
    if cb = 1 ∨ nt = 1 then mgcv_qrqy b1 0 a tau r cb c 1 tp
    else
      forLoop (pqrqySplit cb nt).1.toNat (fun i b =>
        mgcv_qrqy b ((pqrqyBlock cb nt i).1 * (r : Int)).toNat a tau r
          (pqrqyBlock cb nt i).2.toNat c 1 tp) b1
  if tp ≠ 0 then pqrqyStrip b2 r c cb else b2

/-- What is needed of the call `dgeqp3(r, c, x, r, pivot, tau, ...)` on the `n` by `p` matrix
`X`, `p ≤ n`: the pivots returned, counted from 1, are a permutation, the product of the `p`
reflectors returned takes the pivoted `X` to the upper triangle returned, and each reflector
is its own inverse. -/
def DgeqpOk {α : Type} [Ring α] (X : Nat → α) (n p : Nat)
    (o : (Nat → α) × (Nat → Nat) × (Nat → α)) : Prop :=
  (∀ c, c < p → 1 ≤ o.2.1 c) ∧ IsPerm p (fun c => o.2.1 c - 1) ∧
  QRInv X n p p o.1 o.2.2 (fun c => o.2.1 c - 1) ∧ ReflOrth o.1 o.2.2 n p

/-- The vector `H_0 H_1 ... H_{k-1} z` for the reflectors stored in `A` and `tau`. -/
def houseRev {α : Type} [Ring α] (A tau : Nat → α) (n : Nat) : Nat → (Nat → α) → Nat → α
  | 0, z => z
  | k + 1, z => houseRev A tau n k (houseApply (tau k) (hv A n k) z n)

/-- State of the copy loop of `mgcv_pqrqy` when the entries `i + c*j < S` of the `c` by `cb`
matrix in `b` are still to be moved: the others are at their place `i + r*j` in `b1`, the
cells before `S` are as in `b`, and the other cells from `S` on are cleared if they held an
entry of the matrix and are as in `b` else. -/
def ExpandInv {α : Type} [Zero α] (b b1 : Nat → α) (r c cb S : Nat) : Prop :=
  (∀ i j, i < c → j < cb → S ≤ i + c * j → b1 (i + r * j) = b (i + c * j)) ∧
  (∀ z, z < S → b1 z = b z) ∧
  (∀ z, S ≤ z → (∀ i j, i < c → j < cb → S ≤ i + c * j → z ≠ i + r * j) →
    b1 z = if z < c * cb then 0 else b z)
/-! ## `mgcv_pchol` (mat.c lines 387-505)

Pivoted Cholesky factorisation of the `n` by `n` matrix in `A` (column-major), which reads
and writes the lower triangle of `A` only until the factor is transposed at the end. The
arithmetic is exact, over a linearly ordered field; the library function `sqrt`, the
constant `DOUBLE_EPS` and the rounded cut point `round(N - sqrt(x*(m-i)))` of the thread
partitions are parameters (`sqrt`, `eps`, `cut`). Pointers into `A` are offsets. The blocks
of the parallel sections are run one after another. -/

/-- Variables of `mgcv_pchol` that live across the passes of its `k` loop: the buffers `A`,
`piv`, `a`, and the scalars `m`, `r` and `thresh`. `brk` records that the loop was left by
`break`. -/
structure PcholState (α : Type) where
  A : Nat → α
  piv : Nat → Nat
  a : Nat → Nat
  m : Nat
  r : Nat
  thresh : α
  brk : Bool

/-- Pivot search `Ak = A + kn + k;x = *Ak;q=k;Ak+=n1; for (i=k+1;i < *n;i++,Ak+=n1)
if (*Ak>x) {x = *Ak;q=i;}` with `kn = k*n`, `n1 = n + 1`; the result is the pair `(x, q)`. -/
def pcholPivot {α : Type} [LinearOrderedField α] (A : Nat → α) (n k : Nat) : α × Nat :=
  forLoop (n - (k + 1)) (fun t (xq : α × Nat) =>
    if A (k * n + k + (n + 1) + t * (n + 1)) > xq.1
    then (A (k * n + k + (n + 1) + t * (n + 1)), k + 1 + t) else xq) (A (k * n + k), k)

/-- Exchange `A[k+1:q-1,k] <-> A[q,k+1:q-1]`: `Ak++; Aend = Aq; Aq = A + q + kn + *n;
for (;Aq<Aend;Ak++,Aq += *n) { x = *Ak;*Ak = *Aq;*Aq = x; }` from `Ak = A + kn + k` and
`Aq = A + qn + q`. -/
def pcholSwapMid {α : Type} (A : Nat → α) (n k q : Nat) : Nat → α :=
  forLoop (strideCount (q + k * n + n) (q * n + q) n) (fun t A =>
    swapCells A (k * n + k + 1 + t) (q + k * n + n + t * n)) A

/-- Exchange `A[q,1:k-1] <-> A[k,1:k-1]`: `Ak = A + k;Aend=Ak + kn;Aq = A + q;
for (;Ak < Aend;Ak += *n,Aq += *n) {x = *Aq;*Aq = *Ak;*Ak = x;}`. -/
def pcholSwapRows {α : Type} (A : Nat → α) (n k q : Nat) : Nat → α :=
  forLoop (strideCount k (k + k * n) n) (fun t A =>
    swapCells A (q + t * n) (k + t * n)) A

/-- Exchange `A[q+1:n,k] <-> A[q+1:n,q]`: `Ak = A + kn; Aq = A + qn+q+1;Aend = Ak + *n;
Ak+=q+1; for (;Ak<Aend;Ak++,Aq++) {x = *Aq;*Aq = *Ak;*Ak = x;}`. -/
def pcholSwapCols {α : Type} (A : Nat → α) (n k q : Nat) : Nat → α :=
  forLoop (k * n + n - (k * n + (q + 1))) (fun t A =>
    swapCells A (q * n + q + 1 + t) (k * n + (q + 1) + t)) A

/-- Scaling of column `k`: `Ak = A + kn + k;*Ak = sqrt(*Ak);Akk = *Ak;Ak++;
for (;Ak<Aend;Ak++) *Ak /= Akk;` with `Aend = A + kn + n`. -/
def pcholScale {α : Type} [LinearOrderedField α] (sqrt : α → α) (A : Nat → α) (n k : Nat) :
    Nat → α :=
  let A1 := store A (k * n + k) (sqrt (A (k * n + k)))
  forLoop (k * n + n - (k * n + k + 1)) (fun t B =>
    store B (k * n + k + 1 + t) (B (k * n + k + 1 + t) / A1 (k * n + k))) A1

/-- Thread cut points of pass `k`: `N = *n - k - 1; if (m > N) { m = N;a[m] = *n; }
(*a)++;`, then `for (i=1;i < m;i++) a[i] = round(N - sqrt(x*(m-i)))+k+1;` and
`for (i=1;i <= m;i++) if (a[i]<=a[i-1]) a[i] = a[i-1]+1;`. The result is `(m, a)`. -/
def pcholCuts (cut : Nat → Nat → Nat → Nat) (n k m : Nat) (a : Nat → Nat) :
    Nat × (Nat → Nat) :=
  let N := n - k - 1
  let ma := if m > N then (N, store a N n) else (m, a)
  let m1 := ma.1
  let a1 := store ma.2 0 (ma.2 0 + 1)
  let a2 := forLoop (m1 - 1) (fun t a => store a (t + 1) (cut N m1 (t + 1) + k + 1)) a1
  let a3 := forLoop m1 (fun t a =>
    if a (t + 1) ≤ a t then store a (t + 1) (a t + 1) else a) a2
  (m1, a3)

/-- Update of column `j` in pass `k`: `Aj = A + *n * j + j; Ak = A + kn; Aend = Ak + *n;
Ak += j;Ajk = *Ak; for (;Ak < Aend;Ak++,Aj++) *Aj -= *Ak * Ajk;`. -/
def pcholUpdCol {α : Type} [LinearOrderedField α] (n k j : Nat) (A : Nat → α) : Nat → α :=
  forLoop (k * n + n - (k * n + j)) (fun t B =>
    store B (n * j + j + t) (B (n * j + j + t) - B (k * n + j + t) * A (k * n + j))) A

/-- Column updates of pass `k`: `for (b=0;b<m;b++) for (j=a[b];j<a[b+1];j++)` around the
update of column `j`. -/
def pcholUpdate {α : Type} [LinearOrderedField α] (n k m : Nat) (a : Nat → Nat)
    (A : Nat → α) : Nat → α :=
  blockLoop m a (pcholUpdCol n k) A

/-- One pass of the body of the `k` loop. -/
def pcholStep {α : Type} [LinearOrderedField α] (sqrt : α → α) (eps : α)
    (cut : Nat → Nat → Nat → Nat) (n k : Nat) (s : PcholState α) : PcholState α :=
  let xq := pcholPivot s.A n k
  let x := xq.1
  let q := xq.2
  let thresh := if k = 0 then (n : α) * x * eps else s.thresh
  if x > thresh then
    let piv1 := swapCells s.piv q k
    let A1 := swapCells s.A (k * n + k) (q * n + q)
    let A2 := pcholSwapMid A1 n k q
    let A3 := pcholSwapRows A2 n k q
    let A4 := pcholSwapCols A3 n k q
    let A5 := pcholScale sqrt A4 n k
    let ma := pcholCuts cut n k s.m s.a
    { A := pcholUpdate n k ma.1 ma.2 A5, piv := piv1, a := ma.2, m := ma.1, r := s.r + 1,
      thresh := thresh, brk := false }
  else { s with thresh := thresh, brk := true }

/-- Loop `for (Ak = A + r * *n;Ak<Aend;Ak++) *Ak = 0.0;` with `Aend = A + n*n`. -/
def pcholWipe {α : Type} [Zero α] (n r : Nat) (A : Nat → α) : Nat → α :=
  forLoop (n * n - r * n) (fun t A => store A (r * n + t) 0) A

/-- Row `i` of the final transposition: `Ak = A + i * *n; Aend = Ak + *n;Ak += i;
Aq = Ak + *n; Ak ++; for (;Ak<Aend;Ak++,Aq += *n) { *Aq = *Ak;*Ak=0.0; }`. -/
def pcholTransRow {α : Type} [Zero α] (n i : Nat) (A : Nat → α) : Nat → α :=
  forLoop (i * n + n - (i * n + i + 1)) (fun t A =>
    store (store A (i * n + i + n + t * n) (A (i * n + i + 1 + t))) (i * n + i + 1 + t) 0) A

/-- The function `mgcv_pchol(A, piv, n, nt)`: the result is the final content of `A`, of
`piv`, and the returned rank. `a` is the zeroed work array of `calloc`. After the `k` loop
come `a[0] = 0;a[*nt] = *n;`, the cut points `for (i=1;i < *nt;i++)
a[i] = round(*n - sqrt(x*(*nt-i)));` with
`for (i=1;i <= *nt;i++) if (a[i]<=a[i-1]) a[i] = a[i-1]+1;` (the lines of `pptCuts`), and
the loops `for (b=0;b < *nt;b++) for (i=a[b];i<a[b+1];i++)` of the transposition. -/
def mgcv_pchol {α : Type} [LinearOrderedField α] (sqrt : α → α) (eps : α)
    (cut : Nat → Nat → Nat → Nat) (A : Nat → α) (piv : Nat → Nat) (n nt : Nat) :
    (Nat → α) × (Nat → Nat) × Nat :=
  let nt0 := if nt < 1 then 1 else nt
  let nt1 := if nt0 > n then n else nt0
  let a0 := store (store (fun _ => 0) 0 0) nt1 n
  let piv0 := forLoop n (fun i p => store p i i) piv
  let s : PcholState α := forLoop n
    (fun k (s : PcholState α) => if s.brk then s else pcholStep sqrt eps cut n k s)
    { A := A, piv := piv0, a := a0, m := nt1, r := 0, thresh := 0, brk := false }
  let a1 := pptCuts cut n nt1 (store (store s.a 0 0) nt1 n)
  (blockLoop nt1 a1 (pcholTransRow n) (pcholWipe n s.r s.A), s.piv, s.r)

/-! ## Invariant of `mgcv_pchol`

For the correctness proof of `mgcv_pchol`: the relation between the symmetric input matrix
`A0` and the state at the start of pass `k`, as long as the loop has not been left. The
lower triangle of `A` holds the columns of the factor that are done and the trailing block.
These definitions are not taken from the source. -/

/-- Entry `(a, b)` of the symmetric matrix whose lower triangle is stored in `A`. -/
def lowRead {α : Type} (A : Nat → α) (n a b : Nat) : α :=
  if b ≤ a then A (a + n * b) else A (b + n * a)

/-- State of `mgcv_pchol` before pass `k`: `k` columns of the factor are done (`star`), the
trailing block holds the input, permuted, minus the products of the columns done (`trail`),
`piv` is a permutation, `a[0] = k` and the last cut point is `n` or above. -/
structure PcholInv {α : Type} [LinearOrderedField α] (A0 : Nat → α) (n k : Nat)
    (s : PcholState α) : Prop where
  r : s.r = k
  a0 : k < n → s.a 0 = k
  am : k < n → 1 ≤ s.m ∧ n ≤ s.a s.m
  perm : IsPerm n s.piv
  diag : ∀ i, i < k → s.A (i + n * i) ≠ 0
  star : ∀ i l, i < k → i ≤ l → l < n →
    ∑ t in Finset.range (i + 1), s.A (i + n * t) * s.A (l + n * t)
      = A0 (s.piv i + n * s.piv l)
  trail : ∀ a b, k ≤ b → b ≤ a → a < n →
    s.A (a + n * b) = A0 (s.piv a + n * s.piv b)
      - ∑ t in Finset.range k, s.A (a + n * t) * s.A (b + n * t)
  thr : 1 ≤ k → 0 ≤ s.thresh


/-! # Theorems -/

section Basic
variable {α : Type}

theorem forLoop_succ {σ : Type} (k : Nat) (body : Nat → σ → σ) (s : σ) :
    forLoop (k + 1) body s = body k (forLoop k body s) := rfl

theorem forLoop_zero {σ : Type} (body : Nat → σ → σ) (s : σ) :
    forLoop 0 body s = s := rfl

theorem store_same (buf : Nat → α) (p : Nat) (v : α) : store buf p v p = v := by
  simp [store]

theorem store_ne (buf : Nat → α) (p q : Nat) (v : α) (h : q ≠ p) : store buf p v q = buf q := by
  simp [store, h]

/-- A loop that stores, at pairwise distinct positions, values depending only on the loop
index and on the old content of the position written. -/
theorem storeLoop_spec (n : Nat) (pos : Nat → Nat) (val : Nat → α → α) (C0 : Nat → α)
    (hinj : ∀ i j, i < n → j < n → pos i = pos j → i = j) :
    (∀ i, i < n →
      forLoop n (fun i C => store C (pos i) (val i (C (pos i)))) C0 (pos i)
        = val i (C0 (pos i))) ∧
    (∀ p, (∀ i, i < n → p ≠ pos i) →
      forLoop n (fun i C => store C (pos i) (val i (C (pos i)))) C0 p = C0 p) := by
  induction n with
  | zero => simp [forLoop]
  | succ k ih =>
    obtain ⟨h1, h2⟩ := ih (fun i j hi hj h => hinj i j (by omega) (by omega) h)
    rw [forLoop_succ]
    constructor
    · intro i hi
      by_cases hik : i = k
      · subst hik
        rw [store_same, h2 _ (fun j hj h => by have := hinj i j (by omega) (by omega) h; omega)]
      · have hne : pos i ≠ pos k := fun h => hik (hinj i k hi (by omega) h)
        rw [store_ne _ _ _ _ hne, h1 i (by omega)]
    · intro p hp
      rw [store_ne _ _ _ _ (hp k (by omega)), h2 p (fun i hi => hp i (by omega))]

/-- A loop that stores at pairwise distinct positions values read from positions that no
earlier iteration has written. -/
theorem storeReadLoop_spec (n : Nat) (pos rd : Nat → Nat) (f : Nat → α → α) (C0 : Nat → α)
    (hinj : ∀ i j, i < n → j < n → pos i = pos j → i = j)
    (hrd : ∀ i j, j < i → i < n → rd i ≠ pos j) :
    (∀ i, i < n →
      forLoop n (fun i C => store C (pos i) (f i (C (rd i)))) C0 (pos i) = f i (C0 (rd i))) ∧
    (∀ p, (∀ i, i < n → p ≠ pos i) →
      forLoop n (fun i C => store C (pos i) (f i (C (rd i)))) C0 p = C0 p) := by
  induction n with
  | zero => simp [forLoop]
  | succ k ih =>
    obtain ⟨h1, h2⟩ := ih (fun i j hi hj h => hinj i j (by omega) (by omega) h)
      (fun i j hji hi => hrd i j hji (by omega))
    rw [forLoop_succ]
    constructor
    · intro i hi
      by_cases hik : i = k
      · subst hik
        rw [store_same, h2 _ (fun j hj => hrd i j hj (by omega))]
      · have hne : pos i ≠ pos k := fun h => hik (hinj i k hi (by omega) h)
        rw [store_ne _ _ _ _ hne, h1 i (by omega)]
    · intro p hp
      rw [store_ne _ _ _ _ (hp k (by omega)), h2 p (fun i hi => hp i (by omega))]

end Basic

section TensorProofs
variable {α : Type}

theorem tmmRow_spec [Mul α] (X : Nat → α) (n : Nat) (s : TmmState α) (h : s.p ≤ s.p1) :
    (tmmRow X n s).p = s.p + n ∧ (tmmRow X n s).p1 = s.p1 + n ∧ (tmmRow X n s).Xj = s.Xj ∧
    (∀ t, t < n → (tmmRow X n s).T (s.p + t) = s.T (s.p1 + t) * X (s.Xj + t)) ∧
    (∀ q, (q < s.p ∨ s.p + n ≤ q) → (tmmRow X n s).T q = s.T q) := by
  induction n with
  | zero => simp [tmmRow, forLoop]
  | succ k ih =>
    obtain ⟨h1, h2, h3, h4, h5⟩ := ih
    have hs : tmmRow X (k + 1) s =
        { tmmRow X k s with
          T := store (tmmRow X k s).T (tmmRow X k s).p
            ((tmmRow X k s).T (tmmRow X k s).p1 * X ((tmmRow X k s).Xj + k)),
          p := (tmmRow X k s).p + 1, p1 := (tmmRow X k s).p1 + 1 } := rfl
    rw [hs]
    simp only [h1, h2, h3]
    refine ⟨by omega, by omega, trivial, ?_, ?_⟩
    · intro t ht
      by_cases htk : t = k
      · subst htk
        rw [store_same, h5 _ (Or.inr (by omega))]
      · rw [store_ne _ _ _ _ (by omega), h4 t (by omega)]
    · intro q hq
      rw [store_ne _ _ _ _ (by omega), h5 q (by omega)]


theorem tmmSweeps_spec [Mul α] (X : Nat → α) (n pd : Nat) (s : TmmState α) (h : s.p ≤ s.p1) :
    (forLoop pd (fun _ s => tmmRow X n s) s).p = s.p + pd * n ∧
    (forLoop pd (fun _ s => tmmRow X n s) s).p1 = s.p1 + pd * n ∧
    (forLoop pd (fun _ s => tmmRow X n s) s).Xj = s.Xj ∧
    (∀ k t, k < pd → t < n →
      (forLoop pd (fun _ s => tmmRow X n s) s).T (s.p + k * n + t)
        = s.T (s.p1 + k * n + t) * X (s.Xj + t)) ∧
    (∀ q, (q < s.p ∨ s.p + pd * n ≤ q) →
      (forLoop pd (fun _ s => tmmRow X n s) s).T q = s.T q) := by
  induction pd with
  | zero => simp [forLoop]
  | succ k ih =>
    obtain ⟨h1, h2, h3, h4, h5⟩ := ih
    rw [forLoop_succ]
    obtain ⟨g1, g2, g3, g4, g5⟩ :=
      tmmRow_spec X n (forLoop k (fun _ s => tmmRow X n s) s) (by rw [h1, h2]; omega)
    have e1 : (k + 1) * n = k * n + n := Nat.succ_mul k n
    refine ⟨by rw [g1, h1]; omega, by rw [g2, h2]; omega, by rw [g3, h3], ?_, ?_⟩
    · intro k' t hk' ht
      by_cases hk : k' = k
      · subst hk
        have := g4 t ht
        rw [h1, h2, h3] at this
        rw [this, h5 _ (Or.inr (by omega))]
      · have hlt : k' + 1 ≤ k := by omega
        have e2 : (k' + 1) * n ≤ k * n := Nat.mul_le_mul_right n hlt
        have e3 : (k' + 1) * n = k' * n + n := Nat.succ_mul k' n
        rw [g5 _ (Or.inl (by rw [h1]; omega)), h4 k' t (by omega) ht]
    · intro q hq
      rw [g5 q (by rw [h1]; omega), h5 q (by omega)]

theorem tmmCols_spec [Mul α] (X : Nat → α) (n pd Tk dj : Nat) (s : TmmState α)
    (h : s.p + dj * (pd * n) ≤ Tk + pd * n) :
    (forLoop dj (fun _ st => tmmCol X n pd Tk st) s).p = s.p + dj * (pd * n) ∧
    (forLoop dj (fun _ st => tmmCol X n pd Tk st) s).Xj = s.Xj + dj * n ∧
    (∀ jc k t, jc < dj → k < pd → t < n →
      (forLoop dj (fun _ st => tmmCol X n pd Tk st) s).T (s.p + jc * (pd * n) + k * n + t)
        = s.T (Tk + k * n + t) * X (s.Xj + jc * n + t)) ∧
    (∀ q, (q < s.p ∨ s.p + dj * (pd * n) ≤ q) →
      (forLoop dj (fun _ st => tmmCol X n pd Tk st) s).T q = s.T q) := by
  induction dj with
  | zero => simp [forLoop]
  | succ j ih =>
    have e1 : (j + 1) * (pd * n) = j * (pd * n) + pd * n := Nat.succ_mul j _
    have e0 : (j + 1) * n = j * n + n := Nat.succ_mul j n
    obtain ⟨h1, h2, h3, h4⟩ := ih (by omega)
    rw [forLoop_succ]
    set sj := forLoop j (fun _ st => tmmCol X n pd Tk st) s with hsj
    obtain ⟨g1, g2, g3, g4, g5⟩ :=
      tmmSweeps_spec X n pd { sj with p1 := Tk } (by show sj.p ≤ Tk; rw [h1]; omega)
    simp only at g1 g2 g3 g4 g5
    have hc : tmmCol X n pd Tk sj =
        { forLoop pd (fun _ s => tmmRow X n s) { sj with p1 := Tk } with
          Xj := (forLoop pd (fun _ s => tmmRow X n s) { sj with p1 := Tk }).Xj + n } := rfl
    rw [hc]
    simp only
    refine ⟨by rw [g1, h1]; omega, by rw [g3, h2]; omega, ?_, ?_⟩
    · intro jc k t hjc hk ht
      have e3 : (k + 1) * n ≤ pd * n := Nat.mul_le_mul_right n hk
      have e4 : (k + 1) * n = k * n + n := Nat.succ_mul k n
      by_cases hj : jc = j
      · subst hj
        have ea : s.p + jc * (pd * n) + k * n + t = sj.p + k * n + t := by rw [h1]
        rw [ea, g4 k t hk ht, h2, h4 _ (Or.inr (by omega))]
      · have hlt : jc + 1 ≤ j := by omega
        have e5 : (jc + 1) * (pd * n) ≤ j * (pd * n) := Nat.mul_le_mul_right _ hlt
        have e6 : (jc + 1) * (pd * n) = jc * (pd * n) + pd * n := Nat.succ_mul jc _
        rw [g5 _ (Or.inl (by rw [h1]; omega)), h3 jc k t (by omega) hk ht]
    · intro q hq
      rw [g5 q (by rw [h1]; omega), h4 q (by omega)]


theorem sufProd_step (d : Nat → Nat) (m i : Nat) (h : i < m) :
    sufProd d m i = d i * sufProd d m (i + 1) := by
  unfold sufProd
  rw [Finset.prod_eq_prod_Ico_succ_bot h]

theorem sufProd_self (d : Nat → Nat) (m : Nat) : sufProd d m m = 1 := by
  simp [sufProd]

theorem tIdx_step (d c : Nat → Nat) (m i : Nat) (h : i < m) :
    tIdx d c m i = c i * sufProd d m (i + 1) + tIdx d c m (i + 1) := by
  unfold tIdx
  rw [Finset.sum_eq_sum_Ico_succ_bot h]

theorem tIdx_self (d c : Nat → Nat) (m : Nat) : tIdx d c m m = 0 := by
  simp [tIdx]

theorem tIdx_lt (d c : Nat → Nat) (m : Nat) (k : Nat) :
    ∀ i, i + k = m → (∀ l, i ≤ l → l < m → c l < d l) → tIdx d c m i < sufProd d m i := by
  induction k with
  | zero =>
    intro i hi _
    have : i = m := by omega
    subst this
    simp [tIdx_self, sufProd_self]
  | succ k ih =>
    intro i hi hc
    have him : i < m := by omega
    rw [tIdx_step d c m i him, sufProd_step d m i him]
    have h1 := ih (i + 1) (by omega) (fun l hl hlm => hc l (by omega) hlm)
    have h2 : c i + 1 ≤ d i := hc i le_rfl him
    have h3 : (c i + 1) * sufProd d m (i + 1) ≤ d i * sufProd d m (i + 1) :=
      Nat.mul_le_mul_right _ h2
    have h4 : (c i + 1) * sufProd d m (i + 1) = c i * sufProd d m (i + 1) + sufProd d m (i + 1) :=
      Nat.succ_mul _ _
    omega

theorem sufProd_le (d : Nat → Nat) (m : Nat) (hd : ∀ l, l < m → 1 ≤ d l) (i : Nat) (hi : i ≤ m) :
    sufProd d m i ≤ sufProd d m 0 := by
  induction i with
  | zero => exact le_rfl
  | succ k ih =>
    have h1 := ih (by omega)
    rw [sufProd_step d m k (by omega)] at h1
    have h2 : 1 * sufProd d m (k + 1) ≤ d k * sufProd d m (k + 1) :=
      Nat.mul_le_mul_right _ (hd k (by omega))
    omega

theorem tmm_dims (d : Nat → Nat) (m : Nat) :
    forLoop m (fun i (q : Nat × Nat) => (q.1 + d i, q.2 * d i)) (0, 1)
      = (colOff d m, sufProd d m 0) := by
  induction m with
  | zero => simp [forLoop, colOff, sufProd]
  | succ k ih =>
    rw [forLoop_succ, ih]
    simp only [colOff, sufProd, Finset.sum_range_succ, Prod.mk.injEq, true_and]
    rw [← Finset.range_eq_Ico, Finset.prod_range_succ]

theorem sub_mul_add (tp x n : Nat) (hx : x ≤ tp) : (tp - x) * n + x * n = tp * n := by
  rw [← Nat.add_mul, Nat.sub_add_cancel hx]

theorem tmm_copy (X : Nat → α) (Xk Tk : Nat) (cnt : Nat) (T : Nat → α) :
    (∀ t, t < cnt → forLoop cnt (fun t T => store T (Tk + t) (X (Xk + t))) T (Tk + t) = X (Xk + t)) ∧
    (∀ q, (q < Tk ∨ Tk + cnt ≤ q) →
      forLoop cnt (fun t T => store T (Tk + t) (X (Xk + t))) T q = T q) := by
  induction cnt with
  | zero => simp [forLoop]
  | succ k ih =>
    obtain ⟨h1, h2⟩ := ih
    rw [forLoop_succ]
    constructor
    · intro t ht
      by_cases htk : t = k
      · subst htk; rw [store_same]
      · rw [store_ne _ _ _ _ (by omega), h1 t (by omega)]
    · intro q hq
      rw [store_ne _ _ _ _ (by omega), h2 q (by omega)]


theorem tmmOuter_inv [CommMonoid α] (X : Nat → α) (d : Nat → Nat) (m n : Nat)
    (hd : ∀ l, l < m → 1 ≤ d l) (s0 : TmmOuter α)
    (h0pd : s0.pd = sufProd d m (m - 1))
    (h0Tk : s0.Tk = (sufProd d m 0 - s0.pd) * n)
    (h0Xk : s0.Xk = colOff d (m - 1) * n)
    (h0F : ∀ c j, (∀ l, m - 1 ≤ l → l < m → c l < d l) → j < n →
      s0.T (s0.Tk + tIdx d c m (m - 1) * n + j)
        = ∏ l in Finset.Ico (m - 1) m, X ((colOff d l + c l) * n + j))
    (t : Nat) (ht : t + 1 ≤ m) :
    (forLoop t (fun t s => tmmStep X d n (sufProd d m 0) (m - 2 - t) s) s0).pd
        = sufProd d m (m - 1 - t) ∧
    (forLoop t (fun t s => tmmStep X d n (sufProd d m 0) (m - 2 - t) s) s0).Tk
        = (sufProd d m 0 - sufProd d m (m - 1 - t)) * n ∧
    (forLoop t (fun t s => tmmStep X d n (sufProd d m 0) (m - 2 - t) s) s0).Xk
        = colOff d (m - 1 - t) * n ∧
    (∀ c j, (∀ l, m - 1 - t ≤ l → l < m → c l < d l) → j < n →
      (forLoop t (fun t s => tmmStep X d n (sufProd d m 0) (m - 2 - t) s) s0).T
          ((sufProd d m 0 - sufProd d m (m - 1 - t)) * n + tIdx d c m (m - 1 - t) * n + j)
        = ∏ l in Finset.Ico (m - 1 - t) m, X ((colOff d l + c l) * n + j)) ∧
    (∀ q, sufProd d m 0 * n ≤ q →
      (forLoop t (fun t s => tmmStep X d n (sufProd d m 0) (m - 2 - t) s) s0).T q = s0.T q) := by
  induction t with
  | zero =>
    simp only [forLoop_zero, Nat.sub_zero]
    refine ⟨h0pd, by rw [h0Tk, h0pd], h0Xk, ?_, fun q _ => trivial⟩
    intro c j hc hj
    have := h0F c j hc hj
    rw [h0Tk, h0pd] at this
    exact this
  | succ t ih =>
    obtain ⟨i, hi⟩ : ∃ i, m = i + t + 2 := ⟨m - t - 2, by omega⟩
    have e1 : m - 2 - t = i := by omega
    have e2 : m - 1 - t = i + 1 := by omega
    have e3 : m - 1 - (t + 1) = i := by omega
    obtain ⟨g1, g2, g3, g4, g5⟩ := ih (by omega)
    rw [forLoop_succ, e1, e3]
    rw [e2] at g1 g2 g3 g4
    set s := forLoop t (fun t s => tmmStep X d n (sufProd d m 0) (m - 2 - t) s) s0 with hs
    set tp := sufProd d m 0 with htp
    set Q := sufProd d m (i + 1) with hQ
    have him : i < m := by omega
    have hPi : sufProd d m i = d i * Q := sufProd_step d m i him
    have hle : sufProd d m i ≤ tp := sufProd_le d m hd i (by omega)
    have hleQ : Q ≤ tp := sufProd_le d m hd (i + 1) (by omega)
    have hdi : 1 ≤ d i := hd i him
    have hXk : s.Xk - n * d i = colOff d i * n := by
      rw [g3]
      have : colOff d (i + 1) = colOff d i + d i := by
        simp [colOff, Finset.sum_range_succ]
      rw [this, Nat.add_mul, Nat.mul_comm n (d i)]
      omega
    have hstart : tp - s.pd * d i = tp - sufProd d m i := by
      rw [g1, hPi, Nat.mul_comm]
    have hA : (tp - sufProd d m i) * n + d i * (Q * n) = tp * n := by
      have := sub_mul_add tp (sufProd d m i) n hle
      rw [hPi] at this ⊢
      rw [← this, Nat.mul_assoc]
    have hB : (tp - Q) * n + Q * n = tp * n := sub_mul_add tp Q n hleQ
    obtain ⟨k1, k2, k3, k4⟩ := tmmCols_spec X n s.pd s.Tk (d i)
      { T := s.T, p := (tp - s.pd * d i) * n, p1 := s.Tk, Xj := s.Xk - n * d i }
      (by show (tp - s.pd * d i) * n + d i * (s.pd * n) ≤ s.Tk + s.pd * n
          rw [hstart, g1, g2]; omega)
    simp only at k1 k2 k3 k4
    have hstep : tmmStep X d n tp i s =
        { T := (forLoop (d i) (fun _ st => tmmCol X n s.pd s.Tk st)
            { T := s.T, p := (tp - s.pd * d i) * n, p1 := s.Tk, Xj := s.Xk - n * d i }).T,
          Xk := s.Xk - n * d i, Tk := (tp - s.pd * d i) * n, pd := s.pd * d i } := rfl
    rw [hstep]
    simp only
    refine ⟨by rw [g1, hPi, Nat.mul_comm], by rw [hstart], hXk, ?_, ?_⟩
    · intro c j hc hj
      have hk : tIdx d c m (i + 1) < Q :=
        tIdx_lt d c m (t + 1) (i + 1) (by omega) (fun l hl hlm => hc l (by omega) hlm)
      have hci : c i < d i := hc i le_rfl him
      have hpos : (tp - sufProd d m i) * n + tIdx d c m i * n + j
          = (tp - s.pd * d i) * n + c i * (s.pd * n) + tIdx d c m (i + 1) * n + j := by
        rw [hstart, tIdx_step d c m i him, g1]
        ring
      rw [hpos, k3 (c i) (tIdx d c m (i + 1)) j hci (by rw [g1]; exact hk) hj]
      rw [g2, g4 c j (fun l hl hlm => hc l (by omega) hlm) hj]
      rw [Finset.prod_eq_prod_Ico_succ_bot him, hXk, mul_comm]
      congr 2
      ring
    · intro q hq
      rw [k4 q (Or.inr (by rw [hstart, g1]; omega)), g5 q hq]


/-- Claim C1. For every `m ≥ 1` and column counts `d[0..m-1] ≥ 1` (and every row count `n`),
`mgcv_tensor_mm` leaves in `T`, for every row `j < n` and every index tuple `c` with
`c i < d i`, the product over the `m` packed matrices of their entries in row `j` and column
`c i`, at offset `j + n * col` with `col = Σ_i c i * Π_{l>i} d l` (first matrix slowest);
`col` is below `Π d i`, and `T` is not written at or beyond offset `n * Π d i`.  `X` is only
read by the embedding, so it is unchanged. -/
theorem tensor_mm_correct [CommMonoid α] (X T : Nat → α) (d : Nat → Nat) (m n : Nat)
    (hm : 1 ≤ m) (hd : ∀ i, i < m → 1 ≤ d i) :
    (∀ (c : Nat → Nat) (j : Nat), (∀ i, i < m → c i < d i) → j < n →
      (∑ i in Finset.range m, c i * ∏ l in Finset.Ico (i + 1) m, d l) < ∏ i in Finset.range m, d i ∧
      mgcv_tensor_mm X T d m n
          (j + n * ∑ i in Finset.range m, c i * ∏ l in Finset.Ico (i + 1) m, d l)
        = ∏ i in Finset.range m, X (j + n * ((∑ l in Finset.range i, d l) + c i))) ∧
    (∀ q, n * (∏ i in Finset.range m, d i) ≤ q → mgcv_tensor_mm X T d m n q = T q) := by
  obtain ⟨m', rfl⟩ : ∃ m', m = m' + 1 := ⟨m - 1, by omega⟩
  have e0 : m' + 1 - 1 = m' := by omega
  have hcol : colOff d (m' + 1) - d m' = colOff d m' := by
    simp [colOff, Finset.sum_range_succ]
  have hPm : sufProd d (m' + 1) m' = d m' := by
    rw [sufProd_step d (m' + 1) m' (by omega), sufProd_self, Nat.mul_one]
  have hle : d m' ≤ sufProd d (m' + 1) 0 := by
    have := sufProd_le d (m' + 1) hd m' (by omega)
    rwa [hPm] at this
  obtain ⟨c1, c2⟩ := tmm_copy X (colOff d m' * n) ((sufProd d (m' + 1) 0 - d m') * n)
    (n * d m') T
  have hrun : mgcv_tensor_mm X T d (m' + 1) n =
      (forLoop m' (fun t s => tmmStep X d n (sufProd d (m' + 1) 0) (m' + 1 - 2 - t) s)
        { T := forLoop (n * d m')
            (fun t T => store T ((sufProd d (m' + 1) 0 - d m') * n + t)
              (X (colOff d m' * n + t))) T,
          Xk := colOff d m' * n, Tk := (sufProd d (m' + 1) 0 - d m') * n, pd := d m' }).T := by
    unfold mgcv_tensor_mm
    simp only [tmm_dims, e0, hcol]
  obtain ⟨-, -, -, g4, g5⟩ := tmmOuter_inv X d (m' + 1) n hd
    { T := forLoop (n * d m')
        (fun t T => store T ((sufProd d (m' + 1) 0 - d m') * n + t)
          (X (colOff d m' * n + t))) T,
      Xk := colOff d m' * n, Tk := (sufProd d (m' + 1) 0 - d m') * n, pd := d m' }
    (by simp only [e0, hPm]) (by simp only) (by simp only [e0])
    (by
      intro c j hc hj
      simp only [e0]
      have hc' : c m' < d m' := hc m' (by omega) (by omega)
      have hidx : tIdx d c (m' + 1) m' = c m' := by
        rw [tIdx_step d c (m' + 1) m' (by omega), sufProd_self, tIdx_self]
        omega
      have hlt : c m' * n + j < n * d m' := by
        have h1 : (c m' + 1) * n ≤ d m' * n := Nat.mul_le_mul_right n hc'
        have h2 : (c m' + 1) * n = c m' * n + n := Nat.succ_mul _ _
        have h3 : d m' * n = n * d m' := Nat.mul_comm _ _
        omega
      have := c1 (c m' * n + j) hlt
      rw [hidx, Nat.add_assoc, this]
      rw [Finset.prod_eq_prod_Ico_succ_bot (by omega : m' < m' + 1)]
      simp only [Finset.Ico_self, Finset.prod_empty, mul_one]
      congr 1
      ring)
    m' (by omega)
  have hz : m' + 1 - 1 - m' = 0 := by omega
  rw [hz] at g4
  have hPr : sufProd d (m' + 1) 0 = ∏ i in Finset.range (m' + 1), d i := by
    unfold sufProd
    rw [Finset.range_eq_Ico]
  rw [hrun]
  constructor
  · intro c j hc hj
    have hlt := tIdx_lt d c (m' + 1) (m' + 1) 0 (by omega) (fun l _ hl => hc l hl)
    have hidx : (∑ i in Finset.range (m' + 1), c i * ∏ l in Finset.Ico (i + 1) (m' + 1), d l)
        = tIdx d c (m' + 1) 0 := by
      unfold tIdx sufProd
      rw [Finset.range_eq_Ico]
    rw [hidx, ← hPr]
    refine ⟨hlt, ?_⟩
    have := g4 c j (fun l _ hl => hc l hl) hj
    simp only [Nat.sub_self, Nat.zero_mul, Nat.zero_add] at this
    rw [show j + n * tIdx d c (m' + 1) 0 = tIdx d c (m' + 1) 0 * n + j by ring, this,
      ← Finset.range_eq_Ico]
    refine Finset.prod_congr rfl (fun i _ => ?_)
    congr 1
    simp only [colOff]
    ring
  · intro q hq
    rw [g5 q (by rw [hPr, Nat.mul_comm]; exact hq)]
    exact c2 q (Or.inr (by
      have := sub_mul_add (sufProd d (m' + 1) 0) (d m') n hle
      rw [hPr] at this ⊢
      have h3 : d m' * n = n * d m' := Nat.mul_comm _ _
      have h4 : (∏ i in Finset.range (m' + 1), d i) * n = n * ∏ i in Finset.range (m' + 1), d i :=
        Nat.mul_comm _ _
      omega))

/-- Witness for C1: two matrices with three rows and column counts `[2, 3]`, evaluated at
row 1 and index tuple `(1, 2)`. -/
theorem tensor_mm_correct_witness :
    (1 ≤ 2 ∧ ∀ i, i < 2 → 1 ≤ (fun i => if i = 0 then 2 else 3 : Nat → Nat) i) ∧
    mgcv_tensor_mm (fun i => (i : Int) + 1) (fun _ => 0) (fun i => if i = 0 then 2 else 3) 2 3
        (1 + 3 * ∑ i in Finset.range 2, (fun i => if i = 0 then 1 else 2 : Nat → Nat) i *
          ∏ l in Finset.Ico (i + 1) 2, (fun i => if i = 0 then 2 else 3 : Nat → Nat) l)
      = ∏ i in Finset.range 2, (fun i => (i : Int) + 1 : Nat → Int)
          (1 + 3 * ((∑ l in Finset.range i, (fun i => if i = 0 then 2 else 3 : Nat → Nat) l) +
            (fun i => if i = 0 then 1 else 2 : Nat → Nat) i)) :=
  ⟨⟨by decide, by decide⟩,
    ((tensor_mm_correct (fun i => (i : Int) + 1) (fun _ => 0) (fun i => if i = 0 then 2 else 3)
      2 3 (by decide) (by decide)).1 (fun i => if i = 0 then 1 else 2) 1 (by decide)
      (by decide)).2⟩

end TensorProofs

section MmultProofs
variable {α : Type}

theorem sweep_spec (g : Nat → α → α) (r Aoff : Nat) (A : Nat → α) (bp : Nat) :
    (forLoop r (fun q (t : (Nat → α) × Nat) =>
        (store t.1 (Aoff + q) (g t.2 (t.1 (Aoff + q))), t.2 + 1)) (A, bp)).2 = bp + r ∧
    (∀ q, q < r → (forLoop r (fun q (t : (Nat → α) × Nat) =>
        (store t.1 (Aoff + q) (g t.2 (t.1 (Aoff + q))), t.2 + 1)) (A, bp)).1 (Aoff + q)
          = g (bp + q) (A (Aoff + q))) ∧
    (∀ p, (p < Aoff ∨ Aoff + r ≤ p) → (forLoop r (fun q (t : (Nat → α) × Nat) =>
        (store t.1 (Aoff + q) (g t.2 (t.1 (Aoff + q))), t.2 + 1)) (A, bp)).1 p = A p) := by
  induction r with
  | zero => simp [forLoop]
  | succ k ih =>
    obtain ⟨h1, h2, h3⟩ := ih
    rw [forLoop_succ]
    refine ⟨by simp only [h1]; omega, ?_, ?_⟩
    · intro q hq
      by_cases hqk : q = k
      · subst hqk
        simp only [store_same, h1]
        rw [h3 _ (Or.inr (by omega))]
      · simp only
        rw [store_ne _ _ _ _ (by omega), h2 q (by omega)]
    · intro p hp
      simp only
      rw [store_ne _ _ _ _ (by omega), h3 p (by omega)]

theorem mm0nPasses_spec [Semiring α] (B C : Nat → α) (r cs Aoff m : Nat) (s0 : Mm0Col α) :
    (forLoop m (fun _ (s : Mm0Col α) =>
      let xx := C s.Cp
      let t := forLoop r (fun q (t : (Nat → α) × Nat) =>
        (store t.1 (Aoff + q) (t.1 (Aoff + q) + xx * B t.2), t.2 + 1)) (s.A, s.bp)
      ({ A := t.1, Cp := s.Cp + cs, bp := t.2 } : Mm0Col α)) s0).Cp = s0.Cp + m * cs ∧
    (forLoop m (fun _ (s : Mm0Col α) =>
      let xx := C s.Cp
      let t := forLoop r (fun q (t : (Nat → α) × Nat) =>
        (store t.1 (Aoff + q) (t.1 (Aoff + q) + xx * B t.2), t.2 + 1)) (s.A, s.bp)
      ({ A := t.1, Cp := s.Cp + cs, bp := t.2 } : Mm0Col α)) s0).bp = s0.bp + m * r ∧
    (∀ q, q < r → (forLoop m (fun _ (s : Mm0Col α) =>
      let xx := C s.Cp
      let t := forLoop r (fun q (t : (Nat → α) × Nat) =>
        (store t.1 (Aoff + q) (t.1 (Aoff + q) + xx * B t.2), t.2 + 1)) (s.A, s.bp)
      ({ A := t.1, Cp := s.Cp + cs, bp := t.2 } : Mm0Col α)) s0).A (Aoff + q)
        = s0.A (Aoff + q)
          + ∑ k in Finset.range m, C (s0.Cp + k * cs) * B (s0.bp + k * r + q)) ∧
    (∀ p, (p < Aoff ∨ Aoff + r ≤ p) → (forLoop m (fun _ (s : Mm0Col α) =>
      let xx := C s.Cp
      let t := forLoop r (fun q (t : (Nat → α) × Nat) =>
        (store t.1 (Aoff + q) (t.1 (Aoff + q) + xx * B t.2), t.2 + 1)) (s.A, s.bp)
      ({ A := t.1, Cp := s.Cp + cs, bp := t.2 } : Mm0Col α)) s0).A p = s0.A p) := by
  induction m with
  | zero => simp [forLoop]
  | succ k ih =>
    obtain ⟨h1, h2, h3, h4⟩ := ih
    rw [forLoop_succ]
    set sk := forLoop k (fun _ (s : Mm0Col α) =>
      let xx := C s.Cp
      let t := forLoop r (fun q (t : (Nat → α) × Nat) =>
        (store t.1 (Aoff + q) (t.1 (Aoff + q) + xx * B t.2), t.2 + 1)) (s.A, s.bp)
      ({ A := t.1, Cp := s.Cp + cs, bp := t.2 } : Mm0Col α)) s0 with hsk
    obtain ⟨g1, g2, g3⟩ := sweep_spec (fun b old => old + C sk.Cp * B b) r Aoff sk.A sk.bp
    have e1 : (k + 1) * cs = k * cs + cs := Nat.succ_mul _ _
    have e2 : (k + 1) * r = k * r + r := Nat.succ_mul _ _
    refine ⟨by simp only [h1]; omega, ?_, ?_, ?_⟩
    · simp only
      rw [g1, h2]; omega
    · intro q hq
      simp only
      rw [g2 q hq, h3 q hq, Finset.sum_range_succ, h1, h2, add_assoc]
    · intro p hp
      simp only
      rw [g3 p hp, h4 p hp]

theorem mm0nCol_spec [CommSemiring α] (B C : Nat → α) (r n cs Aoff Cp : Nat) (A : Nat → α)
    (hn : 1 ≤ n) :
    (mm0nCol B C r n cs Aoff Cp A).Cp = Cp + n * cs ∧
    (∀ q, q < r → (mm0nCol B C r n cs Aoff Cp A).A (Aoff + q)
        = ∑ k in Finset.range n, B (q + r * k) * C (Cp + k * cs)) ∧
    (∀ p, (p < Aoff ∨ Aoff + r ≤ p) → (mm0nCol B C r n cs Aoff Cp A).A p = A p) := by
  obtain ⟨n', rfl⟩ : ∃ n', n = n' + 1 := ⟨n - 1, by omega⟩
  obtain ⟨g1, g2, g3⟩ := sweep_spec (fun b (_ : α) => C Cp * B b) r Aoff A 0
  obtain ⟨h1, -, h3, h4⟩ := mm0nPasses_spec B C r cs Aoff n'
    { A := (forLoop r (fun q (t : (Nat → α) × Nat) =>
        (store t.1 (Aoff + q) (C Cp * B t.2), t.2 + 1)) (A, 0)).1,
      Cp := Cp + cs,
      bp := (forLoop r (fun q (t : (Nat → α) × Nat) =>
        (store t.1 (Aoff + q) (C Cp * B t.2), t.2 + 1)) (A, 0)).2 }
  simp only at h1 h3 h4
  have e1 : (n' + 1) * cs = n' * cs + cs := Nat.succ_mul _ _
  have hdef : mm0nCol B C r (n' + 1) cs Aoff Cp A = forLoop n' (fun _ (s : Mm0Col α) =>
      let xx := C s.Cp
      let t := forLoop r (fun q (t : (Nat → α) × Nat) =>
        (store t.1 (Aoff + q) (t.1 (Aoff + q) + xx * B t.2), t.2 + 1)) (s.A, s.bp)
      ({ A := t.1, Cp := s.Cp + cs, bp := t.2 } : Mm0Col α))
      { A := (forLoop r (fun q (t : (Nat → α) × Nat) =>
          (store t.1 (Aoff + q) (C Cp * B t.2), t.2 + 1)) (A, 0)).1,
        Cp := Cp + cs,
        bp := (forLoop r (fun q (t : (Nat → α) × Nat) =>
          (store t.1 (Aoff + q) (C Cp * B t.2), t.2 + 1)) (A, 0)).2 } := rfl
  rw [hdef]
  refine ⟨by rw [h1]; omega, ?_, ?_⟩
  · intro q hq
    rw [h3 q hq, g2 q hq, g1, Finset.sum_range_succ', add_comm]
    congr 1
    · refine Finset.sum_congr rfl (fun k _ => ?_)
      rw [mul_comm]
      congr 2
      · ring
      · ring
    · simp [mul_comm]
  · intro p hp
    rw [h4 p hp, g3 p hp]

theorem mm0nCols_spec [CommSemiring α] (B C : Nat → α) (r n cs adv : Nat) (hn : 1 ≤ n)
    (body : Mm0N α → Mm0N α)
    (hbody : ∀ s, body s = { A := (mm0nCol B C r n cs s.Aoff s.Cp s.A).A, Aoff := s.Aoff + r,
                             Cp := s.Cp + adv })
    (A : Nat → α) (c : Nat) :
    (forLoop c (fun _ s => body s) { A := A, Aoff := 0, Cp := 0 }).Aoff = c * r ∧
    (forLoop c (fun _ s => body s) { A := A, Aoff := 0, Cp := 0 }).Cp = c * adv ∧
    (∀ j q, j < c → q < r →
      (forLoop c (fun _ s => body s) { A := A, Aoff := 0, Cp := 0 }).A (q + r * j)
        = ∑ k in Finset.range n, B (q + r * k) * C (j * adv + k * cs)) ∧
    (∀ p, c * r ≤ p →
      (forLoop c (fun _ s => body s) { A := A, Aoff := 0, Cp := 0 }).A p = A p) := by
  induction c with
  | zero => simp [forLoop]
  | succ j ih =>
    obtain ⟨h1, h2, h3, h4⟩ := ih
    rw [forLoop_succ, hbody]
    set s := forLoop j (fun _ s => body s) { A := A, Aoff := 0, Cp := 0 } with hs
    obtain ⟨-, g2, g3⟩ := mm0nCol_spec B C r n cs s.Aoff s.Cp s.A hn
    have e1 : (j + 1) * r = j * r + r := Nat.succ_mul _ _
    have e2 : (j + 1) * adv = j * adv + adv := Nat.succ_mul _ _
    refine ⟨by simp only [h1]; omega, by simp only [h2]; omega, ?_, ?_⟩
    · intro j' q hj' hq
      simp only
      by_cases hjj : j' = j
      · subst hjj
        rw [show q + r * j' = s.Aoff + q by rw [h1]; ring, g2 q hq, h2]
      · have hlt : j' + 1 ≤ j := by omega
        have e3 : (j' + 1) * r ≤ j * r := Nat.mul_le_mul_right r hlt
        have e4 : (j' + 1) * r = j' * r + r := Nat.succ_mul _ _
        have e5 : r * j' = j' * r := Nat.mul_comm _ _
        rw [g3 _ (Or.inl (by rw [h1]; omega)), h3 j' q (by omega) hq]
    · intro p hp
      simp only
      rw [g3 p (Or.inr (by rw [h1]; omega)), h4 p (by omega)]

theorem mm0tnDot_spec [Semiring α] (B C : Nat → α) (n cp1 bp : Nat) :
    mm0tnDot B C n cp1 bp = (∑ k in Finset.range n, C (cp1 + k) * B (bp + k), bp + n) := by
  unfold mm0tnDot
  induction n with
  | zero => simp [forLoop]
  | succ k ih =>
    rw [forLoop_succ, ih]
    simp only [Finset.sum_range_succ, Prod.mk.injEq, true_and]
    omega

theorem mm0tnRows_spec [Semiring α] (B C : Nat → α) (n jj r : Nat) (A : Nat → α) (ap : Nat) :
    (forLoop r (fun _ (t : (Nat → α) × Nat × Nat) =>
      let d := mm0tnDot B C n (jj * n) t.2.2
      (store t.1 t.2.1 d.1, t.2.1 + 1, d.2)) (A, ap, 0)).2.1 = ap + r ∧
    (forLoop r (fun _ (t : (Nat → α) × Nat × Nat) =>
      let d := mm0tnDot B C n (jj * n) t.2.2
      (store t.1 t.2.1 d.1, t.2.1 + 1, d.2)) (A, ap, 0)).2.2 = r * n ∧
    (∀ i, i < r → (forLoop r (fun _ (t : (Nat → α) × Nat × Nat) =>
      let d := mm0tnDot B C n (jj * n) t.2.2
      (store t.1 t.2.1 d.1, t.2.1 + 1, d.2)) (A, ap, 0)).1 (ap + i)
        = ∑ k in Finset.range n, C (jj * n + k) * B (i * n + k)) ∧
    (∀ p, (p < ap ∨ ap + r ≤ p) → (forLoop r (fun _ (t : (Nat → α) × Nat × Nat) =>
      let d := mm0tnDot B C n (jj * n) t.2.2
      (store t.1 t.2.1 d.1, t.2.1 + 1, d.2)) (A, ap, 0)).1 p = A p) := by
  induction r with
  | zero => simp [forLoop]
  | succ i ih =>
    obtain ⟨h1, h2, h3, h4⟩ := ih
    rw [forLoop_succ]
    set t := forLoop i (fun _ (t : (Nat → α) × Nat × Nat) =>
      let d := mm0tnDot B C n (jj * n) t.2.2
      (store t.1 t.2.1 d.1, t.2.1 + 1, d.2)) (A, ap, 0) with ht
    simp only [mm0tnDot_spec]
    have e1 : (i + 1) * n = i * n + n := Nat.succ_mul _ _
    refine ⟨by omega, by omega, ?_, ?_⟩
    · intro i' hi'
      by_cases hii : i' = i
      · subst hii
        rw [h1, store_same, h2]
      · rw [store_ne _ _ _ _ (by omega), h3 i' (by omega)]
    · intro p hp
      rw [store_ne _ _ _ _ (by omega), h4 p (by omega)]

theorem mm0tnCols_spec [CommSemiring α] (B C : Nat → α) (r n : Nat) (A : Nat → α) (c : Nat) :
    (forLoop c (fun jj s => mm0tnCol B C r n jj s) (A, 0)).2 = c * r ∧
    (∀ j i, j < c → i < r →
      (forLoop c (fun jj s => mm0tnCol B C r n jj s) (A, 0)).1 (i + r * j)
        = ∑ k in Finset.range n, B (k + n * i) * C (k + n * j)) ∧
    (∀ p, c * r ≤ p → (forLoop c (fun jj s => mm0tnCol B C r n jj s) (A, 0)).1 p = A p) := by
  induction c with
  | zero => simp [forLoop]
  | succ j ih =>
    obtain ⟨h1, h2, h3⟩ := ih
    rw [forLoop_succ]
    set s := forLoop j (fun jj s => mm0tnCol B C r n jj s) (A, 0) with hs
    obtain ⟨g1, -, g3, g4⟩ := mm0tnRows_spec B C n j r s.1 s.2
    have hcol : mm0tnCol B C r n j s =
        ((forLoop r (fun _ (t : (Nat → α) × Nat × Nat) =>
          let d := mm0tnDot B C n (j * n) t.2.2
          (store t.1 t.2.1 d.1, t.2.1 + 1, d.2)) (s.1, s.2, 0)).1,
         (forLoop r (fun _ (t : (Nat → α) × Nat × Nat) =>
          let d := mm0tnDot B C n (j * n) t.2.2
          (store t.1 t.2.1 d.1, t.2.1 + 1, d.2)) (s.1, s.2, 0)).2.1) := rfl
    rw [hcol]
    have e1 : (j + 1) * r = j * r + r := Nat.succ_mul _ _
    refine ⟨by show _ = _; simp only []; rw [g1, h1]; omega, ?_, ?_⟩
    · intro j' i hj' hi
      simp only
      by_cases hjj : j' = j
      · subst hjj
        rw [show i + r * j' = s.2 + i by rw [h1]; ring, g3 i hi]
        refine Finset.sum_congr rfl (fun k _ => ?_)
        rw [mul_comm]
        congr 2 <;> ring
      · have hlt : j' + 1 ≤ j := by omega
        have e3 : (j' + 1) * r ≤ j * r := Nat.mul_le_mul_right r hlt
        have e4 : (j' + 1) * r = j' * r + r := Nat.succ_mul _ _
        have e5 : r * j' = j' * r := Nat.mul_comm _ _
        rw [g4 _ (Or.inl (by rw [h1]; omega)), h2 j' i (by omega) hi]
    · intro p hp
      simp only
      rw [g4 p (Or.inr (by rw [h1]; omega)), h3 p (by omega)]

theorem strideCount_mul (c n : Nat) (hn : 1 ≤ n) : strideCount 0 (c * n) n = c := by
  unfold strideCount
  rw [Nat.sub_zero, Nat.add_sub_assoc hn, Nat.add_comm, Nat.add_mul_div_right _ _ (by omega),
    Nat.div_eq_of_lt (by omega), Nat.zero_add]

theorem pairLoop_spec (g : α → α → α) (r c Aoff : Nat) (hr : 1 ≤ r) (A C : Nat → α) :
    (∀ q, q < c →
      (forLoop c (fun q (s : (Nat → α) × (Nat → α)) =>
        (store s.1 (Aoff + q * r) (s.2 q), store s.2 q (g (s.1 (Aoff + q * r)) (s.2 q))))
        (A, C)).1 (Aoff + q * r) = C q) ∧
    (∀ q, q < c →
      (forLoop c (fun q (s : (Nat → α) × (Nat → α)) =>
        (store s.1 (Aoff + q * r) (s.2 q), store s.2 q (g (s.1 (Aoff + q * r)) (s.2 q))))
        (A, C)).2 q = g (A (Aoff + q * r)) (C q)) ∧
    (∀ p, (∀ q, q < c → p ≠ Aoff + q * r) →
      (forLoop c (fun q (s : (Nat → α) × (Nat → α)) =>
        (store s.1 (Aoff + q * r) (s.2 q), store s.2 q (g (s.1 (Aoff + q * r)) (s.2 q))))
        (A, C)).1 p = A p) ∧
    (∀ p, c ≤ p →
      (forLoop c (fun q (s : (Nat → α) × (Nat → α)) =>
        (store s.1 (Aoff + q * r) (s.2 q), store s.2 q (g (s.1 (Aoff + q * r)) (s.2 q))))
        (A, C)).2 p = C p) := by
  induction c with
  | zero => simp [forLoop]
  | succ k ih =>
    obtain ⟨h1, h2, h3, h4⟩ := ih
    rw [forLoop_succ]
    set s := forLoop k (fun q (s : (Nat → α) × (Nat → α)) =>
        (store s.1 (Aoff + q * r) (s.2 q), store s.2 q (g (s.1 (Aoff + q * r)) (s.2 q))))
        (A, C) with hs
    have hne : ∀ q, q < k → Aoff + q * r ≠ Aoff + k * r := by
      intro q hq h
      have h1 : (q + 1) * r ≤ k * r := Nat.mul_le_mul_right r hq
      have h2 : (q + 1) * r = q * r + r := Nat.succ_mul _ _
      omega
    simp only
    refine ⟨?_, ?_, ?_, ?_⟩
    · intro q hq
      by_cases hqk : q = k
      · subst hqk
        rw [store_same, h4 q le_rfl]
      · rw [store_ne _ _ _ _ (hne q (by omega)), h1 q (by omega)]
    · intro q hq
      by_cases hqk : q = k
      · subst hqk
        rw [store_same, h4 q le_rfl, h3 _ (fun q' hq' => (hne q' hq').symm)]
      · rw [store_ne _ _ _ _ hqk, h2 q (by omega)]
    · intro p hp
      rw [store_ne _ _ _ _ (hp k (by omega)), h3 p (fun q hq => hp q (by omega))]
    · intro p hp
      rw [store_ne _ _ _ _ (by omega), h4 p (by omega)]

theorem mm0ttSweep_spec [Semiring α] (xx : α) (c : Nat) (C : Nat → α)
    (cp2 : Nat) :
    (forLoop c (fun q (t : (Nat → α) × Nat) =>
      (store t.1 q (t.1 q + xx * t.1 t.2), t.2 + 1)) (C, cp2)).2 = cp2 + c ∧
    (∀ q, q < c → (forLoop c (fun q (t : (Nat → α) × Nat) =>
      (store t.1 q (t.1 q + xx * t.1 t.2), t.2 + 1)) (C, cp2)).1 q = C q + xx * C (cp2 + q)) ∧
    (∀ p, c ≤ p → (forLoop c (fun q (t : (Nat → α) × Nat) =>
      (store t.1 q (t.1 q + xx * t.1 t.2), t.2 + 1)) (C, cp2)).1 p = C p) := by
  induction c with
  | zero => simp [forLoop]
  | succ k ih =>
    obtain ⟨h1, h2, h3⟩ := ih
    rw [forLoop_succ]
    set t := forLoop k (fun q (t : (Nat → α) × Nat) =>
      (store t.1 q (t.1 q + xx * t.1 t.2), t.2 + 1)) (C, cp2) with ht
    simp only
    refine ⟨by omega, ?_, ?_⟩
    · intro q hq
      by_cases hqk : q = k
      · subst hqk
        rw [store_same, h3 q le_rfl, h1, h3 _ (by omega)]
      · rw [store_ne _ _ _ _ hqk, h2 q (by omega)]
    · intro p hp
      rw [store_ne _ _ _ _ (by omega), h3 p (by omega)]

theorem mm0ttPasses_spec [Semiring α] (B : Nat → α) (c m : Nat) (s0 : Mm0Acc α)
    (hcp : c ≤ s0.cp2) :
    (forLoop m (fun _ (s : Mm0Acc α) =>
      let xx := B s.Boff
      let t := forLoop c (fun q (t : (Nat → α) × Nat) =>
        (store t.1 q (t.1 q + xx * t.1 t.2), t.2 + 1)) (s.C, s.cp2)
      ({ C := t.1, Boff := s.Boff + 1, cp2 := t.2 } : Mm0Acc α)) s0).Boff = s0.Boff + m ∧
    (forLoop m (fun _ (s : Mm0Acc α) =>
      let xx := B s.Boff
      let t := forLoop c (fun q (t : (Nat → α) × Nat) =>
        (store t.1 q (t.1 q + xx * t.1 t.2), t.2 + 1)) (s.C, s.cp2)
      ({ C := t.1, Boff := s.Boff + 1, cp2 := t.2 } : Mm0Acc α)) s0).cp2 = s0.cp2 + m * c ∧
    (∀ q, q < c → (forLoop m (fun _ (s : Mm0Acc α) =>
      let xx := B s.Boff
      let t := forLoop c (fun q (t : (Nat → α) × Nat) =>
        (store t.1 q (t.1 q + xx * t.1 t.2), t.2 + 1)) (s.C, s.cp2)
      ({ C := t.1, Boff := s.Boff + 1, cp2 := t.2 } : Mm0Acc α)) s0).C q
        = s0.C q + ∑ k in Finset.range m, B (s0.Boff + k) * s0.C (s0.cp2 + k * c + q)) ∧
    (∀ p, c ≤ p → (forLoop m (fun _ (s : Mm0Acc α) =>
      let xx := B s.Boff
      let t := forLoop c (fun q (t : (Nat → α) × Nat) =>
        (store t.1 q (t.1 q + xx * t.1 t.2), t.2 + 1)) (s.C, s.cp2)
      ({ C := t.1, Boff := s.Boff + 1, cp2 := t.2 } : Mm0Acc α)) s0).C p = s0.C p) := by
  induction m with
  | zero => simp [forLoop]
  | succ k ih =>
    obtain ⟨h1, h2, h3, h4⟩ := ih
    rw [forLoop_succ]
    set sk := forLoop k (fun _ (s : Mm0Acc α) =>
      let xx := B s.Boff
      let t := forLoop c (fun q (t : (Nat → α) × Nat) =>
        (store t.1 q (t.1 q + xx * t.1 t.2), t.2 + 1)) (s.C, s.cp2)
      ({ C := t.1, Boff := s.Boff + 1, cp2 := t.2 } : Mm0Acc α)) s0 with hsk
    obtain ⟨g1, g2, g3⟩ := mm0ttSweep_spec (B sk.Boff) c sk.C sk.cp2
    have e1 : (k + 1) * c = k * c + c := Nat.succ_mul _ _
    simp only
    refine ⟨by omega, by rw [g1, h2]; omega, ?_, ?_⟩
    · intro q hq
      rw [g2 q hq, h3 q hq, h4 _ (by rw [h2]; omega), Finset.sum_range_succ, h1, h2, add_assoc]
    · intro p hp
      rw [g3 p hp, h4 p hp]

theorem mm0ttRow_spec [CommSemiring α] (B : Nat → α) (r c n : Nat) (hr : 1 ≤ r) (hn : 1 ≤ n)
    (s : Mm0TT α) :
    (mm0ttRow B r c n s).Aoff = s.Aoff + 1 ∧
    (mm0ttRow B r c n s).Boff = s.Boff + n ∧
    (∀ q, q < c → (mm0ttRow B r c n s).A (s.Aoff + q * r)
        = ∑ k in Finset.range n, B (s.Boff + k) * s.C (q + c * k)) ∧
    (∀ p, (∀ q, q < c → p ≠ s.Aoff + q * r) → (mm0ttRow B r c n s).A p = s.A p) ∧
    (∀ p, (mm0ttRow B r c n s).C p = s.C p) := by
  obtain ⟨n', rfl⟩ : ∃ n', n = n' + 1 := ⟨n - 1, by omega⟩
  obtain ⟨a1, a2, a3, a4⟩ := pairLoop_spec (fun _ old => old * B s.Boff) r c s.Aoff hr s.A s.C
  set s1 := forLoop c (fun q (s' : (Nat → α) × (Nat → α)) =>
        (store s'.1 (s.Aoff + q * r) (s'.2 q), store s'.2 q (s'.2 q * B s.Boff)))
        (s.A, s.C) with hs1
  obtain ⟨b1, -, b3, b4⟩ := mm0ttPasses_spec B c n' { C := s1.2, Boff := s.Boff + 1, cp2 := c }
    (le_refl c)
  set s2 := forLoop n' (fun _ (s : Mm0Acc α) =>
      let xx := B s.Boff
      let t := forLoop c (fun q (t : (Nat → α) × Nat) =>
        (store t.1 q (t.1 q + xx * t.1 t.2), t.2 + 1)) (s.C, s.cp2)
      ({ C := t.1, Boff := s.Boff + 1, cp2 := t.2 } : Mm0Acc α))
      { C := s1.2, Boff := s.Boff + 1, cp2 := c } with hs2
  obtain ⟨c1, c2, c3, c4⟩ := pairLoop_spec (fun oldA _ => oldA) r c s.Aoff hr s1.1 s2.C
  have hrow : mm0ttRow B r (c) (n' + 1) s =
      { A := (forLoop c (fun q (s' : (Nat → α) × (Nat → α)) =>
          (store s'.1 (s.Aoff + q * r) (s'.2 q), store s'.2 q (s'.1 (s.Aoff + q * r))))
          (s1.1, s2.C)).1,
        C := (forLoop c (fun q (s' : (Nat → α) × (Nat → α)) =>
          (store s'.1 (s.Aoff + q * r) (s'.2 q), store s'.2 q (s'.1 (s.Aoff + q * r))))
          (s1.1, s2.C)).2,
        Aoff := s.Aoff + 1, Boff := s2.Boff } := rfl
  rw [hrow]
  simp only at b1 b3 b4 c1 c2 c3 c4 a1 a2 a3 a4 ⊢
  refine ⟨trivial, by rw [b1]; omega, ?_, ?_, ?_⟩
  · intro q hq
    rw [c1 q hq, b3 q hq, a2 q hq, Finset.sum_range_succ', add_comm]
    congr 1
    · refine Finset.sum_congr rfl (fun k _ => ?_)
      rw [a4 _ (by omega)]
      congr 2
      · omega
      · ring
    · simp [mul_comm]
  · intro p hp
    rw [c3 p hp, a3 p hp]
  · intro p
    by_cases hp : p < c
    · rw [c2 p hp, a1 p hp]
    · rw [c4 p (by omega), b4 p (by omega), a4 p (by omega)]

theorem mm0ttRows_spec [CommSemiring α] (B : Nat → α) (r c n : Nat) (hn : 1 ≤ n)
    (A C : Nat → α) (m : Nat) (hm : m ≤ r) :
    (forLoop m (fun _ s => mm0ttRow B r c n s) { A := A, C := C, Aoff := 0, Boff := 0 }).Aoff
      = m ∧
    (forLoop m (fun _ s => mm0ttRow B r c n s) { A := A, C := C, Aoff := 0, Boff := 0 }).Boff
      = m * n ∧
    (∀ i q, i < m → q < c →
      (forLoop m (fun _ s => mm0ttRow B r c n s) { A := A, C := C, Aoff := 0, Boff := 0 }).A
        (i + r * q) = ∑ k in Finset.range n, B (k + n * i) * C (q + c * k)) ∧
    (∀ p, r * c ≤ p →
      (forLoop m (fun _ s => mm0ttRow B r c n s) { A := A, C := C, Aoff := 0, Boff := 0 }).A p
        = A p) ∧
    (∀ p,
      (forLoop m (fun _ s => mm0ttRow B r c n s) { A := A, C := C, Aoff := 0, Boff := 0 }).C p
        = C p) := by
  induction m with
  | zero => simp [forLoop]
  | succ i ih =>
    obtain ⟨h1, h2, h3, h4, h5⟩ := ih (by omega)
    rw [forLoop_succ]
    set s := forLoop i (fun _ s => mm0ttRow B r c n s)
      { A := A, C := C, Aoff := 0, Boff := 0 } with hs
    obtain ⟨g1, g2, g3, g4, g5⟩ := mm0ttRow_spec B r c n (by omega) hn s
    have e1 : (i + 1) * n = i * n + n := Nat.succ_mul _ _
    refine ⟨by rw [g1, h1], by rw [g2, h2]; omega, ?_, ?_, ?_⟩
    · intro i' q hi' hq
      by_cases hii : i' = i
      · subst hii
        rw [show i' + r * q = s.Aoff + q * r by rw [h1]; ring, g3 q hq]
        refine Finset.sum_congr rfl (fun k _ => ?_)
        rw [h5, h2]
        congr 2
        ring
      · rw [g4 _ (fun q' _ h => ?_), h3 i' q (by omega) hq]
        rw [h1] at h
        have hmod := congrArg (· % r) h
        simp only [Nat.add_mul_mod_self_left, Nat.add_mul_mod_self_right] at hmod
        rw [Nat.mod_eq_of_lt (by omega), Nat.mod_eq_of_lt (by omega)] at hmod
        exact hii hmod
    · intro p hp
      rw [g4 p (fun q hq h => ?_), h4 p hp]
      rw [h1] at h
      have h6 : (q + 1) * r ≤ c * r := Nat.mul_le_mul_right r hq
      have h7 : (q + 1) * r = q * r + r := Nat.succ_mul _ _
      have h8 : c * r = r * c := Nat.mul_comm _ _
      omega
    · intro p
      rw [g5, h5]

theorem dgemm_spec [Semiring α] (transa transb : Bool) (M N K : Nat) (alpha : α)
    (A : Nat → α) (aoff lda : Nat) (B : Nat → α) (boff ldb : Nat) (beta : α)
    (C : Nat → α) (coff ldc : Nat) (hM : M ≤ ldc) :
    (∀ i j, i < M → j < N →
      dgemm transa transb M N K alpha A aoff lda B boff ldb beta C coff ldc (coff + (i + ldc * j))
        = alpha * (∑ l in Finset.range K,
            (if transa then A (aoff + (l + lda * i)) else A (aoff + (i + lda * l))) *
            (if transb then B (boff + (j + ldb * l)) else B (boff + (l + ldb * j))))
          + beta * C (coff + (i + ldc * j))) ∧
    (∀ p, (p < coff ∨ coff + ldc * N ≤ p) →
      dgemm transa transb M N K alpha A aoff lda B boff ldb beta C coff ldc p = C p) := by
  unfold dgemm
  induction N with
  | zero => simp [forLoop]
  | succ j ih =>
    obtain ⟨h1, h2⟩ := ih
    rw [forLoop_succ]
    set Cj := forLoop j (fun j C => forLoop M (fun i C =>
      store C (coff + (i + ldc * j))
        (alpha * (∑ l in Finset.range K,
            (if transa then A (aoff + (l + lda * i)) else A (aoff + (i + lda * l))) *
            (if transb then B (boff + (j + ldb * l)) else B (boff + (l + ldb * j))))
          + beta * C (coff + (i + ldc * j)))) C) C with hCj
    obtain ⟨g1, g2⟩ := storeLoop_spec M (fun i => coff + (i + ldc * j))
      (fun i old => alpha * (∑ l in Finset.range K,
            (if transa then A (aoff + (l + lda * i)) else A (aoff + (i + lda * l))) *
            (if transb then B (boff + (j + ldb * l)) else B (boff + (l + ldb * j))))
          + beta * old) Cj (fun a b _ _ h => by simp only at h; omega)
    have e1 : ldc * (j + 1) = ldc * j + ldc := Nat.mul_succ _ _
    constructor
    · intro i j' hi hj'
      by_cases hjj : j' = j
      · subst hjj
        rw [g1 i hi, h2 _ (Or.inr (by omega))]
      · have hlt : j' + 1 ≤ j := by omega
        have e2 : ldc * (j' + 1) ≤ ldc * j := Nat.mul_le_mul_left ldc hlt
        have e3 : ldc * (j' + 1) = ldc * j' + ldc := Nat.mul_succ _ _
        rw [g2 _ (fun i' hi' => by omega), h1 i j' hi (by omega)]
    · intro p hp
      rw [g2 p (fun i' hi' => by omega), h2 p (by omega)]

/-- On distinct buffers the `dgemm` call of `mgcv_mmult` leaves the naive product in
`A[i + r*j]`. -/
theorem mmult_gemm_value [Semiring α] (A B C : Nat → α) (bt ct r c n : Nat) (hn : 1 ≤ n)
    (i j : Nat) (hi : i < r) (hj : j < c) :
    mgcv_mmult A B (some C) bt ct r c n (i + r * j)
      = ∑ k in Finset.range n, (if bt ≠ 0 then B (k + n * i) else B (i + r * k)) *
          (if ct ≠ 0 then C (j + c * k) else C (k + n * j)) := by
  have h0 : ¬ (r = 0 ∨ c = 0 ∨ n = 0) := by omega
  unfold mgcv_mmult
  rw [if_neg h0]
  simp only [mmultGemm]
  have := (dgemm_spec (decide (bt ≠ 0)) (decide (ct ≠ 0)) r c n (1 : α) B 0
    (if bt ≠ 0 then n else r) C 0 (if ct ≠ 0 then c else n) 0 A 0 r le_rfl).1 i j hi hj
  rw [Nat.zero_add] at this
  rw [this]
  simp only [one_mul, zero_mul, add_zero, Nat.zero_add]
  refine Finset.sum_congr rfl (fun k _ => ?_)
  by_cases hbt : bt ≠ 0 <;> by_cases hct : ct ≠ 0 <;> simp [hbt, hct]

/-- Claim C2. For all `r, c, n ≥ 1` and every value of the flags `bt`, `ct` (tested for
being nonzero), the BLAS-free `mgcv_mmult0` leaves in `A[i + r*j]`, `i < r`, `j < c`, the
naive product `Σ_{k<n} opB(i,k) * opC(k,j)` with `opB(i,k) = bt ? B[k + n*i] : B[i + r*k]`
and `opC(k,j) = ct ? C[j + c*k] : C[k + n*j]` (exact arithmetic), and the `dgemm`-backed
`mgcv_mmult` on distinct buffers leaves the same value there. -/
theorem mmult0_correct [CommSemiring α] (A B C : Nat → α) (bt ct r c n : Nat) (hn : 1 ≤ n)
    (i j : Nat) (hi : i < r) (hj : j < c) :
    (mgcv_mmult0 A B C bt ct r c n).1 (i + r * j)
      = ∑ k in Finset.range n, (if bt ≠ 0 then B (k + n * i) else B (i + r * k)) *
          (if ct ≠ 0 then C (j + c * k) else C (k + n * j)) ∧
    mgcv_mmult A B (some C) bt ct r c n (i + r * j)
      = ∑ k in Finset.range n, (if bt ≠ 0 then B (k + n * i) else B (i + r * k)) *
          (if ct ≠ 0 then C (j + c * k) else C (k + n * j)) := by
  constructor
  · unfold mgcv_mmult0
    by_cases hbt : bt ≠ 0
    · by_cases hct : ct ≠ 0
      · simp only [hbt, hct, if_true, ne_eq, not_false_eq_true]
        exact (mm0ttRows_spec B r c n hn A C r le_rfl).2.2.1 i j hi hj
      · simp only [hbt, hct, if_true, if_false, ne_eq, not_false_eq_true]
        rw [strideCount_mul c n hn]
        exact (mm0tnCols_spec B C r n A c).2.1 j i hj hi
    · by_cases hct : ct ≠ 0
      · simp only [hbt, hct, if_true, if_false, ne_eq, not_false_eq_true]
        have := (mm0nCols_spec B C r n c 1 hn (fun s =>
          { A := (mm0nCol B C r n c s.Aoff s.Cp s.A).A, Aoff := s.Aoff + r, Cp := s.Cp + 1 })
          (fun _ => rfl) A c).2.2.1 j i hj hi
        rw [this]
        refine Finset.sum_congr rfl (fun k _ => ?_)
        congr 2
        ring
      · simp only [hbt, hct, if_false, ne_eq]
        have := (mm0nCols_spec B C r n 1 n hn (fun s =>
          { A := (mm0nCol B C r n 1 s.Aoff s.Cp s.A).A, Aoff := s.Aoff + r,
            Cp := (mm0nCol B C r n 1 s.Aoff s.Cp s.A).Cp })
          (fun s => by simp only [(mm0nCol_spec B C r n 1 s.Aoff s.Cp s.A hn).1, Nat.mul_one])
          A c).2.2.1 j i hj hi
        rw [this]
        refine Finset.sum_congr rfl (fun k _ => ?_)
        congr 2
        ring
  · exact mmult_gemm_value A B C bt ct r c n hn i j hi hj

/-- Witness for C2: the `B'C'` case with `r = c = n = 2` on integer buffers, entry (1, 1). -/
theorem mmult0_correct_witness :
    (1 ≤ 2 ∧ 1 < 2 ∧ 1 < 2) ∧
    ((mgcv_mmult0 (fun _ => (0 : Int)) (fun q => (q : Int) + 1) (fun q => 2 * (q : Int) + 1)
        1 1 2 2 2).1 (1 + 2 * 1)
      = ∑ k in Finset.range 2,
          (if (1 : Nat) ≠ 0 then (fun q => (q : Int) + 1 : Nat → Int) (k + 2 * 1)
            else (fun q => (q : Int) + 1 : Nat → Int) (1 + 2 * k)) *
          (if (1 : Nat) ≠ 0 then (fun q => 2 * (q : Int) + 1 : Nat → Int) (1 + 2 * k)
            else (fun q => 2 * (q : Int) + 1 : Nat → Int) (k + 2 * 1)) ∧
    mgcv_mmult (fun _ => (0 : Int)) (fun q => (q : Int) + 1)
        (some (fun q => 2 * (q : Int) + 1)) 1 1 2 2 2 (1 + 2 * 1)
      = ∑ k in Finset.range 2,
          (if (1 : Nat) ≠ 0 then (fun q => (q : Int) + 1 : Nat → Int) (k + 2 * 1)
            else (fun q => (q : Int) + 1 : Nat → Int) (1 + 2 * k)) *
          (if (1 : Nat) ≠ 0 then (fun q => 2 * (q : Int) + 1 : Nat → Int) (1 + 2 * k)
            else (fun q => 2 * (q : Int) + 1 : Nat → Int) (k + 2 * 1))) :=
  ⟨by decide, mmult0_correct (fun _ => (0 : Int)) (fun q => (q : Int) + 1)
    (fun q => 2 * (q : Int) + 1) 1 1 2 2 2 (by decide) 1 1 (by decide) (by decide)⟩

/-- The guard `if (*r<=0||*c<=0||*n<=0) return;` of `mgcv_mmult`: with a zero dimension the
output buffer is returned as it was. -/
theorem mmult_noop [Semiring α] (A B : Nat → α) (C : Option (Nat → α)) (bt ct r c n : Nat)
    (h : r = 0 ∨ c = 0 ∨ n = 0) : mgcv_mmult A B C bt ct r c n = A := by
  unfold mgcv_mmult
  rw [if_pos h]

/-- Claim C3 (failing input). `mgcv_mmult0` has no guard on the dimensions: with
`r = c = 1`, `n = 0`, `bt = ct = 0`, `A = [7]` and buffers `B`, `C` whose first entries are
`2` and `3`, it overwrites `A[0]` with `C[0] * B[0] = 6`, whereas `mgcv_mmult` on the same
input leaves `A[0] = 7`. -/
theorem mmult0_zero_n_writes :
    (mgcv_mmult0 (fun _ => (7 : Int)) (fun _ => 2) (fun _ => 3) 0 0 1 1 0).1 0 = 6 ∧
    mgcv_mmult (fun _ => (7 : Int)) (fun _ => 2) (some (fun _ => 3)) 0 0 1 1 0 0 = 7 := by
  decide

end MmultProofs

section SymProofs
variable {α : Type}

theorem dsyrkLower_spec [Semiring α] (trans : Bool) (N K : Nat) (alpha : α)
    (A : Nat → α) (lda : Nat) (beta : α) (C : Nat → α) (ldc : Nat) (hN : N ≤ ldc) (m : Nat)
    (hm : m ≤ N) :
    (∀ i j, j < m → j ≤ i → i < N →
      forLoop m (fun j C => forLoop (N - j) (fun t C =>
        store C ((j + t) + ldc * j)
          (alpha * (∑ l in Finset.range K,
              (if trans then A (l + lda * (j + t)) else A ((j + t) + lda * l)) *
              (if trans then A (l + lda * j) else A (j + lda * l)))
            + beta * C ((j + t) + ldc * j))) C) C (i + ldc * j)
        = alpha * (∑ l in Finset.range K,
              (if trans then A (l + lda * i) else A (i + lda * l)) *
              (if trans then A (l + lda * j) else A (j + lda * l)))
            + beta * C (i + ldc * j)) ∧
    (∀ p, ldc * m ≤ p →
      forLoop m (fun j C => forLoop (N - j) (fun t C =>
        store C ((j + t) + ldc * j)
          (alpha * (∑ l in Finset.range K,
              (if trans then A (l + lda * (j + t)) else A ((j + t) + lda * l)) *
              (if trans then A (l + lda * j) else A (j + lda * l)))
            + beta * C ((j + t) + ldc * j))) C) C p = C p) := by
  induction m with
  | zero => simp [forLoop]
  | succ j ih =>
    obtain ⟨h1, h2⟩ := ih (by omega)
    rw [forLoop_succ]
    set Cj := forLoop j (fun j C => forLoop (N - j) (fun t C =>
        store C ((j + t) + ldc * j)
          (alpha * (∑ l in Finset.range K,
              (if trans then A (l + lda * (j + t)) else A ((j + t) + lda * l)) *
              (if trans then A (l + lda * j) else A (j + lda * l)))
            + beta * C ((j + t) + ldc * j))) C) C with hCj
    obtain ⟨g1, g2⟩ := storeLoop_spec (N - j) (fun t => (j + t) + ldc * j)
      (fun t old => alpha * (∑ l in Finset.range K,
              (if trans then A (l + lda * (j + t)) else A ((j + t) + lda * l)) *
              (if trans then A (l + lda * j) else A (j + lda * l)))
            + beta * old) Cj (fun a b _ _ h => by simp only at h; omega)
    have e1 : ldc * (j + 1) = ldc * j + ldc := Nat.mul_succ _ _
    constructor
    · intro i j' hj' hji hi
      by_cases hjj : j' = j
      · subst hjj
        have := g1 (i - j') (by omega)
        simp only [show j' + (i - j') = i by omega] at this
        rw [this, h2 _ (by omega)]
      · have hlt : j' + 1 ≤ j := by omega
        have e2 : ldc * (j' + 1) ≤ ldc * j := Nat.mul_le_mul_left ldc hlt
        have e3 : ldc * (j' + 1) = ldc * j' + ldc := Nat.mul_succ _ _
        rw [g2 _ (fun t ht => by omega), h1 i j' (by omega) hji hi]
    · intro p hp
      rw [g2 p (fun t ht => by omega), h2 p (by omega)]

theorem fillUpper_spec (N : Nat) (M : Nat → α) (m : Nat) (hm : m ≤ N) :
    (∀ i j, j < i → i < m →
      forLoop m (fun i M => forLoop i (fun j M => store M (j + i * N) (M (i + j * N))) M) M
        (j + i * N) = M (i + j * N)) ∧
    (∀ i j, j ≤ i → i < N →
      forLoop m (fun i M => forLoop i (fun j M => store M (j + i * N) (M (i + j * N))) M) M
        (i + j * N) = M (i + j * N)) ∧
    (∀ p, m * N ≤ p →
      forLoop m (fun i M => forLoop i (fun j M => store M (j + i * N) (M (i + j * N))) M) M p
        = M p) := by
  induction m with
  | zero => simp [forLoop]
  | succ i ih =>
    obtain ⟨h1, h2, h3⟩ := ih (by omega)
    rw [forLoop_succ]
    set Mi := forLoop i (fun i M =>
      forLoop i (fun j M => store M (j + i * N) (M (i + j * N))) M) M with hMi
    have hlow : ∀ a b, b ≤ a → a < N → ∀ j', j' < i → a + b * N ≠ j' + i * N := by
      intro a b hba ha j' hj' h
      rcases Nat.lt_or_ge b i with hb | hb
      · have e2 : (b + 1) * N ≤ i * N := Nat.mul_le_mul_right N hb
        have e3 : (b + 1) * N = b * N + N := Nat.succ_mul _ _
        omega
      · rcases Nat.eq_or_lt_of_le hb with hb | hb
        · subst hb; omega
        · have e2 : (i + 1) * N ≤ b * N := Nat.mul_le_mul_right N hb
          have e3 : (i + 1) * N = i * N + N := Nat.succ_mul _ _
          omega
    obtain ⟨g1, g2⟩ := storeReadLoop_spec i (fun j => j + i * N) (fun j => i + j * N)
      (fun _ v => v) Mi (fun a b _ _ h => by simp only at h; omega)
      (fun a b hba ha => hlow i a (by omega) (by omega) b (by omega))
    have e1 : (i + 1) * N = i * N + N := Nat.succ_mul _ _
    refine ⟨?_, ?_, ?_⟩
    · intro i' j hj hi'
      by_cases hii : i' = i
      · subst hii
        rw [g1 j hj, h2 i' j (by omega) (by omega)]
      · have hlt : i' + 1 ≤ i := by omega
        have e2 : (i' + 1) * N ≤ i * N := Nat.mul_le_mul_right N hlt
        have e3 : (i' + 1) * N = i' * N + N := Nat.succ_mul _ _
        rw [g2 _ (fun j' hj' => by omega), h1 i' j hj (by omega)]
    · intro a b hba ha
      rw [g2 _ (fun j' hj' => hlow a b hba ha j' hj'), h2 a b hba ha]
    · intro p hp
      rw [g2 p (fun j' hj' => by omega), h3 p (by omega)]

theorem symFill_spec [CommSemiring α] (trans : Bool) (N K : Nat) (X C : Nat → α) (lda : Nat)
    (i j : Nat) (hi : i < N) (hj : j < N) :
    fillUpper N (dsyrkLower trans N K 1 X lda 0 C N) (i + N * j)
      = ∑ l in Finset.range K,
          (if trans then X (l + lda * i) else X (i + lda * l)) *
          (if trans then X (l + lda * j) else X (j + lda * l)) := by
  obtain ⟨f1, f2, -⟩ := fillUpper_spec N (dsyrkLower trans N K 1 X lda 0 C N) N le_rfl
  obtain ⟨d1, -⟩ := dsyrkLower_spec trans N K (1 : α) X lda 0 C N le_rfl N le_rfl
  unfold fillUpper
  rcases Nat.lt_or_ge i j with hij | hij
  · rw [show i + N * j = i + j * N by ring, f1 j i hij hj,
      show j + i * N = j + N * i by ring]
    unfold dsyrkLower
    rw [d1 j i hi (by omega) hj]
    simp only [one_mul, zero_mul, add_zero]
    exact Finset.sum_congr rfl (fun l _ => mul_comm _ _)
  · rw [show i + N * j = i + j * N by ring, f2 i j hij hi,
      show i + j * N = i + N * j by ring]
    unfold dsyrkLower
    rw [d1 i j hj hij hi]
    simp only [one_mul, zero_mul, add_zero]

theorem getXtX_spec [CommSemiring α] (XtX X : Nat → α) (r c i j : Nat) (hi : i < c)
    (hj : j < c) :
    getXtX XtX X r c (i + c * j) = ∑ l in Finset.range r, X (l + r * i) * X (l + r * j) := by
  unfold getXtX
  rw [symFill_spec true c r X XtX r i j hi hj]
  simp

theorem getXXt_spec [CommSemiring α] (XXt X : Nat → α) (r c i j : Nat) (hi : i < r)
    (hj : j < r) :
    getXXt XXt X r c (i + r * j) = ∑ l in Finset.range c, X (i + r * l) * X (j + r * l) := by
  unfold getXXt
  rw [symFill_spec false r c X XXt r i j hi hj]
  simp

theorem mmult_alias_value [CommSemiring α] (A B : Nat → α) (bt ct r n : Nat) (hn : 1 ≤ n)
    (hflags : (bt ≠ 0 ∧ ct = 0) ∨ (bt = 0 ∧ ct ≠ 0)) (i j : Nat) (hi : i < r) (hj : j < r) :
    mgcv_mmult A B none bt ct r r n (i + r * j)
      = ∑ k in Finset.range n, (if bt ≠ 0 then B (k + n * i) else B (i + r * k)) *
          (if ct ≠ 0 then B (j + r * k) else B (k + n * j)) := by
  have h0 : ¬ (r = 0 ∨ r = 0 ∨ n = 0) := by omega
  unfold mgcv_mmult
  rw [if_neg h0]
  rcases hflags with ⟨hb, hc⟩ | ⟨hb, hc⟩
  · simp only [hb, hc, ne_eq, not_false_eq_true, not_true_eq_false, and_self, if_true,
      if_false]
    rw [getXtX_spec A B n r i j hi hj]
  · have h1 : ¬ (bt ≠ 0 ∧ ct = 0 ∧ r = r) := by omega
    simp only [hb, hc, ne_eq, not_true_eq_false, not_false_eq_true, and_self, and_true,
      false_and, if_true, if_false]
    rw [getXXt_spec A B r n i j hi hj]

/-- Claim C4. When `C` is the same buffer as `B`, `r = c`, and the flags request `B'B`
(`bt` set, `ct` clear) or `BB'` (`bt` clear, `ct` set), `mgcv_mmult` (through
`getXtX`/`getXXt`: lower-triangle rank-k update, then copy to the upper triangle) leaves in
every entry of the `r` by `r` result the same value as the general product computed on two
independent copies of `B`, and the result is symmetric. -/
theorem mmult_alias_correct [CommSemiring α] (A B : Nat → α) (bt ct r n : Nat) (hn : 1 ≤ n)
    (hflags : (bt ≠ 0 ∧ ct = 0) ∨ (bt = 0 ∧ ct ≠ 0)) (i j : Nat) (hi : i < r) (hj : j < r) :
    mgcv_mmult A B none bt ct r r n (i + r * j)
      = mgcv_mmult A B (some B) bt ct r r n (i + r * j) ∧
    mgcv_mmult A B none bt ct r r n (i + r * j)
      = mgcv_mmult A B none bt ct r r n (j + r * i) := by
  rw [mmult_alias_value A B bt ct r n hn hflags i j hi hj,
    mmult_alias_value A B bt ct r n hn hflags j i hj hi,
    mmult_gemm_value A B B bt ct r r n hn i j hi hj]
  refine ⟨rfl, ?_⟩
  rcases hflags with ⟨hb, hc⟩ | ⟨hb, hc⟩
  · simp only [hb, hc, ne_eq, not_false_eq_true, not_true_eq_false, if_true, if_false]
    exact Finset.sum_congr rfl (fun l _ => mul_comm _ _)
  · simp only [hb, hc, ne_eq, not_false_eq_true, not_true_eq_false, if_true, if_false]
    exact Finset.sum_congr rfl (fun l _ => mul_comm _ _)

/-- Witness for C4: `B'B` for a 2 by 2 integer matrix `B` passed as both operands. -/
theorem mmult_alias_correct_witness :
    (1 ≤ 2 ∧ (((1 : Nat) ≠ 0 ∧ (0 : Nat) = 0) ∨ ((1 : Nat) = 0 ∧ (0 : Nat) ≠ 0)) ∧
      0 < 2 ∧ 1 < 2) ∧
    (mgcv_mmult (fun _ => (0 : Int)) (fun q => (q : Int) + 1) none 1 0 2 2 2 (0 + 2 * 1)
      = mgcv_mmult (fun _ => (0 : Int)) (fun q => (q : Int) + 1) (some (fun q => (q : Int) + 1))
          1 0 2 2 2 (0 + 2 * 1) ∧
    mgcv_mmult (fun _ => (0 : Int)) (fun q => (q : Int) + 1) none 1 0 2 2 2 (0 + 2 * 1)
      = mgcv_mmult (fun _ => (0 : Int)) (fun q => (q : Int) + 1) none 1 0 2 2 2 (1 + 2 * 0)) :=
  ⟨by decide, mmult_alias_correct (fun _ => (0 : Int)) (fun q => (q : Int) + 1) 1 0 2 2
    (by decide) (by decide) 0 1 (by decide) (by decide)⟩

end SymProofs

section ReorderProofs
variable {α : Type}

theorem rd_wr (m : RbrMem α) (p p' : Ptr) (v : α) :
    (m.wr p v).rd p' = if p'.ext = p.ext ∧ p'.off.toNat = p.off.toNat then v else m.rd p' := by
  unfold RbrMem.wr RbrMem.rd
  rcases p with ⟨e, a⟩
  rcases p' with ⟨e', a'⟩
  cases e <;> cases e' <;> simp [store]

theorem rd_x (m : RbrMem α) (a : Int) : m.rd ⟨false, a⟩ = m.x a.toNat := by
  simp [RbrMem.rd]

theorem rd_extra (m : RbrMem α) (a : Int) : m.rd ⟨true, a⟩ = m.extra a.toNat := by
  simp [RbrMem.rd]

theorem copyUp_spec (cnt : Nat) (m : RbrMem α) (e0 e1 : Bool) (a0 a1 : Int)
    (h0 : 0 ≤ a0) (h1 : 0 ≤ a1) (hle : e0 = e1 → a0 ≤ a1) :
    (copyUp cnt { mem := m, x0 := ⟨e0, a0⟩, x1 := ⟨e1, a1⟩ }).x0 = ⟨e0, a0 + cnt⟩ ∧
    (copyUp cnt { mem := m, x0 := ⟨e0, a0⟩, x1 := ⟨e1, a1⟩ }).x1 = ⟨e1, a1 + cnt⟩ ∧
    (∀ t : Nat, t < cnt →
      (copyUp cnt { mem := m, x0 := ⟨e0, a0⟩, x1 := ⟨e1, a1⟩ }).mem.rd ⟨e0, a0 + t⟩
        = m.rd ⟨e1, a1 + t⟩) ∧
    (∀ p : Ptr, 0 ≤ p.off → ¬ (p.ext = e0 ∧ a0 ≤ p.off ∧ p.off < a0 + cnt) →
      (copyUp cnt { mem := m, x0 := ⟨e0, a0⟩, x1 := ⟨e1, a1⟩ }).mem.rd p = m.rd p) := by
  unfold copyUp
  induction cnt with
  | zero =>
    refine ⟨by simp [forLoop], by simp [forLoop], fun t ht => by omega, fun p _ _ => rfl⟩
  | succ k ih =>
    obtain ⟨g0, g1, g2, g3⟩ := ih
    rw [forLoop_succ]
    set s := forLoop k (fun _ (s : RbrCopy α) =>
      ({ mem := s.mem.wr s.x0 (s.mem.rd s.x1), x0 := s.x0.add 1, x1 := s.x1.add 1 } : RbrCopy α))
      { mem := m, x0 := ⟨e0, a0⟩, x1 := ⟨e1, a1⟩ } with hs
    simp only [g0, g1, Ptr.add]
    refine ⟨by congr 1; push_cast; ring, by congr 1; push_cast; ring, ?_, ?_⟩
    · intro t ht
      rw [rd_wr]
      by_cases htk : t = k
      · subst htk
        rw [if_pos ⟨rfl, rfl⟩, g3 ⟨e1, a1 + t⟩ (by simp only; omega)
          (by simp only; intro h; have := hle h.1.symm; omega)]
      · rw [if_neg (by simp only; omega), g2 t (by omega)]
    · intro p hp hnp
      rw [rd_wr, if_neg (by simp only; intro h; apply hnp; refine ⟨h.1, ?_⟩; push_cast; omega),
        g3 p hp (by intro h; apply hnp; refine ⟨h.1, ?_⟩; push_cast; omega)]

theorem copyDown_spec (cnt : Nat) (m : RbrMem α) (e0 e1 : Bool) (a0 a1 : Int)
    (h0 : (cnt : Int) ≤ a0 + 1) (h1 : (cnt : Int) ≤ a1 + 1) (hle : e0 = e1 → a1 ≤ a0) :
    (copyDown cnt { mem := m, x0 := ⟨e0, a0⟩, x1 := ⟨e1, a1⟩ }).x0 = ⟨e0, a0 - cnt⟩ ∧
    (copyDown cnt { mem := m, x0 := ⟨e0, a0⟩, x1 := ⟨e1, a1⟩ }).x1 = ⟨e1, a1 - cnt⟩ ∧
    (∀ t : Nat, t < cnt →
      (copyDown cnt { mem := m, x0 := ⟨e0, a0⟩, x1 := ⟨e1, a1⟩ }).mem.rd ⟨e0, a0 - t⟩
        = m.rd ⟨e1, a1 - t⟩) ∧
    (∀ p : Ptr, 0 ≤ p.off → ¬ (p.ext = e0 ∧ a0 - cnt < p.off ∧ p.off ≤ a0) →
      (copyDown cnt { mem := m, x0 := ⟨e0, a0⟩, x1 := ⟨e1, a1⟩ }).mem.rd p = m.rd p) := by
  unfold copyDown
  induction cnt with
  | zero =>
    refine ⟨by simp [forLoop], by simp [forLoop], fun t ht => by omega, fun p _ _ => rfl⟩
  | succ k ih =>
    obtain ⟨g0, g1, g2, g3⟩ := ih (by push_cast at h0 ⊢; omega) (by push_cast at h1 ⊢; omega)
    rw [forLoop_succ]
    set s := forLoop k (fun _ (s : RbrCopy α) =>
      ({ mem := s.mem.wr s.x0 (s.mem.rd s.x1), x0 := s.x0.add (-1), x1 := s.x1.add (-1) } :
        RbrCopy α))
      { mem := m, x0 := ⟨e0, a0⟩, x1 := ⟨e1, a1⟩ } with hs
    simp only [g0, g1, Ptr.add]
    push_cast at h0 h1
    refine ⟨by congr 1; push_cast; ring, by congr 1; push_cast; ring, ?_, ?_⟩
    · intro t ht
      rw [rd_wr]
      by_cases htk : t = k
      · subst htk
        rw [if_pos ⟨rfl, rfl⟩, g3 ⟨e1, a1 - t⟩ (by simp only; omega)
          (by simp only; intro h; have := hle h.1.symm; omega)]
      · rw [if_neg (by simp only; omega), g2 t (by omega)]
    · intro p hp hnp
      rw [rd_wr, if_neg (by simp only; intro h; apply hnp; refine ⟨h.1, ?_⟩; push_cast; omega),
        g3 p hp (by intro h; apply hnp; refine ⟨h.1, ?_⟩; push_cast; omega)]

theorem swapSeg_spec (nb : Nat) (m : RbrMem α) (e0 e1 : Bool) (a0 a1 : Int)
    (h0 : 0 ≤ a0) (h1 : 0 ≤ a1)
    (hd : (e0 = e1 ∧ a0 = a1) ∨ e0 ≠ e1 ∨ a0 + nb ≤ a1 ∨ a1 + nb ≤ a0) :
    (∀ t : Nat, t < nb →
      (swapSeg nb { mem := m, x0 := ⟨e0, a0⟩, x1 := ⟨e1, a1⟩ }).mem.rd ⟨e0, a0 + t⟩
        = m.rd ⟨e1, a1 + t⟩) ∧
    (∀ t : Nat, t < nb →
      (swapSeg nb { mem := m, x0 := ⟨e0, a0⟩, x1 := ⟨e1, a1⟩ }).mem.rd ⟨e1, a1 + t⟩
        = m.rd ⟨e0, a0 + t⟩) ∧
    (∀ p : Ptr, 0 ≤ p.off → ¬ (p.ext = e0 ∧ a0 ≤ p.off ∧ p.off < a0 + nb) →
      ¬ (p.ext = e1 ∧ a1 ≤ p.off ∧ p.off < a1 + nb) →
      (swapSeg nb { mem := m, x0 := ⟨e0, a0⟩, x1 := ⟨e1, a1⟩ }).mem.rd p = m.rd p) := by
  have key : ∀ cnt : Nat, cnt ≤ nb →
      (forLoop cnt (fun _ (s : RbrCopy α) =>
        let tmp := s.mem.rd s.x0
        let m1 := s.mem.wr s.x0 (s.mem.rd s.x1)
        ({ mem := m1.wr s.x1 tmp, x0 := s.x0.add 1, x1 := s.x1.add 1 } : RbrCopy α))
        { mem := m, x0 := ⟨e0, a0⟩, x1 := ⟨e1, a1⟩ }).x0 = ⟨e0, a0 + cnt⟩ ∧
      (forLoop cnt (fun _ (s : RbrCopy α) =>
        let tmp := s.mem.rd s.x0
        let m1 := s.mem.wr s.x0 (s.mem.rd s.x1)
        ({ mem := m1.wr s.x1 tmp, x0 := s.x0.add 1, x1 := s.x1.add 1 } : RbrCopy α))
        { mem := m, x0 := ⟨e0, a0⟩, x1 := ⟨e1, a1⟩ }).x1 = ⟨e1, a1 + cnt⟩ ∧
      (∀ t : Nat, t < cnt →
        (forLoop cnt (fun _ (s : RbrCopy α) =>
        let tmp := s.mem.rd s.x0
        let m1 := s.mem.wr s.x0 (s.mem.rd s.x1)
        ({ mem := m1.wr s.x1 tmp, x0 := s.x0.add 1, x1 := s.x1.add 1 } : RbrCopy α))
        { mem := m, x0 := ⟨e0, a0⟩, x1 := ⟨e1, a1⟩ }).mem.rd ⟨e0, a0 + t⟩ = m.rd ⟨e1, a1 + t⟩) ∧
      (∀ t : Nat, t < cnt →
        (forLoop cnt (fun _ (s : RbrCopy α) =>
        let tmp := s.mem.rd s.x0
        let m1 := s.mem.wr s.x0 (s.mem.rd s.x1)
        ({ mem := m1.wr s.x1 tmp, x0 := s.x0.add 1, x1 := s.x1.add 1 } : RbrCopy α))
        { mem := m, x0 := ⟨e0, a0⟩, x1 := ⟨e1, a1⟩ }).mem.rd ⟨e1, a1 + t⟩ = m.rd ⟨e0, a0 + t⟩) ∧
      (∀ p : Ptr, 0 ≤ p.off → ¬ (p.ext = e0 ∧ a0 ≤ p.off ∧ p.off < a0 + cnt) →
        ¬ (p.ext = e1 ∧ a1 ≤ p.off ∧ p.off < a1 + cnt) →
        (forLoop cnt (fun _ (s : RbrCopy α) =>
        let tmp := s.mem.rd s.x0
        let m1 := s.mem.wr s.x0 (s.mem.rd s.x1)
        ({ mem := m1.wr s.x1 tmp, x0 := s.x0.add 1, x1 := s.x1.add 1 } : RbrCopy α))
        { mem := m, x0 := ⟨e0, a0⟩, x1 := ⟨e1, a1⟩ }).mem.rd p = m.rd p) := by
    intro cnt
    induction cnt with
    | zero =>
      intro _
      refine ⟨by simp [forLoop], by simp [forLoop], fun t ht => by omega, fun t ht => by omega,
        fun p _ _ _ => rfl⟩
    | succ k ih =>
      intro hk
      obtain ⟨g0, g1, g2, g3, g4⟩ := ih (by omega)
      rw [forLoop_succ]
      set s := forLoop k (fun _ (s : RbrCopy α) =>
        let tmp := s.mem.rd s.x0
        let m1 := s.mem.wr s.x0 (s.mem.rd s.x1)
        ({ mem := m1.wr s.x1 tmp, x0 := s.x0.add 1, x1 := s.x1.add 1 } : RbrCopy α))
        { mem := m, x0 := ⟨e0, a0⟩, x1 := ⟨e1, a1⟩ } with hs
      simp only [g0, g1, Ptr.add]
      have r0 : s.mem.rd ⟨e0, a0 + k⟩ = m.rd ⟨e0, a0 + k⟩ := by
        refine g4 _ (by simp only; omega) (by simp only; omega) ?_
        rintro ⟨he, hlo, hhi⟩
        simp only at he hlo hhi
        rcases hd with hd | hd | hd | hd
        · omega
        · exact hd he
        · omega
        · omega
      have r1 : s.mem.rd ⟨e1, a1 + k⟩ = m.rd ⟨e1, a1 + k⟩ := by
        refine g4 _ (by simp only; omega) ?_ (by simp only; omega)
        rintro ⟨he, hlo, hhi⟩
        simp only at he hlo hhi
        rcases hd with hd | hd | hd | hd
        · omega
        · exact hd he.symm
        · omega
        · omega
      refine ⟨by congr 1; push_cast; ring, by congr 1; push_cast; ring, ?_, ?_, ?_⟩
      · intro t ht
        rw [rd_wr, rd_wr]
        by_cases htk : t = k
        · subst htk
          by_cases hsame : e0 = e1 ∧ (a0 + (t : Int)).toNat = (a1 + (t : Int)).toNat
          · rw [if_pos hsame, r0]
            have : a0 = a1 := by omega
            rw [hsame.1, this]
          · rw [if_neg hsame, if_pos ⟨rfl, rfl⟩, r1]
        · have hne0 : ¬ (e0 = e0 ∧ (a0 + (t : Int)).toNat = (a0 + (k : Int)).toNat) := by omega
          have hne1 : ¬ (e0 = e1 ∧ (a0 + (t : Int)).toNat = (a1 + (k : Int)).toNat) := by
            rintro ⟨he, h⟩
            rcases hd with hd | hd | hd | hd
            · omega
            · exact hd he
            · omega
            · omega
          rw [if_neg hne1, if_neg hne0, g2 t (by omega)]
      · intro t ht
        rw [rd_wr, rd_wr]
        by_cases htk : t = k
        · subst htk
          rw [if_pos ⟨rfl, rfl⟩, r0]
        · have hne1 : ¬ (e1 = e1 ∧ (a1 + (t : Int)).toNat = (a1 + (k : Int)).toNat) := by omega
          have hne0 : ¬ (e1 = e0 ∧ (a1 + (t : Int)).toNat = (a0 + (k : Int)).toNat) := by
            rintro ⟨he, h⟩
            rcases hd with hd | hd | hd | hd
            · omega
            · exact hd he.symm
            · omega
            · omega
          rw [if_neg hne1, if_neg hne0, g3 t (by omega)]
      · intro p hp hn0 hn1
        rw [rd_wr, rd_wr,
          if_neg (by rintro ⟨he, h⟩; simp only at h; exact hn1 ⟨he, by push_cast; omega⟩),
          if_neg (by rintro ⟨he, h⟩; simp only at h; exact hn0 ⟨he, by push_cast; omega⟩),
          g4 p hp (by rintro ⟨he, h⟩; exact hn0 ⟨he, by push_cast; omega⟩)
            (by rintro ⟨he, h⟩; exact hn1 ⟨he, by push_cast; omega⟩)]
  obtain ⟨-, -, k2, k3, k4⟩ := key nb le_rfl
  exact ⟨k2, k3, k4⟩

theorem segPtr_eq (nb ns_main i : Nat) :
    segPtr nb ns_main i = ⟨slotExt ns_main i, (slotOff nb ns_main i : Nat)⟩ := by
  unfold segPtr slotExt slotOff
  by_cases h : i < ns_main
  · simp [h, Nat.not_le.mpr h]
  · simp only [h, if_false]
    congr 1
    · simp [Nat.le_of_not_lt h]
    · push_cast [Nat.cast_sub (Nat.le_of_not_lt h)]
      ring

theorem slotVal_rd (m : RbrMem α) (nb ns_main i l : Nat) :
    slotVal m nb ns_main i l
      = m.rd ⟨slotExt ns_main i, ((slotOff nb ns_main i : Nat) : Int) + (l : Nat)⟩ := by
  unfold slotVal slotExt slotOff
  by_cases h : i < ns_main
  · simp only [h, if_true, Nat.not_le.mpr h, decide_False]
    rw [rd_x]; congr 1
  · simp only [h, if_false, Nat.le_of_not_lt h, decide_True]
    rw [rd_extra]; congr 1

theorem slot_disj (nb ns_main t u l : Nat) (h : t ≠ u) (hl : l < nb) :
    ¬ (slotExt ns_main t = slotExt ns_main u ∧
        slotOff nb ns_main u ≤ slotOff nb ns_main t + l ∧
        slotOff nb ns_main t + l < slotOff nb ns_main u + nb) := by
  have key : ∀ a b : Nat, a ≠ b → ¬ (b * nb ≤ a * nb + l ∧ a * nb + l < b * nb + nb) := by
    intro a b hab
    rintro ⟨h1, h2⟩
    rcases Nat.lt_or_gt_of_ne hab with h | h
    · have e2 : (a + 1) * nb ≤ b * nb := Nat.mul_le_mul_right nb h
      have e3 : (a + 1) * nb = a * nb + nb := Nat.succ_mul _ _
      omega
    · have e2 : (b + 1) * nb ≤ a * nb := Nat.mul_le_mul_right nb h
      have e3 : (b + 1) * nb = b * nb + nb := Nat.succ_mul _ _
      omega
  unfold slotExt slotOff
  by_cases h1 : t < ns_main <;> by_cases h2 : u < ns_main
  · simp only [h1, h2, if_true]
    rintro ⟨-, h3⟩
    exact key t u h h3
  · simp [h1, h2, Nat.not_le.mpr h1, Nat.le_of_not_lt h2]
  · simp [h1, h2, Nat.not_le.mpr h2, Nat.le_of_not_lt h1]
  · simp only [h1, h2, if_false]
    rintro ⟨-, h3⟩
    exact key (t - ns_main) (u - ns_main) (by omega) h3

theorem swapSlots_spec (nb ns_main ti si : Nat) (m : RbrMem α) :
    (∀ t l, l < nb →
      slotVal (swapSeg nb
          { mem := m, x0 := segPtr nb ns_main ti, x1 := segPtr nb ns_main si }).mem
          nb ns_main t l
        = slotVal m nb ns_main (if t = ti then si else if t = si then ti else t) l) ∧
    (∀ p, ns_main * nb ≤ p →
      (swapSeg nb
          { mem := m, x0 := segPtr nb ns_main ti, x1 := segPtr nb ns_main si }).mem.x p
        = m.x p) := by
  rw [segPtr_eq, segPtr_eq]
  obtain ⟨g1, g2, g3⟩ := swapSeg_spec nb m (slotExt ns_main ti) (slotExt ns_main si)
    (slotOff nb ns_main ti : Nat) (slotOff nb ns_main si : Nat)
    (Int.natCast_nonneg _) (Int.natCast_nonneg _)
    (by
      by_cases hts : ti = si
      · left; subst hts; exact ⟨rfl, rfl⟩
      · right
        by_cases he : slotExt ns_main ti = slotExt ns_main si
        · right
          have d1 := slot_disj nb ns_main ti si 0
          have d2 := slot_disj nb ns_main si ti 0
          by_cases hnb : 0 < nb
          · have d1' : ¬ (slotOff nb ns_main si ≤ slotOff nb ns_main ti + 0 ∧
                slotOff nb ns_main ti + 0 < slotOff nb ns_main si + nb) :=
              fun h => d1 hts hnb ⟨he, h⟩
            have d2' : ¬ (slotOff nb ns_main ti ≤ slotOff nb ns_main si + 0 ∧
                slotOff nb ns_main si + 0 < slotOff nb ns_main ti + nb) :=
              fun h => d2 (Ne.symm hts) hnb ⟨he.symm, h⟩
            omega
          · have : nb = 0 := by omega
            subst this
            unfold slotOff
            simp
        · left; exact he)
  constructor
  · intro t l hl
    rw [slotVal_rd, slotVal_rd]
    by_cases h1 : t = ti
    · subst h1
      rw [if_pos rfl, g1 l hl]
    · rw [if_neg h1]
      by_cases h2 : t = si
      · subst h2
        rw [if_pos rfl, g2 l hl]
      · rw [if_neg h2]
        apply g3
        · simp only; omega
        · have := slot_disj nb ns_main t ti l h1 hl
          rintro ⟨he, h3, h4⟩
          simp only at he h3 h4
          exact this ⟨he, by omega, by omega⟩
        · have := slot_disj nb ns_main t si l h2 hl
          rintro ⟨he, h3, h4⟩
          simp only at he h3 h4
          exact this ⟨he, by omega, by omega⟩
  · intro p hp
    have := g3 ⟨false, (p : Nat)⟩ (Int.natCast_nonneg _)
      (by
        simp only
        unfold slotExt slotOff
        by_cases h : ti < ns_main
        · have e2 : (ti + 1) * nb ≤ ns_main * nb := Nat.mul_le_mul_right nb h
          have e3 : (ti + 1) * nb = ti * nb + nb := Nat.succ_mul _ _
          simp only [h, if_true]
          omega
        · simp [Nat.le_of_not_lt h])
      (by
        simp only
        unfold slotExt slotOff
        by_cases h : si < ns_main
        · have e2 : (si + 1) * nb ≤ ns_main * nb := Nat.mul_le_mul_right nb h
          have e3 : (si + 1) * nb = si * nb + nb := Nat.succ_mul _ _
          simp only [h, if_true]
          omega
        · simp [Nat.le_of_not_lt h])
    rw [rd_x, rd_x] at this
    simpa using this

theorem rbrSigma_lt (c k reverse t : Nat) (ht : t < k * c) : rbrSigma c k reverse t < k * c := by
  have hc : 0 < c := by
    rcases Nat.eq_zero_or_pos c with h | h
    · subst h; simp at ht
    · exact h
  have hk : 0 < k := by
    rcases Nat.eq_zero_or_pos k with h | h
    · subst h; simp at ht
    · exact h
  unfold rbrSigma
  split
  · have h1 : t % k < k := Nat.mod_lt _ hk
    have h2 : t / k < c := (Nat.div_lt_iff_lt_mul hk).mpr (by rw [Nat.mul_comm]; exact ht)
    have h3 : (t % k + 1) * c ≤ k * c := Nat.mul_le_mul_right c h1
    have h4 : (t % k + 1) * c = t % k * c + c := Nat.succ_mul _ _
    omega
  · have h1 : t % c < c := Nat.mod_lt _ hc
    have h2 : t / c < k := (Nat.div_lt_iff_lt_mul hc).mpr ht
    have h3 : (t % c + 1) * k ≤ c * k := Nat.mul_le_mul_right k h1
    have h4 : (t % c + 1) * k = t % c * k + k := Nat.succ_mul _ _
    have h5 : c * k = k * c := Nat.mul_comm _ _
    omega

theorem divmod_pair_inj (a b : Nat) (hb : 0 < b) (t u : Nat)
    (h : t / a + (t % a) * b = u / a + (u % a) * b) (ht : t / a < b) (hu : u / a < b) :
    t = u := by
  have h1 := congrArg (· % b) h
  simp only [Nat.add_mul_mod_self_right] at h1
  rw [Nat.mod_eq_of_lt ht, Nat.mod_eq_of_lt hu] at h1
  rw [h1] at h
  have h2 : (t % a) * b = (u % a) * b := by omega
  have h3 : t % a = u % a := Nat.eq_of_mul_eq_mul_right hb h2
  rw [← Nat.div_add_mod t a, ← Nat.div_add_mod u a, h1, h3]

theorem rbrSigma_inj (c k reverse t u : Nat) (ht : t < k * c) (hu : u < k * c)
    (h : rbrSigma c k reverse t = rbrSigma c k reverse u) : t = u := by
  have hc : 0 < c := by
    rcases Nat.eq_zero_or_pos c with h | h
    · subst h; simp at ht
    · exact h
  have hk : 0 < k := by
    rcases Nat.eq_zero_or_pos k with h | h
    · subst h; simp at ht
    · exact h
  unfold rbrSigma at h
  split at h
  · have h' : t / k + (t % k) * c = u / k + (u % k) * c := by omega
    exact divmod_pair_inj k c hc t u h'
      ((Nat.div_lt_iff_lt_mul hk).mpr (by rw [Nat.mul_comm]; exact ht))
      ((Nat.div_lt_iff_lt_mul hk).mpr (by rw [Nat.mul_comm]; exact hu))
  · exact divmod_pair_inj c k hk t u h
      ((Nat.div_lt_iff_lt_mul hc).mpr ht) ((Nat.div_lt_iff_lt_mul hc).mpr hu)

theorem rbrSigma_fwd (c k i j : Nat) (hj : j < c) : rbrSigma c k 0 (i * c + j) = i + j * k := by
  unfold rbrSigma
  have hc : 0 < c := by omega
  simp only [ne_eq, not_true_eq_false, if_false]
  rw [Nat.add_comm (i * c) j, Nat.add_mul_div_right _ _ hc, Nat.add_mul_mod_self_right,
    Nat.div_eq_of_lt hj, Nat.mod_eq_of_lt hj, Nat.zero_add]

theorem permBody_inv (c nb k ns_main reverse i j : Nat) (m0 : RbrMem α) (st : RbrPerm α)
    (hj : j < c) (hi : i < k) (hinv : PermInv c nb k ns_main reverse m0 st (i * c + j)) :
    PermInv c nb k ns_main reverse m0 (rbrPermBody c nb k ns_main reverse i j st)
      (i * c + j + 1) := by
  obtain ⟨h1, h2, h3, h4, h5, h6⟩ := hinv
  have hti : i * c + j < k * c := by
    have e2 : (i + 1) * c ≤ k * c := Nat.mul_le_mul_right c hi
    have e3 : (i + 1) * c = i * c + c := Nat.succ_mul _ _
    omega
  have hsi_eq : (if reverse ≠ 0 then st.s ((st.ti % k) * c + st.ti / k) else st.s (i + j * k))
      = st.s (rbrSigma c k reverse (i * c + j)) := by
    rw [h1]
    by_cases hr : reverse ≠ 0
    · rw [if_pos hr]
      unfold rbrSigma
      rw [if_pos hr]
    · have : reverse = 0 := by omega
      subst this
      simp only [ne_eq, not_true_eq_false, if_false]
      rw [rbrSigma_fwd c k i j hj]
  have hsig_lt := rbrSigma_lt c k reverse (i * c + j) hti
  obtain ⟨hsi_lt, hasi⟩ := h3 _ hsig_lt
  have hainj : ∀ t u, t < k * c → u < k * c → st.a t = st.a u → t = u := by
    intro t u ht hu h
    have := (h2 t ht).2
    rw [h, (h2 u hu).2] at this
    exact this.symm
  have hsi_ge : i * c + j ≤ st.s (rbrSigma c k reverse (i * c + j)) := by
    by_contra hlt
    have hlt : st.s (rbrSigma c k reverse (i * c + j)) < i * c + j := by omega
    have e1 := h5 _ hlt
    rw [hasi] at e1
    have := rbrSigma_inj c k reverse _ _ hti hsi_lt e1
    omega
  obtain ⟨w1, w2⟩ := swapSlots_spec nb ns_main (i * c + j)
    (st.s (rbrSigma c k reverse (i * c + j))) st.mem
  have hbody : rbrPermBody c nb k ns_main reverse i j st =
      { mem := (swapSeg nb
          { mem := st.mem, x0 := segPtr nb ns_main st.ti,
            x1 := segPtr nb ns_main
              (if reverse ≠ 0 then st.s ((st.ti % k) * c + st.ti / k) else st.s (i + j * k)) }).mem,
        a := fun p => if p = st.ti then
            st.a (if reverse ≠ 0 then st.s ((st.ti % k) * c + st.ti / k) else st.s (i + j * k))
          else if p = (if reverse ≠ 0 then st.s ((st.ti % k) * c + st.ti / k)
              else st.s (i + j * k)) then st.a st.ti
          else st.a p,
        s := fun p =>
          if p = (if st.ti = st.ti then
              st.a (if reverse ≠ 0 then st.s ((st.ti % k) * c + st.ti / k) else st.s (i + j * k))
            else if st.ti = (if reverse ≠ 0 then st.s ((st.ti % k) * c + st.ti / k)
                else st.s (i + j * k)) then st.a st.ti
            else st.a st.ti) then st.ti
          else if p = (if (if reverse ≠ 0 then st.s ((st.ti % k) * c + st.ti / k)
                else st.s (i + j * k)) = st.ti then
              st.a (if reverse ≠ 0 then st.s ((st.ti % k) * c + st.ti / k) else st.s (i + j * k))
            else if (if reverse ≠ 0 then st.s ((st.ti % k) * c + st.ti / k)
                else st.s (i + j * k)) = (if reverse ≠ 0 then st.s ((st.ti % k) * c + st.ti / k)
                else st.s (i + j * k)) then st.a st.ti
            else st.a (if reverse ≠ 0 then st.s ((st.ti % k) * c + st.ti / k)
                else st.s (i + j * k))) then
            (if reverse ≠ 0 then st.s ((st.ti % k) * c + st.ti / k) else st.s (i + j * k))
          else st.s p,
        ti := st.ti + 1 } := rfl
  rw [hbody, hsi_eq, h1]
  set ti := i * c + j with hti_def
  set si := st.s (rbrSigma c k reverse ti) with hsi_def
  refine ⟨rfl, ?_, ?_, ?_, ?_, ?_⟩
  · intro t ht
    simp only [if_true]
    by_cases e1 : t = ti
    · subst e1
      simp only [if_true]
      exact ⟨(h2 si hsi_lt).1, trivial⟩
    · simp only [e1, if_false]
      by_cases e2 : t = si
      · simp only [e2, if_true]
        refine ⟨(h2 ti hti).1, ?_⟩
        have e3 : ¬ si = ti := fun h => e1 (e2.trans h)
        have hne : st.a ti ≠ st.a si := fun h => e3 (hainj _ _ hti hsi_lt h).symm
        simp only [hne, e3, if_false, if_true]
      · simp only [e2, if_false]
        refine ⟨(h2 t ht).1, ?_⟩
        have hne1 : st.a t ≠ st.a si := fun h => e2 (hainj _ _ ht hsi_lt h)
        have hne2 : st.a t ≠ st.a ti := fun h => e1 (hainj _ _ ht hti h)
        simp only [hne1, if_false]
        by_cases e3 : si = ti
        · simp only [e3, if_true, hne2, if_false]
          exact (h2 t ht).2
        · simp only [e3, if_false, if_true, hne2]
          exact (h2 t ht).2
  · intro u hu
    simp only [if_true]
    by_cases e1 : u = st.a si
    · simp only [e1, if_true]
      exact ⟨hti, trivial⟩
    · simp only [e1, if_false]
      by_cases e3 : si = ti
      · simp only [e3, if_true] at e1 ⊢
        simp only [e1, if_false]
        refine ⟨(h3 u hu).1, ?_⟩
        have hne : st.s u ≠ ti := by
          intro h
          apply e1
          rw [← h, (h3 u hu).2]
        simp only [hne, if_false]
        exact (h3 u hu).2
      · simp only [e3, if_false, if_true]
        by_cases e2 : u = st.a ti
        · simp only [e2, if_true]
          refine ⟨hsi_lt, ?_⟩
          simp only [e3, if_false]
        · simp only [e2, if_false]
          refine ⟨(h3 u hu).1, ?_⟩
          have hne1 : st.s u ≠ ti := by
            intro h
            apply e2
            rw [← h, (h3 u hu).2]
          have hne2 : st.s u ≠ si := by
            intro h
            apply e1
            rw [← h, (h3 u hu).2]
          simp only [hne1, hne2, if_false]
          exact (h3 u hu).2
  · intro t l ht hl
    simp only
    rw [w1 t l hl]
    by_cases e1 : t = ti
    · simp only [e1, if_true]
      exact h4 si l hsi_lt hl
    · simp only [e1, if_false]
      by_cases e2 : t = si
      · simp only [e2, if_true]
        exact h4 ti l hti hl
      · simp only [e2, if_false]
        exact h4 t l ht hl
  · intro t ht
    simp only
    by_cases e1 : t = ti
    · simp only [e1, if_true]
      exact hasi
    · have e2 : t ≠ si := by omega
      simp only [e1, e2, if_false]
      exact h5 t (by omega)
  · intro p hp
    simp only
    rw [w2 p hp, h6 p hp]

theorem rbrPerm_spec (c nb k ns_main reverse : Nat) (m : RbrMem α) :
    (∀ t l, t < k * c → l < nb →
      slotVal (rbrPerm c nb k ns_main reverse m) nb ns_main t l
        = slotVal m nb ns_main (rbrSigma c k reverse t) l) ∧
    (∀ p, ns_main * nb ≤ p → (rbrPerm c nb k ns_main reverse m).x p = m.x p) := by
  have inner : ∀ i, i < k → ∀ st, PermInv c nb k ns_main reverse m st (i * c) →
      ∀ j, j ≤ c → PermInv c nb k ns_main reverse m
        (forLoop j (fun j st => rbrPermBody c nb k ns_main reverse i j st) st) (i * c + j) := by
    intro i hi st hst j
    induction j with
    | zero => intro _; exact hst
    | succ j ih =>
      intro hj
      rw [forLoop_succ]
      exact permBody_inv c nb k ns_main reverse i j m _ (by omega) hi (ih (by omega))
  have outer : ∀ i, i ≤ k → PermInv c nb k ns_main reverse m
      (forLoop i (fun i st =>
        forLoop c (fun j st => rbrPermBody c nb k ns_main reverse i j st) st)
        { mem := m, a := fun i => i, s := fun i => i, ti := 0 }) (i * c) := by
    intro i
    induction i with
    | zero =>
      intro _
      refine ⟨by simp [forLoop], fun t ht => ⟨ht, rfl⟩, fun u hu => ⟨hu, rfl⟩,
        fun t l _ _ => rfl, fun t ht => by omega, fun p _ => rfl⟩
    | succ i ih =>
      intro hi
      rw [forLoop_succ]
      have := inner i (by omega) _ (ih (by omega)) c le_rfl
      rwa [show i * c + c = (i + 1) * c from (Nat.succ_mul i c).symm] at this
  obtain ⟨-, -, -, h4, h5, h6⟩ := outer k le_rfl
  unfold rbrPerm
  refine ⟨fun t l ht hl => ?_, h6⟩
  rw [h4 t l ht hl, h5 t ht]

/-- A descending loop over the segments `hi-1, ..., hi-cnt` that copies segment `i` (length
`len i`, source `x + src i`) to the start of its slot (at `base i` in buffer `e`), skipping
the padding at the end of the slot. -/
theorem padLoop_spec (nb : Nat) (e : Bool) (base src len : Nat → Nat) (lo hi : Nat)
    (m0 : RbrMem α) (body : Nat → RbrCopy α → RbrCopy α)
    (hbody : ∀ i s, body i s
      = copyDown (len i) { s with x0 := s.x0.add (-((nb : Int) - (len i : Int))) })
    (hlen : ∀ i, lo ≤ i → i < hi → len i ≤ nb)
    (hsrc : ∀ i, lo ≤ i → i < hi → src (i + 1) = src i + len i)
    (hbase : ∀ i, lo ≤ i → i < hi → base (i + 1) = base i + nb)
    (hmono : ∀ i i', lo ≤ i → i ≤ i' → i' ≤ hi → base i ≤ base i')
    (hcl : e = false → ∀ i, lo ≤ i → i ≤ hi → src i ≤ base i)
    (cnt : Nat) (hcnt : cnt ≤ hi - lo) :
    (forLoop cnt (fun t s => body (hi - 1 - t) s)
      { mem := m0, x0 := ⟨e, (base hi : Int) - 1⟩, x1 := ⟨false, (src hi : Int) - 1⟩ }).x0
        = ⟨e, (base (hi - cnt) : Int) - 1⟩ ∧
    (forLoop cnt (fun t s => body (hi - 1 - t) s)
      { mem := m0, x0 := ⟨e, (base hi : Int) - 1⟩, x1 := ⟨false, (src hi : Int) - 1⟩ }).x1
        = ⟨false, (src (hi - cnt) : Int) - 1⟩ ∧
    (∀ i l, hi - cnt ≤ i → i < hi → l < len i →
      (forLoop cnt (fun t s => body (hi - 1 - t) s)
        { mem := m0, x0 := ⟨e, (base hi : Int) - 1⟩, x1 := ⟨false, (src hi : Int) - 1⟩ }).mem.rd
          ⟨e, ((base i + l : Nat) : Int)⟩ = m0.x (src i + l)) ∧
    (∀ p : Ptr, 0 ≤ p.off →
      ¬ (p.ext = e ∧ (base (hi - cnt) : Int) ≤ p.off ∧ p.off < (base hi : Int)) →
      (forLoop cnt (fun t s => body (hi - 1 - t) s)
        { mem := m0, x0 := ⟨e, (base hi : Int) - 1⟩, x1 := ⟨false, (src hi : Int) - 1⟩ }).mem.rd p
          = m0.rd p) := by
  induction cnt with
  | zero =>
    refine ⟨rfl, rfl, fun i l h1 h2 _ => by omega, fun p _ _ => rfl⟩
  | succ n ih =>
    obtain ⟨g0, g1, g2, g3⟩ := ih (by omega)
    rw [forLoop_succ]
    set s := forLoop n (fun t s => body (hi - 1 - t) s)
      { mem := m0, x0 := ⟨e, (base hi : Int) - 1⟩, x1 := ⟨false, (src hi : Int) - 1⟩ } with hs
    have hi1 : hi - n = (hi - 1 - n) + 1 := by omega
    have hi2 : hi - (n + 1) = hi - 1 - n := by omega
    set i := hi - 1 - n with hi_def
    have hlo : lo ≤ i := by omega
    have hlt : i < hi := by omega
    rw [hi1] at g0 g1 g2 g3
    rw [hi2]
    have e1 := hsrc i hlo hlt
    have e2 := hbase i hlo hlt
    have e3 := hlen i hlo hlt
    rw [hbody]
    have hst : ({ s with x0 := s.x0.add (-((nb : Int) - (len i : Int))) } : RbrCopy α)
        = { mem := s.mem, x0 := ⟨e, (base i : Int) + (len i : Int) - 1⟩,
            x1 := ⟨false, (src i : Int) + (len i : Int) - 1⟩ } := by
      rw [g0, g1]
      simp only [Ptr.add]
      congr 2
      · push_cast [e2]; ring
      · push_cast [e1]; ring
    rw [hst]
    obtain ⟨c0, c1, c2, c3⟩ := copyDown_spec (len i) s.mem e false
      ((base i : Int) + (len i : Int) - 1) ((src i : Int) + (len i : Int) - 1)
      (by omega) (by omega)
      (by intro he; have := hcl he i hlo (by omega); omega)
    refine ⟨by rw [c0]; congr 1; ring, by rw [c1]; congr 1; ring, ?_, ?_⟩
    · intro i' l h1 h2 h3
      by_cases hii : i' = i
      · rw [hii] at h3 ⊢
        have := c2 (len i - 1 - l) (by omega)
        have ea : (base i : Int) + (len i : Int) - 1 - ((len i - 1 - l : Nat) : Int)
            = ((base i + l : Nat) : Int) := by omega
        have eb : (src i : Int) + (len i : Int) - 1 - ((len i - 1 - l : Nat) : Int)
            = ((src i + l : Nat) : Int) := by omega
        rw [ea, eb] at this
        rw [this]
        have hfr := g3 ⟨false, ((src i + l : Nat) : Int)⟩ (by simp only; omega)
          (by
            rintro ⟨he, h4, h5⟩
            simp only at he h4 h5
            have := hcl he.symm (i + 1) (by omega) (by omega)
            omega)
        rw [hfr, rd_x]
        congr 1
      · have hm := hmono (i + 1) i' (by omega) (by omega) (by omega)
        have hl' := hlen i' (by omega) h2
        rw [c3 _ (by simp only; omega)
          (by rintro ⟨-, h4, h5⟩; simp only at h4 h5; omega)]
        exact g2 i' l (by omega) h2 h3
    · intro p hp hnp
      have hm := hmono (i + 1) hi (by omega) (by omega) le_rfl
      rw [c3 p hp (by rintro ⟨he, h4, h5⟩; exact hnp ⟨he, by omega, by omega⟩)]
      exact g3 p hp (by rintro ⟨he, h4, h5⟩; exact hnp ⟨he, by omega, by omega⟩)

/-- An ascending loop over the slots `lo, ..., lo+cnt-1` that copies the first `len i`
elements of slot `i` to `x + tgt i`, moving the source pointer to `extra` when it reaches
slot `ns_main`, and skipping the padding of the slot. -/
theorem unpadLoop_spec (nb ns_main : Nat) (tgt len : Nat → Nat) (lo : Nat)
    (m0 : RbrMem α) (body : Nat → RbrCopy α → RbrCopy α)
    (hbody : ∀ i s, body i s
      = (fun s1 : RbrCopy α =>
          ({ s1 with x1 := s1.x1.add ((nb : Int) - (len i : Int)) } : RbrCopy α))
        (copyUp (len i)
          (if i = ns_main then { s with x1 := { ext := true, off := 0 } } else s)))
    (hlen : ∀ i, lo ≤ i → len i ≤ nb)
    (htgt : ∀ i, lo ≤ i → tgt (i + 1) = tgt i + len i)
    (hlo : lo ≤ ns_main)
    (hcl : ∀ i, lo ≤ i → tgt i ≤ i * nb)
    (cnt : Nat) :
    (forLoop cnt (fun t s => body (lo + t) s)
      { mem := m0, x0 := ⟨false, (tgt lo : Nat)⟩, x1 := ⟨false, ((lo * nb : Nat) : Int)⟩ }).x0
        = ⟨false, (tgt (lo + cnt) : Nat)⟩ ∧
    (forLoop cnt (fun t s => body (lo + t) s)
      { mem := m0, x0 := ⟨false, (tgt lo : Nat)⟩, x1 := ⟨false, ((lo * nb : Nat) : Int)⟩ }).x1
        = (if lo + cnt ≤ ns_main then ⟨false, (((lo + cnt) * nb : Nat) : Int)⟩
            else ⟨true, (((lo + cnt - ns_main) * nb : Nat) : Int)⟩) ∧
    (∀ i l, lo ≤ i → i < lo + cnt → l < len i →
      (forLoop cnt (fun t s => body (lo + t) s)
        { mem := m0, x0 := ⟨false, (tgt lo : Nat)⟩, x1 := ⟨false, ((lo * nb : Nat) : Int)⟩ }).mem.x
          (tgt i + l) = slotVal m0 nb ns_main i l) ∧
    (∀ p : Ptr, 0 ≤ p.off →
      ¬ (p.ext = false ∧ (tgt lo : Int) ≤ p.off ∧ p.off < (tgt (lo + cnt) : Int)) →
      (forLoop cnt (fun t s => body (lo + t) s)
        { mem := m0, x0 := ⟨false, (tgt lo : Nat)⟩, x1 := ⟨false, ((lo * nb : Nat) : Int)⟩ }).mem.rd p
          = m0.rd p) := by
  have hmono : ∀ n, tgt lo ≤ tgt (lo + n) := by
    intro n
    induction n with
    | zero => exact le_rfl
    | succ n ih =>
      have := htgt (lo + n) (by omega)
      rw [show lo + (n + 1) = lo + n + 1 by omega]
      omega
  induction cnt with
  | zero =>
    refine ⟨rfl, ?_, fun i l h1 h2 _ => by omega, fun p _ _ => rfl⟩
    simp only [Nat.add_zero, hlo, if_true, forLoop_zero]
  | succ n ih =>
    obtain ⟨g0, g1, g2, g3⟩ := ih
    rw [forLoop_succ]
    set s := forLoop n (fun t s => body (lo + t) s)
      { mem := m0, x0 := ⟨false, (tgt lo : Nat)⟩, x1 := ⟨false, ((lo * nb : Nat) : Int)⟩ } with hs
    have e1 := htgt (lo + n) (by omega)
    have e3 := hlen (lo + n) (by omega)
    have e4 := hcl (lo + n) (by omega)
    have e5 := hmono n
    rw [show lo + (n + 1) = lo + n + 1 by omega]
    set i := lo + n with hi_def
    rw [hbody]
    have hs0 : (if i = ns_main then ({ s with x1 := { ext := true, off := 0 } } : RbrCopy α)
        else s)
        = { mem := s.mem, x0 := ⟨false, (tgt i : Nat)⟩,
            x1 := ⟨slotExt ns_main i, (slotOff nb ns_main i : Nat)⟩ } := by
      unfold slotExt slotOff
      by_cases h : i = ns_main
      · rw [if_pos h, g0]
        simp [h]
      · rw [if_neg h]
        by_cases h2 : i < ns_main
        · have h3 : i ≤ ns_main := by omega
          have hstruct : s = { mem := s.mem, x0 := s.x0, x1 := s.x1 } := rfl
          rw [hstruct, g0, g1]
          simp [h2, h3, Nat.not_le.mpr h2]
        · have h3 : ¬ i ≤ ns_main := by omega
          have hstruct : s = { mem := s.mem, x0 := s.x0, x1 := s.x1 } := rfl
          rw [hstruct, g0, g1]
          simp [h2, h3, Nat.le_of_not_lt h2]
    rw [hs0]
    obtain ⟨c0, c1, c2, c3⟩ := copyUp_spec (len i) s.mem false (slotExt ns_main i)
      (tgt i : Nat) (slotOff nb ns_main i : Nat) (Int.natCast_nonneg _) (Int.natCast_nonneg _)
      (by
        intro he
        unfold slotExt at he
        unfold slotOff
        have h2 : i < ns_main := by
          by_contra h
          simp [Nat.le_of_not_lt h] at he
        simp only [h2, if_true]
        omega)
    simp only
    refine ⟨by rw [c0]; congr 1; push_cast [e1]; ring, ?_, ?_, ?_⟩
    · rw [c1]
      unfold slotExt slotOff
      simp only [Ptr.add]
      by_cases h2 : i < ns_main
      · have h3 : i + 1 ≤ ns_main := by omega
        simp only [h2, h3, if_true, Nat.not_le.mpr h2, decide_False]
        congr 1
        push_cast
        ring
      · have h3 : ¬ i + 1 ≤ ns_main := by omega
        simp only [h2, h3, if_false, Nat.le_of_not_lt h2, decide_True]
        congr 1
        push_cast [Nat.cast_sub (Nat.le_of_not_lt h2), Nat.cast_sub (by omega : ns_main ≤ i + 1)]
        ring
    · intro i' l h1 h2 h3
      by_cases hii : i' = i
      · rw [hii] at h3 ⊢
        have := c2 l h3
        rw [rd_x] at this
        have ea : ((tgt i : Nat) : Int) + (l : Int) = ((tgt i + l : Nat) : Int) := by push_cast; ring
        rw [ea, Int.toNat_ofNat] at this
        rw [this, slotVal_rd]
        apply g3
        · simp only; omega
        · rintro ⟨he, h4, h5⟩
          simp only at he h4 h5
          unfold slotExt at he
          unfold slotOff at h4 h5
          have h2 : i < ns_main := by
            by_contra h
            simp [Nat.le_of_not_lt h] at he
          simp only [h2, if_true] at h4 h5
          omega
      · have hx := c3 ⟨false, ((tgt i' + l : Nat) : Int)⟩ (Int.natCast_nonneg _)
          (by
            rintro ⟨-, h4, h5⟩
            simp only at h4 h5
            have m1 : tgt (i' + 1) ≤ tgt i := by
              have : ∃ d, i = i' + 1 + d := ⟨i - (i' + 1), by omega⟩
              obtain ⟨d, hd⟩ := this
              have hm : ∀ n, tgt (i' + 1) ≤ tgt (i' + 1 + n) := by
                intro n
                induction n with
                | zero => exact le_rfl
                | succ n ih =>
                  have := htgt (i' + 1 + n) (by omega)
                  rw [show i' + 1 + (n + 1) = i' + 1 + n + 1 by omega]
                  omega
              rw [hd]; exact hm d
            have := htgt i' h1
            omega)
        rw [rd_x, rd_x, Int.toNat_ofNat] at hx
        rw [hx]
        exact g2 i' l h1 (by omega) h3
    · intro p hp hnp
      rw [c3 p hp (by rintro ⟨he, h4, h5⟩; exact hnp ⟨he, by omega, by omega⟩)]
      exact g3 p hp (by rintro ⟨he, h4, h5⟩; exact hnp ⟨he, by omega, by omega⟩)

theorem divmod_block (k q b : Nat) (hb : b < k) : (b + q * k) / k = q ∧ (b + q * k) % k = b := by
  have hk : 0 < k := by omega
  constructor
  · rw [Nat.add_mul_div_right _ _ hk, Nat.div_eq_of_lt hb, Nat.zero_add]
  · rw [Nat.add_mul_mod_self_right, Nat.mod_eq_of_lt hb]

theorem srcF_block (r nb k q b : Nat) (hb : b < k) : srcF r nb k (b + q * k) = q * r + b * nb := by
  unfold srcF
  rw [(divmod_block k q b hb).1, (divmod_block k q b hb).2]

theorem segLen_block (nb nbf k q b : Nat) (hb : b < k) :
    segLen nb nbf k (b + q * k) = if b + 1 < k then nb else nbf := by
  unfold segLen
  by_cases h : b + 1 < k
  · have := (divmod_block k q (b + 1) h).2
    rw [show b + q * k + 1 = b + 1 + q * k by omega, this]
    simp [h]
  · have hbk : b + 1 = k := by omega
    have : (b + q * k + 1) % k = 0 := by
      rw [show b + q * k + 1 = (q + 1) * k by rw [Nat.succ_mul]; omega]
      exact Nat.mul_mod_left _ _
    simp [this, h]

theorem segLen_le (nb nbf k i : Nat) (h : nbf ≤ nb) : segLen nb nbf k i ≤ nb := by
  unfold segLen
  split <;> omega

theorem srcF_succ (r nb nbf k i : Nat) (hk : 0 < k) (hr : r = (k - 1) * nb + nbf) :
    srcF r nb k (i + 1) = srcF r nb k i + segLen nb nbf k i := by
  have hi : i = i % k + (i / k) * k := by
    have := Nat.div_add_mod i k
    rw [Nat.mul_comm] at this
    omega
  have hb : i % k < k := Nat.mod_lt _ hk
  generalize i % k = b at hi hb
  generalize i / k = q at hi
  subst hi
  rw [segLen_block nb nbf k q b hb, srcF_block r nb k q b hb]
  by_cases h : b + 1 < k
  · rw [show b + q * k + 1 = b + 1 + q * k by omega, srcF_block r nb k q (b + 1) h, if_pos h,
      Nat.succ_mul]
    omega
  · have hbk : b + 1 = k := by omega
    rw [show b + q * k + 1 = 0 + (q + 1) * k by rw [Nat.succ_mul]; omega,
      srcF_block r nb k (q + 1) 0 hk, if_neg h, Nat.succ_mul, hr, ← hbk]
    simp only [Nat.add_sub_cancel, Nat.zero_mul]
    omega

theorem srcF_le (r nb k i : Nat) (hk : 0 < k) (hr : r ≤ k * nb) : srcF r nb k i ≤ i * nb := by
  have hi : i = i % k + (i / k) * k := by
    have := Nat.div_add_mod i k
    rw [Nat.mul_comm] at this
    omega
  have hb : i % k < k := Nat.mod_lt _ hk
  generalize i % k = b at hi hb
  generalize i / k = q at hi
  subst hi
  rw [srcF_block r nb k q b hb, Nat.add_mul]
  have : q * r ≤ q * (k * nb) := Nat.mul_le_mul_left q hr
  rw [← Nat.mul_assoc] at this
  omega

theorem rbrSigma_rev (c k reverse b col : Nat) (hrev : reverse ≠ 0) (hb : b < k) :
    rbrSigma c k reverse (b + col * k) = b * c + col := by
  unfold rbrSigma
  rw [if_pos hrev, (divmod_block k col b hb).1, (divmod_block k col b hb).2]

/-- Facts about the block geometry computed at the start of `row_block_reorder`:
`k0 = r / nb`, and if `r > nb * k0` then `nbf = r - nb * k0`, `k = k0 + 1`. -/
theorem rbr_geom_short (r c nb : Nat) (hnb : 0 < nb) (hc0 : 0 < c) (h : r > nb * (r / nb)) :
    0 < r - nb * (r / nb) ∧ r - nb * (r / nb) < nb ∧
    r = (r / nb + 1 - 1) * nb + (r - nb * (r / nb)) ∧
    (r / nb + 1 - 1) * c ≤ r * c / nb ∧ r * c / nb < (r / nb + 1) * c := by
  have h1 : nb * (r / nb) + r % nb = r := Nat.div_add_mod r nb
  have h2 : r % nb < nb := Nat.mod_lt _ hnb
  have h3 : r - nb * (r / nb) = r % nb := by omega
  have hc := Nat.mul_comm nb (r / nb)
  refine ⟨by omega, by omega, by simp only [Nat.add_sub_cancel]; omega, ?_, ?_⟩
  · simp only [Nat.add_sub_cancel]
    rw [Nat.le_div_iff_mul_le hnb]
    calc r / nb * c * nb = (nb * (r / nb)) * c := by ring
      _ ≤ r * c := Nat.mul_le_mul_right c (by omega)
  · rw [Nat.div_lt_iff_lt_mul hnb]
    have h4 : r < (r / nb + 1) * nb := by rw [Nat.succ_mul]; omega
    calc r * c < (r / nb + 1) * nb * c := Nat.mul_lt_mul_of_pos_right h4 hc0
      _ = (r / nb + 1) * c * nb := by ring

theorem ptr_add_zero (p : Ptr) : p.add (-((0 : Int))) = p := by
  simp [Ptr.add]

theorem padFwdBody_eq (nb nbf k i : Nat) (s : RbrCopy α) :
    padFwdBody nb nbf k i s
      = copyDown (segLen nb nbf k i)
          { s with x0 := s.x0.add (-((nb : Int) - (segLen nb nbf k i : Int))) } := by
  unfold padFwdBody segLen
  by_cases h : (i + 1) % k ≠ 0
  · rw [if_pos h, if_pos h]
    simp [Ptr.add]
  · rw [if_neg h, if_neg h]

/-- Two consecutive padding loops: segments `ns-1, ..., ns_main` go to `extra`, segments
`ns_main-1, ..., lo` go to their slot in `x`. -/
theorem padTwoLoops_spec (nb ns ns_main lo : Nat) (src len : Nat → Nat) (m : RbrMem α)
    (body : Nat → RbrCopy α → RbrCopy α)
    (hbody : ∀ i s, body i s
      = copyDown (len i) { s with x0 := s.x0.add (-((nb : Int) - (len i : Int))) })
    (hlen : ∀ i, lo ≤ i → i < ns → len i ≤ nb)
    (hsrc : ∀ i, lo ≤ i → i < ns → src (i + 1) = src i + len i)
    (hcl : ∀ i, lo ≤ i → i ≤ ns_main → src i ≤ i * nb)
    (h1 : lo ≤ ns_main) (h2 : ns_main ≤ ns) :
    (∀ i l, lo ≤ i → i < ns → l < len i →
      slotVal (forLoop (ns_main - lo) (fun t s => body (ns_main - 1 - t) s)
        { forLoop (ns - ns_main) (fun t s => body (ns - 1 - t) s)
            { mem := m, x0 := ⟨true, (((ns - ns_main) * nb : Nat) : Int) - 1⟩,
              x1 := ⟨false, (src ns : Int) - 1⟩ }
          with x0 := ⟨false, ((ns_main * nb : Nat) : Int) - 1⟩ }).mem nb ns_main i l
        = m.x (src i + l)) ∧
    (∀ p, (p < lo * nb ∨ ns_main * nb ≤ p) →
      (forLoop (ns_main - lo) (fun t s => body (ns_main - 1 - t) s)
        { forLoop (ns - ns_main) (fun t s => body (ns - 1 - t) s)
            { mem := m, x0 := ⟨true, (((ns - ns_main) * nb : Nat) : Int) - 1⟩,
              x1 := ⟨false, (src ns : Int) - 1⟩ }
          with x0 := ⟨false, ((ns_main * nb : Nat) : Int) - 1⟩ }).mem.x p = m.x p) := by
  obtain ⟨a0, a1, a2, a3⟩ := padLoop_spec nb true (fun i => (i - ns_main) * nb) src len ns_main ns
    m body hbody (fun i h h' => hlen i (by omega) h') (fun i h h' => hsrc i (by omega) h')
    (fun i h h' => by
      simp only
      rw [show i + 1 - ns_main = (i - ns_main) + 1 by omega, Nat.succ_mul])
    (fun i i' h h' _ => Nat.mul_le_mul_right nb (by omega))
    (fun he => by simp at he) (ns - ns_main) le_rfl
  set s1 := forLoop (ns - ns_main) (fun t s => body (ns - 1 - t) s)
    { mem := m, x0 := ⟨true, (((ns - ns_main) * nb : Nat) : Int) - 1⟩,
      x1 := ⟨false, (src ns : Int) - 1⟩ } with hs1
  have e0 : ns - (ns - ns_main) = ns_main := by omega
  rw [e0] at a1 a2 a3
  have hst : ({ s1 with x0 := ⟨false, ((ns_main * nb : Nat) : Int) - 1⟩ } : RbrCopy α)
      = { mem := s1.mem, x0 := ⟨false, ((ns_main * nb : Nat) : Int) - 1⟩,
          x1 := ⟨false, (src ns_main : Int) - 1⟩ } := by
    rw [← a1]
  rw [hst]
  obtain ⟨b0, b1, b2, b3⟩ := padLoop_spec nb false (fun i => i * nb) src len lo ns_main
    s1.mem body hbody (fun i h h' => hlen i h (by omega)) (fun i h h' => hsrc i h (by omega))
    (fun i h h' => by simp only; rw [Nat.succ_mul])
    (fun i i' h h' _ => Nat.mul_le_mul_right nb h')
    (fun _ i h h' => hcl i h h') (ns_main - lo) le_rfl
  have e1 : ns_main - (ns_main - lo) = lo := by omega
  rw [e1] at b2 b3
  constructor
  · intro i l hi1 hi2 hl
    rw [slotVal_rd]
    unfold slotExt slotOff
    by_cases h : i < ns_main
    · simp only [h, if_true, Nat.not_le.mpr h, decide_False]
      have := b2 i l hi1 h hl
      rw [show ((i * nb : Nat) : Int) + ((l : Nat) : Int) = ((i * nb + l : Nat) : Int) by
        push_cast; ring, this]
      have := a3 ⟨false, ((src i + l : Nat) : Int)⟩ (Int.natCast_nonneg _) (by simp)
      rw [rd_x, rd_x, Int.toNat_ofNat] at this
      exact this
    · simp only [h, if_false, Nat.le_of_not_lt h, decide_True]
      rw [show (((i - ns_main) * nb : Nat) : Int) + ((l : Nat) : Int)
        = (((i - ns_main) * nb + l : Nat) : Int) by push_cast; ring]
      rw [b3 _ (Int.natCast_nonneg _) (by simp)]
      exact a2 i l (by omega) hi2 hl
  · intro p hp
    have := b3 ⟨false, (p : Nat)⟩ (Int.natCast_nonneg _)
      (by rintro ⟨-, h3, h4⟩; simp only at h3 h4; omega)
    rw [rd_x, rd_x, Int.toNat_ofNat] at this
    rw [this]
    have := a3 ⟨false, (p : Nat)⟩ (Int.natCast_nonneg _) (by simp)
    rw [rd_x, rd_x, Int.toNat_ofNat] at this
    exact this

theorem rbrPad_fwd_spec (r c nb nbf k ns ns_main ns_extra : Nat) (m : RbrMem α)
    (hk : 0 < k) (hnbf : nbf ≤ nb) (hr : r = (k - 1) * nb + nbf) (hns : ns = k * c)
    (hm : ns_main ≤ ns) (hex : ns_extra = ns - ns_main) :
    (∀ i l, i < ns → l < segLen nb nbf k i →
      slotVal (rbrPad r c nb nbf k ns ns_main ns_extra 0 m) nb ns_main i l
        = m.x (srcF r nb k i + l)) ∧
    (∀ p, ns_main * nb ≤ p → (rbrPad r c nb nbf k ns ns_main ns_extra 0 m).x p = m.x p) := by
  have hrk : r ≤ k * nb := by
    obtain ⟨k', rfl⟩ : ∃ k', k = k' + 1 := ⟨k - 1, by omega⟩
    rw [hr, Nat.succ_mul]
    simp only [Nat.add_sub_cancel]
    omega
  have hsrcns : srcF r nb k ns = r * c := by
    rw [hns, show k * c = 0 + c * k by ring, srcF_block r nb k c 0 hk]
    ring
  obtain ⟨g1, g2⟩ := padTwoLoops_spec nb ns ns_main 0 (srcF r nb k) (segLen nb nbf k) m
    (padFwdBody nb nbf k) (padFwdBody_eq nb nbf k)
    (fun i _ _ => segLen_le nb nbf k i hnbf)
    (fun i _ _ => srcF_succ r nb nbf k i hk hr)
    (fun i _ _ => srcF_le r nb k i hk hrk) (Nat.zero_le _) hm
  have hrun : rbrPad r c nb nbf k ns ns_main ns_extra 0 m =
      (forLoop (ns_main - 0) (fun t s => padFwdBody nb nbf k (ns_main - 1 - t) s)
        { forLoop (ns - ns_main) (fun t s => padFwdBody nb nbf k (ns - 1 - t) s)
            { mem := m, x0 := ⟨true, (((ns - ns_main) * nb : Nat) : Int) - 1⟩,
              x1 := ⟨false, (srcF r nb k ns : Int) - 1⟩ }
          with x0 := ⟨false, ((ns_main * nb : Nat) : Int) - 1⟩ }).mem := by
    unfold rbrPad
    simp only [ne_eq, not_true_eq_false, if_false, Nat.sub_zero]
    have e1 : (nb : Int) * ns_extra - 1 = (((ns - ns_main) * nb : Nat) : Int) - 1 := by
      rw [hex]; push_cast [Nat.cast_sub hm]; ring
    have e2 : (r : Int) * c - 1 = (srcF r nb k ns : Int) - 1 := by
      rw [hsrcns]; push_cast; ring
    have e3 : (ns_main : Int) * nb - 1 = ((ns_main * nb : Nat) : Int) - 1 := by
      push_cast; ring
    rw [e1, e2, e3]
  rw [hrun]
  exact ⟨fun i l hi hl => g1 i l (Nat.zero_le _) hi hl, fun p hp => g2 p (Or.inr hp)⟩

theorem srcR_succ (c nb nbf k i : Nat) (hi : (k - 1) * c ≤ i) :
    srcR c nb nbf k (i + 1) = srcR c nb nbf k i + nbf := by
  unfold srcR
  rw [show i + 1 - (k - 1) * c = (i - (k - 1) * c) + 1 by omega, Nat.succ_mul]
  omega

theorem srcR_le (c nb nbf k i : Nat) (hnbf : nbf ≤ nb) (hi : (k - 1) * c ≤ i) :
    srcR c nb nbf k i ≤ i * nb := by
  unfold srcR
  obtain ⟨d, rfl⟩ : ∃ d, i = (k - 1) * c + d := ⟨i - (k - 1) * c, by omega⟩
  rw [Nat.add_sub_cancel_left, Nat.add_mul]
  have := Nat.mul_le_mul_left d hnbf
  omega

theorem rbrPad_rev_spec (r c nb nbf k ns ns_main ns_extra reverse : Nat) (m : RbrMem α)
    (hrev : reverse ≠ 0)
    (hk : 0 < k) (hnbf : nbf ≤ nb) (hr : r = (k - 1) * nb + nbf) (hns : ns = k * c)
    (hm : ns_main ≤ ns) (hm2 : (k - 1) * c ≤ ns_main) (hex : ns_extra = ns - ns_main) :
    (∀ i l, (k - 1) * c ≤ i → i < ns → l < nbf →
      slotVal (rbrPad r c nb nbf k ns ns_main ns_extra reverse m) nb ns_main i l
        = m.x (srcR c nb nbf k i + l)) ∧
    (∀ p, (p < (k - 1) * c * nb ∨ ns_main * nb ≤ p) →
      (rbrPad r c nb nbf k ns ns_main ns_extra reverse m).x p = m.x p) := by
  have hns2 : ns = (k - 1) * c + c := by
    obtain ⟨k', rfl⟩ : ∃ k', k = k' + 1 := ⟨k - 1, by omega⟩
    rw [hns, Nat.succ_mul]
    simp only [Nat.add_sub_cancel]
  have hnsc : ns - c = (k - 1) * c := by omega
  have hsrcns : srcR c nb nbf k ns = r * c := by
    unfold srcR
    rw [show ns - (k - 1) * c = c by omega, hr]
    ring
  obtain ⟨g1, g2⟩ := padTwoLoops_spec nb ns ns_main ((k - 1) * c) (srcR c nb nbf k)
    (fun _ => nbf) m (fun _ s => padRevBody nb nbf s) (fun _ _ => rfl)
    (fun i _ _ => hnbf)
    (fun i hi _ => srcR_succ c nb nbf k i hi)
    (fun i hi _ => srcR_le c nb nbf k i hnbf hi) hm2 hm
  have hrun : rbrPad r c nb nbf k ns ns_main ns_extra reverse m =
      (forLoop (ns_main - (k - 1) * c) (fun t s => padRevBody nb nbf s)
        { forLoop (ns - ns_main) (fun t s => padRevBody nb nbf s)
            { mem := m, x0 := ⟨true, (((ns - ns_main) * nb : Nat) : Int) - 1⟩,
              x1 := ⟨false, (srcR c nb nbf k ns : Int) - 1⟩ }
          with x0 := ⟨false, ((ns_main * nb : Nat) : Int) - 1⟩ }).mem := by
    unfold rbrPad
    rw [if_pos hrev]
    simp only [hnsc]
    have e1 : (nb : Int) * ns_extra - 1 = (((ns - ns_main) * nb : Nat) : Int) - 1 := by
      rw [hex]; push_cast [Nat.cast_sub hm]; ring
    have e2 : (r : Int) * c - 1 = (srcR c nb nbf k ns : Int) - 1 := by
      rw [hsrcns]; push_cast; ring
    have e3 : (ns_main : Int) * nb - 1 = ((ns_main * nb : Nat) : Int) - 1 := by
      push_cast; ring
    rw [e1, e2, e3]
  rw [hrun]
  exact ⟨g1, g2⟩

theorem rbrUnpad_fwd_spec (r c nb nbf k ns ns_main : Nat) (m : RbrMem α)
    (hk : 0 < k) (hnbf : nbf ≤ nb) (hm2 : (k - 1) * c ≤ ns_main) :
    (∀ j l, j < c → l < nbf →
      (rbrUnpad r c nb nbf k ns ns_main 0 m).x ((k - 1) * c * nb + j * nbf + l)
        = slotVal m nb ns_main ((k - 1) * c + j) l) ∧
    (∀ p, (p < (k - 1) * c * nb ∨ (k - 1) * c * nb + c * nbf ≤ p) →
      (rbrUnpad r c nb nbf k ns ns_main 0 m).x p = m.x p) := by
  obtain ⟨-, -, g2, g3⟩ := unpadLoop_spec nb ns_main
    (fun i => c * (k - 1) * nb + (i - c * (k - 1)) * nbf) (fun _ => nbf) (c * (k - 1)) m
    (fun i s => unpadFwdBody nb nbf ns_main i s) (fun _ _ => rfl) (fun _ _ => hnbf)
    (fun i hi => by
      simp only
      rw [show i + 1 - c * (k - 1) = (i - c * (k - 1)) + 1 by omega, Nat.succ_mul]
      omega)
    (by rw [Nat.mul_comm]; exact hm2)
    (fun i hi => by
      simp only
      obtain ⟨d, rfl⟩ : ∃ d, i = c * (k - 1) + d := ⟨i - c * (k - 1), by omega⟩
      rw [Nat.add_sub_cancel_left, Nat.add_mul]
      have := Nat.mul_le_mul_left d hnbf
      omega) c
  simp only [Nat.sub_self, Nat.zero_mul, Nat.add_zero, Nat.add_sub_cancel_left] at g2 g3
  have hrun : rbrUnpad r c nb nbf k ns ns_main 0 m =
      (forLoop c (fun t s => unpadFwdBody nb nbf ns_main (c * (k - 1) + t) s)
        { mem := m, x0 := ⟨false, ((c * (k - 1) * nb : Nat) : Int)⟩,
          x1 := ⟨false, ((c * (k - 1) * nb : Nat) : Int)⟩ }).mem := by
    unfold rbrUnpad
    simp only [ne_eq, not_true_eq_false, if_false]
    have e1 : ((k : Int) - 1) * c * nb = ((c * (k - 1) * nb : Nat) : Int) := by
      push_cast [Nat.cast_sub (by omega : 1 ≤ k)]; ring
    rw [e1]
  rw [hrun]
  have ekc : (k - 1) * c = c * (k - 1) := Nat.mul_comm _ _
  constructor
  · intro j l hj hl
    have := g2 (c * (k - 1) + j) l (by omega) (by omega) hl
    rw [Nat.add_sub_cancel_left] at this
    rw [ekc, this]
  · intro p hp
    have := g3 ⟨false, (p : Nat)⟩ (Int.natCast_nonneg _)
      (by
        rintro ⟨-, h3, h4⟩
        simp only at h3 h4
        rw [ekc] at hp
        have e2 : (c * nbf : Nat) = c * nbf := rfl
        push_cast at h3 h4
        have h5 : ((p : Nat) : Int) < ((c * (k - 1) * nb + c * nbf : Nat) : Int) := by
          push_cast; omega
        have h6 : ((c * (k - 1) * nb : Nat) : Int) ≤ ((p : Nat) : Int) := by
          push_cast; omega
        omega)
    rw [rd_x, rd_x, Int.toNat_ofNat] at this
    exact this

theorem unpadRevBody_eq (nb nbf k ns_main i : Nat) (s : RbrCopy α) :
    unpadRevBody nb nbf k ns_main i s
      = (fun s1 : RbrCopy α =>
          ({ s1 with x1 := s1.x1.add ((nb : Int) - (segLen nb nbf k i : Int)) } : RbrCopy α))
        (copyUp (segLen nb nbf k i)
          (if i = ns_main then { s with x1 := { ext := true, off := 0 } } else s)) := by
  unfold unpadRevBody segLen
  by_cases h : (i + 1) % k ≠ 0
  · simp only [h, if_true, ne_eq, not_false_eq_true, sub_self, Ptr.add, add_zero]
  · simp only [h, if_false]

theorem rbrUnpad_rev_spec (r c nb nbf k ns ns_main reverse : Nat) (m : RbrMem α)
    (hrev : reverse ≠ 0) (hk : 0 < k) (hnbf : nbf ≤ nb) (hr : r = (k - 1) * nb + nbf)
    (hns : ns = k * c) (hc : 0 < c) (hkm : k ≤ ns_main) :
    (∀ i l, k ≤ i → i < ns → l < segLen nb nbf k i →
      (rbrUnpad r c nb nbf k ns ns_main reverse m).x (srcF r nb k i + l)
        = slotVal m nb ns_main i l) ∧
    (∀ p, (p < r ∨ r * c ≤ p) → (rbrUnpad r c nb nbf k ns ns_main reverse m).x p = m.x p) := by
  have hrk : r ≤ k * nb := by
    obtain ⟨k', rfl⟩ : ∃ k', k = k' + 1 := ⟨k - 1, by omega⟩
    rw [hr, Nat.succ_mul]
    simp only [Nat.add_sub_cancel]
    omega
  have hsrck : srcF r nb k k = r := by
    have := srcF_block r nb k 1 0 hk
    rw [show 0 + 1 * k = k by omega] at this
    rw [this]
    omega
  have hsrcns : srcF r nb k ns = r * c := by
    rw [hns, show k * c = 0 + c * k by ring, srcF_block r nb k c 0 hk]
    ring
  have hkns : k ≤ ns := by
    rw [hns]
    exact Nat.le_mul_of_pos_right k hc
  obtain ⟨-, -, g2, g3⟩ := unpadLoop_spec nb ns_main (srcF r nb k) (segLen nb nbf k) k m
    (unpadRevBody nb nbf k ns_main) (unpadRevBody_eq nb nbf k ns_main)
    (fun i _ => segLen_le nb nbf k i hnbf)
    (fun i _ => srcF_succ r nb nbf k i hk hr) hkm
    (fun i _ => srcF_le r nb k i hk hrk) (ns - k)
  rw [show k + (ns - k) = ns by omega] at g2 g3
  have hrun : rbrUnpad r c nb nbf k ns ns_main reverse m =
      (forLoop (ns - k) (fun t s => unpadRevBody nb nbf k ns_main (k + t) s)
        { mem := m, x0 := ⟨false, ((srcF r nb k k : Nat) : Int)⟩,
          x1 := ⟨false, ((k * nb : Nat) : Int)⟩ }).mem := by
    unfold rbrUnpad
    rw [if_pos hrev, hsrck]
    have e1 : (k : Int) * nb = ((k * nb : Nat) : Int) := by push_cast; ring
    rw [e1]
  rw [hrun]
  constructor
  · intro i l hi1 hi2 hl
    exact g2 i l hi1 hi2 hl
  · intro p hp
    have := g3 ⟨false, (p : Nat)⟩ (Int.natCast_nonneg _)
      (by
        rintro ⟨-, h3, h4⟩
        simp only at h3 h4
        rw [hsrck] at h3
        rw [hsrcns] at h4
        push_cast at h3 h4
        have h5 : ((p : Nat) : Int) < ((r * c : Nat) : Int) := by push_cast; omega
        omega)
    rw [rd_x, rd_x, Int.toNat_ofNat] at this
    exact this

theorem rbr_unfold_short [Zero α] (x : Nat → α) (r c nb reverse : Nat)
    (h : r > nb * (r / nb)) :
    row_block_reorder x r c nb reverse
      = (rbrUnpad r c nb (r - nb * (r / nb)) (r / nb + 1) ((r / nb + 1) * c) (r * c / nb) reverse
          (rbrPerm c nb (r / nb + 1) (r * c / nb) reverse
            (rbrPad r c nb (r - nb * (r / nb)) (r / nb + 1) ((r / nb + 1) * c) (r * c / nb)
              ((r / nb + 1) * c - r * c / nb) reverse { x := x, extra := fun _ => 0 }))).x := by
  unfold row_block_reorder
  have h2 : r - nb * (r / nb) ≠ 0 := by omega
  simp only [h, if_true, h2, ne_eq, not_false_eq_true]

theorem rbr_unfold_exact [Zero α] (x : Nat → α) (r c nb reverse : Nat)
    (h : ¬ r > nb * (r / nb)) :
    row_block_reorder x r c nb reverse
      = (rbrPerm c nb (r / nb) (r / nb * c) reverse { x := x, extra := fun _ => 0 }).x := by
  unfold row_block_reorder
  simp only [h, if_false, ne_eq, not_true_eq_false]

/-- Forward mode when `nb` does not divide `r`, in terms of the quantities computed by the
code (`k` blocks, the last one with `nbf` rows). -/
theorem rbr_fwd_short [Zero α] (x : Nat → α) (r c nb : Nat) (hnb : 0 < nb) (hc : 0 < c)
    (h : r > nb * (r / nb)) (b j l : Nat) (hb : b < r / nb + 1) (hj : j < c)
    (hl : l < if b < r / nb then nb else r - nb * (r / nb)) :
    row_block_reorder x r c nb 0
        (b * nb * c + j * (if b < r / nb then nb else r - nb * (r / nb)) + l)
      = x (j * r + b * nb + l) := by
  obtain ⟨g1, g2, g3, g4, g5⟩ := rbr_geom_short r c nb hnb hc h
  rw [rbr_unfold_short x r c nb 0 h]
  set nbf := r - nb * (r / nb) with hnbf
  set k := r / nb + 1 with hk
  set ns_main := r * c / nb with hnsm
  have hk0 : 0 < k := by omega
  obtain ⟨p1, p2⟩ := rbrPad_fwd_spec r c nb nbf k (k * c) ns_main (k * c - ns_main)
    { x := x, extra := fun _ => 0 } hk0 (by omega) g3 rfl (by omega) rfl
  set m2 := rbrPad r c nb nbf k (k * c) ns_main (k * c - ns_main) 0
    { x := x, extra := fun _ => 0 } with hm2
  obtain ⟨q1, q2⟩ := rbrPerm_spec c nb k ns_main 0 m2
  set m3 := rbrPerm c nb k ns_main 0 m2 with hm3
  obtain ⟨u1, u2⟩ := rbrUnpad_fwd_spec r c nb nbf k (k * c) ns_main m3 hk0 (by omega) g4
  have hbc : b * c + j < k * c := by
    have e2 : (b + 1) * c ≤ k * c := Nat.mul_le_mul_right c hb
    have e3 : (b + 1) * c = b * c + c := Nat.succ_mul _ _
    omega
  have hsl := segLen_block nb nbf k j b hb
  have hsr := srcF_block r nb k j b hb
  have hsig := rbrSigma_fwd c k b j hj
  by_cases hfull' : b < r / nb
  · rw [if_pos hfull'] at hl ⊢
    have hfull : b + 1 < k := by omega
    have hlt : b * c + j < (k - 1) * c := by
      have e2 : (b + 1) * c ≤ (k - 1) * c := Nat.mul_le_mul_right c (by omega)
      have e3 : (b + 1) * c = b * c + c := Nat.succ_mul _ _
      omega
    have hpos : b * nb * c + j * nb + l = (b * c + j) * nb + l := by ring
    have hlt2 : (b * c + j) * nb + l < (k - 1) * c * nb := by
      have e2 : (b * c + j + 1) * nb ≤ (k - 1) * c * nb := Nat.mul_le_mul_right nb hlt
      have e3 : (b * c + j + 1) * nb = (b * c + j) * nb + nb := Nat.succ_mul _ _
      omega
    rw [hpos, u2 _ (Or.inl hlt2)]
    have hsv : slotVal m3 nb ns_main (b * c + j) l = m3.x ((b * c + j) * nb + l) := by
      unfold slotVal
      rw [if_pos (by omega)]
    rw [← hsv, q1 _ l hbc hl, hsig, p1 (b + j * k) l (by rw [← hsig]; exact rbrSigma_lt c k 0 _ hbc)
      (by rw [hsl, if_pos hfull]; exact hl), hsr]
  · rw [if_neg hfull'] at hl ⊢
    have hfull : ¬ b + 1 < k := by omega
    have hbk : b = k - 1 := by omega
    have hpos : b * nb * c + j * nbf + l = (k - 1) * c * nb + j * nbf + l := by
      rw [hbk]; ring
    rw [hpos, u1 j l hj hl, ← hbk, q1 _ l hbc (by omega), hsig,
      p1 (b + j * k) l (by rw [← hsig]; exact rbrSigma_lt c k 0 _ hbc)
      (by rw [hsl, if_neg hfull]; exact hl), hsr]

theorem rbr_fwd_exact [Zero α] (x : Nat → α) (r c nb : Nat)
    (h : ¬ r > nb * (r / nb)) (b j l : Nat) (hb : b < r / nb) (hj : j < c) (hl : l < nb) :
    row_block_reorder x r c nb 0 (b * nb * c + j * nb + l) = x (j * r + b * nb + l) := by
  have h1 : nb * (r / nb) ≤ r := Nat.mul_div_le r nb
  have hr : r = nb * (r / nb) := by omega
  rw [rbr_unfold_exact x r c nb 0 h]
  set k := r / nb with hk
  obtain ⟨q1, -⟩ := rbrPerm_spec c nb k (k * c) 0 { x := x, extra := fun _ => 0 }
  have hbc : b * c + j < k * c := by
    have e2 : (b + 1) * c ≤ k * c := Nat.mul_le_mul_right c hb
    have e3 : (b + 1) * c = b * c + c := Nat.succ_mul _ _
    omega
  have hsig := rbrSigma_fwd c k b j hj
  have hsl := rbrSigma_lt c k 0 _ hbc
  have := q1 (b * c + j) l hbc hl
  unfold slotVal at this
  rw [if_pos hbc, hsig, if_pos (by rw [← hsig]; exact hsl)] at this
  simp only at this
  rw [show b * nb * c + j * nb + l = (b * c + j) * nb + l by ring, this]
  congr 1
  rw [hr]
  ring

/-- Number of row blocks `k = ceil(r / nb)` and height of block `b` (`nb`, except
`r - (k-1) * nb` for the last block), as in the documentation of `row_block_reorder`. -/
theorem rbr_blocks (r nb : Nat) (hnb : 0 < nb) :
    (r > nb * (r / nb) → (r + nb - 1) / nb = r / nb + 1 ∧
      r - ((r + nb - 1) / nb - 1) * nb = r - nb * (r / nb)) ∧
    (¬ r > nb * (r / nb) → (r + nb - 1) / nb = r / nb ∧
      (0 < r → r - ((r + nb - 1) / nb - 1) * nb = nb)) := by
  have h1 : nb * (r / nb) + r % nb = r := Nat.div_add_mod r nb
  have h2 : r % nb < nb := Nat.mod_lt _ hnb
  have hc := Nat.mul_comm nb (r / nb)
  constructor
  · intro h
    have hk : (r + nb - 1) / nb = r / nb + 1 := by
      apply Nat.div_eq_of_lt_le
      · rw [Nat.succ_mul]; omega
      · rw [Nat.succ_mul, Nat.succ_mul]; omega
    refine ⟨hk, ?_⟩
    rw [hk, Nat.add_sub_cancel]
    omega
  · intro h
    have h3 : nb * (r / nb) ≤ r := Nat.mul_div_le r nb
    have hr' : r = nb * (r / nb) := by omega
    have hk : (r + nb - 1) / nb = r / nb := by
      apply Nat.div_eq_of_lt_le
      · omega
      · rw [Nat.succ_mul]; omega
    refine ⟨hk, ?_⟩
    intro hr
    rw [hk]
    have hpos : 0 < r / nb := by
      rcases Nat.eq_zero_or_pos (r / nb) with h0 | h0
      · rw [h0] at hr'; omega
      · exact h0
    obtain ⟨q, hq⟩ : ∃ q, r / nb = q + 1 := ⟨r / nb - 1, by omega⟩
    rw [hq] at hr'
    rw [hq, Nat.add_sub_cancel]
    have e5 : nb * (q + 1) = nb * q + nb := Nat.mul_succ _ _
    have e6 : q * nb = nb * q := Nat.mul_comm _ _
    omega

/-- Forward-mode layout of `row_block_reorder`: the element `(b*nb + l, j)` of the original
matrix is found at offset `b*nb*c + l + j*h_b`, where `h_b` is the height of block `b`. -/
theorem rbr_forward_layout [Zero α] (x : Nat → α) (r c nb : Nat) (hnb : 1 ≤ nb)
    (b l j : Nat) (hb : b < (r + nb - 1) / nb) (hj : j < c)
    (hl : l < if b < (r + nb - 1) / nb - 1 then nb else r - ((r + nb - 1) / nb - 1) * nb) :
    row_block_reorder x r c nb 0
        (b * nb * c + l +
          j * (if b < (r + nb - 1) / nb - 1 then nb else r - ((r + nb - 1) / nb - 1) * nb))
      = x ((b * nb + l) + r * j) := by
  obtain ⟨hs, he⟩ := rbr_blocks r nb hnb
  by_cases h : r > nb * (r / nb)
  · obtain ⟨hk, hh⟩ := hs h
    rw [hk] at hb
    rw [hk, Nat.add_sub_cancel] at hl ⊢
    rw [hk, Nat.add_sub_cancel] at hh
    rw [hh] at hl ⊢
    have := rbr_fwd_short x r c nb hnb (by omega) h b j l hb hj hl
    rw [show b * nb * c + l + j * (if b < r / nb then nb else r - nb * (r / nb))
      = b * nb * c + j * (if b < r / nb then nb else r - nb * (r / nb)) + l by ring, this]
    congr 1
    ring
  · obtain ⟨hk, hh⟩ := he h
    rw [hk] at hb hl ⊢
    have hr0 : 0 < r := by
      rcases Nat.eq_zero_or_pos r with h0 | h0
      · rw [h0] at hb; simp at hb
      · exact h0
    rw [hk] at hh
    rw [hh hr0] at hl ⊢
    simp only [ite_self] at hl ⊢
    have := rbr_fwd_exact x r c nb h b j l hb hj hl
    rw [show b * nb * c + l + j * nb = b * nb * c + j * nb + l by ring, this]
    congr 1
    ring

/-- Claim C6. For every `r, c, nb ≥ 1`, after `row_block_reorder` in forward mode the
`k = ceil(r/nb)` row blocks are stored one after another, each as its own column-major
matrix: with `h_b = nb` for `b < k-1` and `h_{k-1} = r - (k-1)*nb`, the original element
`(b*nb + l, j)`, `l < h_b`, is at offset `b*nb*c + l + j*h_b` of `x`. -/
theorem row_block_reorder_forward [Zero α] (x : Nat → α) (r c nb : Nat) (hnb : 1 ≤ nb)
    (b l j : Nat) (hb : b < (r + nb - 1) / nb) (hj : j < c)
    (hl : l < if b < (r + nb - 1) / nb - 1 then nb else r - ((r + nb - 1) / nb - 1) * nb) :
    row_block_reorder x r c nb 0
        (b * nb * c + l +
          j * (if b < (r + nb - 1) / nb - 1 then nb else r - ((r + nb - 1) / nb - 1) * nb))
      = x ((b * nb + l) + r * j) :=
  rbr_forward_layout x r c nb hnb b l j hb hj hl

/-- Witness for C6: a 5 by 2 matrix with block size 2 (three blocks, the last of height 1),
element `(4, 1)` of the original matrix. -/
theorem row_block_reorder_forward_witness :
    (1 ≤ 2 ∧ 2 < (5 + 2 - 1) / 2 ∧ 1 < 2 ∧
      0 < (if 2 < (5 + 2 - 1) / 2 - 1 then 2 else 5 - ((5 + 2 - 1) / 2 - 1) * 2)) ∧
    row_block_reorder (fun q => (q : Int)) 5 2 2 0
        (2 * 2 * 2 + 0 +
          1 * (if 2 < (5 + 2 - 1) / 2 - 1 then 2 else 5 - ((5 + 2 - 1) / 2 - 1) * 2))
      = (fun q => (q : Int)) ((2 * 2 + 0) + 5 * 1) :=
  ⟨by decide, row_block_reorder_forward (fun q => (q : Int)) 5 2 2 (by decide) 2 0 1
    (by decide) (by decide) (by decide)⟩

theorem rbr_rev_exact [Zero α] (x : Nat → α) (r c nb reverse : Nat) (hrev : reverse ≠ 0)
    (h : ¬ r > nb * (r / nb)) (b j l : Nat) (hb : b < r / nb) (hj : j < c) (hl : l < nb) :
    row_block_reorder x r c nb reverse (j * r + b * nb + l) = x (b * nb * c + j * nb + l) := by
  have h1 : nb * (r / nb) ≤ r := Nat.mul_div_le r nb
  have hr : r = nb * (r / nb) := by omega
  rw [rbr_unfold_exact x r c nb reverse h]
  set k := r / nb with hk
  obtain ⟨q1, -⟩ := rbrPerm_spec c nb k (k * c) reverse { x := x, extra := fun _ => 0 }
  have hbc : b * c + j < k * c := by
    have e2 : (b + 1) * c ≤ k * c := Nat.mul_le_mul_right c hb
    have e3 : (b + 1) * c = b * c + c := Nat.succ_mul _ _
    omega
  have hsig := rbrSigma_fwd c k b j hj
  have hsl : b + j * k < k * c := by rw [← hsig]; exact rbrSigma_lt c k 0 _ hbc
  have hrs := rbrSigma_rev c k reverse b j hrev hb
  have := q1 (b + j * k) l hsl hl
  unfold slotVal at this
  rw [if_pos hsl, hrs, if_pos hbc] at this
  simp only at this
  rw [show j * r + b * nb + l = (b + j * k) * nb + l by rw [hr]; ring, this]
  congr 1
  ring

theorem rbrUnpad_rev_noop (r c nb nbf k ns ns_main reverse : Nat) (m : RbrMem α)
    (hrev : reverse ≠ 0) (hns : ns ≤ k) :
    rbrUnpad r c nb nbf k ns ns_main reverse m = m := by
  unfold rbrUnpad
  rw [if_pos hrev, show ns - k = 0 by omega]
  rfl

/-- Reverse mode when `nb` does not divide `r`, in terms of the quantities computed by the
code; it needs `c = 1` or `k ≤ ns_main`. -/
theorem rbr_rev_short [Zero α] (x : Nat → α) (r c nb reverse : Nat) (hrev : reverse ≠ 0)
    (hnb : 0 < nb) (hc : 0 < c)
    (h : r > nb * (r / nb)) (hok : c = 1 ∨ r / nb + 1 ≤ r * c / nb)
    (b j l : Nat) (hb : b < r / nb + 1) (hj : j < c)
    (hl : l < if b < r / nb then nb else r - nb * (r / nb)) :
    row_block_reorder x r c nb reverse (j * r + b * nb + l)
      = x (b * nb * c + j * (if b < r / nb then nb else r - nb * (r / nb)) + l) := by
  obtain ⟨g1, g2, g3, g4, g5⟩ := rbr_geom_short r c nb hnb hc h
  rw [rbr_unfold_short x r c nb reverse h]
  set nbf := r - nb * (r / nb) with hnbf
  set k := r / nb + 1 with hk
  set ns_main := r * c / nb with hnsm
  have hk0 : 0 < k := by omega
  obtain ⟨p1, p2⟩ := rbrPad_rev_spec r c nb nbf k (k * c) ns_main (k * c - ns_main) reverse
    { x := x, extra := fun _ => 0 } hrev hk0 (by omega) g3 rfl (by omega) g4 rfl
  set m2 := rbrPad r c nb nbf k (k * c) ns_main (k * c - ns_main) reverse
    { x := x, extra := fun _ => 0 } with hm2
  obtain ⟨q1, q2⟩ := rbrPerm_spec c nb k ns_main reverse m2
  set m3 := rbrPerm c nb k ns_main reverse m2 with hm3
  have hbc : b * c + j < k * c := by
    have e2 : (b + 1) * c ≤ k * c := Nat.mul_le_mul_right c hb
    have e3 : (b + 1) * c = b * c + c := Nat.succ_mul _ _
    omega
  have hsl := segLen_block nb nbf k j b hb
  have hsr := srcF_block r nb k j b hb
  have hsig := rbrSigma_fwd c k b j hj
  have hi_lt : b + j * k < k * c := by rw [← hsig]; exact rbrSigma_lt c k 0 _ hbc
  have hrs := rbrSigma_rev c k reverse b j hrev hb
  have hlnb : l < nb := by
    by_cases hf : b < r / nb
    · rw [if_pos hf] at hl; exact hl
    · rw [if_neg hf] at hl; omega
  have hlseg : l < segLen nb nbf k (b + j * k) := by
    rw [hsl]
    by_cases hf : b < r / nb
    · rw [if_pos hf] at hl; rw [if_pos (by omega)]; exact hl
    · rw [if_neg hf] at hl; rw [if_neg (by omega)]; exact hl
  -- value of the slot of `m2` that is moved to slot `b + j * k`
  have hslot2 : (k - 1) * c ≤ ns_main →
      slotVal m2 nb ns_main (b * c + j) l
        = x (b * nb * c + j * (if b < r / nb then nb else nbf) + l) := by
    intro _
    by_cases hf : b < r / nb
    · rw [if_pos hf] at hl ⊢
      have hlt : b * c + j < (k - 1) * c := by
        have e2 : (b + 1) * c ≤ (k - 1) * c := Nat.mul_le_mul_right c (by omega)
        have e3 : (b + 1) * c = b * c + c := Nat.succ_mul _ _
        omega
      have hlt2 : (b * c + j) * nb + l < (k - 1) * c * nb := by
        have e2 : (b * c + j + 1) * nb ≤ (k - 1) * c * nb := Nat.mul_le_mul_right nb hlt
        have e3 : (b * c + j + 1) * nb = (b * c + j) * nb + nb := Nat.succ_mul _ _
        omega
      unfold slotVal
      rw [if_pos (by omega), p2 _ (Or.inl hlt2)]
      simp only
      congr 1
      ring
    · rw [if_neg hf] at hl ⊢
      have hbk : b = k - 1 := by omega
      rw [p1 (b * c + j) l (by rw [hbk]; omega) hbc hl]
      simp only
      congr 1
      unfold srcR
      rw [hbk, Nat.add_sub_cancel_left]
      ring
  have hsl2 := hslot2 g4
  have hperm := q1 (b + j * k) l hi_lt hlnb
  rw [hrs, hsl2] at hperm
  rcases hok with hc1 | hkm
  · subst hc1
    have hj0 : j = 0 := by omega
    subst hj0
    rw [rbrUnpad_rev_noop r 1 nb nbf k (k * 1) ns_main reverse m3 hrev (by omega)]
    by_cases hin : b < ns_main
    · rw [← hperm]
      unfold slotVal
      rw [if_pos (by omega)]
      congr 1
      ring
    · have hpos : ns_main * nb ≤ 0 * r + b * nb + l := by
        have : ns_main * nb ≤ b * nb := Nat.mul_le_mul_right nb (by omega)
        omega
      rw [q2 _ hpos, p2 _ (Or.inr hpos)]
      simp only
      congr 1
      ring
  · obtain ⟨u1, u2⟩ := rbrUnpad_rev_spec r c nb nbf k (k * c) ns_main reverse m3 hrev hk0
      (by omega) g3 rfl hc hkm
    rw [← hperm]
    by_cases hj0 : j = 0
    · subst hj0
      have hin : b + 0 * k < ns_main := by omega
      rw [u2 _ (Or.inl (by
        have e2 : (b + 1) * nb ≤ k * nb := Nat.mul_le_mul_right nb hb
        have e3 : (b + 1) * nb = b * nb + nb := Nat.succ_mul _ _
        by_cases hf : b < r / nb
        · have e4 : (b + 1) * nb ≤ (k - 1) * nb := Nat.mul_le_mul_right nb (by omega)
          omega
        · rw [if_neg hf] at hl
          have hbk : b = k - 1 := by omega
          rw [hbk]
          omega))]
      unfold slotVal
      rw [if_pos hin]
      congr 1
      ring
    · have hik : k ≤ b + j * k := by
        have : 1 * k ≤ j * k := Nat.mul_le_mul_right k (by omega)
        omega
      have := u1 (b + j * k) l hik hi_lt hlseg
      rw [hsr] at this
      exact this

/-- Reverse mode of `row_block_reorder`: if `c = 1` or `nb ≤ r * c`, the element stored at
offset `b*nb*c + l + j*h_b` of the block-wise layout is moved to position `(b*nb + l, j)` of
the `r` by `c` matrix. -/
theorem row_block_reorder_reverse [Zero α] (x : Nat → α) (r c nb reverse : Nat)
    (hrev : reverse ≠ 0) (hnb : 1 ≤ nb) (hok : c = 1 ∨ nb ≤ r * c)
    (b l j : Nat) (hb : b < (r + nb - 1) / nb) (hj : j < c)
    (hl : l < if b < (r + nb - 1) / nb - 1 then nb else r - ((r + nb - 1) / nb - 1) * nb) :
    row_block_reorder x r c nb reverse ((b * nb + l) + r * j)
      = x (b * nb * c + l +
          j * (if b < (r + nb - 1) / nb - 1 then nb else r - ((r + nb - 1) / nb - 1) * nb)) := by
  obtain ⟨hs, he⟩ := rbr_blocks r nb hnb
  by_cases h : r > nb * (r / nb)
  · obtain ⟨hk, hh⟩ := hs h
    rw [hk] at hb
    rw [hk, Nat.add_sub_cancel] at hl ⊢
    rw [hk, Nat.add_sub_cancel] at hh
    rw [hh] at hl ⊢
    have hok' : c = 1 ∨ r / nb + 1 ≤ r * c / nb := by
      rcases hok with h1 | h1
      · exact Or.inl h1
      · by_cases hc1 : c = 1
        · exact Or.inl hc1
        · right
          rw [Nat.le_div_iff_mul_le hnb, Nat.succ_mul]
          have h3 : nb * (r / nb) ≤ r := Nat.mul_div_le r nb
          have h4 : r / nb * nb = nb * (r / nb) := Nat.mul_comm _ _
          have h5 : r * 2 ≤ r * c := Nat.mul_le_mul_left r (by omega)
          rcases Nat.eq_zero_or_pos (r / nb) with h0 | h0
          · rw [h0]; omega
          · have h6 : nb * 1 ≤ nb * (r / nb) := Nat.mul_le_mul_left nb h0
            omega
    have := rbr_rev_short x r c nb reverse hrev hnb (by omega) h hok' b j l hb hj hl
    rw [show b * nb + l + r * j = j * r + b * nb + l by ring, this]
    congr 1
    ring
  · obtain ⟨hk, hh⟩ := he h
    rw [hk] at hb hl ⊢
    have hr0 : 0 < r := by
      rcases Nat.eq_zero_or_pos r with h0 | h0
      · rw [h0] at hb; simp at hb
      · exact h0
    rw [hk] at hh
    rw [hh hr0] at hl ⊢
    simp only [ite_self] at hl ⊢
    have := rbr_rev_exact x r c nb reverse hrev h b j l hb hj hl
    rw [show b * nb + l + r * j = j * r + b * nb + l by ring, this]
    congr 1
    ring

/-- Every offset of the `r` by `c` matrix is `(b*nb + l) + r*j` for a block `b`, a row `l`
of the block and a column `j`. -/
theorem rbr_decompose (r c nb p : Nat) (hnb : 1 ≤ nb) (hp : p < r * c) :
    ∃ b l j, b < (r + nb - 1) / nb ∧ j < c ∧
      (l < if b < (r + nb - 1) / nb - 1 then nb else r - ((r + nb - 1) / nb - 1) * nb) ∧
      p = (b * nb + l) + r * j := by
  have hr0 : 0 < r := by
    rcases Nat.eq_zero_or_pos r with h0 | h0
    · rw [h0] at hp; simp at hp
    · exact h0
  have hj : p / r < c := (Nat.div_lt_iff_lt_mul hr0).mpr (by rw [Nat.mul_comm]; exact hp)
  have hrho : p % r < r := Nat.mod_lt _ hr0
  have hdm : r * (p / r) + p % r = p := Nat.div_add_mod p r
  have hdm2 : nb * (p % r / nb) + p % r % nb = p % r := Nat.div_add_mod (p % r) nb
  have hl : p % r % nb < nb := Nat.mod_lt _ hnb
  have hcm := Nat.mul_comm nb (p % r / nb)
  set k := (r + nb - 1) / nb with hk
  have hkr : r ≤ k * nb := by
    have h2 : r + nb - 1 < (k + 1) * nb := by
      rw [Nat.mul_comm]
      exact Nat.lt_mul_div_succ _ hnb
    rw [Nat.succ_mul] at h2
    omega
  have hkr2 : (k - 1) * nb < r := by
    rcases Nat.eq_zero_or_pos k with h0 | h0
    · rw [h0]; simpa using hr0
    · have h3 : k * nb ≤ r + nb - 1 := by
        rw [Nat.mul_comm]; exact Nat.mul_div_le _ _
      obtain ⟨q, hq⟩ : ∃ q, k = q + 1 := ⟨k - 1, by omega⟩
      rw [hq] at h3 ⊢
      rw [Nat.succ_mul] at h3
      simp only [Nat.add_sub_cancel]
      omega
  have hb : p % r / nb < k := by
    by_contra hge
    have : k * nb ≤ (p % r / nb) * nb := Nat.mul_le_mul_right nb (by omega)
    omega
  refine ⟨p % r / nb, p % r % nb, p / r, hb, hj, ?_, by omega⟩
  by_cases hf : p % r / nb < k - 1
  · rw [if_pos hf]; exact hl
  · rw [if_neg hf]
    have : p % r / nb = k - 1 := by omega
    rw [this] at hdm2 hcm
    omega

/-- Forward followed by reverse mode restores the `r` by `c` matrix whenever `c = 1` or
`nb ≤ r * c` (in particular whenever `nb ≤ r`). -/
theorem row_block_reorder_roundtrip [Zero α] (x : Nat → α) (r c nb reverse : Nat)
    (hrev : reverse ≠ 0) (hnb : 1 ≤ nb) (hok : c = 1 ∨ nb ≤ r * c) (p : Nat)
    (hp : p < r * c) :
    row_block_reorder (row_block_reorder x r c nb 0) r c nb reverse p = x p := by
  obtain ⟨b, l, j, hb, hj, hl, rfl⟩ := rbr_decompose r c nb p hnb hp
  rw [row_block_reorder_reverse _ r c nb reverse hrev hnb hok b l j hb hj hl,
    rbr_forward_layout x r c nb hnb b l j hb hj hl]

/-- Claim C5 (failing input). With `r = 1`, `c = 2`, `nb = 3` and a buffer starting
`10, 20, 30, 40` (the matrix is its first two entries), forward mode leaves `x[1] = 20`, and
reverse mode then overwrites `x[1]` with `x[3] = 40`: no segment fits in `x`
(`ns_main = 0 < k = 1`), so the reverse loop that deletes the padding starts beyond
`ns_main` and never moves its source pointer to `extra`. -/
theorem rbr_roundtrip_fails :
    row_block_reorder (fun q => 10 * ((q : Int) + 1)) 1 2 3 0 1 = 20 ∧
    row_block_reorder (row_block_reorder (fun q => 10 * ((q : Int) + 1)) 1 2 3 0) 1 2 3 1 1
      = 40 := by
  decide

end ReorderProofs

/-! ## `mgcv_pmmult`: the block products agree with `mgcv_mmult` -/

section PmmultProofs
variable {α : Type}

theorem pmmSplit_spec (q nt : Nat) (hq : 1 ≤ q) (hnt : 1 ≤ nt) :
    1 ≤ (pmmSplit q nt).1 ∧ (pmmSplit q nt).1 ≤ q ∧ 1 ≤ (pmmSplit q nt).2.1 ∧
    (pmmSplit q nt).2.1 = (q + (pmmSplit q nt).1 - 1) / (pmmSplit q nt).1 ∧
    ((pmmSplit q nt).2.1 - 1) * (pmmSplit q nt).1 < q ∧
    q ≤ (pmmSplit q nt).2.1 * (pmmSplit q nt).1 ∧
    (pmmSplit q nt).2.2 = q - ((pmmSplit q nt).2.1 - 1) * (pmmSplit q nt).1 := by
  have hcpt1 : 1 ≤ (pmmSplit q nt).1 := by
    unfold pmmSplit
    simp only
    split
    · exact Nat.le_add_left 1 _
    · rename_i h
      rcases Nat.eq_zero_or_pos (q / nt) with h0 | h0
      · rw [h0, Nat.zero_mul] at h; omega
      · exact h0
  have hcptq : (pmmSplit q nt).1 ≤ q := by
    unfold pmmSplit
    simp only
    have h1 : q / nt ≤ q := Nat.div_le_self q nt
    split
    · rename_i h
      have : q / nt * 1 ≤ q / nt * nt := Nat.mul_le_mul_left _ hnt
      omega
    · exact h1
  set cpt := (pmmSplit q nt).1 with hcpt
  have hnth : (pmmSplit q nt).2.1 = if (q / cpt) * cpt < q then q / cpt + 1 else q / cpt := rfl
  have hcpf : (pmmSplit q nt).2.2 = q - cpt * ((pmmSplit q nt).2.1 - 1) := rfl
  obtain ⟨hs, he⟩ := rbr_blocks q cpt hcpt1
  have hcm : cpt * (q / cpt) = q / cpt * cpt := Nat.mul_comm _ _
  have hle : cpt * (q / cpt) ≤ q := Nat.mul_div_le q cpt
  have hlt : q < (q / cpt + 1) * cpt := by
    rw [Nat.mul_comm]; exact Nat.lt_mul_div_succ q hcpt1
  rw [Nat.succ_mul] at hlt
  have hk : (pmmSplit q nt).2.1 = (q + cpt - 1) / cpt := by
    rw [hnth]
    by_cases h : q / cpt * cpt < q
    · rw [if_pos h, (hs (by omega)).1]
    · rw [if_neg h, (he (by omega)).1]
  have hpos : 0 < q / cpt := Nat.div_pos hcptq hcpt1
  refine ⟨hcpt1, hcptq, ?_, hk, ?_, ?_, ?_⟩
  · rw [hnth]; split <;> omega
  · rw [hnth]
    by_cases h : q / cpt * cpt < q
    · rw [if_pos h, Nat.add_sub_cancel]; exact h
    · rw [if_neg h]
      obtain ⟨t, ht⟩ : ∃ t, q / cpt = t + 1 := ⟨q / cpt - 1, by omega⟩
      rw [ht, Nat.add_sub_cancel]
      have e1 : (t + 1) * cpt = t * cpt + cpt := Nat.succ_mul t cpt
      have e2 : q / cpt * cpt = (t + 1) * cpt := by rw [ht]
      rw [e1] at e2
      omega
  · rw [hnth]
    by_cases h : q / cpt * cpt < q
    · rw [if_pos h, Nat.succ_mul]; omega
    · rw [if_neg h]; omega
  · rw [hcpf, Nat.mul_comm]

/-- The block loop of `mgcv_pmmult`: block `i` writes the `M i` by `N i` matrix stored from
offset `reg i` (up to `reg (i+1)`) and nothing else. -/
theorem pmmBlocks_spec (nth cpt cpf : Nat) (G : Nat → Nat → (Nat → α) → (Nat → α))
    (A : Nat → α) (reg M N : Nat → Nat) (val : Nat → Nat → Nat → α)
    (hh : ∀ i, i < nth → 0 < (if i = nth - 1 then cpf else cpt))
    (hreg : ∀ i, i < nth → reg (i + 1) = reg i + M i * N i)
    (hframe : ∀ i A p, i < nth → (p < reg i ∨ reg (i + 1) ≤ p) →
      G i (if i = nth - 1 then cpf else cpt) A p = A p)
    (hval : ∀ i A a b, i < nth → a < M i → b < N i →
      G i (if i = nth - 1 then cpf else cpt) A (reg i + (a + M i * b)) = val i a b) :
    (∀ i a b, i < nth → a < M i → b < N i →
      pmmBlocks nth cpt cpf G A (reg i + (a + M i * b)) = val i a b) ∧
    (∀ p, (p < reg 0 ∨ reg nth ≤ p) → pmmBlocks nth cpt cpf G A p = A p) := by
  have hmono : ∀ i j, i ≤ j → j ≤ nth → reg i ≤ reg j := by
    intro i j hij
    induction j with
    | zero => intro _; have : i = 0 := by omega
              rw [this]
    | succ j ih =>
      intro hj
      rcases Nat.eq_or_lt_of_le hij with h | h
      · rw [h]
      · have := ih (by omega) (by omega)
        have := hreg j (by omega)
        omega
  have key : ∀ m, m ≤ nth →
      ((m < nth → (forLoop m (fun i (s : (Nat → α) × Nat) =>
          let c1 := if i = nth - 1 then cpf else s.2
          (if c1 > 0 then G i c1 s.1 else s.1, c1)) (A, cpt)).2 = cpt) ∧
      (∀ i a b, i < m → a < M i → b < N i →
        (forLoop m (fun i (s : (Nat → α) × Nat) =>
          let c1 := if i = nth - 1 then cpf else s.2
          (if c1 > 0 then G i c1 s.1 else s.1, c1)) (A, cpt)).1 (reg i + (a + M i * b))
          = val i a b) ∧
      (∀ p, (p < reg 0 ∨ reg m ≤ p) →
        (forLoop m (fun i (s : (Nat → α) × Nat) =>
          let c1 := if i = nth - 1 then cpf else s.2
          (if c1 > 0 then G i c1 s.1 else s.1, c1)) (A, cpt)).1 p = A p)) := by
    intro m
    induction m with
    | zero =>
      intro _
      exact ⟨fun _ => rfl, fun i a b h _ _ => by omega, fun p _ => rfl⟩
    | succ m ih =>
      intro hm
      obtain ⟨h1, h2, h3⟩ := ih (by omega)
      have hc := h1 (by omega)
      rw [forLoop_succ]
      set s := forLoop m (fun i (s : (Nat → α) × Nat) =>
          let c1 := if i = nth - 1 then cpf else s.2
          (if c1 > 0 then G i c1 s.1 else s.1, c1)) (A, cpt) with hs
      have hpos := hh m (by omega)
      simp only [hc, hpos, if_true, gt_iff_lt]
      refine ⟨fun hlt => by rw [if_neg (by omega)], ?_, ?_⟩
      · intro i a b hi ha hb
        by_cases him : i = m
        · rw [him] at ha hb ⊢
          exact hval m s.1 a b (by omega) ha hb
        · have hr1 := hreg i (by omega)
          have hm1 := hmono (i + 1) m (by omega) (by omega)
          have hab : a + M i * b < M i * N i := by
            have e1 : M i * (b + 1) ≤ M i * N i := Nat.mul_le_mul_left _ hb
            have e2 : M i * (b + 1) = M i * b + M i := Nat.mul_succ _ _
            omega
          rw [hframe m s.1 _ (by omega) (Or.inl (by omega)), h2 i a b (by omega) ha hb]
      · intro p hp
        have hr1 := hreg m (by omega)
        have hm0 := hmono 0 m (by omega) (by omega)
        rw [hframe m s.1 p (by omega) (by omega), h3 p (by omega)]
  obtain ⟨-, k2, k3⟩ := key nth le_rfl
  exact ⟨k2, k3⟩


/-- Block starts of a split of `q` rows or columns into `nth` blocks of `cpt` (the last one
of `cpf`): block `t` starts at `t * cpt`, and the blocks tile `0 .. q`. -/
theorem pmmSplit_starts (q cpt nth cpf : Nat) (h1 : 1 ≤ cpt) (h3 : 1 ≤ nth)
    (h5 : (nth - 1) * cpt < q) (h7 : cpf = q - (nth - 1) * cpt) (t : Nat) (ht : t < nth) :
    0 < (if t = nth - 1 then cpf else cpt) ∧
    (if t + 1 < nth then (t + 1) * cpt else q)
      = t * cpt + (if t = nth - 1 then cpf else cpt) := by
  by_cases hl : t = nth - 1
  · rw [if_pos hl, if_neg (by omega), hl]
    omega
  · rw [if_neg hl, if_pos (by omega), Nat.succ_mul]
    omega

/-- Every index below `q` lies in exactly one block of the split. -/
theorem pmmSplit_decomp (q cpt nth cpf : Nat) (h1 : 1 ≤ cpt)
    (h5 : (nth - 1) * cpt < q) (h6 : q ≤ nth * cpt) (h7 : cpf = q - (nth - 1) * cpt)
    (i : Nat) (hi : i < q) :
    i / cpt < nth ∧ i % cpt < (if i / cpt = nth - 1 then cpf else cpt) ∧
    i = i / cpt * cpt + i % cpt := by
  have hdm : cpt * (i / cpt) + i % cpt = i := Nat.div_add_mod i cpt
  have hcm : cpt * (i / cpt) = i / cpt * cpt := Nat.mul_comm _ _
  have hml : i % cpt < cpt := Nat.mod_lt _ h1
  have hb : i / cpt < nth := by
    by_contra hge
    have : nth * cpt ≤ (i / cpt) * cpt := Nat.mul_le_mul_right cpt (by omega)
    omega
  refine ⟨hb, ?_, by omega⟩
  by_cases hl : i / cpt = nth - 1
  · rw [if_pos hl]
    rw [hl] at hdm hcm
    omega
  · rw [if_neg hl]; exact hml


/-- Row-split strategy of `mgcv_pmmult`: if block `t` of the loop writes the `h_t` by `c`
matrix of the rows `t*cpt ..` of the result at offset `t*cpt*c`, then the reverse
`row_block_reorder` leaves entry `(i, j)` of the result at `A[i + r*j]`. -/
theorem pmmRows_spec [Zero α] (r c cpt nth cpf rev : Nat) (hc : 1 ≤ c) (h1 : 1 ≤ cpt)
    (h2 : cpt ≤ r) (h3 : 1 ≤ nth) (h4 : nth = (r + cpt - 1) / cpt)
    (h5 : (nth - 1) * cpt < r) (h6 : r ≤ nth * cpt) (h7 : cpf = r - (nth - 1) * cpt)
    (hrev : rev ≠ 0) (G : Nat → Nat → (Nat → α) → (Nat → α)) (A : Nat → α)
    (val : Nat → Nat → α)
    (hframe : ∀ t A p, t < nth →
      (p < t * cpt * c ∨ t * cpt * c + (if t = nth - 1 then cpf else cpt) * c ≤ p) →
      G t (if t = nth - 1 then cpf else cpt) A p = A p)
    (hval : ∀ t A a b, t < nth → a < (if t = nth - 1 then cpf else cpt) → b < c →
      G t (if t = nth - 1 then cpf else cpt) A
        (t * cpt * c + (a + (if t = nth - 1 then cpf else cpt) * b)) = val (t * cpt + a) b)
    (i j : Nat) (hi : i < r) (hj : j < c) :
    row_block_reorder (pmmBlocks nth cpt cpf G A) r c cpt rev (i + r * j) = val i j := by
  obtain ⟨hb, hl, hij⟩ := pmmSplit_decomp r cpt nth cpf h1 h5 h6 h7 i hi
  have hst := pmmSplit_starts r cpt nth cpf h1 h3 h5 h7
  have hreg : ∀ t, t < nth →
      (if t + 1 < nth then (t + 1) * cpt * c else r * c)
        = (if t < nth then t * cpt * c else r * c)
          + (if t = nth - 1 then cpf else cpt) * c := by
    intro t ht
    have e := (hst t ht).2
    rw [if_pos ht]
    by_cases hl : t + 1 < nth
    · rw [if_pos hl] at e ⊢; rw [e, Nat.add_mul]
    · rw [if_neg hl] at e ⊢; rw [e, Nat.add_mul]
  have hblk := (pmmBlocks_spec nth cpt cpf G A
    (fun t => if t < nth then t * cpt * c else r * c)
    (fun t => if t = nth - 1 then cpf else cpt) (fun _ => c)
    (fun t a b => val (t * cpt + a) b) (fun t ht => (hst t ht).1) hreg
    (fun t A' p ht hp => by
      simp only [hreg t ht, if_pos ht] at hp
      exact hframe t A' p ht hp)
    (fun t A' a b ht ha hb' => by
      simp only [if_pos ht]
      exact hval t A' a b ht ha hb')).1 (i / cpt) (i % cpt) j hb hl hj
  simp only [if_pos hb] at hblk
  have hrc : cpt ≤ r * c := Nat.le_trans h2 (Nat.le_mul_of_pos_right r hc)
  have hh : (if i / cpt < nth - 1 then cpt else r - (nth - 1) * cpt)
      = (if i / cpt = nth - 1 then cpf else cpt) := by
    by_cases hl : i / cpt = nth - 1
    · rw [if_pos hl, if_neg (by omega), h7]
    · rw [if_neg hl, if_pos (by omega)]
  have hrv := row_block_reorder_reverse (pmmBlocks nth cpt cpf G A) r c cpt rev hrev h1
    (Or.inr hrc) (i / cpt) (i % cpt) j (by rw [← h4]; exact hb) hj
    (by rw [← h4, hh]; exact hl)
  rw [← h4, hh, ← hij] at hrv
  rw [← hij] at hblk
  rw [hrv, ← hblk]
  congr 1
  ring

/-- Column-split strategy of `mgcv_pmmult` (`ct` clear): block `t` computes the columns
`t*cpt ..` of the result in place, so after the loop `A[i + r*j]` is entry `(i, j)` of the
product. -/
theorem pmmCols_spec [Semiring α] (A B Cc : Nat → α) (tb : Bool)
    (lda r c n cpt nth cpf : Nat) (h1 : 1 ≤ cpt) (h3 : 1 ≤ nth)
    (h5 : (nth - 1) * cpt < c) (h6 : c ≤ nth * cpt) (h7 : cpf = c - (nth - 1) * cpt)
    (i j : Nat) (hi : i < r) (hj : j < c) :
    pmmBlocks nth cpt cpf (fun t c1 A =>
        dgemm tb false r c1 n 1 B 0 lda Cc (t * n * cpt) n 0 A (t * r * cpt) r) A (i + r * j)
      = ∑ l in Finset.range n,
          (if tb then B (l + lda * i) else B (i + lda * l)) * Cc (l + n * j) := by
  obtain ⟨hb, hl, hij⟩ := pmmSplit_decomp c cpt nth cpf h1 h5 h6 h7 j hj
  have hst := pmmSplit_starts c cpt nth cpf h1 h3 h5 h7
  have hreg : ∀ t, t < nth →
      (if t + 1 < nth then (t + 1) * r * cpt else r * c)
        = (if t < nth then t * r * cpt else r * c)
          + r * (if t = nth - 1 then cpf else cpt) := by
    intro t ht
    have e := (hst t ht).2
    rw [if_pos ht]
    by_cases hl : t + 1 < nth
    · rw [if_pos hl] at e ⊢
      rw [show (t + 1) * r * cpt = r * ((t + 1) * cpt) by ring, e]; ring
    · rw [if_neg hl] at e ⊢
      rw [e]; ring
  have hblk := (pmmBlocks_spec nth cpt cpf (fun t c1 A =>
      dgemm tb false r c1 n 1 B 0 lda Cc (t * n * cpt) n 0 A (t * r * cpt) r) A
    (fun t => if t < nth then t * r * cpt else r * c)
    (fun _ => r) (fun t => if t = nth - 1 then cpf else cpt)
    (fun t a b => ∑ l in Finset.range n,
      (if tb then B (l + lda * a) else B (a + lda * l)) * Cc (l + n * (t * cpt + b)))
    (fun t ht => (hst t ht).1) hreg
    (fun t A' p ht hp => by
      simp only [hreg t ht, if_pos ht] at hp
      exact (dgemm_spec tb false r _ n 1 B 0 lda Cc (t * n * cpt) n 0 A' (t * r * cpt) r
        le_rfl).2 p hp)
    (fun t A' a b ht ha hb' => by
      simp only [if_pos ht]
      rw [(dgemm_spec tb false r _ n 1 B 0 lda Cc (t * n * cpt) n 0 A' (t * r * cpt) r
        le_rfl).1 a b ha hb']
      simp only [one_mul, zero_mul, add_zero, Nat.zero_add, Bool.false_eq_true, if_false]
      refine Finset.sum_congr rfl (fun l _ => ?_)
      congr 2
      ring)).1 (j / cpt) i (j % cpt) hb hi hl
  simp only [if_pos hb] at hblk
  rw [← hij] at hblk
  rw [← hblk]
  congr 1
  conv_lhs => rw [hij]
  ring

/-- Value left by `mgcv_pmmult` on distinct buffers: the naive product, in every branch. -/
theorem pmmult_value [Semiring α] (A B C : Nat → α) (bt ct r c n nt : Nat)
    (openmp : Bool) (hn : 1 ≤ n) (hnt : 1 ≤ nt) (i j : Nat) (hi : i < r) (hj : j < c) :
    (mgcv_pmmult A B (some C) bt ct r c n nt openmp).1 (i + r * j)
      = ∑ k in Finset.range n, (if bt ≠ 0 then B (k + n * i) else B (i + r * k)) *
          (if ct ≠ 0 then C (j + c * k) else C (k + n * j)) := by
  have h0 : ¬ (r = 0 ∨ c = 0 ∨ n = 0) := by omega
  unfold mgcv_pmmult
  rw [if_neg h0]
  simp only [Option.isNone_some, Bool.false_eq_true, false_and, if_false, Option.getD_some]
  by_cases h1 : (if openmp then nt else 1) = 1
  · rw [if_pos h1]
    exact mmult_gemm_value A B C bt ct r c n hn i j hi hj
  · rw [if_neg h1]
    have hnt' : 1 ≤ (if openmp then nt else 1) := by split <;> omega
    generalize (if openmp then nt else 1) = nt' at h1 hnt'
    by_cases hct : ct ≠ 0
    · obtain ⟨s1, s2, s3, s4, s5, s6, s7⟩ := pmmSplit_spec r nt' (by omega) hnt'
      by_cases hbt : bt ≠ 0
      · simp only [hct, hbt, ne_eq, not_false_eq_true, if_true]
        refine pmmRows_spec r c _ _ _ bt (by omega) s1 s2 s3 s4 s5 s6 s7 hbt _ A
          (fun i j => ∑ k in Finset.range n, B (k + n * i) * C (j + c * k)) ?_ ?_ i j hi hj
        · intro t A' p _ hp
          exact (dgemm_spec true true _ c n 1 B _ n C 0 c 0 A' _ _ le_rfl).2 p hp
        · intro t A' a b _ ha hb
          rw [(dgemm_spec true true _ c n 1 B _ n C 0 c 0 A' _ _ le_rfl).1 a b ha hb]
          simp only [one_mul, zero_mul, add_zero, Nat.zero_add, if_true]
          refine Finset.sum_congr rfl (fun l _ => ?_)
          congr 2
          ring
      · have hb0 : bt = 0 := by omega
        simp only [hct, hb0, ne_eq, not_false_eq_true, not_true_eq_false, if_true, if_false]
        refine pmmRows_spec r c _ _ _ ct (by omega) s1 s2 s3 s4 s5 s6 s7 hct _ A
          (fun i j => ∑ k in Finset.range n, B (i + r * k) * C (j + c * k)) ?_ ?_ i j hi hj
        · intro t A' p _ hp
          exact (dgemm_spec false true _ c n 1 _ _ _ C 0 c 0 A' _ _ le_rfl).2 p hp
        · intro t A' a b ht ha hb
          rw [(dgemm_spec false true _ c n 1 _ _ _ C 0 c 0 A' _ _ le_rfl).1 a b ha hb]
          simp only [one_mul, zero_mul, add_zero, Nat.zero_add, if_true, Bool.false_eq_true,
            if_false]
          refine Finset.sum_congr rfl (fun l hl => ?_)
          have hl' : l < n := Finset.mem_range.mp hl
          have hh : (if t < (pmmSplit r nt').2.1 - 1 then (pmmSplit r nt').1
                else r - ((pmmSplit r nt').2.1 - 1) * (pmmSplit r nt').1)
              = (if t = (pmmSplit r nt').2.1 - 1 then (pmmSplit r nt').2.2
                else (pmmSplit r nt').1) := by
            by_cases hl : t = (pmmSplit r nt').2.1 - 1
            · rw [if_pos hl, if_neg (by omega), s7]
            · rw [if_neg hl, if_pos (by omega)]
          have hf := rbr_forward_layout B r n (pmmSplit r nt').1 s1 t a l
            (by rw [← s4]; exact ht) hl' (by rw [← s4, hh]; exact ha)
          rw [← s4, hh] at hf
          rw [← hf]
          congr 2
          ring
    · have hc0 : ct = 0 := by omega
      obtain ⟨s1, s2, s3, s4, s5, s6, s7⟩ := pmmSplit_spec c nt' (by omega) hnt'
      simp only [hc0, ne_eq, not_true_eq_false, if_false]
      rw [pmmCols_spec A B C (decide ¬bt = 0) (if ¬bt = 0 then n else r) r c n _ _ _
        s1 s3 s5 s6 s7 i j hi hj]
      refine Finset.sum_congr rfl (fun l _ => ?_)
      by_cases hbt : bt = 0 <;> simp [hbt]

/-- Claim C7. With multi-core support (`openmp` true), for every thread count `nt ≥ 1`, every
flag pair `(bt, ct)`, all `r, c, n ≥ 1` and distinct buffers `B`, `C`, `mgcv_pmmult` leaves in
every entry `A[i + r*j]`, `i < r`, `j < c`, the value that the serial `mgcv_mmult` leaves
there (exact arithmetic, `dgemm` by its definition); this covers the column split and the two
`ct`-set strategies that form per-block products and call `row_block_reorder`. -/
theorem pmmult_eq_mmult [Semiring α] (A B C : Nat → α) (bt ct r c n nt : Nat)
    (hn : 1 ≤ n) (hnt : 1 ≤ nt) (i j : Nat) (hi : i < r) (hj : j < c) :
    (mgcv_pmmult A B (some C) bt ct r c n nt true).1 (i + r * j)
      = mgcv_mmult A B (some C) bt ct r c n (i + r * j) := by
  rw [pmmult_value A B C bt ct r c n nt true hn hnt i j hi hj,
    mmult_gemm_value A B C bt ct r c n hn i j hi hj]

/-- Witness for C7: the `bt` clear, `ct` set strategy (reorder `B`, block products, reverse
reordering) with `r = 3`, `c = 2`, `n = 2` and two threads, entry (2, 1). -/
theorem pmmult_eq_mmult_witness :
    (1 ≤ 2 ∧ 1 ≤ 2 ∧ 2 < 3 ∧ 1 < 2) ∧
    (mgcv_pmmult (fun _ => (0 : Int)) (fun q => (q : Int) + 1)
        (some (fun q => 2 * (q : Int) + 1)) 0 1 3 2 2 2 true).1 (2 + 3 * 1)
      = mgcv_mmult (fun _ => (0 : Int)) (fun q => (q : Int) + 1)
        (some (fun q => 2 * (q : Int) + 1)) 0 1 3 2 2 (2 + 3 * 1) :=
  ⟨by decide, pmmult_eq_mmult (fun _ => (0 : Int)) (fun q => (q : Int) + 1)
    (fun q => 2 * (q : Int) + 1) 0 1 3 2 2 2 (by decide) (by decide) 2 1 (by decide)
    (by decide)⟩

/-- Claim C36. For every flag combination and all `r`, `c` and `n ≥ 1`, `mgcv_mmult0` returns
with the buffer `C` as it was on entry; in the case `bt`, `ct` set, where the first `c`
entries of `C` are the working storage for each row of `A`, the final swap restores them.
The buffer `B` is only read. -/
theorem mmult0_frame [CommSemiring α] (A B C : Nat → α) (bt ct r c n : Nat) (hn : 1 ≤ n)
    (p : Nat) : (mgcv_mmult0 A B C bt ct r c n).2 p = C p := by
  unfold mgcv_mmult0
  by_cases hbt : bt ≠ 0
  · by_cases hct : ct ≠ 0
    · simp only [hbt, hct, if_true, ne_eq, not_false_eq_true]
      exact (mm0ttRows_spec B r c n hn A C r le_rfl).2.2.2.2 p
    · simp only [hbt, hct, if_true, if_false, ne_eq, not_false_eq_true]
  · by_cases hct : ct ≠ 0
    · simp only [hbt, hct, if_true, if_false, ne_eq, not_false_eq_true]
    · simp only [hbt, hct, if_false, ne_eq]

/-- Witness for C36: the case `bt`, `ct` set with `r = 2`, `c = 2`, `n = 2` over the
integers, entry 1 of `C`. -/
theorem mmult0_frame_witness :
    (1 : Nat) ≤ 2 ∧
    (mgcv_mmult0 (fun _ => (0 : Int)) (fun q => (q : Int) + 1) (fun q => 2 * (q : Int) + 1)
      1 1 2 2 2).2 1 = (fun q => 2 * (q : Int) + 1 : Nat → Int) 1 :=
  ⟨by decide, mmult0_frame (fun _ => (0 : Int)) (fun q => (q : Int) + 1)
    (fun q => 2 * (q : Int) + 1) 1 1 2 2 2 (by decide) 1⟩

/-- Claim C37. For every flag combination, every thread count `nt ≥ 1` and all
`r, c, n ≥ 1`, `mgcv_pmmult` returns with the `r * n` entries of the operand `B` as they
were on entry; in the case `bt` clear, `ct` set, where `B` is re-ordered in place into
blocks of `ceil(r/nt)` rows, the reverse `row_block_reorder` restores it. The buffer `C` is
only read. -/
theorem pmmult_frame [Semiring α] (A B : Nat → α) (C : Option (Nat → α))
    (bt ct r c n nt : Nat) (openmp : Bool) (hr : 1 ≤ r) (hn : 1 ≤ n) (hnt : 1 ≤ nt)
    (p : Nat) (hp : p < r * n) :
    (mgcv_pmmult A B C bt ct r c n nt openmp).2 p = B p := by
  unfold mgcv_pmmult
  by_cases h0 : r = 0 ∨ c = 0 ∨ n = 0
  · rw [if_pos h0]
  rw [if_neg h0]
  by_cases h1 : C.isNone ∧ bt ≠ 0 ∧ ct = 0 ∧ r = c
  · rw [if_pos h1]
  rw [if_neg h1]
  by_cases h2 : C.isNone ∧ ct ≠ 0 ∧ bt = 0 ∧ r = c
  · rw [if_pos h2]
  rw [if_neg h2]
  simp only
  have hnt' : 1 ≤ (if openmp then nt else 1) := by split <;> omega
  generalize (if openmp = true then nt else 1) = nt' at hnt'
  by_cases h3 : nt' = 1
  · rw [if_pos h3]
  rw [if_neg h3]
  by_cases hct : ct ≠ 0
  · rw [if_pos hct]
    by_cases hbt : bt ≠ 0
    · rw [if_pos hbt]
    · rw [if_neg hbt]
      obtain ⟨s1, s2, -⟩ := pmmSplit_spec r nt' hr hnt'
      have hbt0 : bt = 0 := by
        by_contra h; exact hbt h
      show row_block_reorder (row_block_reorder B r n (pmmSplit r nt').1 bt) r n
        (pmmSplit r nt').1 ct p = B p
      rw [hbt0]
      refine row_block_reorder_roundtrip B r n _ ct hct s1 (Or.inr ?_) p hp
      exact le_trans s2 (Nat.le_mul_of_pos_right r (by omega))
  · rw [if_neg hct]

/-- Witness for C37: the case `bt` clear, `ct` set with `r = 3`, `c = 2`, `n = 2` and two
threads over the integers, entry 4 of `B`. -/
theorem pmmult_frame_witness :
    ((1 : Nat) ≤ 3 ∧ (1 : Nat) ≤ 2 ∧ (4 : Nat) < 3 * 2) ∧
    (mgcv_pmmult (fun _ => (0 : Int)) (fun q => (q : Int) + 1)
        (some (fun q => 2 * (q : Int) + 1)) 0 1 3 2 2 2 true).2 4
      = (fun q => (q : Int) + 1 : Nat → Int) 4 :=
  ⟨by decide, pmmult_frame (fun _ => (0 : Int)) (fun q => (q : Int) + 1)
    (some (fun q => 2 * (q : Int) + 1)) 0 1 3 2 2 2 true (by decide) (by decide) (by decide)
    4 (by decide)⟩

end PmmultProofs

/-! ## `mgcv_bchol` -/

section BcholProofs
variable {α : Type}

/-- Claim C10 (failing input). For the 2 by 2 matrix `A = -I`, block size `nb = 1` and one
thread, the rank test fails at column `j = 0` (pivot search gives `xmax = -1`, `q = 0`,
`tol = 2 * (-1) * eps` and `A[0,0] - dots[0] = -1 < tol`), but `mgcv_bchol` returns 1; with
`nb = 2` (`n` not above the block size) the same input returns 0. -/
theorem bchol_first_column_failure :
    bcholPivot (fun p => if p = 0 ∨ p = 3 then (-1 : ℚ) else 0) (fun _ => 0) 2 0 0 = (-1, 0) ∧
    (-1 : ℚ) - 0 < (2 : ℚ) * (-1) * ((1 : ℚ) / 2 ^ 52) ∧
    (mgcv_bchol Rat.sqrt ((1 : ℚ) / 2 ^ 52) (fun _ _ _ => 0)
      (fun p => if p = 0 ∨ p = 3 then -1 else 0) (fun _ => 0) 2 1 1).2.2 = 1 ∧
    (mgcv_bchol Rat.sqrt ((1 : ℚ) / 2 ^ 52) (fun _ _ _ => 0)
      (fun p => if p = 0 ∨ p = 3 then -1 else 0) (fun _ => 0) 2 1 2).2.2 = 0 := by
  decide!

theorem bcholZero_spec [LinearOrderedField α] (n : Nat) (r : Int) (A : Nat → α)
    (m : Nat) (hm : m ≤ n) :
    (∀ i j, j < m → i < n → (i > j ∨ (i : Int) ≥ r) →
      forLoop m (fun j A =>
        let start := j * n + (if (j : Int) < r then j + 1 else r.toNat)
        forLoop (j * n + n - start) (fun t A => store A (start + t) 0) A) A (i + n * j) = 0) ∧
    (∀ p, m * n ≤ p →
      forLoop m (fun j A =>
        let start := j * n + (if (j : Int) < r then j + 1 else r.toNat)
        forLoop (j * n + n - start) (fun t A => store A (start + t) 0) A) A p = A p) := by
  induction m with
  | zero => exact ⟨fun i j h => by omega, fun p _ => rfl⟩
  | succ j ih =>
    obtain ⟨h1, h2⟩ := ih (by omega)
    rw [forLoop_succ]
    set O := forLoop j (fun j A =>
        let start := j * n + (if (j : Int) < r then j + 1 else r.toNat)
        forLoop (j * n + n - start) (fun t A => store A (start + t) 0) A) A with hO
    obtain ⟨g1, g2⟩ := storeLoop_spec
      (j * n + n - (j * n + (if (j : Int) < r then j + 1 else r.toNat)))
      (fun t => j * n + (if (j : Int) < r then j + 1 else r.toNat) + t)
      (fun _ _ => (0 : α)) O (fun a b _ _ h => Nat.add_left_cancel h)
    have e1 : (j + 1) * n = j * n + n := Nat.succ_mul _ _
    refine ⟨?_, ?_⟩
    · intro i j' hj' hi hc
      by_cases hjj : j' = j
      · subst hjj
        have hs : (if (j' : Int) < r then j' + 1 else r.toNat) ≤ i := by
          split
          · omega
          · omega
        have := g1 (i - (if (j' : Int) < r then j' + 1 else r.toNat)) (by omega)
        simp only at this
        rw [show j' * n + (if (j' : Int) < r then j' + 1 else r.toNat)
          + (i - (if (j' : Int) < r then j' + 1 else r.toNat)) = i + n * j' by
            rw [Nat.mul_comm n j']; omega] at this
        exact this
      · have e2 : (j' + 1) * n ≤ j * n := Nat.mul_le_mul_right n (by omega)
        have e3 : (j' + 1) * n = j' * n + n := Nat.succ_mul _ _
        have e4 : n * j' = j' * n := Nat.mul_comm _ _
        rw [g2 _ (fun t _ => by omega)]
        exact h1 i j' (by omega) hi hc
    · intro p hp
      rw [g2 p (fun t ht => by omega), h2 p (by omega)]

/-- Claim C11. For every `n ≥ 1`, `nb ≥ 1` and every input, on return from `mgcv_bchol` with
rank `r`, every entry outside the kept upper triangle is zero: `A[i + n*j] = 0` whenever
`i > j` or `i ≥ r` (`i, j < n`). -/
theorem bchol_zero_outside [LinearOrderedField α] (sqrt : α → α) (eps : α)
    (cut : Nat → Nat → Nat → Nat) (A : Nat → α) (piv : Nat → Nat) (n nt nb : Nat)
    (i j : Nat) (hi : i < n) (hj : j < n)
    (hc : i > j ∨ (i : Int) ≥ (mgcv_bchol sqrt eps cut A piv n nt nb).2.2) :
    (mgcv_bchol sqrt eps cut A piv n nt nb).1 (i + n * j) = 0 := by
  unfold mgcv_bchol at hc ⊢
  simp only at hc ⊢
  exact (bcholZero_spec n _ _ n le_rfl).1 i j hj hi hc

/-- Witness for C11: the 2 by 2 identity matrix, entry (1, 0). -/
theorem bchol_zero_outside_witness :
    (1 < 2 ∧ 0 < 2 ∧ (1 > 0 ∨ ((1 : Nat) : Int) ≥
      (mgcv_bchol Rat.sqrt ((1 : ℚ) / 2 ^ 52) (fun _ _ _ => 0)
        (fun p => if p = 0 ∨ p = 3 then 1 else 0) (fun _ => 0) 2 1 1).2.2)) ∧
    (mgcv_bchol Rat.sqrt ((1 : ℚ) / 2 ^ 52) (fun _ _ _ => 0)
      (fun p => if p = 0 ∨ p = 3 then 1 else 0) (fun _ => 0) 2 1 1).1 (1 + 2 * 0) = 0 :=
  ⟨⟨by decide, by decide, Or.inl (by decide)⟩,
    bchol_zero_outside Rat.sqrt ((1 : ℚ) / 2 ^ 52) (fun _ _ _ => 0)
      (fun p => if p = 0 ∨ p = 3 then 1 else 0) (fun _ => 0) 2 1 1 1 0 (by decide) (by decide)
      (Or.inl (by decide))⟩

end BcholProofs

/-! ## Small kernels: `get_qpr_k`, `Rlanczos` fragments, `getXtX0`, `getXtWX`, `getXtMX` -/

section SmallProofs
variable {α : Type}

/-- Claim C29 (counterexample). For `n = 20`, `m = 2`, `lm = 0` the interval computed by
`Rlanczos` is 2, while `max(10, min(floor(n/10), (m+lm)/2))` is 10. -/
theorem lanczosFCheck_not_max :
    lanczosFCheck 20 2 0 = 2 ∧
    max (10 : Int) (min (Int.tdiv 20 10) (Int.tdiv (2 + 0) 2)) = 10 := by
  decide

/-- Claim C29 (amended). For every `n ≥ 1` and `m, lm ≥ 0` (with `lm` taken as 0 when it is
supplied negative) the check interval computed by `Rlanczos` is
`min(max(10, (m+lm)/2), max(1, floor(n/10)))` with integer division: the bound 10 from below
is applied first and the cap `max(1, n/10)` last, so the interval is below 10 when
`n < 100`. -/
theorem lanczosFCheck_eq (n m lm : Int) (hn : 1 ≤ n) (hm : 0 ≤ m) :
    lanczosFCheck n m lm
      = min (max 10 ((m + (if lm < 0 then 0 else lm)) / 2)) (max 1 (n / 10)) := by
  unfold lanczosFCheck
  have hl : 0 ≤ (if lm < 0 then (0 : Int) else lm) := by split <;> omega
  simp only
  rw [Int.tdiv_eq_ediv (by omega : 0 ≤ m + (if lm < 0 then (0 : Int) else lm)) (by decide),
    Int.tdiv_eq_ediv (by omega : 0 ≤ n) (by decide)]
  generalize (m + (if lm < 0 then (0 : Int) else lm)) / 2 = h
  generalize n / 10 = t
  simp only [min_def, max_def]
  split_ifs <;> omega

/-- Witness for C29: `n = 250`, `m = 30`, largest-magnitude mode. -/
theorem lanczosFCheck_eq_witness :
    ((1 : Int) ≤ 250 ∧ (0 : Int) ≤ 30) ∧
    lanczosFCheck 250 30 (-1)
      = min (max 10 ((30 + (if (-1 : Int) < 0 then 0 else (-1))) / 2)) (max 1 (250 / 10)) :=
  ⟨by decide, lanczosFCheck_eq 250 30 (-1) (by decide) (by decide)⟩

/-- Claim C30 (failing input). With `j = 1`, `m = 1`, `d = [10, -20]`, `err = [1, 3]` and
`max_err = 2`, the largest-magnitude test selects `d[1]` (`pi = 0`, `ni = 1`) and declares
convergence although `err[j - 0] = 3 > max_err`: the lower-end branch tests `err[ni]`
instead of `err[j - ni]`. -/
theorem lanczosSelect_unconverged :
    (lanczosSelect (fun i => if i = 0 then (10 : Int) else -20)
      (fun i => if i = 0 then (1 : Int) else 3) 1 1 2).converged = true ∧
    (lanczosSelect (fun i => if i = 0 then (10 : Int) else -20)
      (fun i => if i = 0 then (1 : Int) else 3) 1 1 2).pi = 0 ∧
    (lanczosSelect (fun i => if i = 0 then (10 : Int) else -20)
      (fun i => if i = 0 then (1 : Int) else 3) 1 1 2).ni = 1 ∧
    ¬ ((fun i => if i = 0 then (1 : Int) else 3) (1 - 0) ≤ 2) := by
  decide

/-- Claim C25. For `nt ≥ 1` the value returned by `get_qpr_k` lies in `1 .. nt`; it is 1
whenever `r ≤ c` (given that the library `sqrt` maps `r/c ≤ 1` to a value at most 1), it is
`nt` whenever `sqrt(r/c) > nt`, and it is 1 without multi-core support. -/
theorem get_qpr_k_range [LinearOrderedField α] [FloorRing α] (sqrt : α → α) (openmp : Bool)
    (r c nt : Nat) (hnt : 1 ≤ nt) (hs : r ≤ c → sqrt ((r : α) / (c : α)) ≤ 1) :
    (1 ≤ get_qpr_k sqrt openmp r c nt ∧ get_qpr_k sqrt openmp r c nt ≤ (nt : Int)) ∧
    (r ≤ c → get_qpr_k sqrt openmp r c nt = 1) ∧
    (sqrt ((r : α) / (c : α)) > (nt : α) → get_qpr_k sqrt true r c nt = (nt : Int)) ∧
    get_qpr_k sqrt false r c nt = 1 := by
  have hnt' : (1 : Int) ≤ (nt : Int) := by exact_mod_cast hnt
  have hntα : (1 : α) ≤ (nt : α) := by exact_mod_cast hnt
  refine ⟨?_, ?_, ?_, ?_⟩
  · unfold get_qpr_k
    cases openmp
    · simp only [Bool.false_eq_true, if_false]
      exact ⟨le_rfl, hnt'⟩
    · simp only [if_true]
      by_cases h1 : sqrt ((r : α) / (c : α)) ≤ 1
      · rw [if_pos h1]; exact ⟨le_rfl, hnt'⟩
      · rw [if_neg h1]
        by_cases h2 : sqrt ((r : α) / (c : α)) > (nt : α)
        · rw [if_pos h2]; exact ⟨hnt', le_rfl⟩
        · rw [if_neg h2]
          have hf1 : (1 : Int) ≤ ⌊sqrt ((r : α) / (c : α))⌋ := by
            rw [Int.le_floor]; push_cast; exact le_of_lt (lt_of_not_ge h1)
          have hc1 : ⌈sqrt ((r : α) / (c : α))⌉ ≤ (nt : Int) := by
            rw [Int.ceil_le]; push_cast; exact le_of_not_gt h2
          have hfc : ⌊sqrt ((r : α) / (c : α))⌋ ≤ ⌈sqrt ((r : α) / (c : α))⌉ :=
            Int.floor_le_ceil _
          split_ifs <;>
            first
              | exact ⟨le_trans hf1 hfc, hc1⟩
              | exact ⟨hf1, le_trans hfc hc1⟩
  · intro hrc
    unfold get_qpr_k
    cases openmp
    · simp
    · simp only [if_true]
      rw [if_pos (hs hrc)]
  · intro h2
    unfold get_qpr_k
    simp only [if_true]
    rw [if_neg (not_le_of_gt (lt_of_le_of_lt hntα h2)), if_pos h2]
  · unfold get_qpr_k
    simp

/-- Witness for C25: `r = 50`, `c = 2`, `nt = 8` over the rationals. -/
theorem get_qpr_k_range_witness :
    (1 ≤ 8 ∧ ((50 : Nat) ≤ 2 → Rat.sqrt (((50 : Nat) : ℚ) / ((2 : Nat) : ℚ)) ≤ 1)) ∧
    ((1 ≤ get_qpr_k Rat.sqrt true 50 2 8 ∧ get_qpr_k Rat.sqrt true 50 2 8 ≤ ((8 : Nat) : Int)) ∧
    ((50 : Nat) ≤ 2 → get_qpr_k Rat.sqrt true 50 2 8 = 1) ∧
    (Rat.sqrt (((50 : Nat) : ℚ) / ((2 : Nat) : ℚ)) > ((8 : Nat) : ℚ) →
      get_qpr_k Rat.sqrt true 50 2 8 = ((8 : Nat) : Int)) ∧
    get_qpr_k Rat.sqrt false 50 2 8 = 1) :=
  ⟨⟨by decide, fun h => absurd h (by decide)⟩,
    get_qpr_k_range Rat.sqrt true 50 2 8 (by decide) (fun h => absurd h (by decide))⟩

/-- Claim C24 (counterexample). For `r = 9`, `c = 4`, `nt = 2` one has
`1 < sqrt(r/c) = 3/2 ≤ nt`, floor 1 and ceiling 2, and the cost `r/k + k*c` is 13 at `k = 1`
and 25/2 at `k = 2`; `get_qpr_k` returns 1, not the value 2 of smaller cost. -/
theorem get_qpr_k_not_argmin :
    Rat.sqrt (((9 : Nat) : ℚ) / ((4 : Nat) : ℚ)) = 3 / 2 ∧
    (9 : ℚ) / 2 + 2 * 4 < (9 : ℚ) / 1 + 1 * 4 ∧
    get_qpr_k Rat.sqrt true 9 4 2 = 1 := by
  decide!


/-- Claim C24 (amended). With multi-core support and `1 < sqrt(r/c) ≤ nt`: when
`floor(sqrt(r/c)) ≥ 2`, `get_qpr_k` returns whichever of the floor and the ceiling gives the
smaller cost `r/k + k*c`, the floor on ties; when the floor is 1 it returns the ceiling only
if the cost of the ceiling is below `r`, the cost taken for a single thread, and 1
otherwise. -/
theorem get_qpr_k_choice [LinearOrderedField α] [FloorRing α] (sqrt : α → α) (r c nt : Nat)
    (h1 : 1 < sqrt ((r : α) / (c : α))) (h2 : sqrt ((r : α) / (c : α)) ≤ (nt : α)) :
    (2 ≤ ⌊sqrt ((r : α) / (c : α))⌋ →
      get_qpr_k sqrt true r c nt
        = if (r : α) / ((⌈sqrt ((r : α) / (c : α))⌉ : Int) : α)
              + ((⌈sqrt ((r : α) / (c : α))⌉ : Int) : α) * (c : α)
            < (r : α) / ((⌊sqrt ((r : α) / (c : α))⌋ : Int) : α)
              + ((⌊sqrt ((r : α) / (c : α))⌋ : Int) : α) * (c : α)
          then ⌈sqrt ((r : α) / (c : α))⌉ else ⌊sqrt ((r : α) / (c : α))⌋) ∧
    (⌊sqrt ((r : α) / (c : α))⌋ = 1 →
      get_qpr_k sqrt true r c nt
        = if (r : α) / ((⌈sqrt ((r : α) / (c : α))⌉ : Int) : α)
              + ((⌈sqrt ((r : α) / (c : α))⌉ : Int) : α) * (c : α) < (r : α)
          then ⌈sqrt ((r : α) / (c : α))⌉ else 1) := by
  constructor
  · intro hf
    have hf' : ((⌊sqrt ((r : α) / (c : α))⌋ : Int) : α) > 1 := by
      have : ((2 : Int) : α) ≤ ((⌊sqrt ((r : α) / (c : α))⌋ : Int) : α) := by
        exact_mod_cast hf
      have h12 : (1 : α) < ((2 : Int) : α) := by norm_num
      exact lt_of_lt_of_le h12 this
    unfold get_qpr_k
    simp only [if_true]
    rw [if_neg (not_le.mpr h1), if_neg (not_lt.mpr h2), if_pos hf']
  · intro hf
    unfold get_qpr_k
    simp only [if_true]
    rw [if_neg (not_le.mpr h1), if_neg (not_lt.mpr h2), hf]
    simp

/-- Witness for C24: `r = 9`, `c = 4`, `nt = 2` over the rationals (`sqrt(r/c) = 3/2`). -/
theorem get_qpr_k_choice_witness :
    ((1 : ℚ) < Rat.sqrt (((9 : Nat) : ℚ) / ((4 : Nat) : ℚ)) ∧
      Rat.sqrt (((9 : Nat) : ℚ) / ((4 : Nat) : ℚ)) ≤ ((2 : Nat) : ℚ)) ∧
    (⌊Rat.sqrt (((9 : Nat) : ℚ) / ((4 : Nat) : ℚ))⌋ = 1 →
      get_qpr_k Rat.sqrt true 9 4 2
        = if (((9 : Nat) : ℚ)) / ((⌈Rat.sqrt (((9 : Nat) : ℚ) / ((4 : Nat) : ℚ))⌉ : Int) : ℚ)
              + ((⌈Rat.sqrt (((9 : Nat) : ℚ) / ((4 : Nat) : ℚ))⌉ : Int) : ℚ) * ((4 : Nat) : ℚ)
              < ((9 : Nat) : ℚ)
          then ⌈Rat.sqrt (((9 : Nat) : ℚ) / ((4 : Nat) : ℚ))⌉ else 1) :=
  ⟨by decide!, (get_qpr_k_choice Rat.sqrt 9 4 2 (by decide!) (by decide!)).2⟩

theorem dotLoop_eq_sum [Semiring α] (r : Nat) (f : Nat → α) :
    dotLoop r f = ∑ k in Finset.range r, f k := by
  unfold dotLoop
  induction r with
  | zero => simp [forLoop]
  | succ k ih => rw [forLoop_succ, ih, Finset.sum_range_succ]

theorem cell_ne (c a b a' b' : Nat) (ha : a < c) (ha' : a' < c) (h : a ≠ a' ∨ b ≠ b') :
    a + b * c ≠ a' + b' * c := by
  intro he
  have h1 := congrArg (· % c) he
  simp only [Nat.add_mul_mod_self_right] at h1
  rw [Nat.mod_eq_of_lt ha, Nat.mod_eq_of_lt ha'] at h1
  subst h1
  have h2 : b * c = b' * c := by omega
  have h3 : b = b' := Nat.eq_of_mul_eq_mul_right (by omega) h2
  rcases h with h | h
  · exact h rfl
  · exact h h3

/-- Loops that write, for `j ≤ i`, the value `v i j` to the two cells `pa i j` and
`pb i j`, where the cells of different pairs `(i, j)` are different: afterwards both cells
hold `v i j`. -/
theorem symStore_gen (pa pb : Nat → Nat → Nat) (v : Nat → Nat → α) (out : Nat → α) (c m : Nat)
    (hm : m ≤ c)
    (hne : ∀ i j i' j', j ≤ i → i < c → j' ≤ i' → i' < c → (i ≠ i' ∨ j ≠ j') →
      pa i j ≠ pa i' j' ∧ pa i j ≠ pb i' j' ∧ pb i j ≠ pa i' j' ∧ pb i j ≠ pb i' j') :
    (∀ i j, j ≤ i → i < m →
      forLoop m (fun i out => forLoop (i + 1) (fun j out =>
        store (store out (pa i j) (v i j)) (pb i j) (v i j)) out) out (pa i j) = v i j ∧
      forLoop m (fun i out => forLoop (i + 1) (fun j out =>
        store (store out (pa i j) (v i j)) (pb i j) (v i j)) out) out (pb i j) = v i j) ∧
    (∀ p, (∀ i j, j ≤ i → i < m → p ≠ pa i j ∧ p ≠ pb i j) →
      forLoop m (fun i out => forLoop (i + 1) (fun j out =>
        store (store out (pa i j) (v i j)) (pb i j) (v i j)) out) out p = out p) := by
  induction m with
  | zero =>
    exact ⟨fun i j _ h => by omega, fun p _ => rfl⟩
  | succ i ih =>
    obtain ⟨h1, h2⟩ := ih (by omega)
    rw [forLoop_succ]
    set O := forLoop i (fun i out => forLoop (i + 1) (fun j out =>
        store (store out (pa i j) (v i j)) (pb i j) (v i j)) out) out with hO
    have inner : ∀ n, n ≤ i + 1 →
        (∀ j, j < n →
          forLoop n (fun j out =>
            store (store out (pa i j) (v i j)) (pb i j) (v i j)) O (pa i j) = v i j ∧
          forLoop n (fun j out =>
            store (store out (pa i j) (v i j)) (pb i j) (v i j)) O (pb i j) = v i j) ∧
        (∀ p, (∀ j, j < n → p ≠ pa i j ∧ p ≠ pb i j) →
          forLoop n (fun j out =>
            store (store out (pa i j) (v i j)) (pb i j) (v i j)) O p = O p) := by
      intro n
      induction n with
      | zero => exact fun _ => ⟨fun j h => by omega, fun p _ => rfl⟩
      | succ n ihn =>
        intro hn
        obtain ⟨g1, g2⟩ := ihn (by omega)
        rw [forLoop_succ]
        set P := forLoop n (fun j out =>
            store (store out (pa i j) (v i j)) (pb i j) (v i j)) O with hP
        refine ⟨?_, ?_⟩
        · intro j hj
          by_cases hjn : j = n
          · subst hjn
            refine ⟨?_, store_same _ _ _⟩
            by_cases hd : pa i j = pb i j
            · rw [hd, store_same]
            · rw [store_ne _ _ _ _ hd, store_same]
          · obtain ⟨b1, b2⟩ := g1 j (by omega)
            obtain ⟨a1, a2, a3, a4⟩ := hne i j i n (by omega) (by omega) (by omega) (by omega)
              (Or.inr hjn)
            rw [store_ne _ _ _ _ a2, store_ne _ _ _ _ a1, store_ne _ _ _ _ a4,
              store_ne _ _ _ _ a3]
            exact ⟨b1, b2⟩
        · intro p hp
          obtain ⟨q1, q2⟩ := hp n (by omega)
          rw [store_ne _ _ _ _ q2, store_ne _ _ _ _ q1, g2 p (fun j hj => hp j (by omega))]
    obtain ⟨g1, g2⟩ := inner (i + 1) le_rfl
    refine ⟨?_, ?_⟩
    · intro i' j hji hi'
      by_cases hii : i' = i
      · subst hii
        exact g1 j (by omega)
      · have hlt : i' < i := by omega
        obtain ⟨b1, b2⟩ := h1 i' j hji hlt
        rw [g2 _ (fun j' hj' => by
            obtain ⟨a1, a2, a3, a4⟩ := hne i' j i j' hji (by omega) (by omega) (by omega)
              (Or.inl hii)
            exact ⟨a1, a2⟩),
          g2 _ (fun j' hj' => by
            obtain ⟨a1, a2, a3, a4⟩ := hne i' j i j' hji (by omega) (by omega) (by omega)
              (Or.inl hii)
            exact ⟨a3, a4⟩)]
        exact ⟨b1, b2⟩
    · intro p hp
      rw [g2 p (fun j hj => hp i j (by omega) (by omega)),
        h2 p (fun i' j hj hi' => hp i' j hj (by omega))]

/-- The two cells `(i, j)` and `(j, i)`, `j ≤ i < c`, of different pairs are different. -/
theorem symCells_ne (c i j i' j' : Nat) (hj : j ≤ i) (hi : i < c) (hj' : j' ≤ i')
    (hi' : i' < c) (h : i ≠ i' ∨ j ≠ j') :
    j + i * c ≠ j' + i' * c ∧ j + i * c ≠ i' + j' * c ∧
    i + j * c ≠ j' + i' * c ∧ i + j * c ≠ i' + j' * c := by
  refine ⟨cell_ne c j i j' i' (by omega) (by omega) (by omega), ?_, ?_,
    cell_ne c i j i' j' hi hi' h⟩
  · by_cases e : j = i' ∧ i = j'
    · omega
    · exact cell_ne c j i i' j' (by omega) hi' (by omega)
  · by_cases e : i = j' ∧ j = i'
    · omega
    · exact cell_ne c i j j' i' hi (by omega) (by omega)

theorem getXtX0_value [CommSemiring α] (XtX X : Nat → α) (r c i j : Nat) (hi : i < c)
    (hj : j < c) :
    getXtX0 XtX X r c (i + c * j) = ∑ k in Finset.range r, X (k + r * i) * X (k + r * j) := by
  obtain ⟨h1, -⟩ := symStore_gen (fun i j => j + i * c) (fun i j => i + j * c)
    (fun i j => dotLoop r (fun k => X (i * r + k) * X (j * r + k))) XtX c c le_rfl
    (fun i j i' j' hj hi hj' hi' h => symCells_ne c i j i' j' hj hi hj' hi' h)
  unfold getXtX0
  rcases Nat.lt_or_ge i j with hij | hij
  · rw [show i + c * j = i + j * c by ring, (h1 j i (by omega) hj).1, dotLoop_eq_sum]
    refine Finset.sum_congr rfl (fun k _ => ?_)
    rw [mul_comm, show i * r + k = k + r * i by ring, show j * r + k = k + r * j by ring]
  · rw [show i + c * j = i + j * c by ring, (h1 i j hij hi).2, dotLoop_eq_sum]
    refine Finset.sum_congr rfl (fun k _ => ?_)
    rw [show i * r + k = k + r * i by ring, show j * r + k = k + r * j by ring]

/-- Claim C26. For an `r` by `c` matrix `X`, `getXtX0` leaves
`XtX[i + c*j] = Σ_{k<r} X[k + r*i] * X[k + r*j]` for all `i, j < c`; the result is symmetric
and equals entry by entry the matrix that `getXtX` forms from the lower-triangle rank-k
update and the copy to the upper triangle. -/
theorem getXtX0_correct [CommSemiring α] (XtX XtX1 X : Nat → α) (r c i j : Nat)
    (hi : i < c) (hj : j < c) :
    getXtX0 XtX X r c (i + c * j) = ∑ k in Finset.range r, X (k + r * i) * X (k + r * j) ∧
    getXtX0 XtX X r c (i + c * j) = getXtX0 XtX X r c (j + c * i) ∧
    getXtX0 XtX X r c (i + c * j) = getXtX XtX1 X r c (i + c * j) := by
  refine ⟨getXtX0_value XtX X r c i j hi hj, ?_, ?_⟩
  · rw [getXtX0_value XtX X r c i j hi hj, getXtX0_value XtX X r c j i hj hi]
    exact Finset.sum_congr rfl (fun k _ => mul_comm _ _)
  · rw [getXtX0_value XtX X r c i j hi hj, getXtX_spec XtX1 X r c i j hi hj]

/-- Witness for C26: a 2 by 2 integer matrix, entry (0, 1). -/
theorem getXtX0_correct_witness :
    (0 < 2 ∧ 1 < 2) ∧
    (getXtX0 (fun _ => (0 : Int)) (fun q => (q : Int) + 1) 2 2 (0 + 2 * 1)
        = ∑ k in Finset.range 2, (fun q => (q : Int) + 1 : Nat → Int) (k + 2 * 0) *
            (fun q => (q : Int) + 1 : Nat → Int) (k + 2 * 1) ∧
    getXtX0 (fun _ => (0 : Int)) (fun q => (q : Int) + 1) 2 2 (0 + 2 * 1)
        = getXtX0 (fun _ => (0 : Int)) (fun q => (q : Int) + 1) 2 2 (1 + 2 * 0) ∧
    getXtX0 (fun _ => (0 : Int)) (fun q => (q : Int) + 1) 2 2 (0 + 2 * 1)
        = getXtX (fun _ => (5 : Int)) (fun q => (q : Int) + 1) 2 2 (0 + 2 * 1)) :=
  ⟨by decide, getXtX0_correct (fun _ => (0 : Int)) (fun _ => (5 : Int))
    (fun q => (q : Int) + 1) 2 2 0 1 (by decide) (by decide)⟩

theorem dotLoop_congr [Semiring α] (r : Nat) (f g : Nat → α) (h : ∀ k, k < r → f k = g k) :
    dotLoop r f = dotLoop r g := by
  rw [dotLoop_eq_sum, dotLoop_eq_sum]
  exact Finset.sum_congr rfl (fun k hk => h k (Finset.mem_range.mp hk))

theorem weightCol_spec [Semiring α] (X w : Nat → α) (r : Nat) (s : XtWXState α) :
    (weightCol X w r s).pX0 = s.pX0 + r ∧ (weightCol X w r s).out = s.out ∧
    (∀ k, k < r → (weightCol X w r s).work k = X (s.pX0 + k) * w k) ∧
    (∀ p, r ≤ p → (weightCol X w r s).work p = s.work p) := by
  unfold weightCol
  induction r with
  | zero => exact ⟨rfl, rfl, fun k h => by omega, fun p _ => rfl⟩
  | succ n ih =>
    obtain ⟨h1, h2, h3, h4⟩ := ih
    rw [forLoop_succ]
    set t := forLoop n (fun k (s : XtWXState α) =>
      ({ s with work := store s.work k (X s.pX0 * w k), pX0 := s.pX0 + 1 } : XtWXState α))
      s with ht
    refine ⟨?_, h2, ?_, ?_⟩
    · show t.pX0 + 1 = s.pX0 + (n + 1)
      rw [h1]; omega
    · intro k hk
      show store t.work n (X t.pX0 * w n) k = _
      by_cases hkn : k = n
      · subst hkn; rw [store_same, h1]
      · rw [store_ne _ _ _ _ hkn, h3 k (by omega)]
    · intro p hp
      show store t.work n (X t.pX0 * w n) p = _
      rw [store_ne _ _ _ _ (by omega), h4 p (by omega)]

/-- A state loop `symRow X r c i (step s)` whose `step` forms the work column `wk i` is the
pure symmetric store loop with `v i j = Σ_k wk i k * X[j*r + k]`. -/
theorem symRowLoop_spec [Semiring α] (X : Nat → α) (r c : Nat)
    (step : XtWXState α → XtWXState α) (wk : Nat → Nat → α) (s0 : XtWXState α)
    (h0 : s0.pX0 = 0)
    (hstep : ∀ i s, s.pX0 = i * r → (step s).pX0 = (i + 1) * r ∧ (step s).out = s.out ∧
      ∀ k, k < r → (step s).work k = wk i k) (m : Nat) :
    (forLoop m (fun i s => symRow X r c i (step s)) s0).pX0 = m * r ∧
    (forLoop m (fun i s => symRow X r c i (step s)) s0).out
      = forLoop m (fun i out => forLoop (i + 1) (fun j out =>
          store (store out (j * c + i) (dotLoop r (fun k => wk i k * X (j * r + k))))
            (i * c + j) (dotLoop r (fun k => wk i k * X (j * r + k)))) out) s0.out := by
  induction m with
  | zero => exact ⟨by simp [forLoop, h0], rfl⟩
  | succ i ih =>
    obtain ⟨h1, h2⟩ := ih
    rw [forLoop_succ, forLoop_succ]
    set t := forLoop i (fun i s => symRow X r c i (step s)) s0 with ht
    obtain ⟨w1, w2, w3⟩ := hstep i t h1
    refine ⟨w1, ?_⟩
    show forLoop (i + 1) (fun j out =>
      let xx := dotLoop r (fun k => (step t).work k * X (j * r + k))
      store (store out (j * c + i) xx) (i * c + j) xx) (step t).out = _
    rw [w2, h2]
    congr 1
    funext j out
    have e : dotLoop r (fun k => (step t).work k * X (j * r + k))
        = dotLoop r (fun k => wk i k * X (j * r + k)) :=
      dotLoop_congr r _ _ (fun k hk => by rw [w3 k hk])
    simp only [e]

theorem symCells_ne_comm (c i j i' j' : Nat) (hj : j ≤ i) (hi : i < c) (hj' : j' ≤ i')
    (hi' : i' < c) (h : i ≠ i' ∨ j ≠ j') :
    j * c + i ≠ j' * c + i' ∧ j * c + i ≠ i' * c + j' ∧
    i * c + j ≠ j' * c + i' ∧ i * c + j ≠ i' * c + j' := by
  obtain ⟨a1, a2, a3, a4⟩ := symCells_ne c i j i' j' hj hi hj' hi' h
  refine ⟨?_, ?_, ?_, ?_⟩ <;> omega

theorem getXtWX0_value [CommSemiring α] (XtWX X w work : Nat → α) (r c i j : Nat)
    (hi : i < c) (hj : j < c) :
    (getXtWX0 XtWX X w work r c).out (i + c * j)
      = ∑ k in Finset.range r, X (k + r * i) * w k * X (k + r * j) := by
  unfold getXtWX0
  rw [(symRowLoop_spec X r c (weightCol X w r) (fun i k => X (i * r + k) * w k)
    { out := XtWX, work := work, pX0 := 0 } rfl
    (fun i s hs => by
      obtain ⟨w1, w2, w3, -⟩ := weightCol_spec X w r s
      exact ⟨by rw [w1, hs, Nat.succ_mul], w2, fun k hk => by rw [w3 k hk, hs]⟩) c).2]
  obtain ⟨h1, -⟩ := symStore_gen (fun i j => j * c + i) (fun i j => i * c + j)
    (fun i j => dotLoop r (fun k => X (i * r + k) * w k * X (j * r + k))) XtWX c c le_rfl
    (fun i j i' j' hj hi hj' hi' h => symCells_ne_comm c i j i' j' hj hi hj' hi' h)
  rcases Nat.lt_or_ge i j with hij | hij
  · rw [show i + c * j = j * c + i by ring, (h1 j i (by omega) hj).2, dotLoop_eq_sum]
    refine Finset.sum_congr rfl (fun k _ => ?_)
    rw [show i * r + k = k + r * i by ring, show j * r + k = k + r * j by ring]
    ring
  · rw [show i + c * j = j * c + i by ring, (h1 i j hij hi).1, dotLoop_eq_sum]
    refine Finset.sum_congr rfl (fun k _ => ?_)
    rw [show i * r + k = k + r * i by ring, show j * r + k = k + r * j by ring]

theorem dgemvT_spec [Semiring α] (M N : Nat) (alpha : α) (A : Nat → α) (lda : Nat)
    (x : Nat → α) (beta : α) (y : Nat → α) :
    (∀ j, j < N → dgemvT M N alpha A lda x beta y j
      = alpha * (∑ l in Finset.range M, A (l + lda * j) * x l) + beta * y j) ∧
    (∀ p, N ≤ p → dgemvT M N alpha A lda x beta y p = y p) := by
  unfold dgemvT
  induction N with
  | zero => exact ⟨fun j h => by omega, fun p _ => rfl⟩
  | succ n ih =>
    obtain ⟨h1, h2⟩ := ih
    rw [forLoop_succ]
    refine ⟨?_, ?_⟩
    · intro j hj
      by_cases hjn : j = n
      · subst hjn; rw [store_same]
      · rw [store_ne _ _ _ _ hjn, h1 j (by omega)]
    · intro p hp
      rw [store_ne _ _ _ _ (by omega), h2 p (by omega)]

/-- Loops `for i < m, for j < i: out[pw i j] = out[pr i j]` where the cells written are
pairwise different and no cell read is ever written. -/
theorem fillLoop_gen (pw pr : Nat → Nat → Nat) (out : Nat → α) (c m : Nat) (hm : m ≤ c)
    (hinj : ∀ i j i' j', j < i → i < c → j' < i' → i' < c → (i ≠ i' ∨ j ≠ j') →
      pw i j ≠ pw i' j')
    (hrd : ∀ i j i' j', j < i → i < c → j' < i' → i' < c → pr i j ≠ pw i' j') :
    (∀ i j, j < i → i < m →
      forLoop m (fun i out => forLoop i (fun j out =>
        store out (pw i j) (out (pr i j))) out) out (pw i j) = out (pr i j)) ∧
    (∀ p, (∀ i j, j < i → i < m → p ≠ pw i j) →
      forLoop m (fun i out => forLoop i (fun j out =>
        store out (pw i j) (out (pr i j))) out) out p = out p) := by
  induction m with
  | zero => exact ⟨fun i j _ h => by omega, fun p _ => rfl⟩
  | succ i ih =>
    obtain ⟨h1, h2⟩ := ih (by omega)
    rw [forLoop_succ]
    set O := forLoop i (fun i out => forLoop i (fun j out =>
        store out (pw i j) (out (pr i j))) out) out with hO
    obtain ⟨g1, g2⟩ := storeReadLoop_spec i (fun j => pw i j) (fun j => pr i j)
      (fun _ x => x) O
      (fun a b ha hb h => by
        by_contra hab
        exact hinj i a i b ha (by omega) hb (by omega) (Or.inr hab) h)
      (fun a b hba ha => hrd i a i b ha (by omega) (by omega) (by omega))
    refine ⟨?_, ?_⟩
    · intro i' j hji hi'
      by_cases hii : i' = i
      · subst hii
        rw [g1 j hji]
        exact h2 _ (fun a b hb ha => hrd i' j a b hji (by omega) hb (by omega))
      · rw [g2 _ (fun b hb => hinj i' j i b hji (by omega) hb (by omega) (Or.inl hii))]
        exact h1 i' j hji (by omega)
    · intro p hp
      rw [g2 p (fun b hb => hp i b hb (by omega)), h2 p (fun a b hb ha => hp a b hb (by omega))]


/-- Invariant of the main loop of `getXtWX` after `m ≤ c` passes: `pX0 = m*r`, the saved
`xx` is entry (0, 0), and row `i ≥ 1` of the lower triangle is stored at `i*c + j`. -/
theorem getXtWX_loop [Semiring α] (XtWX X w work : Nat → α) (r c m : Nat) (hm : m ≤ c) :
    (forLoop m (fun i (sx : XtWXState α × α) =>
      let s1 := weightCol X w r sx.1
      let out1 := dgemvT r (i + 1) 1 X r s1.work 0 s1.out
      if i = 0 then (({ s1 with out := out1 } : XtWXState α), out1 0)
      else (({ s1 with out := forLoop (i + 1) (fun j out =>
        store out (i * c + j) (out j)) out1 } : XtWXState α), sx.2))
      ({ out := XtWX, work := work, pX0 := 0 }, 0)).1.pX0 = m * r ∧
    (1 ≤ m → (forLoop m (fun i (sx : XtWXState α × α) =>
      let s1 := weightCol X w r sx.1
      let out1 := dgemvT r (i + 1) 1 X r s1.work 0 s1.out
      if i = 0 then (({ s1 with out := out1 } : XtWXState α), out1 0)
      else (({ s1 with out := forLoop (i + 1) (fun j out =>
        store out (i * c + j) (out j)) out1 } : XtWXState α), sx.2))
      ({ out := XtWX, work := work, pX0 := 0 }, 0)).2
        = ∑ l in Finset.range r, X (l + r * 0) * (X (0 * r + l) * w l)) ∧
    (∀ i j, 1 ≤ i → i < m → j ≤ i → (forLoop m (fun i (sx : XtWXState α × α) =>
      let s1 := weightCol X w r sx.1
      let out1 := dgemvT r (i + 1) 1 X r s1.work 0 s1.out
      if i = 0 then (({ s1 with out := out1 } : XtWXState α), out1 0)
      else (({ s1 with out := forLoop (i + 1) (fun j out =>
        store out (i * c + j) (out j)) out1 } : XtWXState α), sx.2))
      ({ out := XtWX, work := work, pX0 := 0 }, 0)).1.out (i * c + j)
        = ∑ l in Finset.range r, X (l + r * j) * (X (i * r + l) * w l)) := by
  induction m with
  | zero => exact ⟨by simp [forLoop], fun h => by omega, fun i j h1 h2 => by omega⟩
  | succ m ih =>
    obtain ⟨h1, h2, h3⟩ := ih (by omega)
    rw [forLoop_succ]
    set t := forLoop m (fun i (sx : XtWXState α × α) =>
      let s1 := weightCol X w r sx.1
      let out1 := dgemvT r (i + 1) 1 X r s1.work 0 s1.out
      if i = 0 then (({ s1 with out := out1 } : XtWXState α), out1 0)
      else (({ s1 with out := forLoop (i + 1) (fun j out =>
        store out (i * c + j) (out j)) out1 } : XtWXState α), sx.2))
      ({ out := XtWX, work := work, pX0 := 0 }, 0) with ht
    obtain ⟨w1, w2, w3, -⟩ := weightCol_spec X w r t.1
    obtain ⟨d1, d2⟩ := dgemvT_spec r (m + 1) (1 : α) X r (weightCol X w r t.1).work 0
      (weightCol X w r t.1).out
    have dv : ∀ j, j < m + 1 →
        dgemvT r (m + 1) 1 X r (weightCol X w r t.1).work 0 (weightCol X w r t.1).out j
          = ∑ l in Finset.range r, X (l + r * j) * (X (m * r + l) * w l) := by
      intro j hj
      rw [d1 j hj, one_mul, zero_mul, add_zero]
      refine Finset.sum_congr rfl (fun l hl => ?_)
      rw [w3 l (Finset.mem_range.mp hl), h1]
    by_cases hm0 : m = 0
    · subst hm0
      simp only [if_true]
      refine ⟨?_, fun _ => dv 0 (by omega), fun i j hi1 hi2 => by omega⟩
      show (weightCol X w r t.1).pX0 = (0 + 1) * r
      rw [w1, h1]; omega
    · simp only [if_neg hm0]
      obtain ⟨g1, g2⟩ := storeReadLoop_spec (m + 1) (fun j => m * c + j) (fun j => j)
        (fun _ x => x)
        (dgemvT r (m + 1) 1 X r (weightCol X w r t.1).work 0 (weightCol X w r t.1).out)
        (fun a b _ _ h => Nat.add_left_cancel h)
        (fun a b hba ha => by
          have : c ≤ m * c := Nat.le_mul_of_pos_left c (by omega)
          show a ≠ m * c + b
          omega)
      refine ⟨?_, fun _ => h2 (by omega), ?_⟩
      · show (weightCol X w r t.1).pX0 = (m + 1) * r
        rw [w1, h1, Nat.succ_mul]
      · intro i j hi1 hi2 hj
        show forLoop (m + 1) (fun j out => store out (m * c + j) (out j))
          (dgemvT r (m + 1) 1 X r (weightCol X w r t.1).work 0 (weightCol X w r t.1).out)
          (i * c + j) = _
        by_cases him : i = m
        · subst him
          rw [g1 j (by omega)]
          exact dv j (by omega)
        · have e1 : (i + 1) * c ≤ m * c := Nat.mul_le_mul_right c (by omega)
          have e2 : (i + 1) * c = i * c + c := Nat.succ_mul _ _
          have e3 : c ≤ i * c := Nat.le_mul_of_pos_left c (by omega)
          rw [g2 _ (fun b hb => by show i * c + j ≠ m * c + b; omega), d2 _ (by omega), w2]
          exact h3 i j hi1 (by omega) hj


theorem getXtWX_value [CommSemiring α] (XtWX X w work : Nat → α) (r c a b : Nat)
    (hr : 1 ≤ r) (ha : a < c) (hb : b < c) :
    (getXtWX XtWX X w work r c).out (a + c * b)
      = ∑ k in Finset.range r, X (k + r * a) * w k * X (k + r * b) := by
  obtain ⟨-, h2, h3⟩ := getXtWX_loop XtWX X w work r c c le_rfl
  have hrc : r * c > 0 := Nat.mul_pos (by omega) (by omega)
  unfold getXtWX
  simp only [if_pos hrc]
  set sx := forLoop c (fun i (sx : XtWXState α × α) =>
      let s1 := weightCol X w r sx.1
      let out1 := dgemvT r (i + 1) 1 X r s1.work 0 s1.out
      if i = 0 then (({ s1 with out := out1 } : XtWXState α), out1 0)
      else (({ s1 with out := forLoop (i + 1) (fun j out =>
        store out (i * c + j) (out j)) out1 } : XtWXState α), sx.2))
      ({ out := XtWX, work := work, pX0 := 0 }, 0) with hsx
  obtain ⟨f1, f2⟩ := fillLoop_gen (fun i j => j * c + i) (fun i j => i * c + j)
    (store sx.1.out 0 sx.2) c c le_rfl
    (fun i j i' j' hj hi hj' hi' h => by
      have := cell_ne c i j i' j' hi hi' h
      show j * c + i ≠ j' * c + i'
      omega)
    (fun i j i' j' hj hi hj' hi' => by
      have := cell_ne c j i i' j' (by omega) hi' (by omega)
      show i * c + j ≠ j' * c + i'
      omega)
  have hval : ∀ i j, j ≤ i → i < c →
      store sx.1.out 0 sx.2 (i * c + j)
        = ∑ l in Finset.range r, X (l + r * j) * (X (i * r + l) * w l) := by
    intro i j hj hi
    by_cases hi0 : i = 0
    · subst hi0
      have hj0 : j = 0 := by omega
      subst hj0
      rw [show 0 * c + 0 = 0 by omega, store_same]
      exact h2 (by omega)
    · have e3 : c ≤ i * c := Nat.le_mul_of_pos_left c (by omega)
      rw [store_ne _ _ _ _ (by omega)]
      exact h3 i j (by omega) hi hj
  show forLoop c (fun i out => forLoop i (fun j out =>
    store out (j * c + i) (out (i * c + j))) out) (store sx.1.out 0 sx.2) (a + c * b) = _
  rcases Nat.lt_or_ge b a with hab | hab
  · rw [show a + c * b = b * c + a by ring, f1 a b hab ha, hval a b (by omega) ha]
    refine Finset.sum_congr rfl (fun k _ => ?_)
    rw [show a * r + k = k + r * a by ring]
    ring
  · rw [show a + c * b = b * c + a by ring,
      f2 _ (fun i j hj hi => by
        have := cell_ne c a b i j ha hi (by omega)
        show b * c + a ≠ j * c + i
        omega),
      hval b a hab hb]
    refine Finset.sum_congr rfl (fun k _ => ?_)
    rw [show b * r + k = k + r * b by ring]
    ring

/-- Claim C27. For `r, c ≥ 1`, `getXtWX0` and the BLAS variant `getXtWX` (whose first output
column is the work space of `dgemv`, with entry (0, 0) restored at the end) leave the same
`c` by `c` matrix, with entry `(i, j)` equal to `Σ_{k<r} X[k,i] * w[k] * X[k,j]`, and the
matrix is symmetric. `X` and `w` are only read by both functions. -/
theorem getXtWX_correct [CommSemiring α] (XtWX XtWX1 X w work work1 : Nat → α)
    (r c i j : Nat) (hr : 1 ≤ r) (hi : i < c) (hj : j < c) :
    (getXtWX0 XtWX X w work r c).out (i + c * j)
      = ∑ k in Finset.range r, X (k + r * i) * w k * X (k + r * j) ∧
    (getXtWX XtWX1 X w work1 r c).out (i + c * j)
      = (getXtWX0 XtWX X w work r c).out (i + c * j) ∧
    (getXtWX XtWX1 X w work1 r c).out (i + c * j)
      = (getXtWX XtWX1 X w work1 r c).out (j + c * i) := by
  refine ⟨getXtWX0_value XtWX X w work r c i j hi hj, ?_, ?_⟩
  · rw [getXtWX_value XtWX1 X w work1 r c i j hr hi hj,
      getXtWX0_value XtWX X w work r c i j hi hj]
  · rw [getXtWX_value XtWX1 X w work1 r c i j hr hi hj,
      getXtWX_value XtWX1 X w work1 r c j i hr hj hi]
    refine Finset.sum_congr rfl (fun k _ => ?_)
    ring

/-- Witness for C27: a 2 by 2 integer matrix with weights `w = (2, 3)`, entry (1, 0). -/
theorem getXtWX_correct_witness :
    (1 ≤ 2 ∧ 1 < 2 ∧ 0 < 2) ∧
    ((getXtWX0 (fun _ => (0 : Int)) (fun q => (q : Int) + 1) (fun q => (q : Int) + 2)
        (fun _ => 0) 2 2).out (1 + 2 * 0)
      = ∑ k in Finset.range 2, (fun q => (q : Int) + 1 : Nat → Int) (k + 2 * 1) *
          (fun q => (q : Int) + 2 : Nat → Int) k *
          (fun q => (q : Int) + 1 : Nat → Int) (k + 2 * 0) ∧
    (getXtWX (fun _ => (7 : Int)) (fun q => (q : Int) + 1) (fun q => (q : Int) + 2)
        (fun _ => 0) 2 2).out (1 + 2 * 0)
      = (getXtWX0 (fun _ => (0 : Int)) (fun q => (q : Int) + 1) (fun q => (q : Int) + 2)
        (fun _ => 0) 2 2).out (1 + 2 * 0) ∧
    (getXtWX (fun _ => (7 : Int)) (fun q => (q : Int) + 1) (fun q => (q : Int) + 2)
        (fun _ => 0) 2 2).out (1 + 2 * 0)
      = (getXtWX (fun _ => (7 : Int)) (fun q => (q : Int) + 1) (fun q => (q : Int) + 2)
        (fun _ => 0) 2 2).out (0 + 2 * 1)) :=
  ⟨by decide, getXtWX_correct (fun _ => (0 : Int)) (fun _ => (7 : Int))
    (fun q => (q : Int) + 1) (fun q => (q : Int) + 2) (fun _ => 0) (fun _ => 0) 2 2 1 0
    (by decide) (by decide) (by decide)⟩

theorem mxPasses_spec [Semiring α] (X M : Nat → α) (r n : Nat) (s : XtWXState α) :
    (forLoop n (fun jj s => mxPass X M r jj s) s).pX0 = s.pX0 + n ∧
    (forLoop n (fun jj s => mxPass X M r jj s) s).out = s.out ∧
    (∀ a, a < r → (forLoop n (fun jj s => mxPass X M r jj s) s).work a
        = s.work a + ∑ jj in Finset.range n, X (s.pX0 + jj) * M ((jj + 1) * r + a)) := by
  induction n with
  | zero => exact ⟨rfl, rfl, fun a _ => by simp [forLoop]⟩
  | succ n ih =>
    obtain ⟨h1, h2, h3⟩ := ih
    rw [forLoop_succ]
    set t := forLoop n (fun jj s => mxPass X M r jj s) s with ht
    refine ⟨?_, h2, ?_⟩
    · show t.pX0 + 1 = s.pX0 + (n + 1)
      rw [h1]; omega
    · intro a ha
      show forLoop r (fun a w => store w a (w a + X t.pX0 * M ((n + 1) * r + a))) t.work a = _
      obtain ⟨g1, -⟩ := storeLoop_spec r (fun a => a)
        (fun a x => x + X t.pX0 * M ((n + 1) * r + a)) t.work (fun a b _ _ h => h)
      rw [g1 a ha, h3 a ha, h1, Finset.sum_range_succ, add_assoc]

theorem mxCol_spec [Semiring α] (X M : Nat → α) (r : Nat) (hr : 1 ≤ r) (s : XtWXState α) :
    (mxCol X M r s).pX0 = s.pX0 + r ∧ (mxCol X M r s).out = s.out ∧
    (∀ a, a < r → (mxCol X M r s).work a
      = ∑ b in Finset.range r, X (s.pX0 + b) * M (b * r + a)) := by
  unfold mxCol
  obtain ⟨p1, p2, p3⟩ := mxPasses_spec X M r (r - 1)
    { s with work := forLoop r (fun a w => store w a (X s.pX0 * M a)) s.work,
             pX0 := s.pX0 + 1 }
  obtain ⟨g1, -⟩ := storeLoop_spec r (fun a => a) (fun a _ => X s.pX0 * M a) s.work
    (fun a b _ _ h => h)
  refine ⟨?_, p2, ?_⟩
  · rw [p1]; show s.pX0 + 1 + (r - 1) = s.pX0 + r; omega
  · intro a ha
    rw [p3 a ha]
    show forLoop r (fun a w => store w a (X s.pX0 * M a)) s.work a
      + ∑ jj in Finset.range (r - 1), X (s.pX0 + 1 + jj) * M ((jj + 1) * r + a) = _
    rw [g1 a ha]
    obtain ⟨q, hq⟩ : ∃ q, r = q + 1 := ⟨r - 1, by omega⟩
    rw [hq, Nat.add_sub_cancel, Finset.sum_range_succ' _ q, add_comm]
    congr 1
    · refine Finset.sum_congr rfl (fun jj _ => ?_)
      rw [show s.pX0 + 1 + jj = s.pX0 + (jj + 1) by ring]
    · simp

theorem getXtMX_value [CommSemiring α] (XtMX X M work : Nat → α) (r c i j : Nat)
    (hr : 1 ≤ r) (hi : i < c) (hj : j < c)
    (hsym : ∀ a b, a < r → b < r → M (a + r * b) = M (b + r * a)) :
    (getXtMX XtMX X M work r c).out (i + c * j)
      = ∑ a in Finset.range r, ∑ b in Finset.range r,
          X (a + r * i) * M (a + r * b) * X (b + r * j) := by
  unfold getXtMX
  rw [(symRowLoop_spec X r c (mxCol X M r)
    (fun i k => ∑ b in Finset.range r, X (i * r + b) * M (b * r + k))
    { out := XtMX, work := work, pX0 := 0 } rfl
    (fun i s hs => by
      obtain ⟨w1, w2, w3⟩ := mxCol_spec X M r hr s
      exact ⟨by rw [w1, hs, Nat.succ_mul], w2, fun k hk => by rw [w3 k hk, hs]⟩) c).2]
  obtain ⟨h1, -⟩ := symStore_gen (fun i j => j * c + i) (fun i j => i * c + j)
    (fun i j => dotLoop r (fun k =>
      (∑ b in Finset.range r, X (i * r + b) * M (b * r + k)) * X (j * r + k))) XtMX c c le_rfl
    (fun i j i' j' hj hi hj' hi' h => symCells_ne_comm c i j i' j' hj hi hj' hi' h)
  have key : ∀ i j, dotLoop r (fun k =>
      (∑ b in Finset.range r, X (i * r + b) * M (b * r + k)) * X (j * r + k))
      = ∑ a in Finset.range r, ∑ b in Finset.range r,
          X (a + r * i) * M (a + r * b) * X (b + r * j) := by
    intro i j
    rw [dotLoop_eq_sum]
    simp only [Finset.sum_mul]
    rw [Finset.sum_comm]
    refine Finset.sum_congr rfl (fun a ha => ?_)
    refine Finset.sum_congr rfl (fun b hb => ?_)
    rw [show i * r + a = a + r * i by ring, show j * r + b = b + r * j by ring,
      show a * r + b = b + r * a by ring,
      hsym b a (Finset.mem_range.mp hb) (Finset.mem_range.mp ha)]
  have keyT : (∑ a in Finset.range r, ∑ b in Finset.range r,
        X (a + r * j) * M (a + r * b) * X (b + r * i))
      = ∑ a in Finset.range r, ∑ b in Finset.range r,
        X (a + r * i) * M (a + r * b) * X (b + r * j) := by
    rw [Finset.sum_comm]
    refine Finset.sum_congr rfl (fun a ha => ?_)
    refine Finset.sum_congr rfl (fun b hb => ?_)
    rw [hsym b a (Finset.mem_range.mp hb) (Finset.mem_range.mp ha)]
    ring
  rcases Nat.lt_or_ge i j with hij | hij
  · rw [show i + c * j = j * c + i by ring, (h1 j i (by omega) hj).2, key j i, keyT]
  · rw [show i + c * j = j * c + i by ring, (h1 i j hij hi).1, key i j]

/-- Claim C28. For `r, c ≥ 1`, an `r` by `c` matrix `X` and a symmetric `r` by `r` matrix
`M`, `getXtMX` leaves the `c` by `c` matrix with entry `(i, j)` equal to
`Σ_{a,b<r} X[a,i] * M[a,b] * X[b,j]`, and the output is symmetric. -/
theorem getXtMX_correct [CommSemiring α] (XtMX X M work : Nat → α) (r c i j : Nat)
    (hr : 1 ≤ r) (hi : i < c) (hj : j < c)
    (hsym : ∀ a b, a < r → b < r → M (a + r * b) = M (b + r * a)) :
    (getXtMX XtMX X M work r c).out (i + c * j)
      = ∑ a in Finset.range r, ∑ b in Finset.range r,
          X (a + r * i) * M (a + r * b) * X (b + r * j) ∧
    (getXtMX XtMX X M work r c).out (i + c * j)
      = (getXtMX XtMX X M work r c).out (j + c * i) := by
  refine ⟨getXtMX_value XtMX X M work r c i j hr hi hj hsym, ?_⟩
  rw [getXtMX_value XtMX X M work r c i j hr hi hj hsym,
    getXtMX_value XtMX X M work r c j i hr hj hi hsym, Finset.sum_comm]
  refine Finset.sum_congr rfl (fun a ha => ?_)
  refine Finset.sum_congr rfl (fun b hb => ?_)
  rw [hsym b a (Finset.mem_range.mp hb) (Finset.mem_range.mp ha)]
  ring

/-- Witness for C28: `r = c = 2`, `M = [[1, 2], [2, 3]]`, entry (0, 1). -/
theorem getXtMX_correct_witness :
    (1 ≤ 2 ∧ 0 < 2 ∧ 1 < 2 ∧
      ∀ a b, a < 2 → b < 2 →
        (fun q => (q / 2 + q % 2 : Nat) + (1 : Int) : Nat → Int) (a + 2 * b)
          = (fun q => (q / 2 + q % 2 : Nat) + (1 : Int) : Nat → Int) (b + 2 * a)) ∧
    ((getXtMX (fun _ => (0 : Int)) (fun q => (q : Int) + 1)
        (fun q => (q / 2 + q % 2 : Nat) + (1 : Int)) (fun _ => 0) 2 2).out (0 + 2 * 1)
      = ∑ a in Finset.range 2, ∑ b in Finset.range 2,
          (fun q => (q : Int) + 1 : Nat → Int) (a + 2 * 0) *
          (fun q => (q / 2 + q % 2 : Nat) + (1 : Int) : Nat → Int) (a + 2 * b) *
          (fun q => (q : Int) + 1 : Nat → Int) (b + 2 * 1) ∧
    (getXtMX (fun _ => (0 : Int)) (fun q => (q : Int) + 1)
        (fun q => (q / 2 + q % 2 : Nat) + (1 : Int)) (fun _ => 0) 2 2).out (0 + 2 * 1)
      = (getXtMX (fun _ => (0 : Int)) (fun q => (q : Int) + 1)
        (fun q => (q / 2 + q % 2 : Nat) + (1 : Int)) (fun _ => 0) 2 2).out (1 + 2 * 0)) :=
  ⟨⟨by decide, by decide, by decide, fun a b ha hb => by simp only; omega⟩,
    getXtMX_correct (fun _ => (0 : Int)) (fun q => (q : Int) + 1)
      (fun q => (q / 2 + q % 2 : Nat) + (1 : Int)) (fun _ => 0) 2 2 0 1
      (by decide) (by decide) (by decide) (fun a b ha hb => by simp only; omega)⟩

end SmallProofs

/-! ## Triangular solves, `mgcv_PPt`, `mgcv_pbsi` -/

section TriProofs
variable {α : Type}

theorem forLoop_congr {σ : Type} (n : Nat) (f g : Nat → σ → σ) (s : σ)
    (h : ∀ k, k < n → ∀ t, f k t = g k t) : forLoop n f s = forLoop n g s := by
  induction n with
  | zero => rfl
  | succ k ih =>
    rw [forLoop_succ, forLoop_succ, ih (fun i hi t => h i (by omega) t), h k (by omega)]

/-- Back substitution on one column `j`: after `m` passes the rows `c - m .. c - 1` satisfy
their equations, and only those cells of `C` have changed. -/
theorem backCol_spec [Field α] (R : Nat → α) (r c : Nat) (B C : Nat → α) (j : Nat)
    (hd : ∀ i, i < c → R (i + r * i) ≠ 0) (m : Nat) (hm : m ≤ c) :
    (∀ i, c - m ≤ i → i < c →
      R (i + r * i) * forLoop m (fun ii C =>
          let i := c - 1 - ii
          let x := dotLoop (c - (i + 1)) (fun t =>
            R (i + (i + 1) * r + t * r) * C (j * c + i + 1 + t))
          store C (i + j * c) ((B (i + j * c) - x) / R (i + r * i))) C (i + j * c)
        + dotLoop (c - (i + 1)) (fun t => R (i + (i + 1) * r + t * r) *
            forLoop m (fun ii C =>
              let i := c - 1 - ii
              let x := dotLoop (c - (i + 1)) (fun t =>
                R (i + (i + 1) * r + t * r) * C (j * c + i + 1 + t))
              store C (i + j * c) ((B (i + j * c) - x) / R (i + r * i))) C
              (j * c + i + 1 + t))
        = B (i + j * c)) ∧
    (∀ p, (∀ i, c - m ≤ i → i < c → p ≠ i + j * c) →
      forLoop m (fun ii C =>
          let i := c - 1 - ii
          let x := dotLoop (c - (i + 1)) (fun t =>
            R (i + (i + 1) * r + t * r) * C (j * c + i + 1 + t))
          store C (i + j * c) ((B (i + j * c) - x) / R (i + r * i))) C p = C p) := by
  induction m with
  | zero => exact ⟨fun i h1 h2 => by omega, fun p _ => rfl⟩
  | succ m ih =>
    obtain ⟨h1, h2⟩ := ih (by omega)
    rw [forLoop_succ]
    set O := forLoop m (fun ii C =>
          let i := c - 1 - ii
          let x := dotLoop (c - (i + 1)) (fun t =>
            R (i + (i + 1) * r + t * r) * C (j * c + i + 1 + t))
          store C (i + j * c) ((B (i + j * c) - x) / R (i + r * i))) C with hO
    have e : ∀ (v : α) (i : Nat), c - 1 - m ≤ i →
        dotLoop (c - (i + 1)) (fun t => R (i + (i + 1) * r + t * r) *
          store O (c - 1 - m + j * c) v (j * c + i + 1 + t))
        = dotLoop (c - (i + 1)) (fun t => R (i + (i + 1) * r + t * r) *
          O (j * c + i + 1 + t)) := fun v i hi =>
      dotLoop_congr _ _ _ (fun t _ => by rw [store_ne _ _ _ _ (by omega)])
    refine ⟨?_, ?_⟩
    · intro i hi1 hi2
      rw [e _ i (by omega)]
      by_cases hii : i = c - 1 - m
      · rw [← hii, store_same, mul_div_cancel₀ _ (hd i hi2), sub_add_cancel]
      · rw [store_ne _ _ _ _ (by omega)]
        exact h1 i (by omega) hi2
    · intro p hp
      rw [store_ne _ _ _ _ (hp (c - 1 - m) (by omega) (by omega)),
        h2 p (fun i hi1 hi2 => hp i (by omega) hi2)]


theorem backsolve0_eqs [Field α] (R : Nat → α) (r c : Nat) (B C : Nat → α)
    (hd : ∀ i, i < c → R (i + r * i) ≠ 0) (m : Nat) :
    ∀ i j, i < c → j < m →
      R (i + r * i) * mgcv_backsolve0 R r c B C m (i + j * c)
        + dotLoop (c - (i + 1)) (fun t => R (i + (i + 1) * r + t * r) *
            mgcv_backsolve0 R r c B C m (j * c + i + 1 + t))
        = B (i + j * c) := by
  unfold mgcv_backsolve0
  induction m with
  | zero => intro i j _ h; omega
  | succ m ih =>
    intro i j hi hj
    rw [forLoop_succ]
    set O := forLoop m (fun j C => forLoop c (fun ii C =>
      let i := c - 1 - ii
      let x := dotLoop (c - (i + 1)) (fun t =>
        R (i + (i + 1) * r + t * r) * C (j * c + i + 1 + t))
      store C (i + j * c) ((B (i + j * c) - x) / R (i + r * i))) C) C with hO
    obtain ⟨g1, g2⟩ := backCol_spec R r c B O m hd c le_rfl
    by_cases hjm : j = m
    · subst hjm
      exact g1 i (by omega) hi
    · have e1 : (j + 1) * c ≤ m * c := Nat.mul_le_mul_right c (by omega)
      have e2 : (j + 1) * c = j * c + c := Nat.succ_mul _ _
      rw [g2 _ (fun i' _ hi' => by omega)]
      rw [dotLoop_congr (c - (i + 1)) _
        (fun t => R (i + (i + 1) * r + t * r) * O (j * c + i + 1 + t))
        (fun t ht => by rw [g2 _ (fun i' _ hi' => by omega)])]
      exact ih i j hi (by omega)

/-- Claim C16. For `bc ≥ 1` columns and an `r` by `c` buffer `R` whose leading `c` by `c`
upper triangle `U` has nonzero diagonal, `mgcv_backsolve0` leaves in `C` the solution of
`U·C = B`: `Σ_{i ≤ k < c} R[i + r*k] * C[k + c*j] = B[i + c*j]` for `i < c`, `j < bc`; the
result is the same for any other buffer that agrees with `R` on the cells `i + r*k`,
`i ≤ k < c`. `R` and `B` are only read. -/
theorem backsolve0_correct [Field α] (R : Nat → α) (r c : Nat) (B C : Nat → α) (bc : Nat)
    (hd : ∀ i, i < c → R (i + r * i) ≠ 0) :
    (∀ i j, i < c → j < bc →
      ∑ k in Finset.Ico i c, R (i + r * k) * mgcv_backsolve0 R r c B C bc (k + c * j)
        = B (i + c * j)) ∧
    (∀ R1 : Nat → α, (∀ i k, i ≤ k → k < c → R1 (i + r * k) = R (i + r * k)) →
      mgcv_backsolve0 R1 r c B C bc = mgcv_backsolve0 R r c B C bc) := by
  refine ⟨?_, ?_⟩
  · intro i j hi hj
    have h := backsolve0_eqs R r c B C hd bc i j hi hj
    rw [dotLoop_eq_sum] at h
    rw [Finset.sum_Ico_eq_sum_range]
    obtain ⟨q, hq⟩ : ∃ q, c - i = q + 1 := ⟨c - i - 1, by omega⟩
    rw [hq, Finset.sum_range_succ', show i + c * j = i + j * c by ring, ← h,
      show c - (i + 1) = q by omega, add_comm]
    congr 1
    · rw [Nat.add_zero, show i + c * j = i + j * c by ring]
    · refine Finset.sum_congr rfl (fun t _ => ?_)
      rw [show i + r * (i + (t + 1)) = i + (i + 1) * r + t * r by ring,
        show i + (t + 1) + c * j = j * c + i + 1 + t by ring]
  · intro R1 hR
    unfold mgcv_backsolve0
    refine forLoop_congr bc _ _ C (fun j _ C1 => ?_)
    refine forLoop_congr c _ _ C1 (fun ii hii C2 => ?_)
    have ed : R1 (c - 1 - ii + r * (c - 1 - ii)) = R (c - 1 - ii + r * (c - 1 - ii)) :=
      hR _ _ le_rfl (by omega)
    have es : dotLoop (c - (c - 1 - ii + 1)) (fun t =>
          R1 (c - 1 - ii + (c - 1 - ii + 1) * r + t * r) * C2 (j * c + (c - 1 - ii) + 1 + t))
        = dotLoop (c - (c - 1 - ii + 1)) (fun t =>
          R (c - 1 - ii + (c - 1 - ii + 1) * r + t * r) * C2 (j * c + (c - 1 - ii) + 1 + t)) :=
      dotLoop_congr _ _ _ (fun t ht => by
        rw [show c - 1 - ii + (c - 1 - ii + 1) * r + t * r
          = c - 1 - ii + r * (c - 1 - ii + 1 + t) by ring,
          hR _ _ (by omega) (by omega)])
    simp only [ed, es]

/-- Witness for C16: `r = c = 2`, `bc = 1`, `R = [[1, 3], [·, 4]]` over the rationals. -/
theorem backsolve0_correct_witness :
    (∀ i, i < 2 → (fun q => (q : ℚ) + 1 : Nat → ℚ) (i + 2 * i) ≠ 0) ∧
    ((∀ i j, i < 2 → j < 1 →
      ∑ k in Finset.Ico i 2, (fun q => (q : ℚ) + 1 : Nat → ℚ) (i + 2 * k) *
          mgcv_backsolve0 (fun q => (q : ℚ) + 1) 2 2 (fun q => (q : ℚ) + 3) (fun _ => 0) 1
            (k + 2 * j)
        = (fun q => (q : ℚ) + 3 : Nat → ℚ) (i + 2 * j)) ∧
    (∀ R1 : Nat → ℚ,
      (∀ i k, i ≤ k → k < 2 → R1 (i + 2 * k) = (fun q => (q : ℚ) + 1 : Nat → ℚ) (i + 2 * k)) →
      mgcv_backsolve0 R1 2 2 (fun q => (q : ℚ) + 3) (fun _ => 0) 1
        = mgcv_backsolve0 (fun q => (q : ℚ) + 1) 2 2 (fun q => (q : ℚ) + 3) (fun _ => 0) 1)) :=
  ⟨fun i _ => by simp only; positivity,
    backsolve0_correct (fun q => (q : ℚ) + 1) 2 2 (fun q => (q : ℚ) + 3) (fun _ => 0) 1
      (fun i _ => by simp only; positivity)⟩

/-- Forward substitution on one column `j`: after `m` passes the rows `0 .. m - 1` satisfy
their equations, and only those cells of `C` have changed. -/
theorem fwdCol_spec [Field α] (R : Nat → α) (r c : Nat) (B C : Nat → α) (j : Nat)
    (hd : ∀ i, i < c → R (i + i * r) ≠ 0) (m : Nat) (hm : m ≤ c) :
    (∀ i, i < m →
      dotLoop i (fun k => forLoop m (fun i C =>
          let x := dotLoop i (fun k => C (k + j * c) * R (k + i * r))
          store C (i + j * c) ((B (i + j * c) - x) / R (i + i * r))) C (k + j * c)
            * R (k + i * r))
        + R (i + i * r) * forLoop m (fun i C =>
          let x := dotLoop i (fun k => C (k + j * c) * R (k + i * r))
          store C (i + j * c) ((B (i + j * c) - x) / R (i + i * r))) C (i + j * c)
        = B (i + j * c)) ∧
    (∀ p, (∀ i, i < m → p ≠ i + j * c) →
      forLoop m (fun i C =>
          let x := dotLoop i (fun k => C (k + j * c) * R (k + i * r))
          store C (i + j * c) ((B (i + j * c) - x) / R (i + i * r))) C p = C p) := by
  induction m with
  | zero => exact ⟨fun i h => by omega, fun p _ => rfl⟩
  | succ m ih =>
    obtain ⟨h1, h2⟩ := ih (by omega)
    rw [forLoop_succ]
    set O := forLoop m (fun i C =>
          let x := dotLoop i (fun k => C (k + j * c) * R (k + i * r))
          store C (i + j * c) ((B (i + j * c) - x) / R (i + i * r))) C with hO
    have e : ∀ (v : α) (i : Nat), i ≤ m →
        dotLoop i (fun k => store O (m + j * c) v (k + j * c) * R (k + i * r))
        = dotLoop i (fun k => O (k + j * c) * R (k + i * r)) := fun v i hi =>
      dotLoop_congr _ _ _ (fun t _ => by rw [store_ne _ _ _ _ (by omega)])
    refine ⟨?_, ?_⟩
    · intro i hi
      rw [e _ i (by omega)]
      by_cases hii : i = m
      · rw [hii, store_same, mul_div_cancel₀ _ (hd m (by omega)), add_sub_cancel]
      · rw [store_ne _ _ _ _ (by omega)]
        exact h1 i (by omega)
    · intro p hp
      rw [store_ne _ _ _ _ (hp m (by omega)), h2 p (fun i hi => hp i (by omega))]

theorem forwardsolve0_eqs [Field α] (R : Nat → α) (r c : Nat) (B C : Nat → α)
    (hd : ∀ i, i < c → R (i + i * r) ≠ 0) (m : Nat) :
    ∀ i j, i < c → j < m →
      dotLoop i (fun k => mgcv_forwardsolve0 R r c B C m (k + j * c) * R (k + i * r))
        + R (i + i * r) * mgcv_forwardsolve0 R r c B C m (i + j * c)
        = B (i + j * c) := by
  unfold mgcv_forwardsolve0
  induction m with
  | zero => intro i j _ h; omega
  | succ m ih =>
    intro i j hi hj
    rw [forLoop_succ]
    set O := forLoop m (fun j C => forLoop c (fun i C =>
      let x := dotLoop i (fun k => C (k + j * c) * R (k + i * r))
      store C (i + j * c) ((B (i + j * c) - x) / R (i + i * r))) C) C with hO
    obtain ⟨g1, g2⟩ := fwdCol_spec R r c B O m hd c le_rfl
    by_cases hjm : j = m
    · subst hjm
      exact g1 i hi
    · have e1 : (j + 1) * c ≤ m * c := Nat.mul_le_mul_right c (by omega)
      have e2 : (j + 1) * c = j * c + c := Nat.succ_mul _ _
      rw [g2 (i + j * c) (fun i' hi' => by omega)]
      rw [dotLoop_congr i _ (fun k => O (k + j * c) * R (k + i * r))
        (fun t ht => by rw [g2 _ (fun i' hi' => by omega)])]
      exact ih i j hi (by omega)

/-- Claim C17. For `bc ≥ 1` columns and an `r` by `c` buffer `R` whose leading `c` by `c`
upper triangle `U` has nonzero diagonal, `mgcv_forwardsolve0` leaves in `C` the solution of
`U'·C = B`: `Σ_{k ≤ i} R[k + r*i] * C[k + c*j] = B[i + c*j]` for `i < c`, `j < bc`. -/
theorem forwardsolve0_correct [Field α] (R : Nat → α) (r c : Nat) (B C : Nat → α) (bc : Nat)
    (hd : ∀ i, i < c → R (i + r * i) ≠ 0) (i j : Nat) (hi : i < c) (hj : j < bc) :
    ∑ k in Finset.range (i + 1), R (k + r * i) * mgcv_forwardsolve0 R r c B C bc (k + c * j)
      = B (i + c * j) := by
  have h := forwardsolve0_eqs R r c B C
    (fun i hi => by rw [show i + i * r = i + r * i by ring]; exact hd i hi) bc i j hi hj
  rw [dotLoop_eq_sum] at h
  rw [Finset.sum_range_succ, show i + c * j = i + j * c by ring, ← h,
    show i + r * i = i + i * r by ring]
  congr 1
  refine Finset.sum_congr rfl (fun t _ => ?_)
  rw [show t + r * i = t + i * r by ring, show t + c * j = t + j * c by ring, mul_comm]

/-- Witness for C17: `r = c = 2`, `bc = 1`, `R = [[1, 3], [·, 4]]` over the rationals,
row 1. -/
theorem forwardsolve0_correct_witness :
    ((∀ i, i < 2 → (fun q => (q : ℚ) + 1 : Nat → ℚ) (i + 2 * i) ≠ 0) ∧ 1 < 2 ∧ 0 < 1) ∧
    ∑ k in Finset.range (1 + 1), (fun q => (q : ℚ) + 1 : Nat → ℚ) (k + 2 * 1) *
        mgcv_forwardsolve0 (fun q => (q : ℚ) + 1) 2 2 (fun q => (q : ℚ) + 3) (fun _ => 0) 1
          (k + 2 * 0)
      = (fun q => (q : ℚ) + 3 : Nat → ℚ) (1 + 2 * 0) :=
  ⟨⟨fun i _ => by simp only; positivity, by decide, by decide⟩,
    forwardsolve0_correct (fun q => (q : ℚ) + 1) 2 2 (fun q => (q : ℚ) + 3) (fun _ => 0) 1
      (fun i _ => by simp only; positivity) 1 0 (by decide) (by decide)⟩

end TriProofs

/-! ## `mgcv_PPt` -/

section PPtProofs
variable {α : Type}

theorem forLoop_add {σ : Type} (n k : Nat) (body : Nat → σ → σ) (s : σ) :
    forLoop (n + k) body s = forLoop k (fun t => body (n + t)) (forLoop n body s) := by
  induction k with
  | zero => rfl
  | succ k ih => rw [← Nat.add_assoc, forLoop_succ, forLoop_succ, ih]

/-- Passes that change nothing can be left out at the end of a loop. -/
theorem forLoop_trunc {σ : Type} (n N : Nat) (body : Nat → σ → σ) (s : σ) (hn : n ≤ N)
    (h : ∀ i, n ≤ i → ∀ s, body i s = s) : forLoop N body s = forLoop n body s := by
  induction N with
  | zero => rw [Nat.le_zero.mp hn]
  | succ N ih =>
    by_cases e : n = N + 1
    · rw [e]
    · rw [forLoop_succ, h N (by omega), ih (by omega)]

/-- Block loops over non-decreasing cut points that start at 0 are one loop. -/
theorem blockLoop_eq {σ : Type} (m : Nat) (a : Nat → Nat) (body : Nat → σ → σ) (s : σ)
    (h0 : a 0 = 0) (hmono : ∀ b, b < m → a b ≤ a (b + 1)) :
    blockLoop m a body s = forLoop (a m) body s := by
  unfold blockLoop
  induction m with
  | zero => rw [h0]; rfl
  | succ m ih =>
    rw [forLoop_succ, ih (fun b hb => hmono b (by omega))]
    have e : a (m + 1) = a m + (a (m + 1) - a m) := by have := hmono m (by omega); omega
    conv_rhs => rw [e, forLoop_add]

theorem fixLoop_spec (a1 : Nat → Nat) (m : Nat) :
    forLoop m (fun t a => if a (t + 1) ≤ a t then store a (t + 1) (a t + 1) else a) a1 0
      = a1 0 ∧
    (∀ b, b < m →
      forLoop m (fun t a => if a (t + 1) ≤ a t then store a (t + 1) (a t + 1) else a) a1 b
      < forLoop m (fun t a => if a (t + 1) ≤ a t then store a (t + 1) (a t + 1) else a) a1
          (b + 1)) ∧
    (∀ p, m < p →
      forLoop m (fun t a => if a (t + 1) ≤ a t then store a (t + 1) (a t + 1) else a) a1 p
      = a1 p) ∧
    a1 m ≤ forLoop m (fun t a => if a (t + 1) ≤ a t then store a (t + 1) (a t + 1) else a)
      a1 m := by
  induction m with
  | zero => exact ⟨rfl, fun b h => by omega, fun p _ => rfl, le_rfl⟩
  | succ m ih =>
    obtain ⟨h1, h2, h3, h4⟩ := ih
    rw [forLoop_succ]
    set O := forLoop m (fun t a => if a (t + 1) ≤ a t then store a (t + 1) (a t + 1) else a)
      a1 with hO
    have e := h3 (m + 1) (by omega)
    by_cases c : O (m + 1) ≤ O m
    · simp only [if_pos c]
      refine ⟨?_, ?_, ?_, ?_⟩
      · rw [store_ne _ _ _ _ (by omega)]; exact h1
      · intro b hb
        by_cases hbm : b = m
        · subst hbm
          rw [store_same, store_ne _ _ _ _ (by omega)]
          omega
        · rw [store_ne _ _ _ _ (by omega), store_ne _ _ _ _ (by omega)]
          exact h2 b (by omega)
      · intro p hp
        rw [store_ne _ _ _ _ (by omega)]
        exact h3 p (by omega)
      · rw [store_same]; omega
    · simp only [if_neg c]
      refine ⟨h1, ?_, fun p hp => h3 p (by omega), by omega⟩
      intro b hb
      by_cases hbm : b = m
      · subst hbm; omega
      · exact h2 b (by omega)

/-- The cut points of `pptCuts` start at 0, increase strictly and end at `r` or above. -/
theorem pptCuts_spec (cut : Nat → Nat → Nat → Nat) (r nt : Nat) (a : Nat → Nat)
    (h0 : a 0 = 0) (hr : r ≤ a nt) :
    pptCuts cut r nt a 0 = 0 ∧
    (∀ b, b < nt → pptCuts cut r nt a b < pptCuts cut r nt a (b + 1)) ∧
    r ≤ pptCuts cut r nt a nt := by
  unfold pptCuts
  have e : ∀ i, i < nt - 1 → nt ≠ i + 1 := fun i hi => by omega
  have g2 := (storeLoop_spec (nt - 1) (fun t => t + 1) (fun t _ => cut r nt (t + 1)) a
    (fun i j _ _ h => Nat.add_right_cancel h)).2
  obtain ⟨h1, h2, -, h4⟩ := fixLoop_spec
    (forLoop (nt - 1) (fun t a => store a (t + 1) (cut r nt (t + 1))) a) nt
  refine ⟨?_, h2, ?_⟩
  · rw [h1]
    exact (g2 0 (fun i _ => (Nat.succ_ne_zero i).symm)).trans h0
  · have := g2 nt e
    rw [this] at h4
    exact le_trans hr h4

/-- Block loops of `mgcv_PPt`, whose bodies do nothing for `i ≥ r`, are one loop over the
rows `i < r`. -/
theorem pptBlocks_eq {σ : Type} (cut : Nat → Nat → Nat → Nat) (r nt : Nat) (a : Nat → Nat)
    (h0 : a 0 = 0) (hr : r ≤ a nt) (body : Nat → σ → σ) (s : σ)
    (h : ∀ i, r ≤ i → ∀ s, body i s = s) :
    blockLoop nt (pptCuts cut r nt a) body s = forLoop r body s := by
  obtain ⟨c0, c1, c2⟩ := pptCuts_spec cut r nt a h0 hr
  rw [blockLoop_eq nt _ body s c0 (fun b hb => le_of_lt (c1 b hb)),
    forLoop_trunc r _ body s c2 h]

/-- Loops that write to the cells `pa i j`, `i < m`, `j < cnt i`, values computed from
cells `rd i j` that are never written. -/
theorem dblStoreRead_gen (pa rd : Nat → Nat → Nat) (cnt : Nat → Nat) (f : α → α)
    (C0 : Nat → α) (c m : Nat) (hm : m ≤ c)
    (hne : ∀ i j i' j', i < c → j < cnt i → i' < c → j' < cnt i' → (i ≠ i' ∨ j ≠ j') →
      pa i j ≠ pa i' j')
    (hrd : ∀ i j i' j', i < c → j < cnt i → i' < c → j' < cnt i' → rd i j ≠ pa i' j') :
    (∀ i j, i < m → j < cnt i →
      forLoop m (fun i C => forLoop (cnt i) (fun j C =>
        store C (pa i j) (f (C (rd i j)))) C) C0 (pa i j) = f (C0 (rd i j))) ∧
    (∀ p, (∀ i j, i < m → j < cnt i → p ≠ pa i j) →
      forLoop m (fun i C => forLoop (cnt i) (fun j C =>
        store C (pa i j) (f (C (rd i j)))) C) C0 p = C0 p) := by
  induction m with
  | zero => exact ⟨fun i j h => by omega, fun p _ => rfl⟩
  | succ i ih =>
    obtain ⟨h1, h2⟩ := ih (by omega)
    rw [forLoop_succ]
    set O := forLoop i (fun i C => forLoop (cnt i) (fun j C =>
        store C (pa i j) (f (C (rd i j)))) C) C0 with hO
    obtain ⟨g1, g2⟩ := storeReadLoop_spec (cnt i) (fun j => pa i j) (fun j => rd i j)
      (fun _ x => f x) O
      (fun j j' hj hj' h => by
        by_contra hc
        exact hne i j i j' (by omega) hj (by omega) hj' (Or.inr hc) h)
      (fun j j' _ hj => hrd i j i j' (by omega) hj (by omega) (by omega))
    refine ⟨?_, ?_⟩
    · intro i' j hi' hj
      by_cases hii : i' = i
      · subst hii
        rw [g1 j hj, h2 _ (fun a b ha hb => hrd i' j a b (by omega) hj (by omega) hb)]
      · rw [g2 _ (fun j' hj' => hne i' j i j' (by omega) hj (by omega) hj' (Or.inl hii))]
        exact h1 i' j (by omega) hj
    · intro p hp
      rw [g2 p (fun j hj => hp i j (by omega) hj), h2 p (fun a b ha hb => hp a b (by omega) hb)]

/-- Loops that write, for `i < m` and `j < cnt i`, the value `v i j` to the two cells
`pa i j` and `pb i j`, where the cells of different pairs `(i, j)` are different. -/
theorem pairStore_gen (pa pb : Nat → Nat → Nat) (cnt : Nat → Nat) (v : Nat → Nat → α)
    (out : Nat → α) (c m : Nat) (hm : m ≤ c)
    (hne : ∀ i j i' j', i < c → j < cnt i → i' < c → j' < cnt i' → (i ≠ i' ∨ j ≠ j') →
      pa i j ≠ pa i' j' ∧ pa i j ≠ pb i' j' ∧ pb i j ≠ pa i' j' ∧ pb i j ≠ pb i' j') :
    (∀ i j, i < m → j < cnt i →
      forLoop m (fun i out => forLoop (cnt i) (fun j out =>
        store (store out (pa i j) (v i j)) (pb i j) (v i j)) out) out (pa i j) = v i j ∧
      forLoop m (fun i out => forLoop (cnt i) (fun j out =>
        store (store out (pa i j) (v i j)) (pb i j) (v i j)) out) out (pb i j) = v i j) ∧
    (∀ p, (∀ i j, i < m → j < cnt i → p ≠ pa i j ∧ p ≠ pb i j) →
      forLoop m (fun i out => forLoop (cnt i) (fun j out =>
        store (store out (pa i j) (v i j)) (pb i j) (v i j)) out) out p = out p) := by
  induction m with
  | zero =>
    exact ⟨fun i j h => by omega, fun p _ => rfl⟩
  | succ i ih =>
    obtain ⟨h1, h2⟩ := ih (by omega)
    rw [forLoop_succ]
    set O := forLoop i (fun i out => forLoop (cnt i) (fun j out =>
        store (store out (pa i j) (v i j)) (pb i j) (v i j)) out) out with hO
    have inner : ∀ n, n ≤ cnt i →
        (∀ j, j < n →
          forLoop n (fun j out =>
            store (store out (pa i j) (v i j)) (pb i j) (v i j)) O (pa i j) = v i j ∧
          forLoop n (fun j out =>
            store (store out (pa i j) (v i j)) (pb i j) (v i j)) O (pb i j) = v i j) ∧
        (∀ p, (∀ j, j < n → p ≠ pa i j ∧ p ≠ pb i j) →
          forLoop n (fun j out =>
            store (store out (pa i j) (v i j)) (pb i j) (v i j)) O p = O p) := by
      intro n
      induction n with
      | zero => exact fun _ => ⟨fun j h => by omega, fun p _ => rfl⟩
      | succ n ihn =>
        intro hn
        obtain ⟨g1, g2⟩ := ihn (by omega)
        rw [forLoop_succ]
        set P := forLoop n (fun j out =>
            store (store out (pa i j) (v i j)) (pb i j) (v i j)) O with hP
        refine ⟨?_, ?_⟩
        · intro j hj
          by_cases hjn : j = n
          · subst hjn
            refine ⟨?_, store_same _ _ _⟩
            by_cases hd : pa i j = pb i j
            · rw [hd, store_same]
            · rw [store_ne _ _ _ _ hd, store_same]
          · obtain ⟨b1, b2⟩ := g1 j (by omega)
            obtain ⟨a1, a2, a3, a4⟩ := hne i j i n (by omega) (by omega) (by omega) (by omega)
              (Or.inr hjn)
            rw [store_ne _ _ _ _ a2, store_ne _ _ _ _ a1, store_ne _ _ _ _ a4,
              store_ne _ _ _ _ a3]
            exact ⟨b1, b2⟩
        · intro p hp
          obtain ⟨q1, q2⟩ := hp n (by omega)
          rw [store_ne _ _ _ _ q2, store_ne _ _ _ _ q1, g2 p (fun j hj => hp j (by omega))]
    obtain ⟨g1, g2⟩ := inner (cnt i) le_rfl
    refine ⟨?_, ?_⟩
    · intro i' j hi' hji
      by_cases hii : i' = i
      · subst hii
        exact g1 j hji
      · have hlt : i' < i := by omega
        obtain ⟨b1, b2⟩ := h1 i' j hlt hji
        rw [g2 _ (fun j' hj' => by
            obtain ⟨a1, a2, a3, a4⟩ := hne i' j i j' (by omega) hji (by omega) hj'
              (Or.inl hii)
            exact ⟨a1, a2⟩),
          g2 _ (fun j' hj' => by
            obtain ⟨a1, a2, a3, a4⟩ := hne i' j i j' (by omega) hji (by omega) hj'
              (Or.inl hii)
            exact ⟨a3, a4⟩)]
        exact ⟨b1, b2⟩
    · intro p hp
      rw [g2 p (fun j hj => hp i j (by omega) hj),
        h2 p (fun i' j hi' hj => hp i' j (by omega) hj)]

/-- A cell strictly below the diagonal is no cell on or above it, and the cells below the
diagonal are pairwise different (`i` is the column, `i + 1 + j` the row). -/
theorem lowCell_ne (r i j i' j' : Nat) (hj : j < r - i - 1) (hj' : j' < r - i' - 1)
    (h : i ≠ i' ∨ j ≠ j') : i * r + i + 1 + j ≠ i' * r + i' + 1 + j' := by
  have := cell_ne r (i + 1 + j) i (i' + 1 + j') i' (by omega) (by omega) (by omega)
  omega

theorem lowCell_ne_up (r i j a b : Nat) (hj : j < r - i - 1) (hab : a ≤ b) (hb : b < r) :
    a + b * r ≠ i * r + i + 1 + j := by
  have := cell_ne r a b (i + 1 + j) i (by omega) (by omega) (by omega)
  omega

/-- First pass of `mgcv_PPt`: the strict lower triangle receives the transpose of the
strict upper triangle, everything else is unchanged. -/
theorem pptCopy_spec (R : Nat → α) (r : Nat) :
    (∀ i j, i < j → j < r → forLoop r (pptCopy r) R (j + i * r) = R (i + j * r)) ∧
    (∀ i j, i ≤ j → j < r → forLoop r (pptCopy r) R (i + j * r) = R (i + j * r)) := by
  obtain ⟨h1, h2⟩ := dblStoreRead_gen (fun i t => i * r + i + 1 + t)
    (fun i t => i * r + i + r + t * r) (fun i => r - i - 1) (fun x => x) R r r le_rfl
    (fun i j i' j' _ hj _ hj' h => lowCell_ne r i j i' j' hj hj' h)
    (fun i j i' j' _ hj _ hj' => by
      have hj : j < r - i - 1 := hj
      have hj' : j' < r - i' - 1 := hj'
      have := lowCell_ne_up r i' j' i (i + 1 + j) hj' (by omega) (by omega)
      have e : (i + 1 + j) * r = i * r + r + j * r := by ring
      show i * r + i + r + j * r ≠ i' * r + i' + 1 + j'
      omega)
  refine ⟨?_, ?_⟩
  · intro i j hij hj
    have := h1 i (j - i - 1) (by omega) (by omega)
    have e1 : i * r + i + 1 + (j - i - 1) = j + i * r := by omega
    have e2 : i * r + i + r + (j - i - 1) * r = i + j * r := by
      have : j = i + 1 + (j - i - 1) := by omega
      conv_rhs => rw [this]
      ring
    rw [e1, e2] at this
    exact this
  · intro i j hij hj
    exact h2 _ (fun a b _ hb => lowCell_ne_up r a b i j hb hij hj)

/-- Last pass of `mgcv_PPt`: the strict lower triangle is set to zero, everything else is
unchanged. -/
theorem pptWipe_spec [Semiring α] (R : Nat → α) (r : Nat) :
    (∀ i j, i < j → j < r → forLoop r (pptWipe r) R (j + i * r) = 0) ∧
    (∀ i j, i ≤ j → j < r → forLoop r (pptWipe r) R (i + j * r) = R (i + j * r)) := by
  obtain ⟨h1, h2⟩ := dblStoreRead_gen (fun i t => i * r + i + 1 + t)
    (fun _ _ => r * r) (fun i => r - i - 1) (fun _ => (0 : α)) R r r le_rfl
    (fun i j i' j' _ hj _ hj' h => lowCell_ne r i j i' j' hj hj' h)
    (fun i j i' j' _ hj hi' hj' => by
      have hj' : j' < r - i' - 1 := hj'
      show r * r ≠ i' * r + i' + 1 + j'
      have e1 : (i' + 1) * r ≤ r * r := by
        rw [Nat.mul_comm r r]; exact Nat.mul_le_mul_right r (by omega)
      have e2 : (i' + 1) * r = i' * r + r := Nat.succ_mul _ _
      omega)
  refine ⟨?_, ?_⟩
  · intro i j hij hj
    have := h1 i (j - i - 1) (by omega) (by omega)
    have e1 : i * r + i + 1 + (j - i - 1) = j + i * r := by omega
    rw [e1] at this
    exact this
  · intro i j hij hj
    exact h2 _ (fun a b _ hb => lowCell_ne_up r a b i j hb hij hj)

theorem pptCopy_skip (r i : Nat) (R : Nat → α) (h : r ≤ i) : pptCopy r i R = R := by
  unfold pptCopy
  rw [show r - i - 1 = 0 by omega]
  rfl

theorem pptWipe_skip [Semiring α] (r i : Nat) (R : Nat → α) (h : r ≤ i) :
    pptWipe r i R = R := by
  unfold pptWipe
  rw [show r - i - 1 = 0 by omega]
  rfl

theorem pptProd_skip [Semiring α] (R : Nat → α) (r i : Nat) (A : Nat → α) (h : r ≤ i) :
    pptProd R r i A = A := by
  unfold pptProd
  rw [show r - i = 0 by omega]
  rfl

/-- The three block loops of `mgcv_PPt` are plain loops over the rows `i < r`, whatever
the cut points and the thread count. -/
theorem PPt_eq [Semiring α] (cut2 cut3 : Nat → Nat → Nat → Nat) (A R : Nat → α) (r : Nat)
    (nt : Int) :
    mgcv_PPt cut2 cut3 A R r nt
      = (forLoop r (pptProd (forLoop r (pptCopy r) R) r) A,
         forLoop r (pptWipe r) (forLoop r (pptCopy r) R)) := by
  unfold mgcv_PPt
  simp only
  have hm : (if (if nt < 1 then 1 else nt.toNat) > r then r
      else (if nt < 1 then 1 else nt.toNat)) = 0 → r = 0 := by
    intro h
    split_ifs at h <;> omega
  generalize (if (if nt < 1 then 1 else nt.toNat) > r then r
    else (if nt < 1 then 1 else nt.toNat)) = m at hm
  have a0 : store (store (fun _ => 0) 0 0) m r 0 = 0 := by
    by_cases h : 0 = m
    · subst h
      rw [store_same]
      exact hm rfl
    · rw [store_ne _ _ _ _ h, store_same]
  have a1 : r ≤ store (store (fun _ => 0) 0 0) m r m := by rw [store_same]
  obtain ⟨b0, -, b1⟩ := pptCuts_spec cut2 r m _ a0 a1
  obtain ⟨c0, -, c1⟩ := pptCuts_spec cut3 r m _ b0 b1
  rw [pptBlocks_eq cut2 r m _ a0 a1 (pptCopy r) R (fun i hi s => pptCopy_skip r i s hi),
    pptBlocks_eq cut3 r m _ b0 b1 _ A (fun i hi s => pptProd_skip _ r i s hi),
    pptBlocks_eq cut2 r m _ c0 c1 (pptWipe r) _ (fun i hi s => pptWipe_skip r i s hi)]

/-- Second pass of `mgcv_PPt`: for `a ≤ b < r` the cells `(a, b)` and `(b, a)` of `A`
receive the inner product of the columns `a` and `b` of `R1` from row `b` on. -/
theorem pptProd_spec [Semiring α] (R1 A : Nat → α) (r a b : Nat) (hab : a ≤ b) (hb : b < r) :
    forLoop r (pptProd R1 r) A (b + a * r)
      = dotLoop (r - b) (fun t => R1 (b + t + b * r) * R1 (b + t + a * r)) ∧
    forLoop r (pptProd R1 r) A (a + b * r)
      = dotLoop (r - b) (fun t => R1 (b + t + b * r) * R1 (b + t + a * r)) := by
  obtain ⟨h1, -⟩ := pairStore_gen (fun i jj => i * r + i + jj) (fun i jj => i * r + i + jj * r)
    (fun i => r - i)
    (fun i jj => dotLoop ((i + 1) * r - (i * r + i + jj))
      (fun t => R1 (i * r + i + jj * (r + 1) + t) * R1 (i * r + i + jj + t))) A r r le_rfl
    (fun i j i' j' hi hj hi' hj' h => by
      have hj : j < r - i := hj
      have hj' : j' < r - i' := hj'
      obtain ⟨q1, q2, q3, q4⟩ := symCells_ne r (i + j) i (i' + j') i' (by omega) (by omega)
        (by omega) (by omega) (by omega)
      have e1 : (i + j) * r = i * r + j * r := Nat.add_mul _ _ _
      have e2 : (i' + j') * r = i' * r + j' * r := Nat.add_mul _ _ _
      refine ⟨?_, ?_, ?_, ?_⟩
      · show i * r + i + j ≠ i' * r + i' + j'
        omega
      · show i * r + i + j ≠ i' * r + i' + j' * r
        omega
      · show i * r + i + j * r ≠ i' * r + i' + j'
        omega
      · show i * r + i + j * r ≠ i' * r + i' + j' * r
        omega)
  obtain ⟨g1, g2⟩ := h1 a (b - a) (by omega) (by show b - a < r - a; omega)
  have e1 : a * r + a + (b - a) = b + a * r := by omega
  have e2 : a * r + a + (b - a) * r = a + b * r := by
    have : b = a + (b - a) := by omega
    conv_rhs => rw [this]
    ring
  have e0 : (a + 1) * r = a * r + r := by ring
  have e3 : (a + 1) * r - (a * r + a + (b - a)) = r - b := by omega
  have e3' : (a + 1) * r - (b + a * r) = r - b := by omega
  have e5' : ∀ t, b + a * r + t = b + t + a * r := by intro t; omega
  have e4 : ∀ t, a * r + a + (b - a) * (r + 1) + t = b + t + b * r := by
    intro t
    have : b = a + (b - a) := by omega
    conv_rhs => rw [this]
    ring
  have e5 : ∀ t, a * r + a + (b - a) + t = b + t + a * r := by intro t; omega
  simp only [e1, e2, e3, e3', e4, e5, e5'] at g1 g2
  exact ⟨g1, g2⟩

/-- The product pass on the transposed buffer, in terms of the input `R`. -/
theorem PPt_value [CommSemiring α] (cut2 cut3 : Nat → Nat → Nat → Nat) (A R : Nat → α)
    (r : Nat) (nt : Int) (a b : Nat) (hab : a ≤ b) (hb : b < r) :
    (mgcv_PPt cut2 cut3 A R r nt).1 (b + r * a)
      = ∑ k in Finset.Ico b r, R (a + r * k) * R (b + r * k) ∧
    (mgcv_PPt cut2 cut3 A R r nt).1 (a + r * b)
      = ∑ k in Finset.Ico b r, R (a + r * k) * R (b + r * k) := by
  rw [PPt_eq]
  obtain ⟨g1, g2⟩ := pptProd_spec (forLoop r (pptCopy r) R) A r a b hab hb
  obtain ⟨c1, c2⟩ := pptCopy_spec R r
  have key : dotLoop (r - b) (fun t => forLoop r (pptCopy r) R (b + t + b * r) *
        forLoop r (pptCopy r) R (b + t + a * r))
      = ∑ k in Finset.Ico b r, R (a + r * k) * R (b + r * k) := by
    rw [dotLoop_eq_sum, Finset.sum_Ico_eq_sum_range]
    refine Finset.sum_congr rfl (fun t ht => ?_)
    have ht : t < r - b := Finset.mem_range.mp ht
    have f1 : forLoop r (pptCopy r) R (b + t + b * r) = R (b + r * (b + t)) := by
      by_cases h0 : t = 0
      · subst h0
        rw [Nat.add_zero, c2 b b le_rfl hb]
        congr 1
        ring
      · rw [c1 b (b + t) (by omega) (by omega)]
        congr 1
        ring
    have f2 : forLoop r (pptCopy r) R (b + t + a * r) = R (a + r * (b + t)) := by
      by_cases h0 : a = b + t
      · rw [← h0, c2 a a le_rfl (by omega)]
        congr 1
        ring
      · rw [c1 a (b + t) (by omega) (by omega)]
        congr 1
        ring
    rw [f1, f2, mul_comm]
  simp only [show b + r * a = b + a * r by ring, show a + r * b = a + b * r by ring]
  exact ⟨g1.trans key, g2.trans key⟩

/-- Claim C14. For every `r`, every thread count `nt` and every cut points, `mgcv_PPt`
leaves `A[i,j] = A[j,i] = Σ_{max(i,j) ≤ k < r} U[i,k]*U[j,k]` for all `i, j < r`, where
`U[i,k] = R[i + r*k]`, `i ≤ k`, is the upper triangle of the input `R`. -/
theorem PPt_correct [CommSemiring α] (cut2 cut3 : Nat → Nat → Nat → Nat) (A R : Nat → α)
    (r : Nat) (nt : Int) (i j : Nat) (hi : i < r) (hj : j < r) :
    (mgcv_PPt cut2 cut3 A R r nt).1 (i + r * j)
      = ∑ k in Finset.Ico (max i j) r, R (i + r * k) * R (j + r * k) ∧
    (mgcv_PPt cut2 cut3 A R r nt).1 (i + r * j)
      = (mgcv_PPt cut2 cut3 A R r nt).1 (j + r * i) := by
  rcases Nat.le_total i j with h | h
  · obtain ⟨g1, g2⟩ := PPt_value cut2 cut3 A R r nt i j h hj
    rw [max_eq_right h, g1, g2]
    exact ⟨rfl, rfl⟩
  · obtain ⟨g1, g2⟩ := PPt_value cut2 cut3 A R r nt j i h hi
    rw [max_eq_left h, g1, g2]
    exact ⟨Finset.sum_congr rfl (fun k _ => mul_comm _ _), rfl⟩

/-- Witness for C14: `r = 2`, entry `(0, 1)`, two threads, over the integers. -/
theorem PPt_correct_witness :
    (0 < 2 ∧ 1 < 2) ∧
    (mgcv_PPt (fun _ _ _ => 0) (fun _ _ _ => 0) (fun _ => 0) (fun q => (q : Int) + 1) 2 2).1
        (0 + 2 * 1)
      = ∑ k in Finset.Ico (max 0 1) 2,
          (fun q => (q : Int) + 1 : Nat → Int) (0 + 2 * k) *
          (fun q => (q : Int) + 1 : Nat → Int) (1 + 2 * k) :=
  ⟨by decide, (PPt_correct (fun _ _ _ => 0) (fun _ _ _ => 0) (fun _ => 0)
    (fun q => (q : Int) + 1) 2 2 0 1 (by decide) (by decide)).1⟩

/-- Claim C15. On return from `mgcv_PPt` the buffer `R` has its upper triangle, diagonal
included, as on entry and zero in every cell strictly below the diagonal, for every `r`,
every thread count and every cut points. -/
theorem PPt_restores_R [Semiring α] (cut2 cut3 : Nat → Nat → Nat → Nat) (A R : Nat → α)
    (r : Nat) (nt : Int) (i j : Nat) (hi : i < r) (hj : j < r) :
    (mgcv_PPt cut2 cut3 A R r nt).2 (i + r * j) = if i ≤ j then R (i + r * j) else 0 := by
  rw [PPt_eq]
  obtain ⟨w1, w2⟩ := pptWipe_spec (forLoop r (pptCopy r) R) r
  obtain ⟨c1, c2⟩ := pptCopy_spec R r
  rw [show i + r * j = i + j * r by ring]
  by_cases h : i ≤ j
  · rw [if_pos h]
    exact (w2 i j h hj).trans (c2 i j h hj)
  · rw [if_neg h]
    exact w1 j i (by omega) hi

/-- Witness for C15: `r = 2`, the cell below the diagonal, two threads. -/
theorem PPt_restores_R_witness :
    (1 < 2 ∧ 0 < 2) ∧
    (mgcv_PPt (fun _ _ _ => 0) (fun _ _ _ => 0) (fun _ => 0) (fun q => (q : Int) + 1) 2 2).2
        (1 + 2 * 0)
      = if 1 ≤ 0 then (fun q => (q : Int) + 1 : Nat → Int) (1 + 2 * 0) else 0 :=
  ⟨by decide, PPt_restores_R (fun _ _ _ => 0) (fun _ _ _ => 0) (fun _ => 0)
    (fun q => (q : Int) + 1) 2 2 1 0 (by decide) (by decide)⟩

end PPtProofs

/-! ## `mgcv_pbsi` -/

section PbsiProofs
variable {α : Type}

/-- Block loops over non-decreasing integer cut points that start at 0 are one loop. -/
theorem blockLoopInt_eq {σ : Type} (m : Nat) (a : Nat → Int) (body : Nat → σ → σ) (s : σ)
    (h0 : a 0 = 0) (hmono : ∀ b, b < m → a b ≤ a (b + 1)) :
    blockLoopInt m a body s = forLoop (a m).toNat body s := by
  unfold blockLoopInt
  induction m with
  | zero => rw [h0]; rfl
  | succ m ih =>
    rw [forLoop_succ, ih (fun b hb => hmono b (by omega))]
    have hnn : ∀ b, b ≤ m → 0 ≤ a b := by
      intro b
      induction b with
      | zero => intro _; rw [h0]
      | succ b ihb => intro hb; exact le_trans (ihb (by omega)) (hmono b (by omega))
    have h1 := hmono m (by omega)
    have h2 := hnn m le_rfl
    have e : (a (m + 1)).toNat = (a m).toNat + (a (m + 1) - a m).toNat := by omega
    have e2 : (fun (t : Nat) s => body (a m + (t : Int)).toNat s)
        = (fun (t : Nat) => body ((a m).toNat + t)) := by
      funext t s
      congr 1
      omega
    rw [e, forLoop_add, e2]

/-- Descending repair of the cut points: afterwards they increase strictly from index 1 on
and the point with index `i` is at least `i`. -/
theorem fixDown_spec (a1 : Nat → Int) (m : Nat) (hm : (m : Int) ≤ a1 m)
    (hc : ∀ k, 1 ≤ k → k < m → (k : Int) ≤ a1 k) (t : Nat) (ht : t ≤ m - 1) :
    (∀ p, p < m - t ∨ m ≤ p →
      forLoop t (fun t a =>
        let i := m - 1 - t
        if a i ≥ a (i + 1) then store a i (a (i + 1) - 1) else a) a1 p = a1 p) ∧
    (∀ i, m - t ≤ i → i < m →
      forLoop t (fun t a =>
        let i := m - 1 - t
        if a i ≥ a (i + 1) then store a i (a (i + 1) - 1) else a) a1 i
      < forLoop t (fun t a =>
        let i := m - 1 - t
        if a i ≥ a (i + 1) then store a i (a (i + 1) - 1) else a) a1 (i + 1) ∧
      (i : Int) ≤ forLoop t (fun t a =>
        let i := m - 1 - t
        if a i ≥ a (i + 1) then store a i (a (i + 1) - 1) else a) a1 i) := by
  induction t with
  | zero => exact ⟨fun p _ => rfl, fun i h1 h2 => (Nat.lt_irrefl i (Nat.lt_of_lt_of_le h2 h1)).elim⟩
  | succ t ih =>
    obtain ⟨h1, h2⟩ := ih (Nat.le_of_succ_le ht)
    rw [forLoop_succ]
    generalize forLoop t (fun t a =>
        let i := m - 1 - t
        if a i ≥ a (i + 1) then store a i (a (i + 1) - 1) else a) a1 = O at h1 h2 ⊢
    clear ih
    have e1 : O (m - 1 - t) = a1 (m - 1 - t) := h1 _ (by omega)
    have e2 : ((m - 1 - t : Nat) : Int) ≤ a1 (m - 1 - t) :=
      hc (m - 1 - t) (by omega) (by omega)
    have e3 : ((m - 1 - t + 1 : Nat) : Int) ≤ O (m - 1 - t + 1) := by
      by_cases h : m - 1 - t + 1 = m
      · rw [h, h1 m (by omega)]; exact hm
      · exact (h2 _ (by omega) (by omega)).2
    by_cases c : O (m - 1 - t) ≥ O (m - 1 - t + 1)
    · simp only [if_pos c]
      refine ⟨?_, ?_⟩
      · intro p hp
        rw [store_ne _ _ _ _ (by omega)]
        exact h1 p (by omega)
      · intro i hi1 hi2
        by_cases hi : i = m - 1 - t
        · rw [hi, store_same, store_ne _ _ _ _ (by omega)]
          push_cast at e3 ⊢
          omega
        · rw [store_ne _ _ _ _ hi, store_ne _ _ _ _ (by omega)]
          exact h2 i (by omega) hi2
    · simp only [if_neg c]
      refine ⟨fun p hp => h1 p (by omega), ?_⟩
      intro i hi1 hi2
      by_cases hi : i = m - 1 - t
      · rw [hi]
        omega
      · exact h2 i (by omega) hi2

/-- The cut points of `pbsiCuts` start at 0, end at `r` and do not decrease, when the
rounded values are at least their index. -/
theorem pbsiCuts_spec (cut : Nat → Nat → Nat → Nat) (r m : Nat) (a : Nat → Int)
    (hmr : m ≤ r) (h0 : a 0 = 0) (hr : a m = r)
    (hcut : ∀ k, 1 ≤ k → k < m → k ≤ cut r m k) :
    pbsiCuts cut r m a 0 = 0 ∧ pbsiCuts cut r m a m = r ∧
    (∀ b, b < m → pbsiCuts cut r m a b ≤ pbsiCuts cut r m a (b + 1)) := by
  unfold pbsiCuts
  have e : ∀ i, i < m - 1 → m ≠ i + 1 := fun i hi => by omega
  obtain ⟨g1, g2⟩ := storeLoop_spec (m - 1) (fun t => t + 1)
    (fun t _ => (cut r m (t + 1) : Int)) a (fun i j _ _ h => Nat.add_right_cancel h)
  have q0 := g2 0 (fun i _ => (Nat.succ_ne_zero i).symm)
  have qm := g2 m e
  have qk : ∀ k, 1 ≤ k → k < m → (k : Int) ≤
      forLoop (m - 1) (fun t a => store a (t + 1) (cut r m (t + 1) : Int)) a k := by
    intro k hk1 hk2
    have := g1 (k - 1) (by omega)
    simp only [show k - 1 + 1 = k by omega] at this
    rw [this]
    exact_mod_cast hcut k hk1 hk2
  generalize forLoop (m - 1) (fun t a => store a (t + 1) (cut r m (t + 1) : Int)) a = a1
    at q0 qm qk ⊢
  obtain ⟨h1, h2⟩ := fixDown_spec a1 m (by rw [qm, hr]; exact_mod_cast hmr) qk (m - 1) le_rfl
  have f0 := h1 0
  have fm := h1 m (Or.inr le_rfl)
  generalize forLoop (m - 1) (fun t a =>
        let i := m - 1 - t
        if a i ≥ a (i + 1) then store a i (a (i + 1) - 1) else a) a1 = F at h1 h2 f0 fm ⊢
  by_cases hz : m = 0
  · subst hz
    refine ⟨?_, ?_, fun b hb => by omega⟩
    · rw [fm, qm, h0]
    · rw [fm, qm, hr]
  · refine ⟨?_, ?_, ?_⟩
    · rw [f0 (Or.inl (by omega)), q0, h0]
    · rw [fm, qm, hr]
    · intro b hb
      by_cases hb0 : b = 0
      · subst hb0
        rw [f0 (Or.inl (by omega)), q0, h0]
        by_cases h1m : 1 = m
        · rw [show 0 + 1 = m by omega, fm, qm, hr]
          exact Int.natCast_nonneg r
        · have := (h2 1 (by omega) (by omega)).2
          rw [Nat.zero_add]
          omega
      · exact le_of_lt (h2 b (by omega) hb).1

/-- Loop `*zz += *rr * *dk` over cells `z + t`, `t < n`, where neither the cells `q + t`
nor the cell `w` is among the cells written. -/
theorem addLoop_spec [Field α] (z q w n : Nat) (P : Nat → α)
    (hq : ∀ t t', t < n → t' < n → q + t ≠ z + t') (hw : ∀ t, t < n → w ≠ z + t) :
    (∀ t, t < n →
      forLoop n (fun t R => store R (z + t) (R (z + t) + R (q + t) * R w)) P (z + t)
        = P (z + t) + P (q + t) * P w) ∧
    (∀ p, (∀ t, t < n → p ≠ z + t) →
      forLoop n (fun t R => store R (z + t) (R (z + t) + R (q + t) * R w)) P p = P p) := by
  induction n with
  | zero => exact ⟨fun t h => by omega, fun p _ => rfl⟩
  | succ n ih =>
    obtain ⟨h1, h2⟩ := ih (fun t t' ht ht' => hq t t' (by omega) (by omega))
      (fun t ht => hw t (by omega))
    rw [forLoop_succ]
    generalize forLoop n (fun t R => store R (z + t) (R (z + t) + R (q + t) * R w)) P = O
      at h1 h2 ⊢
    clear ih
    refine ⟨?_, ?_⟩
    · intro t ht
      by_cases e : t = n
      · subst e
        rw [store_same, h2 _ (fun t' ht' => by omega),
          h2 _ (fun t' ht' => hq t t' (by omega) (by omega)),
          h2 _ (fun t' ht' => hw t' (by omega))]
      · rw [store_ne _ _ _ _ (by omega)]
        exact h1 t (by omega)
    · intro p hp
      rw [store_ne _ _ _ _ (hp n (by omega))]
      exact h2 p (fun t ht => hp t (by omega))

/-- The pointer `Rjj` of `pbsiElim` is at the diagonal cell of column `j = i - 1 - jj`. -/
theorem pbsi_Rjj (r i jj : Nat) (h : jj < i) :
    r * i + i - (jj + 1) * (r + 1) = (i - 1 - jj) + r * (i - 1 - jj) := by
  have e : i = (i - 1 - jj) + (jj + 1) := by omega
  have e1 : r * i + i = ((i - 1 - jj) + r * (i - 1 - jj)) + (jj + 1) * (r + 1) := by
    conv_lhs => rw [e]
    ring
  omega

/-- Elimination loop of `mgcv_pbsi` for column `i`, with the scratch cells `z + t`, `t < i`,
apart from the cells `a + r*b`, `a ≤ b ≤ i`: after `n` passes the scratch cells `t ≥ i - n`
hold the solution, and the cells `t < i - n` the sums accumulated so far. -/
theorem pbsiElim_loop [Field α] (r i z : Nat) (dk : α) (P : Nat → α)
    (hz : ∀ t a b, t < i → a ≤ b → b ≤ i → a + r * b ≠ z + t)
    (hd : ∀ t, t < i → P (t + r * t) ≠ 0)
    (hinit : ∀ t, t < i → P (z + t) = P (t + r * i) * dk) (n : Nat) (hn : n ≤ i) :
    (∀ p, (∀ t, t < i → p ≠ z + t) →
      forLoop n (fun jj R =>
        let j := i - 1 - jj
        let Rjj := r * i + i - (jj + 1) * (r + 1)
        let R1 := store R (z + j) (R (z + j) / (- R Rjj))
        forLoop j (fun t R => store R (z + t) (R (z + t) + R (Rjj - j + t) * R (z + j))) R1)
        P p = P p) ∧
    (∀ t, t < i - n →
      forLoop n (fun jj R =>
        let j := i - 1 - jj
        let Rjj := r * i + i - (jj + 1) * (r + 1)
        let R1 := store R (z + j) (R (z + j) / (- R Rjj))
        forLoop j (fun t R => store R (z + t) (R (z + t) + R (Rjj - j + t) * R (z + j))) R1)
        P (z + t)
      = ∑ l in Finset.Ico (i - n) i, P (t + r * l) *
          forLoop n (fun jj R =>
            let j := i - 1 - jj
            let Rjj := r * i + i - (jj + 1) * (r + 1)
            let R1 := store R (z + j) (R (z + j) / (- R Rjj))
            forLoop j (fun t R =>
              store R (z + t) (R (z + t) + R (Rjj - j + t) * R (z + j))) R1) P (z + l)
        + P (t + r * i) * dk) ∧
    (∀ t, i - n ≤ t → t < i →
      P (t + r * t) *
        forLoop n (fun jj R =>
          let j := i - 1 - jj
          let Rjj := r * i + i - (jj + 1) * (r + 1)
          let R1 := store R (z + j) (R (z + j) / (- R Rjj))
          forLoop j (fun t R =>
            store R (z + t) (R (z + t) + R (Rjj - j + t) * R (z + j))) R1) P (z + t)
      + ∑ l in Finset.Ico (t + 1) i, P (t + r * l) *
          forLoop n (fun jj R =>
            let j := i - 1 - jj
            let Rjj := r * i + i - (jj + 1) * (r + 1)
            let R1 := store R (z + j) (R (z + j) / (- R Rjj))
            forLoop j (fun t R =>
              store R (z + t) (R (z + t) + R (Rjj - j + t) * R (z + j))) R1) P (z + l)
      + P (t + r * i) * dk = 0) := by
  induction n with
  | zero =>
    refine ⟨fun p _ => rfl, ?_, fun t h1 h2 => (Nat.lt_irrefl t (Nat.lt_of_lt_of_le h2 h1)).elim⟩
    intro t ht
    rw [Nat.sub_zero, Finset.Ico_self, Finset.sum_empty, zero_add]
    exact hinit t ht
  | succ n ih =>
    obtain ⟨h1, h2, h3⟩ := ih (Nat.le_of_succ_le hn)
    rw [forLoop_succ]
    generalize forLoop n (fun jj R =>
        let j := i - 1 - jj
        let Rjj := r * i + i - (jj + 1) * (r + 1)
        let R1 := store R (z + j) (R (z + j) / (- R Rjj))
        forLoop j (fun t R => store R (z + t) (R (z + t) + R (Rjj - j + t) * R (z + j))) R1)
        P = O at h1 h2 h3 ⊢
    clear ih
    rw [pbsi_Rjj r i n (by omega)]
    have hj : i - 1 - n < i := by omega
    have hjn : i - (n + 1) = i - 1 - n := by omega
    have hjn1 : i - n = i - 1 - n + 1 := by omega
    rw [hjn]
    rw [hjn1] at h2 h3
    generalize i - 1 - n = j at hj h2 h3 ⊢
    have ed : O (j + r * j) = P (j + r * j) :=
      h1 _ (fun t ht => hz t j j ht le_rfl (by omega))
    have eq : ∀ t, j + r * j - j + t = r * j + t := fun t => by omega
    simp only [ed, eq]
    obtain ⟨g1, g2⟩ := addLoop_spec z (r * j) (z + j) j
      (store O (z + j) (O (z + j) / -P (j + r * j)))
      (fun t t' ht ht' => by
        have := hz t' t j (by omega) (by omega) (by omega)
        omega)
      (fun t ht => by omega)
    have hE_lt : ∀ t, t < j →
        forLoop j (fun t R => store R (z + t) (R (z + t) + R (r * j + t) * R (z + j)))
          (store O (z + j) (O (z + j) / -P (j + r * j))) (z + t)
        = O (z + t) + P (t + r * j) * (O (z + j) / -P (j + r * j)) := by
      intro t ht
      have hne : r * j + t ≠ z + j := by
        have := hz j t j (by omega) (by omega) (by omega)
        omega
      rw [g1 t ht, store_ne _ _ _ _ (by omega), store_ne _ _ _ _ hne, store_same,
        show r * j + t = t + r * j by omega,
        h1 (t + r * j) (fun t' ht' => hz t' t j ht' (by omega) (by omega))]
    have hE_j : forLoop j (fun t R => store R (z + t) (R (z + t) + R (r * j + t) * R (z + j)))
          (store O (z + j) (O (z + j) / -P (j + r * j))) (z + j)
        = O (z + j) / -P (j + r * j) := by
      rw [g2 _ (fun t ht => by omega), store_same]
    have hE_gt : ∀ l, j < l →
        forLoop j (fun t R => store R (z + t) (R (z + t) + R (r * j + t) * R (z + j)))
          (store O (z + j) (O (z + j) / -P (j + r * j))) (z + l) = O (z + l) := by
      intro l hl
      rw [g2 _ (fun t ht => by omega), store_ne _ _ _ _ (by omega)]
    have hE_out : ∀ p, (∀ t, t < i → p ≠ z + t) →
        forLoop j (fun t R => store R (z + t) (R (z + t) + R (r * j + t) * R (z + j)))
          (store O (z + j) (O (z + j) / -P (j + r * j))) p = P p := by
      intro p hp
      rw [g2 _ (fun t ht => hp t (by omega)), store_ne _ _ _ _ (hp j hj)]
      exact h1 p hp
    generalize forLoop j (fun t R => store R (z + t) (R (z + t) + R (r * j + t) * R (z + j)))
          (store O (z + j) (O (z + j) / -P (j + r * j))) = E at hE_lt hE_j hE_gt hE_out ⊢
    clear g1 g2
    have hsum : ∀ t m, j < m → ∑ l in Finset.Ico m i, P (t + r * l) * E (z + l)
        = ∑ l in Finset.Ico m i, P (t + r * l) * O (z + l) := by
      intro t m hm
      refine Finset.sum_congr rfl (fun l hl => ?_)
      rw [hE_gt l (by have := (Finset.mem_Ico.mp hl).1; omega)]
    have hjj := hd j hj
    refine ⟨hE_out, ?_, ?_⟩
    · intro t ht
      rw [hE_lt t ht, h2 t (by omega), Finset.sum_eq_sum_Ico_succ_bot hj, hE_j,
        hsum t (j + 1) (by omega)]
      ring
    · intro t ht1 ht2
      by_cases e : t = j
      · subst e
        rw [hE_j, hsum t (t + 1) (by omega), add_assoc, ← h2 t (by omega)]
        have e : P (t + r * t) * (O (z + t) / -P (t + r * t)) = - O (z + t) := by
          rw [← mul_div_assoc, div_neg, mul_div_cancel_left₀ _ hjj]
        rw [e]
        ring
      · rw [hE_gt t (by omega), hsum t (t + 1) (by omega)]
        exact h3 t (by omega) ht2

/-- The scratch cells of column `i` are apart from the cells on and above the diagonal. -/
theorem pbsi_scratch_up (r i t a b : Nat) (hi : i < r) (ht : t < i) (hab : a ≤ b)
    (hb : b < r) : a + r * b ≠ r * (r - i - 1) + (r - i - 1) + 1 + t := by
  have := lowCell_ne_up r (r - i - 1) t a b (by omega) hab hb
  rw [Nat.mul_comm r b, Nat.mul_comm r (r - i - 1)]
  exact this

/-- The scratch cells of different columns, or of different rows, are different. -/
theorem pbsi_scratch_ne (r i t i' t' : Nat) (hi : i < r) (ht : t < i) (hi' : i' < r)
    (ht' : t' < i') (h : i ≠ i' ∨ t ≠ t') :
    r * (r - i - 1) + (r - i - 1) + 1 + t ≠ r * (r - i' - 1) + (r - i' - 1) + 1 + t' := by
  have := lowCell_ne r (r - i - 1) t (r - i' - 1) t' (by omega) (by omega) (by omega)
  rw [Nat.mul_comm r (r - i - 1), Nat.mul_comm r (r - i' - 1)]
  exact this

/-- One column of the first pass of `mgcv_pbsi`: only the scratch cells of the column and
`d[k]` change, and the scratch cells `x` with `d[k]` solve the rows `t < i` of `U·x = e_i`. -/
theorem pbsiCol_spec [Field α] (r i : Nat) (P d : Nat → α) (hi : i < r)
    (hd : ∀ t, t < i → P (t + r * t) ≠ 0) :
    (pbsiCol r i (P, d)).2 = store d (r - i - 1) (1 / P (r * i + i)) ∧
    (∀ p, (∀ t, t < i → p ≠ r * (r - i - 1) + (r - i - 1) + 1 + t) →
      (pbsiCol r i (P, d)).1 p = P p) ∧
    (∀ t, t < i →
      P (t + r * t) * (pbsiCol r i (P, d)).1 (r * (r - i - 1) + (r - i - 1) + 1 + t)
      + ∑ l in Finset.Ico (t + 1) i, P (t + r * l) *
          (pbsiCol r i (P, d)).1 (r * (r - i - 1) + (r - i - 1) + 1 + l)
      + P (t + r * i) * (1 / P (r * i + i)) = 0) := by
  unfold pbsiCol pbsiElim pbsiInit
  simp only [store_same]
  have hz : ∀ t a b, t < i → a ≤ b → b ≤ i →
      a + r * b ≠ r * (r - i - 1) + (r - i - 1) + 1 + t :=
    fun t a b ht hab hb => pbsi_scratch_up r i t a b hi ht hab (by omega)
  generalize r * (r - i - 1) + (r - i - 1) + 1 = z at hz ⊢
  obtain ⟨g1, g2⟩ := storeReadLoop_spec i (fun t => z + t) (fun t => r * i + t)
    (fun _ x => x * (1 / P (r * i + i))) P (fun a b _ _ h => Nat.add_left_cancel h)
    (fun a b _ ha => by
      have := hz b a i (by omega) (by omega) le_rfl
      show r * i + a ≠ z + b
      omega)
  have hup : ∀ a b, a ≤ b → b ≤ i →
      forLoop i (fun t R => store R (z + t) (R (r * i + t) * (1 / P (r * i + i)))) P
        (a + r * b) = P (a + r * b) :=
    fun a b hab hb => g2 _ (fun t ht => hz t a b ht hab hb)
  have hinit : ∀ t, t < i →
      forLoop i (fun t R => store R (z + t) (R (r * i + t) * (1 / P (r * i + i)))) P (z + t)
      = forLoop i (fun t R => store R (z + t) (R (r * i + t) * (1 / P (r * i + i)))) P
          (t + r * i) * (1 / P (r * i + i)) := by
    intro t ht
    rw [hup t i (by omega) le_rfl, show t + r * i = r * i + t by omega]
    exact g1 t ht
  have hfr : ∀ p, (∀ t, t < i → p ≠ z + t) →
      forLoop i (fun t R => store R (z + t) (R (r * i + t) * (1 / P (r * i + i)))) P p
        = P p := fun p hp => g2 p hp
  generalize forLoop i (fun t R => store R (z + t) (R (r * i + t) * (1 / P (r * i + i)))) P
    = P1 at hup hinit hfr ⊢
  clear g1 g2
  obtain ⟨e1, -, e3⟩ := pbsiElim_loop r i z (1 / P (r * i + i)) P1 hz
    (fun t ht => by rw [hup t t le_rfl (by omega)]; exact hd t ht) hinit i le_rfl
  refine ⟨trivial, fun p hp => (e1 p hp).trans (hfr p hp), ?_⟩
  intro t ht
  have := e3 t (by omega) ht
  rw [hup t t le_rfl (by omega), hup t i (by omega) le_rfl] at this
  rw [← this]
  congr 2
  refine Finset.sum_congr rfl (fun l hl => ?_)
  have hl := Finset.mem_Ico.mp hl
  rw [hup t l (by omega) (by omega)]

/-- First pass of `mgcv_pbsi` (as one loop over the columns): the cells on and above the
diagonal keep their content, `d[r-i-1] = 1/U[i,i]`, and the scratch cells of column `i` with
`d[r-i-1]` solve the rows `t < i` of `U·x = e_i`. -/
theorem pbsiPass1_spec [Field α] (r : Nat) (R d0 : Nat → α)
    (hd : ∀ t, t < r → R (t + r * t) ≠ 0) (m : Nat) (hm : m ≤ r) :
    (∀ a b, a ≤ b → b < r → (forLoop m (pbsiCol r) (R, d0)).1 (a + r * b) = R (a + r * b)) ∧
    (∀ i, i < m → (forLoop m (pbsiCol r) (R, d0)).2 (r - i - 1) = 1 / R (r * i + i)) ∧
    (∀ i t, i < m → t < i →
      R (t + r * t) *
        (forLoop m (pbsiCol r) (R, d0)).1 (r * (r - i - 1) + (r - i - 1) + 1 + t)
      + ∑ l in Finset.Ico (t + 1) i, R (t + r * l) *
          (forLoop m (pbsiCol r) (R, d0)).1 (r * (r - i - 1) + (r - i - 1) + 1 + l)
      + R (t + r * i) * (1 / R (r * i + i)) = 0) := by
  induction m with
  | zero =>
    exact ⟨fun a b _ _ => rfl, fun i h => absurd h (Nat.not_lt_zero i),
      fun i t h => absurd h (Nat.not_lt_zero i)⟩
  | succ m ih =>
    obtain ⟨h1, h2, h3⟩ := ih (Nat.le_of_succ_le hm)
    rw [forLoop_succ]
    generalize forLoop m (pbsiCol r) (R, d0) = S at h1 h2 h3 ⊢
    clear ih
    obtain ⟨P, d⟩ := S
    simp only at h1 h2 h3
    obtain ⟨c1, c2, c3⟩ := pbsiCol_spec r m P d (by omega)
      (fun t ht => by rw [h1 t t le_rfl (by omega)]; exact hd t (by omega))
    refine ⟨?_, ?_, ?_⟩
    · intro a b hab hb
      rw [c2 _ (fun t ht => pbsi_scratch_up r m t a b (by omega) ht hab hb)]
      exact h1 a b hab hb
    · intro i hi
      rw [c1]
      by_cases e : i = m
      · subst e
        rw [store_same, show r * i + i = i + r * i by omega, h1 i i le_rfl (by omega)]
      · rw [store_ne _ _ _ _ (by omega)]
        exact h2 i (by omega)
    · intro i t hi ht
      by_cases e : i = m
      · subst e
        have := c3 t ht
        rw [h1 t t le_rfl (by omega), h1 t i (by omega) (by omega),
          show r * i + i = i + r * i by omega, h1 i i le_rfl (by omega)] at this
        rw [← this, show r * i + i = i + r * i by omega]
        congr 2
        refine Finset.sum_congr rfl (fun l hl => ?_)
        have hl := Finset.mem_Ico.mp hl
        rw [h1 t l (by omega) (by omega)]
      · have fr : ∀ l, l < i →
            (pbsiCol r m (P, d)).1 (r * (r - i - 1) + (r - i - 1) + 1 + l)
              = P (r * (r - i - 1) + (r - i - 1) + 1 + l) :=
          fun l hl => c2 _ (fun t' ht' =>
            pbsi_scratch_ne r i l m t' (by omega) hl (by omega) ht' (Or.inl e))
        rw [fr t ht, ← h3 i t (by omega) ht]
        congr 2
        refine Finset.sum_congr rfl (fun l hl => ?_)
        have hl := Finset.mem_Ico.mp hl
        rw [fr l (by omega)]

/-- Loop `{*zz = *rr;*rr = 0.0;}` that moves the cells `z + t` to the cells `w + t` and
zeroes them, the two ranges being apart. -/
theorem moveLoop_spec [Field α] (w z n : Nat) (P : Nat → α)
    (hwz : ∀ t t', t < n → t' < n → w + t ≠ z + t') :
    (∀ t, t < n →
      forLoop n (fun t R => store (store R (w + t) (R (z + t))) (z + t) 0) P (w + t)
        = P (z + t) ∧
      forLoop n (fun t R => store (store R (w + t) (R (z + t))) (z + t) 0) P (z + t) = 0) ∧
    (∀ p, (∀ t, t < n → p ≠ w + t ∧ p ≠ z + t) →
      forLoop n (fun t R => store (store R (w + t) (R (z + t))) (z + t) 0) P p = P p) := by
  induction n with
  | zero => exact ⟨fun t h => absurd h (Nat.not_lt_zero t), fun p _ => rfl⟩
  | succ n ih =>
    obtain ⟨h1, h2⟩ := ih (fun t t' ht ht' => hwz t t' (by omega) (by omega))
    rw [forLoop_succ]
    generalize forLoop n (fun t R => store (store R (w + t) (R (z + t))) (z + t) 0) P = O
      at h1 h2 ⊢
    clear ih
    refine ⟨?_, ?_⟩
    · intro t ht
      by_cases e : t = n
      · subst e
        refine ⟨?_, store_same _ _ _⟩
        rw [store_ne _ _ _ _ (hwz t t (by omega) (by omega)), store_same]
        exact h2 _ (fun t' ht' =>
          ⟨fun h => hwz t' t (by omega) (by omega) h.symm, by omega⟩)
      · rw [store_ne _ _ _ _ (hwz t n (by omega) (by omega)), store_ne _ _ _ _ (by omega),
          store_ne _ _ _ _ (by omega),
          store_ne _ _ _ _ (fun h => hwz n t (by omega) (by omega) h.symm)]
        exact h1 t (by omega)
    · intro p hp
      rw [store_ne _ _ _ _ (hp n (by omega)).2, store_ne _ _ _ _ (hp n (by omega)).1]
      exact h2 p (fun t ht => hp t (by omega))

/-- One column of the second pass of `mgcv_pbsi`. -/
theorem pbsiBack_spec [Field α] (r : Nat) (d : Nat → α) (i : Nat) (P : Nat → α)
    (hi : i < r) :
    pbsiBack r d i P (i + r * i) = d (r - i - 1) ∧
    (∀ t, t < i →
      pbsiBack r d i P (t + r * i) = P (r * (r - i - 1) + (r - i - 1) + 1 + t) ∧
      pbsiBack r d i P (r * (r - i - 1) + (r - i - 1) + 1 + t) = 0) ∧
    (∀ p, p ≠ i + r * i →
      (∀ t, t < i → p ≠ t + r * i ∧ p ≠ r * (r - i - 1) + (r - i - 1) + 1 + t) →
      pbsiBack r d i P p = P p) := by
  unfold pbsiBack
  have hz : ∀ t a b, t < i → a ≤ b → b ≤ i →
      a + r * b ≠ r * (r - i - 1) + (r - i - 1) + 1 + t :=
    fun t a b ht hab hb => pbsi_scratch_up r i t a b hi ht hab (by omega)
  rw [Nat.mul_comm (r - i - 1) r, Nat.mul_comm i r]
  generalize r * (r - i - 1) + (r - i - 1) + 1 = z at hz ⊢
  obtain ⟨g1, g2⟩ := moveLoop_spec (r * i) z i (store P (r * i + i) (d (r - i - 1)))
    (fun t t' ht ht' => by
      have := hz t' t i ht' (by omega) le_rfl
      omega)
  refine ⟨?_, ?_, ?_⟩
  · rw [g2 _ (fun t ht => ⟨by omega, by have := hz t i i ht le_rfl le_rfl; omega⟩),
      show i + r * i = r * i + i by omega, store_same]
  · intro t ht
    obtain ⟨q1, q2⟩ := g1 t ht
    refine ⟨?_, q2⟩
    rw [show t + r * i = r * i + t by omega, q1, store_ne _ _ _ _ (by
      have := hz t i i ht le_rfl le_rfl
      omega)]
  · intro p hp hpt
    rw [g2 p (fun t ht => ⟨by have := (hpt t ht).1; omega, (hpt t ht).2⟩),
      store_ne _ _ _ _ (by omega)]

/-- Second pass of `mgcv_pbsi` (as one loop over the columns): column `i` of the result is
`d[r-i-1]` on the diagonal and the scratch cells of column `i` above it, and the scratch
cells are zero. -/
theorem pbsiPass2_spec [Field α] (r : Nat) (d R1 : Nat → α) (m : Nat) (hm : m ≤ r) :
    (∀ i, i < m →
      forLoop m (pbsiBack r d) R1 (i + r * i) = d (r - i - 1) ∧
      ∀ t, t < i →
        forLoop m (pbsiBack r d) R1 (t + r * i)
          = R1 (r * (r - i - 1) + (r - i - 1) + 1 + t) ∧
        forLoop m (pbsiBack r d) R1 (r * (r - i - 1) + (r - i - 1) + 1 + t) = 0) ∧
    (∀ i t, m ≤ i → i < r → t < i →
      forLoop m (pbsiBack r d) R1 (r * (r - i - 1) + (r - i - 1) + 1 + t)
        = R1 (r * (r - i - 1) + (r - i - 1) + 1 + t)) := by
  induction m with
  | zero => exact ⟨fun i h => absurd h (Nat.not_lt_zero i), fun i t _ _ _ => rfl⟩
  | succ m ih =>
    obtain ⟨h1, h2⟩ := ih (Nat.le_of_succ_le hm)
    rw [forLoop_succ]
    generalize forLoop m (pbsiBack r d) R1 = O at h1 h2 ⊢
    clear ih
    obtain ⟨c1, c2, c3⟩ := pbsiBack_spec r d m O (by omega)
    have up : ∀ a b, a ≤ b → b < r → b ≠ m → pbsiBack r d m O (a + r * b) = O (a + r * b) := by
      intro a b hab hb hbm
      have ne : ∀ a', a' ≤ m → a + r * b ≠ a' + r * m := by
        intro a' ha'
        have := cell_ne r a b a' m (by omega) (by omega) (Or.inr hbm)
        rw [Nat.mul_comm r b, Nat.mul_comm r m]
        exact this
      exact c3 _ (ne m le_rfl) (fun t ht =>
        ⟨ne t (by omega), pbsi_scratch_up r m t a b (by omega) ht hab hb⟩)
    have low : ∀ i t, i < r → t < i → i ≠ m →
        pbsiBack r d m O (r * (r - i - 1) + (r - i - 1) + 1 + t)
          = O (r * (r - i - 1) + (r - i - 1) + 1 + t) := by
      intro i t hi ht him
      exact c3 _ (pbsi_scratch_up r i t m m hi ht le_rfl (by omega)).symm (fun t' ht' =>
        ⟨(pbsi_scratch_up r i t t' m hi ht (by omega) (by omega)).symm,
          pbsi_scratch_ne r i t m t' hi ht (by omega) ht' (Or.inl him)⟩)
    refine ⟨?_, ?_⟩
    · intro i hi
      by_cases e : i = m
      · subst e
        refine ⟨c1, fun t ht => ?_⟩
        obtain ⟨q1, q2⟩ := c2 t ht
        exact ⟨q1.trans (h2 i t le_rfl (by omega) ht), q2⟩
      · obtain ⟨p1, p2⟩ := h1 i (by omega)
        refine ⟨(up i i le_rfl (by omega) e).trans p1, fun t ht => ?_⟩
        obtain ⟨q1, q2⟩ := p2 t ht
        exact ⟨(up t i (by omega) (by omega) e).trans q1,
          (low i t (by omega) ht e).trans q2⟩
    · intro i t him hi ht
      exact (low i t hi ht (by omega)).trans (h2 i t (by omega) hi ht)

/-- With rounded cut values not below their index the block loops of `mgcv_pbsi` are plain
loops over the columns `i < r`. -/
theorem pbsi_eq [Field α] (cut3 cut2 : Nat → Nat → Nat → Nat) (R : Nat → α) (r : Nat)
    (nt : Int)
    (hcut3 : ∀ m k, 1 ≤ k → k < m → m ≤ r → k ≤ cut3 r m k)
    (hcut2 : ∀ m k, 1 ≤ k → k < m → m ≤ r → k ≤ cut2 r m k) :
    mgcv_pbsi cut3 cut2 R r nt
      = forLoop r (pbsiBack r (forLoop r (pbsiCol r) (R, fun _ => 0)).2)
          (forLoop r (pbsiCol r) (R, fun _ => 0)).1 := by
  unfold mgcv_pbsi
  simp only
  have hm : ((if (if nt < 1 then 1 else nt.toNat) > r then r
      else (if nt < 1 then 1 else nt.toNat)) = 0 → r = 0) ∧
      (if (if nt < 1 then 1 else nt.toNat) > r then r
      else (if nt < 1 then 1 else nt.toNat)) ≤ r := by
    refine ⟨fun h => ?_, ?_⟩
    · split_ifs at h <;> omega
    · split_ifs <;> omega
  generalize (if (if nt < 1 then 1 else nt.toNat) > r then r
    else (if nt < 1 then 1 else nt.toNat)) = m at hm
  obtain ⟨hm0, hmr⟩ := hm
  have a0 : store (store (fun _ => (0 : Int)) 0 0) m (r : Int) 0 = 0 := by
    by_cases h : 0 = m
    · subst h
      rw [store_same, hm0 rfl]
      rfl
    · rw [store_ne _ _ _ _ h, store_same]
  have a1 : store (store (fun _ => (0 : Int)) 0 0) m (r : Int) m = r := store_same _ _ _
  obtain ⟨b0, b1, b2⟩ := pbsiCuts_spec cut3 r m _ hmr a0 a1
    (fun k hk1 hk2 => hcut3 m k hk1 hk2 hmr)
  obtain ⟨c0, c1, c2⟩ := pbsiCuts_spec cut2 r m _ hmr b0 b1
    (fun k hk1 hk2 => hcut2 m k hk1 hk2 hmr)
  rw [blockLoopInt_eq m _ _ _ b0 b2, blockLoopInt_eq m _ _ _ c0 c2, b1, c1, Int.toNat_ofNat]

/-- The result of `mgcv_pbsi` solves `U·Ri = I` for the upper triangle `U` of the input and
is zero below the diagonal. -/
theorem pbsi_system [Field α] (cut3 cut2 : Nat → Nat → Nat → Nat) (R : Nat → α) (r : Nat)
    (nt : Int) (hd : ∀ t, t < r → R (t + r * t) ≠ 0)
    (hcut3 : ∀ m k, 1 ≤ k → k < m → m ≤ r → k ≤ cut3 r m k)
    (hcut2 : ∀ m k, 1 ≤ k → k < m → m ≤ r → k ≤ cut2 r m k) :
    (∀ i j, i < r → j < r →
      ∑ l in Finset.Ico i r, R (i + r * l) * mgcv_pbsi cut3 cut2 R r nt (l + r * j)
        = if i = j then 1 else 0) ∧
    (∀ i j, j < i → i < r → mgcv_pbsi cut3 cut2 R r nt (i + r * j) = 0) := by
  rw [pbsi_eq cut3 cut2 R r nt hcut3 hcut2]
  obtain ⟨-, p2, p3⟩ := pbsiPass1_spec r R (fun _ => 0) hd r le_rfl
  obtain ⟨q1, -⟩ := pbsiPass2_spec r (forLoop r (pbsiCol r) (R, fun _ => 0)).2
    (forLoop r (pbsiCol r) (R, fun _ => 0)).1 r le_rfl
  generalize forLoop r (pbsiCol r) (R, fun _ => 0) = S at p2 p3 q1 ⊢
  generalize forLoop r (pbsiBack r S.2) S.1 = Out at q1 ⊢
  have hlow : ∀ i j, j < i → i < r → Out (i + r * j) = 0 := by
    intro i j hji hi
    have := ((q1 (r - j - 1) (by omega)).2 (i - j - 1) (by omega)).2
    rw [show r - (r - j - 1) - 1 = j by omega,
      show r * j + j + 1 + (i - j - 1) = i + r * j by omega] at this
    exact this
  refine ⟨?_, hlow⟩
  intro i j hi hj
  by_cases hij : i ≤ j
  · have split : Finset.Ico i r = Finset.Ico i (j + 1) ∪ Finset.Ico (j + 1) r :=
      (Finset.Ico_union_Ico_eq_Ico (by omega) (by omega)).symm
    rw [split, Finset.sum_union (Finset.Ico_disjoint_Ico_consecutive i (j + 1) r)]
    have z2 : ∑ l in Finset.Ico (j + 1) r, R (i + r * l) * Out (l + r * j) = 0 := by
      refine Finset.sum_eq_zero (fun l hl => ?_)
      have hl := Finset.mem_Ico.mp hl
      rw [hlow l j (by omega) (by omega), mul_zero]
    rw [z2, add_zero, Finset.sum_Ico_succ_top hij]
    obtain ⟨d1, d2⟩ := q1 j hj
    rw [d1, p2 j hj]
    have sc : ∑ l in Finset.Ico i j, R (i + r * l) * Out (l + r * j)
        = ∑ l in Finset.Ico i j, R (i + r * l) *
            S.1 (r * (r - j - 1) + (r - j - 1) + 1 + l) := by
      refine Finset.sum_congr rfl (fun l hl => ?_)
      have hl := Finset.mem_Ico.mp hl
      rw [(d2 l (by omega)).1]
    rw [sc]
    by_cases e : i = j
    · subst e
      rw [Finset.Ico_self, Finset.sum_empty, zero_add, if_pos rfl,
        show r * i + i = i + r * i by omega, mul_one_div, div_self (hd i hi)]
    · rw [if_neg e, Finset.sum_eq_sum_Ico_succ_bot (by omega), ← p3 j i hj (by omega)]
  · rw [if_neg (by omega)]
    refine Finset.sum_eq_zero (fun l hl => ?_)
    have hl := Finset.mem_Ico.mp hl
    rw [hlow l j (by omega) (by omega), mul_zero]

/-- Claim C13. For an `r` by `r` buffer `R` with nonzero diagonal and every requested thread
count `nt`, `mgcv_pbsi` overwrites `R` with `Ri` such that `U·Ri` is the identity, where
`U[i,l] = R[i + r*l]`, `i ≤ l`, is the upper triangle of the input, and every cell of `Ri`
strictly below the diagonal is zero. The rounded cut values are taken not to be below their
index (`round(r·(k/m)^{1/3}) ≥ k` and `round(r·(k/m)^{1/2}) ≥ k` for `k < m ≤ r`), which
keeps the cut points non-negative. -/
theorem pbsi_correct [Field α] (cut3 cut2 : Nat → Nat → Nat → Nat) (R : Nat → α) (r : Nat)
    (nt : Int) (hd : ∀ t, t < r → R (t + r * t) ≠ 0)
    (hcut3 : ∀ m k, 1 ≤ k → k < m → m ≤ r → k ≤ cut3 r m k)
    (hcut2 : ∀ m k, 1 ≤ k → k < m → m ≤ r → k ≤ cut2 r m k) :
    (∀ i j, i < r → j < r →
      ∑ l in Finset.Ico i r, R (i + r * l) * mgcv_pbsi cut3 cut2 R r nt (l + r * j)
        = if i = j then 1 else 0) ∧
    (∀ i j, j < i → i < r → mgcv_pbsi cut3 cut2 R r nt (i + r * j) = 0) :=
  pbsi_system cut3 cut2 R r nt hd hcut3 hcut2

/-- Witness for C13: `r = 2`, `R = [[1, 3], [·, 4]]` over the rationals, two threads, cut
values equal to their index. -/
theorem pbsi_correct_witness :
    ((∀ t, t < 2 → (fun q => (q : ℚ) + 1 : Nat → ℚ) (t + 2 * t) ≠ 0) ∧
      (∀ m k, 1 ≤ k → k < m → m ≤ 2 → k ≤ (fun _ _ k => k : Nat → Nat → Nat → Nat) 2 m k)) ∧
    ((∀ i j, i < 2 → j < 2 →
      ∑ l in Finset.Ico i 2, (fun q => (q : ℚ) + 1 : Nat → ℚ) (i + 2 * l) *
          mgcv_pbsi (fun _ _ k => k) (fun _ _ k => k) (fun q => (q : ℚ) + 1) 2 2 (l + 2 * j)
        = if i = j then 1 else 0) ∧
    (∀ i j, j < i → i < 2 →
      mgcv_pbsi (fun _ _ k => k) (fun _ _ k => k) (fun q => (q : ℚ) + 1) 2 2 (i + 2 * j)
        = 0)) :=
  ⟨⟨fun t _ => by simp only; positivity, fun m k _ _ _ => le_rfl⟩,
    pbsi_correct (fun _ _ k => k) (fun _ _ k => k) (fun q => (q : ℚ) + 1) 2 2
      (fun t _ => by simp only; positivity) (fun m k _ _ _ => le_rfl)
      (fun m k _ _ _ => le_rfl)⟩

/-- An upper triangular system with non-zero diagonal has at most one solution: two columns
that satisfy the same equations `Σ_{i ≤ l < r} U[i,l]·x[l] = b[i]`, `i < r`, are equal. -/
theorem upper_solve_unique [Field α] (U X Y b : Nat → α) (r j : Nat)
    (hd : ∀ t, t < r → U (t + r * t) ≠ 0)
    (hX : ∀ i, i < r → ∑ l in Finset.Ico i r, U (i + r * l) * X (l + r * j) = b i)
    (hY : ∀ i, i < r → ∑ l in Finset.Ico i r, U (i + r * l) * Y (l + r * j) = b i) :
    ∀ i, i < r → X (i + r * j) = Y (i + r * j) := by
  have key : ∀ k i, i < r → r - i ≤ k → X (i + r * j) = Y (i + r * j) := by
    intro k
    induction k with
    | zero => intro i hi h; omega
    | succ k ih =>
      intro i hi _
      have e1 := hX i hi
      have e2 := hY i hi
      rw [Finset.sum_eq_sum_Ico_succ_bot hi] at e1 e2
      have e3 : ∑ l in Finset.Ico (i + 1) r, U (i + r * l) * X (l + r * j)
          = ∑ l in Finset.Ico (i + 1) r, U (i + r * l) * Y (l + r * j) := by
        refine Finset.sum_congr rfl (fun l hl => ?_)
        have hl := Finset.mem_Ico.mp hl
        rw [ih l hl.2 (by omega)]
      rw [e3] at e1
      have e4 : U (i + r * i) * X (i + r * j) = U (i + r * i) * Y (i + r * j) := by
        have := e1.trans e2.symm
        exact add_right_cancel this
      exact mul_left_cancel₀ (hd i hi) e4
  exact fun i hi => key r i hi (by omega)

/-- The result of `mgcv_backsolve0` solves `U·C = B` for the upper triangle `U` of `R`. -/
theorem backsolve0_sum [Field α] (R : Nat → α) (r c : Nat) (B C : Nat → α) (bc : Nat)
    (hd : ∀ i, i < c → R (i + r * i) ≠ 0) (i j : Nat) (hi : i < c) (hj : j < bc) :
    ∑ k in Finset.Ico i c, R (i + r * k) * mgcv_backsolve0 R r c B C bc (k + c * j)
      = B (i + c * j) := by
  have h := backsolve0_eqs R r c B C hd bc i j hi hj
  rw [dotLoop_eq_sum] at h
  rw [Finset.sum_Ico_eq_sum_range]
  obtain ⟨q, hq⟩ : ∃ q, c - i = q + 1 := ⟨c - i - 1, by omega⟩
  rw [hq, Finset.sum_range_succ', show i + c * j = i + j * c by ring, ← h,
    show c - (i + 1) = q by omega, add_comm]
  congr 1
  · rw [Nat.add_zero, show i + c * j = i + j * c by ring]
  · refine Finset.sum_congr rfl (fun t _ => ?_)
    rw [show i + r * (i + (t + 1)) = i + (i + 1) * r + t * r by ring,
      show i + (t + 1) + c * j = j * c + i + 1 + t by ring]

/-- Claim C38. For an `r` by `r` buffer `R` with nonzero diagonal: the result of `mgcv_pbsi`
is the same, entry for entry, for any two thread counts and any two inputs that agree on
and above the diagonal, and it equals the result of `mgcv_backsolve0` for the same `R` and
the identity matrix as `B`. The rounded cut values are taken not to be below their index,
as they are for `k < m ≤ r`. -/
theorem pbsi_independent [Field α] (cut3 cut2 : Nat → Nat → Nat → Nat) (R R1 C : Nat → α)
    (r : Nat) (nt nt1 : Int) (hd : ∀ t, t < r → R (t + r * t) ≠ 0)
    (hR : ∀ i k, i ≤ k → k < r → R1 (i + r * k) = R (i + r * k))
    (hcut3 : ∀ m k, 1 ≤ k → k < m → m ≤ r → k ≤ cut3 r m k)
    (hcut2 : ∀ m k, 1 ≤ k → k < m → m ≤ r → k ≤ cut2 r m k) :
    (∀ i j, i < r → j < r →
      mgcv_pbsi cut3 cut2 R1 r nt1 (i + r * j) = mgcv_pbsi cut3 cut2 R r nt (i + r * j)) ∧
    (∀ i j, i < r → j < r →
      mgcv_pbsi cut3 cut2 R r nt (i + r * j)
        = mgcv_backsolve0 R r r (fun p => if p % r = p / r then 1 else 0) C r
            (i + r * j)) := by
  have hd1 : ∀ t, t < r → R1 (t + r * t) ≠ 0 := fun t ht => by
    rw [hR t t le_rfl ht]; exact hd t ht
  obtain ⟨s, -⟩ := pbsi_system cut3 cut2 R r nt hd hcut3 hcut2
  obtain ⟨s1, -⟩ := pbsi_system cut3 cut2 R1 r nt1 hd1 hcut3 hcut2
  have s1' : ∀ i j, i < r → j < r →
      ∑ l in Finset.Ico i r, R (i + r * l) * mgcv_pbsi cut3 cut2 R1 r nt1 (l + r * j)
        = if i = j then 1 else 0 := by
    intro i j hi hj
    rw [← s1 i j hi hj]
    refine Finset.sum_congr rfl (fun l hl => ?_)
    have hl := Finset.mem_Ico.mp hl
    rw [hR i l hl.1 hl.2]
  refine ⟨fun i j hi hj => ?_, fun i j hi hj => ?_⟩
  · exact upper_solve_unique R _ _ (fun i => if i = j then 1 else 0) r j hd
      (fun i hi => s1' i j hi hj) (fun i hi => s i j hi hj) i hi
  · refine upper_solve_unique R _ _ (fun i => if i = j then 1 else 0) r j hd
      (fun i hi => s i j hi hj) (fun i hi => ?_) i hi
    rw [backsolve0_sum R r r _ C r hd i j hi hj]
    have e1 : (i + r * j) % r = i := by
      rw [Nat.add_mul_mod_self_left]; exact Nat.mod_eq_of_lt hi
    have e2 : (i + r * j) / r = j := by
      rw [Nat.add_mul_div_left _ _ (by omega), Nat.div_eq_of_lt hi, Nat.zero_add]
    simp only [e1, e2]

/-- Witness for C38: `r = 2`, the inputs `[[1, 3], [2, 4]]` and `[[1, 3], [7, 4]]`
(column-major `[1, 2, 3, 4]` and `[1, 7, 3, 4]`) over the rationals, thread counts 2 and 1,
cut values equal to their index. -/
theorem pbsi_independent_witness :
    ((∀ t, t < 2 → (fun q => (q : ℚ) + 1 : Nat → ℚ) (t + 2 * t) ≠ 0) ∧
      (∀ i k, i ≤ k → k < 2 →
        (fun q => if q = 1 then (7 : ℚ) else (q : ℚ) + 1 : Nat → ℚ) (i + 2 * k)
          = (fun q => (q : ℚ) + 1 : Nat → ℚ) (i + 2 * k))) ∧
    ((∀ i j, i < 2 → j < 2 →
      mgcv_pbsi (fun _ _ k => k) (fun _ _ k => k)
          (fun q => if q = 1 then (7 : ℚ) else (q : ℚ) + 1) 2 1 (i + 2 * j)
        = mgcv_pbsi (fun _ _ k => k) (fun _ _ k => k) (fun q => (q : ℚ) + 1) 2 2
            (i + 2 * j)) ∧
    (∀ i j, i < 2 → j < 2 →
      mgcv_pbsi (fun _ _ k => k) (fun _ _ k => k) (fun q => (q : ℚ) + 1) 2 2 (i + 2 * j)
        = mgcv_backsolve0 (fun q => (q : ℚ) + 1) 2 2 (fun p => if p % 2 = p / 2 then 1 else 0)
            (fun _ => 0) 2 (i + 2 * j))) :=
  have hd : ∀ t, t < 2 → (fun q => (q : ℚ) + 1 : Nat → ℚ) (t + 2 * t) ≠ 0 :=
    fun t _ => by simp only; positivity
  have hR : ∀ i k, i ≤ k → k < 2 →
      (fun q => if q = 1 then (7 : ℚ) else (q : ℚ) + 1 : Nat → ℚ) (i + 2 * k)
        = (fun q => (q : ℚ) + 1 : Nat → ℚ) (i + 2 * k) :=
    fun i k hik hk => by
      have : i + 2 * k ≠ 1 := by omega
      simp only [this, if_false]
  ⟨⟨hd, hR⟩,
    pbsi_independent (fun _ _ k => k) (fun _ _ k => k) (fun q => (q : ℚ) + 1)
      (fun q => if q = 1 then (7 : ℚ) else (q : ℚ) + 1) (fun _ => 0) 2 2 1 hd hR
      (fun m k _ _ _ => le_rfl) (fun m k _ _ _ => le_rfl)⟩

end PbsiProofs

/-! ## `mgcv_piqr` -/

section PiqrProofs
variable {α : Type}

/-- A `while` loop whose condition holds for the first `k` states and fails for the next
one ends after `k` passes, for every bound `fuel ≥ k`. -/
theorem whileLoop_eq {σ : Type} (cond : σ → Bool) (body : σ → σ) (k fuel : Nat) (s : σ)
    (hk : k ≤ fuel) (h1 : ∀ j, j < k → cond (body^[j] s) = true)
    (h2 : cond (body^[k] s) = false) :
    whileLoop cond body fuel s = some (body^[k] s) := by
  induction k generalizing fuel s with
  | zero =>
    have h2 : cond s = false := h2
    cases fuel with
    | zero => simp [whileLoop, h2]
    | succ f => simp [whileLoop, h2]
  | succ k ih =>
    cases fuel with
    | zero => omega
    | succ f =>
      have h0 : cond s = true := h1 0 (by omega)
      rw [whileLoop, if_pos h0, Function.iterate_succ_apply]
      exact ih f (body s) (by omega)
        (fun j hj => by
          have := h1 (j + 1) (by omega)
          rwa [Function.iterate_succ_apply] at this)
        (by rwa [Function.iterate_succ_apply] at h2)

/-- The first loop of `mgcv_piqr` leaves in `tau` the largest squared column norm, or 0 if
none is positive. -/
theorem piqrInit_spec [LinearOrderedField α] (x beta : Nat → α) (piv : Nat → Nat)
    (n p : Nat) :
    (piqrInit x beta piv n p).r = -1 ∧ 0 ≤ (piqrInit x beta piv n p).tau ∧
    (∀ i, i < p → dotLoop n (fun t => x (i * n + t) * x (i * n + t))
      ≤ (piqrInit x beta piv n p).tau) ∧
    ((piqrInit x beta piv n p).tau = 0 ∨
      ∃ i, i < p ∧ dotLoop n (fun t => x (i * n + t) * x (i * n + t))
        = (piqrInit x beta piv n p).tau) := by
  unfold piqrInit
  induction p with
  | zero => exact ⟨rfl, le_rfl, fun i h => absurd h (Nat.not_lt_zero i), Or.inl rfl⟩
  | succ m ih =>
    obtain ⟨h1, h2, h3, h4⟩ := ih
    rw [forLoop_succ]
    generalize forLoop m _ _ = S at h1 h2 h3 h4 ⊢
    simp only
    by_cases c : dotLoop n (fun t => x (m * n + t) * x (m * n + t)) > S.tau
    · rw [if_pos c]
      refine ⟨h1, le_trans h2 (le_of_lt c), ?_, Or.inr ⟨m, by omega, rfl⟩⟩
      intro i hi
      by_cases e : i = m
      · rw [e]
      · exact le_trans (h3 i (by omega)) (le_of_lt c)
    · rw [if_neg c]
      refine ⟨h1, h2, ?_, ?_⟩
      · intro i hi
        by_cases e : i = m
        · rw [e]; exact not_lt.mp c
        · exact h3 i (by omega)
      · rcases h4 with h4 | ⟨i, hi, h4⟩
        · exact Or.inl h4
        · exact Or.inr ⟨i, by omega, h4⟩

/-- The downdate loop of `mgcv_piqr` leaves in `tau` the largest downdated norm of the
columns `i > r`, or 0 if none is positive. -/
theorem piqrDowndate_spec [LinearOrderedField α] (x c : Nat → α) (n p r p0 : Nat) :
    0 ≤ (piqrDowndate x c n p r p0).2.1 ∧
    (∀ i, r + 1 ≤ i → i < p →
      (piqrDowndate x c n p r p0).1 i ≤ (piqrDowndate x c n p r p0).2.1) ∧
    ((piqrDowndate x c n p r p0).2.1 = 0 ∨
      ∃ i, r + 1 ≤ i ∧ i < p ∧
        (piqrDowndate x c n p r p0).1 i = (piqrDowndate x c n p r p0).2.1) := by
  unfold piqrDowndate
  have key : ∀ m, 
      0 ≤ (forLoop m (fun t (s : (Nat → α) × α × Nat) =>
        let i := r + 1 + t
        let ci := s.1 i - x (p0 + n + t * n) * x (p0 + n + t * n)
        if ci > s.2.1 then (store s.1 i ci, ci, i) else (store s.1 i ci, s.2.1, s.2.2))
        (c, 0, r + 1)).2.1 ∧
      (∀ i, r + 1 ≤ i → i < r + 1 + m →
        (forLoop m (fun t (s : (Nat → α) × α × Nat) =>
        let i := r + 1 + t
        let ci := s.1 i - x (p0 + n + t * n) * x (p0 + n + t * n)
        if ci > s.2.1 then (store s.1 i ci, ci, i) else (store s.1 i ci, s.2.1, s.2.2))
        (c, 0, r + 1)).1 i ≤ (forLoop m (fun t (s : (Nat → α) × α × Nat) =>
        let i := r + 1 + t
        let ci := s.1 i - x (p0 + n + t * n) * x (p0 + n + t * n)
        if ci > s.2.1 then (store s.1 i ci, ci, i) else (store s.1 i ci, s.2.1, s.2.2))
        (c, 0, r + 1)).2.1) ∧
      ((forLoop m (fun t (s : (Nat → α) × α × Nat) =>
        let i := r + 1 + t
        let ci := s.1 i - x (p0 + n + t * n) * x (p0 + n + t * n)
        if ci > s.2.1 then (store s.1 i ci, ci, i) else (store s.1 i ci, s.2.1, s.2.2))
        (c, 0, r + 1)).2.1 = 0 ∨
        ∃ i, r + 1 ≤ i ∧ i < r + 1 + m ∧
          (forLoop m (fun t (s : (Nat → α) × α × Nat) =>
        let i := r + 1 + t
        let ci := s.1 i - x (p0 + n + t * n) * x (p0 + n + t * n)
        if ci > s.2.1 then (store s.1 i ci, ci, i) else (store s.1 i ci, s.2.1, s.2.2))
        (c, 0, r + 1)).1 i = (forLoop m (fun t (s : (Nat → α) × α × Nat) =>
        let i := r + 1 + t
        let ci := s.1 i - x (p0 + n + t * n) * x (p0 + n + t * n)
        if ci > s.2.1 then (store s.1 i ci, ci, i) else (store s.1 i ci, s.2.1, s.2.2))
        (c, 0, r + 1)).2.1) := by
    intro m
    induction m with
    | zero => exact ⟨le_rfl, fun i h1 h2 => by omega, Or.inl rfl⟩
    | succ m ih =>
      obtain ⟨h1, h2, h3⟩ := ih
      rw [forLoop_succ]
      generalize forLoop m _ _ = S at h1 h2 h3 ⊢
      obtain ⟨cc, tau, k⟩ := S
      simp only at h1 h2 h3 ⊢
      generalize cc (r + 1 + m) - x (p0 + n + m * n) * x (p0 + n + m * n) = ci
      by_cases hc : ci > tau
      · rw [if_pos hc]
        simp only
        refine ⟨le_trans h1 (le_of_lt hc), ?_, Or.inr ⟨r + 1 + m, by omega, by omega, ?_⟩⟩
        · intro i hi1 hi2
          by_cases e : i = r + 1 + m
          · rw [e, store_same]
          · rw [store_ne _ _ _ _ e]
            exact le_trans (h2 i hi1 (by omega)) (le_of_lt hc)
        · rw [store_same]
      · rw [if_neg hc]
        simp only
        refine ⟨h1, ?_, ?_⟩
        · intro i hi1 hi2
          by_cases e : i = r + 1 + m
          · rw [e, store_same]; exact not_lt.mp hc
          · rw [store_ne _ _ _ _ e]
            exact h2 i hi1 (by omega)
        · rcases h3 with h3 | ⟨i, hi1, hi2, h3⟩
          · exact Or.inl h3
          · refine Or.inr ⟨i, hi1, by omega, ?_⟩
            rw [store_ne _ _ _ _ (by omega)]
            exact h3
  obtain ⟨h1, h2, h3⟩ := key (p - (r + 1))
  refine ⟨h1, fun i hi1 hi2 => h2 i hi1 (by omega), ?_⟩
  rcases h3 with h3 | ⟨i, hi1, hi2, h3⟩
  · exact Or.inl h3
  · exact Or.inr ⟨i, hi1, by omega, h3⟩

/-- Fields `r`, `tau` and `c` of the state after one pass of the loop of `mgcv_piqr`. -/
theorem piqrStep_fields [LinearOrderedField α]
    (dlarfg : Nat → α → (Nat → α) → α × (Nat → α) × α) (n p nt : Nat) (s : PiqrState α) :
    ∃ (x5 c1 : Nat → α),
      (piqrStep dlarfg n p nt s).r = ((s.r + 1).toNat : Int) ∧
      (piqrStep dlarfg n p nt s).tau
        = (if (((s.r + 1).toNat : Nat) : Int) = (n : Int) - 1 then 0
           else (piqrDowndate x5 c1 n p (s.r + 1).toNat
             ((s.r + 1).toNat * n + (s.r + 1).toNat)).2.1) ∧
      (piqrStep dlarfg n p nt s).c
        = (piqrDowndate x5 c1 n p (s.r + 1).toNat
             ((s.r + 1).toNat * n + (s.r + 1).toNat)).1 :=
  ⟨_, _, rfl, rfl, rfl⟩

/-- After a pass of the loop of `mgcv_piqr` that starts with `s` reflectors generated, `tau`
is not negative, and it is zero exactly if `s + 1 = n` or no column `i > s` has a positive
downdated norm. -/
theorem piqrStep_tau [LinearOrderedField α]
    (dlarfg : Nat → α → (Nat → α) → α × (Nat → α) × α) (n p nt : Nat) (S : PiqrState α)
    (s : Nat) (hr : S.r = (s : Int) - 1) :
    (piqrStep dlarfg n p nt S).r = (s : Int) ∧
    0 ≤ (piqrStep dlarfg n p nt S).tau ∧
    ((piqrStep dlarfg n p nt S).tau = 0 ↔
      (s + 1 = n ∨ ∀ i, s + 1 ≤ i → i < p → (piqrStep dlarfg n p nt S).c i ≤ 0)) := by
  obtain ⟨x5, c1, e1, e2, e3⟩ := piqrStep_fields dlarfg n p nt S
  have hs : (S.r + 1).toNat = s := by rw [hr]; omega
  rw [hs] at e1 e2 e3
  rw [e1, e2, e3]
  obtain ⟨d1, d2, d3⟩ := piqrDowndate_spec x5 c1 n p s (s * n + s)
  generalize piqrDowndate x5 c1 n p s (s * n + s) = D at d1 d2 d3 ⊢
  refine ⟨rfl, ?_, ?_⟩
  · split_ifs
    · exact le_rfl
    · exact d1
  · by_cases h : (s : Int) = (n : Int) - 1
    · rw [if_pos h]
      exact ⟨fun _ => Or.inl (by omega), fun _ => rfl⟩
    · rw [if_neg h]
      constructor
      · intro h0
        refine Or.inr (fun i hi1 hi2 => ?_)
        rw [← h0]
        exact d2 i hi1 hi2
      · rintro (h' | h')
        · omega
        · rcases d3 with d3 | ⟨i, hi1, hi2, d3⟩
          · exact d3
          · exact le_antisymm (d3 ▸ h' i hi1 hi2) d1

/-- State of `mgcv_piqr` after `j` passes of the loop body: `r = j - 1` and `tau ≥ 0`. -/
theorem piqrIter_r [LinearOrderedField α]
    (dlarfg : Nat → α → (Nat → α) → α × (Nat → α) × α) (x beta : Nat → α)
    (piv : Nat → Nat) (n p nt : Nat) (j : Nat) :
    ((piqrStep dlarfg n p nt)^[j] (piqrInit x beta piv n p)).r = (j : Int) - 1 ∧
    0 ≤ ((piqrStep dlarfg n p nt)^[j] (piqrInit x beta piv n p)).tau := by
  induction j with
  | zero =>
    obtain ⟨h1, h2, -, -⟩ := piqrInit_spec x beta piv n p
    exact ⟨by rw [Function.iterate_zero_apply, h1]; rfl, h2⟩
  | succ j ih =>
    rw [Function.iterate_succ_apply']
    obtain ⟨h1, h2, -⟩ := piqrStep_tau dlarfg n p nt _ j ih.1
    exact ⟨by rw [h1]; push_cast; ring, h2⟩

/-- Claim C22. For every `n`, `p` and `nt ≥ 1` the loop of `mgcv_piqr` ends after
`k ≤ min(n, p)` passes (for every bound `fuel ≥ min(n, p)` on the number of passes), each of
which generates one reflector, and `k` is returned; `k = 0` exactly if every column of `x`
has zero squared norm; before each of the passes `tau > 0`, and `k ≥ 1` is the first count
`s ≥ 1` with `s = n` or no positive downdated norm `c[i]`, `i ≥ s`, after `s` passes. -/
theorem piqr_terminates [LinearOrderedField α]
    (dlarfg : Nat → α → (Nat → α) → α × (Nat → α) × α) (openmp : Bool) (x : Nat → α)
    (n p : Nat) (beta : Nat → α) (piv : Nat → Nat) (nt fuel : Nat) (hnt : 1 ≤ nt)
    (hfuel : min n p ≤ fuel) :
    ∃ k : Nat, k ≤ min n p ∧
      (mgcv_piqr dlarfg openmp x n p beta piv nt fuel).map (fun o => o.2.2.2)
        = some (k : Int) ∧
      (k = 0 ↔ ∀ i, i < p → dotLoop n (fun t => x (i * n + t) * x (i * n + t)) = 0) ∧
      (∀ s, s < k →
        0 < ((piqrStep dlarfg n p (if openmp then nt else 1))^[s]
          (piqrInit x beta piv n p)).tau) ∧
      ((piqrStep dlarfg n p (if openmp then nt else 1))^[k]
          (piqrInit x beta piv n p)).tau = 0 ∧
      (1 ≤ k → (k = n ∨ ∀ i, k ≤ i → i < p →
        ((piqrStep dlarfg n p (if openmp then nt else 1))^[k]
          (piqrInit x beta piv n p)).c i ≤ 0)) ∧
      (∀ s, 1 ≤ s → s < k → s ≠ n ∧ ∃ i, s ≤ i ∧ i < p ∧
        0 < ((piqrStep dlarfg n p (if openmp then nt else 1))^[s]
          (piqrInit x beta piv n p)).c i) := by
  have _ := hnt
  unfold mgcv_piqr
  simp only
  generalize (if openmp then nt else 1) = nt1
  have hnorm : ∀ i, 0 ≤ dotLoop n (fun t => x (i * n + t) * x (i * n + t)) := by
    intro i
    rw [dotLoop_eq_sum]
    exact Finset.sum_nonneg (fun t _ => mul_self_nonneg _)
  obtain ⟨-, i2, i3, i4⟩ := piqrInit_spec x beta piv n p
  have hit := piqrIter_r dlarfg x beta piv n p nt1
  have hstep : ∀ j, ((piqrStep dlarfg n p nt1)^[j + 1] (piqrInit x beta piv n p)).tau = 0 ↔
      (j + 1 = n ∨ ∀ i, j + 1 ≤ i → i < p →
        ((piqrStep dlarfg n p nt1)^[j + 1] (piqrInit x beta piv n p)).c i ≤ 0) := by
    intro j
    rw [Function.iterate_succ_apply']
    exact (piqrStep_tau dlarfg n p nt1 _ j (hit j).1).2.2
  have h0 : ((piqrStep dlarfg n p nt1)^[0] (piqrInit x beta piv n p)).tau = 0 ↔
      ∀ i, i < p → dotLoop n (fun t => x (i * n + t) * x (i * n + t)) = 0 := by
    rw [Function.iterate_zero_apply]
    constructor
    · intro h i hi
      exact le_antisymm (h ▸ i3 i hi) (hnorm i)
    · intro h
      rcases i4 with i4 | ⟨i, hi, i4⟩
      · exact i4
      · rw [← i4, h i hi]
  have hex : ∃ k, ((piqrStep dlarfg n p nt1)^[k] (piqrInit x beta piv n p)).tau = 0 ∧
      k ≤ min n p := by
    by_cases hz : min n p = 0
    · refine ⟨0, h0.mpr (fun i hi => ?_), by omega⟩
      have hn : n = 0 := by
        rcases Nat.min_eq_zero_iff.mp hz with h | h
        · exact h
        · omega
      rw [hn]
      rfl
    · refine ⟨(min n p - 1) + 1, (hstep _).mpr ?_, by omega⟩
      by_cases hnp : n ≤ p
      · exact Or.inl (by rw [Nat.min_eq_left hnp]; rw [Nat.min_eq_left hnp] at hz; omega)
      · refine Or.inr (fun i hi1 hi2 => ?_)
        rw [Nat.min_eq_right (by omega)] at hi1
        omega
  classical
  have hex' : ∃ k, ((piqrStep dlarfg n p nt1)^[k] (piqrInit x beta piv n p)).tau = 0 := by
    obtain ⟨k, hk, -⟩ := hex
    exact ⟨k, hk⟩
  have hk0 := Nat.find_spec hex'
  have hkmin : ∀ s, s < Nat.find hex' →
      0 < ((piqrStep dlarfg n p nt1)^[s] (piqrInit x beta piv n p)).tau := by
    intro s hs
    exact lt_of_le_of_ne (hit s).2 (Ne.symm (Nat.find_min hex' hs))
  have hkle : Nat.find hex' ≤ min n p := by
    obtain ⟨k, hk, hk2⟩ := hex
    exact le_trans (Nat.find_min' hex' hk) hk2
  generalize Nat.find hex' = k at hk0 hkmin hkle
  refine ⟨k, hkle, ?_, ?_, hkmin, hk0, ?_, ?_⟩
  · have hw := whileLoop_eq (fun s : PiqrState α => decide (s.tau > 0))
      (piqrStep dlarfg n p nt1) k fuel (piqrInit x beta piv n p) (le_trans hkle hfuel)
      (fun j hj => decide_eq_true (hkmin j hj))
      (decide_eq_false (by
        show ¬ (((piqrStep dlarfg n p nt1)^[k] (piqrInit x beta piv n p)).tau > 0)
        rw [hk0]
        exact lt_irrefl 0))
    rw [hw]
    simp only [Option.map_some', (hit k).1]
    congr 1
    ring
  · constructor
    · intro hk
      subst hk
      exact h0.mp hk0
    · intro h
      by_contra hk
      have := hkmin 0 (by omega)
      rw [h0.mpr h] at this
      exact lt_irrefl _ this
  · intro hk
    have e : k = (k - 1) + 1 := by omega
    rw [e] at hk0
    have := (hstep (k - 1)).mp hk0
    rw [← e] at this
    exact this
  · intro s hs1 hs2
    have e : s = (s - 1) + 1 := by omega
    have hpos := hkmin s hs2
    have hne : ¬ (((piqrStep dlarfg n p nt1)^[s - 1 + 1] (piqrInit x beta piv n p)).tau = 0) := by
      rw [← e]
      exact ne_of_gt hpos
    rw [hstep (s - 1), ← e] at hne
    push_neg at hne
    obtain ⟨hn, i, hi1, hi2, hi3⟩ := hne
    exact ⟨hn, i, hi1, hi2, hi3⟩

/-- Witness for C22: the 2 by 2 identity, a `dlarfg` that returns its input with `tau = 0`,
one thread: the loop ends after two passes. -/
theorem piqr_terminates_witness :
    (1 ≤ 1 ∧ min 2 2 ≤ 2) ∧
    ∃ k : Nat, k ≤ min 2 2 ∧
      (mgcv_piqr (fun _ a v => (a, v, (0 : ℚ))) false
        (fun q => if q = 0 ∨ q = 3 then 1 else 0) 2 2 (fun _ => 0) (fun _ => 0) 1 2).map
          (fun o => o.2.2.2) = some (k : Int) :=
  ⟨by decide,
    (piqr_terminates (fun _ a v => (a, v, (0 : ℚ))) false
      (fun q => if q = 0 ∨ q = 3 then 1 else 0) 2 2 (fun _ => 0) (fun _ => 0) 1 2
      (by decide) (by decide)).imp (fun _ h => ⟨h.1, h.2.1⟩)⟩

end PiqrProofs

/-! ## `bpqr` -/

section BpqrProofs
variable {α : Type}

/-- A `while` loop with a measure that every pass takes down ends within as many passes as
the measure of the start state, in a state where the condition fails, and an invariant of
the passes holds at the end. -/
theorem whileLoop_terminates {σ : Type} (cond : σ → Bool) (body : σ → σ) (mu : σ → Nat)
    (Inv : σ → Prop)
    (hstep : ∀ s, Inv s → cond s = true → Inv (body s) ∧ mu (body s) < mu s) :
    ∀ fuel s, Inv s → mu s ≤ fuel →
      ∃ s', whileLoop cond body fuel s = some s' ∧ cond s' = false ∧ Inv s' := by
  intro fuel
  induction fuel with
  | zero =>
    intro s hI hmu
    by_cases c : cond s = true
    · have := (hstep s hI c).2
      omega
    · refine ⟨s, ?_, by simpa using c, hI⟩
      simp [whileLoop, c]
  | succ f ih =>
    intro s hI hmu
    by_cases c : cond s = true
    · obtain ⟨h1, h2⟩ := hstep s hI c
      obtain ⟨s', e1, e2, e3⟩ := ih (body s) h1 (by omega)
      exact ⟨s', by rw [whileLoop, if_pos c]; exact e1, e2, e3⟩
    · refine ⟨s, ?_, by simpa using c, hI⟩
      simp [whileLoop, c]

theorem bpqrSwap_ctl (n q j : Nat) (s : BpqrState α) :
    (bpqrSwap n q j s).jb = s.jb ∧ (bpqrSwap n q j s).pb = s.pb ∧
    (bpqrSwap n q j s).nb = s.nb ∧ (bpqrSwap n q j s).piv = swapCells s.piv q (s.jb + j) :=
  ⟨rfl, rfl, rfl, rfl⟩

theorem bpqrColUpdate_ctl [LinearOrderedField α] (n nt m j : Nat) (s : BpqrState α) :
    (bpqrColUpdate n nt m j s).jb = s.jb ∧ (bpqrColUpdate n nt m j s).pb = s.pb ∧
    (bpqrColUpdate n nt m j s).nb = s.nb ∧ (bpqrColUpdate n nt m j s).piv = s.piv ∧
    (bpqrColUpdate n nt m j s).brk = s.brk := by
  unfold bpqrColUpdate
  split_ifs <;> exact ⟨rfl, rfl, rfl, rfl, rfl⟩

theorem bpqrFcol_ctl [LinearOrderedField α] (n p nt m j : Nat) (s : BpqrState α) :
    (bpqrFcol n p nt m j s).jb = s.jb ∧ (bpqrFcol n p nt m j s).pb = s.pb ∧
    (bpqrFcol n p nt m j s).nb = s.nb ∧ (bpqrFcol n p nt m j s).piv = s.piv ∧
    (bpqrFcol n p nt m j s).brk = s.brk := by
  unfold bpqrFcol
  simp only
  split_ifs <;> exact ⟨rfl, rfl, rfl, rfl, rfl⟩

theorem bpqrFfix_ctl [LinearOrderedField α] (n nt m j : Nat) (s : BpqrState α) :
    (bpqrFfix n nt m j s).jb = s.jb ∧ (bpqrFfix n nt m j s).pb = s.pb ∧
    (bpqrFfix n nt m j s).nb = s.nb ∧ (bpqrFfix n nt m j s).piv = s.piv ∧
    (bpqrFfix n nt m j s).brk = s.brk := by
  unfold bpqrFfix
  split_ifs <;> exact ⟨rfl, rfl, rfl, rfl, rfl⟩

theorem bpqrRowUpdate_ctl [LinearOrderedField α] (n p nt j : Nat) (s : BpqrState α) :
    (bpqrRowUpdate n p nt j s).jb = s.jb ∧ (bpqrRowUpdate n p nt j s).pb = s.pb ∧
    (bpqrRowUpdate n p nt j s).nb = s.nb ∧ (bpqrRowUpdate n p nt j s).piv = s.piv ∧
    (bpqrRowUpdate n p nt j s).brk = s.brk := by
  unfold bpqrRowUpdate
  simp only
  split_ifs <;> exact ⟨rfl, rfl, rfl, rfl, rfl⟩

/-- One pass of the `j` loop of `bpqr` leaves `jb` and `pb` as they are, and `nb` too unless
it leaves the loop with `nb = j + 1`; `piv` has its entries `q` and `k = jb + j` exchanged,
where `q` is the pivot column. -/
theorem bpqrCol_ctl [LinearOrderedField α]
    (dlarfg : Nat → α → (Nat → α) → α × (Nat → α) × α) (tol : α) (n p nt j : Nat)
    (s : BpqrState α) :
    (bpqrCol dlarfg tol n p nt j s).jb = s.jb ∧ (bpqrCol dlarfg tol n p nt j s).pb = s.pb ∧
    ((bpqrCol dlarfg tol n p nt j s).nb = s.nb ∧ (bpqrCol dlarfg tol n p nt j s).brk = s.brk ∨
      (bpqrCol dlarfg tol n p nt j s).nb = j + 1) ∧
    (bpqrCol dlarfg tol n p nt j s).piv
      = swapCells s.piv (bpqrPivot s.cn p (s.jb + j)).2 (s.jb + j) ∧
    (bpqrCol dlarfg tol n p nt j s).j = j + 1 ∧
    (bpqrCol dlarfg tol n p nt j s).k = s.jb + j := by
  have hs1 : ∀ s1 : BpqrState α,
      s1 = (if (bpqrPivot s.cn p (s.jb + j)).2 ≠ s.jb + j
        then bpqrSwap n (bpqrPivot s.cn p (s.jb + j)).2 j s else s) →
      s1.jb = s.jb ∧ s1.pb = s.pb ∧ s1.nb = s.nb ∧ s1.brk = s.brk ∧
      s1.piv = swapCells s.piv (bpqrPivot s.cn p (s.jb + j)).2 (s.jb + j) := by
    intro s1 h
    by_cases c : (bpqrPivot s.cn p (s.jb + j)).2 ≠ s.jb + j
    · rw [if_pos c] at h
      subst h
      exact ⟨rfl, rfl, rfl, rfl, rfl⟩
    · rw [if_neg c] at h
      subst h
      refine ⟨rfl, rfl, rfl, rfl, ?_⟩
      rw [not_not.mp c]
      funext q
      unfold swapCells store
      split_ifs with h1 <;> simp [*]
  have a1 : ∀ m (s : BpqrState α), (bpqrColUpdate n nt m j s).jb = s.jb :=
    fun m s => (bpqrColUpdate_ctl n nt m j s).1
  have a2 : ∀ m (s : BpqrState α), (bpqrColUpdate n nt m j s).pb = s.pb :=
    fun m s => (bpqrColUpdate_ctl n nt m j s).2.1
  have a3 : ∀ m (s : BpqrState α), (bpqrColUpdate n nt m j s).nb = s.nb :=
    fun m s => (bpqrColUpdate_ctl n nt m j s).2.2.1
  have a4 : ∀ m (s : BpqrState α), (bpqrColUpdate n nt m j s).piv = s.piv :=
    fun m s => (bpqrColUpdate_ctl n nt m j s).2.2.2.1
  have a5 : ∀ m (s : BpqrState α), (bpqrColUpdate n nt m j s).brk = s.brk :=
    fun m s => (bpqrColUpdate_ctl n nt m j s).2.2.2.2
  have b1 : ∀ m (s : BpqrState α), (bpqrFcol n p nt m j s).jb = s.jb :=
    fun m s => (bpqrFcol_ctl n p nt m j s).1
  have b2 : ∀ m (s : BpqrState α), (bpqrFcol n p nt m j s).pb = s.pb :=
    fun m s => (bpqrFcol_ctl n p nt m j s).2.1
  have b3 : ∀ m (s : BpqrState α), (bpqrFcol n p nt m j s).nb = s.nb :=
    fun m s => (bpqrFcol_ctl n p nt m j s).2.2.1
  have b4 : ∀ m (s : BpqrState α), (bpqrFcol n p nt m j s).piv = s.piv :=
    fun m s => (bpqrFcol_ctl n p nt m j s).2.2.2.1
  have b5 : ∀ m (s : BpqrState α), (bpqrFcol n p nt m j s).brk = s.brk :=
    fun m s => (bpqrFcol_ctl n p nt m j s).2.2.2.2
  have c1 : ∀ m (s : BpqrState α), (bpqrFfix n nt m j s).jb = s.jb :=
    fun m s => (bpqrFfix_ctl n nt m j s).1
  have c2 : ∀ m (s : BpqrState α), (bpqrFfix n nt m j s).pb = s.pb :=
    fun m s => (bpqrFfix_ctl n nt m j s).2.1
  have c3 : ∀ m (s : BpqrState α), (bpqrFfix n nt m j s).nb = s.nb :=
    fun m s => (bpqrFfix_ctl n nt m j s).2.2.1
  have c4 : ∀ m (s : BpqrState α), (bpqrFfix n nt m j s).piv = s.piv :=
    fun m s => (bpqrFfix_ctl n nt m j s).2.2.2.1
  have c5 : ∀ m (s : BpqrState α), (bpqrFfix n nt m j s).brk = s.brk :=
    fun m s => (bpqrFfix_ctl n nt m j s).2.2.2.2
  have d1 : ∀ (s : BpqrState α), (bpqrRowUpdate n p nt j s).jb = s.jb :=
    fun s => (bpqrRowUpdate_ctl n p nt j s).1
  have d2 : ∀ (s : BpqrState α), (bpqrRowUpdate n p nt j s).pb = s.pb :=
    fun s => (bpqrRowUpdate_ctl n p nt j s).2.1
  have d3 : ∀ (s : BpqrState α), (bpqrRowUpdate n p nt j s).nb = s.nb :=
    fun s => (bpqrRowUpdate_ctl n p nt j s).2.2.1
  have d4 : ∀ (s : BpqrState α), (bpqrRowUpdate n p nt j s).piv = s.piv :=
    fun s => (bpqrRowUpdate_ctl n p nt j s).2.2.2.1
  have d5 : ∀ (s : BpqrState α), (bpqrRowUpdate n p nt j s).brk = s.brk :=
    fun s => (bpqrRowUpdate_ctl n p nt j s).2.2.2.2
  obtain ⟨e1, e2, e3, e4, e5⟩ := hs1 _ rfl
  unfold bpqrCol
  simp only
  generalize (if (bpqrPivot s.cn p (s.jb + j)).2 ≠ s.jb + j
        then bpqrSwap n (bpqrPivot s.cn p (s.jb + j)).2 j s else s) = s1 at e1 e2 e3 e4 e5 ⊢
  split_ifs
  · simp only [a1, a2, a3, a4, a5, b1, b2, b3, b4, b5, c1, c2, c3, c4, c5, d1, d2, d3, d4, d5,
      e1, e2, e3, e4, e5]
    exact ⟨trivial, trivial, Or.inl ⟨trivial, trivial⟩, trivial, trivial, trivial⟩
  · simp only [a1, a2, a3, a4, a5, b1, b2, b3, b4, b5, c1, c2, c3, c4, c5, d1, d2, d3, d4, d5,
      e1, e2, e3, e4, e5]
    exact ⟨trivial, trivial, Or.inr trivial, trivial, trivial, trivial⟩

/-- The `j` loop of `bpqr`, started with `nb ≥ 1` columns to do: `jb` and `pb` stay as they
are and `1 ≤ nb` at the end. -/
theorem bpqrCols_ctl [LinearOrderedField α]
    (dlarfg : Nat → α → (Nat → α) → α × (Nat → α) × α) (tol : α) (n p nt : Nat)
    (s : BpqrState α) (hnb : 1 ≤ s.nb) (m : Nat) :
    (forLoop m (fun j (s : BpqrState α) =>
        if s.brk then s else bpqrCol dlarfg tol n p nt j s) s).jb = s.jb ∧
    (forLoop m (fun j (s : BpqrState α) =>
        if s.brk then s else bpqrCol dlarfg tol n p nt j s) s).pb = s.pb ∧
    1 ≤ (forLoop m (fun j (s : BpqrState α) =>
        if s.brk then s else bpqrCol dlarfg tol n p nt j s) s).nb := by
  induction m with
  | zero => exact ⟨rfl, rfl, hnb⟩
  | succ m ih =>
    obtain ⟨h1, h2, h3⟩ := ih
    rw [forLoop_succ]
    generalize forLoop m _ s = S at h1 h2 h3 ⊢
    by_cases c : S.brk = true
    · rw [if_pos c]
      exact ⟨h1, h2, h3⟩
    · rw [if_neg c]
      obtain ⟨c1, c2, c3, -⟩ := bpqrCol_ctl dlarfg tol n p nt m S
      refine ⟨c1.trans h1, c2.trans h2, ?_⟩
      rcases c3 with ⟨c3, -⟩ | c3
      · rw [c3]; exact h3
      · rw [c3]; omega

theorem bpqrBlockUpdate_ctl [LinearOrderedField α] (n p nt : Nat) (s : BpqrState α) :
    (bpqrBlockUpdate n p nt s).1.jb = s.jb ∧ (bpqrBlockUpdate n p nt s).1.pb = s.pb ∧
    (bpqrBlockUpdate n p nt s).1.nb = s.nb ∧ (bpqrBlockUpdate n p nt s).1.piv = s.piv :=
  ⟨rfl, rfl, rfl, rfl⟩

/-- One pass of the loop `while (jb < p)` of `bpqr` with target block size `nb0 ≥ 1` moves
`jb` forward. -/
theorem bpqrBlock_jb [LinearOrderedField α]
    (dlarfg : Nat → α → (Nat → α) → α × (Nat → α) × α) (tol : α) (n p nt nb0 : Nat)
    (s : BpqrState α) (hnb0 : 1 ≤ nb0) (hjb : s.jb < p) :
    s.jb < (bpqrBlock dlarfg tol n p nt nb0 s).jb := by
  have h := bpqrCols_ctl dlarfg tol n p nt
    { s with nb := if p - s.jb > nb0 then nb0 else p - s.jb,
             F := forLoop ((if p - s.jb > nb0 then nb0 else p - s.jb) * s.pb)
               (fun t F => store F t 0) s.F, j := 0, brk := false }
    (by show 1 ≤ (if p - s.jb > nb0 then nb0 else p - s.jb); split_ifs <;> omega)
    (if p - s.jb > nb0 then nb0 else p - s.jb)
  obtain ⟨h1, -, h3⟩ := h
  unfold bpqrBlock
  simp only
  generalize forLoop (if p - s.jb > nb0 then nb0 else p - s.jb) _ _ = S at h1 h3 ⊢
  have h1 : S.jb = s.jb := h1
  have u := bpqrBlockUpdate_ctl n p nt { S with j := S.j - 1 }
  generalize bpqrBlockUpdate n p nt { S with j := S.j - 1 } = U at u ⊢
  obtain ⟨u1, -, u3, -⟩ := u
  have u1 : U.1.jb = S.jb := u1
  have u3 : U.1.nb = S.nb := u3
  split_ifs <;> simp only [u1, u3, h1] <;> omega

/-- Claim C23. For `nb ≥ 1`, `nt ≥ 1` and `p ≤ n`, where the source is defined, the loop
of `bpqr` ends (for every bound `fuel ≥ p` on the number of passes) and `bpqr` returns the
column count `p`, whatever the matrix `A`, the block size and the thread count. -/
theorem bpqr_returns_p [LinearOrderedField α]
    (dlarfg : Nat → α → (Nat → α) → α × (Nat → α) × α) (tol : α) (A : Nat → α) (n p : Nat)
    (tau : Nat → α) (piv : Nat → Nat) (nb nt fuel : Nat) (hnb : 1 ≤ nb) (hnt : 1 ≤ nt)
    (hnp : p ≤ n) (hfuel : p ≤ fuel) :
    (bpqr dlarfg tol A n p tau piv nb nt fuel).map (fun o => o.2.2.2) = some p := by
  have _ := hnt
  have _ := hnp
  unfold bpqr
  simp only
  obtain ⟨s', e1, -, -⟩ := whileLoop_terminates (fun s : BpqrState α => decide (s.jb < p))
    (bpqrBlock dlarfg tol n p nt (bpqrInit A tau piv n p nb).nb) (fun s => p - s.jb)
    (fun _ => True)
    (fun s _ hc => by
      have hjb : s.jb < p := of_decide_eq_true hc
      have h0 : 1 ≤ (bpqrInit A tau piv n p nb).nb := by
        show 1 ≤ (if p < nb then p else nb)
        split_ifs <;> omega
      have := bpqrBlock_jb dlarfg tol n p nt _ s h0 hjb
      refine ⟨trivial, ?_⟩
      show p - (bpqrBlock dlarfg tol n p nt (bpqrInit A tau piv n p nb).nb s).jb < p - s.jb
      omega)
    fuel (bpqrInit A tau piv n p nb) trivial
    (by show p - 0 ≤ fuel; omega)
  rw [e1]
  rfl

/-- Witness for C23: the 2 by 2 zero matrix, block size 1, one thread. -/
theorem bpqr_returns_p_witness :
    (1 ≤ 1 ∧ 1 ≤ 1 ∧ 2 ≤ 2 ∧ 2 ≤ 2) ∧
    (bpqr (fun _ a v => (a, v, (0 : ℚ))) (1 / 2 ^ 41) (fun _ => 0) 2 2 (fun _ => 0)
      (fun _ => 0) 1 1 2).map (fun o => o.2.2.2) = some 2 :=
  ⟨by decide, bpqr_returns_p (fun _ a v => (a, v, (0 : ℚ))) (1 / 2 ^ 41) (fun _ => 0) 2 2
    (fun _ => 0) (fun _ => 0) 1 1 2 (by decide) (by decide) (by decide) (by decide)⟩

/-- Claim C21 fails for `bpqr`. For the 3 by 3 matrix with the columns `(2^23, 0, 0)`,
`(2^22, 1, 0)` and `(0, 0, 1/2)`, block size 1, one thread and the reference `dlarfg`
(all square roots taken are exact), the downdated norm 1 of column 1 is below
`icn[1]*tol = (2^44 + 1)*tol` after the first column, and its recomputation starts from the
pointer `Aq` that the block update left at `A + jb*n + kb[nth-1]`: the sum is empty and
`cn[1]` becomes 0. Column 2 with norm `1/4` is then taken as the pivot, and the diagonal of
`R` is `2^23, -1/2, -1` with `|R[1,1]| < |R[2,2]|`. -/
theorem bpqr_diag_increases :
    (bpqr (dlarfg_ref Rat.sqrt) (1 / 2 ^ 41)
      (fun q => [2 ^ 23, 0, 0, 2 ^ 22, 1, 0, 0, 0, 1 / 2].getD q 0) 3 3 (fun _ => 0)
      (fun _ => 0) 1 1 3).map
        (fun o => ([o.1 0, o.1 4, o.1 8], [o.2.2.1 0, o.2.2.1 1, o.2.2.1 2]))
      = some ([2 ^ 23, -1 / 2, -1], [0, 2, 1]) ∧
    |(-1 / 2 : ℚ)| < |(-1 : ℚ)| := by
  decide!

end BpqrProofs
/-! ## `update_qr` -/

section UqrProofs
variable {α : Type}

/-- Claim C18 fails. For `q = 3`, `k = 0`, `lam = 3` and the upper triangular
`R = [[4, 5, 5], [0, 4, 0], [0, 0, 9/5]]` (all square roots taken are exact and no divisor
is zero), `update_qr` leaves `R_new = [[5, 4, 4], [0, 5, -9/5], [0, 0, 3]]`, so
`(R_new'R_new)[1,2] = 7`, while `(R'R + lam² e_k e_k')[1,2] = 25`: the rotation applied to
the rest of row `i` and of `x` is the inverse of the one that takes `x[i]` into `R[i,i]`. -/
theorem update_qr_R_wrong :
    (update_qr Rat.sqrt (fun _ => 0)
        (fun p => [4, 0, 0, 5, 4, 0, 5, 0, 9 / 5].getD p 0) 0 3 3 0).map
        (fun o => (List.range 9).map o.2)
      = some [5, 0, 0, 4, 5, 0, 4, -9 / 5, 3] ∧
    (update_qr Rat.sqrt (fun _ => 0)
        (fun p => [4, 0, 0, 5, 4, 0, 5, 0, 9 / 5].getD p 0) 0 3 3 0).map
        (fun o => ∑ l in Finset.range 3, o.2 (l + 3 * 1) * o.2 (l + 3 * 2)) = some 7 ∧
    ∑ l in Finset.range 3,
      (fun p => [4, 0, 0, 5, 4, 0, 5, 0, (9 / 5 : ℚ)].getD p 0) (l + 3 * 1) *
      (fun p => [4, 0, 0, 5, 4, 0, 5, 0, (9 / 5 : ℚ)].getD p 0) (l + 3 * 2) = 25 := by
  decide!

/-- Claim C19 fails. For `n = 1`, `q = 2`, `k = 0`, `lam = 3`, `Q = [1, 0]` and the upper
triangular `R = [[4, 5], [0, 4]]`, `update_qr` leaves `Q_new = [4/5, -9/25]` and
`R_new = [[5, 4], [0, 5]]`, so `(Q_new·R_new)[0,1] = 7/5`, while `(Q·R)[0,1] = 5`. -/
theorem update_qr_QR_wrong :
    (update_qr Rat.sqrt (fun p => if p = 0 then 1 else 0)
        (fun p => [4, 0, 5, 4].getD p 0) 1 2 3 0).map
        (fun o => ((List.range 2).map o.1, (List.range 4).map o.2))
      = some ([4 / 5, -9 / 25], [5, 0, 4, 5]) ∧
    (update_qr Rat.sqrt (fun p => if p = 0 then 1 else 0)
        (fun p => [4, 0, 5, 4].getD p 0) 1 2 3 0).map
        (fun o => ∑ l in Finset.range 2, o.1 (0 + 1 * l) * o.2 (l + 2 * 1)) = some (7 / 5) ∧
    ∑ l in Finset.range 2,
      (fun p => if p = 0 then (1 : ℚ) else 0) (0 + 1 * l) *
      (fun p => [4, 0, 5, (4 : ℚ)].getD p 0) (l + 2 * 1) = 5 := by
  decide!

end UqrProofs


/-! ## Correctness of `mgcv_bchol` -/

section BcholCorrect
variable {α : Type}

theorem strideCount_diag (n j : Nat) (hj : j < n) :
    strideCount (j * n + j) (n * n) n = n - j := by
  unfold strideCount
  have e : n * n - (j * n + j) + n - 1 = (n - 1 - j) + (n - j) * n := by
    have h1 : n * n = j * n + (n - j) * n := by
      rw [← Nat.add_mul]; congr 1; omega
    have h2 : n ≤ (n - j) * n := Nat.le_mul_of_pos_left n (by omega)
    omega
  rw [e, Nat.add_mul_div_right _ _ (by omega), Nat.div_eq_of_lt (by omega), Nat.zero_add]

theorem strideCount_offdiag (n j : Nat) (hj : j < n) :
    strideCount (j * n + n + j) (n * n) n = n - j - 1 := by
  unfold strideCount
  have h1 : n * n = j * n + n + (n - j - 1) * n := by
    have e2 : (j + 1 + (n - j - 1)) * n = j * n + n + (n - j - 1) * n := by ring
    rw [← e2]
    congr 1
    omega
  by_cases hl : j + 1 = n
  · have h0 : (n - j - 1) * n = 0 := by rw [show n - j - 1 = 0 by omega, Nat.zero_mul]
    have e : n * n - (j * n + n + j) + n - 1 = n - 1 := by omega
    rw [e, Nat.div_eq_of_lt (by omega)]
    omega
  · have h2 : n ≤ (n - j - 1) * n := Nat.le_mul_of_pos_left n (by omega)
    have e : n * n - (j * n + n + j) + n - 1 = (n - 1 - j) + (n - j - 1) * n := by omega
    rw [e, Nat.add_mul_div_right _ _ (by omega), Nat.div_eq_of_lt (by omega), Nat.zero_add]

theorem swapCells_self {β : Type} (buf : Nat → β) (p : Nat) : swapCells buf p p = buf := by
  funext x
  unfold swapCells store
  by_cases h : x = p
  · simp [h]
  · simp [h]

theorem swapCells_left {β : Type} (buf : Nat → β) (p q : Nat) :
    swapCells buf p q p = buf q := by
  unfold swapCells store
  by_cases h : p = q
  · simp [h]
  · simp [h]

theorem swapCells_right {β : Type} (buf : Nat → β) (p q : Nat) :
    swapCells buf p q q = buf p := by
  unfold swapCells store
  simp

theorem swapCells_other {β : Type} (buf : Nat → β) (p q x : Nat) (h1 : x ≠ p) (h2 : x ≠ q) :
    swapCells buf p q x = buf x := by
  unfold swapCells store
  simp [h1, h2]

/-- A loop of exchanges of the cells `p t` and `q t`, where the cells of different passes
are different. -/
theorem swapLoop_spec {β : Type} (p q : Nat → Nat) (m : Nat) (A : Nat → β)
    (hne : ∀ t t', t < m → t' < m → t ≠ t' → p t ≠ p t' ∧ p t ≠ q t' ∧ q t ≠ q t') :
    (∀ t, t < m →
      forLoop m (fun t A => swapCells A (p t) (q t)) A (p t) = A (q t) ∧
      forLoop m (fun t A => swapCells A (p t) (q t)) A (q t) = A (p t)) ∧
    (∀ x, (∀ t, t < m → x ≠ p t ∧ x ≠ q t) →
      forLoop m (fun t A => swapCells A (p t) (q t)) A x = A x) := by
  induction m with
  | zero => exact ⟨fun t h => absurd h (Nat.not_lt_zero t), fun x _ => rfl⟩
  | succ m ih =>
    obtain ⟨h1, h2⟩ := ih (fun t t' ht ht' h => hne t t' (by omega) (by omega) h)
    rw [forLoop_succ]
    generalize forLoop m (fun t A => swapCells A (p t) (q t)) A = O at h1 h2 ⊢
    clear ih
    have om : O (p m) = A (p m) ∧ O (q m) = A (q m) := by
      refine ⟨h2 _ (fun t ht => ?_), h2 _ (fun t ht => ?_)⟩
      · obtain ⟨a1, a2, a3⟩ := hne m t (by omega) (by omega) (by omega)
        exact ⟨a1, a2⟩
      · obtain ⟨a1, a2, a3⟩ := hne t m (by omega) (by omega) (by omega)
        exact ⟨fun h => a2 h.symm, fun h => a3 h.symm⟩
    refine ⟨?_, ?_⟩
    · intro t ht
      by_cases e : t = m
      · subst e
        rw [swapCells_left, swapCells_right]
        exact ⟨om.2, om.1⟩
      · obtain ⟨a1, a2, a3⟩ := hne t m (by omega) (by omega) e
        obtain ⟨b1, b2, b3⟩ := hne m t (by omega) (by omega) (Ne.symm e)
        rw [swapCells_other _ _ _ _ a1 a2, swapCells_other _ _ _ _ (fun h => b2 h.symm) a3]
        exact h1 t (by omega)
    · intro x hx
      rw [swapCells_other _ _ _ _ (hx m (by omega)).1 (hx m (by omega)).2]
      exact h2 x (fun t ht => hx t (by omega))

/-- A loop that takes products of other cells away from the cell `p`. -/
theorem subLoop_spec [Field α] (p : Nat) (f g : Nat → Nat) (m : Nat) (A : Nat → α)
    (hf : ∀ u, u < m → f u ≠ p) (hg : ∀ u, u < m → g u ≠ p) :
    forLoop m (fun u A => store A p (A p - A (f u) * A (g u))) A p
      = A p - ∑ u in Finset.range m, A (f u) * A (g u) ∧
    (∀ x, x ≠ p → forLoop m (fun u A => store A p (A p - A (f u) * A (g u))) A x = A x) := by
  induction m with
  | zero => exact ⟨by simp [forLoop], fun x _ => rfl⟩
  | succ m ih =>
    obtain ⟨h1, h2⟩ := ih (fun u hu => hf u (by omega)) (fun u hu => hg u (by omega))
    rw [forLoop_succ]
    generalize forLoop m (fun u A => store A p (A p - A (f u) * A (g u))) A = O at h1 h2 ⊢
    clear ih
    refine ⟨?_, fun x hx => by rw [store_ne _ _ _ _ hx]; exact h2 x hx⟩
    rw [store_same, h1, h2 _ (hf m (by omega)), h2 _ (hg m (by omega)), Finset.sum_range_succ]
    ring

/-- Row exchange of `mgcv_bchol` at column `j` (with `Ajn` at the start of column `j`): in
the columns `c ≥ j` the rows `j` and `q` are exchanged. -/
theorem bcholSwapRows_spec (A : Nat → α) (n j q : Nat) (hj : j < n) (hq : q < n) :
    (∀ a c, a < n → c < n → j ≤ c →
      bcholSwapRows A n j q (j * n) (a + n * c) = A (Equiv.swap j q a + n * c)) ∧
    (∀ a c, a < n → c < j → bcholSwapRows A n j q (j * n) (a + n * c) = A (a + n * c)) := by
  unfold bcholSwapRows
  rw [strideCount_diag n j hj]
  obtain ⟨h1, h2⟩ := swapLoop_spec (fun t => j * n + j + t * n) (fun t => j * n + q + t * n)
    (n - j) A (fun t t' ht ht' hne => by
      have e1 := cell_ne n j (j + t) j (j + t') hj hj (Or.inr (by omega))
      have e2 := cell_ne n j (j + t) q (j + t') hj hq (Or.inr (by omega))
      have e3 := cell_ne n q (j + t) q (j + t') hq hq (Or.inr (by omega))
      have f1 : (j + t) * n = j * n + t * n := Nat.add_mul _ _ _
      have f2 : (j + t') * n = j * n + t' * n := Nat.add_mul _ _ _
      refine ⟨?_, ?_, ?_⟩
      · show j * n + j + t * n ≠ j * n + j + t' * n
        omega
      · show j * n + j + t * n ≠ j * n + q + t' * n
        omega
      · show j * n + q + t * n ≠ j * n + q + t' * n
        omega)
  have cellj : ∀ c, j ≤ c → j + n * c = j * n + j + (c - j) * n := by
    intro c hc
    have : c = j + (c - j) := by omega
    conv_lhs => rw [this]
    ring
  have cellq : ∀ c, j ≤ c → q + n * c = j * n + q + (c - j) * n := by
    intro c hc
    have : c = j + (c - j) := by omega
    conv_lhs => rw [this]
    ring
  refine ⟨?_, ?_⟩
  · intro a c ha hc hjc
    obtain ⟨g1, g2⟩ := h1 (c - j) (by omega)
    by_cases e1 : a = j
    · rw [e1, Equiv.swap_apply_left, cellj c hjc, cellq c hjc]
      exact g1
    · by_cases e2 : a = q
      · rw [e2, Equiv.swap_apply_right, cellj c hjc, cellq c hjc]
        exact g2
      · rw [Equiv.swap_apply_of_ne_of_ne e1 e2]
        refine h2 _ (fun t ht => ?_)
        have f1 := cell_ne n a c j (j + t) ha hj (Or.inl e1)
        have f2 := cell_ne n a c q (j + t) ha hq (Or.inl e2)
        have f3 : (j + t) * n = j * n + t * n := Nat.add_mul _ _ _
        have f4 : n * c = c * n := Nat.mul_comm _ _
        constructor
        · show a + n * c ≠ j * n + j + t * n
          omega
        · show a + n * c ≠ j * n + q + t * n
          omega
  · intro a c ha hc
    refine h2 _ (fun t ht => ?_)
    have f1 := cell_ne n a c j (j + t) ha hj (Or.inr (by omega))
    have f2 := cell_ne n a c q (j + t) ha hq (Or.inr (by omega))
    have f3 : (j + t) * n = j * n + t * n := Nat.add_mul _ _ _
    have f4 : n * c = c * n := Nat.mul_comm _ _
    constructor
    · show a + n * c ≠ j * n + j + t * n
      omega
    · show a + n * c ≠ j * n + q + t * n
      omega

/-- Column exchange of `mgcv_bchol`: the columns `j` and `q` are exchanged. -/
theorem bcholSwapCols_spec (A : Nat → α) (n j q : Nat) :
    ∀ a b, a < n → b < n →
      bcholSwapCols A n q (j * n) (a + n * b) = A (a + n * Equiv.swap j q b) := by
  unfold bcholSwapCols
  obtain ⟨h1, h2⟩ := swapLoop_spec (fun t => j * n + t) (fun t => n * q + t) n A
    (fun t t' ht ht' hne => by
      have e2 := cell_ne n t j t' q ht ht' (Or.inl hne)
      have f : n * q = q * n := Nat.mul_comm _ _
      refine ⟨?_, ?_, ?_⟩
      · show j * n + t ≠ j * n + t'
        omega
      · show j * n + t ≠ n * q + t'
        omega
      · show n * q + t ≠ n * q + t'
        omega)
  intro a b ha hb
  obtain ⟨g1, g2⟩ := h1 a ha
  by_cases e1 : b = j
  · rw [e1, Equiv.swap_apply_left, show a + n * j = j * n + a by rw [Nat.mul_comm]; omega,
      show a + n * q = n * q + a by omega]
    exact g1
  · by_cases e2 : b = q
    · rw [e2, Equiv.swap_apply_right, show a + n * j = j * n + a by rw [Nat.mul_comm]; omega,
        show a + n * q = n * q + a by omega]
      exact g2
    · rw [Equiv.swap_apply_of_ne_of_ne e1 e2]
      refine h2 _ (fun t ht => ?_)
      have f1 := cell_ne n a b t j ha ht (Or.inr e1)
      have f2 := cell_ne n a b t q ha ht (Or.inr e2)
      have f3 : n * b = b * n := Nat.mul_comm _ _
      have f4 : n * q = q * n := Nat.mul_comm _ _
      constructor
      · show a + n * b ≠ j * n + t
        omega
      · show a + n * b ≠ n * q + t
        omega

/-- The two exchanges of `mgcv_bchol` at column `j` with pivot `q ≥ j`: the rows and the
columns `j` and `q` of the trailing block are exchanged, and so are the columns `j` and `q`
of the rows above it. -/
theorem bcholSwap_spec (A : Nat → α) (n j q : Nat) (hjq : j ≤ q) (hq : q < n) :
    (∀ a b, a < n → b < n → j ≤ b →
      bcholSwapCols (bcholSwapRows A n j q (j * n)) n q (j * n) (a + n * b)
        = A (Equiv.swap j q a + n * Equiv.swap j q b)) ∧
    (∀ a b, a < n → b < j →
      bcholSwapCols (bcholSwapRows A n j q (j * n)) n q (j * n) (a + n * b)
        = A (a + n * b)) := by
  have hj : j < n := by omega
  obtain ⟨r1, r2⟩ := bcholSwapRows_spec A n j q hj hq
  have c := bcholSwapCols_spec (bcholSwapRows A n j q (j * n)) n j q
  have sw : ∀ b, b < n → Equiv.swap j q b < n ∧ (j ≤ b → j ≤ Equiv.swap j q b) := by
    intro b hb
    by_cases e1 : b = j
    · rw [e1, Equiv.swap_apply_left]; exact ⟨hq, fun _ => hjq⟩
    · by_cases e2 : b = q
      · rw [e2, Equiv.swap_apply_right]; exact ⟨hj, fun _ => le_rfl⟩
      · rw [Equiv.swap_apply_of_ne_of_ne e1 e2]; exact ⟨hb, fun h => h⟩
  refine ⟨?_, ?_⟩
  · intro a b ha hb hjb
    rw [c a b ha hb, r1 a _ ha (sw b hb).1 ((sw b hb).2 hjb)]
  · intro a b ha hb
    rw [c a b ha (by omega), Equiv.swap_apply_of_ne_of_ne (by omega) (by omega)]
    exact r2 a b ha hb

/-- Dot product update of `mgcv_bchol` at column `j` of the block that starts at `k`: the
square of the entry of row `j - 1` is added to `dots[b]`, `b ≥ j`, when `j > k`. -/
theorem bcholDots_spec [LinearOrderedField α] (A dots : Nat → α) (n k j : Nat) :
    (∀ b, j ≤ b → b < n →
      bcholDots A n k j (j * n) dots b
        = dots b + (if j > k then A (j - 1 + n * b) * A (j - 1 + n * b) else 0)) ∧
    (∀ b, b < j → bcholDots A n k j (j * n) dots b = dots b) := by
  unfold bcholDots
  by_cases c : j > k
  · simp only [if_pos c]
    obtain ⟨h1, h2⟩ := storeLoop_spec (n - j) (fun t => j + t)
      (fun t x => x + A (j * n + j - 1 + t * n) * A (j * n + j - 1 + t * n)) dots
      (fun a b _ _ h => Nat.add_left_cancel h)
    refine ⟨?_, ?_⟩
    · intro b hb1 hb2
      have := h1 (b - j) (by omega)
      simp only [show j + (b - j) = b by omega] at this
      rw [this]
      have e : j * n + j - 1 + (b - j) * n = j - 1 + n * b := by
        have : b = j + (b - j) := by omega
        have e2 : n * b = j * n + (b - j) * n := by
          conv_lhs => rw [this]
          ring
        omega
      rw [e]
    · intro b hb
      exact h2 b (fun t _ => by omega)
  · simp only [if_neg c, add_zero]
    exact ⟨fun b _ _ => trivial, fun b _ => trivial⟩

/-- Pivot search of `mgcv_bchol` at column `j`: `q` is a column in `j .. n - 1` (or `j`),
`xmax` is at least every `A[b,b] - dots[b]`, `b ≥ j`, and it is -1 or the value at `q`. -/
theorem bcholPivot_spec [LinearOrderedField α] (A dots : Nat → α) (n j : Nat) :
    j ≤ (bcholPivot A dots n j (j * n)).2 ∧
    ((bcholPivot A dots n j (j * n)).2 < n ∨ (bcholPivot A dots n j (j * n)).2 = j) ∧
    (∀ b, j ≤ b → b < n → A (b + n * b) - dots b ≤ (bcholPivot A dots n j (j * n)).1) ∧
    ((bcholPivot A dots n j (j * n)).1 = -1 ∨
      (bcholPivot A dots n j (j * n)).1
        = A ((bcholPivot A dots n j (j * n)).2 + n * (bcholPivot A dots n j (j * n)).2)
          - dots (bcholPivot A dots n j (j * n)).2) := by
  unfold bcholPivot
  have key : ∀ m, 
      j ≤ (forLoop m (fun t (xq : α × Nat) =>
        let x := A (j * n + j + t * (n + 1)) - dots (j + t)
        if x > xq.1 then (x, j + t) else xq) (-1, j)).2 ∧
      ((forLoop m (fun t (xq : α × Nat) =>
        let x := A (j * n + j + t * (n + 1)) - dots (j + t)
        if x > xq.1 then (x, j + t) else xq) (-1, j)).2 < j + m ∨
       (forLoop m (fun t (xq : α × Nat) =>
        let x := A (j * n + j + t * (n + 1)) - dots (j + t)
        if x > xq.1 then (x, j + t) else xq) (-1, j)).2 = j) ∧
      (∀ b, j ≤ b → b < j + m → A (b + n * b) - dots b ≤
        (forLoop m (fun t (xq : α × Nat) =>
        let x := A (j * n + j + t * (n + 1)) - dots (j + t)
        if x > xq.1 then (x, j + t) else xq) (-1, j)).1) ∧
      ((forLoop m (fun t (xq : α × Nat) =>
        let x := A (j * n + j + t * (n + 1)) - dots (j + t)
        if x > xq.1 then (x, j + t) else xq) (-1, j)).1 = -1 ∨
       (forLoop m (fun t (xq : α × Nat) =>
        let x := A (j * n + j + t * (n + 1)) - dots (j + t)
        if x > xq.1 then (x, j + t) else xq) (-1, j)).1
        = A ((forLoop m (fun t (xq : α × Nat) =>
        let x := A (j * n + j + t * (n + 1)) - dots (j + t)
        if x > xq.1 then (x, j + t) else xq) (-1, j)).2 + n * (forLoop m (fun t (xq : α × Nat) =>
        let x := A (j * n + j + t * (n + 1)) - dots (j + t)
        if x > xq.1 then (x, j + t) else xq) (-1, j)).2)
          - dots (forLoop m (fun t (xq : α × Nat) =>
        let x := A (j * n + j + t * (n + 1)) - dots (j + t)
        if x > xq.1 then (x, j + t) else xq) (-1, j)).2) := by
    intro m
    induction m with
    | zero => exact ⟨le_rfl, Or.inr rfl, fun b h1 h2 => by omega, Or.inl rfl⟩
    | succ m ih =>
      obtain ⟨h1, h2, h3, h4⟩ := ih
      rw [forLoop_succ]
      generalize forLoop m _ _ = S at h1 h2 h3 h4 ⊢
      obtain ⟨x, q⟩ := S
      simp only at h1 h2 h3 h4 ⊢
      have e : j * n + j + m * (n + 1) = (j + m) + n * (j + m) := by ring
      rw [e]
      by_cases c : A (j + m + n * (j + m)) - dots (j + m) > x
      · rw [if_pos c]
        refine ⟨by show j ≤ j + m; omega, Or.inl (by show j + m < j + (m + 1); omega), ?_,
          Or.inr rfl⟩
        intro b hb1 hb2
        by_cases eb : b = j + m
        · rw [eb]
        · exact le_trans (h3 b hb1 (by omega)) (le_of_lt c)
      · rw [if_neg c]
        refine ⟨h1, ?_, ?_, h4⟩
        · rcases h2 with h2 | h2
          · exact Or.inl (by omega)
          · exact Or.inr h2
        · intro b hb1 hb2
          by_cases eb : b = j + m
          · rw [eb]; exact not_lt.mp c
          · exact h3 b hb1 (by omega)
  obtain ⟨h1, h2, h3, h4⟩ := key (n - j)
  refine ⟨h1, ?_, fun b hb1 hb2 => h3 b hb1 (by omega), h4⟩
  rcases h2 with h2 | h2
  · by_cases hjn : j ≤ n
    · exact Or.inl (by omega)
    · exact Or.inl (by omega)
  · exact Or.inr h2

/-- A loop whose pass `t` changes the cell `p t` only, to a value that depends on the
content of `p t` and of cells that no pass writes. -/
theorem cellLoop_spec (p : Nat → Nat) (G : Nat → (Nat → α) → Nat → α) (v : Nat → α → α)
    (m : Nat) (A : Nat → α)
    (hinj : ∀ t t', t < m → t' < m → p t = p t' → t = t')
    (hG : ∀ t B, t < m → (∀ x, (∀ t', t' < m → x ≠ p t') → B x = A x) →
      G t B (p t) = v t (B (p t)) ∧ ∀ x, x ≠ p t → G t B x = B x) :
    (∀ t, t < m → forLoop m G A (p t) = v t (A (p t))) ∧
    (∀ x, (∀ t, t < m → x ≠ p t) → forLoop m G A x = A x) := by
  have key : ∀ k, k ≤ m →
      (∀ t, t < k → forLoop k G A (p t) = v t (A (p t))) ∧
      (∀ x, (∀ t, t < k → x ≠ p t) → forLoop k G A x = A x) := by
    intro k
    induction k with
    | zero => exact fun _ => ⟨fun t h => absurd h (Nat.not_lt_zero t), fun x _ => rfl⟩
    | succ k ih =>
      intro hk
      obtain ⟨h1, h2⟩ := ih (by omega)
      rw [forLoop_succ]
      generalize forLoop k G A = O at h1 h2 ⊢
      obtain ⟨g1, g2⟩ := hG k O (by omega) (fun x hx => h2 x (fun t ht => hx t (by omega)))
      refine ⟨?_, ?_⟩
      · intro t ht
        by_cases e : t = k
        · rw [e, g1, h2 _ (fun t' ht' h => by
            have := hinj k t' (by omega) (by omega) h
            omega)]
        · rw [g2 _ (fun h => e (hinj t k (by omega) (by omega) h))]
          exact h1 t (by omega)
      · intro x hx
        rw [g2 x (hx k (by omega))]
        exact h2 x (fun t ht => hx t (by omega))
  exact key m le_rfl

/-- Row update of `mgcv_bchol` at column `j` of the block that starts at `k ≤ j`: the
products of the rows `k .. j - 1` are taken away from row `j`, columns `c > j`. -/
theorem bcholRowUpdate_spec [LinearOrderedField α] (A : Nat → α) (n k j : Nat) (hkj : k ≤ j)
    (hj : j < n) :
    (∀ c, j < c → c < n →
      bcholRowUpdate A n k j (j * n) (j + n * c)
        = A (j + n * c) - ∑ u in Finset.range (j - k), A (k + u + n * j) * A (k + u + n * c)) ∧
    (∀ a c, a < n → c < n → (a ≠ j ∨ c ≤ j) →
      bcholRowUpdate A n k j (j * n) (a + n * c) = A (a + n * c)) := by
  unfold bcholRowUpdate
  by_cases hc : j > k ∧ j < n
  · rw [if_pos hc, strideCount_offdiag n j hj]
    have cellp : ∀ t, j * n + n + j + t * n = j + n * (j + 1 + t) := fun t => by ring
    obtain ⟨h1, h2⟩ := cellLoop_spec (fun t => j * n + n + j + t * n)
      (fun t A => forLoop (j - k) (fun u A =>
        store A (j * n + n + j + t * n)
          (A (j * n + n + j + t * n) - A (j * n + k + u) * A (j * n + n + k + t * n + u))) A)
      (fun t x => x - ∑ u in Finset.range (j - k),
        A (j * n + k + u) * A (j * n + n + k + t * n + u))
      (n - j - 1) A
      (fun t t' _ _ h => by
        have h : j * n + n + j + t * n = j * n + n + j + t' * n := h
        have : t * n = t' * n := by omega
        exact Nat.eq_of_mul_eq_mul_right (by omega) this)
      (fun t B ht hB => by
        have f1 : ∀ u, u < j - k → j * n + k + u ≠ j * n + n + j + t * n := by
          intro u hu
          have := cell_ne n (k + u) j j (j + 1 + t) (by omega) hj (Or.inl (by omega))
          have e : (j + 1 + t) * n = j * n + n + t * n := by ring
          omega
        have f2 : ∀ u, u < j - k → j * n + n + k + t * n + u ≠ j * n + n + j + t * n := by
          intro u hu
          omega
        obtain ⟨s1, s2⟩ := subLoop_spec (j * n + n + j + t * n) (fun u => j * n + k + u)
          (fun u => j * n + n + k + t * n + u) (j - k) B f1 f2
        refine ⟨Eq.trans s1 ?_, s2⟩
        show B (j * n + n + j + t * n) - ∑ u in Finset.range (j - k),
            B (j * n + k + u) * B (j * n + n + k + t * n + u)
          = B (j * n + n + j + t * n) - ∑ u in Finset.range (j - k),
            A (j * n + k + u) * A (j * n + n + k + t * n + u)
        congr 1
        refine Finset.sum_congr rfl (fun u hu => ?_)
        have hu := Finset.mem_range.mp hu
        have w1 : ∀ t', t' < n - j - 1 → j * n + k + u ≠ j * n + n + j + t' * n := by
          intro t' ht'
          have := cell_ne n (k + u) j j (j + 1 + t') (by omega) hj (Or.inl (by omega))
          have e : (j + 1 + t') * n = j * n + n + t' * n := by ring
          omega
        have w2 : ∀ t', t' < n - j - 1 →
            j * n + n + k + t * n + u ≠ j * n + n + j + t' * n := by
          intro t' ht'
          have := cell_ne n (k + u) (j + 1 + t) j (j + 1 + t') (by omega) hj
            (Or.inl (by omega))
          have e : (j + 1 + t') * n = j * n + n + t' * n := by ring
          have e' : (j + 1 + t) * n = j * n + n + t * n := by ring
          omega
        rw [hB _ w1, hB _ w2])
    refine ⟨?_, ?_⟩
    · intro c hc1 hc2
      have := h1 (c - j - 1) (by omega)
      have e0 : j * n + n + j + (c - j - 1) * n = j + n * c := by
        rw [cellp, show j + 1 + (c - j - 1) = c by omega]
      rw [e0] at this
      rw [this]
      congr 1
      refine Finset.sum_congr rfl (fun u _ => ?_)
      congr 2
      · ring
      · have e : c = j + 1 + (c - j - 1) := by omega
        conv_rhs => rw [e]
        ring
    · intro a c ha hcn hac
      refine h2 _ (fun t ht => ?_)
      show a + n * c ≠ j * n + n + j + t * n
      rw [cellp]
      have := cell_ne n a c j (j + 1 + t) ha hj (by omega)
      rw [Nat.mul_comm n c, Nat.mul_comm n (j + 1 + t)]
      exact this
  · rw [if_neg hc]
    have : j - k = 0 := by omega
    rw [this]
    exact ⟨fun c _ _ => by simp, fun a c _ _ _ => rfl⟩

/-- Row scaling of `mgcv_bchol` at column `j`: the entries of row `j` in the columns `c > j`
are divided by the diagonal entry. -/
theorem bcholRowScale_spec [LinearOrderedField α] (A : Nat → α) (n j : Nat) (hj : j < n) :
    (∀ c, j < c → c < n →
      bcholRowScale A n j (j * n) (j + n * c) = A (j + n * c) / A (j + n * j)) ∧
    (∀ a c, a < n → c < n → (a ≠ j ∨ c ≤ j) →
      bcholRowScale A n j (j * n) (a + n * c) = A (a + n * c)) := by
  unfold bcholRowScale
  rw [if_pos hj, show j * n + j + n = j * n + n + j by omega, strideCount_offdiag n j hj]
  have cellp : ∀ t, j * n + n + j + t * n = j + n * (j + 1 + t) := fun t => by ring
  obtain ⟨h1, h2⟩ := storeLoop_spec (n - j - 1) (fun t => j * n + n + j + t * n)
    (fun _ x => x / A (j * n + j)) A
    (fun t t' _ _ h => by
      have : t * n = t' * n := by
        have h : j * n + n + j + t * n = j * n + n + j + t' * n := h
        omega
      exact Nat.eq_of_mul_eq_mul_right (by omega) this)
  refine ⟨?_, ?_⟩
  · intro c hc1 hc2
    have := h1 (c - j - 1) (by omega)
    have e0 : j * n + n + j + (c - j - 1) * n = j + n * c := by
      rw [cellp, show j + 1 + (c - j - 1) = c by omega]
    simp only [e0] at this
    rw [this, show j * n + j = j + n * j by ring]
  · intro a c ha hcn hac
    refine h2 _ (fun t ht => ?_)
    show a + n * c ≠ j * n + n + j + t * n
    rw [cellp]
    have := cell_ne n a c j (j + 1 + t) ha hj (by omega)
    rw [Nat.mul_comm n c, Nat.mul_comm n (j + 1 + t)]
    exact this

theorem swapCells_eq_comp {β : Type} (buf : Nat → β) (j q x : Nat) :
    swapCells buf j q x = buf (Equiv.swap j q x) := by
  by_cases e1 : x = j
  · rw [e1, swapCells_left, Equiv.swap_apply_left]
  · by_cases e2 : x = q
    · rw [e2, swapCells_right, Equiv.swap_apply_right]
    · rw [swapCells_other _ _ _ _ e1 e2, Equiv.swap_apply_of_ne_of_ne e1 e2]

theorem swap_range (n j q b : Nat) (hjq : j ≤ q) (hq : q < n) (hb : b < n) :
    Equiv.swap j q b < n ∧ (j ≤ b → j ≤ Equiv.swap j q b) ∧
    (b < j → Equiv.swap j q b = b) := by
  by_cases e1 : b = j
  · rw [e1, Equiv.swap_apply_left]; exact ⟨hq, fun _ => hjq, fun h => by omega⟩
  · by_cases e2 : b = q
    · rw [e2, Equiv.swap_apply_right]; exact ⟨by omega, fun _ => le_rfl, fun h => by omega⟩
    · rw [Equiv.swap_apply_of_ne_of_ne e1 e2]; exact ⟨hb, fun h => h, fun _ => rfl⟩

/-- The matrix after the exchanges, the store of the diagonal entry `v`, the row update and
the row scaling of column `j` of `mgcv_bchol`, in terms of the matrix before. -/
theorem bcholColA_spec [LinearOrderedField α] (A : Nat → α) (n k j q : Nat) (v : α)
    (hkj : k ≤ j) (hjq : j ≤ q) (hq : q < n) :
    (∀ a c, a < n → c < j →
      bcholRowScale (bcholRowUpdate (store (bcholSwapCols (bcholSwapRows A n j q (j * n))
        n q (j * n)) (j * n + j) v) n k j (j * n)) n j (j * n) (a + n * c)
        = A (a + n * c)) ∧
    (∀ a c, a < n → j ≤ c → c < n → a ≠ j →
      bcholRowScale (bcholRowUpdate (store (bcholSwapCols (bcholSwapRows A n j q (j * n))
        n q (j * n)) (j * n + j) v) n k j (j * n)) n j (j * n) (a + n * c)
        = A (Equiv.swap j q a + n * Equiv.swap j q c)) ∧
    bcholRowScale (bcholRowUpdate (store (bcholSwapCols (bcholSwapRows A n j q (j * n))
        n q (j * n)) (j * n + j) v) n k j (j * n)) n j (j * n) (j + n * j) = v ∧
    (∀ c, j < c → c < n →
      bcholRowScale (bcholRowUpdate (store (bcholSwapCols (bcholSwapRows A n j q (j * n))
        n q (j * n)) (j * n + j) v) n k j (j * n)) n j (j * n) (j + n * c)
        = (A (q + n * Equiv.swap j q c)
            - ∑ u in Finset.range (j - k), A (k + u + n * q) * A (k + u + n * Equiv.swap j q c))
          / v) := by
  have hj : j < n := by omega
  obtain ⟨w1, w2⟩ := bcholSwap_spec A n j q hjq hq
  generalize bcholSwapCols (bcholSwapRows A n j q (j * n)) n q (j * n) = A2 at w1 w2 ⊢
  have hjj : j * n + j = j + n * j := by ring
  rw [hjj]
  have a3 : ∀ a c, a < n → c < n → (a ≠ j ∨ c ≠ j) →
      store A2 (j + n * j) v (a + n * c) = A2 (a + n * c) := by
    intro a c ha hc h
    refine store_ne _ _ _ _ ?_
    have := cell_ne n a c j j ha hj h
    rw [Nat.mul_comm n c, Nat.mul_comm n j]
    exact this
  have a3j : store A2 (j + n * j) v (j + n * j) = v := store_same _ _ _
  obtain ⟨u1, u2⟩ := bcholRowUpdate_spec (store A2 (j + n * j) v) n k j hkj hj
  generalize store A2 (j + n * j) v = A3 at a3 a3j u1 u2 ⊢
  obtain ⟨s1, s2⟩ := bcholRowScale_spec (bcholRowUpdate A3 n k j (j * n)) n j hj
  generalize bcholRowUpdate A3 n k j (j * n) = A4 at u1 u2 s1 s2 ⊢
  generalize bcholRowScale A4 n j (j * n) = A5 at s1 s2 ⊢
  refine ⟨?_, ?_, ?_, ?_⟩
  · intro a c ha hc
    rw [s2 a c ha (by omega) (Or.inr (by omega)), u2 a c ha (by omega) (Or.inr (by omega)),
      a3 a c ha (by omega) (Or.inr (by omega)), w2 a c ha hc]
  · intro a c ha hc1 hc2 haj
    rw [s2 a c ha hc2 (Or.inl haj), u2 a c ha hc2 (Or.inl haj), a3 a c ha hc2 (Or.inl haj),
      w1 a c ha hc2 hc1]
  · rw [s2 j j hj hj (Or.inr le_rfl), u2 j j hj hj (Or.inr le_rfl), a3j]
  · intro c hc1 hc2
    rw [s1 c hc1 hc2, u1 c hc1 hc2,
      u2 j j hj hj (Or.inr le_rfl), a3j, a3 j c hj hc2 (Or.inr (by omega)),
      w1 j c hj hc2 (by omega), Equiv.swap_apply_left]
    congr 2
    refine Finset.sum_congr rfl (fun u hu => ?_)
    have hu := Finset.mem_range.mp hu
    rw [a3 (k + u) j (by omega) hj (Or.inl (by omega)),
      a3 (k + u) c (by omega) hc2 (Or.inl (by omega)),
      w1 (k + u) j (by omega) hj le_rfl, w1 (k + u) c (by omega) hc2 (by omega),
      Equiv.swap_apply_left, Equiv.swap_apply_of_ne_of_ne (by omega) (by omega)]

theorem sum_range_split_Ico [LinearOrderedField α] (f : Nat → α) (k j : Nat) (hkj : k ≤ j) :
    ∑ t in Finset.range j, f t = ∑ t in Finset.range k, f t + ∑ t in Finset.Ico k j, f t := by
  rw [Finset.range_eq_Ico, Finset.sum_Ico_consecutive f (Nat.zero_le k) hkj]

theorem sum_Ico_shift [LinearOrderedField α] (f : Nat → α) (k j : Nat) :
    ∑ u in Finset.range (j - k), f (k + u) = ∑ t in Finset.Ico k j, f t := by
  rw [Finset.sum_Ico_eq_sum_range]

/-- One column of `mgcv_bchol`: either the rank test fails (at a column `j ≥ 1`) and only
`r`, `tol` and `dots` change, or the invariant holds for the next column. -/
theorem bcholCol_inv [LinearOrderedField α] (sqrt : α → α) (eps : α) (A0 : Nat → α)
    (n k j : Nat) (s : BcholState α)
    (hsq : ∀ x, 0 < x → sqrt x * sqrt x = x) (heps : 0 < eps) (hneps : (n : α) * eps ≤ 1)
    (hpos : ∃ i, i < n ∧ 0 < A0 (i + n * i))
    (hkj : k ≤ j) (hj : j < n) (inv : BcholInv A0 n k j s) :
    ((bcholCol sqrt eps n k j s).m = s.m ∧ (bcholCol sqrt eps n k j s).a = s.a ∧
      (bcholCol sqrt eps n k j s).jb = s.jb ∧ (bcholCol sqrt eps n k j s).stop = s.stop) ∧
    ((BcholInv A0 n k (j + 1) (bcholCol sqrt eps n k j s) ∧
        (bcholCol sqrt eps n k j s).brk = s.brk ∧ (bcholCol sqrt eps n k j s).j = j + 1) ∨
      ((bcholCol sqrt eps n k j s).brk = true ∧ (bcholCol sqrt eps n k j s).r = (j : Int) ∧
        1 ≤ j ∧ (bcholCol sqrt eps n k j s).A = s.A ∧
        (bcholCol sqrt eps n k j s).piv = s.piv)) := by
  obtain ⟨d1, -⟩ := bcholDots_spec s.A s.dots n k j
  obtain ⟨p1, p2, p3, p4⟩ := bcholPivot_spec s.A (bcholDots s.A n k j (j * n) s.dots) n j
  unfold bcholCol
  simp only [inv.ajn]
  generalize bcholDots s.A n k j (j * n) s.dots = dots1 at d1 p1 p2 p3 p4 ⊢
  generalize bcholPivot s.A dots1 n j (j * n) = xq at p1 p2 p3 p4 ⊢
  obtain ⟨x, q⟩ := xq
  simp only at p1 p2 p3 p4 ⊢
  have hq : q < n := by
    rcases p2 with h | h
    · exact h
    · omega
  have dd : ∀ b, j ≤ b → b < n →
      dots1 b = ∑ t in Finset.Ico k j, s.A (t + n * b) * s.A (t + n * b) := by
    intro b hb1 hb2
    rw [d1 b hb1 hb2, inv.dots b hb1 hb2]
    by_cases c : j > k
    · rw [if_pos c]
      have e : j = (j - 1) + 1 := by omega
      conv_rhs => rw [e]
      rw [Finset.sum_Ico_succ_top (show k ≤ j - 1 by omega)]
    · have hjk : j = k := by omega
      rw [if_neg c, add_zero, hjk, Finset.Ico_self, Finset.Ico_eq_empty (by omega)]
  -- the pivot value
  have dq : s.A (q + n * q) - dots1 q
      = A0 (s.piv q + n * s.piv q) - ∑ t in Finset.range j, s.A (t + n * q) * s.A (t + n * q) := by
    rw [inv.trail q q p1 hq p1 hq, dd q p1 hq, sum_range_split_Ico _ k j hkj]
    ring
  have tolpos : 0 < (if j = 0 then (n : α) * x * eps else s.tol) ∧
      (j = 0 → ¬ (s.A (q + n * q) - dots1 q < (n : α) * x * eps)) := by
    by_cases c : j = 0
    · rw [if_pos c]
      obtain ⟨i, hi, hpi⟩ := hpos
      obtain ⟨b, hb, hbi⟩ := inv.pivsurj i hi
      have hk : k = 0 := by omega
      have hd : s.A (b + n * b) - dots1 b = A0 (i + n * i) := by
        rw [inv.trail b b (by omega) hb (by omega) hb, dd b (by omega) hb, hk, c, hbi]
        simp
      have hx : 0 < x := lt_of_lt_of_le (hd ▸ hpi) (p3 b (by omega) hb)
      have hn : (0 : α) < n := by
        have : 0 < n := by omega
        exact_mod_cast this
      refine ⟨mul_pos (mul_pos hn hx) heps, fun _ => ?_⟩
      rcases p4 with p4 | p4
      · rw [p4] at hx
        exact absurd hx (by norm_num)
      · rw [← p4, not_lt]
        calc (n : α) * x * eps = x * ((n : α) * eps) := by ring
          _ ≤ x * 1 := mul_le_mul_of_nonneg_left hneps (le_of_lt hx)
          _ = x := mul_one x
    · rw [if_neg c]
      exact ⟨inv.tolpos (by omega), fun h => absurd h c⟩
  refine ⟨?_, ?_⟩
  · split_ifs <;> exact ⟨rfl, rfl, rfl, rfl⟩
  rw [show n * q + q = q + n * q by ring]
  by_cases c : s.A (q + n * q) - dots1 q < (if j = 0 then (n : α) * x * eps else s.tol)
  · rw [if_pos c]
    right
    have hj1 : 1 ≤ j := by
      by_contra h
      have h0 : j = 0 := by omega
      rw [if_pos h0] at c
      exact tolpos.2 h0 c
    exact ⟨rfl, rfl, hj1, rfl, rfl⟩
  · rw [if_neg c]
    left
    have hd : 0 < s.A (q + n * q) - dots1 q := lt_of_lt_of_le tolpos.1 (not_lt.mp c)
    obtain ⟨E1, E2, E3, E4⟩ := bcholColA_spec s.A n k j q
      (sqrt (bcholSwapCols (bcholSwapRows s.A n j q (j * n)) n q (j * n) (j * n + j)
        - swapCells dots1 j q j)) hkj p1 hq
    obtain ⟨w1, -⟩ := bcholSwap_spec s.A n j q p1 hq
    have hv : bcholSwapCols (bcholSwapRows s.A n j q (j * n)) n q (j * n) (j * n + j)
        - swapCells dots1 j q j = s.A (q + n * q) - dots1 q := by
      rw [show j * n + j = j + n * j by ring, w1 j j hj hj le_rfl, Equiv.swap_apply_left,
        swapCells_left]
    rw [hv] at E1 E2 E3 E4 ⊢
    generalize bcholRowScale (bcholRowUpdate (store (bcholSwapCols (bcholSwapRows s.A n j q
      (j * n)) n q (j * n)) (j * n + j) (sqrt (s.A (q + n * q) - dots1 q))) n k j (j * n)) n j
      (j * n) = A5 at E1 E2 E3 E4 ⊢
    have hrr := hsq _ hd
    have hr0 : sqrt (s.A (q + n * q) - dots1 q) ≠ 0 := by
      intro h
      rw [h, mul_zero] at hrr
      exact absurd hrr.symm (ne_of_gt hd)
    generalize sqrt (s.A (q + n * q) - dots1 q) = rjj at E3 E4 hrr hr0
    have sw := fun b hb => swap_range n j q b p1 hq hb
    -- entries of rows above the diagonal row
    have up : ∀ t c, t < j → c < n → A5 (t + n * c) = s.A (t + n * Equiv.swap j q c) := by
      intro t c ht hc
      by_cases hcj : c < j
      · rw [E1 t c (by omega) hcj, (sw c hc).2.2 hcj]
      · rw [E2 t c (by omega) (by omega) hc (by omega), (sw t (by omega)).2.2 ht]
    refine ⟨?_, rfl, rfl⟩
    refine
      { ajn := by show j * n + n = (j + 1) * n; ring
        rneg := inv.rneg
        pivlt := ?_
        pivinj := ?_
        pivsurj := ?_
        diag := ?_
        star := ?_
        trail := ?_
        dots := ?_
        tolpos := fun _ => tolpos.1 }
    · intro i hi
      show swapCells s.piv j q i < n
      rw [swapCells_eq_comp]
      exact inv.pivlt _ (sw i hi).1
    · intro i i' hi hi' h
      have h : swapCells s.piv j q i = swapCells s.piv j q i' := h
      rw [swapCells_eq_comp, swapCells_eq_comp] at h
      exact (Equiv.swap j q).injective (inv.pivinj _ _ (sw i hi).1 (sw i' hi').1 h)
    · intro v hv
      obtain ⟨i, hi, hiv⟩ := inv.pivsurj v hv
      refine ⟨Equiv.swap j q i, (sw i hi).1, ?_⟩
      show swapCells s.piv j q (Equiv.swap j q i) = v
      rw [swapCells_eq_comp, Equiv.swap_apply_self]
      exact hiv
    · intro i hi
      show A5 (i + n * i) ≠ 0
      by_cases e : i = j
      · rw [e, E3]; exact hr0
      · rw [E1 i i (by omega) (by omega)]
        exact inv.diag i (by omega)
    · intro i l hi hil hl
      show ∑ t in Finset.range (i + 1), A5 (t + n * i) * A5 (t + n * l)
        = A0 (swapCells s.piv j q i + n * swapCells s.piv j q l)
      rw [swapCells_eq_comp, swapCells_eq_comp]
      by_cases e : i = j
      · subst e
        rw [Equiv.swap_apply_left, Finset.sum_range_succ]
        have hs : ∑ t in Finset.range i, A5 (t + n * i) * A5 (t + n * l)
            = ∑ t in Finset.range i, s.A (t + n * q) * s.A (t + n * Equiv.swap i q l) := by
          refine Finset.sum_congr rfl (fun t ht => ?_)
          have ht := Finset.mem_range.mp ht
          rw [up t i ht hj, up t l ht hl, Equiv.swap_apply_left]
        rw [hs, E3]
        by_cases el : l = i
        · subst el
          rw [E3, Equiv.swap_apply_left, hrr, dq]
          ring
        · rw [E4 l (by omega) hl, mul_div_cancel₀ _ hr0,
            inv.trail q _ p1 hq ((sw l hl).2.1 (by omega)) (sw l hl).1,
            sum_Ico_shift (fun t => s.A (t + n * q) * s.A (t + n * Equiv.swap i q l)) k i,
            sum_range_split_Ico _ k i hkj]
          ring
      · have hij : i < j := by omega
        have hs : ∑ t in Finset.range (i + 1), A5 (t + n * i) * A5 (t + n * l)
            = ∑ t in Finset.range (i + 1), s.A (t + n * i) * s.A (t + n * Equiv.swap j q l) := by
          refine Finset.sum_congr rfl (fun t ht => ?_)
          have ht := Finset.mem_range.mp ht
          rw [up t i (by omega) (by omega), up t l (by omega) hl, (sw i (by omega)).2.2 hij]
        rw [hs, (sw i (by omega)).2.2 hij]
        refine inv.star i _ hij ?_ (sw l hl).1
        by_cases hlj : l < j
        · rw [(sw l hl).2.2 hlj]; exact hil
        · have := (sw l hl).2.1 (by omega)
          omega
    · intro a b ha1 ha2 hb1 hb2
      show A5 (a + n * b) = A0 (swapCells s.piv j q a + n * swapCells s.piv j q b)
        - ∑ t in Finset.range k, A5 (t + n * a) * A5 (t + n * b)
      rw [swapCells_eq_comp, swapCells_eq_comp, E2 a b ha2 (by omega) hb2 (by omega),
        inv.trail _ _ ((sw a ha2).2.1 (by omega)) (sw a ha2).1 ((sw b hb2).2.1 (by omega))
          (sw b hb2).1]
      congr 1
      refine Finset.sum_congr rfl (fun t ht => ?_)
      have ht := Finset.mem_range.mp ht
      rw [up t a (by omega) ha2, up t b (by omega) hb2]
    · intro b hb1 hb2
      show swapCells dots1 j q b = ∑ t in Finset.Ico k (j + 1 - 1), A5 (t + n * b) * A5 (t + n * b)
      rw [swapCells_eq_comp, dd _ ((sw b hb2).2.1 (by omega)) (sw b hb2).1, Nat.add_sub_cancel]
      refine Finset.sum_congr rfl (fun t ht => ?_)
      have ht := Finset.mem_Ico.mp ht
      rw [up t b ht.2 hb2]

/-- Loops whose pass `(i, j)`, `i < m`, `j < cnt i`, writes one value `v i j` to the two
cells `pa i j` and `pb i j`, computing it from a buffer that agrees with the start buffer
outside the cells of the other passes; the cells of different passes are different. -/
theorem pairStoreRead_gen (pa pb : Nat → Nat → Nat) (cnt : Nat → Nat)
    (G : Nat → Nat → (Nat → α) → Nat → α) (v : Nat → Nat → α) (A : Nat → α) (c m : Nat)
    (hm : m ≤ c)
    (hne : ∀ i j i' j', i < c → j < cnt i → i' < c → j' < cnt i' → (i ≠ i' ∨ j ≠ j') →
      pa i j ≠ pa i' j' ∧ pa i j ≠ pb i' j' ∧ pb i j ≠ pa i' j' ∧ pb i j ≠ pb i' j')
    (hG : ∀ i j B, i < c → j < cnt i →
      (∀ x, (∀ i' j', i' < c → j' < cnt i' → (i' ≠ i ∨ j' ≠ j) →
        x ≠ pa i' j' ∧ x ≠ pb i' j') → B x = A x) →
      G i j B = store (store B (pa i j) (v i j)) (pb i j) (v i j)) :
    (∀ i j, i < m → j < cnt i →
      forLoop m (fun i B => forLoop (cnt i) (fun j B => G i j B) B) A (pa i j) = v i j ∧
      forLoop m (fun i B => forLoop (cnt i) (fun j B => G i j B) B) A (pb i j) = v i j) ∧
    (∀ x, (∀ i j, i < m → j < cnt i → x ≠ pa i j ∧ x ≠ pb i j) →
      forLoop m (fun i B => forLoop (cnt i) (fun j B => G i j B) B) A x = A x) := by
  induction m with
  | zero => exact ⟨fun i j h => absurd h (Nat.not_lt_zero i), fun x _ => rfl⟩
  | succ i ih =>
    obtain ⟨h1, h2⟩ := ih (by omega)
    rw [forLoop_succ]
    generalize forLoop i (fun i B => forLoop (cnt i) (fun j B => G i j B) B) A = O at h1 h2 ⊢
    clear ih
    have inner : ∀ k, k ≤ cnt i →
        (∀ j, j < k → forLoop k (fun j B => G i j B) O (pa i j) = v i j ∧
          forLoop k (fun j B => G i j B) O (pb i j) = v i j) ∧
        (∀ x, (∀ j, j < k → x ≠ pa i j ∧ x ≠ pb i j) →
          forLoop k (fun j B => G i j B) O x = O x) := by
      intro k
      induction k with
      | zero => exact fun _ => ⟨fun j h => absurd h (Nat.not_lt_zero j), fun x _ => rfl⟩
      | succ k ihk =>
        intro hk
        obtain ⟨g1, g2⟩ := ihk (by omega)
        rw [forLoop_succ]
        generalize forLoop k (fun j B => G i j B) O = P at g1 g2 ⊢
        have hP : G i k P = store (store P (pa i k) (v i k)) (pb i k) (v i k) := by
          refine hG i k P (by omega) (by omega) (fun x hx => ?_)
          rw [g2 x (fun j hj => hx i j (by omega) (by omega) (Or.inr (by omega)))]
          exact h2 x (fun i' j' hi' hj' => hx i' j' (by omega) hj' (Or.inl (by omega)))
        rw [hP]
        refine ⟨?_, ?_⟩
        · intro j hj
          by_cases hjk : j = k
          · subst hjk
            refine ⟨?_, store_same _ _ _⟩
            by_cases hd : pa i j = pb i j
            · rw [hd, store_same]
            · rw [store_ne _ _ _ _ hd, store_same]
          · obtain ⟨b1, b2⟩ := g1 j (by omega)
            obtain ⟨a1, a2, a3, a4⟩ := hne i j i k (by omega) (by omega) (by omega) (by omega)
              (Or.inr hjk)
            rw [store_ne _ _ _ _ a2, store_ne _ _ _ _ a1, store_ne _ _ _ _ a4,
              store_ne _ _ _ _ a3]
            exact ⟨b1, b2⟩
        · intro x hx
          obtain ⟨q1, q2⟩ := hx k (by omega)
          rw [store_ne _ _ _ _ q2, store_ne _ _ _ _ q1, g2 x (fun j hj => hx j (by omega))]
    obtain ⟨g1, g2⟩ := inner (cnt i) le_rfl
    refine ⟨?_, ?_⟩
    · intro i' j hi' hji
      by_cases hii : i' = i
      · subst hii
        exact g1 j hji
      · have hlt : i' < i := by omega
        obtain ⟨b1, b2⟩ := h1 i' j hlt hji
        rw [g2 _ (fun j' hj' => by
            obtain ⟨a1, a2, a3, a4⟩ := hne i' j i j' (by omega) hji (by omega) hj'
              (Or.inl hii)
            exact ⟨a1, a2⟩),
          g2 _ (fun j' hj' => by
            obtain ⟨a1, a2, a3, a4⟩ := hne i' j i j' (by omega) hji (by omega) hj'
              (Or.inl hii)
            exact ⟨a3, a4⟩)]
        exact ⟨b1, b2⟩
    · intro x hx
      rw [g2 x (fun j hj => hx i j (by omega) hj),
        h2 x (fun i' j hi' hj => hx i' j (by omega) hj)]

/-- Block loops over non-decreasing cut points are one loop from the first cut point to the
last. -/
theorem blockLoop_eq_from {σ : Type} (m : Nat) (a : Nat → Nat) (body : Nat → σ → σ) (s : σ)
    (hmono : ∀ b, b < m → a b ≤ a (b + 1)) :
    blockLoop m a body s = forLoop (a m - a 0) (fun t => body (a 0 + t)) s := by
  unfold blockLoop
  have hge : ∀ b, b ≤ m → a 0 ≤ a b := by
    intro b
    induction b with
    | zero => exact fun _ => le_rfl
    | succ b ihb => exact fun hb => le_trans (ihb (by omega)) (hmono b (by omega))
  induction m with
  | zero => rw [Nat.sub_self]; rfl
  | succ m ih =>
    rw [forLoop_succ, ih (fun b hb => hmono b (by omega)) (fun b hb => hge b (by omega))]
    have h1 := hmono m (by omega)
    have h2 := hge m (by omega)
    have e : a (m + 1) - a 0 = (a m - a 0) + (a (m + 1) - a m) := by omega
    rw [e, forLoop_add]
    congr 1
    funext t s
    congr 1
    omega

/-- One cell pair of the trailing update of `mgcv_bchol`: both cells `(l, i)` and `(i, l)`
receive the value of `(l, i)` minus the products of the rows `k .. j - 1`. -/
theorem bcholTrailCell_eq [LinearOrderedField α] (n k j i l : Nat) (B : Nat → α)
    (hji : j ≤ i) (hil : i ≤ l) (hl : l < n) :
    bcholTrailCell n k j i l B
      = store (store B (l + n * i)
          (B (l + n * i) - ∑ t in Finset.range (j - k), B (k + t + n * l) * B (k + t + n * i)))
          (i + n * l)
          (B (l + n * i) - ∑ t in Finset.range (j - k), B (k + t + n * l) * B (k + t + n * i)) := by
  unfold bcholTrailCell
  simp only
  have hp : i * n + l = l + n * i := by ring
  rw [hp]
  obtain ⟨s1, s2⟩ := subLoop_spec (l + n * i) (fun t => l * n + k + t) (fun t => i * n + k + t)
    (j - k) B
    (fun t ht => by
      have := cell_ne n (k + t) l l i (by omega) hl (Or.inl (by omega))
      show l * n + k + t ≠ l + n * i
      rw [Nat.mul_comm n i]
      omega)
    (fun t ht => by
      have := cell_ne n (k + t) i l i (by omega) hl (Or.inl (by omega))
      show i * n + k + t ≠ l + n * i
      rw [Nat.mul_comm n i]
      omega)
  have e : ∑ u in Finset.range (j - k), B (l * n + k + u) * B (i * n + k + u)
      = ∑ t in Finset.range (j - k), B (k + t + n * l) * B (k + t + n * i) := by
    refine Finset.sum_congr rfl (fun t _ => ?_)
    congr 2 <;> ring
  rw [e] at s1
  generalize forLoop (j - k) (fun t A =>
    store A (l + n * i) (A (l + n * i) - A (l * n + k + t) * A (i * n + k + t))) B = A1
    at s1 s2 ⊢
  rw [s1]
  funext x
  by_cases h1 : x = i + n * l
  · rw [h1, store_same, store_same]
  · rw [store_ne _ _ _ _ h1, store_ne _ _ _ _ h1]
    by_cases h2 : x = l + n * i
    · rw [h2, store_same, s1]
    · rw [store_ne _ _ _ _ h2, s2 x h2]

/-- Trailing update of `mgcv_bchol` (as loops over the rows `i ≥ j` and the columns
`l ≥ i`): the products of the rows `k .. j - 1` are taken away from both triangles of the
trailing block, the rows above it are unchanged. -/
theorem bcholTrailLoops_spec [LinearOrderedField α] (A : Nat → α) (n k j : Nat)
    (hkj : k ≤ j) (hj : j ≤ n) :
    (∀ i l, j ≤ i → i ≤ l → l < n →
      forLoop (n - j) (fun ii A => forLoop (n - (j + ii)) (fun ll A =>
        bcholTrailCell n k j (j + ii) (j + ii + ll) A) A) A (l + n * i)
        = A (l + n * i) - ∑ t in Finset.Ico k j, A (t + n * l) * A (t + n * i) ∧
      forLoop (n - j) (fun ii A => forLoop (n - (j + ii)) (fun ll A =>
        bcholTrailCell n k j (j + ii) (j + ii + ll) A) A) A (i + n * l)
        = A (l + n * i) - ∑ t in Finset.Ico k j, A (t + n * l) * A (t + n * i)) ∧
    (∀ a b, a < n → b < n → (a < j ∨ b < j) →
      forLoop (n - j) (fun ii A => forLoop (n - (j + ii)) (fun ll A =>
        bcholTrailCell n k j (j + ii) (j + ii + ll) A) A) A (a + n * b) = A (a + n * b)) := by
  have cells : ∀ i l i' l', i ≤ l → l < n → i' ≤ l' → l' < n → (i ≠ i' ∨ l ≠ l') →
      l + n * i ≠ l' + n * i' ∧ l + n * i ≠ i' + n * l' ∧
      i + n * l ≠ l' + n * i' ∧ i + n * l ≠ i' + n * l' := by
    intro i l i' l' h1 h2 h3 h4 h
    obtain ⟨c1, c2, c3, c4⟩ := symCells_ne n l i l' i' h1 h2 h3 h4 (by omega)
    rw [Nat.mul_comm n i, Nat.mul_comm n l, Nat.mul_comm n i', Nat.mul_comm n l']
    exact ⟨c4, c3, c2, c1⟩
  obtain ⟨h1, h2⟩ := pairStoreRead_gen
    (fun ii ll => (j + ii + ll) + n * (j + ii)) (fun ii ll => (j + ii) + n * (j + ii + ll))
    (fun ii => n - (j + ii))
    (fun ii ll B => bcholTrailCell n k j (j + ii) (j + ii + ll) B)
    (fun ii ll => A ((j + ii + ll) + n * (j + ii))
      - ∑ t in Finset.range (j - k), A (k + t + n * (j + ii + ll)) * A (k + t + n * (j + ii)))
    A (n - j) (n - j) le_rfl
    (fun ii ll ii' ll' hi hl hi' hl' h => by
      have hl : ll < n - (j + ii) := hl
      have hl' : ll' < n - (j + ii') := hl'
      exact cells (j + ii) (j + ii + ll) (j + ii') (j + ii' + ll') (by omega) (by omega)
        (by omega) (by omega) (by omega))
    (fun ii ll B hi hl hB => by
      have hl : ll < n - (j + ii) := hl
      beta_reduce at hB ⊢
      rw [bcholTrailCell_eq n k j (j + ii) (j + ii + ll) B (by omega) (by omega) (by omega)]
      have own : B ((j + ii + ll) + n * (j + ii)) = A ((j + ii + ll) + n * (j + ii)) := by
        refine hB _ (fun ii' ll' hi' hl' h => ?_)
        have hl' : ll' < n - (j + ii') := hl'
        obtain ⟨c1, c2, -, -⟩ := cells (j + ii) (j + ii + ll) (j + ii') (j + ii' + ll')
          (by omega) (by omega) (by omega) (by omega) (by omega)
        exact ⟨c1, c2⟩
      have rows : ∀ t c, t < j → c < n → B (t + n * c) = A (t + n * c) := by
        intro t c ht hc
        refine hB _ (fun ii' ll' hi' hl' h => ?_)
        have hl' : ll' < n - (j + ii') := hl'
        have f1 := cell_ne n t c (j + ii' + ll') (j + ii') (by omega) (by omega)
          (Or.inl (by omega))
        have f2 := cell_ne n t c (j + ii') (j + ii' + ll') (by omega) (by omega)
          (Or.inl (by omega))
        rw [Nat.mul_comm n c, Nat.mul_comm n (j + ii'), Nat.mul_comm n (j + ii' + ll')]
        exact ⟨f1, f2⟩
      have es : ∑ t in Finset.range (j - k),
            B (k + t + n * (j + ii + ll)) * B (k + t + n * (j + ii))
          = ∑ t in Finset.range (j - k),
            A (k + t + n * (j + ii + ll)) * A (k + t + n * (j + ii)) := by
        refine Finset.sum_congr rfl (fun t ht => ?_)
        have ht := Finset.mem_range.mp ht
        rw [rows (k + t) _ (by omega) (by omega), rows (k + t) _ (by omega) (by omega)]
      rw [own, es])
  refine ⟨?_, ?_⟩
  · intro i l hji hil hl
    obtain ⟨g1, g2⟩ := h1 (i - j) (l - i) (by omega) (by show l - i < n - (j + (i - j)); omega)
    simp only [show j + (i - j) = i by omega, show i + (l - i) = l by omega] at g1 g2
    rw [sum_Ico_shift (fun t => A (t + n * l) * A (t + n * i)) k j] at g1 g2
    exact ⟨g1, g2⟩
  · intro a b ha hb hab
    refine h2 _ (fun ii ll hi hl => ?_)
    have hl : ll < n - (j + ii) := hl
    have f1 := cell_ne n a b (j + ii + ll) (j + ii) ha (by omega) (by omega)
    have f2 := cell_ne n a b (j + ii) (j + ii + ll) ha (by omega) (by omega)
    rw [Nat.mul_comm n b, Nat.mul_comm n (j + ii), Nat.mul_comm n (j + ii + ll)]
    exact ⟨f1, f2⟩

/-- Cut points of the trailing update of `mgcv_bchol`: at least one block, the first starts
at `j`, the starts increase strictly, and the last block ends at `n` or above. -/
theorem bcholCuts_spec (cut : Nat → Nat → Nat → Nat) (n j m : Nat) (a : Nat → Nat)
    (hj : j < n) (hm : 1 ≤ m) (ha : n ≤ a m) :
    1 ≤ (bcholCuts cut n j m a).1 ∧
    (bcholCuts cut n j m a).2 0 = j ∧
    (∀ b, b < (bcholCuts cut n j m a).1 →
      (bcholCuts cut n j m a).2 b < (bcholCuts cut n j m a).2 (b + 1)) ∧
    n ≤ (bcholCuts cut n j m a).2 (bcholCuts cut n j m a).1 := by
  unfold bcholCuts
  simp only
  have hma : 1 ≤ (if m > n - j then (n - j, store a (n - j) n) else (m, a)).1 ∧
      n ≤ (if m > n - j then (n - j, store a (n - j) n) else (m, a)).2
        (if m > n - j then (n - j, store a (n - j) n) else (m, a)).1 := by
    by_cases c : m > n - j
    · rw [if_pos c]
      exact ⟨by show 1 ≤ n - j; omega, by show n ≤ store a (n - j) n (n - j); rw [store_same]⟩
    · rw [if_neg c]
      exact ⟨hm, ha⟩
  generalize (if m > n - j then (n - j, store a (n - j) n) else (m, a)) = ma at hma ⊢
  obtain ⟨m1, a0⟩ := ma
  simp only at hma ⊢
  obtain ⟨hm1, ha0⟩ := hma
  have e : ∀ i, i < m1 - 1 → m1 ≠ i + 1 := fun i hi => by omega
  have g2 := (storeLoop_spec (m1 - 1) (fun t => t + 1)
    (fun t _ => cut (n - j) m1 (t + 1) + j) (store a0 0 j)
    (fun i i' _ _ h => Nat.add_right_cancel h)).2
  have q0 := g2 0 (fun i _ => (Nat.succ_ne_zero i).symm)
  have qm := g2 m1 e
  rw [store_same] at q0
  rw [store_ne _ _ _ _ (by omega)] at qm
  clear g2
  obtain ⟨h1, h2, -, h4⟩ := fixLoop_spec
    (forLoop (m1 - 1) (fun t a => store a (t + 1) (cut (n - j) m1 (t + 1) + j)) (store a0 0 j))
    m1
  generalize forLoop (m1 - 1) (fun t a => store a (t + 1) (cut (n - j) m1 (t + 1) + j))
    (store a0 0 j) = a2 at q0 qm h1 h2 h4 ⊢
  exact ⟨hm1, h1.trans q0, h2, le_trans (qm ▸ ha0) h4⟩

/-- The trailing update of `mgcv_bchol`, whatever the cut points of the thread blocks. -/
theorem bcholTrail_spec [LinearOrderedField α] (cut : Nat → Nat → Nat → Nat) (A : Nat → α)
    (n k j m : Nat) (a : Nat → Nat) (hkj : k ≤ j) (hj : j < n) (hm : 1 ≤ m) (ha : n ≤ a m) :
    (∀ i l, j ≤ i → i ≤ l → l < n →
      bcholTrail n k j (bcholCuts cut n j m a).1 (bcholCuts cut n j m a).2 A (l + n * i)
        = A (l + n * i) - ∑ t in Finset.Ico k j, A (t + n * l) * A (t + n * i) ∧
      bcholTrail n k j (bcholCuts cut n j m a).1 (bcholCuts cut n j m a).2 A (i + n * l)
        = A (l + n * i) - ∑ t in Finset.Ico k j, A (t + n * l) * A (t + n * i)) ∧
    (∀ a' b, a' < n → b < n → (a' < j ∨ b < j) →
      bcholTrail n k j (bcholCuts cut n j m a).1 (bcholCuts cut n j m a).2 A (a' + n * b)
        = A (a' + n * b)) := by
  obtain ⟨c1, c2, c3, c4⟩ := bcholCuts_spec cut n j m a hj hm ha
  generalize bcholCuts cut n j m a = ma at c1 c2 c3 c4 ⊢
  obtain ⟨m1, a3⟩ := ma
  simp only at c1 c2 c3 c4 ⊢
  have e : bcholTrail n k j m1 a3 A
      = forLoop (n - j) (fun ii A => forLoop (n - (j + ii)) (fun ll A =>
        bcholTrailCell n k j (j + ii) (j + ii + ll) A) A) A := by
    have h := blockLoop_eq_from m1 a3 (fun i (A : Nat → α) => forLoop (n - i) (fun ll A =>
      bcholTrailCell n k j i (i + ll) A) A) A (fun b hb => le_of_lt (c3 b hb))
    rw [c2] at h
    have h' : bcholTrail n k j m1 a3 A = blockLoop m1 a3 (fun i (A : Nat → α) =>
        forLoop (n - i) (fun ll A => bcholTrailCell n k j i (i + ll) A) A) A := rfl
    rw [h', h]
    exact forLoop_trunc (n - j) (a3 m1 - j) _ A (by omega) (fun i hi s => by
      show forLoop (n - (j + i)) _ s = s
      rw [show n - (j + i) = 0 by omega]
      rfl)
  rw [e]
  exact bcholTrailLoops_spec A n k j hkj (le_of_lt hj)

/-- The invariant of `mgcv_bchol` looks at `Ajn`, `r`, `piv`, `A`, `tol` and at the entries
`j .. n - 1` of `dots` only. -/
theorem BcholInv_congr [LinearOrderedField α] (A0 : Nat → α) (n k j : Nat)
    (s s' : BcholState α) (h1 : s'.Ajn = s.Ajn) (h2 : s'.r = s.r) (h3 : s'.piv = s.piv)
    (h4 : s'.A = s.A) (h5 : s'.tol = s.tol)
    (h6 : ∀ b, j ≤ b → b < n → s'.dots b = s.dots b) (inv : BcholInv A0 n k j s) :
    BcholInv A0 n k j s' :=
  { ajn := h1.trans inv.ajn
    rneg := h2.trans inv.rneg
    pivlt := by rw [h3]; exact inv.pivlt
    pivinj := by rw [h3]; exact inv.pivinj
    pivsurj := by rw [h3]; exact inv.pivsurj
    diag := by rw [h4]; exact inv.diag
    star := by rw [h3, h4]; exact inv.star
    trail := by rw [h3, h4]; exact inv.trail
    dots := fun b hb1 hb2 => by rw [h6 b hb1 hb2, h4]; exact inv.dots b hb1 hb2
    tolpos := by rw [h5]; exact inv.tolpos }

theorem BcholInv_done [LinearOrderedField α] (A0 : Nat → α) (n k j : Nat)
    (s : BcholState α) (inv : BcholInv A0 n k j s) : BcholDone A0 n j s.A s.piv :=
  { pivlt := inv.pivlt
    pivinj := inv.pivinj
    pivsurj := inv.pivsurj
    diag := inv.diag
    star := inv.star }

/-- The `j` loop of a block of `mgcv_bchol`: after `m` passes either no rank test has failed
and the invariant holds at column `k + m`, or a test has failed at a column `j ≥ 1` and `j`
rows of the factor are final. -/
theorem bcholCols_inv [LinearOrderedField α] (sqrt : α → α) (eps : α) (A0 : Nat → α)
    (n k : Nat) (s0 : BcholState α)
    (hsq : ∀ x, 0 < x → sqrt x * sqrt x = x) (heps : 0 < eps) (hneps : (n : α) * eps ≤ 1)
    (hpos : ∃ i, i < n ∧ 0 < A0 (i + n * i))
    (inv : BcholInv A0 n k k s0) (hbrk : s0.brk = false) (hj0 : s0.j = k) (m : Nat)
    (hm : k + m ≤ n) :
    ((forLoop m (fun t (s : BcholState α) =>
        if s.brk then s else bcholCol sqrt eps n k (k + t) s) s0).m = s0.m ∧
      (forLoop m (fun t (s : BcholState α) =>
        if s.brk then s else bcholCol sqrt eps n k (k + t) s) s0).a = s0.a ∧
      (forLoop m (fun t (s : BcholState α) =>
        if s.brk then s else bcholCol sqrt eps n k (k + t) s) s0).jb = s0.jb ∧
      (forLoop m (fun t (s : BcholState α) =>
        if s.brk then s else bcholCol sqrt eps n k (k + t) s) s0).stop = s0.stop) ∧
    (((forLoop m (fun t (s : BcholState α) =>
        if s.brk then s else bcholCol sqrt eps n k (k + t) s) s0).brk = false ∧
      BcholInv A0 n k (k + m) (forLoop m (fun t (s : BcholState α) =>
        if s.brk then s else bcholCol sqrt eps n k (k + t) s) s0) ∧
      (forLoop m (fun t (s : BcholState α) =>
        if s.brk then s else bcholCol sqrt eps n k (k + t) s) s0).j = k + m) ∨
     ((forLoop m (fun t (s : BcholState α) =>
        if s.brk then s else bcholCol sqrt eps n k (k + t) s) s0).brk = true ∧
      ∃ j, 1 ≤ j ∧ j < n ∧
        (forLoop m (fun t (s : BcholState α) =>
          if s.brk then s else bcholCol sqrt eps n k (k + t) s) s0).r = (j : Int) ∧
        BcholDone A0 n j
          (forLoop m (fun t (s : BcholState α) =>
            if s.brk then s else bcholCol sqrt eps n k (k + t) s) s0).A
          (forLoop m (fun t (s : BcholState α) =>
            if s.brk then s else bcholCol sqrt eps n k (k + t) s) s0).piv)) := by
  induction m with
  | zero => exact ⟨⟨rfl, rfl, rfl, rfl⟩, Or.inl ⟨hbrk, inv, hj0⟩⟩
  | succ m ih =>
    obtain ⟨⟨f1, f2, f3, f4⟩, h⟩ := ih (by omega)
    rw [forLoop_succ]
    generalize forLoop m (fun t (s : BcholState α) =>
        if s.brk then s else bcholCol sqrt eps n k (k + t) s) s0 = S at f1 f2 f3 f4 h ⊢
    rcases h with ⟨b, hi, hjj⟩ | ⟨b, hd⟩
    · rw [if_neg (by rw [b]; exact Bool.false_ne_true)]
      obtain ⟨⟨g1, g2, g3, g4⟩, g⟩ := bcholCol_inv sqrt eps A0 n k (k + m) S hsq heps hneps
        hpos (by omega) (by omega) hi
      refine ⟨⟨g1.trans f1, g2.trans f2, g3.trans f3, g4.trans f4⟩, ?_⟩
      rcases g with ⟨i1, i2, i3⟩ | ⟨i1, i2, i3, i4, i5⟩
      · exact Or.inl ⟨i2.trans b, i1, i3⟩
      · refine Or.inr ⟨i1, k + m, i3, by omega, i2, ?_⟩
        rw [i4, i5]
        exact BcholInv_done A0 n k (k + m) S hi
    · rw [if_pos b]
      exact ⟨⟨f1, f2, f3, f4⟩, Or.inr ⟨b, hd⟩⟩

/-- The trailing update of `mgcv_bchol` and the reset of `dots` give the invariant at the
first column of the next block. -/
theorem bcholTrail_inv [LinearOrderedField α] (A0 : Nat → α) (n k j : Nat)
    (S S' : BcholState α) (hsym : ∀ a b, a < n → b < n → A0 (a + n * b) = A0 (b + n * a))
    (hkj : k ≤ j) (hjn : j ≤ n) (inv : BcholInv A0 n k j S)
    (h1 : S'.Ajn = S.Ajn) (h2 : S'.r = S.r) (h3 : S'.piv = S.piv) (h5 : S'.tol = S.tol)
    (h6 : ∀ b, j ≤ b → b < n → S'.dots b = 0)
    (t1 : ∀ i l, j ≤ i → i ≤ l → l < n →
      S'.A (l + n * i)
        = S.A (l + n * i) - ∑ t in Finset.Ico k j, S.A (t + n * l) * S.A (t + n * i) ∧
      S'.A (i + n * l)
        = S.A (l + n * i) - ∑ t in Finset.Ico k j, S.A (t + n * l) * S.A (t + n * i))
    (t2 : ∀ a b, a < n → b < n → (a < j ∨ b < j) → S'.A (a + n * b) = S.A (a + n * b)) :
    BcholInv A0 n j j S' := by
  refine
    { ajn := h1.trans inv.ajn
      rneg := h2.trans inv.rneg
      pivlt := by rw [h3]; exact inv.pivlt
      pivinj := by rw [h3]; exact inv.pivinj
      pivsurj := by rw [h3]; exact inv.pivsurj
      diag := ?_
      star := ?_
      trail := ?_
      dots := ?_
      tolpos := by rw [h5]; exact inv.tolpos }
  · intro i hi
    rw [t2 i i (by omega) (by omega) (Or.inl hi)]
    exact inv.diag i hi
  · intro i l hi hil hl
    rw [h3, ← inv.star i l hi hil hl]
    refine Finset.sum_congr rfl (fun t ht => ?_)
    have ht := Finset.mem_range.mp ht
    rw [t2 t i (by omega) (by omega) (Or.inl (by omega)),
      t2 t l (by omega) hl (Or.inl (by omega))]
  · intro a b ha1 ha2 hb1 hb2
    have hs : ∑ t in Finset.range j, S'.A (t + n * a) * S'.A (t + n * b)
        = ∑ t in Finset.range j, S.A (t + n * a) * S.A (t + n * b) := by
      refine Finset.sum_congr rfl (fun t ht => ?_)
      have ht := Finset.mem_range.mp ht
      rw [t2 t a (by omega) ha2 (Or.inl ht), t2 t b (by omega) hb2 (Or.inl ht)]
    rw [hs, h3, sum_range_split_Ico _ k j hkj]
    rcases Nat.lt_or_ge b a with hab | hab
    · rw [(t1 b a hb1 (by omega) ha2).1, inv.trail a b ha1 ha2 hb1 hb2]
      ring
    · rw [(t1 a b ha1 hab hb2).2, inv.trail b a hb1 hb2 ha1 ha2,
        hsym (S.piv b) (S.piv a) (inv.pivlt b hb2) (inv.pivlt a ha2)]
      have e1 : ∑ t in Finset.range k, S.A (t + n * b) * S.A (t + n * a)
          = ∑ t in Finset.range k, S.A (t + n * a) * S.A (t + n * b) :=
        Finset.sum_congr rfl (fun t _ => mul_comm _ _)
      have e2 : ∑ t in Finset.Ico k j, S.A (t + n * b) * S.A (t + n * a)
          = ∑ t in Finset.Ico k j, S.A (t + n * a) * S.A (t + n * b) :=
        Finset.sum_congr rfl (fun t _ => mul_comm _ _)
      rw [e1, e2]
      ring
  · intro b hb1 hb2
    rw [h6 b hb1 hb2, Finset.Ico_eq_empty (by omega), Finset.sum_empty]

theorem strideCount_lt_iff (n nb kk : Nat) (hnb : 1 ≤ nb) :
    kk < strideCount 0 n nb ↔ kk * nb < n := by
  unfold strideCount
  rw [Nat.sub_zero, Nat.lt_iff_add_one_le, Nat.le_div_iff_mul_le (by omega), Nat.add_mul]
  omega

/-- One block of `mgcv_bchol` keeps the outer invariant. -/
theorem bcholBlock_outer [LinearOrderedField α] (sqrt : α → α) (eps : α)
    (cut : Nat → Nat → Nat → Nat) (A0 : Nat → α) (n nb kk : Nat) (s : BcholState α)
    (hsq : ∀ x, 0 < x → sqrt x * sqrt x = x) (heps : 0 < eps) (hneps : (n : α) * eps ≤ 1)
    (hpos : ∃ i, i < n ∧ 0 < A0 (i + n * i))
    (hsym : ∀ a b, a < n → b < n → A0 (a + n * b) = A0 (b + n * a))
    (hnb : 1 ≤ nb) (hk : kk * nb < n) (h : BcholOuter A0 n nb kk s) :
    BcholOuter A0 n nb (kk + 1) (bcholBlock sqrt eps cut n nb kk s) := by
  rcases h with ⟨hs, hd⟩ | ⟨hs, _, hjb, hm, ha, inv⟩ | ⟨_, hn, _, _⟩
  · unfold bcholBlock
    rw [if_pos hs]
    exact Or.inl ⟨hs, hd⟩
  · unfold bcholBlock
    rw [if_neg (by rw [hs]; exact Bool.false_ne_true)]
    simp only
    have hjb' : (if n - kk * nb < s.jb then n - kk * nb else s.jb) ≤ n - kk * nb := by
      split_ifs <;> omega
    have hjb1 : 1 ≤ (if n - kk * nb < s.jb then n - kk * nb else s.jb) := by
      split_ifs <;> omega
    have hjb2 : kk * nb + (if n - kk * nb < s.jb then n - kk * nb else s.jb) < n →
        (if n - kk * nb < s.jb then n - kk * nb else s.jb) = nb := by
      split_ifs <;> omega
    have hjb3 : (if n - kk * nb < s.jb then n - kk * nb else s.jb) ≤ nb := by
      split_ifs <;> omega
    generalize (if n - kk * nb < s.jb then n - kk * nb else s.jb) = jb at hjb' hjb1 hjb2 hjb3 ⊢
    have hz : ∀ b, kk * nb ≤ b → b < n →
        forLoop (n - kk * nb) (fun t d => store d (kk * nb + t) 0) s.dots b = (0 : α) := by
      intro b hb1 hb2
      have e := (storeLoop_spec (n - kk * nb) (fun t => kk * nb + t) (fun _ _ => (0 : α))
        s.dots (fun t t' _ _ h => Nat.add_left_cancel h)).1 (b - kk * nb) (by omega)
      have e' : kk * nb + (b - kk * nb) = b := by omega
      simp only [e'] at e
      exact e
    generalize forLoop (n - kk * nb) (fun t d => store d (kk * nb + t) 0) s.dots = dots0 at hz ⊢
    have inv0 : BcholInv A0 n (kk * nb) (kk * nb)
        { s with jb := jb, dots := dots0, j := kk * nb, brk := false } :=
      BcholInv_congr A0 n (kk * nb) (kk * nb) { s with dots := fun _ => 0 } _ rfl rfl rfl rfl rfl
        (fun b hb1 hb2 => hz b hb1 hb2) inv
    obtain ⟨⟨f1, f2, f3, f4⟩, hh⟩ := bcholCols_inv sqrt eps A0 n (kk * nb) _ hsq heps hneps hpos
      inv0 rfl rfl jb (by omega)
    generalize forLoop jb (fun t (s : BcholState α) =>
        if s.brk then s else bcholCol sqrt eps n (kk * nb) (kk * nb + t) s)
        { s with jb := jb, dots := dots0, j := kk * nb, brk := false } = S at f1 f2 f3 f4 hh ⊢
    simp only at f1 f2 f3 f4
    rcases hh with ⟨_, hi, hjj⟩ | ⟨_, j, hj1, hj2, hr, hd⟩
    · have hr := hi.rneg
      rw [if_neg (by rw [hr]; decide)]
      by_cases c : kk * nb + jb < n
      · rw [if_pos c]
        have ejb := hjb2 c
        have hSm : 1 ≤ S.m := by rw [f1]; exact hm
        have hSa : n ≤ S.a S.m := by rw [f1, f2]; exact ha
        have hSj : S.j < n := by rw [hjj]; exact c
        obtain ⟨c1, _, _, c4⟩ := bcholCuts_spec cut n S.j S.m S.a hSj hSm hSa
        obtain ⟨t1, t2⟩ := bcholTrail_spec cut S.A n (kk * nb) S.j S.m S.a (by omega) hSj
          hSm hSa
        refine Or.inr (Or.inl ⟨f4.trans hs, ?_, ?_, c1, c4, ?_⟩)
        · rw [Nat.add_mul, Nat.one_mul]; omega
        · exact f3.trans ejb
        · have ek : (kk + 1) * nb = S.j := by rw [Nat.add_mul, Nat.one_mul, hjj, ejb]
          rw [ek]
          rw [hjj] at t1 t2 ⊢
          exact bcholTrail_inv A0 n (kk * nb) (kk * nb + jb) S _ hsym (by omega) (by omega) hi
            rfl rfl rfl rfl (fun _ _ _ => rfl) t1 t2
      · rw [if_neg c]
        refine Or.inr (Or.inr ⟨f4.trans hs, ?_, hr, ?_⟩)
        · rw [Nat.add_mul, Nat.one_mul]; omega
        · have e : kk * nb + jb = n := by omega
          rw [e] at hi
          exact BcholInv_done A0 n (kk * nb) n S hi
    · rw [if_pos (by rw [hr]; exact_mod_cast hj1)]
      exact Or.inl ⟨rfl, j, hj1, hj2, hr, hd⟩
  · omega

/-- Value of every cell after the final zeroing loop of `mgcv_bchol` for a rank `r ≤ n`:
the cells of the rows `i ≤ j`, `i < r` of a column `j` are kept, the others are zero. -/
theorem bcholZero_cells [LinearOrderedField α] (n r : Nat) (hr : r ≤ n) (A : Nat → α) :
    ∀ i j, i < n → j < n →
      bcholZero n (r : Int) A (i + n * j) = if j < i ∨ r ≤ i then 0 else A (i + n * j) := by
  unfold bcholZero
  have key : ∀ m, m ≤ n → ∀ i j, i < n → j < n →
      forLoop m (fun j (A : Nat → α) =>
        forLoop (j * n + n - (j * n + (if (j : Int) < (r : Int) then j + 1 else (r : Int).toNat)))
          (fun t A =>
            store A (j * n + (if (j : Int) < (r : Int) then j + 1 else (r : Int).toNat) + t) 0)
          A) A (i + n * j)
        = if j < m ∧ (j < i ∨ r ≤ i) then 0 else A (i + n * j) := by
    intro m
    induction m with
    | zero => intro _ i j _ _; simp [forLoop]
    | succ m ih =>
      intro hm i j hi hj
      have ih' := ih (by omega)
      rw [forLoop_succ]
      generalize forLoop m (fun j (A : Nat → α) =>
        forLoop (j * n + n - (j * n + (if (j : Int) < (r : Int) then j + 1 else (r : Int).toNat)))
          (fun t A =>
            store A (j * n + (if (j : Int) < (r : Int) then j + 1 else (r : Int).toNat) + t) 0)
          A) A = B at ih' ⊢
      simp only [Nat.cast_lt, Int.toNat_ofNat]
      have hst : (if m < r then m + 1 else r) ≤ n := by split_ifs <;> omega
      have hst2 : ∀ x, (if m < r then m + 1 else r) ≤ x ↔ (m < x ∨ r ≤ x) := by
        intro x; split_ifs <;> omega
      generalize (if m < r then m + 1 else r) = st at hst hst2 ⊢
      obtain ⟨s1, s2⟩ := storeLoop_spec (m * n + n - (m * n + st)) (fun t => m * n + st + t)
        (fun _ _ => (0 : α)) B (fun t t' _ _ h => Nat.add_left_cancel h)
      by_cases c : j = m ∧ st ≤ i
      · obtain ⟨c1, c2⟩ := c
        subst c1
        have e := s1 (i - st) (by omega)
        have e' : i + n * j = j * n + st + (i - st) := by rw [Nat.mul_comm]; omega
        rw [e', e, if_pos ⟨by omega, (hst2 i).mp c2⟩]
      · have hne : ∀ t, t < m * n + n - (m * n + st) → i + n * j ≠ m * n + st + t := by
          intro t ht
          have ht' : st + t < n := by omega
          have := cell_ne n i j (st + t) m hi ht' (by
            by_cases c1 : j = m
            · left; intro h; exact c ⟨c1, by omega⟩
            · right; exact c1)
          rw [Nat.mul_comm n j]
          intro h
          apply this
          omega
        rw [s2 _ hne, ih' i j hi hj]
        have hc : (j < m + 1 ∧ (j < i ∨ r ≤ i)) ↔ (j < m ∧ (j < i ∨ r ≤ i)) := by
          constructor
          · rintro ⟨a, b⟩
            refine ⟨?_, b⟩
            by_contra h'
            have ejm : j = m := by omega
            exact c ⟨ejm, (hst2 i).mpr (by rw [← ejm]; exact b)⟩
          · rintro ⟨a, b⟩
            exact ⟨by omega, b⟩
        simp only [hc]
  intro i j hi hj
  rw [key n (le_refl n) i j hi hj]
  simp [hj]

/-- The block loop of `mgcv_bchol` keeps the outer invariant. -/
theorem bcholBlocks_outer [LinearOrderedField α] (sqrt : α → α) (eps : α)
    (cut : Nat → Nat → Nat → Nat) (A0 : Nat → α) (n nb : Nat) (s0 : BcholState α)
    (hsq : ∀ x, 0 < x → sqrt x * sqrt x = x) (heps : 0 < eps) (hneps : (n : α) * eps ≤ 1)
    (hpos : ∃ i, i < n ∧ 0 < A0 (i + n * i))
    (hsym : ∀ a b, a < n → b < n → A0 (a + n * b) = A0 (b + n * a))
    (hnb : 1 ≤ nb) (h : BcholOuter A0 n nb 0 s0) (m : Nat) (hm : m ≤ strideCount 0 n nb) :
    BcholOuter A0 n nb m (forLoop m (bcholBlock sqrt eps cut n nb) s0) := by
  induction m with
  | zero => exact h
  | succ m ih =>
    rw [forLoop_succ]
    exact bcholBlock_outer sqrt eps cut A0 n nb m _ hsq heps hneps hpos hsym hnb
      ((strideCount_lt_iff n nb m hnb).mp (by omega)) (ih (by omega))

/-- The factorisation computed by `mgcv_bchol`: the returned rank `r` is between 1 and `n`,
the pivot is a permutation, the first `r` diagonal entries of the factor are not zero, its
rows `i < r` reproduce the rows `i` of the permuted input from the diagonal on, and the
factor is zero below the diagonal and from row `r` on. -/
theorem bchol_done [LinearOrderedField α] (sqrt : α → α) (eps : α)
    (cut : Nat → Nat → Nat → Nat) (A : Nat → α) (piv : Nat → Nat) (n nt nb : Nat)
    (hsq : ∀ x, 0 < x → sqrt x * sqrt x = x) (heps : 0 < eps) (hneps : (n : α) * eps ≤ 1)
    (hpos : ∃ i, i < n ∧ 0 < A (i + n * i))
    (hsym : ∀ a b, a < n → b < n → A (a + n * b) = A (b + n * a))
    (hnb : 1 ≤ nb) :
    ∃ r : Nat, 1 ≤ r ∧ r ≤ n ∧ (mgcv_bchol sqrt eps cut A piv n nt nb).2.2 = (r : Int) ∧
      BcholDone A n r (mgcv_bchol sqrt eps cut A piv n nt nb).1
        (mgcv_bchol sqrt eps cut A piv n nt nb).2.1 ∧
      ∀ i j, i < n → j < n → (j < i ∨ r ≤ i) →
        (mgcv_bchol sqrt eps cut A piv n nt nb).1 (i + n * j) = 0 := by
  have hn : 1 ≤ n := by obtain ⟨i, hi, _⟩ := hpos; omega
  have hp0 : ∀ i, i < n → forLoop n (fun i p => store p i i) piv i = i := fun i hi =>
    (storeLoop_spec n (fun i => i) (fun i _ => i) piv (fun _ _ _ _ h => h)).1 i hi
  have hm1 : 1 ≤ (if (if nt < 1 then 1 else nt) > n then n else (if nt < 1 then 1 else nt)) := by
    split_ifs <;> omega
  unfold mgcv_bchol
  simp only
  generalize forLoop n (fun i p => store p i i) piv = piv0 at hp0 ⊢
  generalize (if (if nt < 1 then 1 else nt) > n then n else (if nt < 1 then 1 else nt)) = m
    at hm1 ⊢
  have h0 : BcholOuter A n nb 0
      ({ A := A, piv := piv0, dots := fun _ => 0, a := store (fun _ => 0) m n, r := -1,
         tol := 0, jb := nb, m := m, Ajn := 0, j := 0, brk := false, stop := false } :
        BcholState α) := by
    refine Or.inr (Or.inl ⟨rfl, by omega, rfl, hm1, by show n ≤ store (fun _ => 0) m n m; rw [store_same],
      ?_⟩)
    rw [Nat.zero_mul]
    exact
      { ajn := by simp
        rneg := rfl
        pivlt := fun i hi => by show piv0 i < n; rw [hp0 i hi]; exact hi
        pivinj := fun i i' hi hi' h => by
          have h : piv0 i = piv0 i' := h
          rw [hp0 i hi, hp0 i' hi'] at h; exact h
        pivsurj := fun v hv => ⟨v, hv, hp0 v hv⟩
        diag := fun i hi => absurd hi (Nat.not_lt_zero i)
        star := fun i l hi => absurd hi (Nat.not_lt_zero i)
        trail := fun a b _ ha _ hb => by
          show A (a + n * b) = A (piv0 a + n * piv0 b) - _
          rw [hp0 a ha, hp0 b hb, Finset.range_zero, Finset.sum_empty, sub_zero]
        dots := fun b _ _ => by
          show (0 : α) = _
          rw [Finset.Ico_eq_empty (by omega), Finset.sum_empty]
        tolpos := fun h => absurd h (by omega) }
  have hK := bcholBlocks_outer sqrt eps cut A n nb _ hsq heps hneps hpos hsym hnb h0
    (strideCount 0 n nb) (le_refl _)
  generalize forLoop (strideCount 0 n nb) (bcholBlock sqrt eps cut n nb)
      ({ A := A, piv := piv0, dots := fun _ => 0, a := store (fun _ => 0) m n, r := -1,
         tol := 0, jb := nb, m := m, Ajn := 0, j := 0, brk := false, stop := false } :
        BcholState α) = S at hK ⊢
  have hfin : ∃ r : Nat, 1 ≤ r ∧ r ≤ n ∧ (if S.r < 0 then (n : Int) else S.r) = (r : Int) ∧
      BcholDone A n r S.A S.piv := by
    rcases hK with ⟨_, j, hj1, hj2, hr, hd⟩ | ⟨_, hk, _⟩ | ⟨_, _, hr, hd⟩
    · exact ⟨j, hj1, by omega, by rw [hr, if_neg (by omega)], hd⟩
    · exact absurd hk (by
        have := (strideCount_lt_iff n nb (strideCount 0 n nb) hnb).not.mp (lt_irrefl _)
        exact this)
    · exact ⟨n, hn, le_refl n, by rw [hr, if_pos (by decide)], hd⟩
  obtain ⟨r, hr1, hr2, hr3, hd⟩ := hfin
  rw [hr3]
  have hz := bcholZero_cells n r hr2 S.A
  refine ⟨r, hr1, hr2, rfl, ?_, ?_⟩
  · exact
      { pivlt := hd.pivlt
        pivinj := hd.pivinj
        pivsurj := hd.pivsurj
        diag := fun i hi => by
          show bcholZero n (r : Int) S.A (i + n * i) ≠ 0
          rw [hz i i (by omega) (by omega), if_neg (by omega)]
          exact hd.diag i hi
        star := fun i l hi hil hl => by
          show ∑ t in Finset.range (i + 1),
            bcholZero n (r : Int) S.A (t + n * i) * bcholZero n (r : Int) S.A (t + n * l) = _
          rw [← hd.star i l hi hil hl]
          refine Finset.sum_congr rfl (fun t ht => ?_)
          have ht := Finset.mem_range.mp ht
          rw [hz t i (by omega) (by omega), if_neg (by omega), hz t l (by omega) hl,
            if_neg (by omega)] }
  · intro i j hi hj h
    show bcholZero n (r : Int) S.A (i + n * j) = 0
    rw [hz i j hi hj, if_pos h]

/-- Rank bound behind the rank returned by `mgcv_bchol`: if `r` rows of an upper triangular
factor with non-zero diagonal reproduce the leading `r` by `r` block of a permutation of
`X X'`, where `X` has `k` columns, then `r ≤ k`. -/
theorem bcholDone_rank_le [LinearOrderedField α] (A X : Nat → α) (n k r : Nat)
    (R : Nat → α) (pv : Nat → Nat) (hr : r ≤ n)
    (hA : ∀ i j, i < n → j < n →
      A (i + n * j) = ∑ t in Finset.range k, X (i + n * t) * X (j + n * t))
    (hd : BcholDone A n r R pv)
    (hz : ∀ i j, i < n → j < n → (j < i ∨ r ≤ i) → R (i + n * j) = 0) : r ≤ k := by
  let U : Matrix (Fin r) (Fin r) α := fun t i => R (t.val + n * i.val)
  let Y : Matrix (Fin r) (Fin k) α := fun i t => X (pv i.val + n * t.val)
  have hU : U.BlockTriangular id := by
    intro i j hij
    exact hz i.val j.val (by omega) (by omega) (Or.inl hij)
  have hdet : U.det ≠ 0 := by
    rw [Matrix.det_of_upperTriangular hU]
    exact Finset.prod_ne_zero_iff.mpr (fun i _ => hd.diag i.val i.isLt)
  have key : ∀ i l : Fin r, i ≤ l → (U.transpose * U) i l = (Y * Y.transpose) i l := by
    intro i l hil
    have hil' : i.val ≤ l.val := hil
    rw [Matrix.mul_apply, Matrix.mul_apply]
    simp only [Matrix.transpose_apply]
    show ∑ t : Fin r, R (t.val + n * i.val) * R (t.val + n * l.val)
      = ∑ t : Fin k, X (pv i.val + n * t.val) * X (pv l.val + n * t.val)
    rw [Fin.sum_univ_eq_sum_range (fun t => R (t + n * i.val) * R (t + n * l.val)) r,
      Fin.sum_univ_eq_sum_range (fun t => X (pv i.val + n * t) * X (pv l.val + n * t)) k,
      ← hA (pv i.val) (pv l.val) (hd.pivlt _ (by omega)) (hd.pivlt _ (by omega)),
      ← hd.star i.val l.val i.isLt hil' (by omega),
      sum_range_split_Ico _ (i.val + 1) r (by omega)]
    have e : ∑ t in Finset.Ico (i.val + 1) r, R (t + n * i.val) * R (t + n * l.val) = 0 := by
      refine Finset.sum_eq_zero (fun t ht => ?_)
      have ht := Finset.mem_Ico.mp ht
      rw [hz t i.val (by omega) (by omega) (Or.inl (by omega)), zero_mul]
    rw [e, add_zero]
  have hM : U.transpose * U = Y * Y.transpose := by
    ext i l
    rcases le_total i l with h | h
    · exact key i l h
    · have h1 : (U.transpose * U) i l = (U.transpose * U) l i := by
        rw [Matrix.mul_apply, Matrix.mul_apply]
        exact Finset.sum_congr rfl (fun t _ => mul_comm _ _)
      have h2 : (Y * Y.transpose) i l = (Y * Y.transpose) l i := by
        rw [Matrix.mul_apply, Matrix.mul_apply]
        exact Finset.sum_congr rfl (fun t _ => mul_comm _ _)
      rw [h1, h2]
      exact key l i h
  have hunit : IsUnit (U.transpose * U) := by
    rw [Matrix.isUnit_iff_isUnit_det, Matrix.det_mul, Matrix.det_transpose]
    exact (mul_ne_zero hdet hdet).isUnit
  have h1 : (U.transpose * U).rank = r := by
    rw [Matrix.rank_of_isUnit _ hunit, Fintype.card_fin]
  have h2 : (Y * Y.transpose).rank ≤ k := by
    refine le_trans (Matrix.rank_mul_le_left _ _) ?_
    have := Matrix.rank_le_width Y
    exact this
  rw [← hM, h1] at h2
  exact h2

end BcholCorrect

/-! ## Claims on the factor and the rank returned by `mgcv_bchol` -/

section BcholClaims
variable {α : Type}

/-- Claim C8. In exact arithmetic, for a symmetric `n` by `n` matrix `A` with a positive
diagonal entry, every block size `nb ≥ 1` and every thread count `nt`: if `mgcv_bchol`
returns the rank `n`, then the factor `R` left in `A` is upper triangular and
`(R'R)[i,j] = A[piv[i], piv[j]]` for all `i, j < n`. The library function `sqrt` is a square
root on the positive numbers, and the constant `eps` satisfies `0 < eps` and `n * eps ≤ 1`. -/
theorem bchol_full_rank_factor [LinearOrderedField α] (sqrt : α → α) (eps : α)
    (cut : Nat → Nat → Nat → Nat) (A : Nat → α) (piv : Nat → Nat) (n nt nb : Nat)
    (hsq : ∀ x, 0 < x → sqrt x * sqrt x = x) (heps : 0 < eps) (hneps : (n : α) * eps ≤ 1)
    (hpos : ∃ i, i < n ∧ 0 < A (i + n * i))
    (hsym : ∀ a b, a < n → b < n → A (a + n * b) = A (b + n * a))
    (hnb : 1 ≤ nb)
    (hrank : (mgcv_bchol sqrt eps cut A piv n nt nb).2.2 = (n : Int)) :
    (∀ i j, i < n → j < n → j < i →
      (mgcv_bchol sqrt eps cut A piv n nt nb).1 (i + n * j) = 0) ∧
    (∀ i j, i < n → j < n →
      ∑ t in Finset.range n, (mgcv_bchol sqrt eps cut A piv n nt nb).1 (t + n * i) *
          (mgcv_bchol sqrt eps cut A piv n nt nb).1 (t + n * j)
        = A ((mgcv_bchol sqrt eps cut A piv n nt nb).2.1 i +
            n * (mgcv_bchol sqrt eps cut A piv n nt nb).2.1 j)) := by
  obtain ⟨r, _, _, hr, hd, hz⟩ := bchol_done sqrt eps cut A piv n nt nb hsq heps hneps hpos
    hsym hnb
  have hrn : r = n := by rw [hr] at hrank; exact_mod_cast hrank
  subst hrn
  generalize (mgcv_bchol sqrt eps cut A piv r nt nb).1 = R at hd hz ⊢
  generalize (mgcv_bchol sqrt eps cut A piv r nt nb).2.1 = pv at hd ⊢
  refine ⟨fun i j hi hj hji => hz i j hi hj (Or.inl hji), ?_⟩
  have key : ∀ i l, i ≤ l → l < r →
      ∑ t in Finset.range r, R (t + r * i) * R (t + r * l) = A (pv i + r * pv l) := by
    intro i l hil hl
    rw [← hd.star i l (by omega) hil hl, sum_range_split_Ico _ (i + 1) r (by omega)]
    have e : ∑ t in Finset.Ico (i + 1) r, R (t + r * i) * R (t + r * l) = 0 := by
      refine Finset.sum_eq_zero (fun t ht => ?_)
      have ht := Finset.mem_Ico.mp ht
      rw [hz t i (by omega) (by omega) (Or.inl (by omega)), zero_mul]
    rw [e, add_zero]
  intro i j hi hj
  rcases Nat.le_total i j with h | h
  · exact key i j h hj
  · rw [hsym (pv i) (pv j) (hd.pivlt i hi) (hd.pivlt j hj), ← key j i h hi]
    exact Finset.sum_congr rfl (fun t _ => mul_comm _ _)

theorem store_apply {β : Type} (buf : Nat → β) (p : Nat) (v : β) (q : Nat) :
    store buf p v q = if q = p then v else buf q := rfl

theorem sqrt_four : Real.sqrt 4 = 2 := by
  rw [show (4 : ℝ) = 2 * 2 by norm_num]
  exact Real.sqrt_mul_self (by norm_num)

set_option maxHeartbeats 4000000 in
set_option maxRecDepth 100000 in
/-- The matrix `[[4, 2], [2, 2]]` over the real numbers, with one block of two columns: the
returned rank is 2. -/
theorem bchol_rank_example :
    (mgcv_bchol Real.sqrt ((1 : ℝ) / 2 ^ 52) (fun _ _ _ => 0)
      (fun p => if p = 0 then 4 else 2) (fun _ => 0) 2 1 2).2.2 = ((2 : Nat) : Int) := by
  norm_num [mgcv_bchol, strideCount, forLoop, bcholBlock, bcholCol, bcholDots, bcholPivot,
    bcholSwapRows, bcholSwapCols, bcholRowUpdate, bcholRowScale, swapCells, store_apply,
    sqrt_four]

/-- Witness for C8: the matrix `[[4, 2], [2, 2]]` over the real numbers, `nt = 1`,
`nb = 2`. -/
theorem bchol_full_rank_factor_witness :
    ((mgcv_bchol Real.sqrt ((1 : ℝ) / 2 ^ 52) (fun _ _ _ => 0)
      (fun p => if p = 0 then 4 else 2) (fun _ => 0) 2 1 2).2.2 = ((2 : Nat) : Int)) ∧
    ((∀ i j, i < 2 → j < 2 → j < i →
      (mgcv_bchol Real.sqrt ((1 : ℝ) / 2 ^ 52) (fun _ _ _ => 0)
        (fun p => if p = 0 then 4 else 2) (fun _ => 0) 2 1 2).1 (i + 2 * j) = 0) ∧
    (∀ i j, i < 2 → j < 2 →
      ∑ t in Finset.range 2,
          (mgcv_bchol Real.sqrt ((1 : ℝ) / 2 ^ 52) (fun _ _ _ => 0)
            (fun p => if p = 0 then 4 else 2) (fun _ => 0) 2 1 2).1 (t + 2 * i) *
          (mgcv_bchol Real.sqrt ((1 : ℝ) / 2 ^ 52) (fun _ _ _ => 0)
            (fun p => if p = 0 then 4 else 2) (fun _ => 0) 2 1 2).1 (t + 2 * j)
        = (fun p => if p = 0 then (4 : ℝ) else 2)
          ((mgcv_bchol Real.sqrt ((1 : ℝ) / 2 ^ 52) (fun _ _ _ => 0)
              (fun p => if p = 0 then 4 else 2) (fun _ => 0) 2 1 2).2.1 i +
            2 * (mgcv_bchol Real.sqrt ((1 : ℝ) / 2 ^ 52) (fun _ _ _ => 0)
              (fun p => if p = 0 then 4 else 2) (fun _ => 0) 2 1 2).2.1 j))) :=
  ⟨bchol_rank_example,
    bchol_full_rank_factor Real.sqrt ((1 : ℝ) / 2 ^ 52) (fun _ _ _ => 0)
      (fun p => if p = 0 then 4 else 2) (fun _ => 0) 2 1 2
      (fun x hx => Real.mul_self_sqrt (le_of_lt hx)) (by norm_num) (by norm_num)
      ⟨0, by decide, by norm_num⟩
      (fun a b ha hb => by
        have ha' : a = 0 ∨ a = 1 := by omega
        have hb' : b = 0 ∨ b = 1 := by omega
        rcases ha' with rfl | rfl <;> rcases hb' with rfl | rfl <;> norm_num)
      (by decide) bchol_rank_example⟩

/-- Claim C9 (counterexample). The 3 by 2 matrix `X` with the columns `(1, 0, 0)` and
`(0, 2^-30, 0)` has linearly independent columns, and `A = X X' = diag(1, 2^-60, 0)`; with
`eps = 2^-52` the tolerance is `3 * 2^-52`, the second pivot `2^-60` is below it, and
`mgcv_bchol` returns the rank 1, not 2, for the block sizes 1, 2 and 3. The only square
root taken is that of 1. -/
theorem bchol_rank_below_k :
    (∀ c0 c1 : ℚ,
      (∀ i, i < 3 →
        c0 * (fun p => if p = 0 then (1 : ℚ) else if p = 4 then 1 / 2 ^ 30 else 0) (i + 3 * 0) +
        c1 * (fun p => if p = 0 then (1 : ℚ) else if p = 4 then 1 / 2 ^ 30 else 0) (i + 3 * 1)
          = 0) →
      c0 = 0 ∧ c1 = 0) ∧
    (∀ nb, nb = 1 ∨ nb = 2 ∨ nb = 3 →
      (mgcv_bchol Rat.sqrt ((1 : ℚ) / 2 ^ 52) (fun _ _ _ => 0)
        (fun q => ∑ t in Finset.range 2,
          (fun p => if p = 0 then (1 : ℚ) else if p = 4 then 1 / 2 ^ 30 else 0) (q % 3 + 3 * t) *
          (fun p => if p = 0 then (1 : ℚ) else if p = 4 then 1 / 2 ^ 30 else 0) (q / 3 + 3 * t))
        (fun _ => 0) 3 1 nb).2.2 = 1) := by
  refine ⟨fun c0 c1 h => ?_, ?_⟩
  · have h0 := h 0 (by decide)
    have h1 := h 1 (by decide)
    norm_num at h0 h1
    exact ⟨h0, h1⟩
  · rintro nb (rfl | rfl | rfl) <;> decide!

/-- Claim C9 (amended). For `A = X X'` with `X` an `n` by `k` matrix that is not zero, every
block size `nb ≥ 1` and every thread count, the rank returned by `mgcv_bchol` is at least 1
and at most `k`. The library function `sqrt` is a square root on the positive numbers, and
the constant `eps` satisfies `0 < eps` and `n * eps ≤ 1`. -/
theorem bchol_rank_le [LinearOrderedField α] (sqrt : α → α) (eps : α)
    (cut : Nat → Nat → Nat → Nat) (A X : Nat → α) (piv : Nat → Nat) (n k nt nb : Nat)
    (hsq : ∀ x, 0 < x → sqrt x * sqrt x = x) (heps : 0 < eps) (hneps : (n : α) * eps ≤ 1)
    (hX : ∃ i t, i < n ∧ t < k ∧ X (i + n * t) ≠ 0)
    (hA : ∀ i j, i < n → j < n →
      A (i + n * j) = ∑ t in Finset.range k, X (i + n * t) * X (j + n * t))
    (hnb : 1 ≤ nb) :
    1 ≤ (mgcv_bchol sqrt eps cut A piv n nt nb).2.2 ∧
    (mgcv_bchol sqrt eps cut A piv n nt nb).2.2 ≤ (k : Int) := by
  have hpos : ∃ i, i < n ∧ 0 < A (i + n * i) := by
    obtain ⟨i, t, hi, ht, hne⟩ := hX
    refine ⟨i, hi, ?_⟩
    rw [hA i i hi hi]
    refine lt_of_lt_of_le (mul_self_pos.mpr hne) ?_
    exact Finset.single_le_sum (f := fun t => X (i + n * t) * X (i + n * t))
      (fun t _ => mul_self_nonneg _) (Finset.mem_range.mpr ht)
  have hsym : ∀ a b, a < n → b < n → A (a + n * b) = A (b + n * a) := by
    intro a b ha hb
    rw [hA a b ha hb, hA b a hb ha]
    exact Finset.sum_congr rfl (fun t _ => mul_comm _ _)
  obtain ⟨r, hr1, hr2, hr, hd, hz⟩ := bchol_done sqrt eps cut A piv n nt nb hsq heps hneps
    hpos hsym hnb
  have hk := bcholDone_rank_le A X n k r _ _ hr2 hA hd hz
  rw [hr]
  exact ⟨by exact_mod_cast hr1, by exact_mod_cast hk⟩

/-- Witness for C9 (amended): the 3 by 2 matrix `X` with the columns `(1, 0, 0)` and
`(0, 2^-30, 0)` over the real numbers, `nt = 1`, `nb = 2`. -/
theorem bchol_rank_le_witness :
    (∃ i t, i < 3 ∧ t < 2 ∧
      (fun p => if p = 0 then (1 : ℝ) else if p = 4 then 1 / 2 ^ 30 else 0) (i + 3 * t) ≠ 0) ∧
    (1 ≤ (mgcv_bchol Real.sqrt ((1 : ℝ) / 2 ^ 52) (fun _ _ _ => 0)
        (fun q => ∑ t in Finset.range 2,
          (fun p => if p = 0 then (1 : ℝ) else if p = 4 then 1 / 2 ^ 30 else 0) (q % 3 + 3 * t) *
          (fun p => if p = 0 then (1 : ℝ) else if p = 4 then 1 / 2 ^ 30 else 0) (q / 3 + 3 * t))
        (fun _ => 0) 3 1 2).2.2 ∧
      (mgcv_bchol Real.sqrt ((1 : ℝ) / 2 ^ 52) (fun _ _ _ => 0)
        (fun q => ∑ t in Finset.range 2,
          (fun p => if p = 0 then (1 : ℝ) else if p = 4 then 1 / 2 ^ 30 else 0) (q % 3 + 3 * t) *
          (fun p => if p = 0 then (1 : ℝ) else if p = 4 then 1 / 2 ^ 30 else 0) (q / 3 + 3 * t))
        (fun _ => 0) 3 1 2).2.2 ≤ ((2 : Nat) : Int)) :=
  ⟨⟨0, 0, by decide, by decide, by norm_num⟩,
    bchol_rank_le Real.sqrt ((1 : ℝ) / 2 ^ 52) (fun _ _ _ => 0) _
      (fun p => if p = 0 then (1 : ℝ) else if p = 4 then 1 / 2 ^ 30 else 0) (fun _ => 0) 3 2 1 2
      (fun x hx => Real.mul_self_sqrt (le_of_lt hx)) (by norm_num) (by norm_num)
      ⟨0, 0, by decide, by decide, by norm_num⟩
      (fun i j hi hj => by
        have e1 : (i + 3 * j) % 3 = i := by omega
        have e2 : (i + 3 * j) / 3 = j := by omega
        simp only [e1, e2])
      (by decide)⟩

/-- Claim C39 (failing input). For the symmetric 2 by 2 matrix `A = -I` and one thread, the
result of `mgcv_bchol` depends on the block size: with `nb = 1` the returned rank is 1, with
`nb = 2` it is 0. The rank test fails at column 0 in both runs; with `nb = 1` the block loop
is not left and the second column is tested again. -/
theorem bchol_block_size_matters :
    (mgcv_bchol Rat.sqrt ((1 : ℚ) / 2 ^ 52) (fun _ _ _ => 0)
      (fun p => if p = 0 ∨ p = 3 then -1 else 0) (fun _ => 0) 2 1 1).2.2 ≠
    (mgcv_bchol Rat.sqrt ((1 : ℚ) / 2 ^ 52) (fun _ _ _ => 0)
      (fun p => if p = 0 ∨ p = 3 then -1 else 0) (fun _ => 0) 2 1 2).2.2 := by
  decide!

end BcholClaims

/-! ## Thread splits of `bpqr` and `mgcv_pqrqy` -/

section SplitProofs

/-- Claim C34 (failing input). For `q = 4` rows and `nt = 3` threads the split of `bpqr`
gives `rt = 2` and keeps `nth = 3` (the loop reduces `nth` only while `(nth-1)*rt > q`, and
`2 * 2 > 4` is false), so the widths are `mb = [2, 2, 0]`: the last block is empty. The
widths do sum to `q`. -/
theorem bpqrSplit_empty_block :
    (bpqrSplit 4 3 0 (fun _ => 0) (fun _ => 0)).1 = 3 ∧
    (bpqrSplit 4 3 0 (fun _ => 0) (fun _ => 0)).2.1 0 = 2 ∧
    (bpqrSplit 4 3 0 (fun _ => 0) (fun _ => 0)).2.1 1 = 2 ∧
    (bpqrSplit 4 3 0 (fun _ => 0) (fun _ => 0)).2.1 2 = 0 ∧
    (bpqrSplit 4 3 0 (fun _ => 0) (fun _ => 0)).2.2 2 = 4 := by
  decide

/-- Claim C35 (failing input). For `cb = 6` columns and `nt = 5` threads `mgcv_pqrqy` takes
`k = 2` and, after its single decrement, `nth = 4`: the last block starts at column 6 and
has `ki = 0` columns. For `cb = 7` and `nt = 6` it takes `k = 2` and `nth = 5`: block 3
covers the columns 6 and 7, past the 7 columns of `b`, and the last block starts at column
8 with `ki = -1`. -/
theorem pqrqySplit_bad_blocks :
    pqrqySplit 6 5 = (4, 2) ∧ pqrqyBlock 6 5 3 = (6, 0) ∧
    pqrqySplit 7 6 = (5, 2) ∧ pqrqyBlock 7 6 3 = (6, 2) ∧ pqrqyBlock 7 6 4 = (8, -1) := by
  decide

end SplitProofs

/-! ## Cut point arrays of `mgcv_pbsi` and `mgcv_PPt` -/

section CutProofs

/-- The arrays of `pbsiArrays` are those used by `mgcv_pbsi`. -/
theorem pbsi_uses_pbsiArrays {α : Type} [Field α] (cut3 cut2 : Nat → Nat → Nat → Nat)
    (R : Nat → α) (r : Nat) (nt : Int) :
    mgcv_pbsi cut3 cut2 R r nt
      = blockLoopInt (pbsiArrays cut3 cut2 r nt).1 (pbsiArrays cut3 cut2 r nt).2.2
          (pbsiBack r (blockLoopInt (pbsiArrays cut3 cut2 r nt).1
            (pbsiArrays cut3 cut2 r nt).2.1 (pbsiCol r) (R, fun _ => 0)).2)
          (blockLoopInt (pbsiArrays cut3 cut2 r nt).1
            (pbsiArrays cut3 cut2 r nt).2.1 (pbsiCol r) (R, fun _ => 0)).1 := rfl

/-- The arrays of `pptArrays` are those used by `mgcv_PPt`. -/
theorem PPt_uses_pptArrays {α : Type} [Semiring α] (cut2 cut3 : Nat → Nat → Nat → Nat)
    (A R : Nat → α) (r : Nat) (nt : Int) :
    mgcv_PPt cut2 cut3 A R r nt
      = (blockLoop (pptArrays cut2 cut3 r nt).1 (pptArrays cut2 cut3 r nt).2.2.1
          (pptProd (blockLoop (pptArrays cut2 cut3 r nt).1 (pptArrays cut2 cut3 r nt).2.1
            (pptCopy r) R) r) A,
         blockLoop (pptArrays cut2 cut3 r nt).1 (pptArrays cut2 cut3 r nt).2.2.2 (pptWipe r)
          (blockLoop (pptArrays cut2 cut3 r nt).1 (pptArrays cut2 cut3 r nt).2.1
            (pptCopy r) R)) := rfl

/-- The cut points of `pbsiCuts` start at 0, end at `r` and increase strictly, when the
rounded values are at least their index. -/
theorem pbsiCuts_strict (cut : Nat → Nat → Nat → Nat) (r m : Nat) (a : Nat → Int)
    (hm1 : 1 ≤ m) (hmr : m ≤ r) (h0 : a 0 = 0) (hr : a m = r)
    (hcut : ∀ k, 1 ≤ k → k < m → k ≤ cut r m k) :
    pbsiCuts cut r m a 0 = 0 ∧ pbsiCuts cut r m a m = r ∧
    (∀ b, b < m → pbsiCuts cut r m a b < pbsiCuts cut r m a (b + 1)) := by
  unfold pbsiCuts
  have e : ∀ i, i < m - 1 → m ≠ i + 1 := fun i hi => by omega
  obtain ⟨g1, g2⟩ := storeLoop_spec (m - 1) (fun t => t + 1)
    (fun t _ => (cut r m (t + 1) : Int)) a (fun i j _ _ h => Nat.add_right_cancel h)
  have q0 := g2 0 (fun i _ => (Nat.succ_ne_zero i).symm)
  have qm := g2 m e
  have qk : ∀ k, 1 ≤ k → k < m → (k : Int) ≤
      forLoop (m - 1) (fun t a => store a (t + 1) (cut r m (t + 1) : Int)) a k := by
    intro k hk1 hk2
    have := g1 (k - 1) (by omega)
    simp only [show k - 1 + 1 = k by omega] at this
    rw [this]
    exact_mod_cast hcut k hk1 hk2
  generalize forLoop (m - 1) (fun t a => store a (t + 1) (cut r m (t + 1) : Int)) a = a1
    at q0 qm qk ⊢
  obtain ⟨h1, h2⟩ := fixDown_spec a1 m (by rw [qm, hr]; exact_mod_cast hmr) qk (m - 1) le_rfl
  have f0 := h1 0
  have fm := h1 m (Or.inr le_rfl)
  generalize forLoop (m - 1) (fun t a =>
        let i := m - 1 - t
        if a i ≥ a (i + 1) then store a i (a (i + 1) - 1) else a) a1 = F at h1 h2 f0 fm ⊢
  refine ⟨?_, ?_, ?_⟩
  · rw [f0 (Or.inl (by omega)), q0, h0]
  · rw [fm, qm, hr]
  · intro b hb
    by_cases hb0 : b = 0
    · subst hb0
      rw [f0 (Or.inl (by omega)), q0, h0]
      by_cases h1m : 1 = m
      · rw [show 0 + 1 = m by omega, fm, qm, hr]
        exact_mod_cast (show 0 < r by omega)
      · have := (h2 1 (by omega) (by omega)).2
        rw [Nat.zero_add]
        omega
    · exact (h2 b (by omega) hb).1

/-- Ascending repair of the cut points: a bound `a[i] + (m - i) ≤ r` is kept. -/
theorem fixLoop_le (a1 : Nat → Nat) (m r : Nat) (hb : ∀ i, i ≤ m → a1 i + (m - i) ≤ r)
    (t : Nat) (ht : t ≤ m) :
    ∀ i, i ≤ m →
      forLoop t (fun t a => if a (t + 1) ≤ a t then store a (t + 1) (a t + 1) else a) a1 i
        + (m - i) ≤ r := by
  induction t with
  | zero => exact hb
  | succ t ih =>
    have h := ih (by omega)
    rw [forLoop_succ]
    generalize forLoop t (fun t a => if a (t + 1) ≤ a t then store a (t + 1) (a t + 1) else a)
      a1 = O at h ⊢
    clear ih
    intro i hi
    by_cases c : O (t + 1) ≤ O t
    · rw [if_pos c]
      by_cases e : i = t + 1
      · subst e
        rw [store_same]
        have := h t (by omega)
        omega
      · rw [store_ne _ _ _ _ e]
        exact h i hi
    · rw [if_neg c]
      exact h i hi

/-- The cut points of `pptCuts` start at 0, increase strictly and end at `r`, when the
rounded value with index `k` leaves room for the `m - k` blocks after it. -/
theorem pptCuts_exact (cut : Nat → Nat → Nat → Nat) (r m : Nat) (a : Nat → Nat)
    (hmr : m ≤ r) (h0 : a 0 = 0) (hr : a m = r)
    (hcut : ∀ k, 1 ≤ k → k < m → cut r m k + (m - k) ≤ r) :
    pptCuts cut r m a 0 = 0 ∧ pptCuts cut r m a m = r ∧
    (∀ b, b < m → pptCuts cut r m a b < pptCuts cut r m a (b + 1)) := by
  obtain ⟨s0, s1, s2⟩ := pptCuts_spec cut r m a h0 (le_of_eq hr.symm)
  refine ⟨s0, le_antisymm ?_ s2, s1⟩
  unfold pptCuts
  obtain ⟨g1, g2⟩ := storeLoop_spec (m - 1) (fun t => t + 1) (fun t _ => cut r m (t + 1)) a
    (fun i j _ _ h => Nat.add_right_cancel h)
  have hb : ∀ i, i ≤ m →
      forLoop (m - 1) (fun t a => store a (t + 1) (cut r m (t + 1))) a i + (m - i) ≤ r := by
    intro i hi
    rcases Nat.eq_zero_or_pos i with hi0 | hi0
    · subst hi0
      rw [g2 0 (fun i _ => (Nat.succ_ne_zero i).symm), h0]
      omega
    · by_cases him : i = m
      · subst him
        rw [g2 i (fun t ht => by omega), hr]
        omega
      · have := g1 (i - 1) (by omega)
        simp only [show i - 1 + 1 = i by omega] at this
        rw [this]
        exact hcut i hi0 (by omega)
  have := fixLoop_le _ m r hb m le_rfl m le_rfl
  simpa using this

/-- A natural number within 1/2 of a real number that is at least `i` is at least `i`. -/
theorem round_ge_of_le (c i : Nat) (y : ℝ) (hy : (i : ℝ) ≤ y) (hc : |(c : ℝ) - y| ≤ 1 / 2) :
    i ≤ c := by
  have h := (abs_le.mp hc).1
  have : (i : ℝ) < (c : ℝ) + 1 := by linarith
  have : i < c + 1 := by exact_mod_cast this
  omega

/-- A natural number within 1/2 of `r - y`, where `y` is at least `d`, is at most
`r - d`. -/
theorem round_le_of_le (c r d : Nat) (y : ℝ) (hy : (d : ℝ) ≤ y)
    (hc : |(c : ℝ) - ((r : ℝ) - y)| ≤ 1 / 2) : c + d ≤ r := by
  have h := (abs_le.mp hc).2
  have : (c : ℝ) + (d : ℝ) < (r : ℝ) + 1 := by linarith
  have : c + d < r + 1 := by exact_mod_cast this
  omega

/-- Square root rule: `d ≤ sqrt(r*r/m * d)` for `d ≤ m ≤ r`. -/
theorem le_sqrt_rule (r m d : Nat) (hm : 1 ≤ m) (hmr : m ≤ r) (hd : d ≤ m) :
    (d : ℝ) ≤ Real.sqrt ((r : ℝ) * r / m * d) := by
  apply Real.le_sqrt_of_sq_le
  have hm0 : (0 : ℝ) < m := by exact_mod_cast hm
  have h1 : (m : ℝ) ≤ r := by exact_mod_cast hmr
  have h2 : (d : ℝ) ≤ m := by exact_mod_cast hd
  have hd0 : (0 : ℝ) ≤ d := Nat.cast_nonneg d
  rw [div_mul_eq_mul_div, le_div_iff₀ hm0]
  nlinarith [mul_nonneg hd0 hd0, mul_nonneg hd0 hm0.le,
    mul_le_mul h1 h1 hm0.le (le_trans hm0.le h1)]

/-- Cube root rule: `d ≤ (r*r*r/m * d)^(1/3)` for `d ≤ m ≤ r`. -/
theorem le_cbrt_rule (r m d : Nat) (hm : 1 ≤ m) (hmr : m ≤ r) (hd : d ≤ m) :
    (d : ℝ) ≤ ((r : ℝ) * r * r / m * d) ^ ((1 : ℝ) / 3) := by
  have hm0 : (0 : ℝ) < m := by exact_mod_cast hm
  have h1 : (m : ℝ) ≤ r := by exact_mod_cast hmr
  have h2 : (d : ℝ) ≤ m := by exact_mod_cast hd
  have hd0 : (0 : ℝ) ≤ d := Nat.cast_nonneg d
  have hr0 : (0 : ℝ) ≤ r := Nat.cast_nonneg r
  have e : (d : ℝ) = ((d : ℝ) ^ 3) ^ ((1 : ℝ) / 3) := by
    rw [← Real.rpow_natCast, ← Real.rpow_mul hd0]
    norm_num
  have key : (d : ℝ) ^ 3 ≤ (r : ℝ) * r * r / m * d := by
    rw [div_mul_eq_mul_div, le_div_iff₀ hm0]
    have a1 : (d : ℝ) * d ≤ m * m := mul_le_mul h2 h2 hd0 hm0.le
    have a2 : (m : ℝ) * m * m ≤ r * r * r :=
      mul_le_mul (mul_le_mul h1 h1 hm0.le hr0) h1 hm0.le (mul_nonneg hr0 hr0)
    have a3 : (d : ℝ) ^ 3 * m = (d * d) * (d * m) := by ring
    have a4 : (d : ℝ) * d * (d * m) ≤ (m * m) * (d * m) :=
      mul_le_mul_of_nonneg_right a1 (mul_nonneg hd0 hm0.le)
    have a5 : ((m : ℝ) * m) * (d * m) = (m * m * m) * d := by ring
    have a6 : ((m : ℝ) * m * m) * d ≤ (r * r * r) * d := mul_le_mul_of_nonneg_right a2 hd0
    linarith
  calc (d : ℝ) = ((d : ℝ) ^ 3) ^ ((1 : ℝ) / 3) := e
    _ ≤ ((r : ℝ) * r * r / m * d) ^ ((1 : ℝ) / 3) :=
      Real.rpow_le_rpow (pow_nonneg hd0 3) key (by norm_num)

/-- Claim C33. For every `r ≥ 1` and every requested thread count `nt`, with `m` the thread
count after clamping into `[1, r]`: the two cut point arrays of `mgcv_pbsi` (cube root rule,
then square root rule) and the three of `mgcv_PPt` (square root, cube root, square root
rule) start at 0, end at `r` and increase strictly over the indices `0 .. m`. The rounded
values are within 1/2 of the real numbers `(r*r*r/m * i)^(1/3)`, `sqrt(r*r/m * i)`,
`r - sqrt(r*r/m * (m - i))` and `r - (r*r*r/m * (m - i))^(1/3)`. -/
theorem cut_points_partition (pcut3 pcut2 tcut2 tcut3 : Nat → Nat → Nat → Nat) (r : Nat)
    (nt : Int) (hr : 1 ≤ r)
    (h3 : ∀ m i, 1 ≤ i → i < m → m ≤ r →
      |(pcut3 r m i : ℝ) - ((r : ℝ) * r * r / m * i) ^ ((1 : ℝ) / 3)| ≤ 1 / 2)
    (h2 : ∀ m i, 1 ≤ i → i < m → m ≤ r →
      |(pcut2 r m i : ℝ) - Real.sqrt ((r : ℝ) * r / m * i)| ≤ 1 / 2)
    (g2 : ∀ m i, 1 ≤ i → i < m → m ≤ r →
      |(tcut2 r m i : ℝ) - ((r : ℝ) - Real.sqrt ((r : ℝ) * r / m * ((m : ℝ) - i)))| ≤ 1 / 2)
    (g3 : ∀ m i, 1 ≤ i → i < m → m ≤ r →
      |(tcut3 r m i : ℝ) - ((r : ℝ) - ((r : ℝ) * r * r / m * ((m : ℝ) - i)) ^ ((1 : ℝ) / 3))|
        ≤ 1 / 2) :
    1 ≤ (pbsiArrays pcut3 pcut2 r nt).1 ∧ (pbsiArrays pcut3 pcut2 r nt).1 ≤ r ∧
    (pptArrays tcut2 tcut3 r nt).1 = (pbsiArrays pcut3 pcut2 r nt).1 ∧
    CutsOk (pbsiArrays pcut3 pcut2 r nt).1 r (pbsiArrays pcut3 pcut2 r nt).2.1 ∧
    CutsOk (pbsiArrays pcut3 pcut2 r nt).1 r (pbsiArrays pcut3 pcut2 r nt).2.2 ∧
    CutsOk (pptArrays tcut2 tcut3 r nt).1 r
      (fun i => ((pptArrays tcut2 tcut3 r nt).2.1 i : Int)) ∧
    CutsOk (pptArrays tcut2 tcut3 r nt).1 r
      (fun i => ((pptArrays tcut2 tcut3 r nt).2.2.1 i : Int)) ∧
    CutsOk (pptArrays tcut2 tcut3 r nt).1 r
      (fun i => ((pptArrays tcut2 tcut3 r nt).2.2.2 i : Int)) := by
  have hm : 1 ≤ (if (if nt < 1 then 1 else nt.toNat) > r then r
      else (if nt < 1 then 1 else nt.toNat)) ∧
      (if (if nt < 1 then 1 else nt.toNat) > r then r
        else (if nt < 1 then 1 else nt.toNat)) ≤ r := by
    split_ifs <;> omega
  unfold pbsiArrays pptArrays CutsOk
  simp only
  generalize (if (if nt < 1 then 1 else nt.toNat) > r then r
      else (if nt < 1 then 1 else nt.toNat)) = m at hm ⊢
  obtain ⟨hm1, hmr⟩ := hm
  have c3 : ∀ k, 1 ≤ k → k < m → k ≤ pcut3 r m k := fun k hk1 hk2 =>
    round_ge_of_le _ k _ (le_cbrt_rule r m k hm1 hmr (by omega)) (h3 m k hk1 hk2 hmr)
  have c2 : ∀ k, 1 ≤ k → k < m → k ≤ pcut2 r m k := fun k hk1 hk2 =>
    round_ge_of_le _ k _ (le_sqrt_rule r m k hm1 hmr (by omega)) (h2 m k hk1 hk2 hmr)
  have d2 : ∀ k, 1 ≤ k → k < m → tcut2 r m k + (m - k) ≤ r := fun k hk1 hk2 => by
    have e : ((m - k : Nat) : ℝ) = (m : ℝ) - k := Nat.cast_sub (by omega)
    have := le_sqrt_rule r m (m - k) hm1 hmr (by omega)
    rw [e] at this
    exact round_le_of_le _ r (m - k) _ (by rw [e]; exact this) (g2 m k hk1 hk2 hmr)
  have d3 : ∀ k, 1 ≤ k → k < m → tcut3 r m k + (m - k) ≤ r := fun k hk1 hk2 => by
    have e : ((m - k : Nat) : ℝ) = (m : ℝ) - k := Nat.cast_sub (by omega)
    have := le_cbrt_rule r m (m - k) hm1 hmr (by omega)
    rw [e] at this
    exact round_le_of_le _ r (m - k) _ (by rw [e]; exact this) (g3 m k hk1 hk2 hmr)
  have i0 : store (store (fun _ => (0 : Int)) 0 0) m (r : Int) 0 = 0 := by
    rw [store_ne _ _ _ _ (by omega), store_same]
  have im : store (store (fun _ => (0 : Int)) 0 0) m (r : Int) m = r := store_same _ _ _
  have n0 : store (store (fun _ => (0 : Nat)) 0 0) m r 0 = 0 := by
    rw [store_ne _ _ _ _ (by omega), store_same]
  have nm : store (store (fun _ => (0 : Nat)) 0 0) m r m = r := store_same _ _ _
  have p1 := pbsiCuts_strict pcut3 r m _ hm1 hmr i0 im c3
  have p2 := pbsiCuts_strict pcut2 r m _ hm1 hmr p1.1 p1.2.1 c2
  have t1 := pptCuts_exact tcut2 r m _ hmr n0 nm d2
  have t2 := pptCuts_exact tcut3 r m _ hmr t1.1 t1.2.1 d3
  have t3 := pptCuts_exact tcut2 r m _ hmr t2.1 t2.2.1 d2
  refine ⟨hm1, hmr, trivial, p1, p2, ?_, ?_, ?_⟩
  · exact ⟨by exact_mod_cast t1.1, by exact_mod_cast t1.2.1,
      fun b hb => by exact_mod_cast t1.2.2 b hb⟩
  · exact ⟨by exact_mod_cast t2.1, by exact_mod_cast t2.2.1,
      fun b hb => by exact_mod_cast t2.2.2 b hb⟩
  · exact ⟨by exact_mod_cast t3.1, by exact_mod_cast t3.2.1,
      fun b hb => by exact_mod_cast t3.2.2 b hb⟩

theorem sqrt_two_bounds : 1 ≤ Real.sqrt 2 ∧ Real.sqrt 2 ≤ 3 / 2 := by
  constructor
  · apply Real.le_sqrt_of_sq_le; norm_num
  · rw [Real.sqrt_le_iff]; norm_num

theorem cbrt_four_bounds :
    3 / 2 ≤ (4 : ℝ) ^ ((1 : ℝ) / 3) ∧ (4 : ℝ) ^ ((1 : ℝ) / 3) ≤ 2 := by
  have e1 : (3 / 2 : ℝ) = (((3 : ℝ) / 2) ^ 3) ^ ((1 : ℝ) / 3) := by
    rw [← Real.rpow_natCast, ← Real.rpow_mul (by norm_num)]
    norm_num
  have e2 : (2 : ℝ) = (((2 : ℝ)) ^ 3) ^ ((1 : ℝ) / 3) := by
    rw [← Real.rpow_natCast, ← Real.rpow_mul (by norm_num)]
    norm_num
  constructor
  · rw [e1]
    exact Real.rpow_le_rpow (by norm_num) (by norm_num) (by norm_num)
  · conv_rhs => rw [e2]
    exact Real.rpow_le_rpow (by norm_num) (by norm_num) (by norm_num)

/-- Witness for C33: `r = 2`, requested thread count 5 (clamped to 2), with the rounded
values `round(4^(1/3)) = 2`, `round(sqrt 2) = 1`, `round(2 - sqrt 2) = 1` and
`round(2 - 4^(1/3)) = 0`. -/
theorem cut_points_partition_witness :
    (∀ m i : Nat, 1 ≤ i → i < m → m ≤ 2 →
      |(((fun _ _ _ => 2 : Nat → Nat → Nat → Nat) 2 m i : Nat) : ℝ)
        - (((2 : Nat) : ℝ) * (2 : Nat) * (2 : Nat) / m * i) ^ ((1 : ℝ) / 3)| ≤ 1 / 2) ∧
    CutsOk (pbsiArrays (fun _ _ _ => 2) (fun _ _ _ => 1) 2 5).1 (2 : Nat)
      (pbsiArrays (fun _ _ _ => 2) (fun _ _ _ => 1) 2 5).2.1 ∧
    CutsOk (pptArrays (fun _ _ _ => 1) (fun _ _ _ => 0) 2 5).1 (2 : Nat)
      (fun i => ((pptArrays (fun _ _ _ => 1) (fun _ _ _ => 0) 2 5).2.2.1 i : Int)) :=
  have k3 : ∀ m i : Nat, 1 ≤ i → i < m → m ≤ 2 →
      |(((fun _ _ _ => 2 : Nat → Nat → Nat → Nat) 2 m i : Nat) : ℝ)
        - (((2 : Nat) : ℝ) * (2 : Nat) * (2 : Nat) / m * i) ^ ((1 : ℝ) / 3)| ≤ 1 / 2 := by
    intro m i h1 h2 h3
    obtain rfl : m = 2 := by omega
    obtain rfl : i = 1 := by omega
    have e : (((2 : Nat) : ℝ) * (2 : Nat) * (2 : Nat) / ((2 : Nat) : ℝ) * ((1 : Nat) : ℝ))
        = 4 := by norm_num
    rw [e, abs_le]
    simp only [Nat.cast_ofNat]
    constructor <;> linarith [cbrt_four_bounds.1, cbrt_four_bounds.2]
  have k2 : ∀ m i : Nat, 1 ≤ i → i < m → m ≤ 2 →
      |(((fun _ _ _ => 1 : Nat → Nat → Nat → Nat) 2 m i : Nat) : ℝ)
        - Real.sqrt (((2 : Nat) : ℝ) * (2 : Nat) / m * i)| ≤ 1 / 2 := by
    intro m i h1 h2 h3
    obtain rfl : m = 2 := by omega
    obtain rfl : i = 1 := by omega
    have e : (((2 : Nat) : ℝ) * (2 : Nat) / ((2 : Nat) : ℝ) * ((1 : Nat) : ℝ)) = 2 := by
      norm_num
    rw [e, abs_le]
    simp only [Nat.cast_one]
    constructor <;> linarith [sqrt_two_bounds.1, sqrt_two_bounds.2]
  have j2 : ∀ m i : Nat, 1 ≤ i → i < m → m ≤ 2 →
      |(((fun _ _ _ => 1 : Nat → Nat → Nat → Nat) 2 m i : Nat) : ℝ)
        - (((2 : Nat) : ℝ) - Real.sqrt (((2 : Nat) : ℝ) * (2 : Nat) / m * ((m : ℝ) - i)))|
        ≤ 1 / 2 := by
    intro m i h1 h2 h3
    obtain rfl : m = 2 := by omega
    obtain rfl : i = 1 := by omega
    have e : (((2 : Nat) : ℝ) * (2 : Nat) / ((2 : Nat) : ℝ) *
        ((((2 : Nat) : ℝ)) - ((1 : Nat) : ℝ))) = 2 := by norm_num
    rw [e, abs_le]
    simp only [Nat.cast_one, Nat.cast_ofNat]
    constructor <;> linarith [sqrt_two_bounds.1, sqrt_two_bounds.2]
  have j3 : ∀ m i : Nat, 1 ≤ i → i < m → m ≤ 2 →
      |(((fun _ _ _ => 0 : Nat → Nat → Nat → Nat) 2 m i : Nat) : ℝ)
        - (((2 : Nat) : ℝ) - (((2 : Nat) : ℝ) * (2 : Nat) * (2 : Nat) / m *
            ((m : ℝ) - i)) ^ ((1 : ℝ) / 3))| ≤ 1 / 2 := by
    intro m i h1 h2 h3
    obtain rfl : m = 2 := by omega
    obtain rfl : i = 1 := by omega
    have e : (((2 : Nat) : ℝ) * (2 : Nat) * (2 : Nat) / ((2 : Nat) : ℝ) *
        ((((2 : Nat) : ℝ)) - ((1 : Nat) : ℝ))) = 4 := by norm_num
    rw [e, abs_le]
    simp only [Nat.cast_zero, Nat.cast_ofNat]
    constructor <;> linarith [cbrt_four_bounds.1, cbrt_four_bounds.2]
  have h := cut_points_partition (fun _ _ _ => 2) (fun _ _ _ => 1) (fun _ _ _ => 1)
    (fun _ _ _ => 0) 2 5 (by decide) k3 k2 j2 j3
  ⟨k3, h.2.2.2.1, h.2.2.2.2.2.2.1⟩

end CutProofs

/-! ## `Rlanczos`: start vector and loop control -/

section LanczosProofs
variable {α : Type}

theorem lcg_lt (t : Nat) : lcg t < 6075 := by
  cases t with
  | zero => decide
  | succ t => exact Nat.mod_lt _ (by decide)

/-- The start loop of `Rlanczos`: `jran` follows the congruential sequence (no product
overflows a word of at least 20 bits), `b[i] = x_{i+1}/6075 - 1/2` and `bt` is the sum of
the squares. -/
theorem lzStart_spec [Field α] (w : Nat) (hw : 20 ≤ w) (n : Nat) :
    (lzStart w n : Nat × (Nat → α) × α).1 = lcg n ∧
    (∀ i, i < n →
      (lzStart w n : Nat × (Nat → α) × α).2.1 i = (lcg (i + 1) : α) / 6075 - 1 / 2) ∧
    (lzStart w n : Nat × (Nat → α) × α).2.2
      = ∑ t in Finset.range n,
          ((lcg (t + 1) : α) / 6075 - 1 / 2) * ((lcg (t + 1) : α) / 6075 - 1 / 2) := by
  induction n with
  | zero => exact ⟨rfl, fun i h => absurd h (Nat.not_lt_zero i), by simp [lzStart, forLoop]⟩
  | succ n ih =>
    obtain ⟨h1, h2, h3⟩ := ih
    unfold lzStart at h1 h2 h3 ⊢
    rw [forLoop_succ]
    generalize forLoop n (fun i (s : Nat × (Nat → α) × α) =>
      ((s.1 * 106 + 1283) % 2 ^ w % 6075,
        store s.2.1 i ((((s.1 * 106 + 1283) % 2 ^ w % 6075 : Nat) : α) / (6075 : α) - 1 / 2),
        s.2.2 + store s.2.1 i
          ((((s.1 * 106 + 1283) % 2 ^ w % 6075 : Nat) : α) / (6075 : α) - 1 / 2) i *
          store s.2.1 i
          ((((s.1 * 106 + 1283) % 2 ^ w % 6075 : Nat) : α) / (6075 : α) - 1 / 2) i))
      (1, fun _ => 0, 0) = S at h1 h2 h3 ⊢
    have e : (S.1 * 106 + 1283) % 2 ^ w % 6075 = lcg (n + 1) := by
      rw [h1]
      have hl := lcg_lt n
      have hp : (2 : Nat) ^ 20 ≤ 2 ^ w := Nat.pow_le_pow_right (by decide) hw
      have h20 : (2 : Nat) ^ 20 = 1048576 := by norm_num
      rw [Nat.mod_eq_of_lt (lt_of_lt_of_le (by omega) hp)]
      show _ = (106 * lcg n + 1283) % 6075
      rw [Nat.mul_comm]
    simp only
    rw [e]
    refine ⟨rfl, ?_, ?_⟩
    · intro i hi
      by_cases c : i = n
      · subst c; rw [store_same]
      · rw [store_ne _ _ _ _ c]; exact h2 i (by omega)
    · rw [store_same, h3, Finset.sum_range_succ]

/-- The vector `q[0]` of `Rlanczos` is the start vector divided by `sqrt(bt)`. -/
theorem lzQ0_spec [Field α] (sqrt : α → α) (w : Nat) (hw : 20 ≤ w) (n i : Nat)
    (hi : i < n) :
    lzQ0 sqrt w n i = ((lcg (i + 1) : α) / 6075 - 1 / 2) /
      sqrt (∑ t in Finset.range n,
        ((lcg (t + 1) : α) / 6075 - 1 / 2) * ((lcg (t + 1) : α) / 6075 - 1 / 2)) := by
  obtain ⟨-, h2, h3⟩ := lzStart_spec (α := α) w hw n
  unfold lzQ0
  rw [h3]
  have := (storeLoop_spec n (fun i => i)
    (fun _ x => x / sqrt (∑ t in Finset.range n,
      ((lcg (t + 1) : α) / 6075 - 1 / 2) * ((lcg (t + 1) : α) / 6075 - 1 / 2)))
    (lzStart w n : Nat × (Nat → α) × α).2.1 (fun _ _ _ _ h => h)).1 i hi
  rw [this, h2 i hi]

/-- The first part of a pass of `Rlanczos` leaves `q[0]`, `m`, `lm`, `brk`, `err`, `d`,
`normTj` as they are and counts the pass. -/
theorem lzAdvance_fields [LinearOrderedField α] (sqrt : α → α) (A : Nat → α) (n : Nat)
    (nt ci cir : Int) (j : Nat) (s : LzState α) :
    (lzAdvance sqrt A n nt ci cir j s).q 0 = s.q 0 ∧
    (lzAdvance sqrt A n nt ci cir j s).j = j + 1 ∧
    (lzAdvance sqrt A n nt ci cir j s).m = s.m ∧
    (lzAdvance sqrt A n nt ci cir j s).lm = s.lm ∧
    (lzAdvance sqrt A n nt ci cir j s).brk = s.brk ∧
    (lzAdvance sqrt A n nt ci cir j s).err = s.err ∧
    (lzAdvance sqrt A n nt ci cir j s).normTj = s.normTj := by
  refine ⟨?_, rfl, rfl, rfl, rfl, rfl, rfl⟩
  unfold lzAdvance
  simp only
  split_ifs with h1
  · rfl
  · rfl

/-- The decomposition step of `Rlanczos` leaves `q`, `j`, `m`, `lm`, `brk` as they are. -/
theorem lzDecomp_fields [LinearOrderedField α]
    (dstedc : Bool → Nat → (Nat → α) → (Nat → α) → (Nat → α) →
      (Nat → α) × (Nat → α) × (Nat → α))
    (j : Nat) (s : LzState α) :
    (lzDecomp dstedc j s).q = s.q ∧ (lzDecomp dstedc j s).j = s.j ∧
    (lzDecomp dstedc j s).m = s.m ∧ (lzDecomp dstedc j s).lm = s.lm ∧
    (lzDecomp dstedc j s).brk = s.brk :=
  ⟨rfl, rfl, rfl, rfl, rfl⟩

/-- The termination test of `Rlanczos` leaves `q`, `j`, `err`, `normTj` as they are; in the
fixed mode it leaves `m` and `lm` as they are. -/
theorem lzTest_fields [LinearOrderedField α] (biggest : Bool) (epsStop : α) (j : Nat)
    (s : LzState α) :
    (lzTest biggest epsStop j s).q = s.q ∧ (lzTest biggest epsStop j s).j = s.j ∧
    (lzTest biggest epsStop j s).err = s.err ∧
    (lzTest biggest epsStop j s).normTj = s.normTj ∧
    (biggest = false →
      (lzTest biggest epsStop j s).m = s.m ∧ (lzTest biggest epsStop j s).lm = s.lm) := by
  unfold lzTest
  by_cases h1 : (j : Int) ≥ s.m + s.lm
  · rw [if_pos h1]
    cases biggest with
    | false =>
      simp only [Bool.false_eq_true, if_false]
      by_cases h2 : lzFixedOk s.err j s.m s.lm (s.normTj * epsStop) = true
      · rw [if_pos h2]
        exact ⟨rfl, rfl, rfl, rfl, fun _ => ⟨rfl, rfl⟩⟩
      · rw [if_neg h2]
        exact ⟨rfl, rfl, rfl, rfl, fun _ => ⟨rfl, rfl⟩⟩
    | true =>
      simp only [if_true]
      by_cases h2 : (lanczosSelect s.d s.err j s.m.toNat (s.normTj * epsStop)).converged = true
      · rw [if_pos h2]
        exact ⟨rfl, rfl, rfl, rfl, fun h => absurd h (by decide)⟩
      · rw [if_neg h2]
        exact ⟨rfl, rfl, rfl, rfl, fun _ => ⟨rfl, rfl⟩⟩
  · rw [if_neg h1]
    exact ⟨rfl, rfl, rfl, rfl, fun _ => ⟨rfl, rfl⟩⟩

/-- A pass of the main loop of `Rlanczos` leaves `q[0]` as it is and counts the pass. -/
theorem lzIter_q0 [LinearOrderedField α] (sqrt : α → α)
    (dstedc : Bool → Nat → (Nat → α) → (Nat → α) → (Nat → α) →
      (Nat → α) × (Nat → α) × (Nat → α))
    (A : Nat → α) (n : Nat) (nt ci cir : Int) (biggest : Bool) (fcheck : Int) (epsStop : α)
    (j : Nat) (s : LzState α) :
    (lzIter sqrt dstedc A n nt ci cir biggest fcheck epsStop j s).q 0 = s.q 0 ∧
    (lzIter sqrt dstedc A n nt ci cir biggest fcheck epsStop j s).j = j + 1 := by
  obtain ⟨a1, a2, -⟩ := lzAdvance_fields sqrt A n nt ci cir j s
  unfold lzIter
  simp only
  split_ifs
  · obtain ⟨t1, t2, -⟩ := lzTest_fields biggest epsStop j
      (lzDecomp dstedc j (lzAdvance sqrt A n nt ci cir j s))
    rw [t1, t2]
    exact ⟨a1, a2⟩
  · exact ⟨a1, a2⟩

/-- After `k ≤ n` passes of the loop header of `Rlanczos`: `q[0]` is the start vector; if
the loop has not been left then `j = k`, and otherwise `1 ≤ j ≤ k`. -/
theorem RlanczosRun_inv [LinearOrderedField α] (sqrt : α → α) (big : α)
    (dstedc : Bool → Nat → (Nat → α) → (Nat → α) → (Nat → α) →
      (Nat → α) × (Nat → α) × (Nat → α))
    (w : Nat) (A : Nat → α) (n : Nat) (m lm : Int) (tol : α) (nt : Int) (openmp : Bool)
    (k : Nat) :
    (RlanczosRun sqrt big dstedc w A n m lm tol nt openmp k).q 0 = lzQ0 sqrt w n ∧
    ((RlanczosRun sqrt big dstedc w A n m lm tol nt openmp k).brk = false →
      (RlanczosRun sqrt big dstedc w A n m lm tol nt openmp k).j = k) ∧
    ((RlanczosRun sqrt big dstedc w A n m lm tol nt openmp k).brk = true →
      1 ≤ (RlanczosRun sqrt big dstedc w A n m lm tol nt openmp k).j ∧
      (RlanczosRun sqrt big dstedc w A n m lm tol nt openmp k).j ≤ k) := by
  unfold RlanczosRun
  simp only
  induction k with
  | zero => exact ⟨rfl, fun _ => rfl, fun h => by simp [forLoop] at h⟩
  | succ k ih =>
    obtain ⟨h1, h2, h3⟩ := ih
    rw [forLoop_succ]
    generalize forLoop k _ _ = S at h1 h2 h3 ⊢
    by_cases hb : S.brk = true
    · rw [if_pos hb]
      exact ⟨h1, fun h => by rw [hb] at h; exact absurd h (by decide),
        fun _ => ⟨(h3 hb).1, by have := (h3 hb).2; omega⟩⟩
    · rw [if_neg hb]
      obtain ⟨i1, i2⟩ := lzIter_q0 sqrt dstedc A n
        (lzSplit n (if (if openmp then nt else 1) > (n : Int) then (n : Int)
          else (if openmp then nt else 1))).1
        (lzSplit n (if (if openmp then nt else 1) > (n : Int) then (n : Int)
          else (if openmp then nt else 1))).2.1
        (lzSplit n (if (if openmp then nt else 1) > (n : Int) then (n : Int)
          else (if openmp then nt else 1))).2.2
        (decide (lm < 0)) (lanczosFCheck n m lm) tol k S
      refine ⟨i1.trans h1, fun _ => i2, fun _ => ⟨by rw [i2]; omega, by rw [i2]⟩⟩

/-- Claim C31. With `x_0 = 1` and `x_{t+1} = (106 * x_t + 1283) mod 6075` (`lcg`), the first
draw is 1389, every unnormalised entry `x_{i+1}/6075 - 1/2` lies in `[-1/2, 1/2)`, and the
vector `q[0]` of `Rlanczos` has the entries `(x_{i+1}/6075 - 1/2) / sqrt(bt)`, `i < n`, where
`bt` is the sum of the squares of the unnormalised entries: an expression in `n` and the
library function `sqrt` only, whatever `A`, `m`, `lm`, `tol` and `nt` are. The word of the
`unsigned long` generator has at least 20 bits. -/
theorem lanczos_start_vector [LinearOrderedField α] (sqrt : α → α) (big : α)
    (dstedc : Bool → Nat → (Nat → α) → (Nat → α) → (Nat → α) →
      (Nat → α) × (Nat → α) × (Nat → α))
    (w : Nat) (A : Nat → α) (n : Nat) (m lm : Int) (tol : α) (nt : Int) (openmp : Bool)
    (hw : 20 ≤ w) :
    lcg 1 = 1389 ∧
    (∀ t, -(1 / 2 : α) ≤ (lcg (t + 1) : α) / 6075 - 1 / 2 ∧
      (lcg (t + 1) : α) / 6075 - 1 / 2 < 1 / 2) ∧
    (∀ i, i < n →
      (Rlanczos sqrt big dstedc w A n m lm tol nt openmp).q 0 i
        = ((lcg (i + 1) : α) / 6075 - 1 / 2) /
          sqrt (∑ t in Finset.range n,
            ((lcg (t + 1) : α) / 6075 - 1 / 2) * ((lcg (t + 1) : α) / 6075 - 1 / 2))) := by
  refine ⟨by decide, fun t => ?_, fun i hi => ?_⟩
  · have h1 : (0 : α) ≤ (lcg (t + 1) : α) := Nat.cast_nonneg _
    have h2 : (lcg (t + 1) : α) < 6075 := by exact_mod_cast lcg_lt (t + 1)
    have h3 : (lcg (t + 1) : α) / 6075 < 1 := by
      rw [div_lt_one (by norm_num)]; exact h2
    have h4 : (0 : α) ≤ (lcg (t + 1) : α) / 6075 := div_nonneg h1 (by norm_num)
    constructor <;> linarith
  · unfold Rlanczos
    rw [(RlanczosRun_inv sqrt big dstedc w A n m lm tol nt openmp n).1]
    exact lzQ0_spec sqrt w hw n i hi

/-- Witness for C31: a 64 bit word, `n = 2`, the matrix `A = 0` over the rationals, `m = 1`,
`lm = 0`, `tol = 1/10`, one thread, no OpenMP. -/
theorem lanczos_start_vector_witness :
    (20 : Nat) ≤ 64 ∧
    (∀ i, i < 2 →
      (Rlanczos Rat.sqrt (10 : ℚ) (fun _ _ d g v => (d, g, v)) 64 (fun _ => 0) 2 1 0
          (1 / 10) 1 false).q 0 i
        = ((lcg (i + 1) : ℚ) / 6075 - 1 / 2) /
          Rat.sqrt (∑ t in Finset.range 2,
            ((lcg (t + 1) : ℚ) / 6075 - 1 / 2) * ((lcg (t + 1) : ℚ) / 6075 - 1 / 2))) :=
  ⟨by decide,
    (lanczos_start_vector Rat.sqrt (10 : ℚ) (fun _ _ d g v => (d, g, v)) 64 (fun _ => 0) 2 1 0
      (1 / 10) 1 false (by decide)).2.2⟩

/-- A loop `for (i < k) if (P i) ok = 0;` ends with `ok` set exactly when it started so and
no `P i` holds. -/
theorem okLoop_spec (P : Nat → Prop) [DecidablePred P] (k : Nat) (ok0 : Bool) :
    forLoop k (fun i ok => if P i then false else ok) ok0 = true
      ↔ ok0 = true ∧ ∀ i, i < k → ¬ P i := by
  induction k with
  | zero => exact ⟨fun h => ⟨h, fun i hi => absurd hi (Nat.not_lt_zero i)⟩, fun h => h.1⟩
  | succ k ih =>
    rw [forLoop_succ]
    by_cases c : P k
    · rw [if_pos c]
      exact ⟨fun h => absurd h (by decide), fun h => absurd c (h.2 k (Nat.lt_succ_self k))⟩
    · rw [if_neg c, ih]
      refine ⟨fun h => ⟨h.1, fun i hi => ?_⟩, fun h => ⟨h.1, fun i hi => h.2 i (by omega)⟩⟩
      by_cases e : i = k
      · rw [e]; exact c
      · exact h.2 i (by omega)

/-- The test of the fixed mode passes exactly when `err[i] ≤ max_err` for all `i < m` and
for all `i` with `j - lm < i ≤ j`. -/
theorem lzFixedOk_iff [LinearOrderedField α] (err : Nat → α) (j : Nat) (m lm : Int)
    (maxErr : α) :
    lzFixedOk err j m lm maxErr = true ↔
      (∀ i : Nat, (i : Int) < m → err i ≤ maxErr) ∧
      (∀ i : Nat, (j : Int) - lm < i → i ≤ j → err i ≤ maxErr) := by
  unfold lzFixedOk
  simp only
  rw [okLoop_spec (fun t => err (j - t) > maxErr) lm.toNat,
    okLoop_spec (fun i => err i > maxErr) m.toNat]
  constructor
  · rintro ⟨⟨-, h1⟩, h2⟩
    refine ⟨fun i hi => not_lt.mp (h1 i (by omega)), fun i hi1 hi2 => ?_⟩
    have := h2 (j - i) (by omega)
    rw [show j - (j - i) = i by omega] at this
    exact not_lt.mp this
  · rintro ⟨h1, h2⟩
    refine ⟨⟨rfl, fun i hi => not_lt.mpr (h1 i (by omega))⟩, fun t ht => ?_⟩
    exact not_lt.mpr (h2 (j - t) (by omega) (by omega))

/-- A pass of `Rlanczos` outside the guard of the decomposition does not end the loop and
leaves `err`, `m` and `lm` as they are. -/
theorem lzIter_not_due [LinearOrderedField α] (sqrt : α → α)
    (dstedc : Bool → Nat → (Nat → α) → (Nat → α) → (Nat → α) →
      (Nat → α) × (Nat → α) × (Nat → α))
    (A : Nat → α) (n : Nat) (nt ci cir : Int) (biggest : Bool) (fcheck : Int) (epsStop : α)
    (j : Nat) (s : LzState α) (h : lzCheckDue n j s.m s.lm fcheck = false) :
    (lzIter sqrt dstedc A n nt ci cir biggest fcheck epsStop j s).brk = s.brk ∧
    (lzIter sqrt dstedc A n nt ci cir biggest fcheck epsStop j s).err = s.err ∧
    (lzIter sqrt dstedc A n nt ci cir biggest fcheck epsStop j s).m = s.m ∧
    (lzIter sqrt dstedc A n nt ci cir biggest fcheck epsStop j s).lm = s.lm := by
  unfold lzIter
  simp only
  have e : lzCheckDue n j (lzAdvance sqrt A n nt ci cir j s).m
      (lzAdvance sqrt A n nt ci cir j s).lm fcheck = false := h
  rw [e]
  exact ⟨rfl, rfl, rfl, rfl⟩

/-- A pass of `Rlanczos` in the fixed mode ends the loop exactly when the decomposition is
due, `j ≥ m + lm` and the test passes on the new `err` and `normTj`; `m` and `lm` are left
as they are. -/
theorem lzIter_fixed [LinearOrderedField α] (sqrt : α → α)
    (dstedc : Bool → Nat → (Nat → α) → (Nat → α) → (Nat → α) →
      (Nat → α) × (Nat → α) × (Nat → α))
    (A : Nat → α) (n : Nat) (nt ci cir : Int) (fcheck : Int) (epsStop : α)
    (j : Nat) (s : LzState α) (hb : s.brk = false) :
    ((lzIter sqrt dstedc A n nt ci cir false fcheck epsStop j s).brk = true ↔
      lzCheckDue n j s.m s.lm fcheck = true ∧ (j : Int) ≥ s.m + s.lm ∧
      lzFixedOk (lzIter sqrt dstedc A n nt ci cir false fcheck epsStop j s).err j s.m s.lm
        ((lzIter sqrt dstedc A n nt ci cir false fcheck epsStop j s).normTj * epsStop)
        = true) ∧
    (lzIter sqrt dstedc A n nt ci cir false fcheck epsStop j s).m = s.m ∧
    (lzIter sqrt dstedc A n nt ci cir false fcheck epsStop j s).lm = s.lm := by
  by_cases h : lzCheckDue n j s.m s.lm fcheck = true
  · have e : lzCheckDue n j (lzAdvance sqrt A n nt ci cir j s).m
        (lzAdvance sqrt A n nt ci cir j s).lm fcheck = true := h
    have hi : lzIter sqrt dstedc A n nt ci cir false fcheck epsStop j s
        = lzTest false epsStop j (lzDecomp dstedc j (lzAdvance sqrt A n nt ci cir j s)) := by
      unfold lzIter
      simp only
      rw [if_pos e]
    rw [hi]
    generalize hD : lzDecomp dstedc j (lzAdvance sqrt A n nt ci cir j s) = D
    have dm : D.m = s.m := by rw [← hD]; rfl
    have dl : D.lm = s.lm := by rw [← hD]; rfl
    have db : D.brk = false := by rw [← hD]; exact hb
    obtain ⟨-, -, t3, t4, t5⟩ := lzTest_fields false epsStop j D
    obtain ⟨t5a, t5b⟩ := t5 rfl
    rw [t3, t4]
    refine ⟨?_, t5a.trans dm, t5b.trans dl⟩
    unfold lzTest
    rw [dm, dl]
    by_cases h1 : (j : Int) ≥ s.m + s.lm
    · rw [if_pos h1]
      simp only [Bool.false_eq_true, if_false]
      by_cases h2 : lzFixedOk D.err j s.m s.lm (D.normTj * epsStop) = true
      · rw [if_pos h2]
        exact ⟨fun _ => ⟨h, h1, h2⟩, fun _ => rfl⟩
      · rw [if_neg h2]
        exact ⟨fun hh => by rw [db] at hh; exact absurd hh (by decide), fun hh => absurd hh.2.2 h2⟩
    · rw [if_neg h1]
      exact ⟨fun hh => by rw [db] at hh; exact absurd hh (by decide), fun hh => absurd hh.2.1 h1⟩
  · have h' : lzCheckDue n j s.m s.lm fcheck = false := by
      cases hc : lzCheckDue n j s.m s.lm fcheck with
      | false => rfl
      | true => exact absurd hc h
    obtain ⟨n1, -, n3, n4⟩ := lzIter_not_due sqrt dstedc A n nt ci cir false fcheck epsStop j s h'
    refine ⟨⟨fun hh => ?_, fun hh => absurd hh.1 h⟩, n3, n4⟩
    rw [n1, hb] at hh
    exact absurd hh (by decide)

/-- One more pass of the loop header of `Rlanczos`. -/
theorem RlanczosRun_succ [LinearOrderedField α] (sqrt : α → α) (big : α)
    (dstedc : Bool → Nat → (Nat → α) → (Nat → α) → (Nat → α) →
      (Nat → α) × (Nat → α) × (Nat → α))
    (w : Nat) (A : Nat → α) (n : Nat) (m lm : Int) (tol : α) (nt : Int) (openmp : Bool)
    (k : Nat) :
    RlanczosRun sqrt big dstedc w A n m lm tol nt openmp (k + 1)
      = if (RlanczosRun sqrt big dstedc w A n m lm tol nt openmp k).brk then
          RlanczosRun sqrt big dstedc w A n m lm tol nt openmp k
        else lzIter sqrt dstedc A n
          (lzSplit n (if (if openmp then nt else 1) > (n : Int) then (n : Int)
            else (if openmp then nt else 1))).1
          (lzSplit n (if (if openmp then nt else 1) > (n : Int) then (n : Int)
            else (if openmp then nt else 1))).2.1
          (lzSplit n (if (if openmp then nt else 1) > (n : Int) then (n : Int)
            else (if openmp then nt else 1))).2.2
          (decide (lm < 0)) (lanczosFCheck n m lm) tol k
          (RlanczosRun sqrt big dstedc w A n m lm tol nt openmp k) := rfl

/-- In the fixed mode (`lm ≥ 0`) the passes of `Rlanczos` leave `m` and `lm` as they
are. -/
theorem RlanczosRun_fixed [LinearOrderedField α] (sqrt : α → α) (big : α)
    (dstedc : Bool → Nat → (Nat → α) → (Nat → α) → (Nat → α) →
      (Nat → α) × (Nat → α) × (Nat → α))
    (w : Nat) (A : Nat → α) (n : Nat) (m lm : Int) (tol : α) (nt : Int) (openmp : Bool)
    (hlm : 0 ≤ lm) (k : Nat) :
    (RlanczosRun sqrt big dstedc w A n m lm tol nt openmp k).m = m ∧
    (RlanczosRun sqrt big dstedc w A n m lm tol nt openmp k).lm = lm := by
  have hd : decide (lm < 0) = false := decide_eq_false (by omega)
  induction k with
  | zero =>
    refine ⟨rfl, ?_⟩
    show (if lm < 0 then 0 else lm) = lm
    rw [if_neg (by omega)]
  | succ k ih =>
    rw [RlanczosRun_succ, hd]
    generalize RlanczosRun sqrt big dstedc w A n m lm tol nt openmp k = S at ih ⊢
    by_cases hb : S.brk = true
    · rw [if_pos hb]; exact ih
    · rw [if_neg hb]
      have hb' : S.brk = false := by
        cases h : S.brk with
        | false => rfl
        | true => exact absurd h hb
      obtain ⟨-, f2, f3⟩ := lzIter_fixed sqrt dstedc A n
        (lzSplit n (if (if openmp then nt else 1) > (n : Int) then (n : Int)
          else (if openmp then nt else 1))).1
        (lzSplit n (if (if openmp then nt else 1) > (n : Int) then (n : Int)
          else (if openmp then nt else 1))).2.1
        (lzSplit n (if (if openmp then nt else 1) > (n : Int) then (n : Int)
          else (if openmp then nt else 1))).2.2
        (lanczosFCheck n m lm) tol k S hb'
      exact ⟨f2.trans ih.1, f3.trans ih.2⟩

/-- Claim C32. For `n ≥ 1` the main loop of `Rlanczos` makes at most `n` passes and the
count `n_out` written to `*n` satisfies `1 ≤ n_out ≤ n`. With `run k` the state after `k`
passes of the loop header: a pass `k` made while the loop is not left has `j = k`, and if
the guard `(j ≥ m + lm and j mod f_check = 0) or j = n - 1` is false it does not leave the
loop and does not change `err`; once the loop is left the state stays as it is; and in the
fixed mode (`lm ≥ 0`) pass `k` leaves the loop exactly when the guard holds, `k ≥ m + lm`,
and `err[i] ≤ normTj * tol` for all `i < m` and for all `i` with `k - lm < i ≤ k`. -/
theorem lanczos_loop_control [LinearOrderedField α] (sqrt : α → α) (big : α)
    (dstedc : Bool → Nat → (Nat → α) → (Nat → α) → (Nat → α) →
      (Nat → α) × (Nat → α) × (Nat → α))
    (w : Nat) (A : Nat → α) (n : Nat) (m lm : Int) (tol : α) (nt : Int) (openmp : Bool)
    (hn : 1 ≤ n) :
    (1 ≤ (Rlanczos sqrt big dstedc w A n m lm tol nt openmp).j ∧
      (Rlanczos sqrt big dstedc w A n m lm tol nt openmp).j ≤ n) ∧
    (∀ k, (RlanczosRun sqrt big dstedc w A n m lm tol nt openmp k).brk = false →
      (RlanczosRun sqrt big dstedc w A n m lm tol nt openmp k).j = k ∧
      (¬ (((k : Int) ≥ (RlanczosRun sqrt big dstedc w A n m lm tol nt openmp k).m +
              (RlanczosRun sqrt big dstedc w A n m lm tol nt openmp k).lm ∧
            Int.tmod k (lanczosFCheck n m lm) = 0) ∨ (k : Int) = (n : Int) - 1) →
        (RlanczosRun sqrt big dstedc w A n m lm tol nt openmp (k + 1)).brk = false ∧
        (RlanczosRun sqrt big dstedc w A n m lm tol nt openmp (k + 1)).err
          = (RlanczosRun sqrt big dstedc w A n m lm tol nt openmp k).err)) ∧
    (∀ k, (RlanczosRun sqrt big dstedc w A n m lm tol nt openmp k).brk = true →
      RlanczosRun sqrt big dstedc w A n m lm tol nt openmp (k + 1)
        = RlanczosRun sqrt big dstedc w A n m lm tol nt openmp k) ∧
    (0 ≤ lm → ∀ k, (RlanczosRun sqrt big dstedc w A n m lm tol nt openmp k).brk = false →
      ((RlanczosRun sqrt big dstedc w A n m lm tol nt openmp (k + 1)).brk = true ↔
        (((k : Int) ≥ m + lm ∧ Int.tmod k (lanczosFCheck n m lm) = 0) ∨
          (k : Int) = (n : Int) - 1) ∧
        (k : Int) ≥ m + lm ∧
        (∀ i : Nat, (i : Int) < m →
          (RlanczosRun sqrt big dstedc w A n m lm tol nt openmp (k + 1)).err i
            ≤ (RlanczosRun sqrt big dstedc w A n m lm tol nt openmp (k + 1)).normTj * tol) ∧
        (∀ i : Nat, (k : Int) - lm < i → i ≤ k →
          (RlanczosRun sqrt big dstedc w A n m lm tol nt openmp (k + 1)).err i
            ≤ (RlanczosRun sqrt big dstedc w A n m lm tol nt openmp (k + 1)).normTj * tol))) := by
  refine ⟨?_, ?_, ?_, ?_⟩
  · obtain ⟨-, h2, h3⟩ := RlanczosRun_inv sqrt big dstedc w A n m lm tol nt openmp n
    unfold Rlanczos
    cases hb : (RlanczosRun sqrt big dstedc w A n m lm tol nt openmp n).brk with
    | false => rw [h2 hb]; exact ⟨hn, le_rfl⟩
    | true => exact h3 hb
  · intro k hb
    refine ⟨(RlanczosRun_inv sqrt big dstedc w A n m lm tol nt openmp k).2.1 hb, fun hg => ?_⟩
    rw [RlanczosRun_succ, if_neg (by rw [hb]; decide)]
    have hd : lzCheckDue n k (RlanczosRun sqrt big dstedc w A n m lm tol nt openmp k).m
        (RlanczosRun sqrt big dstedc w A n m lm tol nt openmp k).lm (lanczosFCheck n m lm)
        = false := decide_eq_false hg
    obtain ⟨n1, n2, -⟩ := lzIter_not_due sqrt dstedc A n _ _ _ (decide (lm < 0))
      (lanczosFCheck n m lm) tol k _ hd
    exact ⟨n1.trans hb, n2⟩
  · intro k hb
    rw [RlanczosRun_succ, if_pos hb]
  · intro hlm k hb
    have hd : decide (lm < 0) = false := decide_eq_false (by omega)
    obtain ⟨fm, fl⟩ := RlanczosRun_fixed sqrt big dstedc w A n m lm tol nt openmp hlm k
    rw [RlanczosRun_succ, if_neg (by rw [hb]; decide), hd]
    obtain ⟨f1, -⟩ := lzIter_fixed sqrt dstedc A n
      (lzSplit n (if (if openmp then nt else 1) > (n : Int) then (n : Int)
        else (if openmp then nt else 1))).1
      (lzSplit n (if (if openmp then nt else 1) > (n : Int) then (n : Int)
        else (if openmp then nt else 1))).2.1
      (lzSplit n (if (if openmp then nt else 1) > (n : Int) then (n : Int)
        else (if openmp then nt else 1))).2.2
      (lanczosFCheck n m lm) tol k _ hb
    rw [f1, fm, fl, lzFixedOk_iff]
    unfold lzCheckDue
    rw [decide_eq_true_iff]

/-- Witness for C32: `n = 2`, the matrix `A = 0` over the rationals, `m = 1`, `lm = 0`,
`tol = 1/10`, one thread, no OpenMP, and a `dstedc` that returns its arguments. -/
theorem lanczos_loop_control_witness :
    (1 : Nat) ≤ 2 ∧
    (1 ≤ (Rlanczos Rat.sqrt (10 : ℚ) (fun _ _ d g v => (d, g, v)) 64 (fun _ => 0) 2 1 0
        (1 / 10) 1 false).j ∧
      (Rlanczos Rat.sqrt (10 : ℚ) (fun _ _ d g v => (d, g, v)) 64 (fun _ => 0) 2 1 0
        (1 / 10) 1 false).j ≤ 2) :=
  ⟨by decide,
    (lanczos_loop_control Rat.sqrt (10 : ℚ) (fun _ _ d g v => (d, g, v)) 64 (fun _ => 0) 2 1 0
      (1 / 10) 1 false (by decide)).1⟩

end LanczosProofs

/-! ## Householder reflectors: `mgcv_piqr` and `bpqr` factorise the pivoted input -/

section HouseProofs
variable {α : Type}

theorem houseApply_of_zero [Ring α] (tau : α) (v x : Nat → α) (n i : Nat) (h : v i = 0) :
    houseApply tau v x n i = x i := by
  unfold houseApply
  rw [h, mul_zero, sub_zero]

theorem houseApply_of_dot [Ring α] (tau : α) (v x : Nat → α) (n : Nat)
    (h : ∑ l in Finset.range n, v l * x l = 0) : houseApply tau v x n = x := by
  funext i
  unfold houseApply
  rw [h, mul_zero, zero_mul, sub_zero]

theorem hv_lt [Ring α] (A : Nat → α) (n k i : Nat) (h : i < k) : hv A n k i = 0 := by
  unfold hv; rw [if_pos h]

theorem hv_self [Ring α] (A : Nat → α) (n k : Nat) : hv A n k k = 1 := by
  unfold hv; rw [if_neg (Nat.lt_irrefl k), if_pos rfl]

theorem hv_gt [Ring α] (A : Nat → α) (n k i : Nat) (h1 : k < i) (h2 : i < n) :
    hv A n k i = A (i + n * k) := by
  unfold hv; rw [if_neg (by omega), if_neg (by omega), if_pos h2]

/-- The stored vector of reflector `k` depends on the cells below the diagonal of column
`k` only. -/
theorem hv_congr [Ring α] (A B : Nat → α) (n k : Nat)
    (h : ∀ i, k < i → i < n → A (i + n * k) = B (i + n * k)) : hv A n k = hv B n k := by
  funext i
  unfold hv
  split_ifs with h1 h2 h3
  · rfl
  · rfl
  · exact h i (by omega) h3
  · rfl

/-- The product of the first `k` reflectors depends on `tau[t]` and on the cells below the
diagonal of the columns `t < k` only. -/
theorem houseSeq_congr [Ring α] (A B tau sig : Nat → α) (n k : Nat) (x : Nat → α)
    (ht : ∀ t, t < k → tau t = sig t)
    (hA : ∀ t i, t < k → t < i → i < n → A (i + n * t) = B (i + n * t)) :
    houseSeq A tau n k x = houseSeq B sig n k x := by
  induction k with
  | zero => rfl
  | succ k ih =>
    show houseApply (tau k) (hv A n k) (houseSeq A tau n k x) n
      = houseApply (sig k) (hv B n k) (houseSeq B sig n k x) n
    rw [ih (fun t h => ht t (by omega)) (fun t i h => hA t i (by omega)), ht k (by omega),
      hv_congr A B n k (fun i h1 h2 => hA k i (by omega) h1 h2)]

/-- The inner product of the stored vector of reflector `k` with `x` is `x[k]` plus the
inner product of the cells below the diagonal with the entries of `x` after `k`. -/
theorem hv_dot [Ring α] (A : Nat → α) (n k : Nat) (hk : k < n) (x : Nat → α) :
    ∑ l in Finset.range n, hv A n k l * x l
      = x k + ∑ t in Finset.range (n - k - 1), A (k + 1 + t + n * k) * x (k + 1 + t) := by
  have e : ∑ l in Finset.range n, hv A n k l * x l
      = ∑ l in Finset.range (k + (1 + (n - k - 1))), hv A n k l * x l := by
    congr 2; omega
  rw [e, Finset.sum_range_add, Finset.sum_range_add]
  have z : ∑ l in Finset.range k, hv A n k l * x l = 0 :=
    Finset.sum_eq_zero (fun l hl => by
      rw [hv_lt A n k l (Finset.mem_range.mp hl), zero_mul])
  rw [z, zero_add, Finset.sum_range_one, Nat.add_zero, hv_self, one_mul]
  congr 1
  refine Finset.sum_congr rfl (fun t ht => ?_)
  have ht := Finset.mem_range.mp ht
  rw [hv_gt A n k (k + (1 + t)) (by omega) (by omega), show k + (1 + t) = k + 1 + t by omega]

/-- Exchange of the columns `a` and `b` of a buffer of `n`-row columns. -/
theorem colSwap_spec {β : Type} (A : Nat → β) (n a b : Nat) (i c : Nat) (hi : i < n) :
    forLoop n (fun t x => swapCells x (n * a + t) (n * b + t)) A (i + n * c)
      = A (i + n * Equiv.swap a b c) := by
  obtain ⟨h1, h2⟩ := swapLoop_spec (fun t => n * a + t) (fun t => n * b + t) n A
    (fun t t' ht ht' hne => by
      have e2 := cell_ne n t a t' b ht ht' (Or.inl hne)
      have f1 : n * a = a * n := Nat.mul_comm _ _
      have f2 : n * b = b * n := Nat.mul_comm _ _
      refine ⟨?_, ?_, ?_⟩
      · show n * a + t ≠ n * a + t'
        omega
      · show n * a + t ≠ n * b + t'
        omega
      · show n * b + t ≠ n * b + t'
        omega)
  by_cases e1 : c = a
  · rw [e1, Equiv.swap_apply_left, Nat.add_comm i (n * a), Nat.add_comm i (n * b)]
    exact (h1 i hi).1
  · by_cases e2 : c = b
    · rw [e2, Equiv.swap_apply_right, Nat.add_comm i (n * a), Nat.add_comm i (n * b)]
      exact (h1 i hi).2
    · rw [Equiv.swap_apply_of_ne_of_ne e1 e2]
      refine h2 _ (fun t ht => ?_)
      have g1 := cell_ne n i c t a hi ht (Or.inr e1)
      have g2 := cell_ne n i c t b hi ht (Or.inr e2)
      have f1 : n * a = a * n := Nat.mul_comm _ _
      have f2 : n * b = b * n := Nat.mul_comm _ _
      have f3 : n * c = c * n := Nat.mul_comm _ _
      constructor
      · show i + n * c ≠ n * a + t
        omega
      · show i + n * c ≠ n * b + t
        omega

/-- Loop `for (t=0;t<m;t++) x[a+t] -= z * x[b+t]` where the cells read are not written. -/
theorem axpyLoop_spec [Ring α] (a b m : Nat) (z : α) (x : Nat → α)
    (hab : ∀ t t', t < m → t' < m → b + t ≠ a + t') :
    (∀ t, t < m →
      forLoop m (fun t x => store x (a + t) (x (a + t) - z * x (b + t))) x (a + t)
        = x (a + t) - z * x (b + t)) ∧
    (∀ q, (∀ t, t < m → q ≠ a + t) →
      forLoop m (fun t x => store x (a + t) (x (a + t) - z * x (b + t))) x q = x q) := by
  induction m with
  | zero => exact ⟨fun t h => by omega, fun q _ => rfl⟩
  | succ m ih =>
    obtain ⟨h1, h2⟩ := ih (fun t t' ht ht' => hab t t' (by omega) (by omega))
    rw [forLoop_succ]
    generalize forLoop m (fun t x => store x (a + t) (x (a + t) - z * x (b + t))) x = O
      at h1 h2 ⊢
    clear ih
    constructor
    · intro t ht
      by_cases e : t = m
      · subst e
        rw [store_same, h2 _ (fun t' ht' => by omega),
          h2 _ (fun t' ht' => hab t t' (by omega) (by omega))]
      · rw [store_ne _ _ _ _ (by omega)]
        exact h1 t (by omega)
    · intro q hq
      rw [store_ne _ _ _ _ (hq m (by omega))]
      exact h2 q (fun t ht => hq t (by omega))

/-- The loop of `mgcv_piqr` over the columns after the pivot column, as one loop with body
`B`: column `u` (counted from the column after the pivot column) has the multiple `zz` of
the reflector vector at `p0` taken from its last `nh` rows. -/
theorem reflectCols_spec [Field α] (n nh p0 : Nat) (br : α) (hnh : nh ≤ n)
    (B : Nat → (Nat → α) → (Nat → α))
    (hB : ∀ u x, B u x = forLoop nh (fun t y => store y (p0 + n + n * u + t)
      (y (p0 + n + n * u + t)
        - dotLoop nh (fun t => x (p0 + n + n * u + t) * x (p0 + t) * br) * y (p0 + t))) x)
    (x : Nat → α) (m : Nat) :
    (∀ u t, u < m → t < nh →
      forLoop m B x (p0 + n + n * u + t)
        = x (p0 + n + n * u + t)
          - (∑ t' in Finset.range nh, x (p0 + n + n * u + t') * x (p0 + t') * br)
            * x (p0 + t)) ∧
    (∀ q, (∀ u t, u < m → t < nh → q ≠ p0 + n + n * u + t) → forLoop m B x q = x q) := by
  induction m with
  | zero => exact ⟨fun u t h => by omega, fun q _ => rfl⟩
  | succ m ih =>
    obtain ⟨h1, h2⟩ := ih
    rw [forLoop_succ, hB]
    generalize forLoop m B x = O at h1 h2 ⊢
    obtain ⟨a1, a2⟩ := axpyLoop_spec (p0 + n + n * m) p0 nh
      (dotLoop nh (fun t => O (p0 + n + n * m + t) * O (p0 + t) * br)) O
      (fun t t' ht ht' => by omega)
    have hO0 : ∀ t, t < nh → O (p0 + t) = x (p0 + t) := fun t ht =>
      h2 _ (fun u t' hu ht' => by omega)
    have hOm : ∀ t, t < nh → O (p0 + n + n * m + t) = x (p0 + n + n * m + t) := fun t ht =>
      h2 _ (fun u t' hu ht' => by
        have g := cell_ne n t m t' u (by omega) (by omega) (Or.inr (by omega))
        have f1 : n * m = m * n := Nat.mul_comm _ _
        have f2 : n * u = u * n := Nat.mul_comm _ _
        omega)
    constructor
    · intro u t hu ht
      by_cases e : u = m
      · subst e
        rw [a1 t ht, hO0 t ht, hOm t ht, dotLoop_eq_sum]
        congr 2
        exact Finset.sum_congr rfl (fun t' ht' => by
          have ht' := Finset.mem_range.mp ht'
          rw [hO0 t' ht', hOm t' ht'])
      · rw [a2 _ (fun t' ht' => by
          have g := cell_ne n t u t' m (by omega) (by omega) (Or.inr e)
          have f1 : n * m = m * n := Nat.mul_comm _ _
          have f2 : n * u = u * n := Nat.mul_comm _ _
          omega)]
        exact h1 u t (by omega) ht
    · intro q hq
      rw [a2 q (fun t ht => hq m t (by omega) ht)]
      exact h2 q (fun u t hu ht => hq u t (by omega) ht)

/-- The split of `j ≥ 1` columns in `mgcv_piqr` covers the columns once: the block loop
over the threads is the loop over the columns. -/
theorem piqrReflect_eq [LinearOrderedField α] (n nh nt j p0 : Nat) (br : α) (x : Nat → α)
    (hj : 1 ≤ j) (hnt : 1 ≤ nt) :
    piqrReflect n nh (pmmSplit j nt).1 (pmmSplit j nt).2.1 (pmmSplit j nt).2.2 p0 br x
      = forLoop j (fun u x =>
          forLoop nh (fun t y => store y (p0 + n + n * u + t)
            (y (p0 + n + n * u + t)
              - dotLoop nh (fun t => x (p0 + n + n * u + t) * x (p0 + t) * br) * y (p0 + t)))
            x) x := by
  obtain ⟨s1, s2, s3, s4, s5, s6, s7⟩ := pmmSplit_spec j nt hj hnt
  generalize (pmmSplit j nt).1 = cpt at s1 s2 s3 s4 s5 s6 s7 ⊢
  generalize (pmmSplit j nt).2.1 = nth at s1 s2 s3 s4 s5 s6 s7 ⊢
  generalize (pmmSplit j nt).2.2 = cpf at s1 s2 s3 s4 s5 s6 s7 ⊢
  unfold piqrReflect
  rw [if_pos (by omega)]
  have hb := blockLoop_eq nth (fun b => if b < nth then cpt * b else j)
    (fun u x =>
          forLoop nh (fun t y => store y (p0 + n + n * u + t)
            (y (p0 + n + n * u + t)
              - dotLoop nh (fun t => x (p0 + n + n * u + t) * x (p0 + t) * br) * y (p0 + t)))
            x) x (by simp only; rw [if_pos (by omega), Nat.mul_zero]) (fun b hb => by
      simp only
      rw [if_pos hb]
      by_cases e : b + 1 < nth
      · rw [if_pos e]; exact Nat.mul_le_mul_left _ (by omega)
      · rw [if_neg e]
        have : b = nth - 1 := by omega
        rw [this, Nat.mul_comm]
        omega)
  simp only [if_neg (Nat.lt_irrefl nth)] at hb
  rw [← hb]
  unfold blockLoop
  refine forLoop_congr _ _ _ _ (fun i hi y => ?_)
  simp only
  rw [if_pos hi]
  have e1 : (if i = nth - 1 then cpf else cpt)
      = (if i + 1 < nth then cpt * (i + 1) else j) - cpt * i := by
    by_cases e : i = nth - 1
    · rw [if_pos e, if_neg (by omega), s7, e, Nat.mul_comm]
    · rw [if_neg e, if_pos (by omega), Nat.mul_succ]
      omega
  rw [e1]
  refine forLoop_congr _ _ _ _ (fun ii hii z => ?_)
  have e2 : p0 + n + n * cpt * i + ii * n = p0 + n + n * (cpt * i + ii) := by ring
  simp only [e2]

/-- The pivot index that the downdate loop of `mgcv_piqr` returns is a column after `r`,
and it is below `p` if the largest downdated norm is positive. -/
theorem piqrDowndate_index [LinearOrderedField α] (x c : Nat → α) (n p r p0 : Nat) :
    r + 1 ≤ (piqrDowndate x c n p r p0).2.2 ∧
    (0 < (piqrDowndate x c n p r p0).2.1 → (piqrDowndate x c n p r p0).2.2 < p) := by
  have key : ∀ m, r + 1 ≤ (piqrDowndate x c n (r + 1 + m) r p0).2.2 ∧
      (0 < (piqrDowndate x c n (r + 1 + m) r p0).2.1 →
        (piqrDowndate x c n (r + 1 + m) r p0).2.2 < r + 1 + m) := by
    intro m
    unfold piqrDowndate
    rw [Nat.add_sub_cancel_left]
    induction m with
    | zero => exact ⟨le_rfl, fun h => absurd h (lt_irrefl _)⟩
    | succ m ih =>
      obtain ⟨h1, h2⟩ := ih
      rw [forLoop_succ]
      generalize forLoop m _ _ = S at h1 h2 ⊢
      obtain ⟨cc, tau, k⟩ := S
      simp only at h1 h2 ⊢
      generalize cc (r + 1 + m) - x (p0 + n + m * n) * x (p0 + n + m * n) = ci
      by_cases hc : ci > tau
      · rw [if_pos hc]
        exact ⟨by simp only; omega, fun _ => by simp only; omega⟩
      · rw [if_neg hc]
        refine ⟨h1, fun h => ?_⟩
        have := h2 h
        simp only
        omega
  by_cases hp : r + 1 ≤ p
  · have e : p = r + 1 + (p - (r + 1)) := by omega
    rw [e]
    exact key _
  · unfold piqrDowndate
    rw [show p - (r + 1) = 0 by omega]
    exact ⟨le_rfl, fun h => absurd h (lt_irrefl _)⟩

/-- The first loop of `mgcv_piqr` leaves `x`, `beta` and `nh = n` as they are, sets
`piv[i] = i`, and its pivot index is below `p` if a column norm is positive. -/
theorem piqrInit_fields [LinearOrderedField α] (x beta : Nat → α) (piv : Nat → Nat)
    (n p : Nat) :
    (piqrInit x beta piv n p).x = x ∧ (piqrInit x beta piv n p).beta = beta ∧
    (piqrInit x beta piv n p).nh = n ∧
    (∀ i, i < p → (piqrInit x beta piv n p).piv i = i) ∧
    (0 < (piqrInit x beta piv n p).tau → (piqrInit x beta piv n p).k < p) := by
  unfold piqrInit
  induction p with
  | zero => exact ⟨rfl, rfl, rfl, fun i h => by omega, fun h => absurd h (lt_irrefl _)⟩
  | succ m ih =>
    obtain ⟨h1, h2, h3, h4, h5⟩ := ih
    rw [forLoop_succ]
    generalize forLoop m _ _ = S at h1 h2 h3 h4 h5 ⊢
    simp only
    have hp : ∀ i, i < m + 1 → store S.piv m m i = i := by
      intro i hi
      by_cases e : i = m
      · rw [e, store_same]
      · rw [store_ne _ _ _ _ e]; exact h4 i (by omega)
    by_cases hc : dotLoop n (fun t => x (m * n + t) * x (m * n + t)) > S.tau
    · rw [if_pos hc]
      exact ⟨h1, h2, h3, hp, fun _ => Nat.lt_succ_self m⟩
    · rw [if_neg hc]
      exact ⟨h1, h2, h3, hp, fun h => Nat.lt_succ_of_lt (h5 h)⟩

theorem isPerm_id (p : Nat) (piv : Nat → Nat) (h : ∀ i, i < p → piv i = i) :
    IsPerm p piv := by
  refine ⟨fun i hi => by rw [h i hi]; exact hi, fun i i' hi hi' e => ?_, fun v hv => ⟨v, hv, h v hv⟩⟩
  rwa [h i hi, h i' hi'] at e

/-- Exchange of two cells below `p` keeps the permutation. -/
theorem isPerm_swap (p : Nat) (piv : Nat → Nat) (a b : Nat) (ha : a < p) (hb : b < p)
    (h : IsPerm p piv) : IsPerm p (swapCells piv a b) := by
  obtain ⟨h1, h2, h3⟩ := h
  have hs : ∀ i, i < p → Equiv.swap a b i < p := by
    intro i hi
    by_cases e1 : i = a
    · rw [e1, Equiv.swap_apply_left]; exact hb
    · by_cases e2 : i = b
      · rw [e2, Equiv.swap_apply_right]; exact ha
      · rw [Equiv.swap_apply_of_ne_of_ne e1 e2]; exact hi
  refine ⟨fun i hi => ?_, fun i i' hi hi' e => ?_, fun v hv => ?_⟩
  · rw [swapCells_eq_comp]; exact h1 _ (hs i hi)
  · rw [swapCells_eq_comp, swapCells_eq_comp] at e
    exact (Equiv.swap a b).injective (h2 _ _ (hs i hi) (hs i' hi') e)
  · obtain ⟨i, hi, e⟩ := h3 v hv
    refine ⟨Equiv.swap a b i, hs i hi, ?_⟩
    rw [swapCells_eq_comp, Equiv.swap_apply_self]
    exact e

/-- The new `x`, `beta`, `piv`, `nh`, `k` and `tau` of one pass of the loop of `mgcv_piqr`
in terms of the intermediate values of the pass. -/
theorem piqrStep_unfold [LinearOrderedField α]
    (dlarfg : Nat → α → (Nat → α) → α × (Nat → α) × α) (n p nt : Nat) (S : PiqrState α)
    (r : Nat) (hr : r = (S.r + 1).toNat)
    (x1 : Nat → α) (hx1 : x1 = forLoop n (fun t x => swapCells x (n * r + t) (n * S.k + t)) S.x)
    (g : α × (Nat → α) × α)
    (hg : g = dlarfg S.nh (x1 (r * n + r)) (fun t => x1 (r * n + r + 1 + t)))
    (x3 : Nat → α)
    (hx3 : x3 = store (forLoop (S.nh - 1) (fun t x => store x (r * n + r + 1 + t) (g.2.1 t)) x1)
      (r * n + r) 1)
    (j : Nat) (hj : j = p - r - 1) (cpt : Nat)
    (hcpt : cpt = if j ≠ 0 ∧ (if j ≠ 0 then j / nt else 0) * nt < j
      then (if j ≠ 0 then j / nt else 0) + 1 else (if j ≠ 0 then j / nt else 0))
    (nth : Nat)
    (hnth : nth = if j ≠ 0 ∧ (if j ≠ 0 then j / cpt else 0) * cpt < j
      then (if j ≠ 0 then j / cpt else 0) + 1 else (if j ≠ 0 then j / cpt else 0))
    (cpf : Nat) (hcpf : cpf = if j ≠ 0 then j - cpt * (nth - 1) else 0)
    (x5 : Nat → α)
    (hx5 : x5 = store (piqrReflect n S.nh cpt nth cpf (r * n + r) g.2.2 x3) (r * n + r) g.1) :
    (piqrStep dlarfg n p nt S).x = x5 ∧
    (piqrStep dlarfg n p nt S).beta = store S.beta r g.2.2 ∧
    (piqrStep dlarfg n p nt S).piv = swapCells S.piv r S.k ∧
    (piqrStep dlarfg n p nt S).nh = S.nh - 1 ∧
    (piqrStep dlarfg n p nt S).r = (r : Int) ∧
    (piqrStep dlarfg n p nt S).k
      = (piqrDowndate x5 (swapCells S.c r S.k) n p r (r * n + r)).2.2 ∧
    (piqrStep dlarfg n p nt S).tau
      = if (r : Int) = (n : Int) - 1 then 0
        else (piqrDowndate x5 (swapCells S.c r S.k) n p r (r * n + r)).2.1 := by
  subst hr hx1 hg hx3 hj hcpt hnth hcpf hx5
  refine ⟨?_, rfl, rfl, rfl, rfl, ?_, ?_⟩
  · unfold piqrStep
    simp only [store_same]
  · unfold piqrStep
    simp only [store_same]
  · unfold piqrStep
    simp only [store_same]

theorem piqrSplit_eq (j nt : Nat) (hj : j ≠ 0) (cpt nth cpf : Nat)
    (hcpt : cpt = if j ≠ 0 ∧ (if j ≠ 0 then j / nt else 0) * nt < j
      then (if j ≠ 0 then j / nt else 0) + 1 else (if j ≠ 0 then j / nt else 0))
    (hnth : nth = if j ≠ 0 ∧ (if j ≠ 0 then j / cpt else 0) * cpt < j
      then (if j ≠ 0 then j / cpt else 0) + 1 else (if j ≠ 0 then j / cpt else 0))
    (hcpf : cpf = if j ≠ 0 then j - cpt * (nth - 1) else 0) :
    cpt = (pmmSplit j nt).1 ∧ nth = (pmmSplit j nt).2.1 ∧ cpf = (pmmSplit j nt).2.2 := by
  simp only [hj, ne_eq, not_false_eq_true, true_and, if_true] at hcpt hnth hcpf
  subst hcpt hnth hcpf
  unfold pmmSplit
  exact ⟨rfl, rfl, rfl⟩

/-- Cells of the buffer `x` after one pass of the loop of `mgcv_piqr` that starts with
`s < n` reflectors and the pivot column `k`, `s ≤ k < p`: the columns `s` and `k` are
exchanged, column `s` holds the result of `dlarfg`, and the columns after it have the
reflector applied to their rows from `s` on. -/
theorem piqrStep_cells [LinearOrderedField α]
    (dlarfg : Nat → α → (Nat → α) → α × (Nat → α) × α) (n p nt s : Nat) (S : PiqrState α)
    (hnt : 1 ≤ nt) (hr : (S.r + 1).toNat = s) (hnh : S.nh = n - s) (hs : s < n)
    (x1 : Nat → α) (hx1 : x1 = forLoop n (fun t x => swapCells x (n * s + t) (n * S.k + t)) S.x)
    (g : α × (Nat → α) × α)
    (hg : g = dlarfg (n - s) (x1 (s * n + s)) (fun t => x1 (s * n + s + 1 + t))) :
    (piqrStep dlarfg n p nt S).beta = store S.beta s g.2.2 ∧
    (∀ c i, i < n → c ≠ s → (c < s ∨ i < s ∨ p ≤ c) →
      (piqrStep dlarfg n p nt S).x (i + n * c) = x1 (i + n * c)) ∧
    (∀ i, i < s → (piqrStep dlarfg n p nt S).x (i + n * s) = x1 (i + n * s)) ∧
    (piqrStep dlarfg n p nt S).x (s + n * s) = g.1 ∧
    (∀ i, s < i → i < n → (piqrStep dlarfg n p nt S).x (i + n * s) = g.2.1 (i - s - 1)) ∧
    (∀ c i, s < c → c < p → s ≤ i → i < n →
      (piqrStep dlarfg n p nt S).x (i + n * c)
        = x1 (i + n * c)
          - (∑ t in Finset.range (n - s),
              x1 (s + t + n * c) * (if t = 0 then 1 else g.2.1 (t - 1)) * g.2.2)
            * (if i = s then 1 else g.2.1 (i - s - 1))) := by
  obtain ⟨j, hj⟩ : ∃ j, j = p - s - 1 := ⟨_, rfl⟩
  obtain ⟨cpt, hcpt⟩ : ∃ cpt, cpt = if j ≠ 0 ∧ (if j ≠ 0 then j / nt else 0) * nt < j
      then (if j ≠ 0 then j / nt else 0) + 1 else (if j ≠ 0 then j / nt else 0) := ⟨_, rfl⟩
  obtain ⟨nth, hnth⟩ : ∃ nth, nth = if j ≠ 0 ∧ (if j ≠ 0 then j / cpt else 0) * cpt < j
      then (if j ≠ 0 then j / cpt else 0) + 1 else (if j ≠ 0 then j / cpt else 0) := ⟨_, rfl⟩
  obtain ⟨cpf, hcpf⟩ : ∃ cpf, cpf = if j ≠ 0 then j - cpt * (nth - 1) else 0 := ⟨_, rfl⟩
  obtain ⟨e1, e2, -, -, -, -, -⟩ := piqrStep_unfold dlarfg n p nt S s hr.symm x1
    (by rw [hx1]) g (by rw [hg, hnh]) _ rfl j hj cpt hcpt nth hnth cpf hcpf _ rfl
  rw [e1, e2]
  refine ⟨rfl, ?_⟩
  rw [hnh]
  have f0 : s * n = n * s := Nat.mul_comm _ _
  -- the buffer after the reflector vector is stored
  obtain ⟨v1, v2⟩ := storeLoop_spec (n - s - 1) (fun t => s * n + s + 1 + t)
    (fun t _ => g.2.1 t) x1 (fun i j _ _ h => by simpa using h)
  generalize hx2 : forLoop (n - s - 1) (fun t x => store x (s * n + s + 1 + t) (g.2.1 t)) x1
    = x2
  have v1 : ∀ t, t < n - s - 1 → x2 (s * n + s + 1 + t) = g.2.1 t := by
    rw [← hx2]; exact v1
  have v2 : ∀ q, (∀ t, t < n - s - 1 → q ≠ s * n + s + 1 + t) → x2 q = x1 q := by
    rw [← hx2]; exact v2
  -- the reflector vector with its leading 1
  have w3 : ∀ t, t < n - s →
      store x2 (s * n + s) 1 (s * n + s + t) = if t = 0 then 1 else g.2.1 (t - 1) := by
    intro t ht
    by_cases e : t = 0
    · rw [if_pos e, e, Nat.add_zero, store_same]
    · rw [if_neg e, store_ne _ _ _ _ (by omega)]
      have := v1 (t - 1) (by omega)
      rw [show s * n + s + 1 + (t - 1) = s * n + s + t by omega] at this
      exact this
  have o3 : ∀ c i, i < n → c ≠ s → store x2 (s * n + s) 1 (i + n * c) = x1 (i + n * c) := by
    intro c i hi hc
    have fc : c * n = n * c := Nat.mul_comm _ _
    have g1 := cell_ne n i c s s hi hs (Or.inr hc)
    rw [store_ne _ _ _ _ (by omega)]
    refine v2 _ (fun t ht => ?_)
    have g2 := cell_ne n i c (s + 1 + t) s hi (by omega) (Or.inr hc)
    omega
  generalize hx3 : store x2 (s * n + s) 1 = x3 at w3 o3
  -- the reflector applied to the columns after `s`
  have hx4 : ∃ x4, piqrReflect n (n - s) cpt nth cpf (s * n + s) g.2.2 x3 = x4 ∧
      (∀ u t, u < p - s - 1 → t < n - s →
        x4 (s * n + s + n + n * u + t)
          = x3 (s * n + s + n + n * u + t)
            - (∑ t' in Finset.range (n - s),
                x3 (s * n + s + n + n * u + t') * x3 (s * n + s + t') * g.2.2)
              * x3 (s * n + s + t)) ∧
      (∀ q, (∀ u t, u < p - s - 1 → t < n - s → q ≠ s * n + s + n + n * u + t) →
        x4 q = x3 q) := by
    rw [← hj]
    by_cases hj0 : j = 0
    · refine ⟨_, rfl, fun u t hu => by omega, fun q _ => ?_⟩
      have hc0 : cpt = 0 := by rw [hcpt]; simp [hj0]
      unfold piqrReflect
      rw [if_neg (by simp [hc0])]
    · obtain ⟨c1, c2, c3⟩ := piqrSplit_eq j nt hj0 cpt nth cpf hcpt hnth hcpf
      rw [c1, c2, c3, piqrReflect_eq n (n - s) nt j (s * n + s) g.2.2 x3
        (by omega) hnt]
      obtain ⟨r1, r2⟩ := reflectCols_spec n (n - s) (s * n + s) g.2.2 (by omega) _
        (fun _ _ => rfl) x3 j
      exact ⟨_, rfl, r1, r2⟩
  obtain ⟨x4, hx4, r1, r2⟩ := hx4
  rw [hx4]
  clear hx4
  refine ⟨?_, ?_, ?_, ?_, ?_⟩
  · intro c i hi hc hcases
    have fc : c * n = n * c := Nat.mul_comm _ _
    have g1 := cell_ne n i c s s hi hs (Or.inr hc)
    rw [store_ne _ _ _ _ (by omega), r2 _ ?_, o3 c i hi hc]
    intro u t hu ht
    have fu : (s + 1 + u) * n = s * n + n + n * u := by ring
    have g2 := cell_ne n i c (s + t) (s + 1 + u) hi (by omega)
      (by rcases hcases with h | h | h
          · exact Or.inr (by omega)
          · exact Or.inl (by omega)
          · exact Or.inr (by omega))
    omega
  · intro i hi
    rw [store_ne _ _ _ _ (by omega), r2 _ ?_, ← hx3, store_ne _ _ _ _ (by omega)]
    · exact v2 _ (fun t ht => by omega)
    · intro u t hu ht
      have fu : (s + 1 + u) * n = s * n + n + n * u := by ring
      have g2 := cell_ne n i s (s + t) (s + 1 + u) (by omega) (by omega) (Or.inl (by omega))
      omega
  · rw [show s + n * s = s * n + s by omega, store_same]
  · intro i hi1 hi2
    rw [store_ne _ _ _ _ (by omega), r2 _ ?_]
    · have := w3 (i - s) (by omega)
      rw [show s * n + s + (i - s) = i + n * s by omega, if_neg (by omega)] at this
      rw [this, show i - s - 1 = i - s - 1 from rfl]
    · intro u t hu ht
      have fu : (s + 1 + u) * n = s * n + n + n * u := by ring
      have g2 := cell_ne n i s (s + t) (s + 1 + u) (by omega) (by omega) (Or.inr (by omega))
      omega
  · intro c i hc1 hc2 hi1 hi2
    obtain ⟨u, rfl⟩ : ∃ u, c = s + 1 + u := ⟨c - s - 1, by omega⟩
    obtain ⟨t, rfl⟩ : ∃ t, i = s + t := ⟨i - s, by omega⟩
    have fu : ∀ t', s + t' + n * (s + 1 + u) = s * n + s + n + n * u + t' := by
      intro t'; ring
    have hp0 : s + t + n * (s + 1 + u) ≠ s * n + s := by
      rw [fu]; omega
    rw [store_ne _ _ _ _ hp0, fu, r1 u t (by omega) (by omega), w3 t (by omega),
      ← fu, o3 _ _ hi2 (by omega)]
    congr 1
    congr 1
    · refine Finset.sum_congr rfl (fun t' ht' => ?_)
      have ht' := Finset.mem_range.mp ht'
      rw [← fu, o3 _ _ (by omega) (by omega), w3 t' ht']
    · by_cases e : t = 0
      · rw [if_pos e, if_pos (by omega)]
      · rw [if_neg e, if_neg (by omega), show s + t - s - 1 = t - 1 by omega]

/-- The new `piv`, `nh` and `r` of one pass of the loop of `mgcv_piqr`, and the pivot
index of the next pass. -/
theorem piqrStep_ctl [LinearOrderedField α]
    (dlarfg : Nat → α → (Nat → α) → α × (Nat → α) × α) (n p nt : Nat) (S : PiqrState α)
    (r : Nat) (hr : r = (S.r + 1).toNat) :
    (piqrStep dlarfg n p nt S).piv = swapCells S.piv r S.k ∧
    (piqrStep dlarfg n p nt S).nh = S.nh - 1 ∧
    (piqrStep dlarfg n p nt S).r = (r : Int) ∧
    (0 < (piqrStep dlarfg n p nt S).tau →
      (r : Int) ≠ (n : Int) - 1 ∧ r + 1 ≤ (piqrStep dlarfg n p nt S).k ∧
      (piqrStep dlarfg n p nt S).k < p) := by
  obtain ⟨-, -, u3, u4, u5, u6, u7⟩ := piqrStep_unfold dlarfg n p nt S r hr _ rfl _ rfl
    _ rfl _ rfl _ rfl _ rfl _ rfl _ rfl
  refine ⟨u3, u4, u5, fun ht => ?_⟩
  rw [u7] at ht
  rw [u6]
  by_cases e : (r : Int) = (n : Int) - 1
  · rw [if_pos e] at ht
    exact absurd ht (lt_irrefl _)
  · rw [if_neg e] at ht
    exact ⟨e, (piqrDowndate_index _ _ n p r (r * n + r)).1,
      (piqrDowndate_index _ _ n p r (r * n + r)).2 ht⟩

/-- One pass of the loop of `mgcv_piqr` keeps the relation between the input and the
state, for a `dlarfg` that returns a reflector which clears the entries after the first. -/
theorem piqrStep_inv [LinearOrderedField α]
    (dlarfg : Nat → α → (Nat → α) → α × (Nat → α) × α) (hd : DlarfgSpec dlarfg)
    (X : Nat → α) (n p nt s : Nat) (hnt : 1 ≤ nt) (S : PiqrState α)
    (h : PiqrInv X n p s S) (ht : 0 < S.tau) :
    PiqrInv X n p (s + 1) (piqrStep dlarfg n p nt S) := by
  obtain ⟨hs, hk1, hk2⟩ := h.ctl ht
  have hr : (S.r + 1).toNat = s := by rw [h.r]; omega
  obtain ⟨u3, u4, u5, u6⟩ := piqrStep_ctl dlarfg n p nt S s hr.symm
  obtain ⟨x1, hx1⟩ : ∃ x1, x1 = forLoop n (fun t x => swapCells x (n * s + t) (n * S.k + t)) S.x :=
    ⟨_, rfl⟩
  obtain ⟨g, hg⟩ : ∃ g, g = dlarfg (n - s) (x1 (s * n + s)) (fun t => x1 (s * n + s + 1 + t)) :=
    ⟨_, rfl⟩
  obtain ⟨c1, c2, c3, c4, c5, c6⟩ := piqrStep_cells dlarfg n p nt s S hnt hr h.nh hs x1 hx1 g hg
  have hx1c : ∀ c i, i < n → x1 (i + n * c) = S.x (i + n * Equiv.swap s S.k c) := by
    intro c i hi
    rw [hx1]
    exact colSwap_spec S.x n s S.k i c hi
  have hsw : ∀ c, c < s → Equiv.swap s S.k c = c := fun c hc =>
    Equiv.swap_apply_of_ne_of_ne (by omega) (by omega)
  have hswlt : ∀ c, c < p → Equiv.swap s S.k c < p := by
    intro c hc
    by_cases e1 : c = s
    · rw [e1, Equiv.swap_apply_left]; exact hk2
    · by_cases e2 : c = S.k
      · rw [e2, Equiv.swap_apply_right]; omega
      · rw [Equiv.swap_apply_of_ne_of_ne e1 e2]; exact hc
  have hswge : ∀ c, s ≤ c → s ≤ Equiv.swap s S.k c := by
    intro c hc
    by_cases e1 : c = s
    · rw [e1, Equiv.swap_apply_left]; exact hk1
    · by_cases e2 : c = S.k
      · rw [e2, Equiv.swap_apply_right]
      · rw [Equiv.swap_apply_of_ne_of_ne e1 e2]; exact hc
  refine
    { r := by rw [u5]; omega
      nh := by rw [u4, h.nh]; omega
      perm := by rw [u3]; exact isPerm_swap p S.piv s S.k (by omega) hk2 h.perm
      qr := ?_
      ctl := ?_ }
  · -- the relation for the new state
    intro c i hc hi
    -- the first `s` reflectors are unchanged
    have hcongr : ∀ y : Nat → α, houseSeq (piqrStep dlarfg n p nt S).x
        (piqrStep dlarfg n p nt S).beta n s y = houseSeq S.x S.beta n s y := by
      intro y
      refine houseSeq_congr _ _ _ _ n s y (fun t ht => ?_) (fun t l ht htl hl => ?_)
      · rw [c1, store_ne _ _ _ _ (by omega)]
      · rw [c2 t l hl (by omega) (Or.inl ht), hx1c t l hl, hsw t ht]
    -- the column before the new reflector
    have hY : ∀ l, l < n → houseSeq S.x S.beta n s
        (fun l => X (l + n * (piqrStep dlarfg n p nt S).piv c)) l
          = if c < s ∧ c < l then 0 else x1 (l + n * c) := by
      intro l hl
      rw [u3]
      simp only [swapCells_eq_comp]
      rw [h.qr _ l (hswlt c hc) hl, hx1c c l hl]
      by_cases e : c < s
      · rw [hsw c e]
      · have := hswge c (by omega)
        rw [if_neg (fun hh : Equiv.swap s S.k c < s ∧ Equiv.swap s S.k c < l => by omega),
          if_neg (fun hh : c < s ∧ c < l => e hh.1)]
    show houseApply ((piqrStep dlarfg n p nt S).beta s) (hv (piqrStep dlarfg n p nt S).x n s)
      (houseSeq (piqrStep dlarfg n p nt S).x (piqrStep dlarfg n p nt S).beta n s
        (fun l => X (l + n * (piqrStep dlarfg n p nt S).piv c))) n i = _
    rw [hcongr]
    generalize houseSeq S.x S.beta n s
      (fun l => X (l + n * (piqrStep dlarfg n p nt S).piv c)) = Y at hY
    unfold houseApply
    rw [hv_dot _ n s hs Y, c1, store_same]
    have hvs : ∀ t, t < n - s - 1 →
        (piqrStep dlarfg n p nt S).x (s + 1 + t + n * s) = g.2.1 t := by
      intro t ht
      rw [c5 _ (by omega) (by omega), show s + 1 + t - s - 1 = t by omega]
    have hsum : ∑ t in Finset.range (n - s - 1),
        (piqrStep dlarfg n p nt S).x (s + 1 + t + n * s) * Y (s + 1 + t)
        = ∑ t in Finset.range (n - s - 1), g.2.1 t * Y (s + 1 + t) :=
      Finset.sum_congr rfl (fun t ht => by rw [hvs t (Finset.mem_range.mp ht)])
    rw [hsum]
    by_cases e1 : c < s
    · -- a finished column
      have hz : Y s + ∑ t in Finset.range (n - s - 1), g.2.1 t * Y (s + 1 + t) = 0 := by
        rw [hY s hs, if_pos ⟨e1, e1⟩, zero_add]
        refine Finset.sum_eq_zero (fun t ht => ?_)
        have ht := Finset.mem_range.mp ht
        rw [hY _ (by omega), if_pos ⟨e1, by omega⟩, mul_zero]
      rw [hz, mul_zero, zero_mul, sub_zero, hY i hi, c2 c i hi (by omega) (Or.inl e1)]
      by_cases e2 : c < i
      · rw [if_pos ⟨e1, e2⟩, if_pos ⟨by omega, e2⟩]
      · rw [if_neg (fun hh => e2 hh.2), if_neg (fun hh => e2 hh.2)]
    · have hYl : ∀ l, l < n → Y l = x1 (l + n * c) := fun l hl => by
        rw [hY l hl, if_neg (fun hh => e1 hh.1)]
      have hsum2 : ∑ t in Finset.range (n - s - 1), g.2.1 t * Y (s + 1 + t)
          = ∑ t in Finset.range (n - s - 1), g.2.1 t * x1 (s + 1 + t + n * c) :=
        Finset.sum_congr rfl (fun t ht => by
          rw [hYl _ (by have := Finset.mem_range.mp ht; omega)])
      rw [hsum2, hYl s hs, hYl i hi]
      by_cases e2 : c = s
      · -- the pivot column
        subst e2
        obtain ⟨d1, d2, -⟩ := hd (n - c) (x1 (c * n + c)) (fun t => x1 (c * n + c + 1 + t))
          (by omega)
        rw [← hg] at d1 d2
        have fc : ∀ t, c * n + c + 1 + t = c + 1 + t + n * c := by intro t; ring
        have fc0 : c * n + c = c + n * c := by ring
        simp only [fc] at d1 d2
        simp only [fc0] at d1 d2
        by_cases e3 : i < c
        · rw [hv_lt _ n c i e3, mul_zero, sub_zero, if_neg (by omega), c3 i e3]
        · by_cases e4 : i = c
          · rw [e4, hv_self, mul_one, if_neg (by omega), c4]
            exact d1
          · rw [hv_gt _ n c i (by omega) hi, c5 i (by omega) hi, if_pos ⟨by omega, by omega⟩]
            have := d2 (i - c - 1) (by omega)
            rw [show c + 1 + (i - c - 1) = i by omega] at this
            exact this
      · -- a column after the pivot column
        rw [if_neg (by omega)]
        by_cases e3 : i < s
        · rw [hv_lt _ n s i e3, mul_zero, sub_zero, c2 c i hi e2 (Or.inr (Or.inl e3))]
        · rw [c6 c i (by omega) hc (by omega) hi]
          have hvi : hv (piqrStep dlarfg n p nt S).x n s i
              = if i = s then 1 else g.2.1 (i - s - 1) := by
            by_cases e4 : i = s
            · rw [if_pos e4, e4, hv_self]
            · rw [if_neg e4, hv_gt _ n s i (by omega) hi, c5 i (by omega) hi]
          rw [hvi]
          congr 2
          have en : n - s = (n - s - 1) + 1 := by omega
          rw [en, Finset.sum_range_succ', if_pos rfl, Nat.add_zero, mul_one, mul_add,
            Finset.mul_sum, add_comm]
          congr 1
          · refine Finset.sum_congr rfl (fun t ht => ?_)
            rw [if_neg (by omega), Nat.add_sub_cancel, show s + (t + 1) = s + 1 + t by omega]
            ring
          · ring_nf
  · -- the pivot index of the next pass
    intro ht'
    obtain ⟨i1, i2, i3⟩ := u6 ht'
    exact ⟨by omega, i2, i3⟩

/-- The loop of `mgcv_piqr` ends after `k ≤ min(n, p)` passes, each of them started with
`tau > 0`. -/
theorem piqr_run [LinearOrderedField α]
    (dlarfg : Nat → α → (Nat → α) → α × (Nat → α) × α) (x : Nat → α)
    (n p : Nat) (beta : Nat → α) (piv : Nat → Nat) (nt1 fuel : Nat)
    (hfuel : min n p ≤ fuel) :
    ∃ k : Nat, k ≤ min n p ∧
      whileLoop (fun s : PiqrState α => decide (s.tau > 0)) (piqrStep dlarfg n p nt1) fuel
        (piqrInit x beta piv n p) = some ((piqrStep dlarfg n p nt1)^[k] (piqrInit x beta piv n p)) ∧
      (∀ s, s < k → 0 < ((piqrStep dlarfg n p nt1)^[s] (piqrInit x beta piv n p)).tau) := by
  have hnorm : ∀ i, 0 ≤ dotLoop n (fun t => x (i * n + t) * x (i * n + t)) := by
    intro i
    rw [dotLoop_eq_sum]
    exact Finset.sum_nonneg (fun t _ => mul_self_nonneg _)
  obtain ⟨-, i2, i3, i4⟩ := piqrInit_spec x beta piv n p
  have hit := piqrIter_r dlarfg x beta piv n p nt1
  have hstep : ∀ j, ((piqrStep dlarfg n p nt1)^[j + 1] (piqrInit x beta piv n p)).tau = 0 ↔
      (j + 1 = n ∨ ∀ i, j + 1 ≤ i → i < p →
        ((piqrStep dlarfg n p nt1)^[j + 1] (piqrInit x beta piv n p)).c i ≤ 0) := by
    intro j
    rw [Function.iterate_succ_apply']
    exact (piqrStep_tau dlarfg n p nt1 _ j (hit j).1).2.2
  have h0 : (∀ i, i < p → dotLoop n (fun t => x (i * n + t) * x (i * n + t)) = 0) →
      ((piqrStep dlarfg n p nt1)^[0] (piqrInit x beta piv n p)).tau = 0 := by
    rw [Function.iterate_zero_apply]
    intro h
    rcases i4 with i4 | ⟨i, hi, i4⟩
    · exact i4
    · rw [← i4, h i hi]
  have hex : ∃ k, ((piqrStep dlarfg n p nt1)^[k] (piqrInit x beta piv n p)).tau = 0 ∧
      k ≤ min n p := by
    by_cases hz : min n p = 0
    · refine ⟨0, h0 (fun i hi => ?_), by omega⟩
      have hn : n = 0 := by
        rcases Nat.min_eq_zero_iff.mp hz with h | h
        · exact h
        · omega
      rw [hn]
      rfl
    · refine ⟨(min n p - 1) + 1, (hstep _).mpr ?_, by omega⟩
      by_cases hnp : n ≤ p
      · exact Or.inl (by rw [Nat.min_eq_left hnp]; rw [Nat.min_eq_left hnp] at hz; omega)
      · refine Or.inr (fun i hi1 hi2 => ?_)
        rw [Nat.min_eq_right (by omega)] at hi1
        omega
  classical
  have hex' : ∃ k, ((piqrStep dlarfg n p nt1)^[k] (piqrInit x beta piv n p)).tau = 0 := by
    obtain ⟨k, hk, -⟩ := hex
    exact ⟨k, hk⟩
  have hk0 := Nat.find_spec hex'
  have hkmin : ∀ s, s < Nat.find hex' →
      0 < ((piqrStep dlarfg n p nt1)^[s] (piqrInit x beta piv n p)).tau := by
    intro s hs
    exact lt_of_le_of_ne (hit s).2 (Ne.symm (Nat.find_min hex' hs))
  have hkle : Nat.find hex' ≤ min n p := by
    obtain ⟨k, hk, hk2⟩ := hex
    exact le_trans (Nat.find_min' hex' hk) hk2
  generalize Nat.find hex' = k at hk0 hkmin hkle
  refine ⟨k, hkle, ?_, hkmin⟩
  exact whileLoop_eq (fun s : PiqrState α => decide (s.tau > 0))
      (piqrStep dlarfg n p nt1) k fuel (piqrInit x beta piv n p) (le_trans hkle hfuel)
      (fun j hj => decide_eq_true (hkmin j hj))
      (decide_eq_false (by
        show ¬ (((piqrStep dlarfg n p nt1)^[k] (piqrInit x beta piv n p)).tau > 0)
        rw [hk0]
        exact lt_irrefl 0))

/-- The relation between the input and the state of `mgcv_piqr` holds after every pass
that follows passes started with `tau > 0`. -/
theorem piqrIter_inv [LinearOrderedField α]
    (dlarfg : Nat → α → (Nat → α) → α × (Nat → α) × α) (hd : DlarfgSpec dlarfg)
    (x : Nat → α) (n p : Nat) (beta : Nat → α) (piv : Nat → Nat) (nt : Nat) (hnt : 1 ≤ nt)
    (j : Nat)
    (hpos : ∀ s, s < j → 0 < ((piqrStep dlarfg n p nt)^[s] (piqrInit x beta piv n p)).tau) :
    PiqrInv x n p j ((piqrStep dlarfg n p nt)^[j] (piqrInit x beta piv n p)) := by
  induction j with
  | zero =>
    obtain ⟨i1, -, -, i4⟩ := piqrInit_spec x beta piv n p
    obtain ⟨f1, f2, f3, f4, f5⟩ := piqrInit_fields x beta piv n p
    rw [Function.iterate_zero_apply]
    refine
      { r := by rw [i1]; rfl
        nh := by rw [f3]; rfl
        perm := isPerm_id p _ f4
        qr := fun c i hc hi => ?_
        ctl := fun ht => ⟨?_, Nat.zero_le _, f5 ht⟩ }
    · rw [f1, f4 c hc, if_neg (fun hh => absurd hh.1 (Nat.not_lt_zero c))]
      rfl
    · by_contra hn
      have hn0 : n = 0 := by omega
      rcases i4 with i4 | ⟨i, -, i4⟩
      · rw [i4] at ht; exact lt_irrefl _ ht
      · rw [← i4, hn0] at ht
        exact lt_irrefl _ ht
  | succ j ih =>
    rw [Function.iterate_succ_apply']
    exact piqrStep_inv dlarfg hd x n p nt j hnt _ (ih (fun s hs => hpos s (by omega)))
      (hpos j (by omega))

/-- The result of `mgcv_piqr` with `k` reflectors: `piv` is a permutation and the product of
the reflectors takes the pivoted input to the upper trapezoidal part of the first `k`
columns and to the remaining columns of the buffer. -/
theorem piqr_factor [LinearOrderedField α]
    (dlarfg : Nat → α → (Nat → α) → α × (Nat → α) × α) (hd : DlarfgSpec dlarfg)
    (openmp : Bool) (x : Nat → α) (n p : Nat) (beta : Nat → α) (piv : Nat → Nat)
    (nt fuel : Nat) (hnt : 1 ≤ nt) (hfuel : min n p ≤ fuel) :
    ∃ (k : Nat) (A tau : Nat → α) (piv1 : Nat → Nat),
      mgcv_piqr dlarfg openmp x n p beta piv nt fuel = some (A, tau, piv1, (k : Int)) ∧
      k ≤ min n p ∧ IsPerm p piv1 ∧ QRInv x n p k A tau piv1 := by
  unfold mgcv_piqr
  simp only
  have hnt1 : 1 ≤ (if openmp = true then nt else 1) := by
    split_ifs
    · exact hnt
    · exact le_rfl
  generalize (if openmp = true then nt else 1) = nt1 at hnt1
  obtain ⟨k, hk, hw, hpos⟩ := piqr_run dlarfg x n p beta piv nt1 fuel hfuel
  have hinv := piqrIter_inv dlarfg hd x n p beta piv nt1 hnt1 k hpos
  rw [hw]
  refine ⟨k, _, _, _, ?_, hk, hinv.perm, hinv.qr⟩
  simp only [Option.map_some', hinv.r]
  congr 4
  ring

/-- The split of `q` rows from `start` between at most `nt ≥ 1` threads in `bpqr`: the
blocks are the intervals between non-decreasing cut points `a 0 = start, ..., a nth =
start + q`. -/
theorem bpqrSplit_cuts (q nt start : Nat) (mb kb : Nat → Nat) (hnt : 1 ≤ nt) :
    ∃ a : Nat → Nat, a 0 = start ∧ a (bpqrSplit q nt start mb kb).1 = start + q ∧
      (∀ b, b < (bpqrSplit q nt start mb kb).1 → a b ≤ a (b + 1)) ∧
      (∀ b, b < (bpqrSplit q nt start mb kb).1 →
        (bpqrSplit q nt start mb kb).2.2 b = a b ∧
        (bpqrSplit q nt start mb kb).2.1 b + a b = a (b + 1)) := by
  unfold bpqrSplit
  simp only
  generalize (if q / nt * nt < q then q / nt + 1 else q / nt) = rt
  have hn : ∀ t, t ≤ nt →
      1 ≤ forLoop t (fun _ nth => if nth > 1 ∧ (nth - 1) * rt > q then nth - 1 else nth) nt ∧
      (forLoop t (fun _ nth => if nth > 1 ∧ (nth - 1) * rt > q then nth - 1 else nth) nt + t
          ≤ nt ∨
        (forLoop t (fun _ nth => if nth > 1 ∧ (nth - 1) * rt > q then nth - 1 else nth) nt - 1)
          * rt ≤ q) := by
    intro t
    induction t with
    | zero => exact fun _ => ⟨hnt, Or.inl (by rw [forLoop_zero]; omega)⟩
    | succ t ih =>
      intro ht
      obtain ⟨h1, h2⟩ := ih (by omega)
      rw [forLoop_succ]
      generalize forLoop t _ nt = nth at h1 h2 ⊢
      by_cases c : nth > 1 ∧ (nth - 1) * rt > q
      · rw [if_pos c]
        refine ⟨by omega, ?_⟩
        rcases h2 with h2 | h2
        · exact Or.inl (by omega)
        · omega
      · rw [if_neg c]
        refine ⟨h1, Or.inr ?_⟩
        rcases h2 with h2 | h2
        · by_cases e : nth > 1
          · exact not_lt.mp (fun hh => c ⟨e, hh⟩)
          · have : nth - 1 = 0 := by omega
            rw [this, Nat.zero_mul]; exact Nat.zero_le _
        · exact h2
  obtain ⟨n1, n2⟩ := hn nt le_rfl
  generalize forLoop nt (fun _ nth => if nth > 1 ∧ (nth - 1) * rt > q then nth - 1 else nth) nt
    = nth at n1 n2 ⊢
  have n3 : (nth - 1) * rt ≤ q := by
    rcases n2 with n2 | n2
    · omega
    · exact n2
  have hs : ∀ m,
      (∀ i, i ≤ m → (forLoop m (fun i (s : (Nat → Nat) × (Nat → Nat)) =>
        (store s.1 i rt, store s.2 (i + 1) (s.2 i + rt))) (mb, store kb 0 start)).2 i
          = start + i * rt) ∧
      (∀ i, i < m → (forLoop m (fun i (s : (Nat → Nat) × (Nat → Nat)) =>
        (store s.1 i rt, store s.2 (i + 1) (s.2 i + rt))) (mb, store kb 0 start)).1 i = rt) := by
    intro m
    induction m with
    | zero =>
      refine ⟨fun i hi => ?_, fun i hi => by omega⟩
      have : i = 0 := by omega
      rw [this, forLoop_zero]
      show store kb 0 start 0 = _
      rw [store_same]; omega
    | succ m ih =>
      obtain ⟨h1, h2⟩ := ih
      rw [forLoop_succ]
      generalize forLoop m _ (mb, store kb 0 start) = S at h1 h2 ⊢
      constructor
      · intro i hi
        by_cases e : i = m + 1
        · show store S.2 (m + 1) (S.2 m + rt) i = _
          rw [e, store_same, h1 m le_rfl, Nat.succ_mul]; omega
        · show store S.2 (m + 1) (S.2 m + rt) i = _
          rw [store_ne _ _ _ _ e]; exact h1 i (by omega)
      · intro i hi
        show store S.1 m rt i = rt
        by_cases e : i = m
        · rw [e, store_same]
        · rw [store_ne _ _ _ _ e]; exact h2 i (by omega)
  obtain ⟨s1, s2⟩ := hs (nth - 1)
  generalize forLoop (nth - 1) _ (mb, store kb 0 start) = S at s1 s2 ⊢
  have hmul : ∀ b, b < nth → b * rt ≤ (nth - 1) * rt := fun b hb =>
    Nat.mul_le_mul_right rt (by omega)
  refine ⟨fun b => if b < nth then start + b * rt else start + q, ?_, ?_, ?_, ?_⟩
  · simp only
    rw [if_pos (by omega), Nat.zero_mul]; rfl
  · simp only
    rw [if_neg (Nat.lt_irrefl _)]
  · intro b hb
    simp only
    rw [if_pos hb]
    by_cases e : b + 1 < nth
    · rw [if_pos e, Nat.succ_mul]; omega
    · rw [if_neg e]
      have := hmul b hb
      omega
  · intro b hb
    simp only
    rw [if_pos hb]
    refine ⟨s1 b (by omega), ?_⟩
    by_cases e : b + 1 < nth
    · rw [if_pos e, store_ne _ _ _ _ (by omega), s2 b (by omega), Nat.succ_mul]; omega
    · rw [if_neg e]
      have e' : b = nth - 1 := by omega
      rw [e', store_same]
      omega

/-- A loop over blocks of rows, where block `b` writes the cells `pos u w` of its rows
`a b ≤ u < a (b+1)` and `w < W`, and the value written to a cell depends only on cells that
no other row writes: the loop writes the cells of all rows `a 0 ≤ u < a nth`. -/
theorem chunkLoop_spec {β : Type} (nth : Nat) (a : Nat → Nat)
    (hmono : ∀ b, b < nth → a b ≤ a (b + 1)) (W : Nat)
    (G : Nat → (Nat → β) → (Nat → β)) (pos : Nat → Nat → Nat)
    (val : Nat → Nat → (Nat → β) → β)
    (hinj : ∀ u w u' w', a 0 ≤ u → u < a nth → w < W → a 0 ≤ u' → u' < a nth → w' < W →
      pos u w = pos u' w' → u = u')
    (hG : ∀ b, b < nth → ∀ Y,
      (∀ u w, a b ≤ u → u < a (b + 1) → w < W → G b Y (pos u w) = val u w Y) ∧
      (∀ z, (∀ u w, a b ≤ u → u < a (b + 1) → w < W → z ≠ pos u w) → G b Y z = Y z))
    (hval : ∀ u w Y Y', a 0 ≤ u → u < a nth → w < W →
      (∀ z, (∀ u' w', a 0 ≤ u' → u' < a nth → w' < W → u' ≠ u → z ≠ pos u' w') → Y z = Y' z) →
      val u w Y = val u w Y')
    (Y0 : Nat → β) :
    (∀ u w, a 0 ≤ u → u < a nth → w < W → forLoop nth G Y0 (pos u w) = val u w Y0) ∧
    (∀ z, (∀ u w, a 0 ≤ u → u < a nth → w < W → z ≠ pos u w) → forLoop nth G Y0 z = Y0 z) := by
  have hge : ∀ b, b ≤ nth → a 0 ≤ a b := by
    intro b
    induction b with
    | zero => exact fun _ => le_rfl
    | succ b ihb => exact fun hb => le_trans (ihb (by omega)) (hmono b (by omega))
  have hle : ∀ d b, b + d ≤ nth → a b ≤ a (b + d) := by
    intro d
    induction d with
    | zero => exact fun b _ => le_rfl
    | succ d ihd =>
      exact fun b hb => le_trans (ihd b (by omega)) (hmono (b + d) (by omega))
  have hle' : ∀ b, b ≤ nth → a b ≤ a nth := by
    intro b hb
    have := hle (nth - b) b (by omega)
    rwa [show b + (nth - b) = nth by omega] at this
  have key : ∀ m, m ≤ nth →
      (∀ u w, a 0 ≤ u → u < a m → w < W → forLoop m G Y0 (pos u w) = val u w Y0) ∧
      (∀ z, (∀ u w, a 0 ≤ u → u < a m → w < W → z ≠ pos u w) → forLoop m G Y0 z = Y0 z) := by
    intro m
    induction m with
    | zero => exact fun _ => ⟨fun u w h1 h2 => by omega, fun z _ => rfl⟩
    | succ m ih =>
      intro hm
      obtain ⟨h1, h2⟩ := ih (by omega)
      rw [forLoop_succ]
      generalize forLoop m G Y0 = Y at h1 h2 ⊢
      obtain ⟨g1, g2⟩ := hG m (by omega) Y
      have am := hmono m (by omega)
      have a0m := hge m (by omega)
      have amn := hle' (m + 1) hm
      constructor
      · intro u w hu1 hu2 hw
        by_cases e : a m ≤ u
        · rw [g1 u w e hu2 hw]
          refine hval u w Y Y0 hu1 (by omega) hw (fun z hz => ?_)
          exact h2 z (fun u' w' hu1' hu2' hw' =>
            hz u' w' hu1' (by omega) hw' (by omega))
        · rw [g2 _ (fun u' w' hu1' hu2' hw' hh => by
            have := hinj u w u' w' hu1 (by omega) hw (by omega) (by omega) hw' hh
            omega)]
          exact h1 u w hu1 (by omega) hw
      · intro z hz
        rw [g2 z (fun u w hu1 hu2 hw => hz u w (by omega) hu2 hw)]
        exact h2 z (fun u w hu1 hu2 hw => hz u w hu1 (by omega) hw)
  exact key nth le_rfl

theorem dgemv_n_spec [Semiring α] (M N : Nat) (alpha : α) (A : Nat → α) (aoff lda : Nat)
    (X : Nat → α) (xoff incx : Nat) (beta : α) (Y : Nat → α) (yoff incy : Nat)
    (hinc : 1 ≤ incy) :
    (∀ i, i < M →
      dgemv_n M N alpha A aoff lda X xoff incx beta Y yoff incy (yoff + i * incy)
        = alpha * (∑ l in Finset.range N, A (aoff + (i + lda * l)) * X (xoff + l * incx))
          + beta * Y (yoff + i * incy)) ∧
    (∀ z, (∀ i, i < M → z ≠ yoff + i * incy) →
      dgemv_n M N alpha A aoff lda X xoff incx beta Y yoff incy z = Y z) := by
  unfold dgemv_n
  exact storeLoop_spec M (fun i => yoff + i * incy)
    (fun i _ => alpha * (∑ l in Finset.range N, A (aoff + (i + lda * l)) * X (xoff + l * incx))
          + beta * Y (yoff + i * incy)) Y
    (fun i j _ _ h => by
      have h : yoff + i * incy = yoff + j * incy := h
      exact Nat.eq_of_mul_eq_mul_right (by omega) (by omega : i * incy = j * incy))

theorem dgemv_t_spec [Semiring α] (M N : Nat) (alpha : α) (A : Nat → α) (aoff lda : Nat)
    (X : Nat → α) (xoff incx : Nat) (beta : α) (Y : Nat → α) (yoff incy : Nat)
    (hinc : 1 ≤ incy) :
    (∀ j, j < N →
      dgemv_t M N alpha A aoff lda X xoff incx beta Y yoff incy (yoff + j * incy)
        = alpha * (∑ l in Finset.range M, A (aoff + (l + lda * j)) * X (xoff + l * incx))
          + beta * Y (yoff + j * incy)) ∧
    (∀ z, (∀ j, j < N → z ≠ yoff + j * incy) →
      dgemv_t M N alpha A aoff lda X xoff incx beta Y yoff incy z = Y z) := by
  unfold dgemv_t
  exact storeLoop_spec N (fun j => yoff + j * incy)
    (fun j _ => alpha * (∑ l in Finset.range M, A (aoff + (l + lda * j)) * X (xoff + l * incx))
          + beta * Y (yoff + j * incy)) Y
    (fun i j _ _ h => by
      have h : yoff + i * incy = yoff + j * incy := h
      exact Nat.eq_of_mul_eq_mul_right (by omega) (by omega : i * incy = j * incy))

/-- The call `dgemm` changes the `M` by `N` cells of `C` only. -/
theorem dgemm_frame [Semiring α] (transa transb : Bool) (M N K : Nat) (alpha : α)
    (A : Nat → α) (aoff lda : Nat) (B : Nat → α) (boff ldb : Nat) (beta : α)
    (C : Nat → α) (coff ldc : Nat) (z : Nat)
    (hz : ∀ i j, i < M → j < N → z ≠ coff + (i + ldc * j)) :
    dgemm transa transb M N K alpha A aoff lda B boff ldb beta C coff ldc z = C z := by
  unfold dgemm
  induction N with
  | zero => rfl
  | succ j ih =>
    rw [forLoop_succ]
    have h2 := ih (fun i j' hi hj' => hz i j' hi (by omega))
    generalize forLoop j _ C = Cj at h2 ⊢
    obtain ⟨-, g2⟩ := storeLoop_spec M (fun i => coff + (i + ldc * j))
      (fun i old => alpha * (∑ l in Finset.range K,
            (if transa then A (aoff + (l + lda * i)) else A (aoff + (i + lda * l))) *
            (if transb then B (boff + (j + ldb * l)) else B (boff + (l + ldb * j))))
          + beta * old) Cj (fun a b _ _ h => by simp only at h; omega)
    rw [g2 z (fun i hi => hz i j hi (by omega))]
    exact h2

/-- Update of the pivot column `k = jb + j` in `bpqr`: the rows `i ≥ k` of column `k` have
the product of the rows of the reflector vectors of the block and row `j` of `F` taken
off. -/
theorem bpqrColUpdate_cells [LinearOrderedField α] (n nt j : Nat) (s : BpqrState α)
    (hnt : 1 ≤ nt) (hk : s.jb + j < n) :
    (bpqrColUpdate n nt (n - (s.jb + j)) j s).F = s.F ∧
    (bpqrColUpdate n nt (n - (s.jb + j)) j s).tau = s.tau ∧
    (bpqrColUpdate n nt (n - (s.jb + j)) j s).cn = s.cn ∧
    (bpqrColUpdate n nt (n - (s.jb + j)) j s).icn = s.icn ∧
    (bpqrColUpdate n nt (n - (s.jb + j)) j s).work = s.work ∧
    (∀ i, s.jb + j ≤ i → i < n →
      (bpqrColUpdate n nt (n - (s.jb + j)) j s).A (i + n * (s.jb + j))
        = s.A (i + n * (s.jb + j))
          - ∑ l in Finset.range j, s.A (i + n * (s.jb + l)) * s.F (j + s.pb * l)) ∧
    (∀ z, (∀ i, s.jb + j ≤ i → i < n → z ≠ i + n * (s.jb + j)) →
      (bpqrColUpdate n nt (n - (s.jb + j)) j s).A z = s.A z) := by
  unfold bpqrColUpdate
  by_cases hj : j ≠ 0
  · rw [if_pos hj]
    refine ⟨rfl, rfl, rfl, rfl, rfl, ?_⟩
    simp only
    obtain ⟨a, a0, an, amono, akb⟩ := bpqrSplit_cuts (n - (s.jb + j)) nt (s.jb + j) s.mb s.kb hnt
    generalize bpqrSplit (n - (s.jb + j)) nt (s.jb + j) s.mb s.kb = sp at an amono akb ⊢
    obtain ⟨c1, c2⟩ := chunkLoop_spec sp.1 a amono 1
      (fun i A => dgemv_n (sp.2.1 i) j (-1) A (s.jb * n + sp.2.2 i) n s.F j s.pb 1 A
          (n * (s.jb + j) + sp.2.2 i) 1)
      (fun u _ => n * (s.jb + j) + u)
      (fun u _ Y => -1 * (∑ l in Finset.range j, Y (s.jb * n + (u + n * l)) * s.F (j + l * s.pb))
        + 1 * Y (n * (s.jb + j) + u))
      (fun u w u' w' _ _ _ _ _ _ h => by
        have h : n * (s.jb + j) + u = n * (s.jb + j) + u' := h
        omega)
      (fun b hb Y => by
        obtain ⟨k1, k2⟩ := akb b hb
        obtain ⟨d1, d2⟩ := dgemv_n_spec (sp.2.1 b) j (-1) Y (s.jb * n + sp.2.2 b) n s.F j s.pb
          1 Y (n * (s.jb + j) + sp.2.2 b) 1 le_rfl
        constructor
        · intro u w hu1 hu2 hw
          have := d1 (u - a b) (by omega)
          rw [k1] at this
          rw [show n * (s.jb + j) + a b + (u - a b) * 1 = n * (s.jb + j) + u by omega] at this
          simp only at this ⊢
          rw [k1, this]
          congr 2
          refine Finset.sum_congr rfl (fun l _ => ?_)
          congr 2
          omega
        · intro z hz
          refine d2 z (fun i hi => ?_)
          have : z ≠ n * (s.jb + j) + (a b + i) :=
            hz (a b + i) 0 (by omega) (by omega) (by omega)
          rw [k1]
          omega)
      (fun u w Y Y' hu1 hu2 hw hY => by
        simp only
        rw [hY (n * (s.jb + j) + u) (fun u' w' _ _ _ hne => by
          show n * (s.jb + j) + u ≠ n * (s.jb + j) + u'
          omega)]
        congr 2
        refine Finset.sum_congr rfl (fun l hl => ?_)
        have hl := Finset.mem_range.mp hl
        rw [hY _ (fun u' w' hu1' hu2' _ _ => by
          show s.jb * n + (u + n * l) ≠ n * (s.jb + j) + u'
          have g := cell_ne n u (s.jb + l) u' (s.jb + j) (by omega) (by omega)
            (Or.inr (by omega))
          have f1 : (s.jb + l) * n = s.jb * n + n * l := by ring
          have f2 : (s.jb + j) * n = n * (s.jb + j) := Nat.mul_comm _ _
          omega)])
      s.A
    constructor
    · intro i hi1 hi2
      have := c1 i 0 (by omega) (by omega) (by omega)
      simp only at this
      rw [show i + n * (s.jb + j) = n * (s.jb + j) + i by omega, this, neg_one_mul, one_mul,
        neg_add_eq_sub]
      congr 1
      refine Finset.sum_congr rfl (fun l _ => ?_)
      rw [show s.jb * n + (i + n * l) = i + n * (s.jb + l) by ring, Nat.mul_comm l s.pb]
    · intro z hz
      exact c2 z (fun u w hu1 hu2 _ => by
        show z ≠ n * (s.jb + j) + u
        have := hz u (by omega) (by omega)
        omega)
  · rw [if_neg hj]
    have hj0 : j = 0 := by omega
    refine ⟨rfl, rfl, rfl, rfl, rfl, fun i _ _ => ?_, fun z _ => rfl⟩
    rw [hj0, Finset.sum_range_zero, sub_zero]

theorem cuts_bounds (nth : Nat) (a : Nat → Nat) (hmono : ∀ b, b < nth → a b ≤ a (b + 1)) :
    ∀ b, b ≤ nth → a 0 ≤ a b ∧ a b ≤ a nth := by
  have hle : ∀ d b, b + d ≤ nth → a b ≤ a (b + d) := by
    intro d
    induction d with
    | zero => exact fun b _ => le_rfl
    | succ d ihd =>
      exact fun b hb => le_trans (ihd b (by omega)) (hmono (b + d) (by omega))
  intro b hb
  have h1 := hle b 0 (by omega)
  have h2 := hle (nth - b) b (by omega)
  rw [Nat.zero_add] at h1
  rw [show b + (nth - b) = nth by omega] at h2
  exact ⟨h1, h2⟩

/-- Column `j` of `F` in `bpqr`: the rows `r > j` get `tau[k]` times the inner product of
the rows `k ..` of column `jb + r` of `A` with the reflector vector in column `k`. -/
theorem bpqrFcol_cells [LinearOrderedField α] (n p nt j : Nat) (s : BpqrState α)
    (hnt : 1 ≤ nt) :
    (bpqrFcol n p nt (n - (s.jb + j)) j s).A = s.A ∧
    (bpqrFcol n p nt (n - (s.jb + j)) j s).tau = s.tau ∧
    (bpqrFcol n p nt (n - (s.jb + j)) j s).cn = s.cn ∧
    (bpqrFcol n p nt (n - (s.jb + j)) j s).icn = s.icn ∧
    (bpqrFcol n p nt (n - (s.jb + j)) j s).work = s.work ∧
    (∀ r, j + 1 ≤ r → r + s.jb < p →
      (bpqrFcol n p nt (n - (s.jb + j)) j s).F (r + j * s.pb)
        = s.tau (s.jb + j) * ∑ l in Finset.range (n - (s.jb + j)),
            s.A (s.jb + j + l + n * (s.jb + r)) * s.A (s.jb + j + l + n * (s.jb + j))) ∧
    (∀ z, (∀ r, j + 1 ≤ r → r + s.jb < p → z ≠ r + j * s.pb) →
      (bpqrFcol n p nt (n - (s.jb + j)) j s).F z = s.F z) := by
  unfold bpqrFcol
  by_cases hk : s.jb + j + 1 < p
  · simp only
    rw [if_pos hk]
    refine ⟨rfl, rfl, rfl, rfl, rfl, ?_⟩
    simp only
    obtain ⟨a, a0, an, amono, akb⟩ :=
      bpqrSplit_cuts (p - (s.jb + j) - 1) nt (j + 1) s.mb s.kb hnt
    generalize bpqrSplit (p - (s.jb + j) - 1) nt (j + 1) s.mb s.kb = sp at an amono akb ⊢
    obtain ⟨c1, c2⟩ := chunkLoop_spec sp.1 a amono 1
      (fun i F => dgemv_t (n - (s.jb + j)) (sp.2.1 i) (s.tau (s.jb + j)) s.A
        ((sp.2.2 i + s.jb) * n + (s.jb + j)) n s.A (n * (s.jb + j) + (s.jb + j)) 1 0 F
        (sp.2.2 i + j * s.pb) 1)
      (fun u _ => u + j * s.pb)
      (fun u _ Y => s.tau (s.jb + j) * (∑ l in Finset.range (n - (s.jb + j)),
          s.A ((u + s.jb) * n + (s.jb + j) + l) * s.A (n * (s.jb + j) + (s.jb + j) + l * 1))
        + 0 * Y (u + j * s.pb))
      (fun u w u' w' _ _ _ _ _ _ h => by
        have h : u + j * s.pb = u' + j * s.pb := h
        omega)
      (fun b hb Y => by
        obtain ⟨k1, k2⟩ := akb b hb
        obtain ⟨d1, d2⟩ := dgemv_t_spec (n - (s.jb + j)) (sp.2.1 b) (s.tau (s.jb + j)) s.A
          ((sp.2.2 b + s.jb) * n + (s.jb + j)) n s.A (n * (s.jb + j) + (s.jb + j)) 1 0 Y
          (sp.2.2 b + j * s.pb) 1 le_rfl
        constructor
        · intro u w hu1 hu2 hw
          have := d1 (u - a b) (by omega)
          rw [k1] at this
          rw [show a b + j * s.pb + (u - a b) * 1 = u + j * s.pb by omega] at this
          simp only at this ⊢
          rw [k1, this]
          congr 2
          refine Finset.sum_congr rfl (fun l _ => ?_)
          congr 2
          have e : (u + s.jb) * n = (a b + s.jb) * n + n * (u - a b) := by
            have : u = a b + (u - a b) := by omega
            conv_lhs => rw [this]
            ring
          omega
        · intro z hz
          refine d2 z (fun i hi => ?_)
          have : z ≠ (a b + i) + j * s.pb :=
            hz (a b + i) 0 (by omega) (by omega) (by omega)
          rw [k1]
          omega)
      (fun u w Y Y' hu1 hu2 hw hY => by
        simp only
        rw [hY (u + j * s.pb) (fun u' w' _ _ _ hne => by
          show u + j * s.pb ≠ u' + j * s.pb
          omega)])
      s.F
    constructor
    · intro r hr1 hr2
      have := c1 r 0 (by omega) (by omega) (by omega)
      simp only at this
      rw [this, zero_mul, add_zero]
      congr 1
      refine Finset.sum_congr rfl (fun l _ => ?_)
      rw [show (r + s.jb) * n + (s.jb + j) + l = s.jb + j + l + n * (s.jb + r) by ring,
        show n * (s.jb + j) + (s.jb + j) + l * 1 = s.jb + j + l + n * (s.jb + j) by ring]
    · intro z hz
      exact c2 z (fun u w hu1 hu2 _ => by
        show z ≠ u + j * s.pb
        exact hz u (by omega) (by omega))
  · simp only
    rw [if_neg hk]
    exact ⟨rfl, rfl, rfl, rfl, rfl, fun r h1 h2 => by omega, fun z _ => rfl⟩

/-- Correction of column `j` of `F` in `bpqr`: `work[l]` gets minus the inner product of the
reflector vectors `jb + l` and `k` over the rows `k ..`, and each row `u` of column `j` of
`F` gets `tau[k]` times the product of row `u` of the earlier columns of `F` with `work`
added. -/
theorem bpqrFfix_cells [LinearOrderedField α] (n nt j : Nat) (s : BpqrState α)
    (hnt : 1 ≤ nt) :
    (bpqrFfix n nt (n - (s.jb + j)) j s).A = s.A ∧
    (bpqrFfix n nt (n - (s.jb + j)) j s).tau = s.tau ∧
    (bpqrFfix n nt (n - (s.jb + j)) j s).cn = s.cn ∧
    (bpqrFfix n nt (n - (s.jb + j)) j s).icn = s.icn ∧
    (∀ u, u < s.pb →
      (bpqrFfix n nt (n - (s.jb + j)) j s).F (u + j * s.pb)
        = s.F (u + j * s.pb)
          + s.tau (s.jb + j) * ∑ l in Finset.range j, s.F (u + s.pb * l)
            * (- ∑ i in Finset.range (n - (s.jb + j)),
                s.A (s.jb + j + i + n * (s.jb + l)) * s.A (s.jb + j + i + n * (s.jb + j)))) ∧
    (∀ z, (∀ u, u < s.pb → z ≠ u + j * s.pb) →
      (bpqrFfix n nt (n - (s.jb + j)) j s).F z = s.F z) := by
  unfold bpqrFfix
  by_cases hj : j > 0
  · rw [if_pos hj]
    refine ⟨rfl, rfl, rfl, rfl, ?_⟩
    simp only
    -- the vector `work`
    obtain ⟨a, a0, an, amono, akb⟩ := bpqrSplit_cuts j nt s.jb s.mb s.kb hnt
    generalize bpqrSplit j nt s.jb s.mb s.kb = sp at an amono akb ⊢
    have abnd := cuts_bounds sp.1 a amono
    obtain ⟨w1, -⟩ := chunkLoop_spec sp.1 a amono 1
      (fun i w => dgemv_t (n - (s.jb + j)) (sp.2.1 i) (-1) s.A (sp.2.2 i * n + (s.jb + j)) n
        s.A (n * (s.jb + j) + (s.jb + j)) 1 0 w (sp.2.2 i - s.jb) 1)
      (fun u _ => u - s.jb)
      (fun u _ Y => -1 * (∑ l in Finset.range (n - (s.jb + j)),
          s.A (u * n + (s.jb + j) + l) * s.A (n * (s.jb + j) + (s.jb + j) + l * 1))
        + 0 * Y (u - s.jb))
      (fun u w u' w' h1 _ _ h2 _ _ h => by
        have h : u - s.jb = u' - s.jb := h
        omega)
      (fun b hb Y => by
        obtain ⟨k1, k2⟩ := akb b hb
        obtain ⟨b1, b2⟩ := abnd b (by omega)
        obtain ⟨d1, d2⟩ := dgemv_t_spec (n - (s.jb + j)) (sp.2.1 b) (-1) s.A
          (sp.2.2 b * n + (s.jb + j)) n s.A (n * (s.jb + j) + (s.jb + j)) 1 0 Y
          (sp.2.2 b - s.jb) 1 le_rfl
        constructor
        · intro u w hu1 hu2 hw
          have := d1 (u - a b) (by omega)
          rw [k1] at this
          rw [show a b - s.jb + (u - a b) * 1 = u - s.jb by omega] at this
          simp only at this ⊢
          rw [k1, this]
          congr 2
          refine Finset.sum_congr rfl (fun l _ => ?_)
          congr 2
          have e : u * n = a b * n + n * (u - a b) := by
            have : u = a b + (u - a b) := by omega
            conv_lhs => rw [this]
            ring
          omega
        · intro z hz
          refine d2 z (fun i hi => ?_)
          have : z ≠ (a b + i) - s.jb :=
            hz (a b + i) 0 (by omega) (by omega) (by omega)
          rw [k1]
          omega)
      (fun u w Y Y' hu1 hu2 hw hY => by
        simp only
        rw [zero_mul, zero_mul])
      s.work
    generalize forLoop sp.1 (fun i w => dgemv_t (n - (s.jb + j)) (sp.2.1 i) (-1) s.A
        (sp.2.2 i * n + (s.jb + j)) n s.A (n * (s.jb + j) + (s.jb + j)) 1 0 w
        (sp.2.2 i - s.jb) 1) s.work = work1 at w1 ⊢
    have hw : ∀ l, l < j → work1 l
        = - ∑ i in Finset.range (n - (s.jb + j)),
            s.A (s.jb + j + i + n * (s.jb + l)) * s.A (s.jb + j + i + n * (s.jb + j)) := by
      intro l hl
      have := w1 (s.jb + l) 0 (by omega) (by omega) (by omega)
      simp only at this
      rw [Nat.add_sub_cancel_left] at this
      rw [this, zero_mul, add_zero, neg_one_mul]
      congr 1
      refine Finset.sum_congr rfl (fun i _ => ?_)
      rw [show (s.jb + l) * n + (s.jb + j) + i = s.jb + j + i + n * (s.jb + l) by ring,
        show n * (s.jb + j) + (s.jb + j) + i * 1 = s.jb + j + i + n * (s.jb + j) by ring]
    clear w1
    -- column `j` of `F`
    obtain ⟨a', a0', an', amono', akb'⟩ := bpqrSplit_cuts s.pb nt 0 sp.2.1 sp.2.2 hnt
    generalize bpqrSplit s.pb nt 0 sp.2.1 sp.2.2 = sq at an' amono' akb' ⊢
    obtain ⟨c1, c2⟩ := chunkLoop_spec sq.1 a' amono' 1
      (fun i F => dgemv_n (sq.2.1 i) j (s.tau (s.jb + j)) F (sq.2.2 i) s.pb work1 0 1 1 F
        (j * s.pb + sq.2.2 i) 1)
      (fun u _ => j * s.pb + u)
      (fun u _ Y => s.tau (s.jb + j) * (∑ l in Finset.range j,
          Y (u + s.pb * l) * work1 (0 + l * 1)) + 1 * Y (j * s.pb + u))
      (fun u w u' w' _ _ _ _ _ _ h => by
        have h : j * s.pb + u = j * s.pb + u' := h
        omega)
      (fun b hb Y => by
        obtain ⟨k1, k2⟩ := akb' b hb
        obtain ⟨d1, d2⟩ := dgemv_n_spec (sq.2.1 b) j (s.tau (s.jb + j)) Y (sq.2.2 b) s.pb work1
          0 1 1 Y (j * s.pb + sq.2.2 b) 1 le_rfl
        constructor
        · intro u w hu1 hu2 hw
          have := d1 (u - a' b) (by omega)
          rw [k1] at this
          rw [show j * s.pb + a' b + (u - a' b) * 1 = j * s.pb + u by omega] at this
          simp only at this ⊢
          rw [k1, this]
          congr 2
          refine Finset.sum_congr rfl (fun l _ => ?_)
          congr 2
          omega
        · intro z hz
          refine d2 z (fun i hi => ?_)
          have : z ≠ j * s.pb + (a' b + i) :=
            hz (a' b + i) 0 (by omega) (by omega) (by omega)
          rw [k1]
          omega)
      (fun u w Y Y' hu1 hu2 hw hY => by
        simp only
        rw [hY (j * s.pb + u) (fun u' w' _ _ _ hne => by
          show j * s.pb + u ≠ j * s.pb + u'
          omega)]
        congr 2
        refine Finset.sum_congr rfl (fun l hl => ?_)
        have hl := Finset.mem_range.mp hl
        rw [hY _ (fun u' w' hu1' hu2' _ _ => by
          show u + s.pb * l ≠ j * s.pb + u'
          have e1 : s.pb * (l + 1) ≤ s.pb * j := Nat.mul_le_mul_left _ (by omega)
          have e2 : s.pb * (l + 1) = s.pb * l + s.pb := Nat.mul_succ _ _
          have e3 : s.pb * j = j * s.pb := Nat.mul_comm _ _
          omega)])
      s.F
    constructor
    · intro u hu
      have := c1 u 0 (by omega) (by omega) (by omega)
      simp only at this
      rw [show u + j * s.pb = j * s.pb + u by omega, this, one_mul, add_comm]
      congr 2
      refine Finset.sum_congr rfl (fun l hl => ?_)
      rw [show 0 + l * 1 = l by omega, hw l (Finset.mem_range.mp hl)]
    · intro z hz
      exact c2 z (fun u w hu1 hu2 _ => by
        show z ≠ j * s.pb + u
        have := hz u (by omega)
        omega)
  · rw [if_neg hj]
    have hj0 : j = 0 := by omega
    refine ⟨rfl, rfl, rfl, rfl, fun u _ => ?_, fun z _ => rfl⟩
    rw [hj0, Finset.sum_range_zero, mul_zero, add_zero]

/-- Update of the pivot row `k = jb + j` in `bpqr`: the columns `jb + r`, `r > j`, of row
`k` have the product of row `r` of `F` with row `k` of the reflector vectors of the block
taken off. -/
theorem bpqrRowUpdate_cells [LinearOrderedField α] (n p nt j : Nat) (s : BpqrState α)
    (hnt : 1 ≤ nt) (hpb : s.jb + s.pb = p) (hk : s.jb + j < n) :
    (bpqrRowUpdate n p nt j s).F = s.F ∧
    (bpqrRowUpdate n p nt j s).tau = s.tau ∧
    (bpqrRowUpdate n p nt j s).cn = s.cn ∧
    (bpqrRowUpdate n p nt j s).icn = s.icn ∧
    (∀ r, j + 1 ≤ r → r < s.pb →
      (bpqrRowUpdate n p nt j s).A (s.jb + j + n * (s.jb + r))
        = s.A (s.jb + j + n * (s.jb + r))
          - ∑ l in Finset.range (j + 1), s.F (r + s.pb * l) * s.A (s.jb + j + n * (s.jb + l))) ∧
    (∀ z, (∀ r, j + 1 ≤ r → r < s.pb → z ≠ s.jb + j + n * (s.jb + r)) →
      (bpqrRowUpdate n p nt j s).A z = s.A z) := by
  unfold bpqrRowUpdate
  by_cases hk1 : s.jb + j + 1 < p
  · simp only
    rw [if_pos hk1]
    refine ⟨rfl, rfl, rfl, rfl, ?_⟩
    simp only
    obtain ⟨a, a0, an, amono, akb⟩ := bpqrSplit_cuts (s.pb - j - 1) nt (j + 1) s.mb s.kb hnt
    generalize bpqrSplit (s.pb - j - 1) nt (j + 1) s.mb s.kb = sp at an amono akb ⊢
    obtain ⟨c1, c2⟩ := chunkLoop_spec sp.1 a amono 1
      (fun i A => dgemv_n (sp.2.1 i) (j + 1) (-1) s.F (sp.2.2 i) s.pb A (s.jb * n + (s.jb + j))
        n 1 A ((sp.2.2 i + s.jb) * n + (s.jb + j)) n)
      (fun u _ => (u + s.jb) * n + (s.jb + j))
      (fun u _ Y => -1 * (∑ l in Finset.range (j + 1),
          s.F (u + s.pb * l) * Y (s.jb * n + (s.jb + j) + l * n))
        + 1 * Y ((u + s.jb) * n + (s.jb + j)))
      (fun u w u' w' _ _ _ _ _ _ h => by
        have h : (u + s.jb) * n + (s.jb + j) = (u' + s.jb) * n + (s.jb + j) := h
        have h' : (u + s.jb) * n = (u' + s.jb) * n := by omega
        have := Nat.eq_of_mul_eq_mul_right (by omega) h'
        omega)
      (fun b hb Y => by
        obtain ⟨k1, k2⟩ := akb b hb
        obtain ⟨d1, d2⟩ := dgemv_n_spec (sp.2.1 b) (j + 1) (-1) s.F (sp.2.2 b) s.pb Y
          (s.jb * n + (s.jb + j)) n 1 Y ((sp.2.2 b + s.jb) * n + (s.jb + j)) n (by omega)
        constructor
        · intro u w hu1 hu2 hw
          have := d1 (u - a b) (by omega)
          rw [k1] at this
          have e : (a b + s.jb) * n + (s.jb + j) + (u - a b) * n
              = (u + s.jb) * n + (s.jb + j) := by
            have : u = a b + (u - a b) := by omega
            conv_rhs => rw [this]
            ring
          rw [e] at this
          simp only at this ⊢
          rw [k1, this]
          congr 2
          refine Finset.sum_congr rfl (fun l _ => ?_)
          congr 2
          omega
        · intro z hz
          refine d2 z (fun i hi => ?_)
          have : z ≠ (a b + i + s.jb) * n + (s.jb + j) :=
            hz (a b + i) 0 (by omega) (by omega) (by omega)
          rw [k1]
          have e : (a b + i + s.jb) * n = (a b + s.jb) * n + i * n := by ring
          omega)
      (fun u w Y Y' hu1 hu2 hw hY => by
        simp only
        rw [hY ((u + s.jb) * n + (s.jb + j)) (fun u' w' _ _ _ hne => by
          show (u + s.jb) * n + (s.jb + j) ≠ (u' + s.jb) * n + (s.jb + j)
          have g := cell_ne n (s.jb + j) (u + s.jb) (s.jb + j) (u' + s.jb) hk hk
            (Or.inr (by omega))
          omega)]
        congr 2
        refine Finset.sum_congr rfl (fun l hl => ?_)
        have hl := Finset.mem_range.mp hl
        rw [hY _ (fun u' w' hu1' hu2' _ _ => by
          show s.jb * n + (s.jb + j) + l * n ≠ (u' + s.jb) * n + (s.jb + j)
          have g := cell_ne n (s.jb + j) (s.jb + l) (s.jb + j) (u' + s.jb) hk hk
            (Or.inr (by omega))
          have e : (s.jb + l) * n = s.jb * n + l * n := by ring
          omega)])
      s.A
    constructor
    · intro r hr1 hr2
      have := c1 r 0 (by omega) (by omega) (by omega)
      simp only at this
      rw [show s.jb + j + n * (s.jb + r) = (r + s.jb) * n + (s.jb + j) by ring, this,
        neg_one_mul, one_mul, neg_add_eq_sub]
      congr 1
      refine Finset.sum_congr rfl (fun l _ => ?_)
      rw [show s.jb + j + n * (s.jb + l) = s.jb * n + (s.jb + j) + l * n by ring]
    · intro z hz
      exact c2 z (fun u w hu1 hu2 _ => by
        show z ≠ (u + s.jb) * n + (s.jb + j)
        have := hz u (by omega) (by omega)
        have e : s.jb + j + n * (s.jb + u) = (u + s.jb) * n + (s.jb + j) := by ring
        omega)
  · simp only
    rw [if_neg hk1]
    exact ⟨rfl, rfl, rfl, rfl, fun r h1 h2 => by omega, fun z _ => rfl⟩

/-- Block update of `bpqr` after the column `k`: the rows `u > k` of the columns after
`k` have the product of the rows of the `nb` reflector vectors of the block with the rows
of `F` taken off. -/
theorem bpqrBlockUpdate_cells [LinearOrderedField α] (n p nt : Nat) (s : BpqrState α)
    (hnt : 1 ≤ nt) (hk : s.k < n) (hnb : s.jb + s.nb ≤ s.k + 1) :
    (bpqrBlockUpdate n p nt s).1.tau = s.tau ∧
    (bpqrBlockUpdate n p nt s).1.piv = s.piv ∧
    (∀ u w, s.k + 1 ≤ u → u < n → w < p - s.k - 1 →
      (bpqrBlockUpdate n p nt s).1.A (u + n * (s.k + 1 + w))
        = s.A (u + n * (s.k + 1 + w))
          - ∑ l in Finset.range s.nb,
              s.A (u + n * (s.jb + l)) * s.F (s.j + 1 + w + s.pb * l)) ∧
    (∀ z, (∀ u w, s.k + 1 ≤ u → u < n → w < p - s.k - 1 → z ≠ u + n * (s.k + 1 + w)) →
      (bpqrBlockUpdate n p nt s).1.A z = s.A z) := by
  unfold bpqrBlockUpdate
  refine ⟨rfl, rfl, ?_⟩
  simp only
  obtain ⟨a, a0, an, amono, akb⟩ := bpqrSplit_cuts (n - s.k - 1) nt (s.k + 1) s.mb s.kb hnt
  generalize bpqrSplit (n - s.k - 1) nt (s.k + 1) s.mb s.kb = sp at an amono akb ⊢
  have abnd := cuts_bounds sp.1 a amono
  obtain ⟨c1, c2⟩ := chunkLoop_spec sp.1 a amono (p - s.k - 1)
    (fun i A => dgemm false true (sp.2.1 i) (p - s.k - 1) s.nb (-1) A (s.jb * n + sp.2.2 i) n
      s.F (s.j + 1) s.pb 1 A ((s.k + 1) * n + sp.2.2 i) n)
    (fun u w => (s.k + 1) * n + (u + n * w))
    (fun u w Y => -1 * (∑ l in Finset.range s.nb,
        Y (s.jb * n + (u + n * l)) * s.F (s.j + 1 + (w + s.pb * l)))
      + 1 * Y ((s.k + 1) * n + (u + n * w)))
    (fun u w u' w' _ hu _ _ hu' _ h => by
      have h : (s.k + 1) * n + (u + n * w) = (s.k + 1) * n + (u' + n * w') := h
      by_contra hne
      have g := cell_ne n u w u' w' (by omega) (by omega) (Or.inl hne)
      have e1 : w * n = n * w := Nat.mul_comm _ _
      have e2 : w' * n = n * w' := Nat.mul_comm _ _
      omega)
    (fun b hb Y => by
      obtain ⟨k1, k2⟩ := akb b hb
      obtain ⟨b1, b2⟩ := abnd (b + 1) (by omega)
      obtain ⟨d1, -⟩ := dgemm_spec false true (sp.2.1 b) (p - s.k - 1) s.nb (-1) Y
        (s.jb * n + sp.2.2 b) n s.F (s.j + 1) s.pb 1 Y ((s.k + 1) * n + sp.2.2 b) n
        (by omega)
      constructor
      · intro u w hu1 hu2 hw
        have := d1 (u - a b) w (by omega) hw
        rw [k1] at this
        rw [show (s.k + 1) * n + a b + (u - a b + n * w) = (s.k + 1) * n + (u + n * w) by omega]
          at this
        simp only [Bool.false_eq_true, if_false, if_true] at this ⊢
        rw [k1, this]
        congr 2
        refine Finset.sum_congr rfl (fun l _ => ?_)
        congr 2
        omega
      · intro z hz
        refine dgemm_frame _ _ _ _ _ _ _ _ _ _ _ _ _ _ _ _ z (fun i w hi hw => ?_)
        have : z ≠ (s.k + 1) * n + (a b + i + n * w) :=
          hz (a b + i) w (by omega) (by omega) hw
        rw [k1]
        omega)
    (fun u w Y Y' hu1 hu2 hw hY => by
      simp only
      rw [hY ((s.k + 1) * n + (u + n * w)) (fun u' w' _ _ _ hne => by
        show (s.k + 1) * n + (u + n * w) ≠ (s.k + 1) * n + (u' + n * w')
        have g := cell_ne n u w u' w' (by omega) (by omega) (Or.inl (Ne.symm hne))
        have e1 : w * n = n * w := Nat.mul_comm _ _
        have e2 : w' * n = n * w' := Nat.mul_comm _ _
        omega)]
      congr 2
      refine Finset.sum_congr rfl (fun l hl => ?_)
      have hl := Finset.mem_range.mp hl
      rw [hY _ (fun u' w' hu1' hu2' _ _ => by
        show s.jb * n + (u + n * l) ≠ (s.k + 1) * n + (u' + n * w')
        have g := cell_ne n u (s.jb + l) u' (s.k + 1 + w') (by omega) (by omega)
          (Or.inr (by omega))
        have e1 : (s.jb + l) * n = s.jb * n + n * l := by ring
        have e2 : (s.k + 1 + w') * n = (s.k + 1) * n + n * w' := by ring
        omega)])
    s.A
  constructor
  · intro u w hu1 hu2 hw
    have := c1 u w (by omega) (by omega) hw
    simp only at this
    rw [show u + n * (s.k + 1 + w) = (s.k + 1) * n + (u + n * w) by ring, this,
      neg_one_mul, one_mul, neg_add_eq_sub]
    congr 1
    refine Finset.sum_congr rfl (fun l _ => ?_)
    rw [show s.jb * n + (u + n * l) = u + n * (s.jb + l) by ring,
      show s.j + 1 + (w + s.pb * l) = s.j + 1 + w + s.pb * l by omega]
  · intro z hz
    exact c2 z (fun u w hu1 hu2 hw => by
      show z ≠ (s.k + 1) * n + (u + n * w)
      have := hz u w (by omega) (by omega) hw
      have e : u + n * (s.k + 1 + w) = (s.k + 1) * n + (u + n * w) := by ring
      omega)

/-- The pivot search of `bpqr` from column `k < p` returns a column `k ≤ q < p`. -/
theorem bpqrPivot_range [LinearOrderedField α] (cn : Nat → α) (p k : Nat) (hk : k < p) :
    k ≤ (bpqrPivot cn p k).2 ∧ (bpqrPivot cn p k).2 < p := by
  unfold bpqrPivot
  have key : ∀ m, k ≤ (forLoop m (fun t (xq : α × Nat) =>
        if cn (k + 1 + t) > xq.1 then (cn (k + 1 + t), k + 1 + t) else xq) (cn k, k)).2 ∧
      (forLoop m (fun t (xq : α × Nat) =>
        if cn (k + 1 + t) > xq.1 then (cn (k + 1 + t), k + 1 + t) else xq) (cn k, k)).2
        < k + 1 + m := by
    intro m
    induction m with
    | zero => exact ⟨le_rfl, by show k < k + 1 + 0; omega⟩
    | succ m ih =>
      obtain ⟨h1, h2⟩ := ih
      rw [forLoop_succ]
      generalize forLoop m _ (cn k, k) = S at h1 h2 ⊢
      by_cases c : cn (k + 1 + m) > S.1
      · rw [if_pos c]
        exact ⟨by show k ≤ k + 1 + m; omega, by show k + 1 + m < _; omega⟩
      · rw [if_neg c]
        exact ⟨h1, by omega⟩
  obtain ⟨h1, h2⟩ := key (p - (k + 1))
  exact ⟨h1, by omega⟩

theorem strideCount_rows (lo nb pb : Nat) (hlo : lo < pb) :
    strideCount lo (nb * pb) pb = nb := by
  unfold strideCount
  rcases Nat.eq_zero_or_pos nb with h0 | h0
  · rw [h0, Nat.zero_mul]
    apply Nat.div_eq_of_lt
    omega
  · have e1 : pb ≤ nb * pb := Nat.le_mul_of_pos_left pb h0
    have e : nb * pb - lo + pb - 1 = (pb - 1 - lo) + pb * nb := by
      rw [Nat.mul_comm pb nb]; omega
    rw [e, Nat.add_mul_div_left _ _ (by omega : 0 < pb), Nat.div_eq_of_lt (by omega)]
    omega

/-- Exchange of the columns `q` and `k = jb + j` in `bpqr`, `k ≤ q < jb + pb`: the columns
of `A`, the rows `q - jb` and `j` of the first `nb` columns of `F`, and the entries of
`piv`. -/
theorem bpqrSwap_cells (n q j : Nat) (s : BpqrState α) (hq1 : s.jb + j ≤ q)
    (hq2 : q < s.jb + s.pb) :
    (bpqrSwap n q j s).tau = s.tau ∧ (bpqrSwap n q j s).work = s.work ∧
    (bpqrSwap n q j s).piv = swapCells s.piv q (s.jb + j) ∧
    (∀ i c, i < n → (bpqrSwap n q j s).A (i + n * c)
      = s.A (i + n * Equiv.swap (s.jb + j) q c)) ∧
    (∀ r t, r < s.pb → t < s.nb → (bpqrSwap n q j s).F (r + s.pb * t)
      = s.F (Equiv.swap j (q - s.jb) r + s.pb * t)) := by
  unfold bpqrSwap
  refine ⟨rfl, rfl, rfl, ?_, ?_⟩
  · intro i c hi
    simp only
    have e : (fun t (A : Nat → α) => swapCells A (q * n + t) ((s.jb + j) * n + t))
        = (fun t (A : Nat → α) => swapCells A (n * q + t) (n * (s.jb + j) + t)) := by
      funext t A
      rw [Nat.mul_comm q n, Nat.mul_comm (s.jb + j) n]
    rw [e, colSwap_spec s.A n q (s.jb + j) i c hi, Equiv.swap_comm]
  · intro r t hr ht
    simp only
    rw [strideCount_rows (q - s.jb) s.nb s.pb (by omega)]
    obtain ⟨h1, h2⟩ := swapLoop_spec (fun t => q - s.jb + t * s.pb) (fun t => j + t * s.pb)
      s.nb s.F (fun t t' ht ht' hne => by
        have g1 := cell_ne s.pb (q - s.jb) t (q - s.jb) t' (by omega) (by omega) (Or.inr hne)
        have g2 := cell_ne s.pb (q - s.jb) t j t' (by omega) (by omega) (Or.inr hne)
        have g3 := cell_ne s.pb j t j t' (by omega) (by omega) (Or.inr hne)
        exact ⟨g1, g2, g3⟩)
    have e := Nat.mul_comm s.pb t
    by_cases e1 : r = q - s.jb
    · rw [e1, Equiv.swap_apply_right, e]
      exact (h1 t ht).1
    · by_cases e2 : r = j
      · rw [e2, Equiv.swap_apply_left, e]
        exact (h1 t ht).2
      · rw [Equiv.swap_apply_of_ne_of_ne e2 e1]
        refine h2 _ (fun t' ht' => ?_)
        rw [e]
        exact ⟨cell_ne s.pb r t (q - s.jb) t' hr (by omega) (Or.inl e1),
          cell_ne s.pb r t j t' hr (by omega) (Or.inl e2)⟩

/-- The state after one pass of the `j` loop of `bpqr` in terms of the intermediate states
of the pass. -/
theorem bpqrCol_unfold [LinearOrderedField α]
    (dlarfg : Nat → α → (Nat → α) → α × (Nat → α) × α) (tol : α) (n p nt j : Nat)
    (s : BpqrState α) (k : Nat) (hk : k = s.jb + j)
    (s1 : BpqrState α)
    (hs1 : s1 = if (bpqrPivot s.cn p k).2 ≠ k then bpqrSwap n (bpqrPivot s.cn p k).2 j s else s)
    (s2 : BpqrState α) (hs2 : s2 = bpqrColUpdate n nt (n - k) j s1)
    (g : α × (Nat → α) × α)
    (hg : g = dlarfg (n - k) (s2.A (n * k + k)) (fun t => s2.A (n * k + k + 1 + t)))
    (s3 : BpqrState α)
    (hs3 : s3 = { s2 with
      A := store (forLoop (n - k - 1) (fun t A => store A (n * k + k + 1 + t) (g.2.1 t)) s2.A)
        (n * k + k) 1
      tau := store s2.tau k g.2.2 })
    (s6 : BpqrState α)
    (hs6 : s6 = bpqrRowUpdate n p nt j (bpqrFfix n nt (n - k) j (bpqrFcol n p nt (n - k) j s3))) :
    (bpqrCol dlarfg tol n p nt j s).A = store s6.A (n * k + k) g.1 ∧
    (bpqrCol dlarfg tol n p nt j s).F = s6.F ∧
    (bpqrCol dlarfg tol n p nt j s).tau = s6.tau ∧
    (bpqrCol dlarfg tol n p nt j s).piv = s6.piv ∧
    (bpqrCol dlarfg tol n p nt j s).jb = s6.jb ∧
    (bpqrCol dlarfg tol n p nt j s).pb = s6.pb ∧
    ((bpqrCol dlarfg tol n p nt j s).nb = s6.nb ∨
      (bpqrCol dlarfg tol n p nt j s).nb = j + 1) := by
  subst hk hs1 hs2 hg hs3 hs6
  unfold bpqrCol
  simp only
  split_ifs
  · exact ⟨rfl, rfl, rfl, rfl, rfl, rfl, Or.inl rfl⟩
  · exact ⟨rfl, rfl, rfl, rfl, rfl, rfl, Or.inr rfl⟩
  · exact ⟨rfl, rfl, rfl, rfl, rfl, rfl, Or.inl rfl⟩
  · exact ⟨rfl, rfl, rfl, rfl, rfl, rfl, Or.inr rfl⟩

/-- Cells of `A`, `F` and `tau` after one pass of the `j` loop of `bpqr`, from the state `s`
in which the pivot column is in place at `k = jb + j`. -/
theorem bpqrPipe_cells [LinearOrderedField α] (n p nt j : Nat)
    (s : BpqrState α) (hnt : 1 ≤ nt) (hpb : s.jb + s.pb = p) (hkp : s.jb + j < p)
    (hpn : p ≤ n) (k : Nat) (hk : k = s.jb + j)
    (s2 : BpqrState α) (hs2 : s2 = bpqrColUpdate n nt (n - k) j s)
    (g : α × (Nat → α) × α) (s3 : BpqrState α)
    (hs3 : s3 = { s2 with
      A := store (forLoop (n - k - 1) (fun t A => store A (n * k + k + 1 + t) (g.2.1 t)) s2.A)
        (n * k + k) 1
      tau := store s2.tau k g.2.2 })
    (s6 : BpqrState α)
    (hs6 : s6 = bpqrRowUpdate n p nt j (bpqrFfix n nt (n - k) j (bpqrFcol n p nt (n - k) j s3))) :
    s6.piv = s.piv ∧ s6.jb = s.jb ∧ s6.pb = s.pb ∧ s6.nb = s.nb ∧
    s6.tau = store s.tau k g.2.2 ∧
    (∀ i, k ≤ i → i < n → s2.A (i + n * k) = s.A (i + n * k)
      - ∑ l in Finset.range j, s.A (i + n * (s.jb + l)) * s.F (j + s.pb * l)) ∧
    (∀ r t, r < s.pb → t < j → s6.F (r + s.pb * t) = s.F (r + s.pb * t)) ∧
    (∀ r, j < r → r < s.pb → s6.F (r + s.pb * j)
      = g.2.2 * (∑ l in Finset.range (n - k),
            s.A (k + l + n * (s.jb + r)) * (if l = 0 then 1 else g.2.1 (l - 1)))
        + g.2.2 * ∑ t in Finset.range j, s.F (r + s.pb * t)
            * (- ∑ l in Finset.range (n - k),
                s.A (k + l + n * (s.jb + t)) * (if l = 0 then 1 else g.2.1 (l - 1)))) ∧
    (∀ i c, i < n → c ≠ k → i ≠ k → store s6.A (n * k + k) g.1 (i + n * c) = s.A (i + n * c)) ∧
    (∀ c, c < k → store s6.A (n * k + k) g.1 (k + n * c) = s.A (k + n * c)) ∧
    (∀ i, i < k → store s6.A (n * k + k) g.1 (i + n * k) = s.A (i + n * k)) ∧
    store s6.A (n * k + k) g.1 (k + n * k) = g.1 ∧
    (∀ i, k < i → i < n → store s6.A (n * k + k) g.1 (i + n * k) = g.2.1 (i - k - 1)) ∧
    (∀ r, j < r → r < s.pb → store s6.A (n * k + k) g.1 (k + n * (s.jb + r))
      = s.A (k + n * (s.jb + r))
        - ∑ l in Finset.range (j + 1), s6.F (r + s.pb * l)
            * (if l = j then 1 else s.A (k + n * (s.jb + l)))) := by
  have hkn : k < n := by omega
  -- column update
  obtain ⟨a1, a2, -, -, -, a6, a7⟩ := bpqrColUpdate_cells n nt j s hnt (by omega)
  obtain ⟨b1, b2, b3, b4, -⟩ := bpqrColUpdate_ctl n nt (n - (s.jb + j)) j s
  rw [← hk, ← hs2] at a1 a2 a6 a7 b1 b2 b3 b4
  -- the reflector vector
  obtain ⟨v1, v2⟩ := storeLoop_spec (n - k - 1) (fun t => n * k + k + 1 + t)
    (fun t _ => g.2.1 t) s2.A (fun i j _ _ h => by simpa using h)
  have e3A : s3.A = store (forLoop (n - k - 1)
      (fun t A => store A (n * k + k + 1 + t) (g.2.1 t)) s2.A) (n * k + k) 1 := by rw [hs3]
  have e3tau : s3.tau = store s.tau k g.2.2 := by rw [hs3, ← a2]
  have e3F : s3.F = s.F := by rw [hs3, ← a1]
  have e3jb : s3.jb = s.jb := by rw [hs3, ← b1]
  have e3pb : s3.pb = s.pb := by rw [hs3, ← b2]
  have e3nb : s3.nb = s.nb := by rw [hs3, ← b3]
  have e3piv : s3.piv = s.piv := by rw [hs3, ← b4]
  have fk : ∀ c, c * n = n * c := fun c => Nat.mul_comm c n
  have w3 : ∀ l, l < n - k → s3.A (k + l + n * k) = if l = 0 then 1 else g.2.1 (l - 1) := by
    intro l hl
    rw [e3A]
    by_cases e : l = 0
    · rw [if_pos e, e, show k + 0 + n * k = n * k + k by omega, store_same]
    · rw [if_neg e, store_ne _ _ _ _ (by omega)]
      have := v1 (l - 1) (by omega)
      simp only at this
      rw [show n * k + k + 1 + (l - 1) = k + l + n * k by omega] at this
      exact this
  have o3 : ∀ i c, i < n → c ≠ k → s3.A (i + n * c) = s.A (i + n * c) := by
    intro i c hi hc
    have g1 := cell_ne n i c k k hi hkn (Or.inr hc)
    have := fk c
    have := fk k
    rw [e3A, store_ne _ _ _ _ (by omega), v2 _ (fun t ht => by
      have g2 := cell_ne n i c (k + 1 + t) k hi (by omega) (Or.inr hc)
      show i + n * c ≠ n * k + k + 1 + t
      omega)]
    exact a7 _ (fun i' hi1 hi2 => by
      have g3 := cell_ne n i c i' k hi hi2 (Or.inr hc)
      omega)
  have l3 : ∀ i, i < k → s3.A (i + n * k) = s.A (i + n * k) := by
    intro i hi
    rw [e3A, store_ne _ _ _ _ (by omega), v2 _ (fun t ht => by
      show i + n * k ≠ n * k + k + 1 + t
      omega)]
    exact a7 _ (fun i' hi1 hi2 => by omega)
  -- column `j` of `F`
  obtain ⟨s4, hs4⟩ : ∃ s4, s4 = bpqrFcol n p nt (n - k) j s3 := ⟨_, rfl⟩
  have c := bpqrFcol_cells n p nt j s3 hnt
  have cc := bpqrFcol_ctl n p nt (n - k) j s3
  rw [e3jb, ← hk, ← hs4] at c
  rw [← hs4] at cc hs6
  obtain ⟨c1, c2, -, -, -, c6, c7⟩ := c
  obtain ⟨cc1, cc2, cc3, cc4, -⟩ := cc
  rw [e3pb] at c6 c7
  -- its correction
  obtain ⟨s5, hs5⟩ : ∃ s5, s5 = bpqrFfix n nt (n - k) j s4 := ⟨_, rfl⟩
  have d := bpqrFfix_cells n nt j s4 hnt
  have dc := bpqrFfix_ctl n nt (n - k) j s4
  rw [cc1, e3jb, ← hk, ← hs5] at d
  rw [← hs5] at dc hs6
  obtain ⟨d1, d2, -, -, d5, d6⟩ := d
  obtain ⟨dc1, dc2, dc3, dc4, -⟩ := dc
  rw [cc2, e3pb, c1, c2] at d5
  rw [cc2, e3pb] at d6
  -- row update
  have e5jb : s5.jb = s.jb := by rw [dc1, cc1, e3jb]
  have e5pb : s5.pb = s.pb := by rw [dc2, cc2, e3pb]
  have r := bpqrRowUpdate_cells n p nt j s5 hnt (by rw [e5jb, e5pb]; exact hpb)
    (by rw [e5jb]; omega)
  have rc := bpqrRowUpdate_ctl n p nt j s5
  rw [← hs6, e5jb, ← hk, e5pb] at r
  rw [← hs6] at rc
  obtain ⟨r1, r2, -, -, r5, r6⟩ := r
  obtain ⟨rc1, rc2, rc3, rc4, -⟩ := rc
  rw [d1, c1] at r5 r6
  -- the cells of `F`
  have hFold : ∀ r t, r < s.pb → t < j → s6.F (r + s.pb * t) = s.F (r + s.pb * t) := by
    intro r' t hr ht
    have := fk
    rw [r1, d6 _ (fun u hu => by
      have g1 := cell_ne s.pb r' t u j hr hu (Or.inr (by omega))
      have := Nat.mul_comm s.pb t
      omega), c7 _ (fun u hu1 hu2 => by
      have g1 := cell_ne s.pb r' t u j hr (by omega) (Or.inr (by omega))
      have := Nat.mul_comm s.pb t
      omega), e3F]
  have hF4old : ∀ r t, r < s.pb → t < j → s4.F (r + s.pb * t) = s.F (r + s.pb * t) := by
    intro r' t hr ht
    rw [c7 _ (fun u hu1 hu2 => by
      have g1 := cell_ne s.pb r' t u j hr (by omega) (Or.inr (by omega))
      have := Nat.mul_comm s.pb t
      omega), e3F]
  have hdot : ∀ c, c ≠ k → ∑ l in Finset.range (n - k), s3.A (k + l + n * c) * s3.A (k + l + n * k)
      = ∑ l in Finset.range (n - k),
          s.A (k + l + n * c) * (if l = 0 then 1 else g.2.1 (l - 1)) := by
    intro c hc
    refine Finset.sum_congr rfl (fun l hl => ?_)
    have hl := Finset.mem_range.mp hl
    rw [o3 _ c (by omega) hc, w3 l hl]
  have hFnew : ∀ r, j < r → r < s.pb → s6.F (r + s.pb * j)
      = g.2.2 * (∑ l in Finset.range (n - k),
            s.A (k + l + n * (s.jb + r)) * (if l = 0 then 1 else g.2.1 (l - 1)))
        + g.2.2 * ∑ t in Finset.range j, s.F (r + s.pb * t)
            * (- ∑ l in Finset.range (n - k),
                s.A (k + l + n * (s.jb + t)) * (if l = 0 then 1 else g.2.1 (l - 1))) := by
    intro r' hr1 hr2
    rw [r1, Nat.mul_comm s.pb j, d5 r' hr2, c6 r' (by omega) (by omega), e3tau, store_same,
      hdot _ (by omega)]
    congr 2
    refine Finset.sum_congr rfl (fun t ht => ?_)
    have ht := Finset.mem_range.mp ht
    rw [hF4old r' t hr2 ht, hdot _ (by omega)]
  refine ⟨by rw [rc4, dc4, cc4, e3piv], by rw [rc1, e5jb], by rw [rc2, e5pb],
    by rw [rc3, dc3, cc3, e3nb], by rw [r2, d2, c2, e3tau], a6, hFold, hFnew, ?_, ?_, ?_, ?_,
    ?_, ?_⟩
  · intro i c hi hc hik
    have g1 := cell_ne n i c k k hi hkn (Or.inr hc)
    have := fk c
    have := fk k
    rw [store_ne _ _ _ _ (by omega), r6 _ (fun r' hr1 hr2 => by
      have g2 := cell_ne n i c k (s.jb + r') hi hkn (Or.inl hik)
      have := fk (s.jb + r')
      omega)]
    exact o3 i c hi hc
  · intro c hc
    have g1 := cell_ne n k c k k hkn hkn (Or.inr (by omega))
    have := fk c
    have := fk k
    rw [store_ne _ _ _ _ (by omega), r6 _ (fun r' hr1 hr2 => by
      have g2 := cell_ne n k c k (s.jb + r') hkn hkn (Or.inr (by omega))
      have := fk (s.jb + r')
      omega)]
    exact o3 k c hkn (by omega)
  · intro i hi
    have := fk k
    rw [store_ne _ _ _ _ (by omega), r6 _ (fun r' hr1 hr2 => by
      have g2 := cell_ne n i k k (s.jb + r') (by omega) hkn (Or.inl (by omega))
      have := fk (s.jb + r')
      omega)]
    exact l3 i hi
  · rw [show k + n * k = n * k + k by omega, store_same]
  · intro i hi1 hi2
    have := fk k
    rw [store_ne _ _ _ _ (by omega), r6 _ (fun r' hr1 hr2 => by
      have g2 := cell_ne n i k k (s.jb + r') (by omega) hkn (Or.inl (by omega))
      have := fk (s.jb + r')
      omega)]
    have := w3 (i - k) (by omega)
    rw [show k + (i - k) + n * k = i + n * k by omega, if_neg (by omega)] at this
    rw [this]
  · intro r' hr1 hr2
    have g1 := cell_ne n k (s.jb + r') k k hkn hkn (Or.inr (by omega))
    have := fk (s.jb + r')
    have := fk k
    rw [store_ne _ _ _ _ (by omega), r5 r' (by omega) hr2, o3 k _ hkn (by omega)]
    congr 1
    refine Finset.sum_congr rfl (fun l hl => ?_)
    have hl := Finset.mem_range.mp hl
    rw [r1]
    congr 1
    by_cases e : l = j
    · rw [if_pos e, e, ← hk]
      have := w3 0 (by omega)
      rw [if_pos rfl, Nat.add_zero] at this
      exact this
    · rw [if_neg e]
      exact o3 k _ hkn (by omega)

/-- The exchange of the pivot column `q` with column `k = jb + j` keeps the relation
between the input and the state of `bpqr`. -/
theorem bpqrSwap_inv [LinearOrderedField α] (X : Nat → α) (n p j q : Nat) (s : BpqrState α)
    (h : BpqrInv X n p j s) (hq1 : s.jb + j ≤ q) (hq2 : q < p) :
    BpqrInv X n p j (bpqrSwap n q j s) := by
  obtain ⟨e1, e2, e3, e4, e5⟩ := bpqrSwap_cells n q j s hq1 (by rw [h.pb]; exact hq2)
  have ejb : (bpqrSwap n q j s).jb = s.jb := rfl
  have epb : (bpqrSwap n q j s).pb = s.pb := rfl
  have enb : (bpqrSwap n q j s).nb = s.nb := rfl
  have hpb := h.pb
  have hsw : ∀ c, c < s.jb + j → Equiv.swap (s.jb + j) q c = c := fun c hc =>
    Equiv.swap_apply_of_ne_of_ne (by omega) (by omega)
  have hswlt : ∀ c, c < p → Equiv.swap (s.jb + j) q c < p := by
    intro c hc
    by_cases e1 : c = s.jb + j
    · rw [e1, Equiv.swap_apply_left]; exact hq2
    · by_cases e2 : c = q
      · rw [e2, Equiv.swap_apply_right]; omega
      · rw [Equiv.swap_apply_of_ne_of_ne e1 e2]; exact hc
  have hswge : ∀ c, s.jb + j ≤ c → s.jb + j ≤ Equiv.swap (s.jb + j) q c := by
    intro c hc
    by_cases e1 : c = s.jb + j
    · rw [e1, Equiv.swap_apply_left]; exact hq1
    · by_cases e2 : c = q
      · rw [e2, Equiv.swap_apply_right]
      · rw [Equiv.swap_apply_of_ne_of_ne e1 e2]; exact hc
  have hswF : ∀ c, s.jb + j ≤ c →
      Equiv.swap j (q - s.jb) (c - s.jb) = Equiv.swap (s.jb + j) q c - s.jb := by
    intro c hc
    by_cases e1 : c = s.jb + j
    · rw [e1, Equiv.swap_apply_left, Nat.add_sub_cancel_left, Equiv.swap_apply_left]
    · by_cases e2 : c = q
      · rw [e2, Equiv.swap_apply_right, Equiv.swap_apply_right, Nat.add_sub_cancel_left]
      · rw [Equiv.swap_apply_of_ne_of_ne e1 e2,
          Equiv.swap_apply_of_ne_of_ne (by omega) (by omega)]
  have hcongr : ∀ y : Nat → α,
      houseSeq (bpqrSwap n q j s).A (bpqrSwap n q j s).tau n (s.jb + j) y
        = houseSeq s.A s.tau n (s.jb + j) y := by
    intro y
    refine houseSeq_congr _ _ _ _ n _ y (fun t _ => by rw [e1]) (fun t i ht hti hi => ?_)
    rw [e4 i t hi, hsw t ht]
  have hpiv : ∀ c, (bpqrSwap n q j s).piv c = s.piv (Equiv.swap (s.jb + j) q c) := by
    intro c
    rw [e3, swapCells_eq_comp, Equiv.swap_comm]
  refine
    { pb := hpb
      jle := h.jle
      perm := by rw [e3]; exact isPerm_swap p s.piv q (s.jb + j) hq2 (by omega) h.perm
      done := ?_
      lazy := ?_
      orth := ?_ }
  · intro c i hc hi hci
    simp only [ejb]
    rw [hcongr, hpiv, e4 i c hi]
    by_cases e : c < s.jb + j
    · rw [hsw c e]
      exact h.done c i hc hi (Or.inl e)
    · have hi' : i < s.jb + j := by
        rcases hci with hh | hh
        · rw [ejb] at hh; omega
        · rw [ejb] at hh; exact hh
      have := hswge c (by omega)
      rw [h.done _ i (hswlt c hc) hi (Or.inr hi'),
        if_neg (fun hh : Equiv.swap (s.jb + j) q c < s.jb + j ∧ _ => by omega),
        if_neg (fun hh : c < s.jb + j ∧ _ => e hh.1)]
  · intro c i hc1 hc2 hi1 hi2
    rw [ejb] at hc1 hi1
    simp only [ejb, epb]
    rw [hcongr, hpiv, e4 i c hi2,
      h.lazy _ i (hswge c hc1) (hswlt c hc2) hi1 hi2]
    congr 1
    refine Finset.sum_congr rfl (fun t ht => ?_)
    have ht := Finset.mem_range.mp ht
    have hjl := h.jle
    rw [e4 i _ hi2, hsw (s.jb + t) (by omega), e5 (c - s.jb) t (by omega) (by omega),
      hswF c hc1]
  · intro t ht
    have ht : t < s.jb + j := ht
    rw [e1, hv_congr (bpqrSwap n q j s).A s.A n t (fun i _ hi => by rw [e4 i t hi, hsw t ht])]
    exact h.orth t ht

/-- One pass of the `j` loop of `bpqr` keeps the relation between the input and the state,
for a `dlarfg` that returns a reflector which clears the entries after the first. -/
theorem bpqrCol_inv [LinearOrderedField α]
    (dlarfg : Nat → α → (Nat → α) → α × (Nat → α) × α) (hd : DlarfgSpec dlarfg) (tol : α)
    (X : Nat → α) (n p nt j : Nat) (hnt : 1 ≤ nt) (hpn : p ≤ n) (s : BpqrState α)
    (h : BpqrInv X n p j s) (hkp : s.jb + j < p) (hjnb : j < s.nb) :
    BpqrInv X n p (j + 1) (bpqrCol dlarfg tol n p nt j s) := by
  obtain ⟨k, hk⟩ : ∃ k, k = s.jb + j := ⟨_, rfl⟩
  obtain ⟨q1, q2⟩ := bpqrPivot_range s.cn p k (by omega)
  obtain ⟨s1, hs1⟩ : ∃ s1, s1 = if (bpqrPivot s.cn p k).2 ≠ k
      then bpqrSwap n (bpqrPivot s.cn p k).2 j s else s := ⟨_, rfl⟩
  have h1 : BpqrInv X n p j s1 ∧ s1.jb = s.jb ∧ s1.nb = s.nb := by
    rw [hs1]
    by_cases c : (bpqrPivot s.cn p k).2 ≠ k
    · rw [if_pos c]
      exact ⟨bpqrSwap_inv X n p j _ s h (by omega) q2, rfl, rfl⟩
    · rw [if_neg c]
      exact ⟨h, rfl, rfl⟩
  obtain ⟨h1, e1jb, e1nb⟩ := h1
  obtain ⟨s2, hs2⟩ : ∃ s2, s2 = bpqrColUpdate n nt (n - k) j s1 := ⟨_, rfl⟩
  obtain ⟨g, hg⟩ : ∃ g, g = dlarfg (n - k) (s2.A (n * k + k))
    (fun t => s2.A (n * k + k + 1 + t)) := ⟨_, rfl⟩
  obtain ⟨s3, hs3⟩ : ∃ s3, s3 = ({ s2 with
      A := store (forLoop (n - k - 1) (fun t A => store A (n * k + k + 1 + t) (g.2.1 t)) s2.A)
        (n * k + k) 1
      tau := store s2.tau k g.2.2 } : BpqrState α) := ⟨_, rfl⟩
  obtain ⟨s6, hs6⟩ : ∃ s6, s6 = bpqrRowUpdate n p nt j
    (bpqrFfix n nt (n - k) j (bpqrFcol n p nt (n - k) j s3)) := ⟨_, rfl⟩
  obtain ⟨u1, u2, u3, u4, u5, u6, u7⟩ :=
    bpqrCol_unfold dlarfg tol n p nt j s k hk s1 hs1 s2 hs2 g hg s3 hs3 s6 hs6
  have hk1 : s1.jb + j = k := by rw [e1jb, hk]
  obtain ⟨c1, c2, c3, c4, c5, c6, c7, c8, c9, c10, c11, c12, c13, c14⟩ :=
    bpqrPipe_cells n p nt j s1 hnt h1.pb (by omega) hpn k hk1.symm s2 hs2 g s3 hs3 s6 hs6
  have hkn : k < n := by omega
  have hpb := h1.pb
  have hjle := h1.jle
  have hdone := h1.done
  have hlazy := h1.lazy
  have hperm := h1.perm
  have horth := h1.orth
  rw [hk1] at hdone hlazy horth
  -- the state after the pass
  generalize bpqrCol dlarfg tol n p nt j s = S at u1 u2 u3 u4 u5 u6 u7 ⊢
  rw [← u1] at c9 c10 c11 c12 c13 c14
  rw [← u2] at c7 c8 c14
  have eSjb : S.jb = s1.jb := by rw [u5, c2]
  have eSpb : S.pb = s1.pb := by rw [u6, c3]
  have eSpiv : S.piv = s1.piv := by rw [u4, c1]
  have eStau : S.tau = store s1.tau k g.2.2 := by rw [u3, c5]
  have eSnb : j + 1 ≤ S.nb := by
    rcases u7 with u7 | u7
    · rw [u7, c4, e1nb]; omega
    · rw [u7]
  clear u1 u2 u3 u4 u5 u6 u7 c1 c2 c3 c4 c5 hs6 hs3 hs1 h h1 q1 q2 e1nb hjnb
  -- the first `k` reflectors are unchanged
  have hcongr : ∀ y : Nat → α, houseSeq S.A S.tau n k y = houseSeq s1.A s1.tau n k y := by
    intro y
    refine houseSeq_congr _ _ _ _ n k y (fun t ht => ?_) (fun t i ht hti hi => ?_)
    · rw [eStau, store_ne _ _ _ _ (by omega)]
    · by_cases e : i = k
      · rw [e]; exact c10 t ht
      · exact c9 i t hi (by omega) e
  -- the new reflector
  have hnew : ∀ (y : Nat → α) (i : Nat), houseSeq S.A S.tau n (k + 1) y i
      = houseSeq s1.A s1.tau n k y i
        - g.2.2 * (houseSeq s1.A s1.tau n k y k
            + ∑ t in Finset.range (n - k - 1), g.2.1 t * houseSeq s1.A s1.tau n k y (k + 1 + t))
          * hv S.A n k i := by
    intro y i
    show houseApply (S.tau k) (hv S.A n k) (houseSeq S.A S.tau n k y) n i = _
    rw [hcongr]
    unfold houseApply
    rw [hv_dot S.A n k hkn (houseSeq s1.A s1.tau n k y), eStau, store_same]
    have hs : ∑ t in Finset.range (n - k - 1),
        S.A (k + 1 + t + n * k) * houseSeq s1.A s1.tau n k y (k + 1 + t)
        = ∑ t in Finset.range (n - k - 1), g.2.1 t * houseSeq s1.A s1.tau n k y (k + 1 + t) := by
      refine Finset.sum_congr rfl (fun t ht => ?_)
      have ht := Finset.mem_range.mp ht
      rw [c13 _ (by omega) (by omega), show k + 1 + t - k - 1 = t by omega]
    rw [hs]
  have hvlt : ∀ i, i < k → hv S.A n k i = 0 := fun i hi => hv_lt _ n k i hi
  have hvgt : ∀ i, k < i → i < n → hv S.A n k i = g.2.1 (i - k - 1) := fun i h1 h2 => by
    rw [hv_gt _ n k i h1 h2, c13 i h1 h2]
  -- the inner product with the new reflector vector, as one sum
  have hdotw : ∀ Y : Nat → α, Y k + ∑ t in Finset.range (n - k - 1), g.2.1 t * Y (k + 1 + t)
      = ∑ l in Finset.range (n - k), Y (k + l) * (if l = 0 then 1 else g.2.1 (l - 1)) := by
    intro Y
    have en : n - k = (n - k - 1) + 1 := by omega
    rw [en, Finset.sum_range_succ', if_pos rfl, Nat.add_zero, mul_one, add_comm]
    congr 1
    refine Finset.sum_congr rfl (fun t _ => ?_)
    rw [if_neg (by omega), Nat.add_sub_cancel, show k + (t + 1) = k + 1 + t by omega, mul_comm]
  -- the result of `dlarfg`
  obtain ⟨d1, d2, d3⟩ := hd (n - k) (s2.A (n * k + k)) (fun t => s2.A (n * k + k + 1 + t))
    (by omega)
  rw [← hg] at d1 d2 d3
  have fc : ∀ t, n * k + k + 1 + t = k + 1 + t + n * k := by intro t; ring
  have fc0 : n * k + k = k + n * k := by ring
  simp only [fc] at d1 d2
  simp only [fc0] at d1 d2
  -- the columns after the new reflector
  have key : ∀ c, c < p → ∀ i, i < n →
      houseSeq S.A S.tau n (k + 1) (fun l => X (l + n * S.piv c)) i
        = if c < k then (if c < i then 0 else s1.A (i + n * c))
          else if c = k then (if i < k then s1.A (i + n * k) else if i = k then g.1 else 0)
          else if i < k then s1.A (i + n * c)
          else (s1.A (i + n * c)
              - ∑ t in Finset.range j, s1.A (i + n * (s1.jb + t)) * s1.F (c - s1.jb + s1.pb * t))
            - S.F (c - s1.jb + s1.pb * j) * (if i = k then 1 else g.2.1 (i - k - 1)) := by
    intro c hc i hi
    rw [hnew, eSpiv]
    have hYd : ∀ l, l < n → (c < k ∨ l < k) →
        houseSeq s1.A s1.tau n k (fun l => X (l + n * s1.piv c)) l
          = if c < k ∧ c < l then 0 else s1.A (l + n * c) := fun l hl h' => hdone c l hc hl h'
    have hYl : k ≤ c → ∀ l, k ≤ l → l < n →
        houseSeq s1.A s1.tau n k (fun l => X (l + n * s1.piv c)) l
          = s1.A (l + n * c)
            - ∑ t in Finset.range j, s1.A (l + n * (s1.jb + t)) * s1.F (c - s1.jb + s1.pb * t) :=
      fun h' l hl1 hl2 => hlazy c l h' hc hl1 hl2
    generalize houseSeq s1.A s1.tau n k (fun l => X (l + n * s1.piv c)) = Y at hYd hYl
    by_cases e1 : c < k
    · rw [if_pos e1]
      have hz : Y k + ∑ t in Finset.range (n - k - 1), g.2.1 t * Y (k + 1 + t) = 0 := by
        rw [hYd k hkn (Or.inl e1), if_pos ⟨e1, e1⟩, zero_add]
        refine Finset.sum_eq_zero (fun t ht => ?_)
        have ht := Finset.mem_range.mp ht
        rw [hYd _ (by omega) (Or.inl e1), if_pos ⟨e1, by omega⟩, mul_zero]
      rw [hz, mul_zero, zero_mul, sub_zero, hYd i hi (Or.inl e1)]
      by_cases e2 : c < i
      · rw [if_pos ⟨e1, e2⟩, if_pos e2]
      · rw [if_neg (fun hh => e2 hh.2), if_neg e2]
    · rw [if_neg e1]
      by_cases e2 : c = k
      · rw [if_pos e2]
        have hYk : ∀ l, k ≤ l → l < n → Y l = s2.A (l + n * k) := by
          intro l hl1 hl2
          rw [hYl (by omega) l hl1 hl2, c6 l hl1 hl2, e2, show k - s1.jb = j by omega]
        have hD : Y k + ∑ t in Finset.range (n - k - 1), g.2.1 t * Y (k + 1 + t)
            = s2.A (k + n * k)
              + ∑ t in Finset.range (n - k - 1), g.2.1 t * s2.A (k + 1 + t + n * k) := by
          rw [hYk k le_rfl hkn]
          congr 1
          refine Finset.sum_congr rfl (fun t ht => ?_)
          have ht := Finset.mem_range.mp ht
          rw [hYk _ (by omega) (by omega)]
        rw [hD]
        by_cases e3 : i < k
        · rw [if_pos e3, hvlt i e3, mul_zero, sub_zero, hYd i hi (Or.inr e3),
            if_neg (fun hh => e1 hh.1), e2]
        · rw [if_neg e3]
          by_cases e4 : i = k
          · rw [if_pos e4, e4, hv_self, mul_one, hYk k le_rfl hkn]
            exact d1
          · rw [if_neg e4, hvgt i (by omega) hi, hYk i (by omega) hi]
            have := d2 (i - k - 1) (by omega)
            rw [show k + 1 + (i - k - 1) = i by omega] at this
            exact this
      · rw [if_neg e2]
        have hck : k < c := by omega
        have hFd : S.F (c - s1.jb + s1.pb * j)
            = g.2.2 * (Y k + ∑ t in Finset.range (n - k - 1), g.2.1 t * Y (k + 1 + t)) := by
          rw [c8 (c - s1.jb) (by omega) (by omega), hdotw Y, ← mul_add]
          congr 1
          have hYw : ∑ l in Finset.range (n - k), Y (k + l) * (if l = 0 then 1 else g.2.1 (l - 1))
              = ∑ l in Finset.range (n - k), (s1.A (k + l + n * c)
                  - ∑ t in Finset.range j,
                      s1.A (k + l + n * (s1.jb + t)) * s1.F (c - s1.jb + s1.pb * t))
                * (if l = 0 then 1 else g.2.1 (l - 1)) := by
            refine Finset.sum_congr rfl (fun l hl => ?_)
            have hl := Finset.mem_range.mp hl
            rw [hYl (by omega) (k + l) (by omega) (by omega)]
          rw [hYw, show s1.jb + (c - s1.jb) = c by omega]
          simp only [sub_mul, Finset.sum_sub_distrib, Finset.sum_mul, Finset.mul_sum, mul_neg,
            Finset.sum_neg_distrib]
          rw [sub_eq_add_neg]
          congr 2
          rw [Finset.sum_comm]
          refine Finset.sum_congr rfl (fun l _ => ?_)
          refine Finset.sum_congr rfl (fun t _ => ?_)
          ring
        rw [hFd]
        by_cases e3 : i < k
        · rw [if_pos e3, hvlt i e3, mul_zero, sub_zero, hYd i hi (Or.inr e3),
            if_neg (fun hh => e1 hh.1)]
        · rw [if_neg e3, hYl (by omega) i (by omega) hi]
          have hvi : hv S.A n k i = if i = k then 1 else g.2.1 (i - k - 1) := by
            by_cases e4 : i = k
            · rw [if_pos e4, e4, hv_self]
            · rw [if_neg e4, hvgt i (by omega) hi]
          rw [hvi]
  have hk2 : s1.jb + (j + 1) = k + 1 := by omega
  refine
    { pb := by rw [eSjb, eSpb]; exact hpb
      jle := eSnb
      perm := by rw [eSpiv]; exact hperm
      done := ?_
      lazy := ?_
      orth := ?_ }
  · intro c i hc hi hci
    simp only [eSjb, hk2] at hci ⊢
    rw [key c hc i hi]
    by_cases e1 : c < k
    · rw [if_pos e1]
      have hA : S.A (i + n * c) = s1.A (i + n * c) := by
        by_cases e : i = k
        · rw [e]; exact c10 c e1
        · exact c9 i c hi (by omega) e
      rw [hA]
      by_cases e2 : c < i
      · rw [if_pos e2, if_pos ⟨by omega, e2⟩]
      · rw [if_neg e2, if_neg (fun hh => e2 hh.2)]
    · rw [if_neg e1]
      by_cases e2 : c = k
      · rw [if_pos e2, e2]
        by_cases e3 : i < k
        · rw [if_pos e3, if_neg (fun hh : k < k + 1 ∧ k < i => by omega), c11 i e3]
        · rw [if_neg e3]
          by_cases e4 : i = k
          · rw [if_pos e4, if_neg (fun hh : k < k + 1 ∧ k < i => by omega), e4, c12]
          · rw [if_neg e4, if_pos ⟨by omega, by omega⟩]
      · rw [if_neg e2, if_neg (fun hh : c < k + 1 ∧ c < i => by omega)]
        have hik : i < k + 1 := by
          rcases hci with hh | hh
          · omega
          · exact hh
        by_cases e3 : i < k
        · rw [if_pos e3, c9 i c hi e2 (by omega)]
        · rw [if_neg e3]
          have eik : i = k := by omega
          rw [if_pos eik, eik, mul_one]
          have := c14 (c - s1.jb) (by omega) (by omega)
          rw [show s1.jb + (c - s1.jb) = c by omega] at this
          rw [this, Finset.sum_range_succ, if_pos rfl, mul_one, sub_add_eq_sub_sub]
          congr 2
          refine Finset.sum_congr rfl (fun t ht => ?_)
          have ht := Finset.mem_range.mp ht
          rw [if_neg (by omega), c7 _ t (by omega) ht, mul_comm]
  · intro c i hc1 hc2 hi1 hi2
    simp only [eSjb, eSpb, hk2] at hc1 hi1 ⊢
    rw [key c hc2 i hi2, if_neg (by omega : ¬ c < k), if_neg (by omega : ¬ c = k),
      if_neg (by omega : ¬ i < k), if_neg (by omega : ¬ i = k), Finset.sum_range_succ, c9 i c hi2 (by omega) (by omega),
      sub_add_eq_sub_sub]
    congr 1
    · congr 1
      refine Finset.sum_congr rfl (fun t ht => ?_)
      have ht := Finset.mem_range.mp ht
      rw [c9 i _ hi2 (by omega) (by omega), c7 _ t (by omega) ht]
    · rw [show s1.jb + j = k by omega, c13 i (by omega) hi2, mul_comm]
  · intro t ht
    rw [eSjb, hk2] at ht
    by_cases e : t = k
    · rw [e, eStau, store_same, hv_dot S.A n k hkn (hv S.A n k), hv_self]
      have hs : ∑ t in Finset.range (n - k - 1), S.A (k + 1 + t + n * k) * hv S.A n k (k + 1 + t)
          = ∑ t in Finset.range (n - k - 1), g.2.1 t * g.2.1 t := by
        refine Finset.sum_congr rfl (fun t ht => ?_)
        have ht := Finset.mem_range.mp ht
        rw [hvgt _ (by omega) (by omega), c13 _ (by omega) (by omega),
          show k + 1 + t - k - 1 = t by omega]
      rw [hs]
      exact d3
    · have htk : t < k := by omega
      rw [eStau, store_ne _ _ _ _ e, hv_congr S.A s1.A n t (fun i hti hi => by
        by_cases e' : i = k
        · rw [e']; exact c10 t htk
        · exact c9 i t hi (by omega) e')]
      exact horth t htk

/-- One pass of the `j` loop of `bpqr` either keeps `nb` and `brk`, or leaves the loop with
`nb = j + 1`. -/
theorem bpqrCol_brk [LinearOrderedField α]
    (dlarfg : Nat → α → (Nat → α) → α × (Nat → α) × α) (tol : α) (n p nt j : Nat)
    (s : BpqrState α) :
    ((bpqrCol dlarfg tol n p nt j s).nb = s.nb ∧ (bpqrCol dlarfg tol n p nt j s).brk = s.brk) ∨
    ((bpqrCol dlarfg tol n p nt j s).nb = j + 1 ∧ (bpqrCol dlarfg tol n p nt j s).brk = true) := by
  have hs1 : ∀ s1 : BpqrState α,
      s1 = (if (bpqrPivot s.cn p (s.jb + j)).2 ≠ s.jb + j
        then bpqrSwap n (bpqrPivot s.cn p (s.jb + j)).2 j s else s) →
      s1.nb = s.nb ∧ s1.brk = s.brk := by
    intro s1 h
    by_cases c : (bpqrPivot s.cn p (s.jb + j)).2 ≠ s.jb + j
    · rw [if_pos c] at h
      subst h
      exact ⟨rfl, rfl⟩
    · rw [if_neg c] at h
      subst h
      exact ⟨rfl, rfl⟩
  have a3 : ∀ m (s : BpqrState α), (bpqrColUpdate n nt m j s).nb = s.nb :=
    fun m s => (bpqrColUpdate_ctl n nt m j s).2.2.1
  have a5 : ∀ m (s : BpqrState α), (bpqrColUpdate n nt m j s).brk = s.brk :=
    fun m s => (bpqrColUpdate_ctl n nt m j s).2.2.2.2
  have b3 : ∀ m (s : BpqrState α), (bpqrFcol n p nt m j s).nb = s.nb :=
    fun m s => (bpqrFcol_ctl n p nt m j s).2.2.1
  have b5 : ∀ m (s : BpqrState α), (bpqrFcol n p nt m j s).brk = s.brk :=
    fun m s => (bpqrFcol_ctl n p nt m j s).2.2.2.2
  have c3 : ∀ m (s : BpqrState α), (bpqrFfix n nt m j s).nb = s.nb :=
    fun m s => (bpqrFfix_ctl n nt m j s).2.2.1
  have c5 : ∀ m (s : BpqrState α), (bpqrFfix n nt m j s).brk = s.brk :=
    fun m s => (bpqrFfix_ctl n nt m j s).2.2.2.2
  have d3 : ∀ (s : BpqrState α), (bpqrRowUpdate n p nt j s).nb = s.nb :=
    fun s => (bpqrRowUpdate_ctl n p nt j s).2.2.1
  have d5 : ∀ (s : BpqrState α), (bpqrRowUpdate n p nt j s).brk = s.brk :=
    fun s => (bpqrRowUpdate_ctl n p nt j s).2.2.2.2
  obtain ⟨e3, e5⟩ := hs1 _ rfl
  unfold bpqrCol
  simp only
  generalize (if (bpqrPivot s.cn p (s.jb + j)).2 ≠ s.jb + j
        then bpqrSwap n (bpqrPivot s.cn p (s.jb + j)).2 j s else s) = s1 at e3 e5 ⊢
  split_ifs
  · simp only [a3, a5, b3, b5, c3, c5, d3, d5, e3, e5]
    exact Or.inl ⟨trivial, trivial⟩
  · simp only [a3, a5, b3, b5, c3, c5, d3, d5, e3, e5]
    exact Or.inr ⟨trivial, trivial⟩

/-- The `j` loop of `bpqr` from the first column of a block: at its end `nb` columns of the
block are done, where `nb` is the target number or the number at which the loop was left,
and the relation between the input and the state holds for them. -/
theorem bpqrCols_inv [LinearOrderedField α]
    (dlarfg : Nat → α → (Nat → α) → α × (Nat → α) × α) (hd : DlarfgSpec dlarfg) (tol : α)
    (X : Nat → α) (n p nt : Nat) (hnt : 1 ≤ nt) (hpn : p ≤ n) (s : BpqrState α)
    (h : BpqrInv X n p 0 s) (hb : s.brk = false) (hj : s.j = 0) (hnb : s.jb + s.nb ≤ p)
    (m : Nat) (hm : m ≤ s.nb) :
    ∃ d, BpqrInv X n p d (forLoop m (fun j (s : BpqrState α) =>
        if s.brk then s else bpqrCol dlarfg tol n p nt j s) s) ∧
      (forLoop m (fun j (s : BpqrState α) =>
        if s.brk then s else bpqrCol dlarfg tol n p nt j s) s).j = d ∧
      (1 ≤ d → (forLoop m (fun j (s : BpqrState α) =>
        if s.brk then s else bpqrCol dlarfg tol n p nt j s) s).k = s.jb + d - 1) ∧
      (forLoop m (fun j (s : BpqrState α) =>
        if s.brk then s else bpqrCol dlarfg tol n p nt j s) s).jb = s.jb ∧
      (((forLoop m (fun j (s : BpqrState α) =>
          if s.brk then s else bpqrCol dlarfg tol n p nt j s) s).brk = false ∧ d = m ∧
        (forLoop m (fun j (s : BpqrState α) =>
          if s.brk then s else bpqrCol dlarfg tol n p nt j s) s).nb = s.nb) ∨
       ((forLoop m (fun j (s : BpqrState α) =>
          if s.brk then s else bpqrCol dlarfg tol n p nt j s) s).brk = true ∧ 1 ≤ d ∧ d ≤ m ∧
        (forLoop m (fun j (s : BpqrState α) =>
          if s.brk then s else bpqrCol dlarfg tol n p nt j s) s).nb = d)) := by
  induction m with
  | zero =>
    exact ⟨0, h, hj, fun h0 => by omega, rfl, Or.inl ⟨hb, rfl, rfl⟩⟩
  | succ m ih =>
    obtain ⟨d, i1, i2, i3, i4, i5⟩ := ih (by omega)
    rw [forLoop_succ]
    generalize forLoop m _ s = S at i1 i2 i3 i4 i5 ⊢
    rcases i5 with ⟨b1, b2, b3⟩ | ⟨b1, b2, b3, b4⟩
    · rw [if_neg (by rw [b1]; exact Bool.false_ne_true)]
      subst b2
      obtain ⟨-, -, -, -, c5, c6⟩ := bpqrCol_ctl dlarfg tol n p nt d S
      obtain ⟨c1, -, -, -, -, -⟩ := bpqrCol_ctl dlarfg tol n p nt d S
      have hinv := bpqrCol_inv dlarfg hd tol X n p nt d hnt hpn S i1 (by rw [i4]; omega)
        (by rw [b3]; omega)
      refine ⟨d + 1, hinv, c5, fun _ => by rw [c6, i4]; omega, by rw [c1, i4], ?_⟩
      rcases bpqrCol_brk dlarfg tol n p nt d S with ⟨k1, k2⟩ | ⟨k1, k2⟩
      · exact Or.inl ⟨by rw [k2, b1], rfl, by rw [k1, b3]⟩
      · exact Or.inr ⟨k2, by omega, le_rfl, k1⟩
    · rw [if_pos b1]
      exact ⟨d, i1, i2, i3, i4, Or.inr ⟨b1, b2, by omega, b4⟩⟩

/-- The state after one pass of the loop `while (jb < p)` of `bpqr` in terms of the state
after the `j` loop. -/
theorem bpqrBlock_unfold [LinearOrderedField α]
    (dlarfg : Nat → α → (Nat → α) → α × (Nat → α) × α) (tol : α) (n p nt nb0 : Nat)
    (s : BpqrState α) (nb : Nat) (hnb : nb = if p - s.jb > nb0 then nb0 else p - s.jb)
    (s0 : BpqrState α)
    (hs0 : s0 = { s with nb := nb, F := forLoop (nb * s.pb) (fun t F => store F t 0) s.F,
                         j := 0, brk := false })
    (S1 : BpqrState α)
    (hS1 : S1 = forLoop nb (fun j (s : BpqrState α) =>
      if s.brk then s else bpqrCol dlarfg tol n p nt j s) s0)
    (s2 : BpqrState α) (hs2 : s2 = { S1 with j := S1.j - 1 })
    (ua : BpqrState α × Nat)
    (hua : ua = if s2.k + 1 < p then bpqrBlockUpdate n p nt s2 else (s2, 0)) :
    (bpqrBlock dlarfg tol n p nt nb0 s).A = ua.1.A ∧
    (bpqrBlock dlarfg tol n p nt nb0 s).tau = ua.1.tau ∧
    (bpqrBlock dlarfg tol n p nt nb0 s).piv = ua.1.piv ∧
    (bpqrBlock dlarfg tol n p nt nb0 s).jb = ua.1.jb + ua.1.nb ∧
    (bpqrBlock dlarfg tol n p nt nb0 s).pb = ua.1.pb - ua.1.nb := by
  subst hnb hs0 hS1 hs2 hua
  unfold bpqrBlock
  simp only
  split_ifs <;> exact ⟨rfl, rfl, rfl, rfl, rfl⟩

/-- One pass of the loop `while (jb < p)` of `bpqr` keeps the relation between the input
and the state. -/
theorem bpqrBlock_inv [LinearOrderedField α]
    (dlarfg : Nat → α → (Nat → α) → α × (Nat → α) × α) (hd : DlarfgSpec dlarfg) (tol : α)
    (X : Nat → α) (n p nt nb0 : Nat) (hnt : 1 ≤ nt) (hpn : p ≤ n) (hnb0 : 1 ≤ nb0)
    (s : BpqrState α) (h : BpqrOuter X n p s) (hjb : s.jb < p) :
    BpqrOuter X n p (bpqrBlock dlarfg tol n p nt nb0 s) := by
  obtain ⟨nb, hnb⟩ : ∃ nb, nb = if p - s.jb > nb0 then nb0 else p - s.jb := ⟨_, rfl⟩
  have hnb1 : 1 ≤ nb ∧ s.jb + nb ≤ p := by
    rw [hnb]; split_ifs <;> omega
  obtain ⟨s0, hs0⟩ : ∃ s0 : BpqrState α, s0 =
      { s with
        nb := nb
        F := forLoop (nb * s.pb) (fun t F => store F t 0) s.F
        j := 0
        brk := false } := ⟨_, rfl⟩
  obtain ⟨S1, hS1⟩ : ∃ S1, S1 = forLoop nb (fun j (s : BpqrState α) =>
      if s.brk then s else bpqrCol dlarfg tol n p nt j s) s0 := ⟨_, rfl⟩
  obtain ⟨s2, hs2⟩ : ∃ s2 : BpqrState α, s2 = { S1 with j := S1.j - 1 } := ⟨_, rfl⟩
  obtain ⟨ua, hua⟩ : ∃ ua, ua = if s2.k + 1 < p then bpqrBlockUpdate n p nt s2 else (s2, 0) :=
    ⟨_, rfl⟩
  obtain ⟨u1, u2, u3, u4, u5⟩ := bpqrBlock_unfold dlarfg tol n p nt nb0 s nb hnb s0 hs0 S1 hS1
    s2 hs2 ua hua
  -- the state at the start of the block
  have e0jb : s0.jb = s.jb := by rw [hs0]
  have e0nb : s0.nb = nb := by rw [hs0]
  have h0 : BpqrInv X n p 0 s0 := by
    have hq := h.qr
    rw [hs0]
    exact
      { pb := h.pb
        jle := Nat.zero_le _
        perm := h.perm
        done := fun c i hc hi _ => hq c i hc hi
        lazy := fun c i hc1 hc2 hi1 hi2 => by
          show houseSeq s.A s.tau n (s.jb + 0) (fun l => X (l + n * s.piv c)) i = _
          have hc1 : s.jb + 0 ≤ c := hc1
          rw [Finset.sum_range_zero, sub_zero, Nat.add_zero, hq c i hc2 hi2,
            if_neg (fun hh => by omega)]
        orth := h.orth }
  -- the `j` loop
  obtain ⟨d, i1, i2, i3, i4, i5⟩ := bpqrCols_inv dlarfg hd tol X n p nt hnt hpn s0 h0
    (by rw [hs0]) (by rw [hs0]) (by rw [e0jb, e0nb]; exact hnb1.2) nb (by rw [e0nb])
  rw [← hS1] at i1 i2 i3 i4 i5
  rw [e0jb] at i3 i4
  rw [e0nb] at i5
  have hd1 : 1 ≤ d ∧ d ≤ nb ∧ S1.nb = d := by
    rcases i5 with ⟨-, b2, b3⟩ | ⟨-, b2, b3, b4⟩
    · exact ⟨by omega, by omega, by rw [b3, b2]⟩
    · exact ⟨b2, b3, b4⟩
  obtain ⟨hd1, hd2, hd3⟩ := hd1
  have hk := i3 hd1
  have e2k : s2.k = s.jb + d - 1 := by rw [hs2]; exact hk
  have e2jb : s2.jb = s.jb := by rw [hs2]; exact i4
  have e2nb : s2.nb = d := by rw [hs2]; exact hd3
  have e2j : s2.j = d - 1 := by rw [hs2]; show S1.j - 1 = d - 1; rw [i2]
  have e2A : s2.A = S1.A := by rw [hs2]
  have e2F : s2.F = S1.F := by rw [hs2]
  have e2tau : s2.tau = S1.tau := by rw [hs2]
  have e2piv : s2.piv = S1.piv := by rw [hs2]
  have e2pb : s2.pb = S1.pb := by rw [hs2]
  have hpbS := i1.pb
  have hdoneS := i1.done
  have hlazyS := i1.lazy
  have horthS := i1.orth
  rw [i4] at hpbS hdoneS hlazyS horthS
  have fk : ∀ c, c * n = n * c := fun c => Nat.mul_comm c n
  have hfin : ua.1.tau = S1.tau ∧ ua.1.piv = S1.piv ∧ ua.1.jb = s.jb ∧ ua.1.nb = d ∧
      ua.1.pb = S1.pb ∧
      (∀ c i, c < p → i < n → (c < s.jb + d ∨ i < s.jb + d) →
        ua.1.A (i + n * c) = S1.A (i + n * c)) ∧
      (∀ c i, s.jb + d ≤ c → c < p → s.jb + d ≤ i → i < n →
        ua.1.A (i + n * c) = S1.A (i + n * c)
          - ∑ t in Finset.range d, S1.A (i + n * (s.jb + t)) * S1.F (c - s.jb + S1.pb * t)) := by
    by_cases c : s2.k + 1 < p
    · rw [if_pos c] at hua
      obtain ⟨b1, b2, b3, b4⟩ := bpqrBlockUpdate_cells n p nt s2 hnt (by omega)
        (by rw [e2jb, e2nb, e2k]; omega)
      rw [← hua, e2k, e2A, e2F, e2nb, e2jb, e2j, e2pb] at b3
      rw [← hua, e2k, e2A] at b4
      rw [← hua, e2tau] at b1
      rw [← hua, e2piv] at b2
      have hk1 : s.jb + d - 1 + 1 = s.jb + d := by omega
      rw [hk1] at b3 b4
      refine ⟨b1, b2, by rw [hua]; exact e2jb, by rw [hua]; exact e2nb,
        by rw [hua]; exact e2pb, ?_, ?_⟩
      · intro c' i hc hi hci
        refine b4 _ (fun u w hu1 hu2 hw => ?_)
        have g := cell_ne n i c' u (s.jb + d + w) hi hu2
          (by rcases hci with hh | hh
              · exact Or.inr (by omega)
              · exact Or.inl (by omega))
        have := fk c'
        have := fk (s.jb + d + w)
        omega
      · intro c' i hc1 hc2 hi1 hi2
        have := b3 i (c' - (s.jb + d)) hi1 hi2 (by omega)
        rw [show s.jb + d + (c' - (s.jb + d)) = c' by omega] at this
        rw [this]
        congr 1
        refine Finset.sum_congr rfl (fun t _ => ?_)
        congr 2
        omega
    · rw [if_neg c] at hua
      refine ⟨by rw [hua]; exact e2tau, by rw [hua]; exact e2piv, by rw [hua]; exact e2jb,
        by rw [hua]; exact e2nb, by rw [hua]; exact e2pb,
        fun c' i _ _ _ => by rw [hua]; show s2.A _ = _; rw [e2A],
        fun c' i hc1 hc2 _ _ => by omega⟩
  obtain ⟨f1, f2, f3, f4, f5, f6, f7⟩ := hfin
  have hdle : d ≤ S1.pb := by
    have := hnb1.2
    omega
  refine
    { pb := by rw [u4, u5, f3, f4, f5]; omega
      perm := by rw [u3, f2]; exact i1.perm
      qr := ?_
      orth := ?_ }
  swap
  · intro t ht
    rw [u4, f3, f4] at ht
    rw [u1, u2, f1, hv_congr ua.1.A S1.A n t (fun i hti hi => f6 t i (by omega) hi (Or.inl ht))]
    exact horthS t ht
  intro c i hc hi
  rw [u4, u1, u2, u3, f1, f2, f3, f4]
  have hcongr : houseSeq ua.1.A S1.tau n (s.jb + d) (fun l => X (l + n * S1.piv c))
      = houseSeq S1.A S1.tau n (s.jb + d) (fun l => X (l + n * S1.piv c)) :=
    houseSeq_congr _ _ _ _ n _ _ (fun _ _ => rfl)
      (fun t l ht htl hl => f6 t l (by omega) hl (Or.inl ht))
  rw [hcongr]
  by_cases e : c < s.jb + d ∨ i < s.jb + d
  · rw [hdoneS c i hc hi e, f6 c i hc hi e]
  · rw [hlazyS c i (by omega) hc (by omega) hi, f7 c i (by omega) hc (by omega) hi,
      if_neg (fun hh => e (Or.inl hh.1))]

/-- The result of `bpqr` for `p ≤ n`: `piv` is a permutation, the product of the `p`
reflectors takes the pivoted input to the upper triangle that the buffer holds, and each
reflector is its own inverse. -/
theorem bpqr_factor [LinearOrderedField α]
    (dlarfg : Nat → α → (Nat → α) → α × (Nat → α) × α) (hd : DlarfgSpec dlarfg) (tol : α)
    (A : Nat → α) (n p : Nat) (tau : Nat → α) (piv : Nat → Nat) (nb nt fuel : Nat)
    (hnb : 1 ≤ nb) (hnt : 1 ≤ nt) (hpn : p ≤ n) (hfuel : p ≤ fuel) :
    ∃ (A1 tau1 : Nat → α) (piv1 : Nat → Nat),
      bpqr dlarfg tol A n p tau piv nb nt fuel = some (A1, tau1, piv1, p) ∧
      IsPerm p piv1 ∧ QRInv A n p p A1 tau1 piv1 ∧ ReflOrth A1 tau1 n p := by
  unfold bpqr
  simp only
  have hinit : BpqrOuter A n p (bpqrInit A tau piv n p nb) := by
    have hp0 : ∀ i, i < p → forLoop p (fun i piv => store piv i i) piv i = i := fun i hi =>
      (storeLoop_spec p (fun i => i) (fun i _ => i) piv (fun _ _ _ _ h => h)).1 i hi
    unfold bpqrInit
    exact
      { pb := by simp
        perm := isPerm_id p _ hp0
        qr := fun c i hc hi => by
          show A (i + n * forLoop p (fun i piv => store piv i i) piv c) = _
          rw [hp0 c hc, if_neg (fun hh => absurd hh.1 (Nat.not_lt_zero c))]
        orth := fun t ht => absurd ht (Nat.not_lt_zero t) }
  obtain ⟨s', e1, e2, e3⟩ := whileLoop_terminates (fun s : BpqrState α => decide (s.jb < p))
    (bpqrBlock dlarfg tol n p nt (bpqrInit A tau piv n p nb).nb) (fun s => p - s.jb)
    (BpqrOuter A n p)
    (fun s hs hc => by
      have hjb : s.jb < p := of_decide_eq_true hc
      have h0 : 1 ≤ (bpqrInit A tau piv n p nb).nb := by
        show 1 ≤ (if p < nb then p else nb)
        split_ifs <;> omega
      have h1 := bpqrBlock_jb dlarfg tol n p nt _ s h0 hjb
      have h2 := bpqrBlock_inv dlarfg hd tol A n p nt _ hnt hpn h0 s hs hjb
      refine ⟨h2, ?_⟩
      have := h2.pb
      show p - (bpqrBlock dlarfg tol n p nt (bpqrInit A tau piv n p nb).nb s).jb < p - s.jb
      omega)
    fuel (bpqrInit A tau piv n p nb) hinit
    (by show p - 0 ≤ fuel; omega)
  rw [e1]
  have hjb : s'.jb = p := by
    have h1 : ¬ s'.jb < p := of_decide_eq_false e2
    have := e3.pb
    omega
  have hq := e3.qr
  have ho := e3.orth
  rw [hjb] at hq ho
  exact ⟨s'.A, s'.tau, s'.piv, rfl, e3.perm, hq, ho⟩

end HouseProofs

/-! ## The parallel QR path reconstructs its input -/

section PqrProofs
variable {α : Type}

theorem houseApply_congr [Ring α] (tau : α) (v x y : Nat → α) (n : Nat)
    (h : ∀ i, i < n → x i = y i) (i : Nat) (hi : i < n) :
    houseApply tau v x n i = houseApply tau v y n i := by
  unfold houseApply
  rw [h i hi, Finset.sum_congr rfl (fun l hl => by rw [h l (Finset.mem_range.mp hl)])]

theorem houseRev_congr [Ring α] (A tau : Nat → α) (n k : Nat) (x y : Nat → α)
    (h : ∀ i, i < n → x i = y i) (i : Nat) (hi : i < n) :
    houseRev A tau n k x i = houseRev A tau n k y i := by
  induction k generalizing x y with
  | zero => exact h i hi
  | succ k ih =>
    show houseRev A tau n k (houseApply (tau k) (hv A n k) x n) i
      = houseRev A tau n k (houseApply (tau k) (hv A n k) y n) i
    exact ih _ _ (fun l hl => houseApply_congr (tau k) (hv A n k) x y n h l hl)

/-- A reflector with `tau (2 - tau v'v) = 0` is its own inverse. -/
theorem houseApply_invol [CommRing α] (tau : α) (v x : Nat → α) (n : Nat)
    (h : tau * (2 - tau * ∑ l in Finset.range n, v l * v l) = 0) :
    houseApply tau v (houseApply tau v x n) n = x := by
  funext i
  unfold houseApply
  have e : ∀ d : α, ∑ l in Finset.range n, v l * (x l - tau * d * v l)
      = (∑ l in Finset.range n, v l * x l) - tau * d * ∑ l in Finset.range n, v l * v l := by
    intro d
    rw [Finset.mul_sum, ← Finset.sum_sub_distrib]
    refine Finset.sum_congr rfl (fun l _ => ?_)
    ring
  rw [e]
  generalize ∑ l in Finset.range n, v l * x l = d
  have : x i - tau * d * v i
      - tau * (d - tau * d * ∑ l in Finset.range n, v l * v l) * v i
      = x i - d * v i * (tau * (2 - tau * ∑ l in Finset.range n, v l * v l)) := by ring
  rw [this, h, mul_zero, sub_zero]

/-- The product `H_0 ... H_{k-1}` undoes the product `H_{k-1} ... H_0` of reflectors that
are their own inverses. -/
theorem houseRev_houseSeq [CommRing α] (A tau : Nat → α) (n k : Nat) (x : Nat → α)
    (h : ReflOrth A tau n k) : houseRev A tau n k (houseSeq A tau n k x) = x := by
  induction k with
  | zero => rfl
  | succ k ih =>
    show houseRev A tau n k (houseApply (tau k) (hv A n k)
      (houseApply (tau k) (hv A n k) (houseSeq A tau n k x) n) n) = x
    rw [houseApply_invol _ _ _ _ (h k (Nat.lt_succ_self k))]
    exact ih (fun t ht => h t (by omega))

theorem reflVec_eq_hv [Ring α] (A : Nat → α) (n k : Nat) : reflVec A n n k = hv A n k := rfl

/-- Cells of the buffer after `dlarf('L', ...)`: each of the `N` columns of `M` entries has
the reflector applied. -/
theorem dlarfL_spec [Ring α] (M N : Nat) (v : Nat → α) (tau : α) (C : Nat → α)
    (coff ldc : Nat) (hM : M ≤ ldc) :
    (∀ i j, i < M → j < N →
      dlarfL M N v tau C coff ldc (coff + (i + ldc * j))
        = houseApply tau v (fun l => C (coff + (l + ldc * j))) M i) ∧
    (∀ z, (∀ i j, i < M → j < N → z ≠ coff + (i + ldc * j)) →
      dlarfL M N v tau C coff ldc z = C z) := by
  unfold dlarfL
  induction N with
  | zero => exact ⟨fun i j _ hj => by omega, fun z _ => rfl⟩
  | succ j ih =>
    obtain ⟨h1, h2⟩ := ih
    rw [forLoop_succ]
    generalize forLoop j _ C = Cj at h1 h2 ⊢
    obtain ⟨g1, g2⟩ := storeLoop_spec M (fun i => coff + (i + ldc * j))
      (fun i _ => Cj (coff + (i + ldc * j))
        - tau * (∑ l in Finset.range M, v l * Cj (coff + (l + ldc * j))) * v i) Cj
      (fun a b _ _ h => by simp only at h; omega)
    have e1 : ldc * (j + 1) = ldc * j + ldc := Nat.mul_succ _ _
    have hne : ∀ i i' j', i < M → i' < M → j' < j → coff + (i + ldc * j) ≠ coff + (i' + ldc * j') := by
      intro i i' j' hi hi' hj'
      have e2 : ldc * (j' + 1) ≤ ldc * j := Nat.mul_le_mul_left ldc hj'
      have e3 : ldc * (j' + 1) = ldc * j' + ldc := Nat.mul_succ _ _
      omega
    have hcol : ∀ l, l < M → Cj (coff + (l + ldc * j)) = C (coff + (l + ldc * j)) := fun l hl =>
      h2 _ (fun i' j' hi' hj' => hne l i' j' hl hi' hj')
    constructor
    · intro i j' hi hj'
      by_cases hjj : j' = j
      · subst hjj
        rw [g1 i hi]
        unfold houseApply
        simp only
        rw [hcol i hi, Finset.sum_congr rfl (fun l hl => by
          rw [hcol l (Finset.mem_range.mp hl)])]
      · rw [g2 _ (fun i' hi' => (hne i' i j' hi' hi (by omega)).symm)]
        exact h1 i j' hi (by omega)
    · intro z hz
      rw [g2 z (fun i' hi' => hz i' j hi' (by omega))]
      exact h2 z (fun i' j' hi' hj' => hz i' j' hi' (by omega))

theorem forLoop_succ_front {σ : Type} (k : Nat) (body : Nat → σ → σ) (s : σ) :
    forLoop (k + 1) body s = forLoop k (fun t => body (t + 1)) (body 0 s) := by
  rw [Nat.add_comm k 1, forLoop_add 1 k body s]
  refine forLoop_congr _ _ _ _ (fun t _ y => ?_)
  rw [Nat.add_comm 1 t]

/-- The call `dormqr('L', 'N', M, N, K, A, M, tau, C, ldc)` leaves `H_0 ... H_{K-1} z` in
place of each of the `N` columns `z` of `C`. -/
theorem dormqr_left_spec [Ring α] (M N : Nat) (A tau : Nat → α) (coff ldc : Nat)
    (hM : M ≤ ldc) (K : Nat) (C : Nat → α) :
    (∀ i j, i < M → j < N →
      dormqr_ref true false M N K A M tau C coff ldc (coff + (i + ldc * j))
        = houseRev A tau M K (fun l => C (coff + (l + ldc * j))) i) ∧
    (∀ z, (∀ i j, i < M → j < N → z ≠ coff + (i + ldc * j)) →
      dormqr_ref true false M N K A M tau C coff ldc z = C z) := by
  unfold dormqr_ref
  simp only [if_true, Bool.true_eq_false, if_false]
  induction K generalizing C with
  | zero => exact ⟨fun i j _ _ => rfl, fun z _ => rfl⟩
  | succ K ih =>
    rw [forLoop_succ_front]
    simp only [Nat.add_sub_cancel, Nat.sub_zero]
    obtain ⟨d1, d2⟩ := dlarfL_spec M N (reflVec A M M K) (tau K) C coff ldc hM
    generalize dlarfL M N (reflVec A M M K) (tau K) C coff ldc = C1 at d1 d2 ⊢
    have e : (fun t (C : Nat → α) =>
        dlarfL M N (reflVec A M M (K - (t + 1))) (tau (K - (t + 1))) C coff ldc)
        = (fun t (C : Nat → α) =>
        dlarfL M N (reflVec A M M (K - 1 - t)) (tau (K - 1 - t)) C coff ldc) := by
      funext t C
      rw [show K - (t + 1) = K - 1 - t by omega]
    rw [e]
    obtain ⟨i1, i2⟩ := ih C1
    constructor
    · intro i j hi hj
      rw [i1 i j hi hj]
      show _ = houseRev A tau M K (houseApply (tau K) (hv A M K)
        (fun l => C (coff + (l + ldc * j))) M) i
      exact houseRev_congr A tau M K _ _ (fun l hl => d1 l j hl hj) i hi
    · intro z hz
      rw [i2 z hz]
      exact d2 z hz

/-- One step of the copy loop of `mgcv_pqrqy`: the entry `i` of column `jj` of the `c` by
`cb` matrix goes to its place in the `r` by `cb` matrix, and its old cell is cleared. `S` is
the number of entries that are still to be moved. -/
theorem pqrqyExpand_step [Zero α] (b b1 : Nat → α) (r c cb : Nat) (hrc : c ≤ r)
    (i jj : Nat) (hi : i < c) (hjj : jj < cb)
    (k1 : ∀ i' jj', i' < c → jj' < cb → i + c * jj + 1 ≤ i' + c * jj' →
      b1 (i' + r * jj') = b (i' + c * jj'))
    (k2 : ∀ z, z < i + c * jj + 1 → b1 z = b z)
    (k3 : ∀ z, i + c * jj + 1 ≤ z →
      (∀ i' jj', i' < c → jj' < cb → i + c * jj + 1 ≤ i' + c * jj' → z ≠ i' + r * jj') →
      b1 z = if z < c * cb then 0 else b z) :
    (∀ i' jj', i' < c → jj' < cb → i + c * jj ≤ i' + c * jj' →
      (if ((i + r * jj : Nat) : Int) ≠ ((i + c * jj : Nat) : Int)
        then store (store b1 (i + r * jj) (b1 (i + c * jj))) (i + c * jj) 0
        else store b1 (i + r * jj) (b1 (i + c * jj))) (i' + r * jj') = b (i' + c * jj')) ∧
    (∀ z, z < i + c * jj →
      (if ((i + r * jj : Nat) : Int) ≠ ((i + c * jj : Nat) : Int)
        then store (store b1 (i + r * jj) (b1 (i + c * jj))) (i + c * jj) 0
        else store b1 (i + r * jj) (b1 (i + c * jj))) z = b z) ∧
    (∀ z, i + c * jj ≤ z →
      (∀ i' jj', i' < c → jj' < cb → i + c * jj ≤ i' + c * jj' → z ≠ i' + r * jj') →
      (if ((i + r * jj : Nat) : Int) ≠ ((i + c * jj : Nat) : Int)
        then store (store b1 (i + r * jj) (b1 (i + c * jj))) (i + c * jj) 0
        else store b1 (i + r * jj) (b1 (i + c * jj))) z = if z < c * cb then 0 else b z) := by
  have hmul : ∀ j', c * j' ≤ r * j' := fun j' => Nat.mul_le_mul_right j' hrc
  have hts := hmul jj
  have hlt : i + c * jj < c * cb := by
    have e1 : c * (jj + 1) ≤ c * cb := Nat.mul_le_mul_left c hjj
    have e2 : c * (jj + 1) = c * jj + c := Nat.mul_succ _ _
    omega
  have hval : ∀ z, z ≠ i + c * jj → z ≠ i + r * jj →
      (if ((i + r * jj : Nat) : Int) ≠ ((i + c * jj : Nat) : Int)
        then store (store b1 (i + r * jj) (b1 (i + c * jj))) (i + c * jj) 0
        else store b1 (i + r * jj) (b1 (i + c * jj))) z = b1 z := by
    intro z h1 h2
    split_ifs
    · rw [store_ne _ _ _ _ h1, store_ne _ _ _ _ h2]
    · rw [store_ne _ _ _ _ h2]
  have htgt : (if ((i + r * jj : Nat) : Int) ≠ ((i + c * jj : Nat) : Int)
        then store (store b1 (i + r * jj) (b1 (i + c * jj))) (i + c * jj) 0
        else store b1 (i + r * jj) (b1 (i + c * jj))) (i + r * jj) = b (i + c * jj) := by
    split_ifs with hne
    · have hne' : i + r * jj ≠ i + c * jj := fun hh => hne (by rw [hh])
      rw [store_ne _ _ _ _ hne', store_same, k2 _ (by omega)]
    · rw [store_same, k2 _ (by omega)]
  refine ⟨?_, ?_, ?_⟩
  · intro i' jj' hi' hjj' hge
    by_cases e : i' + c * jj' = i + c * jj
    · have e1 : i' = i ∧ jj' = jj := by
        by_contra hh
        have := cell_ne c i' jj' i jj hi' hi (by
          by_cases e2 : i' = i
          · exact Or.inr (fun e3 => hh ⟨e2, e3⟩)
          · exact Or.inl e2)
        have f1 := Nat.mul_comm c jj'
        have f2 := Nat.mul_comm c jj
        omega
      rw [e1.1, e1.2]
      exact htgt
    · have h3 := hmul jj'
      rw [hval _ (by omega) (by
        intro hh
        have := cell_ne r i' jj' i jj (by omega) (by omega) (by
          by_cases e2 : i' = i
          · refine Or.inr (fun e3 => e ?_)
            rw [e2, e3]
          · exact Or.inl e2)
        have f1 := Nat.mul_comm r jj'
        have f2 := Nat.mul_comm r jj
        omega)]
      exact k1 i' jj' hi' hjj' (by omega)
  · intro z hz
    rw [hval z (by omega) (by omega)]
    exact k2 z (by omega)
  · intro z hz hnt
    by_cases e : z = i + c * jj
    · have hne : i + r * jj ≠ i + c * jj := by
        intro hh
        exact hnt i jj hi hjj le_rfl (by rw [e, hh])
      rw [e, if_pos (fun hh => hne (by exact_mod_cast hh)), store_same, if_pos hlt]
    · rw [hval z e (hnt i jj hi hjj le_rfl)]
      exact k3 z (by omega) (fun i' jj' hi' hjj' hge => hnt i' jj' hi' hjj' (by omega))

/-- The copy loop of `mgcv_pqrqy` over the entries of column `jj`, last entry first. -/
theorem pqrqyExpand_col [Zero α] (b : Nat → α) (r c cb : Nat) (hrc : c ≤ r) (jj : Nat)
    (hjj : jj < cb) (b1 : Nat → α) (h : ExpandInv b b1 r c cb (c * jj + c)) (ii : Nat)
    (hii : ii ≤ c) :
    (forLoop ii (fun _ (s : (Nat → α) × Int × Int) =>
      let b1 := store s.1 s.2.1.toNat (s.1 s.2.2.toNat)
      let b2 := if s.2.1 ≠ s.2.2 then store b1 s.2.2.toNat 0 else b1
      (b2, s.2.1 - 1, s.2.2 - 1))
      (b1, ((r * jj + c : Nat) : Int) - 1, ((c * jj + c : Nat) : Int) - 1)).2.1
        = ((r * jj + c : Nat) : Int) - 1 - (ii : Int) ∧
    (forLoop ii (fun _ (s : (Nat → α) × Int × Int) =>
      let b1 := store s.1 s.2.1.toNat (s.1 s.2.2.toNat)
      let b2 := if s.2.1 ≠ s.2.2 then store b1 s.2.2.toNat 0 else b1
      (b2, s.2.1 - 1, s.2.2 - 1))
      (b1, ((r * jj + c : Nat) : Int) - 1, ((c * jj + c : Nat) : Int) - 1)).2.2
        = ((c * jj + c : Nat) : Int) - 1 - (ii : Int) ∧
    ExpandInv b (forLoop ii (fun _ (s : (Nat → α) × Int × Int) =>
      let b1 := store s.1 s.2.1.toNat (s.1 s.2.2.toNat)
      let b2 := if s.2.1 ≠ s.2.2 then store b1 s.2.2.toNat 0 else b1
      (b2, s.2.1 - 1, s.2.2 - 1))
      (b1, ((r * jj + c : Nat) : Int) - 1, ((c * jj + c : Nat) : Int) - 1)).1 r c cb
      (c * jj + c - ii) := by
  induction ii with
  | zero => exact ⟨by simp [forLoop], by simp [forLoop], h⟩
  | succ ii ih =>
    obtain ⟨h1, h2, h3⟩ := ih (by omega)
    rw [forLoop_succ]
    generalize forLoop ii _ (b1, ((r * jj + c : Nat) : Int) - 1, ((c * jj + c : Nat) : Int) - 1)
      = S at h1 h2 h3 ⊢
    obtain ⟨bb, x0, x1⟩ := S
    simp only at h1 h2 h3 ⊢
    obtain ⟨i, hi⟩ : ∃ i, i = c - 1 - ii := ⟨_, rfl⟩
    have e0 : x0 = ((i + r * jj : Nat) : Int) := by rw [h1]; push_cast; omega
    have e1 : x1 = ((i + c * jj : Nat) : Int) := by rw [h2]; push_cast; omega
    have eS : c * jj + c - ii = i + c * jj + 1 := by omega
    have eS' : c * jj + c - (ii + 1) = i + c * jj := by omega
    rw [eS] at h3
    obtain ⟨k1, k2, k3⟩ := h3
    obtain ⟨g1, g2, g3⟩ := pqrqyExpand_step b bb r c cb hrc i jj (by omega) hjj k1 k2 k3
    rw [e0, e1, Int.toNat_ofNat, Int.toNat_ofNat, eS']
    refine ⟨by push_cast; omega, by push_cast; omega, g1, g2, g3⟩

/-- The copy loop of `mgcv_pqrqy`, for `c ≤ r`: after the last `mm` columns the entries of
these columns are at their place. -/
theorem pqrqyExpand_cols [Zero α] (b : Nat → α) (r c cb : Nat) (hrc : c ≤ r) (mm : Nat)
    (hmm : mm ≤ cb) :
    (forLoop mm (fun _ (s : (Nat → α) × Int × Int) =>
      forLoop c (fun _ (s : (Nat → α) × Int × Int) =>
        let b1 := store s.1 s.2.1.toNat (s.1 s.2.2.toNat)
        let b2 := if s.2.1 ≠ s.2.2 then store b1 s.2.2.toNat 0 else b1
        (b2, s.2.1 - 1, s.2.2 - 1)) (s.1, s.2.1 - ((r : Int) - (c : Int)), s.2.2))
      (b, (r : Int) * (cb : Int) - 1, (c : Int) * (cb : Int) - 1)).2.1
        = ((r * (cb - mm) : Nat) : Int) - 1 ∧
    (forLoop mm (fun _ (s : (Nat → α) × Int × Int) =>
      forLoop c (fun _ (s : (Nat → α) × Int × Int) =>
        let b1 := store s.1 s.2.1.toNat (s.1 s.2.2.toNat)
        let b2 := if s.2.1 ≠ s.2.2 then store b1 s.2.2.toNat 0 else b1
        (b2, s.2.1 - 1, s.2.2 - 1)) (s.1, s.2.1 - ((r : Int) - (c : Int)), s.2.2))
      (b, (r : Int) * (cb : Int) - 1, (c : Int) * (cb : Int) - 1)).2.2
        = ((c * (cb - mm) : Nat) : Int) - 1 ∧
    ExpandInv b (forLoop mm (fun _ (s : (Nat → α) × Int × Int) =>
      forLoop c (fun _ (s : (Nat → α) × Int × Int) =>
        let b1 := store s.1 s.2.1.toNat (s.1 s.2.2.toNat)
        let b2 := if s.2.1 ≠ s.2.2 then store b1 s.2.2.toNat 0 else b1
        (b2, s.2.1 - 1, s.2.2 - 1)) (s.1, s.2.1 - ((r : Int) - (c : Int)), s.2.2))
      (b, (r : Int) * (cb : Int) - 1, (c : Int) * (cb : Int) - 1)).1 r c cb (c * (cb - mm)) := by
  induction mm with
  | zero =>
    refine ⟨by simp [forLoop], by simp [forLoop], ?_, fun z _ => rfl, ?_⟩
    · intro i j hi hj hge
      have e1 : c * (j + 1) ≤ c * cb := Nat.mul_le_mul_left c hj
      have e2 : c * (j + 1) = c * j + c := Nat.mul_succ _ _
      have hge : c * cb ≤ i + c * j := hge
      omega
    · intro z hz _
      have hz : c * cb ≤ z := hz
      show b z = _
      rw [if_neg (by omega)]
  | succ mm ih =>
    obtain ⟨h1, h2, h3⟩ := ih (by omega)
    rw [forLoop_succ]
    generalize forLoop mm _ (b, (r : Int) * (cb : Int) - 1, (c : Int) * (cb : Int) - 1)
      = S at h1 h2 h3 ⊢
    obtain ⟨bb, x0, x1⟩ := S
    simp only at h1 h2 h3 ⊢
    obtain ⟨jj, hjj⟩ : ∃ jj, jj = cb - (mm + 1) := ⟨_, rfl⟩
    have ej : cb - mm = jj + 1 := by omega
    rw [ej] at h1 h2 h3
    have f1 : r * (jj + 1) = r * jj + r := Nat.mul_succ _ _
    have f2 : c * (jj + 1) = c * jj + c := Nat.mul_succ _ _
    have e0 : x0 - ((r : Int) - (c : Int)) = ((r * jj + c : Nat) : Int) - 1 := by
      rw [h1, f1]; push_cast; omega
    have e1 : x1 = ((c * jj + c : Nat) : Int) - 1 := by rw [h2, f2]
    rw [f2] at h3
    obtain ⟨g1, g2, g3⟩ := pqrqyExpand_col b r c cb hrc jj (by omega) bb h3 c le_rfl
    rw [e0, e1, ← hjj]
    refine ⟨by rw [g1]; push_cast; omega, by rw [g2]; push_cast; omega, ?_⟩
    rw [Nat.add_sub_cancel] at g3
    exact g3

/-- First part of `mgcv_pqrqy` for `c ≤ r`, on a buffer that is zero after the `c` by `cb`
matrix: the matrix is moved to the first `c` rows of the `r` by `cb` matrix and the other
rows are zero. -/
theorem pqrqyExpand_spec [Zero α] (b : Nat → α) (r c cb : Nat) (hrc : c ≤ r)
    (hb : ∀ z, c * cb ≤ z → b z = 0) (i j : Nat) (hi : i < r) (hj : j < cb) :
    pqrqyExpand b r c cb (i + r * j) = if i < c then b (i + c * j) else 0 := by
  obtain ⟨-, -, k1, -, k3⟩ := pqrqyExpand_cols b r c cb hrc cb le_rfl
  unfold pqrqyExpand
  generalize forLoop cb _ (b, (r : Int) * (cb : Int) - 1, (c : Int) * (cb : Int) - 1) = S
    at k1 k3 ⊢
  rw [Nat.sub_self, Nat.mul_zero] at k1 k3
  by_cases e : i < c
  · rw [if_pos e]
    exact k1 i j e hj (Nat.zero_le _)
  · rw [if_neg e, k3 _ (Nat.zero_le _) (fun i' j' hi' hj' _ => by
      have := cell_ne r i j i' j' hi (by omega) (Or.inl (by omega))
      have f1 := Nat.mul_comm r j
      have f2 := Nat.mul_comm r j'
      omega)]
    split_ifs with h
    · rfl
    · exact hb _ (by omega)

/-- The function `getRpqr` writes the upper triangle of the first `c` rows and columns of
`x`, and zeros below it, to the `c` by `c` cells of `R`. -/
theorem getRpqr_spec [Zero α] (R x : Nat → α) (r c rr : Nat) (hrr : c ≤ rr) :
    (∀ i j, i < c → j < c →
      getRpqr R x r c rr (i + rr * j) = if i > j then 0 else x (i + r * j)) ∧
    (∀ z, (∀ i j, i < c → j < c → z ≠ i + rr * j) → getRpqr R x r c rr z = R z) := by
  unfold getRpqr
  have key : ∀ m, m ≤ c →
      (∀ i j, i < m → j < c →
        forLoop m (fun i R => forLoop c (fun j R =>
          if i > j then store R (i + rr * j) 0 else store R (i + rr * j) (x (i + r * j))) R) R
          (i + rr * j) = if i > j then 0 else x (i + r * j)) ∧
      (∀ z, (∀ i j, i < m → j < c → z ≠ i + rr * j) →
        forLoop m (fun i R => forLoop c (fun j R =>
          if i > j then store R (i + rr * j) 0 else store R (i + rr * j) (x (i + r * j))) R) R z
          = R z) := by
    intro m
    induction m with
    | zero => exact fun _ => ⟨fun i j hi => by omega, fun z _ => rfl⟩
    | succ m ih =>
      intro hm
      obtain ⟨h1, h2⟩ := ih (by omega)
      rw [forLoop_succ]
      generalize forLoop m _ R = Rm at h1 h2 ⊢
      have e : forLoop c (fun j R =>
          if m > j then store R (m + rr * j) 0 else store R (m + rr * j) (x (m + r * j))) Rm
          = forLoop c (fun j R => store R (m + rr * j)
              ((fun j (_ : α) => if m > j then 0 else x (m + r * j)) j (R (m + rr * j)))) Rm := by
        refine forLoop_congr _ _ _ _ (fun j _ R' => ?_)
        simp only
        by_cases hmj : m > j
        · rw [if_pos hmj, if_pos hmj]
        · rw [if_neg hmj, if_neg hmj]
      rw [e]
      obtain ⟨g1, g2⟩ := storeLoop_spec c (fun j => m + rr * j)
        (fun j (_ : α) => if m > j then 0 else x (m + r * j)) Rm
        (fun a b ha hb h => by
          have h : m + rr * a = m + rr * b := h
          have := cell_ne rr m a m b (by omega) (by omega)
          by_contra hne
          have := this (Or.inr hne)
          have f1 := Nat.mul_comm rr a
          have f2 := Nat.mul_comm rr b
          omega)
      constructor
      · intro i j hi hj
        by_cases e1 : i = m
        · rw [e1]
          exact g1 j hj
        · rw [g2 _ (fun j' hj' => by
            have := cell_ne rr i j m j' (by omega) (by omega) (Or.inl e1)
            have f1 := Nat.mul_comm rr j
            have f2 := Nat.mul_comm rr j'
            show i + rr * j ≠ m + rr * j'
            omega)]
          exact h1 i j (by omega) hj
      · intro z hz
        rw [g2 z (fun j hj => hz m j (by omega) hj)]
        exact h2 z (fun i j hi hj => hz i j (by omega) hj)
  exact key c le_rfl

/-- The split of `p ≥ 2` columns between 4 threads in `mgcv_pqrqy`: `nth ≥ 1` blocks of
`k ≥ 1` columns, the last one not empty and not longer than `k`. -/
theorem pqrqySplit_four (p : Nat) (hp : 2 ≤ p) :
    ∃ nth k : Nat, pqrqySplit (p : Int) 4 = ((nth : Int), (k : Int)) ∧ 1 ≤ nth ∧ 1 ≤ k ∧
      (nth - 1) * k < p ∧ p ≤ nth * k := by
  by_cases h4 : p < 4
  · have h : p = 2 ∨ p = 3 := by omega
    rcases h with h | h
    · subst h
      exact ⟨2, 1, by decide, by decide, by decide, by decide, by decide⟩
    · subst h
      exact ⟨3, 1, by decide, by decide, by decide, by decide, by decide⟩
  · have e : Int.tdiv (p : Int) 4 = ((p / 4 : Nat) : Int) := (Int.ofNat_tdiv p 4).symm
    have h0 : (if (4 : Int) > (p : Int) then (p : Int) else 4) = 4 := if_neg (by omega)
    unfold pqrqySplit
    simp only [h0, e]
    by_cases c1 : ((p / 4 : Nat) : Int) * 4 < (p : Int)
    · rw [if_pos c1]
      by_cases c2 : (((p / 4 : Nat) : Int) + 1) * (4 - 1) ≥ (p : Int)
      · rw [if_pos c2]
        refine ⟨3, p / 4 + 1, by push_cast; rfl, by omega, by omega, ?_, ?_⟩
        · omega
        · omega
      · rw [if_neg c2]
        refine ⟨4, p / 4 + 1, by push_cast; rfl, by omega, by omega, ?_, ?_⟩
        · omega
        · omega
    · rw [if_neg c1]
      by_cases c2 : ((p / 4 : Nat) : Int) * (4 - 1) ≥ (p : Int)
      · rw [if_pos c2]
        refine ⟨3, p / 4, by push_cast; rfl, by omega, by omega, ?_, ?_⟩
        · omega
        · omega
      · rw [if_neg c2]
        refine ⟨4, p / 4, by push_cast; rfl, by omega, by omega, ?_, ?_⟩
        · omega
        · omega

/-- The reference `dlarfg` meets `DlarfgSpec` for every function `sqrt` that is a square root
on the non-negative numbers. -/
theorem dlarfg_ref_spec [LinearOrderedField α] (sqrt : α → α)
    (hsq : ∀ y, 0 ≤ y → 0 ≤ sqrt y ∧ sqrt y * sqrt y = y) : DlarfgSpec (dlarfg_ref sqrt) := by
  intro N alpha x hN
  unfold dlarfg_ref
  by_cases h1 : N ≤ 1
  · rw [if_pos h1]
    have e : N - 1 = 0 := by omega
    rw [e]
    refine ⟨by simp, fun t ht => by omega, by simp⟩
  · rw [if_neg h1]
    simp only [dotLoop_eq_sum]
    obtain ⟨S, hS⟩ : ∃ S, S = ∑ t in Finset.range (N - 1), x t * x t := ⟨_, rfl⟩
    rw [← hS]
    have hS0 : 0 ≤ S := by
      rw [hS]
      exact Finset.sum_nonneg (fun t _ => mul_self_nonneg (x t))
    obtain ⟨hx0, hx2⟩ := hsq S hS0
    by_cases h2 : sqrt S = 0
    · rw [if_pos h2]
      have hSz : S = 0 := by rw [← hx2, h2, mul_zero]
      have hz : ∀ t, t < N - 1 → x t = 0 := by
        intro t ht
        have := (Finset.sum_eq_zero_iff_of_nonneg
          (fun t _ => mul_self_nonneg (x t))).1 (hS.symm.trans hSz) t (Finset.mem_range.2 ht)
        exact mul_self_eq_zero.1 this
      refine ⟨by simp, fun t ht => by simp [hz t ht], by simp⟩
    · rw [if_neg h2]
      simp only
      have hSpos : 0 < S := by
        rcases lt_or_eq_of_le hS0 with h | h
        · exact h
        · exfalso
          apply h2
          have := hx2
          rw [← h] at this ⊢
          exact mul_self_eq_zero.1 this
      have hn0 : 0 ≤ alpha * alpha + sqrt S * sqrt S :=
        add_nonneg (mul_self_nonneg _) (mul_self_nonneg _)
      obtain ⟨hr0, hr2⟩ := hsq _ hn0
      obtain ⟨nrm, hnrm⟩ : ∃ nrm, nrm = sqrt (alpha * alpha + sqrt S * sqrt S) := ⟨_, rfl⟩
      rw [← hnrm] at hr0 hr2 ⊢
      rw [hx2] at hr2
      have hnpos : 0 < nrm := by
        rcases lt_or_eq_of_le hr0 with h | h
        · exact h
        · exfalso
          rw [← h, mul_zero] at hr2
          have : 0 < alpha * alpha + S := add_pos_of_nonneg_of_pos (mul_self_nonneg _) hSpos
          rw [← hr2] at this
          exact lt_irrefl _ this
      obtain ⟨beta, hbeta⟩ : ∃ beta, beta = if alpha ≥ 0 then -nrm else nrm := ⟨_, rfl⟩
      rw [← hbeta]
      have hb2 : beta * beta = alpha * alpha + S := by
        rw [hbeta]
        split_ifs
        · rw [neg_mul_neg, hr2]
        · exact hr2
      have hb0 : beta ≠ 0 := by
        rw [hbeta]
        split_ifs
        · exact neg_ne_zero.2 (ne_of_gt hnpos)
        · exact ne_of_gt hnpos
      have hab : alpha - beta ≠ 0 := by
        rw [hbeta]
        split_ifs with h
        · have : 0 < alpha - -nrm := by linarith
          exact ne_of_gt this
        · have : alpha - nrm < 0 := by linarith [not_le.1 h]
          exact ne_of_lt this
      have hsum1 : ∑ t in Finset.range (N - 1), x t / (alpha - beta) * x t
          = S / (alpha - beta) := by
        rw [hS, Finset.sum_div]
        refine Finset.sum_congr rfl (fun t _ => ?_)
        ring
      have hsum2 : ∑ t in Finset.range (N - 1), x t / (alpha - beta) * (x t / (alpha - beta))
          = S / ((alpha - beta) * (alpha - beta)) := by
        rw [hS, Finset.sum_div]
        refine Finset.sum_congr rfl (fun t _ => ?_)
        field_simp
      have hSe : S = beta * beta - alpha * alpha := by rw [hb2]; ring
      have key : (beta - alpha) / beta * (alpha + S / (alpha - beta)) = alpha - beta := by
        rw [hSe]
        field_simp
        ring
      rw [hsum1, hsum2, key]
      refine ⟨by ring, fun t ht => by field_simp, ?_⟩
      rw [hSe]
      field_simp
      ring

/-- The call `mgcv_qrqy(b + boff, a, tau, r, N, c, left = 1, tp = 0)` is the call
`dormqr('L', 'N', r, N, c, a, r, tau, b + boff, r)`. -/
theorem mgcv_qrqy_left [Ring α] (b : Nat → α) (boff : Nat) (a tau : Nat → α) (r N c : Nat) :
    mgcv_qrqy b boff a tau r N c 1 0 = dormqr_ref true false r N c a r tau b boff r := by
  unfold mgcv_qrqy
  simp

/-- Start column and number of columns of block `b` of the split of `cb ≥ 2` columns between
4 threads, as natural numbers. -/
theorem pqrqyBlock_four (cb nth k r b : Nat)
    (hs : pqrqySplit (cb : Int) 4 = ((nth : Int), (k : Int)))
    (hlast : (nth - 1) * k < cb) :
    ((pqrqyBlock (cb : Int) 4 (b : Int)).1 * (r : Int)).toNat = b * k * r ∧
    (pqrqyBlock (cb : Int) 4 (b : Int)).2.toNat = if b + 1 = nth then cb - b * k else k := by
  unfold pqrqyBlock
  simp only [hs]
  constructor
  · rw [← Int.toNat_ofNat (b * k * r)]
    congr 1
  · by_cases e : b + 1 = nth
    · rw [if_pos e, if_pos (by omega)]
      have h1 : b * k < cb := by
        have : b = nth - 1 := by omega
        rw [this]
        exact hlast
      rw [← Int.toNat_ofNat (cb - b * k)]
      congr 1
      push_cast [Nat.cast_sub (le_of_lt h1)]
      ring
    · rw [if_neg e, if_neg (by omega)]
      exact Int.toNat_ofNat k

/-- The loop over the blocks of columns of `mgcv_pqrqy` for 4 threads and `cb ≥ 2` columns
leaves `H_0 ... H_{c-1} z` in place of each of the `cb` columns `z` of `b`. -/
theorem pqrqyBlocks_spec [Ring α] (b1 a tau : Nat → α) (r c cb : Nat) (hcb : 2 ≤ cb)
    (i j : Nat) (hi : i < r) (hj : j < cb) :
    forLoop (pqrqySplit (cb : Int) ((4 : Nat) : Int)).1.toNat (fun i b =>
        mgcv_qrqy b ((pqrqyBlock (cb : Int) ((4 : Nat) : Int) (i : Int)).1 * (r : Int)).toNat
          a tau r (pqrqyBlock (cb : Int) ((4 : Nat) : Int) (i : Int)).2.toNat c 1 0) b1
        (i + r * j)
      = houseRev a tau r c (fun l => b1 (l + r * j)) i := by
  have e4 : ((4 : Nat) : Int) = 4 := rfl
  rw [e4]
  obtain ⟨nth, k, hs, hnth, hk, hlast, hall⟩ := pqrqySplit_four cb hcb
  rw [hs]
  show forLoop (Int.toNat (nth : Int)) _ b1 (i + r * j) = _
  rw [Int.toNat_ofNat]
  have hmul : ∀ b, b < nth → b * k ≤ (nth - 1) * k := fun b hb =>
    Nat.mul_le_mul_right k (by omega)
  have hspec := chunkLoop_spec nth (fun b => if b < nth then b * k else cb)
    (fun b hb => by
      show (if b < nth then b * k else cb) ≤ (if b + 1 < nth then (b + 1) * k else cb)
      rw [if_pos hb]
      split_ifs with h
      · rw [Nat.add_mul]; omega
      · have := hmul b hb
        omega)
    r
    (fun i b =>
        mgcv_qrqy b ((pqrqyBlock (cb : Int) 4 (i : Int)).1 * (r : Int)).toNat
          a tau r (pqrqyBlock (cb : Int) 4 (i : Int)).2.toNat c 1 0)
    (fun u w => w + r * u)
    (fun u w Y => houseRev a tau r c (fun l => Y (l + r * u)) w)
    (fun u w u' w' _ _ hw _ _ hw' h => by
      by_contra hne
      have := cell_ne r w u w' u' hw hw' (Or.inr hne)
      have f1 := Nat.mul_comm r u
      have f2 := Nat.mul_comm r u'
      have h : w + r * u = w' + r * u' := h
      omega)
    (fun b hb Y => by
      obtain ⟨p1, p2⟩ := pqrqyBlock_four cb nth k r b hs hlast
      show (∀ u w, (if b < nth then b * k else cb) ≤ u →
          u < (if b + 1 < nth then (b + 1) * k else cb) → w < r →
          mgcv_qrqy Y ((pqrqyBlock (cb : Int) 4 (b : Int)).1 * (r : Int)).toNat
            a tau r (pqrqyBlock (cb : Int) 4 (b : Int)).2.toNat c 1 0 (w + r * u)
            = houseRev a tau r c (fun l => Y (l + r * u)) w) ∧
        (∀ z, (∀ u w, (if b < nth then b * k else cb) ≤ u →
          u < (if b + 1 < nth then (b + 1) * k else cb) → w < r → z ≠ w + r * u) →
          mgcv_qrqy Y ((pqrqyBlock (cb : Int) 4 (b : Int)).1 * (r : Int)).toNat
            a tau r (pqrqyBlock (cb : Int) 4 (b : Int)).2.toNat c 1 0 z = Y z)
      rw [p1, p2, mgcv_qrqy_left, if_pos hb]
      obtain ⟨d1, d2⟩ := dormqr_left_spec r (if b + 1 = nth then cb - b * k else k) a tau
        (b * k * r) r le_rfl c Y
      have hbk := hmul b hb
      constructor
      · intro u w hu1 hu2 hw
        have hu3 : u - b * k < (if b + 1 = nth then cb - b * k else k) := by
          split_ifs with h
          · rw [if_neg (by omega)] at hu2
            omega
          · rw [if_pos (by omega), Nat.add_mul] at hu2
            omega
        have ec : ∀ l, b * k * r + (l + r * (u - b * k)) = l + r * u := by
          intro l
          have : r * u = r * (b * k) + r * (u - b * k) := by
            rw [← Nat.mul_add]
            congr 1
            omega
          rw [this, Nat.mul_comm r (b * k)]
          omega
        have := d1 w (u - b * k) hw hu3
        rw [ec w] at this
        rw [this]
        refine houseRev_congr a tau r c _ _ (fun l _ => ?_) w hw
        show Y (b * k * r + (l + r * (u - b * k))) = Y (l + r * u)
        rw [ec l]
      · intro z hz
        refine d2 z (fun i' j' hi' hj' => ?_)
        have := hz (b * k + j') i' (by omega) (by
          by_cases h : b + 1 = nth
          · rw [if_pos h] at hj'
            rw [if_neg (by omega)]
            omega
          · rw [if_neg h] at hj'
            rw [if_pos (by omega), Nat.add_mul]
            omega) hi'
        have e : r * (b * k + j') = b * k * r + r * j' := by
          rw [Nat.mul_add, Nat.mul_comm r (b * k)]
        rw [e] at this
        omega)
    (fun u w Y Y' _ _ hw hY => by
      show houseRev a tau r c (fun l => Y (l + r * u)) w
        = houseRev a tau r c (fun l => Y' (l + r * u)) w
      refine houseRev_congr a tau r c _ _ (fun l hl => ?_) w hw
      show Y (l + r * u) = Y' (l + r * u)
      refine hY _ (fun u' w' _ _ hw' hne => ?_)
      show l + r * u ≠ w' + r * u'
      have := cell_ne r l u w' u' hl hw' (Or.inr (Ne.symm hne))
      have f1 := Nat.mul_comm r u
      have f2 := Nat.mul_comm r u'
      omega)
    b1
  have := hspec.1 j i (by
    show (if 0 < nth then 0 * k else cb) ≤ j
    rw [if_pos (by omega)]; omega) (by
    show j < (if nth < nth then nth * k else cb)
    rw [if_neg (lt_irrefl _)]; exact hj) hi
  exact this

/-- The function `mgcv_pqrqy` with `tp = 0`, for 1 or 4 threads, `c ≤ r` and at least one
column, on a buffer that is zero after the `c` by `cb` matrix `b`: column `j` of the result
is `H_0 ... H_{c-1} (b_j, 0)`, the product of the `c` reflectors with column `j` of `b`
extended by zeros to `r` entries. -/
theorem pqrqy_apply [Ring α] (b a tau : Nat → α) (r c cb nt : Nat) (hrc : c ≤ r)
    (hnt : nt = 1 ∨ nt = 4) (hcb : 1 ≤ cb) (hb : ∀ z, c * cb ≤ z → b z = 0)
    (i j : Nat) (hi : i < r) (hj : j < cb) :
    mgcv_pqrqy b a tau r c cb 0 nt (i + r * j)
      = houseRev a tau r c (fun l => if l < c then b (l + c * j) else 0) i := by
  have hexp : ∀ l, l < r →
      pqrqyExpand b r c cb (l + r * j) = if l < c then b (l + c * j) else 0 :=
    fun l hl => pqrqyExpand_spec b r c cb hrc hb l j hl hj
  unfold mgcv_pqrqy
  simp only [if_true, ne_eq, not_true_eq_false, if_false]
  by_cases h1 : cb = 1 ∨ nt = 1
  · rw [if_pos h1, mgcv_qrqy_left]
    have := (dormqr_left_spec r cb a tau 0 r le_rfl c (pqrqyExpand b r c cb)).1 i j hi hj
    rw [Nat.zero_add] at this
    rw [this]
    refine houseRev_congr a tau r c _ _ (fun l hl => ?_) i hi
    show pqrqyExpand b r c cb (0 + (l + r * j)) = _
    rw [Nat.zero_add]
    exact hexp l hl
  · rw [if_neg h1]
    have e4 : nt = 4 := by
      rcases hnt with h | h
      · exact absurd (Or.inr h) h1
      · exact h
    subst e4
    rw [pqrqyBlocks_spec _ a tau r c cb (by omega) i j hi hj]
    exact houseRev_congr a tau r c _ _ hexp i hi

/-- A factorisation `H_{p-1} ... H_0 X P = R` with reflectors that are their own inverses
gives back the pivoted columns of `X`: `H_0 ... H_{p-1}` applied to column `c` of `R`,
extended by zeros, is column `piv[c]` of `X`. -/
theorem qr_reconstruct [CommRing α] (X : Nat → α) (n p : Nat) (A tau : Nat → α)
    (piv : Nat → Nat) (hqr : QRInv X n p p A tau piv)
    (ho : ReflOrth A tau n p) (z : Nat → α) (c : Nat) (hc : c < p)
    (hz : ∀ l, l < n → z l = if l < p then (if l > c then 0 else A (l + n * c)) else 0)
    (i : Nat) (hi : i < n) :
    houseRev A tau n p z i = X (i + n * piv c) := by
  have e : houseRev A tau n p z i
      = houseRev A tau n p (houseSeq A tau n p (fun l => X (l + n * piv c))) i := by
    refine houseRev_congr A tau n p _ _ (fun l hl => ?_) i hi
    rw [hz l hl, hqr c l hc hl]
    by_cases h1 : l < p
    · rw [if_pos h1]
      by_cases h2 : l > c
      · rw [if_pos h2, if_pos ⟨hc, h2⟩]
      · rw [if_neg h2, if_neg (fun hh => h2 hh.2)]
    · rw [if_neg h1, if_pos ⟨hc, by omega⟩]
  rw [e, houseRev_houseSeq A tau n p _ ho]

/-- Reflectors with `tau = 0` are the identity. -/
theorem houseSeq_tau_zero [Ring α] (A tau : Nat → α) (n k : Nat) (x : Nat → α)
    (h : ∀ t, t < k → tau t = 0) : houseSeq A tau n k x = x := by
  induction k with
  | zero => rfl
  | succ k ih =>
    show houseApply (tau k) (hv A n k) (houseSeq A tau n k x) n = x
    rw [ih (fun t ht => h t (by omega)), h k (Nat.lt_succ_self k)]
    funext i
    unfold houseApply
    rw [zero_mul, zero_mul, sub_zero]

/-- A result of `dgeqp3` that leaves an upper triangular `X` as it is, with the pivots
`1, ..., p` and every `tau` zero, meets `DgeqpOk`. -/
theorem dgeqpOk_of_upper [Ring α] (X : Nat → α) (n p : Nat)
    (hX : ∀ c i, c < p → i < n → c < i → X (i + n * c) = 0) :
    DgeqpOk X n p (X, fun c => c + 1, fun _ => 0) := by
  refine ⟨fun c _ => Nat.le_add_left 1 c, isPerm_id p _ (fun i _ => by
      show i + 1 - 1 = i
      omega),
    fun c i hc hi => ?_, fun t _ => zero_mul _⟩
  rw [houseSeq_tau_zero X (fun _ => 0) n p _ (fun _ _ => rfl)]
  show X (i + n * (c + 1 - 1)) = _
  rw [show c + 1 - 1 = c by omega]
  split_ifs with h
  · exact hX c i hc hi h.2
  · rfl

/-- Two arrays that agree on their first `p` cells are permutations together. -/
theorem isPerm_congr (p : Nat) (piv piv1 : Nat → Nat) (h : ∀ i, i < p → piv1 i = piv i)
    (hp : IsPerm p piv) : IsPerm p piv1 := by
  obtain ⟨h1, h2, h3⟩ := hp
  refine ⟨fun i hi => by rw [h i hi]; exact h1 i hi, fun i i' hi hi' e => ?_, fun v hv => ?_⟩
  · rw [h i hi, h i' hi'] at e
    exact h2 i i' hi hi' e
  · obtain ⟨i, hi, e⟩ := h3 v hv
    exact ⟨i, hi, by rw [h i hi]; exact e⟩

/-- The matrix `Q R` that `mgcv_pqrqy` forms from the `R` that `getRpqr` extracts of a packed
factorisation `H_{p-1} ... H_0 X P = R` with reflectors that are their own inverses: column
`i` is column `piv[i]` of `X`. -/
theorem pqrqy_getRpqr [CommRing α] (X : Nat → α) (n p : Nat) (A tau : Nat → α)
    (piv : Nat → Nat) (nt : Nat) (hp1 : 1 ≤ p) (hpn : p ≤ n) (hnt : nt = 1 ∨ nt = 4)
    (hqr : QRInv X n p p A tau piv) (ho : ReflOrth A tau n p)
    (l i : Nat) (hl : l < n) (hi : i < p) :
    mgcv_pqrqy (getRpqr (fun _ => 0) A n p p) A tau n p p 0 nt (l + n * i)
      = X (l + n * piv i) := by
  obtain ⟨g1, g2⟩ := getRpqr_spec (fun _ => (0 : α)) A n p p le_rfl
  rw [pqrqy_apply _ A tau n p p nt hpn hnt hp1 (fun z hz => by
    rw [g2 z (fun i' j' hi' hj' => by
      have := Nat.mul_le_mul_left p (show j' + 1 ≤ p from hj')
      rw [Nat.mul_add, Nat.mul_one] at this
      omega)]) l i hl hi]
  exact qr_reconstruct X n p A tau piv hqr ho _ i hi (fun l' _ => by
    show (if l' < p then getRpqr (fun _ => 0) A n p p (l' + p * i) else 0) = _
    by_cases h : l' < p
    · rw [if_pos h, if_pos h, g1 l' i h hi]
    · rw [if_neg h, if_neg h]) l hl

/-- Claim C20. For every `n` by `p` matrix `X` with `1 ≤ p ≤ n`: `mgcv_pqr` returns for one
thread (LAPACK `dgeqp3`) and for 4 threads (`bpqr` with block size 15), each pivot vector is
a permutation of `0..p-1`, and for each of the two thread counts the matrix that
`mgcv_pqrqy` (with `tp = 0` and that thread count) makes of the `p` by `p` factor that
`getRpqr` extracts has column `piv[i]` of `X` as its column `i`; so the two reconstructions
hold the same column wherever their pivots name the same column of `X`. The routine
`dlarfg` meets `DlarfgSpec`, the call of `dgeqp3` meets `DgeqpOk`, and `dormqr` is its
reference definition. -/
theorem pqr_reconstructs [LinearOrderedField α]
    (dgeqp3 : Nat → Nat → (Nat → α) → Nat → (Nat → Nat) → (Nat → α) →
      (Nat → α) × (Nat → Nat) × (Nat → α))
    (dlarfg : Nat → α → (Nat → α) → α × (Nat → α) × α) (tol : α)
    (X : Nat → α) (n p : Nat) (piv0 : Nat → Nat) (tau0 : Nat → α) (fuel : Nat)
    (hp1 : 1 ≤ p) (hpn : p ≤ n) (hfuel : p ≤ fuel) (hd : DlarfgSpec dlarfg)
    (hq : DgeqpOk X n p (dgeqp3 n p X n piv0 tau0)) :
    ∃ (x1 : Nat → α) (piv1 : Nat → Nat) (tau1 : Nat → α)
      (x4 : Nat → α) (piv4 : Nat → Nat) (tau4 : Nat → α),
      mgcv_pqr dgeqp3 dlarfg tol X n p piv0 tau0 1 fuel = some (x1, piv1, tau1) ∧
      mgcv_pqr dgeqp3 dlarfg tol X n p piv0 tau0 4 fuel = some (x4, piv4, tau4) ∧
      IsPerm p piv1 ∧ IsPerm p piv4 ∧
      (∀ l i, l < n → i < p →
        mgcv_pqrqy (getRpqr (fun _ => 0) x1 n p p) x1 tau1 n p p 0 1 (l + n * i)
          = X (l + n * piv1 i)) ∧
      (∀ l i, l < n → i < p →
        mgcv_pqrqy (getRpqr (fun _ => 0) x4 n p p) x4 tau4 n p p 0 4 (l + n * i)
          = X (l + n * piv4 i)) ∧
      (∀ l i j, l < n → i < p → j < p → piv1 i = piv4 j →
        mgcv_pqrqy (getRpqr (fun _ => 0) x1 n p p) x1 tau1 n p p 0 1 (l + n * i)
          = mgcv_pqrqy (getRpqr (fun _ => 0) x4 n p p) x4 tau4 n p p 0 4 (l + n * j)) := by
  obtain ⟨x4, tau4, piv4, hb, hperm4, hqr4, ho4⟩ :=
    bpqr_factor dlarfg hd tol X n p tau0 piv0 15 4 fuel (by omega) (by omega) hpn hfuel
  obtain ⟨o, ho⟩ : ∃ o, o = dgeqp3 n p X n piv0 tau0 := ⟨_, rfl⟩
  rw [← ho] at hq
  obtain ⟨_, hperm, hqr, hor⟩ := hq
  have hpiv : ∀ c, c < p →
      forLoop p (fun i piv => store piv i (piv i - 1)) o.2.1 c = o.2.1 c - 1 := fun c hc =>
    (storeLoop_spec p (fun i => i) (fun _ v => v - 1) o.2.1 (fun _ _ _ _ h => h)).1 c hc
  have hqr1 : QRInv X n p p o.1 o.2.2 (forLoop p (fun i piv => store piv i (piv i - 1)) o.2.1) := by
    intro c i hc hi
    rw [hpiv c hc]
    exact hqr c i hc hi
  have r1 := fun l i (hl : l < n) (hi : i < p) =>
    pqrqy_getRpqr X n p o.1 o.2.2 _ 1 hp1 hpn (Or.inl rfl) hqr1 hor l i hl hi
  have r4 := fun l i (hl : l < n) (hi : i < p) =>
    pqrqy_getRpqr X n p x4 tau4 piv4 4 hp1 hpn (Or.inr rfl) hqr4 ho4 l i hl hi
  refine ⟨o.1, forLoop p (fun i piv => store piv i (piv i - 1)) o.2.1, o.2.2, x4, piv4, tau4,
    ?_, ?_, isPerm_congr p _ _ hpiv hperm, hperm4, r1, r4, fun l i j hl hi hj e => ?_⟩
  · unfold mgcv_pqr mgcv_qr
    rw [if_pos rfl, ← ho]
  · unfold mgcv_pqr
    rw [if_neg (by decide), hb]
    rfl
  · rw [r1 l i hl hi, r4 l j hl hj, e]

/-- Witness for C20: the 2 by 2 identity matrix over the reals, with the reference `dlarfg`
on `Real.sqrt` and a `dgeqp3` that returns an upper triangular input as it is (pivots
`1, 2`, every `tau` zero), as LAPACK does for this matrix. -/
theorem pqr_reconstructs_witness :
    ((1 : Nat) ≤ 2 ∧ (2 : Nat) ≤ 2 ∧ (2 : Nat) ≤ 2 ∧ DlarfgSpec (dlarfg_ref Real.sqrt) ∧
      DgeqpOk (fun q => if q = 0 ∨ q = 3 then (1 : ℝ) else 0) 2 2
        ((fun _ _ (x : Nat → ℝ) _ (_ : Nat → Nat) (_ : Nat → ℝ) =>
            (x, fun c => c + 1, fun _ => (0 : ℝ))) 2 2
          (fun q => if q = 0 ∨ q = 3 then (1 : ℝ) else 0) 2 (fun _ => 0) (fun _ => 0))) ∧
    ∃ (x1 : Nat → ℝ) (piv1 : Nat → Nat) (tau1 : Nat → ℝ)
      (x4 : Nat → ℝ) (piv4 : Nat → Nat) (tau4 : Nat → ℝ),
      mgcv_pqr (fun _ _ (x : Nat → ℝ) _ (_ : Nat → Nat) (_ : Nat → ℝ) =>
            (x, fun c => c + 1, fun _ => (0 : ℝ))) (dlarfg_ref Real.sqrt) (1 / 2 ^ 41)
          (fun q => if q = 0 ∨ q = 3 then (1 : ℝ) else 0) 2 2 (fun _ => 0) (fun _ => 0) 1 2
        = some (x1, piv1, tau1) ∧
      mgcv_pqr (fun _ _ (x : Nat → ℝ) _ (_ : Nat → Nat) (_ : Nat → ℝ) =>
            (x, fun c => c + 1, fun _ => (0 : ℝ))) (dlarfg_ref Real.sqrt) (1 / 2 ^ 41)
          (fun q => if q = 0 ∨ q = 3 then (1 : ℝ) else 0) 2 2 (fun _ => 0) (fun _ => 0) 4 2
        = some (x4, piv4, tau4) ∧
      IsPerm 2 piv1 ∧ IsPerm 2 piv4 ∧
      (∀ l i, l < 2 → i < 2 →
        mgcv_pqrqy (getRpqr (fun _ => 0) x1 2 2 2) x1 tau1 2 2 2 0 1 (l + 2 * i)
          = (fun q => if q = 0 ∨ q = 3 then (1 : ℝ) else 0) (l + 2 * piv1 i)) ∧
      (∀ l i, l < 2 → i < 2 →
        mgcv_pqrqy (getRpqr (fun _ => 0) x4 2 2 2) x4 tau4 2 2 2 0 4 (l + 2 * i)
          = (fun q => if q = 0 ∨ q = 3 then (1 : ℝ) else 0) (l + 2 * piv4 i)) ∧
      (∀ l i j, l < 2 → i < 2 → j < 2 → piv1 i = piv4 j →
        mgcv_pqrqy (getRpqr (fun _ => 0) x1 2 2 2) x1 tau1 2 2 2 0 1 (l + 2 * i)
          = mgcv_pqrqy (getRpqr (fun _ => 0) x4 2 2 2) x4 tau4 2 2 2 0 4 (l + 2 * j)) :=
  have hd : DlarfgSpec (dlarfg_ref Real.sqrt) :=
    dlarfg_ref_spec Real.sqrt (fun y hy => ⟨Real.sqrt_nonneg y, Real.mul_self_sqrt hy⟩)
  have hq : DgeqpOk (fun q => if q = 0 ∨ q = 3 then (1 : ℝ) else 0) 2 2
      ((fun q => if q = 0 ∨ q = 3 then (1 : ℝ) else 0), fun c => c + 1, fun _ => (0 : ℝ)) :=
    dgeqpOk_of_upper _ 2 2 (fun c i hc hi hci => by
      have e1 : c = 0 := by omega
      have e2 : i = 1 := by omega
      subst e1 e2
      simp)
  ⟨⟨le_of_lt (by decide), le_rfl, le_rfl, hd, hq⟩,
    pqr_reconstructs _ (dlarfg_ref Real.sqrt) (1 / 2 ^ 41) _ 2 2 (fun _ => 0) (fun _ => 0) 2
      (by decide) le_rfl le_rfl hd hq⟩

end PqrProofs
/-! ## Correctness of `mgcv_pchol` -/

section PcholProofs
variable {α : Type}

theorem strideCount_shift (a i j n : Nat) (hn : 1 ≤ n) :
    strideCount (a + i * n) (a + j * n) n = j - i := by
  unfold strideCount
  by_cases h : i ≤ j
  · have e : a + j * n - (a + i * n) + n - 1 = (n - 1) + (j - i) * n := by
      have : j * n = i * n + (j - i) * n := by
        rw [← Nat.add_mul]; congr 1; omega
      omega
    rw [e, Nat.add_mul_div_right _ _ (by omega), Nat.div_eq_of_lt (by omega), Nat.zero_add]
  · have h1 : j * n ≤ i * n := Nat.mul_le_mul_right n (by omega)
    have e : a + j * n - (a + i * n) + n - 1 = n - 1 := by omega
    rw [e, Nat.div_eq_of_lt (by omega)]
    omega

theorem cell_eq_iff (n a b a' b' : Nat) (ha : a < n) (ha' : a' < n) :
    a + n * b = a' + n * b' ↔ a = a' ∧ b = b' := by
  constructor
  · intro h
    by_contra hc
    have := cell_ne n a b a' b' ha ha' (by omega)
    rw [Nat.mul_comm b n, Nat.mul_comm b' n] at this
    exact this h
  · rintro ⟨rfl, rfl⟩
    rfl

/-- Pivot search of `mgcv_pchol` in pass `k`: `q` is in `k .. n - 1` and `x` is the diagonal
entry `A[q,q]`. -/
theorem pcholPivot_spec [LinearOrderedField α] (A : Nat → α) (n k : Nat) (hk : k < n) :
    k ≤ (pcholPivot A n k).2 ∧ (pcholPivot A n k).2 < n ∧
    (pcholPivot A n k).1 = A ((pcholPivot A n k).2 + n * (pcholPivot A n k).2) := by
  unfold pcholPivot
  have key : ∀ m, m ≤ n - (k + 1) →
      k ≤ (forLoop m (fun t (xq : α × Nat) =>
        if A (k * n + k + (n + 1) + t * (n + 1)) > xq.1
        then (A (k * n + k + (n + 1) + t * (n + 1)), k + 1 + t) else xq) (A (k * n + k), k)).2 ∧
      (forLoop m (fun t (xq : α × Nat) =>
        if A (k * n + k + (n + 1) + t * (n + 1)) > xq.1
        then (A (k * n + k + (n + 1) + t * (n + 1)), k + 1 + t) else xq) (A (k * n + k), k)).2
          < k + 1 + m ∧
      (forLoop m (fun t (xq : α × Nat) =>
        if A (k * n + k + (n + 1) + t * (n + 1)) > xq.1
        then (A (k * n + k + (n + 1) + t * (n + 1)), k + 1 + t) else xq) (A (k * n + k), k)).1
        = A ((forLoop m (fun t (xq : α × Nat) =>
          if A (k * n + k + (n + 1) + t * (n + 1)) > xq.1
          then (A (k * n + k + (n + 1) + t * (n + 1)), k + 1 + t) else xq) (A (k * n + k), k)).2
          + n * (forLoop m (fun t (xq : α × Nat) =>
          if A (k * n + k + (n + 1) + t * (n + 1)) > xq.1
          then (A (k * n + k + (n + 1) + t * (n + 1)), k + 1 + t) else xq)
            (A (k * n + k), k)).2) := by
    intro m
    induction m with
    | zero =>
      intro _
      refine ⟨le_rfl, by show k < k + 1 + 0; omega, ?_⟩
      show A (k * n + k) = A (k + n * k)
      congr 1
      rw [Nat.mul_comm]; omega
    | succ m ih =>
      intro hm
      obtain ⟨h1, h2, h3⟩ := ih (by omega)
      rw [forLoop_succ]
      generalize forLoop m _ (A (k * n + k), k) = xq at h1 h2 h3 ⊢
      by_cases c : A (k * n + k + (n + 1) + m * (n + 1)) > xq.1
      · simp only [if_pos c]
        refine ⟨by omega, by omega, ?_⟩
        congr 1
        ring
      · simp only [if_neg c]
        exact ⟨h1, by omega, h3⟩
  obtain ⟨h1, h2, h3⟩ := key (n - (k + 1)) le_rfl
  exact ⟨h1, by omega, h3⟩

theorem cell_congr (n : Nat) {x y x1 y1 : Nat} (hx : x = x1) (hy : y = y1) :
    x + n * y = x1 + n * y1 := by
  rw [hx, hy]

/-- Exchange `A[k+1:q-1,k] <-> A[q,k+1:q-1]` of `mgcv_pchol`, cell by cell. -/
theorem pcholSwapMid_spec (B : Nat → α) (n k q : Nat) (hq : q < n) (a b : Nat)
    (ha : a < n) (_hb : b < n) :
    pcholSwapMid B n k q (a + n * b)
      = if b = k ∧ k < a ∧ a < q then B (q + n * a)
        else if a = q ∧ k < b ∧ b < q then B (b + n * k) else B (a + n * b) := by
  unfold pcholSwapMid
  have e1 : q + k * n + n = q + (k + 1) * n := by ring
  have e2 : q * n + q = q + q * n := by ring
  rw [e1, e2, strideCount_shift q (k + 1) q n (by omega)]
  have ep : ∀ t, k * n + k + 1 + t = (k + 1 + t) + n * k := fun t => by ring
  have eq : ∀ t, q + (k + 1) * n + t * n = q + n * (k + 1 + t) := fun t => by ring
  obtain ⟨h1, h2⟩ := swapLoop_spec (fun t => k * n + k + 1 + t)
    (fun t => q + (k + 1) * n + t * n) (q - (k + 1)) B (fun t t' ht ht' hne => by
      refine ⟨?_, ?_, ?_⟩
      · show k * n + k + 1 + t ≠ k * n + k + 1 + t'
        omega
      · show k * n + k + 1 + t ≠ q + (k + 1) * n + t' * n
        rw [ep, eq]
        intro h
        have := (cell_eq_iff n _ _ _ _ (by omega) hq).1 h
        omega
      · show q + (k + 1) * n + t * n ≠ q + (k + 1) * n + t' * n
        rw [eq, eq]
        intro h
        have := (cell_eq_iff n _ _ _ _ hq hq).1 h
        omega)
  by_cases c1 : b = k ∧ k < a ∧ a < q
  · rw [if_pos c1]
    obtain ⟨rfl, c2, c3⟩ := c1
    have := (h1 (a - (b + 1)) (by omega)).1
    rw [ep, eq, show b + 1 + (a - (b + 1)) = a by omega] at this
    exact this
  · rw [if_neg c1]
    by_cases c2 : a = q ∧ k < b ∧ b < q
    · rw [if_pos c2]
      obtain ⟨rfl, c3, c4⟩ := c2
      have := (h1 (b - (k + 1)) (by omega)).2
      rw [ep, eq, show k + 1 + (b - (k + 1)) = b by omega] at this
      exact this
    · rw [if_neg c2]
      refine h2 _ (fun t ht => ⟨?_, ?_⟩)
      · rw [ep]
        intro h
        have := (cell_eq_iff n _ _ _ _ ha (by omega)).1 h
        exact c1 (by omega)
      · rw [eq]
        intro h
        have := (cell_eq_iff n _ _ _ _ ha hq).1 h
        exact c2 (by omega)

/-- Exchange `A[q,1:k-1] <-> A[k,1:k-1]` of `mgcv_pchol`, cell by cell. -/
theorem pcholSwapRows_spec (B : Nat → α) (n k q : Nat) (hkq : k ≤ q) (hq : q < n)
    (a b : Nat) (ha : a < n) (_hb : b < n) :
    pcholSwapRows B n k q (a + n * b)
      = if b < k ∧ a = q then B (k + n * b)
        else if b < k ∧ a = k then B (q + n * b) else B (a + n * b) := by
  unfold pcholSwapRows
  have e0 := strideCount_shift k 0 k n (by omega)
  rw [Nat.zero_mul, Nat.add_zero, Nat.sub_zero] at e0
  rw [e0]
  have ep : ∀ t, q + t * n = q + n * t := fun t => by ring
  have eq : ∀ t, k + t * n = k + n * t := fun t => by ring
  obtain ⟨h1, h2⟩ := swapLoop_spec (fun t => q + t * n) (fun t => k + t * n) k B
    (fun t t' ht ht' hne => by
      refine ⟨?_, ?_, ?_⟩
      · show q + t * n ≠ q + t' * n
        rw [ep, ep]
        intro h
        have := (cell_eq_iff n _ _ _ _ hq hq).1 h
        omega
      · show q + t * n ≠ k + t' * n
        rw [ep, eq]
        intro h
        have := (cell_eq_iff n _ _ _ _ hq (by omega)).1 h
        omega
      · show k + t * n ≠ k + t' * n
        rw [eq, eq]
        intro h
        have := (cell_eq_iff n _ _ _ _ (by omega) (by omega)).1 h
        omega)
  by_cases c1 : b < k ∧ a = q
  · rw [if_pos c1]
    obtain ⟨c2, rfl⟩ := c1
    have := (h1 b c2).1
    rw [ep, eq] at this
    exact this
  · rw [if_neg c1]
    by_cases c2 : b < k ∧ a = k
    · rw [if_pos c2]
      obtain ⟨c3, rfl⟩ := c2
      have := (h1 b c3).2
      rw [ep, eq] at this
      exact this
    · rw [if_neg c2]
      refine h2 _ (fun t ht => ⟨?_, ?_⟩)
      · rw [ep]
        intro h
        have := (cell_eq_iff n _ _ _ _ ha hq).1 h
        exact c1 (by omega)
      · rw [eq]
        intro h
        have := (cell_eq_iff n _ _ _ _ ha (by omega)).1 h
        exact c2 (by omega)

/-- Exchange `A[q+1:n,k] <-> A[q+1:n,q]` of `mgcv_pchol`, cell by cell. -/
theorem pcholSwapCols_spec (B : Nat → α) (n k q : Nat) (a b : Nat)
    (ha : a < n) (hb : b < n) :
    pcholSwapCols B n k q (a + n * b)
      = if q < a ∧ b = q then B (a + n * k)
        else if q < a ∧ b = k then B (a + n * q) else B (a + n * b) := by
  unfold pcholSwapCols
  rw [show k * n + n - (k * n + (q + 1)) = n - (q + 1) by omega]
  have ep : ∀ t, q * n + q + 1 + t = (q + 1 + t) + n * q := fun t => by ring
  have eq : ∀ t, k * n + (q + 1) + t = (q + 1 + t) + n * k := fun t => by ring
  obtain ⟨h1, h2⟩ := swapLoop_spec (fun t => q * n + q + 1 + t)
    (fun t => k * n + (q + 1) + t) (n - (q + 1)) B
    (fun t t' ht ht' hne => by
      refine ⟨?_, ?_, ?_⟩
      · show q * n + q + 1 + t ≠ q * n + q + 1 + t'
        omega
      · show q * n + q + 1 + t ≠ k * n + (q + 1) + t'
        rw [ep, eq]
        intro h
        have := (cell_eq_iff n _ _ _ _ (by omega) (by omega)).1 h
        omega
      · show k * n + (q + 1) + t ≠ k * n + (q + 1) + t'
        omega)
  by_cases c1 : q < a ∧ b = q
  · rw [if_pos c1]
    obtain ⟨c2, rfl⟩ := c1
    have := (h1 (a - (b + 1)) (by omega)).1
    rw [ep, eq, show b + 1 + (a - (b + 1)) = a by omega] at this
    exact this
  · rw [if_neg c1]
    by_cases c2 : q < a ∧ b = k
    · rw [if_pos c2]
      obtain ⟨c3, rfl⟩ := c2
      have := (h1 (a - (q + 1)) (by omega)).2
      rw [ep, eq, show q + 1 + (a - (q + 1)) = a by omega] at this
      exact this
    · rw [if_neg c2]
      refine h2 _ (fun t ht => ⟨?_, ?_⟩)
      · rw [ep]
        intro h
        have := (cell_eq_iff n _ _ _ _ ha (by omega)).1 h
        exact c1 (by omega)
      · rw [eq]
        intro h
        have := (cell_eq_iff n _ _ _ _ ha (by omega)).1 h
        exact c2 (by omega)

/-- Exchange `A[k,k] <-> A[q,q]` of `mgcv_pchol`, cell by cell. -/
theorem pcholSwapDiag_spec (B : Nat → α) (n k q : Nat) (hkq : k ≤ q) (hq : q < n)
    (a b : Nat) (ha : a < n) (_hb : b < n) :
    swapCells B (k * n + k) (q * n + q) (a + n * b)
      = if a = k ∧ b = k then B (q + n * q)
        else if a = q ∧ b = q then B (k + n * k) else B (a + n * b) := by
  have ek : k * n + k = k + n * k := by ring
  have eq : q * n + q = q + n * q := by ring
  rw [ek, eq]
  by_cases c1 : a = k ∧ b = k
  · rw [if_pos c1]
    obtain ⟨rfl, rfl⟩ := c1
    exact swapCells_left _ _ _
  · rw [if_neg c1]
    by_cases c2 : a = q ∧ b = q
    · rw [if_pos c2]
      obtain ⟨rfl, rfl⟩ := c2
      exact swapCells_right _ _ _
    · rw [if_neg c2]
      refine swapCells_other _ _ _ _ ?_ ?_
      · intro h
        have := (cell_eq_iff n _ _ _ _ ha (by omega)).1 h
        exact c1 this
      · intro h
        have := (cell_eq_iff n _ _ _ _ ha hq).1 h
        exact c2 this

/-- The four exchanges of pass `k` of `mgcv_pchol` exchange the rows and the columns `k`
and `q` of the symmetric matrix stored in the lower triangle. -/
theorem pcholSwap_spec (A : Nat → α) (n k q : Nat) (hkq : k ≤ q) (hq : q < n)
    (a b : Nat) (hba : b ≤ a) (ha : a < n) :
    pcholSwapCols (pcholSwapRows (pcholSwapMid (swapCells A (k * n + k) (q * n + q)) n k q)
      n k q) n k q (a + n * b)
      = lowRead A n (Equiv.swap k q a) (Equiv.swap k q b) := by
  have hb : b < n := by omega
  have hk : k < n := by omega
  have hC := pcholSwapCols_spec (pcholSwapRows (pcholSwapMid
    (swapCells A (k * n + k) (q * n + q)) n k q) n k q) n k q
  have hR := pcholSwapRows_spec (pcholSwapMid
    (swapCells A (k * n + k) (q * n + q)) n k q) n k q hkq hq
  have hM := pcholSwapMid_spec (swapCells A (k * n + k) (q * n + q)) n k q hq
  have hD := pcholSwapDiag_spec A n k q hkq hq
  rw [hC a b ha hb]
  split_ifs
  all_goals first
    | rw [hR a k ha hk]
    | rw [hR a q ha hq]
    | rw [hR a b ha hb]
  all_goals split_ifs
  all_goals try (exfalso; omega)
  all_goals first
    | rw [hM k k hk hk]
    | rw [hM q k hq hk]
    | rw [hM a k ha hk]
    | rw [hM k q hk hq]
    | rw [hM q q hq hq]
    | rw [hM a q ha hq]
    | rw [hM k b hk hb]
    | rw [hM q b hq hb]
    | rw [hM a b ha hb]
  all_goals split_ifs
  all_goals try (exfalso; omega)
  all_goals first
    | rw [hD q a hq ha]
    | rw [hD q k hq hk]
    | rw [hD q q hq hq]
    | rw [hD q b hq hb]
    | rw [hD k k hk hk]
    | rw [hD a k ha hk]
    | rw [hD b k hb hk]
    | rw [hD k q hk hq]
    | rw [hD a q ha hq]
    | rw [hD k b hk hb]
    | rw [hD a b ha hb]
  all_goals split_ifs
  all_goals try (exfalso; omega)
  all_goals unfold lowRead
  all_goals simp only [Equiv.swap_apply_def]
  all_goals split_ifs
  all_goals exact congrArg A (cell_congr n (by omega) (by omega))

/-- Scaling of column `k` of `mgcv_pchol`: the diagonal entry becomes its square root and
the entries below it are divided by that root. -/
theorem pcholScale_spec [LinearOrderedField α] (sqrt : α → α) (A : Nat → α) (n k : Nat)
    (hk : k < n) :
    pcholScale sqrt A n k (k + n * k) = sqrt (A (k + n * k)) ∧
    (∀ a, k < a → a < n →
      pcholScale sqrt A n k (a + n * k) = A (a + n * k) / sqrt (A (k + n * k))) ∧
    (∀ x, (∀ a, k ≤ a → a < n → x ≠ a + n * k) → pcholScale sqrt A n k x = A x) := by
  unfold pcholScale
  rw [show k * n + n - (k * n + k + 1) = n - (k + 1) by omega]
  have ek : k * n + k = k + n * k := by ring
  have ep : ∀ t, k * n + k + 1 + t = (k + 1 + t) + n * k := fun t => by ring
  obtain ⟨h1, h2⟩ := storeLoop_spec (n - (k + 1)) (fun t => k * n + k + 1 + t)
    (fun _ v => v / store A (k * n + k) (sqrt (A (k * n + k))) (k * n + k))
    (store A (k * n + k) (sqrt (A (k * n + k)))) (fun i j _ _ h => by
      have h : k * n + k + 1 + i = k * n + k + 1 + j := h
      omega)
  refine ⟨?_, ?_, ?_⟩
  · rw [h2 _ (fun t _ => by
      show k + n * k ≠ k * n + k + 1 + t
      rw [ep]
      intro h
      have := (cell_eq_iff n _ _ _ _ hk (by omega)).1 h
      omega), ← ek, store_same]
  · intro a ha1 ha2
    have := h1 (a - (k + 1)) (by omega)
    rw [ep, show k + 1 + (a - (k + 1)) = a by omega] at this
    rw [this, store_same, store_ne _ _ _ _ (by
      rw [ek]
      intro h
      have := (cell_eq_iff n _ _ _ _ ha2 hk).1 h
      omega), ek]
  · intro x hx
    rw [h2 x (fun t ht => by
      show x ≠ k * n + k + 1 + t
      rw [ep]
      exact hx _ (by omega) (by omega)), store_ne _ _ _ _ (by
      rw [ek]
      exact hx k le_rfl hk)]

/-- Update of column `j > k` in pass `k` of `mgcv_pchol`. -/
theorem pcholUpdCol_spec [LinearOrderedField α] (A : Nat → α) (n k j : Nat) (hkj : k < j)
    (hj : j < n) :
    (∀ a, j ≤ a → a < n →
      pcholUpdCol n k j A (a + n * j) = A (a + n * j) - A (a + n * k) * A (j + n * k)) ∧
    (∀ x, (∀ a, j ≤ a → a < n → x ≠ a + n * j) → pcholUpdCol n k j A x = A x) := by
  unfold pcholUpdCol
  rw [show k * n + n - (k * n + j) = n - j by omega]
  have ep : ∀ t, n * j + j + t = (j + t) + n * j := fun t => by ring
  have er : ∀ t, k * n + j + t = (j + t) + n * k := fun t => by ring
  have ek : k * n + j = j + n * k := by ring
  obtain ⟨h1, h2⟩ := cellLoop_spec (fun t => n * j + j + t)
    (fun t B => store B (n * j + j + t) (B (n * j + j + t) - B (k * n + j + t) * A (k * n + j)))
    (fun t v => v - A (k * n + j + t) * A (k * n + j)) (n - j) A
    (fun t t' _ _ h => by
      have h : n * j + j + t = n * j + j + t' := h
      omega)
    (fun t B ht hB => by
      refine ⟨?_, fun x hx => store_ne _ _ _ _ hx⟩
      show store B (n * j + j + t) _ (n * j + j + t) = _
      rw [store_same, hB (k * n + j + t) (fun t' ht' => by
        show k * n + j + t ≠ n * j + j + t'
        rw [ep, er]
        intro h
        have := (cell_eq_iff n _ _ _ _ (by omega) (by omega)).1 h
        omega)])
  generalize forLoop (n - j) (fun t B =>
    store B (n * j + j + t) (B (n * j + j + t) - B (k * n + j + t) * A (k * n + j))) A = U
    at h1 h2 ⊢
  constructor
  · intro a ha1 ha2
    have := h1 (a - j) (by omega)
    rw [ep, er, ek, show j + (a - j) = a by omega] at this
    exact this
  · intro x hx
    exact h2 x (fun t ht => by
      show x ≠ n * j + j + t
      rw [ep]
      exact hx _ (by omega) (by omega))

theorem pcholUpdCol_skip [LinearOrderedField α] (A : Nat → α) (n k j : Nat) (hj : n ≤ j) :
    pcholUpdCol n k j A = A := by
  unfold pcholUpdCol
  rw [show k * n + n - (k * n + j) = 0 by omega]
  rfl

/-- Column updates of pass `k` of `mgcv_pchol` over all the columns `k < j < n`. -/
theorem pcholUpdCols_spec [LinearOrderedField α] (A : Nat → α) (n k : Nat) (c : Nat)
    (hc : k + 1 + c ≤ n) :
    (∀ a j, k < j → j < k + 1 + c → j ≤ a → a < n →
      forLoop c (fun t => pcholUpdCol n k (k + 1 + t)) A (a + n * j)
        = A (a + n * j) - A (a + n * k) * A (j + n * k)) ∧
    (∀ x, (∀ a j, k < j → j < k + 1 + c → j ≤ a → a < n → x ≠ a + n * j) →
      forLoop c (fun t => pcholUpdCol n k (k + 1 + t)) A x = A x) := by
  induction c with
  | zero => exact ⟨fun a j h1 h2 => by omega, fun x _ => rfl⟩
  | succ c ih =>
    obtain ⟨h1, h2⟩ := ih (by omega)
    rw [forLoop_succ]
    generalize forLoop c (fun t => pcholUpdCol n k (k + 1 + t)) A = O at h1 h2 ⊢
    obtain ⟨g1, g2⟩ := pcholUpdCol_spec O n k (k + 1 + c) (by omega) (by omega)
    have hk : ∀ a, a < n → O (a + n * k) = A (a + n * k) := fun a ha =>
      h2 _ (fun a' j' hj1 _ _ ha' h => by
        have := (cell_eq_iff n _ _ _ _ ha ha').1 h
        omega)
    constructor
    · intro a j hj1 hj2 hja ha
      by_cases e : j = k + 1 + c
      · subst e
        rw [g1 a hja ha, hk a ha, hk _ (by omega), h2 _ (fun a' j' _ hj2' _ ha' h => by
          have := (cell_eq_iff n _ _ _ _ ha ha').1 h
          omega)]
      · rw [g2 _ (fun a' ha1' ha2' h => by
          have := (cell_eq_iff n _ _ _ _ ha ha2').1 h
          omega)]
        exact h1 a j hj1 (by omega) hja ha
    · intro x hx
      rw [g2 x (fun a' ha1' ha2' => hx a' _ (by omega) (by omega) ha1' ha2')]
      exact h2 x (fun a' j' hj1 hj2 hja ha' => hx a' j' hj1 (by omega) hja ha')

/-- Cut points of pass `k` of `mgcv_pchol`: unless `k` is the last column there is at least
one block, the first block starts at `k + 1`, the starts increase strictly, and the last
block ends at `n` or above. In the last pass there is no block. -/
theorem pcholCuts_spec (cut : Nat → Nat → Nat → Nat) (n k m : Nat) (a : Nat → Nat)
    (_hk : k < n) (hm : 1 ≤ m) (ha : n ≤ a m) (h0 : a 0 = k) :
    (k + 1 = n → (pcholCuts cut n k m a).1 = 0) ∧
    (k + 1 < n → 1 ≤ (pcholCuts cut n k m a).1 ∧
      (pcholCuts cut n k m a).2 0 = k + 1 ∧
      (∀ b, b < (pcholCuts cut n k m a).1 →
        (pcholCuts cut n k m a).2 b < (pcholCuts cut n k m a).2 (b + 1)) ∧
      n ≤ (pcholCuts cut n k m a).2 (pcholCuts cut n k m a).1) := by
  unfold pcholCuts
  simp only
  constructor
  · intro e
    rw [show n - k - 1 = 0 by omega, if_pos (by omega)]
  · intro hlt
    have hma : 1 ≤ (if m > n - k - 1 then (n - k - 1, store a (n - k - 1) n) else (m, a)).1 ∧
        n ≤ (if m > n - k - 1 then (n - k - 1, store a (n - k - 1) n) else (m, a)).2
          (if m > n - k - 1 then (n - k - 1, store a (n - k - 1) n) else (m, a)).1 ∧
        (if m > n - k - 1 then (n - k - 1, store a (n - k - 1) n) else (m, a)).2 0 = k := by
      by_cases c : m > n - k - 1
      · rw [if_pos c]
        refine ⟨by show 1 ≤ n - k - 1; omega, ?_, ?_⟩
        · show n ≤ store a (n - k - 1) n (n - k - 1)
          rw [store_same]
        · show store a (n - k - 1) n 0 = k
          rw [store_ne _ _ _ _ (by omega)]
          exact h0
      · rw [if_neg c]
        exact ⟨hm, ha, h0⟩
    generalize (if m > n - k - 1 then (n - k - 1, store a (n - k - 1) n) else (m, a)) = ma
      at hma ⊢
    obtain ⟨m1, a0⟩ := ma
    simp only at hma ⊢
    obtain ⟨hm1, ha0, h00⟩ := hma
    have e : ∀ i, i < m1 - 1 → m1 ≠ i + 1 := fun i hi => by omega
    have g2 := (storeLoop_spec (m1 - 1) (fun t => t + 1)
      (fun t _ => cut (n - k - 1) m1 (t + 1) + k + 1) (store a0 0 (a0 0 + 1))
      (fun i i' _ _ h => Nat.add_right_cancel h)).2
    have q0 := g2 0 (fun i _ => (Nat.succ_ne_zero i).symm)
    have qm := g2 m1 e
    rw [store_same] at q0
    rw [store_ne _ _ _ _ (by omega)] at qm
    clear g2
    obtain ⟨h1, h2, -, h4⟩ := fixLoop_spec
      (forLoop (m1 - 1) (fun t a => store a (t + 1) (cut (n - k - 1) m1 (t + 1) + k + 1))
        (store a0 0 (a0 0 + 1))) m1
    generalize forLoop (m1 - 1) (fun t a => store a (t + 1) (cut (n - k - 1) m1 (t + 1) + k + 1))
      (store a0 0 (a0 0 + 1)) = a2 at q0 qm h1 h2 h4 ⊢
    rw [h00] at q0
    exact ⟨hm1, h1.trans q0, h2, le_trans (qm ▸ ha0) h4⟩

/-- Column updates of pass `k` of `mgcv_pchol` with the cut points of the pass: every entry
of the lower triangle to the right of column `k` has the product of the entries of column
`k` in its row and in its column taken away. -/
theorem pcholUpdate_spec [LinearOrderedField α] (cut : Nat → Nat → Nat → Nat)
    (A : Nat → α) (n k m : Nat) (a : Nat → Nat)
    (hk : k < n) (hm : 1 ≤ m) (ha : n ≤ a m) (h0 : a 0 = k) :
    (∀ x j, k < j → j ≤ x → x < n →
      pcholUpdate n k (pcholCuts cut n k m a).1 (pcholCuts cut n k m a).2 A (x + n * j)
        = A (x + n * j) - A (x + n * k) * A (j + n * k)) ∧
    (∀ z, (∀ x j, k < j → j ≤ x → x < n → z ≠ x + n * j) →
      pcholUpdate n k (pcholCuts cut n k m a).1 (pcholCuts cut n k m a).2 A z = A z) := by
  obtain ⟨c1, c2⟩ := pcholCuts_spec cut n k m a hk hm ha h0
  unfold pcholUpdate
  by_cases e : k + 1 = n
  · rw [c1 e]
    exact ⟨fun x j h1 h2 h3 => by omega, fun z _ => rfl⟩
  · obtain ⟨d1, d2, d3, d4⟩ := c2 (by omega)
    rw [blockLoop_eq_from _ _ _ _ (fun b hb => le_of_lt (d3 b hb)), d2,
      forLoop_trunc (n - (k + 1)) _ _ _ (by omega) (fun i hi s =>
        pcholUpdCol_skip s n k (k + 1 + i) (by omega))]
    obtain ⟨g1, g2⟩ := pcholUpdCols_spec A n k (n - (k + 1)) (by omega)
    exact ⟨fun x j h1 h2 h3 => g1 x j h1 (by omega) h2 h3,
      fun z hz => g2 z (fun x j h1 _ h3 h4 => hz x j h1 h3 h4)⟩

/-- The exchange of the rows and columns `k` and `q` of the symmetric matrix in the lower
triangle, together with the exchange of `piv[k]` and `piv[q]`, keeps the relation between
the state of `mgcv_pchol` and the input, and brings the entry `A[q,q]` to `A[k,k]`. -/
theorem lowSwap_inv [LinearOrderedField α] (A0 A A4 : Nat → α) (piv piv1 : Nat → Nat)
    (n k q : Nat) (hkq : k ≤ q) (hq : q < n)
    (hsym : ∀ a b, a < n → b < n → A0 (a + n * b) = A0 (b + n * a))
    (hperm : IsPerm n piv)
    (hA4 : ∀ a b, b ≤ a → a < n → A4 (a + n * b)
      = lowRead A n (Equiv.swap k q a) (Equiv.swap k q b))
    (hp1 : ∀ i, piv1 i = piv (Equiv.swap k q i))
    (hdiag : ∀ i, i < k → A (i + n * i) ≠ 0)
    (hstar : ∀ i l, i < k → i ≤ l → l < n →
      ∑ t in Finset.range (i + 1), A (i + n * t) * A (l + n * t) = A0 (piv i + n * piv l))
    (htrail : ∀ a b, k ≤ b → b ≤ a → a < n →
      A (a + n * b) = A0 (piv a + n * piv b)
        - ∑ t in Finset.range k, A (a + n * t) * A (b + n * t)) :
    (∀ i, i < k → A4 (i + n * i) ≠ 0) ∧
    (∀ i l, i < k → i ≤ l → l < n →
      ∑ t in Finset.range (i + 1), A4 (i + n * t) * A4 (l + n * t)
        = A0 (piv1 i + n * piv1 l)) ∧
    (∀ a b, k ≤ b → b ≤ a → a < n →
      A4 (a + n * b) = A0 (piv1 a + n * piv1 b)
        - ∑ t in Finset.range k, A4 (a + n * t) * A4 (b + n * t)) ∧
    A4 (k + n * k) = A (q + n * q) := by
  have hlow : ∀ a t, t < k → t ≤ a → a < n →
      A4 (a + n * t) = A (Equiv.swap k q a + n * t) := by
    intro a t ht hta ha
    obtain ⟨-, s2, s3⟩ := swap_range n k q a hkq hq ha
    rw [hA4 a t hta ha, (swap_range n k q t hkq hq (by omega)).2.2 ht]
    unfold lowRead
    rw [if_pos (by
      by_cases h : a < k
      · rw [s3 h]; exact hta
      · have := s2 (by omega)
        omega)]
  refine ⟨fun i hi => ?_, fun i l hi hil hl => ?_, fun a b hb hba ha => ?_, ?_⟩
  · rw [hlow i i hi le_rfl (by omega), (swap_range n k q i hkq hq (by omega)).2.2 hi]
    exact hdiag i hi
  · obtain ⟨s1, s2, s3⟩ := swap_range n k q l hkq hq hl
    have hil' : i ≤ Equiv.swap k q l := by
      by_cases h : l < k
      · rw [s3 h]; exact hil
      · have := s2 (by omega)
        omega
    rw [hp1, hp1, (swap_range n k q i hkq hq (by omega)).2.2 hi, ← hstar i _ hi hil' s1]
    refine Finset.sum_congr rfl (fun t ht => ?_)
    have ht := Finset.mem_range.mp ht
    rw [hlow i t (by omega) (by omega) (by omega), hlow l t (by omega) (by omega) hl,
      (swap_range n k q i hkq hq (by omega)).2.2 hi]
  · obtain ⟨a1, a2, -⟩ := swap_range n k q a hkq hq ha
    obtain ⟨b1, b2, -⟩ := swap_range n k q b hkq hq (by omega)
    have a2 := a2 (by omega)
    have b2 := b2 hb
    have hs : ∑ t in Finset.range k, A4 (a + n * t) * A4 (b + n * t)
        = ∑ t in Finset.range k,
          A (Equiv.swap k q a + n * t) * A (Equiv.swap k q b + n * t) := by
      refine Finset.sum_congr rfl (fun t ht => ?_)
      have ht := Finset.mem_range.mp ht
      rw [hlow a t ht (by omega) ha, hlow b t ht (by omega) (by omega)]
    rw [hs, hA4 a b hba ha, hp1, hp1]
    unfold lowRead
    by_cases c : Equiv.swap k q b ≤ Equiv.swap k q a
    · rw [if_pos c]
      exact htrail _ _ b2 c a1
    · rw [if_neg c, htrail _ _ a2 (by omega) b1,
        hsym _ _ (hperm.1 _ b1) (hperm.1 _ a1)]
      congr 1
      refine Finset.sum_congr rfl (fun t _ => ?_)
      rw [mul_comm]
  · rw [hA4 k k le_rfl (by omega), Equiv.swap_apply_left]
    unfold lowRead
    rw [if_pos le_rfl]

/-- Scaling of column `k` and the column updates of pass `k` of `mgcv_pchol` take the
relation between the state and the input from `k` to `k + 1` columns done. -/
theorem lowCol_inv [LinearOrderedField α] (A0 A4 A5 U : Nat → α) (piv1 : Nat → Nat)
    (n k : Nat) (d : α) (hk : k < n)
    (hsym : ∀ a b, a < n → b < n → A0 (a + n * b) = A0 (b + n * a))
    (hperm : IsPerm n piv1) (hd : d * d = A4 (k + n * k)) (hd0 : d ≠ 0)
    (h5k : A5 (k + n * k) = d)
    (h5c : ∀ a, k < a → a < n → A5 (a + n * k) = A4 (a + n * k) / d)
    (h5o : ∀ x, (∀ a, k ≤ a → a < n → x ≠ a + n * k) → A5 x = A4 x)
    (hU : ∀ x j, k < j → j ≤ x → x < n →
      U (x + n * j) = A5 (x + n * j) - A5 (x + n * k) * A5 (j + n * k))
    (hUo : ∀ z, (∀ x j, k < j → j ≤ x → x < n → z ≠ x + n * j) → U z = A5 z)
    (hdiag : ∀ i, i < k → A4 (i + n * i) ≠ 0)
    (hstar : ∀ i l, i < k → i ≤ l → l < n →
      ∑ t in Finset.range (i + 1), A4 (i + n * t) * A4 (l + n * t)
        = A0 (piv1 i + n * piv1 l))
    (htrail : ∀ a b, k ≤ b → b ≤ a → a < n →
      A4 (a + n * b) = A0 (piv1 a + n * piv1 b)
        - ∑ t in Finset.range k, A4 (a + n * t) * A4 (b + n * t)) :
    (∀ i, i < k + 1 → U (i + n * i) ≠ 0) ∧
    (∀ i l, i < k + 1 → i ≤ l → l < n →
      ∑ t in Finset.range (i + 1), U (i + n * t) * U (l + n * t)
        = A0 (piv1 i + n * piv1 l)) ∧
    (∀ a b, k + 1 ≤ b → b ≤ a → a < n →
      U (a + n * b) = A0 (piv1 a + n * piv1 b)
        - ∑ t in Finset.range (k + 1), U (a + n * t) * U (b + n * t)) := by
  have hUlow : ∀ a t, t ≤ k → a < n → U (a + n * t) = A5 (a + n * t) := by
    intro a t ht ha
    refine hUo _ (fun x j hj hjx hx h => ?_)
    have := (cell_eq_iff n _ _ _ _ ha hx).1 h
    omega
  have h5low : ∀ a t, t < k → a < n → A5 (a + n * t) = A4 (a + n * t) := by
    intro a t ht ha
    refine h5o _ (fun x hx1 hx2 h => ?_)
    have := (cell_eq_iff n _ _ _ _ ha hx2).1 h
    omega
  have h5tr : ∀ a b, k < b → a < n → A5 (a + n * b) = A4 (a + n * b) := by
    intro a b hb ha
    refine h5o _ (fun x hx1 hx2 h => ?_)
    have := (cell_eq_iff n _ _ _ _ ha hx2).1 h
    omega
  have hsumk : ∀ a b, a < n → b < n →
      ∑ t in Finset.range k, U (a + n * t) * U (b + n * t)
        = ∑ t in Finset.range k, A4 (a + n * t) * A4 (b + n * t) := by
    intro a b ha hb
    refine Finset.sum_congr rfl (fun t ht => ?_)
    have ht := Finset.mem_range.mp ht
    rw [hUlow a t (by omega) ha, hUlow b t (by omega) hb, h5low a t ht ha, h5low b t ht hb]
  have hcol : ∀ a, k < a → a < n → d * A5 (a + n * k) = A4 (a + n * k) := by
    intro a ha1 ha2
    rw [h5c a ha1 ha2]
    field_simp
  refine ⟨fun i hi => ?_, fun i l hi hil hl => ?_, fun a b hb hba ha => ?_⟩
  · by_cases e : i = k
    · subst e
      rw [hUlow i i le_rfl hk, h5k]
      exact hd0
    · rw [hUlow i i (by omega) (by omega), h5low i i (by omega) (by omega)]
      exact hdiag i (by omega)
  · by_cases e : i = k
    · subst e
      rw [Finset.sum_range_succ, hsumk i l hk hl, hUlow i i le_rfl hk, hUlow l i le_rfl hl, h5k]
      by_cases e2 : l = i
      · subst e2
        rw [h5k, hd, htrail l l le_rfl le_rfl hl]
        ring
      · rw [hcol l (by omega) hl, htrail l i le_rfl hil hl,
          hsym _ _ (hperm.1 _ hl) (hperm.1 _ hk)]
        have : ∑ t in Finset.range i, A4 (i + n * t) * A4 (l + n * t)
            = ∑ t in Finset.range i, A4 (l + n * t) * A4 (i + n * t) :=
          Finset.sum_congr rfl (fun t _ => mul_comm _ _)
        rw [this]
        ring
    · have hik : i < k := by omega
      rw [← hstar i l hik hil hl]
      refine Finset.sum_congr rfl (fun t ht => ?_)
      have ht := Finset.mem_range.mp ht
      rw [hUlow i t (by omega) (by omega), hUlow l t (by omega) hl,
        h5low i t (by omega) (by omega), h5low l t (by omega) hl]
  · rw [Finset.sum_range_succ, hsumk a b ha (by omega), hU a b (by omega) hba ha,
      hUlow a k le_rfl ha, hUlow b k le_rfl (by omega), h5tr a b (by omega) ha,
      htrail a b (by omega) hba ha]
    ring

/-- One pass of the `k` loop of `mgcv_pchol` on a state that meets the invariant for `k`:
the pass leaves the loop and the invariant for `k` still holds, or it meets the invariant
for `k + 1`. -/
theorem pcholStep_inv [LinearOrderedField α] (sqrt : α → α) (eps : α)
    (cut : Nat → Nat → Nat → Nat) (A0 : Nat → α) (n k : Nat) (s : PcholState α)
    (hsq : ∀ x, 0 < x → sqrt x * sqrt x = x) (heps : 0 < eps) (hneps : (n : α) * eps ≤ 1)
    (hsym : ∀ a b, a < n → b < n → A0 (a + n * b) = A0 (b + n * a))
    (hk : k < n) (hinv : PcholInv A0 n k s) :
    ((pcholStep sqrt eps cut n k s).brk = true ∧
      PcholInv A0 n k (pcholStep sqrt eps cut n k s)) ∨
    ((pcholStep sqrt eps cut n k s).brk = false ∧
      PcholInv A0 n (k + 1) (pcholStep sqrt eps cut n k s)) := by
  obtain ⟨p1, p2, p3⟩ := pcholPivot_spec s.A n k hk
  unfold pcholStep
  simp only
  generalize pcholPivot s.A n k = xq at p1 p2 p3 ⊢
  obtain ⟨x, q⟩ := xq
  simp only at p1 p2 p3 ⊢
  by_cases c : x > (if k = 0 then (n : α) * x * eps else s.thresh)
  · rw [if_pos c]
    right
    refine ⟨rfl, ?_⟩
    have hx : 0 < x ∧ 0 ≤ (if k = 0 then (n : α) * x * eps else s.thresh) := by
      by_cases e : k = 0
      · rw [if_pos e] at c ⊢
        have hxp : 0 < x := by
          by_contra hle
          have hle : x ≤ 0 := not_lt.1 hle
          have := mul_nonneg (sub_nonneg.2 hneps) (neg_nonneg.2 hle)
          nlinarith
        exact ⟨hxp, mul_nonneg (mul_nonneg (Nat.cast_nonneg n) (le_of_lt hxp)) (le_of_lt heps)⟩
      · rw [if_neg e] at c ⊢
        have := hinv.thr (by omega)
        exact ⟨lt_of_le_of_lt this c, this⟩
    obtain ⟨w1, w2, w3, w4⟩ := lowSwap_inv A0 s.A _ s.piv (swapCells s.piv q k) n k q p1 p2
      hsym hinv.perm (fun a b hba ha => pcholSwap_spec s.A n k q p1 p2 a b hba ha)
      (fun i => by rw [swapCells_eq_comp, Equiv.swap_comm]) hinv.diag hinv.star hinv.trail
    have hperm1 := isPerm_swap n s.piv q k p2 hk hinv.perm
    generalize pcholSwapCols (pcholSwapRows (pcholSwapMid
      (swapCells s.A (k * n + k) (q * n + q)) n k q) n k q) n k q = A4 at w1 w2 w3 w4 ⊢
    generalize swapCells s.piv q k = piv1 at w2 w3 hperm1 ⊢
    obtain ⟨sc1, sc2, sc3⟩ := pcholScale_spec sqrt A4 n k hk
    generalize pcholScale sqrt A4 n k = A5 at sc1 sc2 sc3 ⊢
    obtain ⟨u1, u2⟩ := pcholUpdate_spec cut A5 n k s.m s.a hk (hinv.am hk).1 (hinv.am hk).2
      (hinv.a0 hk)
    obtain ⟨-, c2⟩ := pcholCuts_spec cut n k s.m s.a hk (hinv.am hk).1 (hinv.am hk).2
      (hinv.a0 hk)
    generalize pcholCuts cut n k s.m s.a = ma at u1 u2 c2 ⊢
    generalize pcholUpdate n k ma.1 ma.2 A5 = U at u1 u2 ⊢
    have hxa : A4 (k + n * k) = x := by rw [w4, p3]
    have hdd : sqrt (A4 (k + n * k)) * sqrt (A4 (k + n * k)) = A4 (k + n * k) :=
      hsq _ (by rw [hxa]; exact hx.1)
    have hd0 : sqrt (A4 (k + n * k)) ≠ 0 := by
      intro h
      rw [h, mul_zero, hxa] at hdd
      exact absurd hdd.symm (ne_of_gt hx.1)
    obtain ⟨f1, f2, f3⟩ := lowCol_inv A0 A4 A5 U piv1 n k (sqrt (A4 (k + n * k))) hk hsym
      hperm1 hdd hd0 sc1 sc2 sc3 u1 u2 w1 w2 w3
    exact {
      r := by show s.r + 1 = k + 1; rw [hinv.r]
      a0 := fun h => (c2 h).2.1
      am := fun h => ⟨(c2 h).1, (c2 h).2.2.2⟩
      perm := hperm1
      diag := f1
      star := f2
      trail := f3
      thr := fun _ => hx.2 }
  · rw [if_neg c]
    left
    refine ⟨rfl, ?_⟩
    exact {
      r := hinv.r
      a0 := hinv.a0
      am := hinv.am
      perm := hinv.perm
      diag := hinv.diag
      star := hinv.star
      trail := hinv.trail
      thr := fun h => by
        show 0 ≤ (if k = 0 then (n : α) * x * eps else s.thresh)
        rw [if_neg (by omega)]
        exact hinv.thr h }

/-- The `k` loop of `mgcv_pchol`: after `j` passes the state meets the invariant for some
`r ≤ j`, with `r = j` unless the loop has been left. -/
theorem pcholLoop_inv [LinearOrderedField α] (sqrt : α → α) (eps : α)
    (cut : Nat → Nat → Nat → Nat) (A0 : Nat → α) (n : Nat) (s0 : PcholState α)
    (hsq : ∀ x, 0 < x → sqrt x * sqrt x = x) (heps : 0 < eps) (hneps : (n : α) * eps ≤ 1)
    (hsym : ∀ a b, a < n → b < n → A0 (a + n * b) = A0 (b + n * a))
    (h0 : PcholInv A0 n 0 s0) (j : Nat) (hj : j ≤ n) :
    ∃ r, r ≤ j ∧
      PcholInv A0 n r (forLoop j
        (fun k (s : PcholState α) => if s.brk then s else pcholStep sqrt eps cut n k s) s0) ∧
      ((forLoop j
        (fun k (s : PcholState α) => if s.brk then s else pcholStep sqrt eps cut n k s)
          s0).brk = false → r = j) := by
  induction j with
  | zero => exact ⟨0, le_rfl, h0, fun _ => rfl⟩
  | succ j ih =>
    obtain ⟨r, hr, hinv, hbr⟩ := ih (by omega)
    rw [forLoop_succ]
    generalize forLoop j
      (fun k (s : PcholState α) => if s.brk then s else pcholStep sqrt eps cut n k s) s0 = S
      at hinv hbr ⊢
    by_cases c : S.brk = true
    · simp only [if_pos c]
      exact ⟨r, by omega, hinv, fun h => by rw [c] at h; exact absurd h (by decide)⟩
    · simp only [if_neg c]
      have hrj : r = j := hbr (by
        cases hb : S.brk
        · rfl
        · exact absurd hb c)
      subst hrj
      rcases pcholStep_inv sqrt eps cut A0 n r S hsq heps hneps hsym (by omega) hinv with
        ⟨h1, h2⟩ | ⟨h1, h2⟩
      · exact ⟨r, by omega, h2, fun h => by rw [h1] at h; exact absurd h (by decide)⟩
      · exact ⟨r + 1, le_rfl, h2, fun _ => rfl⟩

/-- Loop `for (Ak = A + r * *n;Ak<Aend;Ak++) *Ak = 0.0;` of `mgcv_pchol`: the columns from
`r` on are cleared. -/
theorem pcholWipe_cells [Zero α] (n r : Nat) (A : Nat → α) (a b : Nat) (ha : a < n)
    (hb : b < n) : pcholWipe n r A (a + n * b) = if r ≤ b then 0 else A (a + n * b) := by
  unfold pcholWipe
  obtain ⟨h1, h2⟩ := storeLoop_spec (n * n - r * n) (fun t => r * n + t)
    (fun _ (_ : α) => 0) A (fun i j _ _ h => by
      have h : r * n + i = r * n + j := h
      omega)
  have e1 := Nat.mul_le_mul_left n (show b + 1 ≤ n from hb)
  rw [Nat.mul_add, Nat.mul_one] at e1
  by_cases c : r ≤ b
  · rw [if_pos c]
    have e2 := Nat.mul_le_mul_right n c
    have e3 := Nat.mul_comm b n
    have := h1 (a + n * b - r * n) (by omega)
    rw [show r * n + (a + n * b - r * n) = a + n * b by omega] at this
    exact this
  · rw [if_neg c]
    refine h2 _ (fun t _ => ?_)
    have e2 := Nat.mul_le_mul_right n (show b + 1 ≤ r by omega)
    rw [Nat.add_mul, Nat.one_mul] at e2
    have e3 := Nat.mul_comm b n
    show a + n * b ≠ r * n + t
    omega

/-- Loop `{ *Aq = *Ak;*Ak=0.0; }` that moves the cells `z t` to the cells `w t` and zeroes
them, all these cells being different. -/
theorem moveCells_spec [Zero α] (w z : Nat → Nat) (m : Nat) (P : Nat → α)
    (hww : ∀ t t', t < m → t' < m → t ≠ t' → w t ≠ w t')
    (hzz : ∀ t t', t < m → t' < m → t ≠ t' → z t ≠ z t')
    (hwz : ∀ t t', t < m → t' < m → w t ≠ z t') :
    (∀ t, t < m →
      forLoop m (fun t R => store (store R (w t) (R (z t))) (z t) 0) P (w t) = P (z t) ∧
      forLoop m (fun t R => store (store R (w t) (R (z t))) (z t) 0) P (z t) = 0) ∧
    (∀ p, (∀ t, t < m → p ≠ w t ∧ p ≠ z t) →
      forLoop m (fun t R => store (store R (w t) (R (z t))) (z t) 0) P p = P p) := by
  induction m with
  | zero => exact ⟨fun t h => absurd h (Nat.not_lt_zero t), fun p _ => rfl⟩
  | succ m ih =>
    obtain ⟨h1, h2⟩ := ih (fun t t' ht ht' => hww t t' (by omega) (by omega))
      (fun t t' ht ht' => hzz t t' (by omega) (by omega))
      (fun t t' ht ht' => hwz t t' (by omega) (by omega))
    rw [forLoop_succ]
    generalize forLoop m (fun t R => store (store R (w t) (R (z t))) (z t) 0) P = O
      at h1 h2 ⊢
    clear ih
    refine ⟨?_, ?_⟩
    · intro t ht
      by_cases e : t = m
      · subst e
        refine ⟨?_, store_same _ _ _⟩
        rw [store_ne _ _ _ _ (hwz t t (by omega) (by omega)), store_same]
        exact h2 _ (fun t' ht' =>
          ⟨fun h => hwz t' t (by omega) (by omega) h.symm,
           hzz t t' (by omega) (by omega) (by omega)⟩)
      · rw [store_ne _ _ _ _ (hwz t m (by omega) (by omega)),
          store_ne _ _ _ _ (hww t m (by omega) (by omega) e),
          store_ne _ _ _ _ (hzz t m (by omega) (by omega) e),
          store_ne _ _ _ _ (fun h => hwz m t (by omega) (by omega) h.symm)]
        exact h1 t (by omega)
    · intro p hp
      rw [store_ne _ _ _ _ (hp m (by omega)).2, store_ne _ _ _ _ (hp m (by omega)).1]
      exact h2 p (fun t ht => hp t (by omega))

/-- Row `i` of the final transposition of `mgcv_pchol`: the entries below the diagonal of
column `i` go to row `i` and are cleared. -/
theorem pcholTransRow_spec [Zero α] (n i : Nat) (A : Nat → α) (hi : i < n) :
    (∀ l, i < l → l < n →
      pcholTransRow n i A (i + n * l) = A (l + n * i) ∧
      pcholTransRow n i A (l + n * i) = 0) ∧
    (∀ p, (∀ l, i < l → l < n → p ≠ i + n * l ∧ p ≠ l + n * i) →
      pcholTransRow n i A p = A p) := by
  unfold pcholTransRow
  rw [show i * n + n - (i * n + i + 1) = n - (i + 1) by omega]
  have ew : ∀ t, i * n + i + n + t * n = i + n * (i + 1 + t) := fun t => by ring
  have ez : ∀ t, i * n + i + 1 + t = (i + 1 + t) + n * i := fun t => by ring
  obtain ⟨h1, h2⟩ := moveCells_spec (fun t => i * n + i + n + t * n)
    (fun t => i * n + i + 1 + t) (n - (i + 1)) A
    (fun t t' ht ht' hne => by
      show i * n + i + n + t * n ≠ i * n + i + n + t' * n
      rw [ew, ew]
      intro h
      have := (cell_eq_iff n _ _ _ _ hi hi).1 h
      omega)
    (fun t t' ht ht' hne => by
      show i * n + i + 1 + t ≠ i * n + i + 1 + t'
      omega)
    (fun t t' ht ht' => by
      show i * n + i + n + t * n ≠ i * n + i + 1 + t'
      rw [ew, ez]
      intro h
      have := (cell_eq_iff n _ _ _ _ hi (by omega)).1 h
      omega)
  generalize forLoop (n - (i + 1)) (fun t A =>
    store (store A (i * n + i + n + t * n) (A (i * n + i + 1 + t))) (i * n + i + 1 + t) 0) A
    = T at h1 h2 ⊢
  constructor
  · intro l hl1 hl2
    have := h1 (l - (i + 1)) (by omega)
    rw [ew, ez, show i + 1 + (l - (i + 1)) = l by omega] at this
    exact this
  · intro p hp
    refine h2 p (fun t ht => ?_)
    have := hp (i + 1 + t) (by omega) (by omega)
    show p ≠ i * n + i + n + t * n ∧ p ≠ i * n + i + 1 + t
    rw [ew, ez]
    exact this

theorem pcholTransRow_skip [Zero α] (n i : Nat) (A : Nat → α) (hi : n ≤ i) :
    pcholTransRow n i A = A := by
  unfold pcholTransRow
  rw [show i * n + n - (i * n + i + 1) = 0 by omega]
  rfl

/-- The final transposition of `mgcv_pchol` over the rows `i < c`. -/
theorem pcholTrans_spec [Zero α] (n : Nat) (A : Nat → α) (c : Nat) (hc : c ≤ n) :
    (∀ i l, i < c → i < l → l < n →
      forLoop c (pcholTransRow n) A (i + n * l) = A (l + n * i) ∧
      forLoop c (pcholTransRow n) A (l + n * i) = 0) ∧
    (∀ p, (∀ i l, i < c → i < l → l < n → p ≠ i + n * l ∧ p ≠ l + n * i) →
      forLoop c (pcholTransRow n) A p = A p) := by
  induction c with
  | zero => exact ⟨fun i l h => absurd h (Nat.not_lt_zero i), fun p _ => rfl⟩
  | succ c ih =>
    obtain ⟨h1, h2⟩ := ih (by omega)
    rw [forLoop_succ]
    generalize forLoop c (pcholTransRow n) A = O at h1 h2 ⊢
    obtain ⟨g1, g2⟩ := pcholTransRow_spec n c O (by omega)
    constructor
    · intro i l hi hil hl
      by_cases e : i = c
      · subst e
        refine ⟨?_, (g1 l hil hl).2⟩
        rw [(g1 l hil hl).1]
        refine h2 _ (fun i' l' hi' hil' hl' => ⟨fun h => ?_, fun h => ?_⟩)
        · have := (cell_eq_iff n _ _ _ _ hl (by omega)).1 h
          omega
        · have := (cell_eq_iff n _ _ _ _ hl hl').1 h
          omega
      · have hne : ∀ p, (p = i + n * l ∨ p = l + n * i) →
            ∀ l', c < l' → l' < n → p ≠ c + n * l' ∧ p ≠ l' + n * c := by
          intro p hp l' hl1 hl2
          rcases hp with rfl | rfl
          · refine ⟨fun h => ?_, fun h => ?_⟩
            · have := (cell_eq_iff n _ _ _ _ (by omega) (by omega)).1 h
              omega
            · have := (cell_eq_iff n _ _ _ _ (by omega) hl2).1 h
              omega
          · refine ⟨fun h => ?_, fun h => ?_⟩
            · have := (cell_eq_iff n _ _ _ _ hl (by omega)).1 h
              omega
            · have := (cell_eq_iff n _ _ _ _ hl hl2).1 h
              omega
        rw [g2 _ (hne _ (Or.inl rfl)), g2 _ (hne _ (Or.inr rfl))]
        exact h1 i l (by omega) hil hl
    · intro p hp
      rw [g2 p (fun l hl1 hl2 => hp c l (by omega) hl1 hl2)]
      exact h2 p (fun i l hi hil hl => hp i l (by omega) hil hl)

/-- The factorisation computed by `mgcv_pchol` for a symmetric input: the returned rank `r`
is at most `n`, the pivot is a permutation, the first `r` diagonal entries of the factor
are not zero, its rows `i < r` reproduce the rows `i` of the permuted input from the
diagonal on, and the factor is zero below the diagonal and from row `r` on. -/
theorem pchol_done [LinearOrderedField α] (sqrt : α → α) (eps : α)
    (cut : Nat → Nat → Nat → Nat) (A : Nat → α) (piv : Nat → Nat) (n nt : Nat)
    (hsq : ∀ x, 0 < x → sqrt x * sqrt x = x) (heps : 0 < eps) (hneps : (n : α) * eps ≤ 1)
    (hsym : ∀ a b, a < n → b < n → A (a + n * b) = A (b + n * a)) :
    ∃ r : Nat, r ≤ n ∧ (mgcv_pchol sqrt eps cut A piv n nt).2.2 = r ∧
      BcholDone A n r (mgcv_pchol sqrt eps cut A piv n nt).1
        (mgcv_pchol sqrt eps cut A piv n nt).2.1 ∧
      ∀ i j, i < n → j < n → (j < i ∨ r ≤ i) →
        (mgcv_pchol sqrt eps cut A piv n nt).1 (i + n * j) = 0 := by
  have hp0 : ∀ i, i < n → forLoop n (fun i p => store p i i) piv i = i := fun i hi =>
    (storeLoop_spec n (fun i => i) (fun i _ => i) piv (fun _ _ _ _ h => h)).1 i hi
  have hm1 : 1 ≤ n →
      1 ≤ (if (if nt < 1 then 1 else nt) > n then n else (if nt < 1 then 1 else nt)) := by
    intro hn
    split_ifs <;> omega
  have hm2 : (if (if nt < 1 then 1 else nt) > n then n else (if nt < 1 then 1 else nt)) ≤ n := by
    split_ifs <;> omega
  unfold mgcv_pchol
  simp only
  generalize forLoop n (fun i p => store p i i) piv = piv0 at hp0 ⊢
  generalize (if (if nt < 1 then 1 else nt) > n then n else (if nt < 1 then 1 else nt)) = m
    at hm1 hm2 ⊢
  have h0 : PcholInv A n 0
      ({ A := A, piv := piv0, a := store (store (fun _ => 0) 0 0) m n, m := m, r := 0,
         thresh := 0, brk := false } : PcholState α) :=
    { r := rfl
      a0 := fun h => by
        show store (store (fun _ => 0) 0 0) m n 0 = 0
        rw [store_ne _ _ _ _ (by have := hm1 (by omega); omega), store_same]
      am := fun h => ⟨hm1 (by omega), by
        show n ≤ store (store (fun _ => 0) 0 0) m n m
        rw [store_same]⟩
      perm := isPerm_id n piv0 hp0
      diag := fun i hi => absurd hi (Nat.not_lt_zero i)
      star := fun i l hi => absurd hi (Nat.not_lt_zero i)
      trail := fun a b _ hba ha => by
        show A (a + n * b) = A (piv0 a + n * piv0 b) - _
        rw [hp0 a ha, hp0 b (by omega), Finset.sum_range_zero, sub_zero]
      thr := fun h => absurd h (by decide) }
  obtain ⟨r, hr, hinv, -⟩ := pcholLoop_inv sqrt eps cut A n _ hsq heps hneps hsym h0 n le_rfl
  generalize forLoop n
    (fun k (s : PcholState α) => if s.brk then s else pcholStep sqrt eps cut n k s)
    ({ A := A, piv := piv0, a := store (store (fun _ => 0) 0 0) m n, m := m, r := 0,
       thresh := 0, brk := false } : PcholState α) = S at hinv ⊢
  have hSr : S.r = r := hinv.r
  rw [pptBlocks_eq cut n m (store (store S.a 0 0) m n) (by
      by_cases e : m = 0
      · rw [e, store_same]
        omega
      · rw [store_ne _ _ _ _ (fun h => e h.symm), store_same]) (by rw [store_same]) _ _
    (fun i hi s => pcholTransRow_skip n i s hi), hSr]
  obtain ⟨t1, t2⟩ := pcholTrans_spec n (pcholWipe n r S.A) n le_rfl
  generalize forLoop n (pcholTransRow n) (pcholWipe n r S.A) = R at t1 t2 ⊢
  have hdiagR : ∀ i, i < n → R (i + n * i) = if r ≤ i then 0 else S.A (i + n * i) := by
    intro i hi
    rw [t2 _ (fun i' l' hi' hil' hl' => ⟨fun h => ?_, fun h => ?_⟩),
      pcholWipe_cells n r S.A i i hi hi]
    · have := (cell_eq_iff n _ _ _ _ hi hi').1 h
      omega
    · have := (cell_eq_iff n _ _ _ _ hi hl').1 h
      omega
  have hup : ∀ t x, t ≤ x → x < n → t < r → R (t + n * x) = S.A (x + n * t) := by
    intro t x htx hx ht
    by_cases e : t = x
    · subst e
      rw [hdiagR t hx, if_neg (by omega)]
    · rw [(t1 t x (by omega) (by omega) hx).1, pcholWipe_cells n r S.A x t hx (by omega),
        if_neg (by omega)]
  refine ⟨r, hr, rfl, ?_, ?_⟩
  · exact {
      pivlt := hinv.perm.1
      pivinj := hinv.perm.2.1
      pivsurj := hinv.perm.2.2
      diag := fun i hi => by
        rw [hup i i le_rfl (by omega) hi]
        exact hinv.diag i hi
      star := fun i l hi hil hl => by
        rw [← hinv.star i l hi hil hl]
        refine Finset.sum_congr rfl (fun t ht => ?_)
        have ht := Finset.mem_range.mp ht
        rw [hup t i (by omega) (by omega) (by omega), hup t l (by omega) hl (by omega)] }
  · intro i j hi hj hor
    by_cases c : j < i
    · exact (t1 j i hj c hi).2
    · have hri : r ≤ i := by omega
      by_cases e : i = j
      · subst e
        rw [hdiagR i hi, if_pos hri]
      · rw [(t1 i j hi (by omega) hj).1, pcholWipe_cells n r S.A j i hj hi, if_pos hri]

/-- The pivot array of `mgcv_pchol` is a permutation of `0 .. n - 1` for every input: each
pass exchanges two of its cells or leaves it as it is. -/
theorem pchol_perm [LinearOrderedField α] (sqrt : α → α) (eps : α)
    (cut : Nat → Nat → Nat → Nat) (A : Nat → α) (piv : Nat → Nat) (n nt : Nat) :
    IsPerm n (mgcv_pchol sqrt eps cut A piv n nt).2.1 := by
  have hp0 : ∀ i, i < n → forLoop n (fun i p => store p i i) piv i = i := fun i hi =>
    (storeLoop_spec n (fun i => i) (fun i _ => i) piv (fun _ _ _ _ h => h)).1 i hi
  unfold mgcv_pchol
  simp only
  generalize forLoop n (fun i p => store p i i) piv = piv0 at hp0 ⊢
  have key : ∀ j, j ≤ n → ∀ s0 : PcholState α, IsPerm n s0.piv →
      IsPerm n (forLoop j
        (fun k (s : PcholState α) => if s.brk then s else pcholStep sqrt eps cut n k s)
          s0).piv := by
    intro j
    induction j with
    | zero => exact fun _ _ h => h
    | succ j ih =>
      intro hj s0 h0
      have h1 := ih (by omega) s0 h0
      rw [forLoop_succ]
      generalize forLoop j
        (fun k (s : PcholState α) => if s.brk then s else pcholStep sqrt eps cut n k s) s0 = S
        at h1 ⊢
      by_cases c : S.brk = true
      · simp only [if_pos c]
        exact h1
      · simp only [if_neg c]
        obtain ⟨p1, p2, -⟩ := pcholPivot_spec S.A n j (by omega)
        unfold pcholStep
        simp only
        split_ifs
        all_goals first
          | exact isPerm_swap n S.piv _ j p2 (by omega) h1
          | exact h1
  exact key n le_rfl _ (isPerm_id n piv0 hp0)

end PcholProofs
/-! ## The pivot vectors of the four pivoted kernels -/

section PivotClaims
variable {α : Type}

/-- Pivot search of `mgcv_bchol` at column `j`, wherever the pointer `Ajn` stands: `q` is `j`
or a column in `j .. n - 1`. -/
theorem bcholPivot_lt [LinearOrderedField α] (A dots : Nat → α) (n j Ajn : Nat) (hj : j < n) :
    (bcholPivot A dots n j Ajn).2 < n := by
  unfold bcholPivot
  have key : ∀ m, (forLoop m (fun t (xq : α × Nat) =>
      let x := A (Ajn + j + t * (n + 1)) - dots (j + t)
      if x > xq.1 then (x, j + t) else xq) (-1, j)).2 < j + m ∨
      (forLoop m (fun t (xq : α × Nat) =>
      let x := A (Ajn + j + t * (n + 1)) - dots (j + t)
      if x > xq.1 then (x, j + t) else xq) (-1, j)).2 = j := by
    intro m
    induction m with
    | zero => exact Or.inr rfl
    | succ m ih =>
      rw [forLoop_succ]
      generalize forLoop m _ ((-1 : α), j) = xq at ih ⊢
      simp only
      split_ifs
      · exact Or.inl (by show j + m < j + (m + 1); omega)
      · rcases ih with h | h
        · exact Or.inl (by omega)
        · exact Or.inr h
  rcases key (n - j) with h | h
  · omega
  · rw [h]; exact hj

/-- One pass of the `j` loop of `mgcv_bchol` keeps `piv` a permutation. -/
theorem bcholCol_perm [LinearOrderedField α] (sqrt : α → α) (eps : α) (n k j : Nat)
    (s : BcholState α) (hj : j < n) (h : IsPerm n s.piv) :
    IsPerm n (bcholCol sqrt eps n k j s).piv := by
  unfold bcholCol
  simp only
  split_ifs
  all_goals first
    | exact h
    | exact isPerm_swap n s.piv j _ hj (bcholPivot_lt _ _ n j s.Ajn hj) h

/-- One pass of the `k` loop of `mgcv_bchol` keeps `piv` a permutation. -/
theorem bcholBlock_perm [LinearOrderedField α] (sqrt : α → α) (eps : α)
    (cut : Nat → Nat → Nat → Nat) (n nb kk : Nat) (s : BcholState α)
    (h : IsPerm n s.piv) : IsPerm n (bcholBlock sqrt eps cut n nb kk s).piv := by
  unfold bcholBlock
  by_cases c : s.stop = true
  · rw [if_pos c]
    exact h
  · rw [if_neg c]
    simp only
    have hjb : (if n - kk * nb < s.jb then n - kk * nb else s.jb) ≤ n - kk * nb := by
      split_ifs <;> omega
    generalize (if n - kk * nb < s.jb then n - kk * nb else s.jb) = jb at hjb ⊢
    have key : ∀ m, m ≤ jb → ∀ s0 : BcholState α, IsPerm n s0.piv →
        IsPerm n (forLoop m (fun t (s : BcholState α) =>
          if s.brk then s else bcholCol sqrt eps n (kk * nb) (kk * nb + t) s) s0).piv := by
      intro m
      induction m with
      | zero => exact fun _ _ h0 => h0
      | succ m ih =>
        intro hm s0 h0
        have h1 := ih (by omega) s0 h0
        rw [forLoop_succ]
        generalize forLoop m (fun t (s : BcholState α) =>
          if s.brk then s else bcholCol sqrt eps n (kk * nb) (kk * nb + t) s) s0 = S at h1 ⊢
        by_cases cb : S.brk = true
        · simp only [if_pos cb]
          exact h1
        · simp only [if_neg cb]
          exact bcholCol_perm sqrt eps n (kk * nb) (kk * nb + m) S (by omega) h1
    have h1 := key jb le_rfl
      { s with jb := jb, dots := forLoop (n - kk * nb) (fun t d => store d (kk * nb + t) 0) s.dots,
               j := kk * nb, brk := false } h
    generalize forLoop jb (fun t (s : BcholState α) =>
      if s.brk then s else bcholCol sqrt eps n (kk * nb) (kk * nb + t) s)
      { s with jb := jb, dots := forLoop (n - kk * nb) (fun t d => store d (kk * nb + t) 0) s.dots,
               j := kk * nb, brk := false } = S1 at h1 ⊢
    split_ifs
    all_goals exact h1

/-- The pivot array of `mgcv_bchol` is a permutation of `0 .. n - 1` for every input. -/
theorem bchol_perm [LinearOrderedField α] (sqrt : α → α) (eps : α)
    (cut : Nat → Nat → Nat → Nat) (A : Nat → α) (piv : Nat → Nat) (n nt nb : Nat) :
    IsPerm n (mgcv_bchol sqrt eps cut A piv n nt nb).2.1 := by
  have hp0 : ∀ i, i < n → forLoop n (fun i p => store p i i) piv i = i := fun i hi =>
    (storeLoop_spec n (fun i => i) (fun i _ => i) piv (fun _ _ _ _ h => h)).1 i hi
  unfold mgcv_bchol
  simp only
  generalize forLoop n (fun i p => store p i i) piv = piv0 at hp0 ⊢
  have key : ∀ m, ∀ s0 : BcholState α, IsPerm n s0.piv →
      IsPerm n (forLoop m (bcholBlock sqrt eps cut n nb) s0).piv := by
    intro m
    induction m with
    | zero => exact fun _ h0 => h0
    | succ m ih =>
      intro s0 h0
      rw [forLoop_succ]
      exact bcholBlock_perm sqrt eps cut n nb m _ (ih s0 h0)
  exact key _ _ (isPerm_id n piv0 hp0)

/-- Claim C12. The pivot vector of each pivoted kernel is a permutation, and column `i` of
the factor belongs to column `piv[i]` of the input. `mgcv_pchol`: for every `n` by `n` input
`piv` holds every index below `n` exactly once, and for a symmetric input the rows `i` below
the returned rank `r` of the factor `R` satisfy `Σ_{t ≤ i} R[t,i]·R[t,l] = A[piv i, piv l]`
for `i ≤ l < n`. `mgcv_bchol`: `piv` holds every index below `n` exactly once for every input,
and the same relation holds for a symmetric input with a positive diagonal entry and a block
size of at least 1. `bpqr` (`p ≤ m`, block size and thread count at least 1) and
`mgcv_piqr` (thread count at least 1): for every input the kernel returns (its loop ends
within the passes given), `piv` holds every index below `p` exactly once, and the product of
the `k` reflectors computed takes column `piv[c]` of the input to column `c` of the factor
(`QRInv`; `k = p` for `bpqr`).
The library function `sqrt` is a square root on the positive numbers, `0 < eps` and
`n * eps ≤ 1`, and `dlarfg` meets `DlarfgSpec`. -/
theorem pivots_are_permutations [LinearOrderedField α] (sqrt : α → α) (eps : α)
    (cut : Nat → Nat → Nat → Nat) (dlarfg : Nat → α → (Nat → α) → α × (Nat → α) × α)
    (tol : α) (openmp : Bool) (A : Nat → α) (pivA : Nat → Nat) (n ntA nb : Nat)
    (X : Nat → α) (pivX : Nat → Nat) (tau : Nat → α) (m p nbX ntX fuel : Nat)
    (Y : Nat → α) (pivY : Nat → Nat) (beta : Nat → α) (m2 p2 ntY fuel2 : Nat)
    (hsq : ∀ x, 0 < x → sqrt x * sqrt x = x) (heps : 0 < eps) (hneps : (n : α) * eps ≤ 1)
    (hnb : 1 ≤ nb) (hd : DlarfgSpec dlarfg) (hnbX : 1 ≤ nbX) (hntX : 1 ≤ ntX)
    (hpm : p ≤ m) (hfuel : p ≤ fuel) (hntY : 1 ≤ ntY) (hfuel2 : min m2 p2 ≤ fuel2) :
    (IsPerm n (mgcv_pchol sqrt eps cut A pivA n ntA).2.1 ∧
      ((∀ a b, a < n → b < n → A (a + n * b) = A (b + n * a)) →
        (mgcv_pchol sqrt eps cut A pivA n ntA).2.2 ≤ n ∧
        ∀ i l, i < (mgcv_pchol sqrt eps cut A pivA n ntA).2.2 → i ≤ l → l < n →
          ∑ t in Finset.range (i + 1),
            (mgcv_pchol sqrt eps cut A pivA n ntA).1 (t + n * i) *
            (mgcv_pchol sqrt eps cut A pivA n ntA).1 (t + n * l)
          = A ((mgcv_pchol sqrt eps cut A pivA n ntA).2.1 i
              + n * (mgcv_pchol sqrt eps cut A pivA n ntA).2.1 l))) ∧
    (IsPerm n (mgcv_bchol sqrt eps cut A pivA n ntA nb).2.1 ∧
      ((∀ a b, a < n → b < n → A (a + n * b) = A (b + n * a)) →
      (∃ i, i < n ∧ 0 < A (i + n * i)) →
      ∃ r : Nat, (mgcv_bchol sqrt eps cut A pivA n ntA nb).2.2 = (r : Int) ∧ r ≤ n ∧
        ∀ i l, i < r → i ≤ l → l < n →
          ∑ t in Finset.range (i + 1),
            (mgcv_bchol sqrt eps cut A pivA n ntA nb).1 (t + n * i) *
            (mgcv_bchol sqrt eps cut A pivA n ntA nb).1 (t + n * l)
          = A ((mgcv_bchol sqrt eps cut A pivA n ntA nb).2.1 i
              + n * (mgcv_bchol sqrt eps cut A pivA n ntA nb).2.1 l))) ∧
    (∃ (A1 tau1 : Nat → α) (piv1 : Nat → Nat),
      bpqr dlarfg tol X m p tau pivX nbX ntX fuel = some (A1, tau1, piv1, p) ∧
      IsPerm p piv1 ∧ QRInv X m p p A1 tau1 piv1) ∧
    (∃ (k : Nat) (A1 tau1 : Nat → α) (piv1 : Nat → Nat),
      mgcv_piqr dlarfg openmp Y m2 p2 beta pivY ntY fuel2 = some (A1, tau1, piv1, (k : Int)) ∧
      k ≤ min m2 p2 ∧ IsPerm p2 piv1 ∧ QRInv Y m2 p2 k A1 tau1 piv1) := by
  refine ⟨⟨pchol_perm sqrt eps cut A pivA n ntA, fun hsym => ?_⟩,
    ⟨bchol_perm sqrt eps cut A pivA n ntA nb, fun hsym hpos => ?_⟩, ?_, ?_⟩
  · obtain ⟨r, hr, h1, h2, -⟩ := pchol_done sqrt eps cut A pivA n ntA hsq heps hneps hsym
    rw [h1]
    exact ⟨hr, h2.star⟩
  · obtain ⟨r, -, hr, h1, h2, -⟩ :=
      bchol_done sqrt eps cut A pivA n ntA nb hsq heps hneps hpos hsym hnb
    exact ⟨r, h1, hr, h2.star⟩
  · obtain ⟨A1, tau1, piv1, h1, h2, h3, -⟩ :=
      bpqr_factor dlarfg hd tol X m p tau pivX nbX ntX fuel hnbX hntX hpm hfuel
    exact ⟨A1, tau1, piv1, h1, h2, h3⟩
  · exact piqr_factor dlarfg hd openmp Y m2 p2 beta pivY ntY fuel2 hntY hfuel2

/-- Witness for C12: the 2 by 2 identity matrix over the reals as the input of all four
kernels, with `Real.sqrt`, `eps = 2^-52` and the reference `dlarfg`; the matrix is symmetric
and has a positive diagonal entry. -/
theorem pivots_are_permutations_witness :
    ((∀ x : ℝ, 0 < x → Real.sqrt x * Real.sqrt x = x) ∧ (0 : ℝ) < 1 / 2 ^ 52 ∧
      ((2 : Nat) : ℝ) * (1 / 2 ^ 52) ≤ 1 ∧ 1 ≤ 2 ∧ DlarfgSpec (dlarfg_ref Real.sqrt) ∧
      1 ≤ 1 ∧ 1 ≤ 1 ∧ 2 ≤ 2 ∧ 2 ≤ 2 ∧ 1 ≤ 1 ∧ min 2 2 ≤ 2 ∧
      (∀ a b, a < 2 → b < 2 →
        (fun q => if q = 0 ∨ q = 3 then (1 : ℝ) else 0) (a + 2 * b)
          = (fun q => if q = 0 ∨ q = 3 then (1 : ℝ) else 0) (b + 2 * a)) ∧
      (∃ i, i < 2 ∧ (0 : ℝ) < (fun q => if q = 0 ∨ q = 3 then (1 : ℝ) else 0) (i + 2 * i))) ∧
    ((IsPerm 2 (mgcv_pchol Real.sqrt (1 / 2 ^ 52) (fun _ _ _ => 0)
        (fun q => if q = 0 ∨ q = 3 then (1 : ℝ) else 0) (fun _ => 0) 2 1).2.1 ∧
      ((∀ a b, a < 2 → b < 2 →
        (fun q => if q = 0 ∨ q = 3 then (1 : ℝ) else 0) (a + 2 * b)
          = (fun q => if q = 0 ∨ q = 3 then (1 : ℝ) else 0) (b + 2 * a)) →
        (mgcv_pchol Real.sqrt (1 / 2 ^ 52) (fun _ _ _ => 0)
          (fun q => if q = 0 ∨ q = 3 then (1 : ℝ) else 0) (fun _ => 0) 2 1).2.2 ≤ 2 ∧
        ∀ i l, i < (mgcv_pchol Real.sqrt (1 / 2 ^ 52) (fun _ _ _ => 0)
          (fun q => if q = 0 ∨ q = 3 then (1 : ℝ) else 0) (fun _ => 0) 2 1).2.2 → i ≤ l →
          l < 2 →
          ∑ t in Finset.range (i + 1),
            (mgcv_pchol Real.sqrt (1 / 2 ^ 52) (fun _ _ _ => 0)
              (fun q => if q = 0 ∨ q = 3 then (1 : ℝ) else 0) (fun _ => 0) 2 1).1 (t + 2 * i) *
            (mgcv_pchol Real.sqrt (1 / 2 ^ 52) (fun _ _ _ => 0)
              (fun q => if q = 0 ∨ q = 3 then (1 : ℝ) else 0) (fun _ => 0) 2 1).1 (t + 2 * l)
          = (fun q => if q = 0 ∨ q = 3 then (1 : ℝ) else 0)
              ((mgcv_pchol Real.sqrt (1 / 2 ^ 52) (fun _ _ _ => 0)
                (fun q => if q = 0 ∨ q = 3 then (1 : ℝ) else 0) (fun _ => 0) 2 1).2.1 i
              + 2 * (mgcv_pchol Real.sqrt (1 / 2 ^ 52) (fun _ _ _ => 0)
                (fun q => if q = 0 ∨ q = 3 then (1 : ℝ) else 0) (fun _ => 0) 2 1).2.1 l))) ∧
    (IsPerm 2 (mgcv_bchol Real.sqrt (1 / 2 ^ 52) (fun _ _ _ => 0)
        (fun q => if q = 0 ∨ q = 3 then (1 : ℝ) else 0) (fun _ => 0) 2 1 2).2.1 ∧
      ((∀ a b, a < 2 → b < 2 →
        (fun q => if q = 0 ∨ q = 3 then (1 : ℝ) else 0) (a + 2 * b)
          = (fun q => if q = 0 ∨ q = 3 then (1 : ℝ) else 0) (b + 2 * a)) →
      (∃ i, i < 2 ∧ (0 : ℝ) < (fun q => if q = 0 ∨ q = 3 then (1 : ℝ) else 0) (i + 2 * i)) →
      ∃ r : Nat, (mgcv_bchol Real.sqrt (1 / 2 ^ 52) (fun _ _ _ => 0)
          (fun q => if q = 0 ∨ q = 3 then (1 : ℝ) else 0) (fun _ => 0) 2 1 2).2.2 = (r : Int) ∧
        r ≤ 2 ∧
        ∀ i l, i < r → i ≤ l → l < 2 →
          ∑ t in Finset.range (i + 1),
            (mgcv_bchol Real.sqrt (1 / 2 ^ 52) (fun _ _ _ => 0)
              (fun q => if q = 0 ∨ q = 3 then (1 : ℝ) else 0) (fun _ => 0) 2 1 2).1
                (t + 2 * i) *
            (mgcv_bchol Real.sqrt (1 / 2 ^ 52) (fun _ _ _ => 0)
              (fun q => if q = 0 ∨ q = 3 then (1 : ℝ) else 0) (fun _ => 0) 2 1 2).1
                (t + 2 * l)
          = (fun q => if q = 0 ∨ q = 3 then (1 : ℝ) else 0)
              ((mgcv_bchol Real.sqrt (1 / 2 ^ 52) (fun _ _ _ => 0)
                (fun q => if q = 0 ∨ q = 3 then (1 : ℝ) else 0) (fun _ => 0) 2 1 2).2.1 i
              + 2 * (mgcv_bchol Real.sqrt (1 / 2 ^ 52) (fun _ _ _ => 0)
                (fun q => if q = 0 ∨ q = 3 then (1 : ℝ) else 0) (fun _ => 0) 2 1 2).2.1 l))) ∧
    (∃ (A1 tau1 : Nat → ℝ) (piv1 : Nat → Nat),
      bpqr (dlarfg_ref Real.sqrt) (1 / 2 ^ 41)
        (fun q => if q = 0 ∨ q = 3 then (1 : ℝ) else 0) 2 2 (fun _ => 0) (fun _ => 0) 1 1 2
        = some (A1, tau1, piv1, 2) ∧
      IsPerm 2 piv1 ∧
      QRInv (fun q => if q = 0 ∨ q = 3 then (1 : ℝ) else 0) 2 2 2 A1 tau1 piv1) ∧
    (∃ (k : Nat) (A1 tau1 : Nat → ℝ) (piv1 : Nat → Nat),
      mgcv_piqr (dlarfg_ref Real.sqrt) true
        (fun q => if q = 0 ∨ q = 3 then (1 : ℝ) else 0) 2 2 (fun _ => 0) (fun _ => 0) 1 2
        = some (A1, tau1, piv1, (k : Int)) ∧
      k ≤ min 2 2 ∧ IsPerm 2 piv1 ∧
      QRInv (fun q => if q = 0 ∨ q = 3 then (1 : ℝ) else 0) 2 2 k A1 tau1 piv1)) :=
  have hsq : ∀ x : ℝ, 0 < x → Real.sqrt x * Real.sqrt x = x :=
    fun x hx => Real.mul_self_sqrt (le_of_lt hx)
  have heps : (0 : ℝ) < 1 / 2 ^ 52 := by norm_num
  have hneps : ((2 : Nat) : ℝ) * (1 / 2 ^ 52) ≤ 1 := by norm_num
  have hd : DlarfgSpec (dlarfg_ref Real.sqrt) :=
    dlarfg_ref_spec Real.sqrt (fun y hy => ⟨Real.sqrt_nonneg y, Real.mul_self_sqrt hy⟩)
  ⟨⟨hsq, heps, hneps, by decide, hd, le_rfl, le_rfl, le_rfl, le_rfl, le_rfl, by decide,
    fun a b ha hb => by
      have h1 : a = 0 ∨ a = 1 := by omega
      have h2 : b = 0 ∨ b = 1 := by omega
      rcases h1 with rfl | rfl <;> rcases h2 with rfl | rfl <;> simp,
    ⟨0, by decide, by simp⟩⟩,
    pivots_are_permutations Real.sqrt (1 / 2 ^ 52) (fun _ _ _ => 0) (dlarfg_ref Real.sqrt)
      (1 / 2 ^ 41) true (fun q => if q = 0 ∨ q = 3 then (1 : ℝ) else 0) (fun _ => 0) 2 1 2
      (fun q => if q = 0 ∨ q = 3 then (1 : ℝ) else 0) (fun _ => 0) (fun _ => 0) 2 2 1 1 2
      (fun q => if q = 0 ∨ q = 3 then (1 : ℝ) else 0) (fun _ => 0) (fun _ => 0) 2 2 1 2
      hsq heps hneps (by decide) hd le_rfl le_rfl le_rfl le_rfl le_rfl (by decide)⟩

end PivotClaims

end Mgcv
